import Mathlib

/-!
# lcov++ : coverage reconstruction

A shallow embedding of `lcov++.cpp` (graph assembly, flow solver, line
attribution, aggregation) and theorems about it.

Conventions of the embedding.
* Pointers into a function's block array and to its arcs are indices: a block
  is its index in `function_info.blocks`, an arc is its index in
  `function_info.arcs` (arcs in the order they were allocated).
* The intrusive chains (`succ_next`, `pred_next`, `chain`, `line_next`, `next`)
  are lists of indices, head of the chain first.
* Strings are lists of characters.
* `gcov_type` is a signed 64-bit integer whose overflow is undefined in C++;
  it is embedded as `Int`.  The narrowing conversions to `int` performed by the
  aggregate tables are embedded explicitly (`toInt32`).
* A function whose run in C++ has no defined result (a read through a null
  pointer or outside an array, a loop that does not end) returns `none`, or
  `result.undefined`.
-/

namespace Lcov

/-! ## Data model (lcov++.cpp, lines 28-198) -/

/-- An arc between two basic blocks (`struct arc_info`). -/
structure arc_info where
  src : Nat
  dst : Nat
  count : Int
  cs_count : Int
  count_valid : Bool
  on_tree : Bool
  fake : Bool
  fall_through : Bool
  is_call_non_return : Bool
  is_nonlocal_return : Bool
  is_unconditional : Bool
  cycle : Bool
deriving DecidableEq, Repr

/-- The all-zero arc that `calloc` hands out. -/
def arc_info.zero : arc_info :=
  { src := 0, dst := 0, count := 0, cs_count := 0, count_valid := false,
    on_tree := false, fake := false, fall_through := false,
    is_call_non_return := false, is_nonlocal_return := false,
    is_unconditional := false, cycle := false }

instance : Inhabited arc_info := ⟨arc_info.zero⟩

/-- A basic block (`struct block_info`).  `succ` and `pred` are the chains of
exit and entry arcs; `line_encoding` is `u.line` (`none` for a null pointer),
`cycle_arc` and `cycle_ident` are `u.cycle`. -/
structure block_info where
  succ : List Nat
  pred : List Nat
  num_succ : Int
  num_pred : Int
  count : Int
  flags : Nat
  count_valid : Bool
  valid_chain : Bool
  invalid_chain : Bool
  is_call_site : Bool
  is_call_return : Bool
  is_nonlocal_return : Bool
  line_encoding : Option (List Nat)
  cycle_arc : Option Nat
  cycle_ident : Nat
deriving DecidableEq, Repr

/-- The all-zero block that `calloc` hands out. -/
def block_info.zero : block_info :=
  { succ := [], pred := [], num_succ := 0, num_pred := 0, count := 0, flags := 0,
    count_valid := false, valid_chain := false, invalid_chain := false,
    is_call_site := false, is_call_return := false, is_nonlocal_return := false,
    line_encoding := none, cycle_arc := none, cycle_ident := 0 }

instance : Inhabited block_info := ⟨block_info.zero⟩

/-- A function (`struct function_info`).  `blocks_seen` records that
`fn->blocks` is not null; `counts` is `none` while `fn->counts` is null;
`src` is the index of the owning source. -/
structure function_info where
  name : List Char
  ident : Nat
  checksum : Nat
  blocks : List block_info
  blocks_seen : Bool
  arcs : List arc_info
  blocks_executed : Nat
  counts : Option (List Int)
  num_counts : Nat
  line : Nat
  src : Nat
deriving DecidableEq, Repr

/-- The all-zero function that `calloc` hands out. -/
def function_info.zero : function_info :=
  { name := [], ident := 0, checksum := 0, blocks := [], blocks_seen := false,
    arcs := [], blocks_executed := 0, counts := none, num_counts := 0,
    line := 0, src := 0 }

instance : Inhabited function_info := ⟨function_info.zero⟩

/-- Number of blocks of a function (`fn->num_blocks`). -/
def function_info.num_blocks (fn : function_info) : Nat := fn.blocks.length

/-- Read of `blocks[i]`. -/
def blk (bs : List block_info) (i : Nat) : block_info := bs.getD i block_info.zero

/-- Read of the arc with index `a`. -/
def arc (as : List arc_info) (a : Nat) : arc_info := as.getD a arc_info.zero

/-- The value `~(unsigned)0` stored into a pending counter. -/
def saturated : Int := 4294967295

/-- Coverage totals of a file (`struct coverage_info`). -/
structure coverage_info where
  lines : Int
  lines_executed : Int
  branches : Int
  branches_executed : Int
  branches_taken : Int
  calls : Int
  calls_executed : Int
  name : List Char
deriving DecidableEq, Repr

/-- A line of source (`struct line_info`); `blocks` is the chain `u.blocks`
of blocks, each block named by its function and its index in that function. -/
structure line_info where
  count : Int
  blocks : List (Nat × Nat)
  «exists» : Bool
deriving DecidableEq, Repr

/-- The all-zero line that `calloc` hands out. -/
def line_info.zero : line_info := { count := 0, blocks := [], «exists» := false }

/-- A source file (`struct source_info`); `functions` is the chain of the
functions of this file (linked by `line_next`), `lines = none` is the null
pointer. -/
structure source_info where
  name : List Char
  index : Nat
  lines : Option (List line_info)
  num_lines : Nat
  coverage : coverage_info
  functions : List Nat
deriving DecidableEq, Repr

/-- The constructor `source_info()`. -/
def source_info.new : source_info :=
  { name := [], index := 0, lines := none, num_lines := 0,
    coverage := { lines := 0, lines_executed := 0, branches := 0, branches_executed := 0,
                  branches_taken := 0, calls := 0, calls_executed := 0, name := [] },
    functions := [] }

/-- The per-pair globals: every function and source allocated (a function or
source pointer is its index in `fns` or `srcs`), and the chains `functions`
and `sources`. -/
structure pair_state where
  fns : List function_info
  srcs : List source_info
  functions : List Nat
  sources : List Nat
  gcno_stamp : Nat
deriving DecidableEq, Repr

/-- The state left by `release_structures`. -/
def pair_state.empty : pair_state :=
  { fns := [], srcs := [], functions := [], sources := [], gcno_stamp := 0 }

/-- Read through a function pointer. -/
def pair_state.fn (p : pair_state) (f : Nat) : function_info := p.fns.getD f function_info.zero

/-- Read through a source pointer. -/
def pair_state.source (p : pair_state) (s : Nat) : source_info := p.srcs.getD s source_info.new

/-! ## find_source (lcov++.cpp, lines 526-567) -/

/-- Is `pat` a prefix of `s`. -/
def starts_with : List Char → List Char → Bool
  | [], _ => true
  | _ :: _, [] => false
  | p :: ps, c :: cs => p == c && starts_with ps cs

/-- The call `s.find(pat)`: first position where `pat` occurs. -/
def str_find (pat : List Char) : List Char → Option Nat
  | [] => if pat.isEmpty then some 0 else none
  | c :: cs =>
    if starts_with pat (c :: cs) then some 0
    else (str_find pat cs).map (fun i => i + 1)

/-- The call `s.rfind(ch, pos)`: last position `<= pos` holding `ch`. -/
def str_rfind (ch : Char) (s : List Char) (pos : Nat) : Option Nat :=
  ((List.range s.length).reverse.filter (fun i => decide (i ≤ pos) && (s.getD i ' ' == ch))).head?

/-- The value `std::string::npos` of a 64-bit `size_t`. -/
def npos : Nat := 2 ^ 64 - 1

/-- The call `s.erase(pos, len)`. -/
def str_erase (s : List Char) (pos len : Nat) : List Char :=
  s.take pos ++ s.drop (pos + len)

/-- Lines 544-553: the loop collapsing `/X/../`; `none` when the fuel ends. -/
def reduce_path : Nat → List Char → Option (List Char)
  | 0, _ => none
  | fuel + 1, filename =>
    match str_find "/../".toList filename with
    | none => some filename
    | some found =>
      match str_rfind '/' filename ((found + 2 ^ 64 - 1) % 2 ^ 64) with
      | some before =>
        reduce_path fuel (str_erase filename before ((found + 2 ^ 64 - before + 3) % 2 ^ 64))
      | none => some filename

/-- Lines 534-542: prefix a relative name with the directory of the note file. -/
def qualify_path (file_name gcnoFilename : List Char) : List Char :=
  if file_name.head? = some '/' then file_name
  else
    match str_rfind '/' gcnoFilename npos with
    | some position => gcnoFilename.take (position + 1) ++ file_name
    | none => file_name

/-- Lines 555-557: the search of the chain `sources` for a name. -/
def lookup_source (p : pair_state) (filename : List Char) : Option Nat :=
  p.sources.find? (fun s => (p.source s).name == filename)

/-- The function `find_source`: the source pointer and the new state; `none`
when the fuel of the reduction loop ends. -/
def find_source (fuel : Nat) (file_name gcnoFilename : List Char) (p : pair_state) :
    Option (Nat × pair_state) :=
  match reduce_path fuel (qualify_path file_name gcnoFilename) with
  | none => none
  | some filename =>
    match lookup_source p filename with
    | some s => some (s, p)
    | none =>
      let index := match p.sources with
        | [] => 1
        | h :: _ => (p.source h).index + 1
      let cov : coverage_info := { source_info.new.coverage with name := filename }
      let src : source_info := { source_info.new with name := filename, index := index, coverage := cov }
      some (p.srcs.length, { p with srcs := p.srcs ++ [src], sources := p.srcs.length :: p.sources })

/-! ## read_graph_file (lcov++.cpp, lines 572-824)

The binary reader `gcov-io.c` belongs to GCC; the note file is taken record by
record, as the reader delivers it. -/

/-- What a run of the code ends with: a value, the error return (`return 1`),
or no defined result (a null pointer is dereferenced, or a loop does not end
within the fuel). -/
inductive result (α : Type) where
  | ok : α → result α
  | error : result α
  | undefined : result α
deriving DecidableEq, Repr

/-- One item of a LINES record: a non-zero line number, or a zero followed by
a file name.  The terminator (zero, null string) is the end of the list. -/
inductive line_item where
  | lineno : Nat → line_item
  | file_name : List Char → line_item
deriving DecidableEq, Repr

/-- A record of the note file, by tag. `other` carries the value of
`GCOV_TAG_IS_SUBTAG (GCOV_TAG_FUNCTION, tag)`. -/
inductive note_record where
  | function (ident checksum : Nat) (name source : List Char) (lineno : Nat) : note_record
  | blocks (flags : List Nat) : note_record
  | arcs (src : Nat) (dests : List (Nat × Nat)) : note_record
  | lines (blockno : Nat) (items : List line_item) : note_record
  | other (is_subtag : Bool) : note_record
deriving DecidableEq, Repr

/-- A note file as the reader delivers it: whether the magic word matches,
the stamp, and the records, each with the value of `gcov_is_error ()` after
the `gcov_sync` that ends it. -/
structure note_file where
  magic_ok : Bool
  stamp : Nat
  records : List (note_record × Bool)
deriving DecidableEq, Repr

/-- The arc flag bits of GCC's `gcov-io.h`. -/
def GCOV_ARC_ON_TREE : Nat := 1
/-- The arc flag bits of GCC's `gcov-io.h`. -/
def GCOV_ARC_FAKE : Nat := 2
/-- The arc flag bits of GCC's `gcov-io.h`. -/
def GCOV_ARC_FALLTHROUGH : Nat := 4

/-- The test `!!(flags & bit)`. -/
def flag_set (flags bit : Nat) : Bool := decide (flags &&& bit ≠ 0)

/-- Locals of `read_graph_file` that live across records. -/
structure reader_state where
  pair : pair_state
  fn : Option Nat
  current_tag : Bool
  src : Option Nat
deriving DecidableEq, Repr

/-- Update through a function pointer. -/
def pair_state.set_fn (p : pair_state) (f : Nat) (v : function_info) : pair_state :=
  { p with fns := p.fns.set f v }

/-- Update through a source pointer. -/
def pair_state.set_source (p : pair_state) (s : Nat) (v : source_info) : pair_state :=
  { p with srcs := p.srcs.set s v }

/-- Lines 636-644: insert function `f` with first line `lineno` into the
chain of its source, before the first function whose line is not greater. -/
def insert_by_line (p : pair_state) (f lineno : Nat) : List Nat → List Nat
  | [] => [f]
  | probe :: rest =>
    if (p.fn probe).line > lineno then probe :: insert_by_line p f lineno rest
    else f :: probe :: rest

/-- Lines 611-645: a FUNCTION record. -/
def read_function (fuel : Nat) (gcno : List Char) (ident checksum : Nat)
    (name source : List Char) (lineno : Nat) (rs : reader_state) : result reader_state :=
  match find_source fuel source gcno rs.pair with
  | none => result.undefined
  | some (s, p1) =>
    let f := p1.fns.length
    let fn : function_info :=
      { function_info.zero with
        name := name, ident := ident, checksum := checksum, src := s, line := lineno }
    let p2 : pair_state := { p1 with fns := p1.fns ++ [fn], functions := f :: p1.functions }
    let S := p2.source s
    let S1 : source_info := if lineno ≥ S.num_lines then { S with num_lines := lineno + 1 } else S
    let S2 : source_info := { S1 with functions := insert_by_line p2 f lineno S1.functions }
    result.ok { rs with pair := p2.set_source s S2, fn := some f, current_tag := true }

/-- Lines 646-659: a BLOCKS record for the current function `f`. -/
def read_blocks (flags : List Nat) (f : Nat) (rs : reader_state) : reader_state :=
  let fn := rs.pair.fn f
  if fn.blocks_seen then rs
  else
    let bs := flags.map (fun w => { block_info.zero with flags := w % 2 ^ 13 })
    { rs with pair := rs.pair.set_fn f { fn with blocks := bs, blocks_seen := true } }

/-- Lines 670-714: one `(dest, flags)` pair of an ARCS record of block `src`;
`none` is the jump to `corrupt`. -/
def read_arc (src dest flags : Nat) (fn : function_info) : Option function_info :=
  if dest ≥ fn.num_blocks then none
  else
    let a := fn.arcs.length
    let fake := flag_set flags GCOV_ARC_FAKE
    let on_tree := flag_set flags GCOV_ARC_ON_TREE
    let A : arc_info :=
      { arc_info.zero with
        dst := dest, src := src, count := 0, count_valid := false,
        on_tree := on_tree, fake := fake,
        fall_through := flag_set flags GCOV_ARC_FALLTHROUGH,
        is_call_non_return := fake && decide (src ≠ 0),
        is_nonlocal_return := fake && decide (src = 0) }
    let S := blk fn.blocks src
    let bs1 := fn.blocks.set src { S with succ := a :: S.succ, num_succ := S.num_succ + 1 }
    let D := blk bs1 dest
    let bs2 := bs1.set dest { D with pred := a :: D.pred, num_pred := D.num_pred + 1 }
    let bs3 :=
      if fake then
        if src ≠ 0 then bs2.set src { blk bs2 src with is_call_site := true }
        else bs2.set dest { blk bs2 dest with is_nonlocal_return := true }
      else bs2
    some { fn with
      blocks := bs3, arcs := fn.arcs ++ [A],
      num_counts := if on_tree then fn.num_counts else fn.num_counts + 1 }

/-- Lines 668-714: the loop over the destinations of an ARCS record. -/
def read_arc_list (src : Nat) : List (Nat × Nat) → function_info → Option function_info
  | [], fn => some fn
  | (dest, flags) :: rest, fn =>
    match read_arc src dest flags fn with
    | none => none
    | some fn1 => read_arc_list src rest fn1

/-- Lines 660-715: an ARCS record for the current function `f`. -/
def read_arcs (src : Nat) (dests : List (Nat × Nat)) (f : Nat) (rs : reader_state) :
    result reader_state :=
  let fn := rs.pair.fn f
  if src ≥ fn.num_blocks ∨ (blk fn.blocks src).succ ≠ [] then result.error
  else
    match read_arc_list src dests fn with
    | none => result.error
    | some fn1 => result.ok { rs with pair := rs.pair.set_fn f fn1 }

/-- Locals of the loop of a LINES record: the buffer `line_nos` filled so
far (`ix` is its length). -/
structure lines_scan where
  rs : reader_state
  line_nos : List Nat
deriving DecidableEq, Repr

/-- Lines 727-750: one item of a LINES record.  The use of a null `src` has
no defined result. -/
def read_line_item (fuel : Nat) (gcno : List Char) (it : line_item) (ls : lines_scan) :
    result lines_scan :=
  match it with
  | line_item.lineno lineno =>
    match ls.rs.src with
    | none => result.undefined
    | some s =>
      let S := ls.rs.pair.source s
      let nos := if ls.line_nos = [] then [0, S.index] else ls.line_nos
      let S1 : source_info := if lineno ≥ S.num_lines then { S with num_lines := lineno + 1 } else S
      result.ok { rs := { ls.rs with pair := ls.rs.pair.set_source s S1 },
                  line_nos := nos ++ [lineno] }
  | line_item.file_name file_name =>
    match find_source fuel file_name gcno ls.rs.pair with
    | none => result.undefined
    | some (s, p1) =>
      result.ok { rs := { ls.rs with pair := p1, src := some s },
                  line_nos := ls.line_nos ++ [0, (p1.source s).index] }

/-- Lines 725-751: the loop over the items of a LINES record. -/
def read_line_items (fuel : Nat) (gcno : List Char) :
    List line_item → lines_scan → result lines_scan
  | [], ls => result.ok ls
  | it :: rest, ls =>
    match read_line_item fuel gcno it ls with
    | result.ok ls1 => read_line_items fuel gcno rest ls1
    | result.error => result.error
    | result.undefined => result.undefined

/-- Lines 716-755: a LINES record for the current function `f`. -/
def read_lines (fuel : Nat) (gcno : List Char) (blockno : Nat) (items : List line_item)
    (f : Nat) (rs : reader_state) : result reader_state :=
  let fn := rs.pair.fn f
  if blockno ≥ fn.num_blocks ∨ (blk fn.blocks blockno).line_encoding ≠ none then result.error
  else
    match read_line_items fuel gcno items { rs := rs, line_nos := [] } with
    | result.ok ls =>
      let fn1 := ls.rs.pair.fn f
      let B := blk fn1.blocks blockno
      result.ok { ls.rs with
        pair := ls.rs.pair.set_fn f
          { fn1 with blocks := fn1.blocks.set blockno { B with line_encoding := some ls.line_nos } } }
    | result.error => result.error
    | result.undefined => result.undefined

/-- Lines 611-760: the dispatch on the tag of one record. -/
def read_record (fuel : Nat) (gcno : List Char) (r : note_record) (rs : reader_state) :
    result reader_state :=
  let close : reader_state := { rs with fn := none, current_tag := false }
  match r, rs.fn with
  | note_record.function ident checksum name source lineno, _ =>
    read_function fuel gcno ident checksum name source lineno rs
  | note_record.blocks flags, some f => result.ok (read_blocks flags f rs)
  | note_record.arcs src dests, some f => read_arcs src dests f rs
  | note_record.lines blockno items, some f => read_lines fuel gcno blockno items f rs
  | note_record.other is_subtag, _ =>
    result.ok (if rs.current_tag && !is_subtag then close else rs)
  | _, none => result.ok rs

/-- Lines 606-770: the loop over the records. -/
def read_records (fuel : Nat) (gcno : List Char) :
    List (note_record × Bool) → reader_state → result reader_state
  | [], rs => result.ok rs
  | (r, sync_error) :: rest, rs =>
    match read_record fuel gcno r rs with
    | result.ok rs1 => if sync_error then result.error else read_records fuel gcno rest rs1
    | result.error => result.error
    | result.undefined => result.undefined

/-- Lines 799-819: reverse the two arc chains of every block of a function. -/
def reverse_arcs (fn : function_info) : function_info :=
  { fn with blocks := fn.blocks.map (fun b => { b with succ := b.succ.reverse, pred := b.pred.reverse }) }

/-- Lines 773-822: reverse the chain of sources, the chain of functions and
the arc chains. -/
def reverse_all (p : pair_state) : pair_state :=
  { p with
    sources := p.sources.reverse
    functions := p.functions.reverse
    fns := (List.range p.fns.length).map
      (fun f => if f ∈ p.functions then reverse_arcs (p.fn f) else p.fn f) }

/-- The function `read_graph_file`, from the state left by
`release_structures`; `none` is a file that cannot be opened. -/
def read_graph_file (fuel : Nat) (gcno : List Char) (file : Option note_file)
    (p : pair_state) : result pair_state :=
  match file with
  | none => result.error
  | some nf =>
    if !nf.magic_ok then result.error
    else
      match read_records fuel gcno nf.records
          { pair := { p with gcno_stamp := nf.stamp }, fn := none, current_tag := false, src := none } with
      | result.ok rs => result.ok (reverse_all rs.pair)
      | result.error => result.error
      | result.undefined => result.undefined

/-! ## Flow solver (lcov++.cpp, lines 935-1160) -/

/-- Working state of `solve_flow_graph`: the block array, the arcs, the
read position `count_ptr` in the counts buffer, and the two work-lists. -/
structure solve_state where
  blocks : List block_info
  arcs : List arc_info
  count_ptr : Nat
  invalid_blocks : List Nat
  valid_blocks : List Nat
deriving DecidableEq, Repr

/-- Lines 945-960: saturate the pending counters of the entry and exit
blocks.  Returns the blocks and the two warnings. -/
def solve_entry_exit (bs : List block_info) : List block_info × Bool × Bool :=
  if bs.length < 2 then (bs, false, false)
  else
    let w0 := decide ((blk bs 0).num_pred ≠ 0)
    let bs1 := if w0 then bs else bs.set 0 { blk bs 0 with num_pred := saturated }
    let last := bs.length - 1
    let w1 := decide ((blk bs1 last).num_succ ≠ 0)
    let bs2 := if w1 then bs1 else bs1.set last { blk bs1 last with num_succ := saturated }
    (bs2, w0, w1)

/-- Local variables of the first loop over the successors (lines 965-985). -/
structure succ_scan where
  prev_dst : Option Nat
  out_of_order : Bool
  non_fake_succ : Nat
deriving DecidableEq, Repr

/-- Lines 969-985 for one arc `a` of block `ix`.  `none` is a read past the
end of the counts buffer. -/
def solve_scan_arc (counts : Option (List Int)) (ix a : Nat)
    (st : solve_state) (sc : succ_scan) : Option (solve_state × succ_scan) :=
  let A := arc st.arcs a
  let nf := if A.fake then sc.non_fake_succ else sc.non_fake_succ + 1
  let r : Option solve_state :=
    if A.on_tree then some st
    else
      let rd : Option (Int × Nat) :=
        match counts with
        | none => some (A.count, st.count_ptr)
        | some cs =>
          match cs.get? st.count_ptr with
          | none => none
          | some v => some (v, st.count_ptr + 1)
      match rd with
      | none => none
      | some (v, p) =>
        let arcs1 := st.arcs.set a { A with count := v, count_valid := true }
        let bs1 := st.blocks.set ix { blk st.blocks ix with num_succ := (blk st.blocks ix).num_succ - 1 }
        let bs2 := bs1.set A.dst { blk bs1 A.dst with num_pred := (blk bs1 A.dst).num_pred - 1 }
        some { st with blocks := bs2, arcs := arcs1, count_ptr := p }
  match r with
  | none => none
  | some st1 =>
    let ooo := match sc.prev_dst with
      | none => sc.out_of_order
      | some p => if p > A.dst then true else sc.out_of_order
    some (st1, { prev_dst := some A.dst, out_of_order := ooo, non_fake_succ := nf })

/-- Lines 969-985: the loop over the successor chain of block `ix`. -/
def solve_scan (counts : Option (List Int)) (ix : Nat) :
    List Nat → solve_state → succ_scan → Option (solve_state × succ_scan)
  | [], st, sc => some (st, sc)
  | a :: rest, st, sc =>
    match solve_scan_arc counts ix a st sc with
    | none => none
    | some (st1, sc1) => solve_scan counts ix rest st1 sc1

/-- Lines 989-1001 for one arc: mark the only non-fake exit unconditional
and, for a call site, its destination as a call return. -/
def solve_mark_arc (ix a : Nat) (st : solve_state) : solve_state :=
  let A := arc st.arcs a
  if A.fake then st
  else
    let arcs1 := st.arcs.set a { A with is_unconditional := true }
    let B := blk st.blocks ix
    let D := blk st.blocks A.dst
    if B.is_call_site && A.fall_through && decide (D.pred = [a]) then
      { st with arcs := arcs1, blocks := st.blocks.set A.dst { D with is_call_return := true } }
    else { st with arcs := arcs1 }

/-- Lines 989-1001: the loop over the successor chain. -/
def solve_mark (ix : Nat) (succ : List Nat) (st : solve_state) : solve_state :=
  succ.foldl (fun s a => solve_mark_arc ix a s) st

/-- One pass of the inner `for` of the sort (lines 1018-1036): `a` is the
current `arc`, the list is the chain after it; the flag tells whether
`changes` was set. -/
def sort_pass (as : List arc_info) (a : Nat) : List Nat → List Nat × Bool
  | [] => ([a], false)
  | n :: rest =>
    if (arc as a).dst > (arc as n).dst then
      (n :: (sort_pass as a rest).1, true)
    else
      (a :: (sort_pass as n rest).1, (sort_pass as n rest).2)

/-- The `while (changes)` loop of the sort (lines 1013-1037); `none` when the
fuel runs out before a pass without change (or `start` is null). -/
def sort_loop (as : List arc_info) : Nat → List Nat → Option (List Nat)
  | 0, _ => none
  | fuel + 1, start =>
    match start with
    | [] => none
    | a :: rest =>
      let r := sort_pass as a rest
      if r.2 then sort_loop as fuel r.1 else some r.1

/-- Lines 963-1045 for block `ix`. -/
def solve_setup_block (fuel : Nat) (counts : Option (List Int)) (ix : Nat)
    (st : solve_state) : Option solve_state :=
  match solve_scan counts ix (blk st.blocks ix).succ st
      { prev_dst := none, out_of_order := false, non_fake_succ := 0 } with
  | none => none
  | some (st1, sc) =>
    let st2 := if sc.non_fake_succ = 1 then solve_mark ix (blk st1.blocks ix).succ st1 else st1
    let st3 : Option solve_state :=
      if sc.out_of_order then
        match sort_loop st2.arcs fuel (blk st2.blocks ix).succ with
        | none => none
        | some s => some { st2 with blocks := st2.blocks.set ix { blk st2.blocks ix with succ := s } }
      else some st2
    match st3 with
    | none => none
    | some st4 =>
      some { st4 with
        blocks := st4.blocks.set ix { blk st4.blocks ix with invalid_chain := true }
        invalid_blocks := ix :: st4.invalid_blocks }

/-- Lines 963-1045: the loop over the blocks `ix, ix+1, ..` (`todo` of them). -/
def solve_setup (fuel : Nat) (counts : Option (List Int)) :
    Nat → Nat → solve_state → Option solve_state
  | 0, _, st => some st
  | todo + 1, ix, st =>
    match solve_setup_block fuel counts ix st with
    | none => none
    | some st1 => solve_setup fuel counts todo (ix + 1) st1

/-- Sum of the counts of a chain of arcs (the `total += arc->count` loops). -/
def sum_counts (as : List arc_info) (l : List Nat) : Int :=
  (l.map (fun a => (arc as a).count)).sum

/-- The arc left in `inv_arc` by the loops at lines 1084-1089 and 1120-1125:
the last arc of the chain whose count is not valid. -/
def find_inv_arc (as : List arc_info) : List Nat → Option Nat → Option Nat
  | [], r => r
  | a :: rest, r => find_inv_arc as rest (if (arc as a).count_valid then r else some a)

/-- Lines 1049-1070: the body of the loop draining the invalid work-list,
for the block `b` at its head. -/
def solve_invalid_step (b : Nat) (st : solve_state) : solve_state :=
  let B := { blk st.blocks b with invalid_chain := false }
  let st1 := { st with invalid_blocks := st.invalid_blocks.tail, blocks := st.blocks.set b B }
  let total : Option Int :=
    if B.num_succ = 0 then some (sum_counts st.arcs B.succ)
    else if B.num_pred = 0 then some (sum_counts st.arcs B.pred)
    else none
  match total with
  | none => st1
  | some t =>
    { st1 with
      blocks := st1.blocks.set b { B with count := t, count_valid := true, valid_chain := true }
      valid_blocks := b :: st1.valid_blocks }

/-- Lines 1095-1112 and 1131-1148: after an arc was deduced, put its other
end `o` on a work-list; `pending` reads the counter that was decremented. -/
def solve_requeue (o : Nat) (pending : block_info → Int) (st : solve_state) : solve_state :=
  let O := blk st.blocks o
  if O.count_valid then
    if pending O = 1 ∧ O.valid_chain = false then
      { st with blocks := st.blocks.set o { O with valid_chain := true }
                valid_blocks := o :: st.valid_blocks }
    else st
  else
    if pending O = 0 ∧ O.invalid_chain = false then
      { st with blocks := st.blocks.set o { O with invalid_chain := true }
                invalid_blocks := o :: st.invalid_blocks }
    else st

/-- Lines 1078-1113: deduce the only invalid exit arc of block `b`.  `none`
is the dereference of a null `inv_arc`. -/
def solve_valid_succ (b : Nat) (st : solve_state) : Option solve_state :=
  let B := blk st.blocks b
  if B.num_succ = 1 then
    let total := B.count - sum_counts st.arcs B.succ
    match find_inv_arc st.arcs B.succ none with
    | none => none
    | some ia =>
      let dst := (arc st.arcs ia).dst
      let arcs1 := st.arcs.set ia { arc st.arcs ia with count_valid := true, count := total }
      let bs1 := st.blocks.set b { B with num_succ := B.num_succ - 1 }
      let bs2 := bs1.set dst { blk bs1 dst with num_pred := (blk bs1 dst).num_pred - 1 }
      some (solve_requeue dst (fun x => x.num_pred) { st with arcs := arcs1, blocks := bs2 })
  else some st

/-- Lines 1114-1149: deduce the only invalid entry arc of block `b`. -/
def solve_valid_pred (b : Nat) (st : solve_state) : Option solve_state :=
  let B := blk st.blocks b
  if B.num_pred = 1 then
    let total := B.count - sum_counts st.arcs B.pred
    match find_inv_arc st.arcs B.pred none with
    | none => none
    | some ia =>
      let src := (arc st.arcs ia).src
      let arcs1 := st.arcs.set ia { arc st.arcs ia with count_valid := true, count := total }
      let bs1 := st.blocks.set b { B with num_pred := B.num_pred - 1 }
      let bs2 := bs1.set src { blk bs1 src with num_succ := (blk bs1 src).num_succ - 1 }
      some (solve_requeue src (fun x => x.num_succ) { st with arcs := arcs1, blocks := bs2 })
  else some st

/-- Lines 1071-1150: the body of the loop draining the valid work-list, for
the block `b` at its head. -/
def solve_valid_step (b : Nat) (st : solve_state) : Option solve_state :=
  let st1 := { st with valid_blocks := st.valid_blocks.tail
                       blocks := st.blocks.set b { blk st.blocks b with valid_chain := false } }
  match solve_valid_succ b st1 with
  | none => none
  | some st2 => solve_valid_pred b st2

/-- Lines 1047-1151: the fixed-point loop.  `in_valid` tells that control is
inside the inner loop over `valid_blocks`; each unit of fuel pops one block.
`none` is a crash or the end of the fuel. -/
def solve_loop : Nat → Bool → solve_state → Option solve_state
  | 0, _, st =>
    match st.invalid_blocks, st.valid_blocks with
    | [], [] => some st
    | _, _ => none
  | fuel + 1, in_valid, st =>
    match in_valid, st.invalid_blocks, st.valid_blocks with
    | _, [], [] => some st
    | false, b :: _, _ => solve_loop fuel false (solve_invalid_step b st)
    | false, [], v :: _ =>
      match solve_valid_step v st with
      | none => none
      | some st1 => solve_loop fuel true st1
    | true, _, v :: _ =>
      match solve_valid_step v st with
      | none => none
      | some st1 => solve_loop fuel true st1
    | true, b :: _, [] => solve_loop fuel false (solve_invalid_step b st)

/-- The function `solve_flow_graph` (lines 935-1160).  `fuel` bounds the
iterations of each `while` loop; `none` is a crash, a read past the end of
the counts buffer, or the end of the fuel. -/
def solve_flow_graph (fuel : Nat) (fn : function_info) : Option function_info :=
  let bs := (solve_entry_exit fn.blocks).1
  match solve_setup fuel fn.counts fn.num_blocks 0
      { blocks := bs, arcs := fn.arcs, count_ptr := 0, invalid_blocks := [], valid_blocks := [] } with
  | none => none
  | some st =>
    match solve_loop fuel false st with
    | none => none
    | some st1 => some { fn with blocks := st1.blocks, arcs := st1.arcs }

/-- Number of counts read by `solve_flow_graph` from the counts buffer (the
final value of `count_ptr - fn->counts`). -/
def solve_counts_read (fuel : Nat) (fn : function_info) : Option Nat :=
  let bs := (solve_entry_exit fn.blocks).1
  match solve_setup fuel fn.counts fn.num_blocks 0
      { blocks := bs, arcs := fn.arcs, count_ptr := 0, invalid_blocks := [], valid_blocks := [] } with
  | none => none
  | some st => some st.count_ptr

/-! ## read_count_file (lcov++.cpp, lines 830-929) -/

/-- A record of the data file, by tag.  `arc_counts` carries the length word
of the record and the counters that `gcov_read_counter` delivers. -/
inductive data_record where
  | object_summary : data_record
  | program_summary : data_record
  | function (ident checksum : Nat) : data_record
  | arc_counts (length : Nat) (values : List Int) : data_record
  | other : data_record
deriving DecidableEq, Repr

/-- A data file as the reader delivers it. -/
structure data_file where
  magic_ok : Bool
  stamp : Nat
  records : List (data_record × Bool)
deriving DecidableEq, Repr

/-- Lines 880-895: the search for identity `ident`, from the position `cur`
of the last matched function in the chain `functions`: first the functions
after it, then the whole chain from its head. -/
def find_function (p : pair_state) (cur : Option Nat) (ident : Nat) : Option Nat :=
  let n := p.functions.length
  let after : List Nat := match cur with
    | none => []
    | some c => (List.range n).drop (c + 1)
  (after ++ List.range n).find? (fun i => (p.fn (p.functions.getD i 0)).ident == ident)

/-- Lines 913-917: add the counters read into the counts buffer. -/
def add_counts (fn : function_info) (values : List Int) : function_info :=
  let old := match fn.counts with
    | none => List.replicate fn.num_counts (0 : Int)
    | some cs => cs
  { fn with counts := some ((List.range fn.num_counts).map (fun ix => old.getD ix 0 + values.getD ix 0)) }

/-- Lines 873-918: one record of the data file; the state is the pair and
the position `fn` of the current function. -/
def read_count_record (r : data_record) (st : pair_state × Option Nat) :
    result (pair_state × Option Nat) :=
  match r with
  | data_record.object_summary => result.ok st
  | data_record.program_summary => result.ok st
  | data_record.function ident checksum =>
    match find_function st.1 st.2 ident with
    | none => result.ok (st.1, none)
    | some i =>
      if checksum ≠ (st.1.fn (st.1.functions.getD i 0)).checksum then result.error
      else result.ok (st.1, some i)
  | data_record.arc_counts length values =>
    match st.2 with
    | none => result.ok st
    | some i =>
      let f := st.1.functions.getD i 0
      let fn := st.1.fn f
      if length ≠ 2 * fn.num_counts then result.error
      else result.ok (st.1.set_fn f (add_counts fn values), some i)
  | data_record.other => result.ok st

/-- Lines 868-925: the loop over the records. -/
def read_count_records :
    List (data_record × Bool) → pair_state × Option Nat → result (pair_state × Option Nat)
  | [], st => result.ok st
  | (r, sync_error) :: rest, st =>
    match read_count_record r st with
    | result.ok st1 => if sync_error then result.error else read_count_records rest st1
    | result.error => result.error
    | result.undefined => result.undefined

/-- The function `read_count_file`; `none` is a file that cannot be opened. -/
def read_count_file (file : Option data_file) (p : pair_state) : result pair_state :=
  match file with
  | none => result.error
  | some df =>
    if !df.magic_ok then result.error
    else if df.stamp ≠ p.gcno_stamp then result.error
    else
      match read_count_records df.records (p, none) with
      | result.ok st => result.ok st.1
      | result.error => result.error
      | result.undefined => result.undefined

/-! ## add_line_counts (lcov++.cpp, lines 1281-1339), all-blocks mode -/

/-- Update of `src->lines[l]` through a source pointer. -/
def pair_state.upd_line (p : pair_state) (s l : Nat) (g : line_info → line_info) : pair_state :=
  let S := p.source s
  match S.lines with
  | none => p
  | some ls => p.set_source s { S with lines := some (ls.set l (g (ls.getD l line_info.zero))) }

/-- Read of `src->lines[l]`. -/
def pair_state.line (p : pair_state) (s l : Nat) : line_info :=
  match (p.source s).lines with
  | none => line_info.zero
  | some ls => ls.getD l line_info.zero

/-- Lines 1297-1312: the walk over the line encoding of a block with count
`count`; `src` is the current source, `line` the last line seen (a source
and a line number).  Using a null `src` has no defined result. -/
def scan_encoding (count : Int) :
    List Nat → Option Nat → Option (Nat × Nat) → pair_state → result (pair_state × Option (Nat × Nat))
  | [], _, line, p => result.ok (p, line)
  | [0], _, _, _ => result.undefined
  | 0 :: src_n :: rest, _, line, p =>
    match p.sources.find? (fun s => (p.source s).index == src_n) with
    | none => result.undefined
    | some s => scan_encoding count rest (some s) line p
  | (l + 1) :: rest, src, _, p =>
    match src with
    | none => result.undefined
    | some s =>
      scan_encoding count rest src (some (s, l + 1))
        (p.upd_line s (l + 1) (fun L => { L with «exists» := true, count := L.count + count }))

/-- Lines 1290-1335: the body of the loop for block `ix` of function `f`. -/
def add_line_counts_block (f ix : Nat) (st : pair_state × Option (Nat × Nat)) :
    result (pair_state × Option (Nat × Nat)) :=
  let fn := st.1.fn f
  let B := blk fn.blocks ix
  let interior : Bool := decide (ix ≠ 0) && decide (ix + 1 ≠ fn.num_blocks)
  let executed := if B.count ≠ 0 ∧ interior then fn.blocks_executed + 1 else fn.blocks_executed
  match scan_encoding B.count (B.line_encoding.getD []) none st.2 st.1 with
  | result.ok (p1, line) =>
    let B1 : block_info := { B with line_encoding := none, cycle_arc := none, cycle_ident := 4294967295 }
    let p2 := p1.set_fn f { fn with blocks := fn.blocks.set ix B1, blocks_executed := executed }
    if interior then
      let block_line := match line with
        | some sl => sl
        | none => (fn.src, fn.line)
      result.ok (p2.upd_line block_line.1 block_line.2
        (fun L => { L with blocks := (f, ix) :: L.blocks }), line)
    else result.ok (p2, line)
  | result.error => result.error
  | result.undefined => result.undefined

/-- Lines 1288-1336: the loop over the blocks `ix, ix+1, ..` (`todo` of them). -/
def add_line_counts_loop (f : Nat) :
    Nat → Nat → pair_state × Option (Nat × Nat) → result (pair_state × Option (Nat × Nat))
  | 0, _, st => result.ok st
  | todo + 1, ix, st =>
    match add_line_counts_block f ix st with
    | result.ok st1 => add_line_counts_loop f todo (ix + 1) st1
    | result.error => result.error
    | result.undefined => result.undefined

/-- The function `add_line_counts` for function `f`. -/
def add_line_counts (f : Nat) (p : pair_state) : result pair_state :=
  match add_line_counts_loop f (p.fn f).num_blocks 0 (p, none) with
  | result.ok st => result.ok st.1
  | result.error => result.error
  | result.undefined => result.undefined

/-! ## accumulate_line_counts (lcov++.cpp, lines 1344-1523), all-blocks mode -/

/-- The function `add_branch_counts`; `src_count` is `arc->src->count`. -/
def add_branch_counts (c : coverage_info) (A : arc_info) (src_count : Int) : coverage_info :=
  if A.is_call_non_return then
    { c with
      calls := c.calls + 1
      calls_executed := if src_count ≠ 0 then c.calls_executed + 1 else c.calls_executed }
  else if !A.is_unconditional then
    { c with
      branches := c.branches + 1
      branches_executed := if src_count ≠ 0 then c.branches_executed + 1 else c.branches_executed
      branches_taken := if A.count ≠ 0 then c.branches_taken + 1 else c.branches_taken }
  else c

/-- Lines 1403-1409: the loop over the entry arcs of a block of line `ix`. -/
def sum_entry_arcs (ix : Nat) (fn : function_info) :
    List Nat → Int × coverage_info → Int × coverage_info
  | [], r => r
  | a :: rest, (count, c) =>
    let A := arc fn.arcs a
    let S := blk fn.blocks A.src
    sum_entry_arcs ix fn rest
      (if S.cycle_ident ≠ ix then count + A.count else count, add_branch_counts c A S.count)

/-- Lines 1412-1413: initialise `cs_count` on the exit arcs of a block. -/
def init_cs_count (as : List arc_info) (succ : List Nat) : List arc_info :=
  succ.foldl (fun l a => l.set a { arc l a with cs_count := (arc l a).count }) as

/-- The arcs after `a` on the exit chain of its source block (`a->succ_next`
and what follows). -/
def succ_next (fn : function_info) (a : Nat) : List Nat :=
  ((blk fn.blocks (arc fn.arcs a).src).succ.dropWhile (fun x => x != a)).tail

/-- Lines 1464-1470: walk back from `dst` along the arcs held in
`u.cycle.arc`, keeping the smallest `cs_count` and its arc. -/
def cycle_minimum (fn : function_info) : Nat → Nat → Int × Nat → Option (Int × Nat)
  | 0, _, _ => none
  | fuel + 1, dst, (cycle_count, cycle_arc) =>
    match (blk fn.blocks dst).cycle_arc with
    | none => some (cycle_count, cycle_arc)
    | some probe_arc =>
      cycle_minimum fn fuel (arc fn.arcs probe_arc).src
        (if cycle_count > (arc fn.arcs probe_arc).cs_count
         then ((arc fn.arcs probe_arc).cs_count, probe_arc) else (cycle_count, cycle_arc))

/-- Lines 1477-1479: remove the flow `cycle_count` from the arcs of the path. -/
def cycle_remove (cycle_count : Int) : Nat → Nat → function_info → Option function_info
  | 0, _, _ => none
  | fuel + 1, dst, fn =>
    match (blk fn.blocks dst).cycle_arc with
    | none => some fn
    | some probe_arc =>
      let P := arc fn.arcs probe_arc
      cycle_remove cycle_count fuel P.src
        { fn with arcs := fn.arcs.set probe_arc { P with cs_count := P.cs_count - cycle_count } }

/-- Lines 1482-1487: unwind the path to the source of the cyclic arc; returns
the function, the new `head` and the new `arc`. -/
def cycle_unwind (target : Nat) : Nat → Nat → Nat → function_info → Option (function_info × Nat × Nat)
  | 0, _, _, _ => none
  | fuel + 1, head, a, fn =>
    if head ≠ target then
      match (blk fn.blocks head).cycle_arc with
      | none => none
      | some a1 =>
        cycle_unwind target fuel (arc fn.arcs a1).src a1
          { fn with blocks := fn.blocks.set head { blk fn.blocks head with cycle_arc := none } }
    else some (fn, head, a)

/-- State of the search started at one block of a line: the function, the
running line count, `head`, and the exit chain from `arc` on. -/
structure cycle_state where
  fn : function_info
  count : Int
  head : Nat
  arc : List Nat
deriving DecidableEq, Repr

/-- Lines 1437-1510: the search for the cycles through `block` on the line
with identity `ix`; each unit of fuel is one turn of `while (arc)` or one
backtrack.  `none` is a crash or the end of the fuel. -/
def cycle_search (ix block : Nat) : Nat → cycle_state → Option (function_info × Int)
  | 0, _ => none
  | fuel + 1, st =>
    match st.arc with
    | [] =>
      match (blk st.fn.blocks st.head).cycle_arc with
      | some a =>
        let fn1 : function_info :=
          { st.fn with blocks := st.fn.blocks.set st.head { blk st.fn.blocks st.head with cycle_arc := none } }
        cycle_search ix block fuel
          { st with fn := fn1, head := (arc st.fn.arcs a).src, arc := succ_next st.fn a }
      | none =>
        let R : block_info := { blk st.fn.blocks block with cycle_ident := 4294967295 }
        some ({ st.fn with blocks := st.fn.blocks.set block R }, st.count)
    | a :: rest =>
      let A := arc st.fn.arcs a
      let D := blk st.fn.blocks A.dst
      if A.cycle ∨ D.cycle_ident ≠ ix ∨ D.cycle_arc ≠ none then
        cycle_search ix block fuel { st with arc := rest }
      else if A.dst = block then
        match cycle_minimum st.fn (fuel + 1) st.head (A.cs_count, a) with
        | none => none
        | some (cycle_count, cycle_arc) =>
          let fn1 : function_info :=
            { st.fn with arcs := st.fn.arcs.set cycle_arc { arc st.fn.arcs cycle_arc with cycle := true } }
          let fn2 : function_info :=
            { fn1 with arcs := fn1.arcs.set a { arc fn1.arcs a with cs_count := (arc fn1.arcs a).cs_count - cycle_count } }
          match cycle_remove cycle_count (fuel + 1) st.head fn2 with
          | none => none
          | some fn3 =>
            match cycle_unwind (arc fn3.arcs cycle_arc).src (fuel + 1) st.head a fn3 with
            | none => none
            | some (fn4, head, a1) =>
              cycle_search ix block fuel
                { fn := fn4, count := st.count + cycle_count, head := head, arc := succ_next fn4 a1 }
      else
        let fn1 : function_info :=
          { st.fn with blocks := st.fn.blocks.set A.dst { D with cycle_arc := some a } }
        cycle_search ix block fuel
          { st with fn := fn1, head := A.dst, arc := (blk fn1.blocks A.dst).succ }

/-- Lines 1389-1395: give every block of the chain the identity `ix`. -/
def mark_line_blocks (ix : Nat) (chain : List (Nat × Nat)) (p : pair_state) : pair_state :=
  chain.foldl (fun q fb =>
    let fn := q.fn fb.1
    q.set_fn fb.1 { fn with blocks := fn.blocks.set fb.2 { blk fn.blocks fb.2 with cycle_ident := ix } }) p

/-- Lines 1399-1414: sum the entry arcs of the blocks of the chain and
initialise the `cs_count` of their exit arcs. -/
def sum_line_entries (ix : Nat) :
    List (Nat × Nat) → pair_state × Int × coverage_info → pair_state × Int × coverage_info
  | [], r => r
  | (f, b) :: rest, (p, count, c) =>
    let fn := p.fn f
    let r := sum_entry_arcs ix fn (blk fn.blocks b).pred (count, c)
    let fn1 : function_info := { fn with arcs := init_cs_count fn.arcs (blk fn.blocks b).succ }
    sum_line_entries ix rest (p.set_fn f fn1, r.1, r.2)

/-- Lines 1432-1511: the loop over the blocks of the chain, each searched
for cycles. -/
def find_line_cycles (fuel ix : Nat) :
    List (Nat × Nat) → pair_state × Int → Option (pair_state × Int)
  | [], r => some r
  | (f, b) :: rest, (p, count) =>
    let fn := p.fn f
    match cycle_search ix b fuel { fn := fn, count := count, head := b, arc := (blk fn.blocks b).succ } with
    | none => none
    | some (fn1, count1) => find_line_cycles fuel ix rest (p.set_fn f fn1, count1)

/-- Lines 1516-1521: count the line `l` of source `s` in the coverage totals. -/
def count_line (s l : Nat) (q : pair_state) : pair_state :=
  let L := q.line s l
  let S := q.source s
  let c := S.coverage
  if L.«exists» then
    q.set_source s { S with coverage := { c with
      lines := c.lines + 1
      lines_executed := if L.count ≠ 0 then c.lines_executed + 1 else c.lines_executed } }
  else q

/-- Lines 1360-1522: the body of the loop for line number `l` of source
`s`, where the loop counter has the value `ix`. -/
def accumulate_line (fuel s l ix : Nat) (p : pair_state) : Option pair_state :=
  let line := p.line s l
  if line.blocks ≠ [] then
    let chain := line.blocks.reverse
    let p1 := (mark_line_blocks ix line.blocks p).upd_line s l (fun L => { L with blocks := chain })
    let e := sum_line_entries ix chain (p1, 0, (p1.source s).coverage)
    let p2 := e.1.set_source s { e.1.source s with coverage := e.2.2 }
    match find_line_cycles fuel ix chain (p2, e.2.1) with
    | none => none
    | some (p3, count) => some (count_line s l (p3.upd_line s l (fun L => { L with count := count })))
  else some (count_line s l p)

/-- Lines 1360-1522: the loop over the lines `l, l+1, ..` (`todo` of them);
the loop counter `ix` of the source is `todo - 1` inside the body. -/
def accumulate_lines (fuel s : Nat) : Nat → Nat → pair_state → Option pair_state
  | 0, _, p => some p
  | todo + 1, l, p =>
    match accumulate_line fuel s l todo p with
    | none => none
    | some p1 => accumulate_lines fuel s todo (l + 1) p1

/-- The function `accumulate_line_counts` for source `s`. -/
def accumulate_line_counts (fuel s : Nat) (p : pair_state) : Option pair_state :=
  let S := p.source s
  let p1 := p.set_source s { S with functions := S.functions.reverse }
  accumulate_lines fuel s S.num_lines 0 p1

/-! ## Aggregate tables (lcov++.h) and aggregate_info (lcov++.cpp, lines 1529-1635) -/

/-- The conversion of a 64-bit value to `int` (two's complement, 32 bits). -/
def toInt32 (x : Int) : Int := (x + 2147483648) % 4294967296 - 2147483648

/-- The entry of the function table (`struct FunctionInfo`). -/
structure FunctionInfo where
  line : Int
  hit : Int
deriving DecidableEq, Repr

/-- The key of the branch table (`struct BranchId`). -/
structure BranchId where
  line : Int
  block : Int
  branch : Int
deriving DecidableEq, Repr

/-- A `std::map`: the value held under each key, `none` for a key that is
not in the map. -/
abbrev table (κ ν : Type) := κ → Option ν

/-- The empty map. -/
def table.empty {κ ν : Type} : table κ ν := fun _ => none

/-- The map with `v` stored under `k`. -/
def table.insert {κ ν : Type} [DecidableEq κ] (t : table κ ν) (k : κ) (v : ν) : table κ ν :=
  fun x => if x = k then some v else t x

/-- The value of `t[k]`: the value held, or the value-initialised `d`. -/
def table.at {κ ν : Type} (t : table κ ν) (k : κ) (d : ν) : ν := (t k).getD d

/-- Function informations (`Functions`). -/
abbrev Functions := table (List Char) FunctionInfo
/-- Line execution count (`Lines`); the key is the line number. -/
abbrev Lines := table Nat Int
/-- Branch execution count (`Branches`). -/
abbrev Branches := table BranchId Int

/-- The three process-wide tables, keyed by source name. -/
structure aggregates where
  SourceFunctions : table (List Char) Functions
  SourceLines : table (List Char) Lines
  SourceBranches : table (List Char) Branches

/-- The tables at program start. -/
def aggregates.empty : aggregates :=
  { SourceFunctions := table.empty, SourceLines := table.empty, SourceBranches := table.empty }

/-- The function `output_branch_count` for arc `A` whose source block has
count `src_count`: the return value, and the values left in `branch` and
`taken` (`flag_unconditional` is 0). -/
def output_branch_count (ix : Int) (A : arc_info) (src_count : Int) (branch taken : Int) :
    Int × Int × Int :=
  if A.is_call_non_return then (1, branch, taken)
  else if !A.is_unconditional then (1, ix, if src_count ≠ 0 then A.count else -1)
  else (0, branch, taken)

/-- Lines 1576-1588: the functions of the chain whose first line is
`line_num`; returns the table and the rest of the chain.  For each of them
the loop reads `fn->blocks[fn->num_blocks - 1]` (lines 1578-1579, the value
`return_count` computed from it is not used) and `fn->blocks[0]` (line 1587):
for a function without block these reads are outside the block array and the
call has no defined result (`none`). -/
def aggregate_functions (p : pair_state) (line_num : Nat) :
    List Nat → Functions → Option (Functions × List Nat)
  | [], t => some (t, [])
  | f :: rest, t =>
    let fn := p.fn f
    if fn.line = line_num then
      if fn.num_blocks = 0 then none
      else
        let e := t.at fn.name { line := 0, hit := 0 }
        aggregate_functions p line_num rest
          (t.insert fn.name { line := toInt32 fn.line, hit := toInt32 (e.hit + (blk fn.blocks 0).count) })
    else some (t, f :: rest)

/-- The table and the rest of the chain that `aggregate_functions` returns
when every function it records has a block (`aggregate_functions_eq`). -/
def record_functions (p : pair_state) (line_num : Nat) :
    List Nat → Functions → Functions × List Nat
  | [], t => (t, [])
  | f :: rest, t =>
    let fn := p.fn f
    if fn.line = line_num then
      let e := t.at fn.name { line := 0, hit := 0 }
      record_functions p line_num rest
        (t.insert fn.name { line := toInt32 fn.line, hit := toInt32 (e.hit + (blk fn.blocks 0).count) })
    else (t, f :: rest)

/-- Lines 1619-1630: merge the value `taken` into the branch table. -/
def merge_branch (t : Branches) (id : BranchId) (taken : Int) : Branches :=
  let currentTaken : Int := match t id with
    | some v => v
    | none => -1
  t.insert id (if taken ≥ 0 then (if currentTaken < 0 then taken else currentTaken + taken)
               else currentTaken)

/-- Lines 1613-1632: the loop over the exit arcs of a block; the state is
`jx` and the branch table. -/
def aggregate_arcs (fn : function_info) (line_num block : Int) :
    List Nat → Int × Branches → Int × Branches
  | [], r => r
  | a :: rest, (jx, t) =>
    let A := arc fn.arcs a
    let o := output_branch_count jx A (blk fn.blocks A.src).count (-1) (-1)
    aggregate_arcs fn line_num block rest
      (jx + o.1,
       if o.2.1 ≠ -1 then merge_branch t { line := line_num, block := block, branch := o.2.1 } o.2.2
       else t)

/-- Lines 1605-1633: the loop over the blocks of a line; the state is `ix`,
`jx` and the branch table. -/
def aggregate_blocks (p : pair_state) (line_num : Int) :
    List (Nat × Nat) → Int × Int × Branches → Int × Int × Branches
  | [], r => r
  | (f, b) :: rest, (ix, jx, t) =>
    let fn := p.fn f
    let B := blk fn.blocks b
    let block : Int := if B.is_call_return then 9999 else ix
    let ix1 : Int := if B.is_call_return then ix else ix + 1
    let r := aggregate_arcs fn line_num block B.succ (jx, t)
    aggregate_blocks p line_num rest (ix1, r.1, r.2)

/-- The three maps of one source, as bound at lines 1564-1566. -/
structure source_tables where
  srcFunctions : Functions
  srcLines : Lines
  srcBranches : Branches

/-- Lines 1574-1634: the loop over the lines `line_num, line_num+1, ..`
(`todo` of them); `fn` is the rest of the chain of functions. -/
def aggregate_lines (p : pair_state) (s : Nat) :
    Nat → Nat → List Nat → source_tables → Option source_tables
  | 0, _, _, t => some t
  | todo + 1, line_num, fn, t =>
    match aggregate_functions p line_num fn t.srcFunctions with
    | none => none
    | some r =>
      let line := p.line s line_num
      let ls := if line.«exists» then
          t.srcLines.insert line_num (toInt32 (t.srcLines.at line_num 0 + line.count))
        else t.srcLines
      let br := aggregate_blocks p line_num line.blocks (0, 0, t.srcBranches)
      aggregate_lines p s todo (line_num + 1) r.2
        { srcFunctions := r.1, srcLines := ls, srcBranches := br.2.2 }

/-- The function `aggregate_info` for source `s` of the pair: the tables it
leaves, `none` when the call has no defined result. -/
def aggregate_info (p : pair_state) (s : Nat) (g : aggregates) : Option aggregates :=
  let S := p.source s
  match aggregate_lines p s (S.num_lines - 1) 1 S.functions
    { srcFunctions := g.SourceFunctions.at S.name table.empty,
      srcLines := g.SourceLines.at S.name table.empty,
      srcBranches := g.SourceBranches.at S.name table.empty } with
  | none => none
  | some t =>
    some { SourceFunctions := g.SourceFunctions.insert S.name t.srcFunctions,
           SourceLines := g.SourceLines.insert S.name t.srcLines,
           SourceBranches := g.SourceBranches.insert S.name t.srcBranches }

/-- The tables that `aggregate_lines` returns when every function it records
has a block (`aggregate_lines_eq`). -/
def record_lines (p : pair_state) (s : Nat) :
    Nat → Nat → List Nat → source_tables → source_tables
  | 0, _, _, t => t
  | todo + 1, line_num, fn, t =>
    let r := record_functions p line_num fn t.srcFunctions
    let line := p.line s line_num
    let ls := if line.«exists» then
        t.srcLines.insert line_num (toInt32 (t.srcLines.at line_num 0 + line.count))
      else t.srcLines
    let br := aggregate_blocks p line_num line.blocks (0, 0, t.srcBranches)
    record_lines p s todo (line_num + 1) r.2
      { srcFunctions := r.1, srcLines := ls, srcBranches := br.2.2 }

/-- The tables that `aggregate_info` leaves for source `s` of the pair when
every function it records has a block (`aggregate_info_eq`). -/
def record_info (p : pair_state) (s : Nat) (g : aggregates) : aggregates :=
  let S := p.source s
  let t := record_lines p s (S.num_lines - 1) 1 S.functions
    { srcFunctions := g.SourceFunctions.at S.name table.empty,
      srcLines := g.SourceLines.at S.name table.empty,
      srcBranches := g.SourceBranches.at S.name table.empty }
  { SourceFunctions := g.SourceFunctions.insert S.name t.srcFunctions,
    SourceLines := g.SourceLines.insert S.name t.srcLines,
    SourceBranches := g.SourceBranches.insert S.name t.srcBranches }

/-! ## process_file (lcov++.cpp, lines 432-465) and the loop of main -/

/-- Lines 449-450: solve every function of the chain. -/
def solve_all (fuel : Nat) : List Nat → pair_state → Option pair_state
  | [], p => some p
  | f :: rest, p =>
    match solve_flow_graph fuel (p.fn f) with
    | none => none
    | some fn1 => solve_all fuel rest (p.set_fn f fn1)

/-- Lines 452-453: allocate the line array of every source of the chain. -/
def alloc_lines (p : pair_state) : pair_state :=
  p.sources.foldl (fun q s =>
    q.set_source s { q.source s with lines := some (List.replicate (q.source s).num_lines line_info.zero) }) p

/-- Lines 455-456: `add_line_counts` for every function of the chain. -/
def add_all_line_counts : List Nat → pair_state → result pair_state
  | [], p => result.ok p
  | f :: rest, p =>
    match add_line_counts f p with
    | result.ok p1 => add_all_line_counts rest p1
    | result.error => result.error
    | result.undefined => result.undefined

/-- Lines 458-464: accumulate and aggregate every source of the chain. -/
def aggregate_all (fuel : Nat) : List Nat → pair_state × aggregates → Option (pair_state × aggregates)
  | [], r => some r
  | s :: rest, (p, g) =>
    match accumulate_line_counts fuel s p with
    | none => none
    | some p1 =>
      match aggregate_info p1 s g with
      | none => none
      | some g1 => aggregate_all fuel rest (p1, g1)

/-- One data/note pair as found on disk: the path of the note file and the
two files (`none` for a file that cannot be opened). -/
structure pair_input where
  gcno : List Char
  note : Option note_file
  data : Option data_file
deriving DecidableEq, Repr

/-- The finished structures of a pair, up to and including line
attribution (lines 437-456); `result.error` is an early `return`. -/
def prepare_pair (fuel : Nat) (i : pair_input) : result pair_state :=
  match read_graph_file fuel i.gcno i.note pair_state.empty with
  | result.error => result.error
  | result.undefined => result.undefined
  | result.ok p =>
    if p.functions = [] then result.error
    else
      match read_count_file i.data p with
      | result.error => result.error
      | result.undefined => result.undefined
      | result.ok p1 =>
        match solve_all fuel p1.functions p1 with
        | none => result.undefined
        | some p2 => add_all_line_counts p2.functions (alloc_lines p2)

/-- The function `process_file`, after `release_structures`: the aggregate
tables it leaves; `none` when the run has no defined result. -/
def process_file (fuel : Nat) (i : pair_input) (g : aggregates) : Option aggregates :=
  match prepare_pair fuel i with
  | result.error => some g
  | result.undefined => none
  | result.ok p =>
    match aggregate_all fuel p.sources (p, g) with
    | none => none
    | some r => some r.2

/-- Lines 337-343 of main: process the pairs in order. -/
def process_all (fuel : Nat) : List pair_input → aggregates → Option aggregates
  | [], g => some g
  | i :: rest, g =>
    match process_file fuel i g with
    | none => none
    | some g1 => process_all fuel rest g1

/-- Lines 1154-1159: the warning "graph is unsolvable". -/
def graph_is_unsolvable (fn : function_info) : Bool :=
  fn.blocks.any (fun b => !b.count_valid)

/-! ## Predicates used by the theorems -/

/-- Every arc is linked once on the exit chain of its source and once on the
entry chain of its destination, and the chains hold nothing else. -/
def arcs_linked (fn : function_info) : Prop :=
  (∀ a, a < fn.arcs.length →
    (arc fn.arcs a).src < fn.num_blocks ∧ (arc fn.arcs a).dst < fn.num_blocks ∧
    (blk fn.blocks (arc fn.arcs a).src).succ.count a = 1 ∧
    (blk fn.blocks (arc fn.arcs a).dst).pred.count a = 1) ∧
  (∀ b, b < fn.num_blocks → ∀ x ∈ (blk fn.blocks b).succ, x < fn.arcs.length ∧ (arc fn.arcs x).src = b) ∧
  (∀ b, b < fn.num_blocks → ∀ x ∈ (blk fn.blocks b).pred, x < fn.arcs.length ∧ (arc fn.arcs x).dst = b)

instance (fn : function_info) : Decidable (arcs_linked fn) := by
  unfold arcs_linked; infer_instance

/-- The counters and flags of a function as the reader leaves them:
`num_counts` is the number of arcs off the tree, the pending counters are the
lengths of the chains, and no count is valid yet. -/
def fn_fresh (fn : function_info) : Prop :=
  fn.num_counts = fn.arcs.countP (fun A => !A.on_tree) ∧
  (∀ j, (blk fn.blocks j).num_succ = (blk fn.blocks j).succ.length ∧
        (blk fn.blocks j).num_pred = (blk fn.blocks j).pred.length ∧
        (blk fn.blocks j).count_valid = false ∧ (blk fn.blocks j).valid_chain = false ∧
        (blk fn.blocks j).invalid_chain = false) ∧
  (∀ a, (arc fn.arcs a).count_valid = false ∧ (arc fn.arcs a).count = 0)

/-- What holds of every function while the note file is read: the arcs are
linked, and a function without block array has no block. -/
def fn_inv (fn : function_info) : Prop :=
  arcs_linked fn ∧ (fn.blocks_seen = false → fn.blocks = []) ∧ fn_fresh fn ∧ fn.counts = none

/-- A function as the solver receives it: arcs linked, counters and flags as
the reader left them, and a counts buffer, when there is one, of `num_counts`
entries. -/
def fn_ready (fn : function_info) : Prop :=
  arcs_linked fn ∧ fn_fresh fn ∧ ∀ cs, fn.counts = some cs → cs.length = fn.num_counts

/-! ## Example inputs -/

/-- Note file of scenario 5 (single-block loop): function `F` at line 10 of
`a.c`, blocks 0 (entry), 1 (the loop), 2 (exit); arcs 0->1, 1->1 and the
on-tree arc 1->2. -/
def loop_note : note_file :=
  { magic_ok := true, stamp := 7, records := [
    (note_record.function 1 99 ['F'] ['a', '.', 'c'] 10, false),
    (note_record.blocks [0, 0, 0], false),
    (note_record.arcs 0 [(1, 0)], false),
    (note_record.arcs 1 [(1, 0), (2, 1)], false),
    (note_record.lines 1 [line_item.file_name ['a', '.', 'c'], line_item.lineno 10], false)] }

/-- Data file of scenario 5 with entry count `e` and loop-back count `n`. -/
def loop_data (e n : Int) : data_file :=
  { magic_ok := true, stamp := 7, records := [
    (data_record.function 1 99, false),
    (data_record.arc_counts 4 [e, n], false)] }

/-- The data/note pair of scenario 5. -/
def loop_pair (e n : Int) : pair_input :=
  { gcno := ['/', 'd', '/', 'a', '.', 'g', 'c', 'n', 'o'],
    note := some loop_note, data := some (loop_data e n) }

/-- The structures read from `loop_note`. -/
def loop_graph : pair_state :=
  match read_graph_file 8 (loop_pair 3 7).gcno (some loop_note) pair_state.empty with
  | result.ok p => p
  | _ => pair_state.empty

/-- A branch that `aggregate_info` records: its key, and the arc it comes
from (function and arc index). -/
structure branch_record where
  id : BranchId
  fn : Nat
  arc : Nat
deriving DecidableEq, Repr

/-- The value `taken` that `output_branch_count` computes for a recorded
branch: the count of the arc, or -1 when the source block has count zero. -/
def branch_record.taken (p : pair_state) (r : branch_record) : Int :=
  if (blk (p.fn r.fn).blocks (Lcov.arc (p.fn r.fn).arcs r.arc).src).count ≠ 0
  then (Lcov.arc (p.fn r.fn).arcs r.arc).count else -1

/-- The arcs of an exit chain for which `output_branch_count` sets `branch`
(neither call-non-return nor unconditional), each with its key, when the
counter `jx` starts at the given value; and the final value of `jx`. -/
def arc_records (p : pair_state) (f : Nat) (line_num block : Int) :
    List Nat → Int → List branch_record × Int
  | [], jx => ([], jx)
  | a :: rest, jx =>
    let A := arc (p.fn f).arcs a
    if A.is_call_non_return then arc_records p f line_num block rest (jx + 1)
    else if !A.is_unconditional then
      let r := arc_records p f line_num block rest (jx + 1)
      ({ id := { line := line_num, block := block, branch := jx }, fn := f, arc := a } :: r.1, r.2)
    else arc_records p f line_num block rest jx

/-- The branches recorded for the blocks of a line, when the counters `ix`
and `jx` start at the given values. -/
def block_records (p : pair_state) (line_num : Int) :
    List (Nat × Nat) → Int → Int → List branch_record
  | [], _, _ => []
  | (f, b) :: rest, ix, jx =>
    let B := blk (p.fn f).blocks b
    let r := arc_records p f line_num (if B.is_call_return then 9999 else ix) B.succ jx
    r.1 ++ block_records p line_num rest (if B.is_call_return then ix else ix + 1) r.2

/-- The branches recorded for the lines `line_num, line_num+1, ..` (`todo`
of them) of source `s`. -/
def line_records (p : pair_state) (s : Nat) : Nat → Nat → List branch_record
  | 0, _ => []
  | todo + 1, line_num =>
    block_records p line_num (p.line s line_num).blocks 0 0 ++ line_records p s todo (line_num + 1)

/-- The branches recorded by `aggregate_info` for source `s`. -/
def source_records (p : pair_state) (s : Nat) : List branch_record :=
  line_records p s ((p.source s).num_lines - 1) 1

/-- Note file of a function `G` at line 10 of `a.c` with a branch: blocks 0
(entry), 1 (the branch, line 10), 2 (line 11), 3 (exit); arcs 0->1 and 1->2
measured, 1->3 and 2->3 on the tree. -/
def skew_note : note_file :=
  { magic_ok := true, stamp := 7, records := [
    (note_record.function 1 99 ['G'] ['a', '.', 'c'] 10, false),
    (note_record.blocks [0, 0, 0, 0], false),
    (note_record.arcs 0 [(1, 0)], false),
    (note_record.arcs 1 [(2, 0), (3, 1)], false),
    (note_record.arcs 2 [(3, 1)], false),
    (note_record.lines 1 [line_item.file_name ['a', '.', 'c'], line_item.lineno 10], false),
    (note_record.lines 2 [line_item.file_name ['a', '.', 'c'], line_item.lineno 11], false)] }

/-- The pair of `skew_note` with measured counts `a` (arc 0->1) and `b`
(arc 1->2). -/
def skew_pair (a b : Int) : pair_input :=
  { gcno := ['/', 'd', '/', 'a', '.', 'g', 'c', 'n', 'o'],
    note := some skew_note,
    data := some { magic_ok := true, stamp := 7, records := [
      (data_record.function 1 99, false),
      (data_record.arc_counts 4 [a, b], false)] } }

/-- The name under which the source `a.c` of the examples is aggregated. -/
def a_c : List Char := ['/', 'd', '/', 'a', '.', 'c']

/-- The structures of a pair at the time its first source is aggregated. -/
def first_source_state (fuel : Nat) (i : pair_input) : pair_state :=
  match prepare_pair fuel i with
  | result.ok p =>
    match accumulate_line_counts fuel (p.sources.headD 0) p with
    | some p1 => p1
    | none => pair_state.empty
  | _ => pair_state.empty

/-- The structures of the pair of scenario 5 after line attribution
(`add_line_counts`), before the lines are accumulated. -/
def loop_state (e n : Int) : pair_state :=
  match prepare_pair 8 (loop_pair e n) with
  | result.ok p => p
  | _ => pair_state.empty

/-- Lines 1586-1587: record function `f` in the function table. -/
def record_function (p : pair_state) (t : Functions) (f : Nat) : Functions :=
  t.insert (p.fn f).name
    { line := toInt32 (p.fn f).line,
      hit := toInt32 ((t.at (p.fn f).name { line := 0, hit := 0 }).hit + (blk (p.fn f).blocks 0).count) }

/-- The functions that the loop of `aggregate_info` records, in order, when
it starts at line `line_num` with `todo` lines to go and the chain `chain`. -/
def function_visits (p : pair_state) : Nat → Nat → List Nat → List Nat
  | 0, _, _ => []
  | todo + 1, line_num, chain =>
    chain.takeWhile (fun f => decide ((p.fn f).line = line_num)) ++
      function_visits p todo (line_num + 1)
        (chain.dropWhile (fun f => decide ((p.fn f).line = line_num)))

/-- Every function that the loop of `aggregate_info` records for source `s`
has a block: the reads of `blocks[num_blocks - 1]` and `blocks[0]` are inside
its block array. -/
def visits_have_blocks (p : pair_state) (s : Nat) : Prop :=
  ∀ f ∈ function_visits p ((p.source s).num_lines - 1) 1 (p.source s).functions,
    (p.fn f).num_blocks ≠ 0

instance (p : pair_state) (s : Nat) : Decidable (visits_have_blocks p s) := by
  unfold visits_have_blocks; infer_instance

/-- Sum of the entry-block counts of the functions of a list that are named `k`. -/
def entry_hits (p : pair_state) (l : List Nat) (k : List Char) : Int :=
  ((l.filter (fun f => decide ((p.fn f).name = k))).map (fun f => (blk (p.fn f).blocks 0).count)).sum

/-- The chain of functions of source `s` is in ascending order of first
line, with first lines from 1 to `num_lines - 1`. -/
def chain_sorted (p : pair_state) (s : Nat) : Prop :=
  (p.source s).functions.Pairwise (fun f g => (p.fn f).line ≤ (p.fn g).line) ∧
  ∀ f ∈ (p.source s).functions, 1 ≤ (p.fn f).line ∧ (p.fn f).line < (p.source s).num_lines

instance (p : pair_state) (s : Nat) : Decidable (chain_sorted p s) := by
  unfold chain_sorted; infer_instance

/-- The count that source `s` of the pair contributes to line `l`: the count
of the line when it is a line of the loop of `aggregate_info` and exists. -/
def line_contribution (p : pair_state) (s l : Nat) : Int :=
  if 1 ≤ l ∧ l < (p.source s).num_lines ∧ (p.line s l).«exists» = true then (p.line s l).count else 0

/-- The calls `aggregate_info (src)` of lines 458-464, in order: for each
source of the chain, the structures after its `accumulate_line_counts`, and
the source.  `none` when an accumulation has no defined result. -/
def pair_steps (fuel : Nat) : List Nat → pair_state → Option (List (pair_state × Nat))
  | [], _ => some []
  | s :: rest, p =>
    match accumulate_line_counts fuel s p with
    | none => none
    | some p1 =>
      match pair_steps fuel rest p1 with
      | none => none
      | some l => some ((p1, s) :: l)

/-- The calls `aggregate_info (src)` that `process_file` makes for a pair:
none when the pair is skipped by an early `return`. -/
def file_steps (fuel : Nat) (i : pair_input) : Option (List (pair_state × Nat)) :=
  match prepare_pair fuel i with
  | result.error => some []
  | result.undefined => none
  | result.ok p => pair_steps fuel p.sources p

/-- The tables left by a list of calls, in order, each of which records
functions that have a block. -/
def record_steps (l : List (pair_state × Nat)) (g : aggregates) : aggregates :=
  l.foldl (fun g x => record_info x.1 x.2 g) g

/-- Every call of the list records functions that have a block. -/
def steps_defined (l : List (pair_state × Nat)) : Prop :=
  ∀ x ∈ l, visits_have_blocks x.1 x.2

instance (l : List (pair_state × Nat)) : Decidable (steps_defined l) := by
  unfold steps_defined; infer_instance

/-- The source paths a pair references: the names under which its sources
are aggregated. -/
def aggregated_names (fuel : Nat) (i : pair_input) : List (List Char) :=
  match file_steps fuel i with
  | none => []
  | some l => l.map (fun x => (x.1.source x.2).name)

/-- The entry of the function table of source `nm` for function name `k`. -/
def aggregates.function_entry (g : aggregates) (nm k : List Char) : Option FunctionInfo :=
  (g.SourceFunctions nm).bind (fun t => t k)

/-- The entry of the line table of source `nm` for line `l`. -/
def aggregates.line_entry (g : aggregates) (nm : List Char) (l : Nat) : Option Int :=
  (g.SourceLines nm).bind (fun t => t l)

/-- The entry of the branch table of source `nm` for the branch `id`. -/
def aggregates.branch_entry (g : aggregates) (nm : List Char) (id : BranchId) : Option Int :=
  (g.SourceBranches nm).bind (fun t => t id)

/-- The pair of scenario 5 found under another directory, so that its source
is `/e/a.c`. -/
def loop_pair_e (e n : Int) : pair_input :=
  { gcno := ['/', 'e', '/', 'a', '.', 'g', 'c', 'n', 'o'],
    note := some loop_note, data := some (loop_data e n) }

/-- Updates of a function entry: none, or a new line and an added count. -/
def function_update (F : Option FunctionInfo → Option FunctionInfo) : Prop :=
  F = id ∨ ∃ c h, F = fun o => some { line := c, hit := toInt32 ((o.getD { line := 0, hit := 0 }).hit + h) }

/-- Updates of a line entry: none, or an added count. -/
def line_update (F : Option Int → Option Int) : Prop :=
  F = id ∨ ∃ c, F = fun o => some (toInt32 (o.getD 0 + c))

/-- Updates of a branch entry: none, merges of unknown values only, or
merges that include known values of sum `s`. -/
def branch_update (F : Option Int → Option Int) : Prop :=
  F = id ∨ F = (fun o => some (o.getD (-1))) ∨
  ∃ s, 0 ≤ s ∧ F = fun o => some (if o.getD (-1) < 0 then s else o.getD (-1) + s)

/-- The tables after the pair `skew_pair 5 6` was processed once. -/
def skew_once : aggregates :=
  (process_file 16 (skew_pair 5 6) aggregates.empty).getD aggregates.empty

/-- The tables after the pair `skew_pair 5 6` was processed twice. -/
def skew_twice : aggregates :=
  (process_file 16 (skew_pair 5 6) skew_once).getD aggregates.empty

/-- Number of pairs of a chain of arcs that are out of order (an arc before
an arc with a smaller destination). -/
def inversions (as : List arc_info) : List Nat → Nat
  | [] => 0
  | a :: rest => rest.countP (fun x => decide ((arc as x).dst < (arc as a).dst)) + inversions as rest

/-- Number of arcs of a chain whose count is not valid. -/
def inv_count (as : List arc_info) (l : List Nat) : Nat :=
  l.countP (fun a => !(arc as a).count_valid)

/-- The parts of a block that the first loop of the solver leaves alone. -/
def blk_frame (B B1 : block_info) : Prop :=
  B1.succ = B.succ ∧ B1.pred = B.pred ∧ B1.count = B.count ∧ B1.count_valid = B.count_valid ∧
  B1.valid_chain = B.valid_chain ∧ B1.invalid_chain = B.invalid_chain

/-- The parts of an arc that the solver leaves alone. -/
def arc_frame (A A1 : arc_info) : Prop :=
  A1.src = A.src ∧ A1.dst = A.dst ∧ A1.on_tree = A.on_tree ∧ A1.fake = A.fake

/-- Number of arcs of a chain whose count is valid. -/
def valid_count (as : List arc_info) (l : List Nat) : Nat :=
  l.countP (fun a => (arc as a).count_valid)

/-- State of the first loop of the solver, relative to the function `fn` it
started from, the blocks `bs0` left by the entry/exit set-up, and the set `P`
of the arcs already passed: the graph is the same, exactly the arcs off the
tree that were passed are valid, each pending counter is its initial value
less the valid arcs of the chain, and `count_ptr` has advanced by the number
of valid arcs. -/
def scan_inv (fn : function_info) (bs0 : List block_info) (P : Nat → Bool) (st : solve_state) : Prop :=
  st.blocks.length = fn.blocks.length ∧ st.arcs.length = fn.arcs.length ∧
  (∀ a, arc_frame (arc fn.arcs a) (arc st.arcs a)) ∧
  (∀ a, a < fn.arcs.length → (arc st.arcs a).count_valid = (!(arc fn.arcs a).on_tree && P a)) ∧
  (∀ a, (arc st.arcs a).count_valid = false → (arc st.arcs a).count = 0) ∧
  (∀ j, (blk st.blocks j).pred = (blk fn.blocks j).pred ∧
        ((blk st.blocks j).succ).Perm (blk fn.blocks j).succ ∧
        (blk st.blocks j).count_valid = false ∧ (blk st.blocks j).valid_chain = false) ∧
  (∀ j, (blk st.blocks j).num_succ = (blk bs0 j).num_succ - valid_count st.arcs (blk fn.blocks j).succ ∧
        (blk st.blocks j).num_pred = (blk bs0 j).num_pred - valid_count st.arcs (blk fn.blocks j).pred) ∧
  (fn.counts ≠ none → st.count_ptr = valid_count st.arcs (List.range fn.arcs.length)) ∧
  st.valid_blocks = []

/-- The arcs passed by the first loop of the solver when it has finished the
blocks below `ix` and the arcs `pre` of the exit chain of block `ix`. -/
def passed (fn : function_info) (ix : Nat) (pre : List Nat) (a : Nat) : Bool :=
  decide ((arc fn.arcs a).src < ix) || decide (a ∈ pre)

/-- The counts buffer, when there is one, has one entry for each arc off the
tree. -/
def counts_fit (fn : function_info) : Prop :=
  ∀ cs, fn.counts = some cs →
    cs.length = (List.range fn.arcs.length).countP (fun a => !(arc fn.arcs a).on_tree)

/-- Two solver states that differ at most in the marks `is_unconditional`
and `is_call_return`. -/
def same_solve (st st1 : solve_state) : Prop :=
  st1.blocks.length = st.blocks.length ∧ st1.arcs.length = st.arcs.length ∧
  st1.count_ptr = st.count_ptr ∧ st1.invalid_blocks = st.invalid_blocks ∧
  st1.valid_blocks = st.valid_blocks ∧
  (∀ a, (arc st1.arcs a).src = (arc st.arcs a).src ∧ (arc st1.arcs a).dst = (arc st.arcs a).dst ∧
        (arc st1.arcs a).on_tree = (arc st.arcs a).on_tree ∧ (arc st1.arcs a).fake = (arc st.arcs a).fake ∧
        (arc st1.arcs a).count = (arc st.arcs a).count ∧
        (arc st1.arcs a).count_valid = (arc st.arcs a).count_valid) ∧
  (∀ j, (blk st1.blocks j).succ = (blk st.blocks j).succ ∧ (blk st1.blocks j).pred = (blk st.blocks j).pred ∧
        (blk st1.blocks j).num_succ = (blk st.blocks j).num_succ ∧
        (blk st1.blocks j).num_pred = (blk st.blocks j).num_pred ∧
        (blk st1.blocks j).count = (blk st.blocks j).count ∧
        (blk st1.blocks j).count_valid = (blk st.blocks j).count_valid ∧
        (blk st1.blocks j).valid_chain = (blk st.blocks j).valid_chain ∧
        (blk st1.blocks j).invalid_chain = (blk st.blocks j).invalid_chain)

/-- The structures read from `skew_note`. -/
def skew_graph : pair_state :=
  match read_graph_file 8 (skew_pair 5 6).gcno (some skew_note) pair_state.empty with
  | result.ok p => p
  | _ => pair_state.empty

/-- The structures of `skew_note` after `read_count_file` stored the
measured counts `a` and `b`. -/
def skew_counted (a b : Int) : pair_state :=
  match read_count_file (skew_pair a b).data skew_graph with
  | result.ok p => p
  | _ => pair_state.empty

/-- The note file of scenario 5 with a second BLOCKS record (of five blocks)
after the first. -/
def dup_blocks_note : note_file :=
  { magic_ok := true, stamp := 7, records := [
    (note_record.function 1 99 ['F'] ['a', '.', 'c'] 10, false),
    (note_record.blocks [0, 0, 0], false),
    (note_record.blocks [0, 0, 0, 0, 0], false),
    (note_record.arcs 0 [(1, 0)], false),
    (note_record.arcs 1 [(1, 0), (2, 1)], false),
    (note_record.lines 1 [line_item.file_name ['a', '.', 'c'], line_item.lineno 10], false)] }

/-- The state in which `read_graph_file` enters its loop over the records of
a note file with stamp 7. -/
def reader_start : reader_state :=
  { pair := { pair_state.empty with gcno_stamp := 7 }, fn := none, current_tag := false, src := none }

/-- The state of the reader after the FUNCTION record and the first BLOCKS
record of `dup_blocks_note`. -/
def blocks_read : reader_state :=
  match read_records 8 (loop_pair 3 7).gcno (dup_blocks_note.records.take 2) reader_start with
  | result.ok rs => rs
  | _ => reader_start

/-- The note file of scenario 5 with an ARCS record without destination for
block 1 before the ARCS record of block 1. -/
def empty_arcs_note : note_file :=
  { magic_ok := true, stamp := 7, records := [
    (note_record.function 1 99 ['F'] ['a', '.', 'c'] 10, false),
    (note_record.blocks [0, 0, 0], false),
    (note_record.arcs 0 [(1, 0)], false),
    (note_record.arcs 1 [], false),
    (note_record.arcs 1 [(1, 0), (2, 1)], false),
    (note_record.lines 1 [line_item.file_name ['a', '.', 'c'], line_item.lineno 10], false)] }

/-- The note file of scenario 5 with its ARCS record of block 1 split in two
records of one destination each. -/
def split_arcs_note : note_file :=
  { magic_ok := true, stamp := 7, records := [
    (note_record.function 1 99 ['F'] ['a', '.', 'c'] 10, false),
    (note_record.blocks [0, 0, 0], false),
    (note_record.arcs 0 [(1, 0)], false),
    (note_record.arcs 1 [(1, 0)], false),
    (note_record.arcs 1 [(2, 1)], false),
    (note_record.lines 1 [line_item.file_name ['a', '.', 'c'], line_item.lineno 10], false)] }

/-- An ARCS record names a source block or a destination block outside the
block array of `fn`, or a LINES record names a block outside of it. -/
def out_of_range (fn : function_info) : note_record → Prop
  | note_record.arcs src dests => src ≥ fn.num_blocks ∨ ∃ d ∈ dests, d.1 ≥ fn.num_blocks
  | note_record.lines blockno _ => blockno ≥ fn.num_blocks
  | _ => False

/-- The note file of scenario 5 with a destination 3 (there are three blocks)
in the ARCS record of block 1. -/
def far_arc_note : note_file :=
  { magic_ok := true, stamp := 7, records := [
    (note_record.function 1 99 ['F'] ['a', '.', 'c'] 10, false),
    (note_record.blocks [0, 0, 0], false),
    (note_record.arcs 0 [(1, 0)], false),
    (note_record.arcs 1 [(1, 0), (3, 1)], false),
    (note_record.lines 1 [line_item.file_name ['a', '.', 'c'], line_item.lineno 10], false)] }

/-- The state of the reader after the first three records of `far_arc_note`. -/
def far_arc_read : reader_state :=
  match read_records 8 (loop_pair 3 7).gcno (far_arc_note.records.take 3) reader_start with
  | result.ok rs => rs
  | _ => reader_start

/-- The string holds an occurrence of the substring `/../`. -/
def has_dotdot (s : List Char) : Prop := ['/', '.', '.', '/'] <:+: s

instance (s : List Char) : Decidable (has_dotdot s) := by
  unfold has_dotdot; infer_instance
/-- The structures after `find_source` created the first source, under the
name `nm`. -/
def first_source (nm : List Char) : pair_state :=
  { pair_state.empty with
    srcs := [{ source_info.new with
      name := nm, index := 1, coverage := { source_info.new.coverage with name := nm } }]
    sources := [0] }

/-- The path `P1` is the path `P` after `n` insertions, each of a segment
`X/../` immediately after a `/`, where `X` is a directory name: not empty,
without `/`, and not `..`. -/
inductive dotdot_inserted : Nat → List Char → List Char → Prop where
  | zero (P : List Char) : dotdot_inserted 0 P P
  | step (n : Nat) (P pre post X : List Char) :
      dotdot_inserted n P (pre ++ '/' :: post) → X ≠ [] → '/' ∉ X → X ≠ ['.', '.'] →
      dotdot_inserted (n + 1) P (pre ++ '/' :: (X ++ '/' :: '.' :: '.' :: '/' :: post))

/-- Note file of a function `H` at line 10 of `a.c` with a single branch:
blocks 0 (entry), 1 (the branch, line 10), 2 and 3 (its two sides, lines 11
and 12), 4 (exit); the two arcs out of the branch, 1->2 and 1->3, are the arcs
off the tree; the arcs 0->1, 2->4 and 3->4 are on the tree. -/
def branch_note : note_file :=
  { magic_ok := true, stamp := 7, records := [
    (note_record.function 1 99 ['H'] ['a', '.', 'c'] 10, false),
    (note_record.blocks [0, 0, 0, 0, 0], false),
    (note_record.arcs 0 [(1, 1)], false),
    (note_record.arcs 1 [(2, 0), (3, 0)], false),
    (note_record.arcs 2 [(4, 1)], false),
    (note_record.arcs 3 [(4, 1)], false),
    (note_record.lines 1 [line_item.file_name ['a', '.', 'c'], line_item.lineno 10], false),
    (note_record.lines 2 [line_item.file_name ['a', '.', 'c'], line_item.lineno 11], false),
    (note_record.lines 3 [line_item.file_name ['a', '.', 'c'], line_item.lineno 12], false)] }

/-- The pair of `branch_note` with the measured counts `a` (arc 1->2) and
`b` (arc 1->3). -/
def branch_pair (a b : Int) : pair_input :=
  { gcno := ['/', 'd', '/', 'a', '.', 'g', 'c', 'n', 'o'],
    note := some branch_note,
    data := some { magic_ok := true, stamp := 7, records := [
      (data_record.function 1 99, false),
      (data_record.arc_counts 4 [a, b], false)] } }

/-- Note file of a function `H` at line 10 of `a.c` whose entry block is the
branch: blocks 0 (entry and branch, line 10), 1 and 2 (its two sides, lines
11 and 12), 3 (exit); the two arcs out of the branch, 0->1 and 0->2, are the
arcs off the tree; the arcs 1->3 and 2->3 are on the tree. -/
def entry_branch_note : note_file :=
  { magic_ok := true, stamp := 7, records := [
    (note_record.function 1 99 ['H'] ['a', '.', 'c'] 10, false),
    (note_record.blocks [0, 0, 0, 0], false),
    (note_record.arcs 0 [(1, 0), (2, 0)], false),
    (note_record.arcs 1 [(3, 1)], false),
    (note_record.arcs 2 [(3, 1)], false),
    (note_record.lines 0 [line_item.file_name ['a', '.', 'c'], line_item.lineno 10], false),
    (note_record.lines 1 [line_item.file_name ['a', '.', 'c'], line_item.lineno 11], false),
    (note_record.lines 2 [line_item.file_name ['a', '.', 'c'], line_item.lineno 12], false)] }

/-- The pair of `entry_branch_note` with the measured counts `a` (arc 0->1)
and `b` (arc 0->2). -/
def entry_branch_pair (a b : Int) : pair_input :=
  { gcno := ['/', 'd', '/', 'a', '.', 'g', 'c', 'n', 'o'],
    note := some entry_branch_note,
    data := some { magic_ok := true, stamp := 7, records := [
      (data_record.function 1 99, false),
      (data_record.arc_counts 4 [a, b], false)] } }

/-! ## The report written by main (lcov++.cpp, lines 347-412), branch section

The tables are maps read through their keys; the loop of lines 380-387 runs
over the keys of the branch table of a source, here the list `keys`. -/

/-- Lines 385-386: what a BRDA line shows after its last comma for the value
`v` of an entry: `none` is the character `-`, `some v` is `v` in decimal. -/
def brda_field (v : Int) : Option Int := if v < 0 then none else some v

/-- Lines 377-390: the values written as BRF (`int brf = branches.size ()`)
and BRH (`if (jt->second) ++brh`) for the branch table `t` whose keys are
`keys`. -/
def report_branches (t : Branches) (keys : List BranchId) : Int × Int :=
  (toInt32 keys.length, keys.foldl (fun brh k => if t.at k 0 ≠ 0 then brh + 1 else brh) 0)

/-- The list `keys` holds each key of the map `t` once, and nothing else. -/
def table_keys (t : Branches) (keys : List BranchId) : Prop :=
  keys.Nodup ∧ ∀ k, k ∈ keys ↔ t k ≠ none

/-- The structures read from `branch_note`. -/
def branch_graph : pair_state :=
  { fns := [
      { function_info.zero with
        name := ['H'], ident := 1, checksum := 99, blocks_seen := true, num_counts := 2, line := 10,
        blocks := [
          { block_info.zero with succ := [0], num_succ := 1 },
          { block_info.zero with succ := [1, 2], pred := [0], num_succ := 2, num_pred := 1,
                                 line_encoding := some [0, 1, 10] },
          { block_info.zero with succ := [3], pred := [1], num_succ := 1, num_pred := 1,
                                 line_encoding := some [0, 1, 11] },
          { block_info.zero with succ := [4], pred := [2], num_succ := 1, num_pred := 1,
                                 line_encoding := some [0, 1, 12] },
          { block_info.zero with pred := [3, 4], num_pred := 2 }],
        arcs := [
          { arc_info.zero with src := 0, dst := 1, on_tree := true },
          { arc_info.zero with src := 1, dst := 2 },
          { arc_info.zero with src := 1, dst := 3 },
          { arc_info.zero with src := 2, dst := 4, on_tree := true },
          { arc_info.zero with src := 3, dst := 4, on_tree := true }] }],
    srcs := [
      { source_info.new with
        name := a_c, index := 1, num_lines := 13, functions := [0],
        coverage := { source_info.new.coverage with name := a_c } }],
    functions := [0], sources := [0], gcno_stamp := 7 }

/-- The key of the `j`-th branch of the branch line (line 10, block 0) of
`branch_note`. -/
def branch_key (j : Int) : BranchId := { line := 10, block := 0, branch := j }

/-- The tables after the pair `branch_pair 0 0` was processed, from empty
tables. -/
def branch_zero : aggregates :=
  (process_file 32 (branch_pair 0 0) aggregates.empty).getD aggregates.empty

/-! ## Predicates on the states of the solver -/

/-- The end of arc `a` that is the further from the roots of the tree: the
one of larger rank. -/
def upper (fn : function_info) (rank : Nat → Nat) (a : Nat) : Nat :=
  if rank (arc fn.arcs a).dst < rank (arc fn.arcs a).src then (arc fn.arcs a).src
  else (arc fn.arcs a).dst

/-- The other end of arc `a`: the one of smaller rank. -/
def lower (fn : function_info) (rank : Nat → Nat) (a : Nat) : Nat :=
  if rank (arc fn.arcs a).dst < rank (arc fn.arcs a).src then (arc fn.arcs a).dst
  else (arc fn.arcs a).src

/-- The ends of an arc on the tree have different ranks, and its end of
larger rank is an inner block (neither the entry nor the exit). -/
def tree_arcs_up (fn : function_info) (rank : Nat → Nat) : Prop :=
  ∀ a, a < fn.arcs.length → (arc fn.arcs a).on_tree = true →
    rank (arc fn.arcs a).src ≠ rank (arc fn.arcs a).dst ∧
    0 < upper fn rank a ∧ upper fn rank a + 1 < fn.num_blocks

instance (fn : function_info) (rank : Nat → Nat) : Decidable (tree_arcs_up fn rank) := by
  unfold tree_arcs_up; infer_instance

/-- No two arcs on the tree have the same end of larger rank. -/
def tree_arcs_once (fn : function_info) (rank : Nat → Nat) : Prop :=
  ∀ a, a < fn.arcs.length → ∀ e, e < fn.arcs.length →
    (arc fn.arcs a).on_tree = true → (arc fn.arcs e).on_tree = true →
    upper fn rank a = upper fn rank e → a = e

instance (fn : function_info) (rank : Nat → Nat) : Decidable (tree_arcs_once fn rank) := by
  unfold tree_arcs_once; infer_instance

/-- Every inner block is the end of larger rank of an arc on the tree. -/
def tree_arcs_all (fn : function_info) (rank : Nat → Nat) : Prop :=
  ∀ j, j < fn.num_blocks → 0 < j → j + 1 < fn.num_blocks →
    ∃ a, a < fn.arcs.length ∧ (arc fn.arcs a).on_tree = true ∧ upper fn rank a = j

instance (fn : function_info) (rank : Nat → Nat) : Decidable (tree_arcs_all fn rank) := by
  unfold tree_arcs_all; infer_instance

/-- The arcs on the tree, together with a virtual edge between the exit and
the entry, form a spanning tree of the blocks.  `rank` orders the blocks by
their distance from the two ends of the virtual edge: the ends of an arc on
the tree have different ranks, its end of larger rank is an inner block, and
every inner block is the end of larger rank of exactly one arc on the tree
(the edge to its parent).  So the arcs on the tree are acyclic, there are
`num_blocks - 2` of them, and every inner block is joined to the entry or to
the exit. -/
def spanning_tree (fn : function_info) (rank : Nat → Nat) : Prop :=
  tree_arcs_up fn rank ∧ tree_arcs_once fn rank ∧ tree_arcs_all fn rank

instance (fn : function_info) (rank : Nat → Nat) : Decidable (spanning_tree fn rank) := by
  unfold spanning_tree; infer_instance

/-- State of the fixed-point loop of the solver, relative to the function
`fn` it started from: the graph is the same, an arc without valid count is on
the tree and has count 0, and each pending counter is the number of arcs of
the chain without valid count, or is saturated on an empty chain (the exit
counter of the last block, the entry counter of the first). -/
structure graph_inv (fn : function_info) (st : solve_state) : Prop where
  blen : st.blocks.length = fn.blocks.length
  alen : st.arcs.length = fn.arcs.length
  frame : ∀ a, arc_frame (arc fn.arcs a) (arc st.arcs a)
  preds : ∀ j, (blk st.blocks j).pred = (blk fn.blocks j).pred
  succs : ∀ j, ((blk st.blocks j).succ).Perm (blk fn.blocks j).succ
  off : ∀ a, a < fn.arcs.length → (arc st.arcs a).count_valid = false →
    (arc fn.arcs a).on_tree = true ∧ (arc st.arcs a).count = 0
  nsucc : ∀ j, (blk st.blocks j).num_succ = inv_count st.arcs (blk fn.blocks j).succ ∨
    ((blk st.blocks j).num_succ = saturated ∧ (blk fn.blocks j).succ = [] ∧ j + 1 = fn.num_blocks)
  npred : ∀ j, (blk st.blocks j).num_pred = inv_count st.arcs (blk fn.blocks j).pred ∨
    ((blk st.blocks j).num_pred = saturated ∧ (blk fn.blocks j).pred = [] ∧ j = 0)

/-- The two work-lists of the solver: a block is on a list exactly when its
chain flag is set; the blocks of the invalid list have no valid count, those
of the valid list have one; a block without valid count and with a pending
counter at zero is on the invalid list, a block with valid count and a
pending counter at one is on the valid list, except for the exit counters of
the blocks in `exs` and the entry counters of the blocks in `exp` (the block
being processed, and the one about to be put on a list). -/
structure list_inv (fn : function_info) (exs exp : Nat → Prop) (st : solve_state) : Prop where
  inv_mem : ∀ j, (blk st.blocks j).invalid_chain = true ↔ j ∈ st.invalid_blocks
  val_mem : ∀ j, (blk st.blocks j).valid_chain = true ↔ j ∈ st.valid_blocks
  inv_nodup : st.invalid_blocks.Nodup
  val_nodup : st.valid_blocks.Nodup
  inv_lt : ∀ j, j ∈ st.invalid_blocks → j < fn.num_blocks ∧ (blk st.blocks j).count_valid = false
  val_lt : ∀ j, j ∈ st.valid_blocks → j < fn.num_blocks ∧ (blk st.blocks j).count_valid = true
  inv_s : ∀ j, j < fn.num_blocks → (blk st.blocks j).count_valid = false →
    (blk st.blocks j).num_succ = 0 → j ∈ st.invalid_blocks ∨ exs j
  inv_p : ∀ j, j < fn.num_blocks → (blk st.blocks j).count_valid = false →
    (blk st.blocks j).num_pred = 0 → j ∈ st.invalid_blocks ∨ exp j
  val_s : ∀ j, j < fn.num_blocks → (blk st.blocks j).count_valid = true →
    (blk st.blocks j).num_succ = 1 → j ∈ st.valid_blocks ∨ exs j
  val_p : ∀ j, j < fn.num_blocks → (blk st.blocks j).count_valid = true →
    (blk st.blocks j).num_pred = 1 → j ∈ st.valid_blocks ∨ exp j

/-- What the spanning tree adds to the state of the loop.  For an arc `a` on
the tree with upper end `u`: while `u` has no valid count, `a` has none; while
`a` has no valid count, the arc to the parent of its lower end has none; once
`u` has a valid count, the pending counter of the side of `u` that does not
hold `a` is zero and the counts of that side sum to the count of `u`; once `a`
has a valid count also, both sides of `u` sum to the count of `u`.  The entry
and the exit get a valid count only with their exits, respectively their
entries, all valid. -/
structure tree_inv (fn : function_info) (rank : Nat → Nat) (st : solve_state) : Prop where
  down : ∀ a, a < fn.arcs.length → (arc fn.arcs a).on_tree = true →
    (blk st.blocks (upper fn rank a)).count_valid = false → (arc st.arcs a).count_valid = false
  below : ∀ a, a < fn.arcs.length → ∀ e, e < fn.arcs.length →
    (arc fn.arcs a).on_tree = true → (arc fn.arcs e).on_tree = true →
    upper fn rank e = lower fn rank a →
    (arc st.arcs a).count_valid = false → (arc st.arcs e).count_valid = false
  side : ∀ a, a < fn.arcs.length → (arc fn.arcs a).on_tree = true →
    (blk st.blocks (upper fn rank a)).count_valid = true →
    if (arc fn.arcs a).src = upper fn rank a
    then (blk st.blocks (upper fn rank a)).num_pred = 0 ∧
      sum_counts st.arcs (blk fn.blocks (upper fn rank a)).pred = (blk st.blocks (upper fn rank a)).count
    else (blk st.blocks (upper fn rank a)).num_succ = 0 ∧
      sum_counts st.arcs (blk fn.blocks (upper fn rank a)).succ = (blk st.blocks (upper fn rank a)).count
  both : ∀ a, a < fn.arcs.length → (arc fn.arcs a).on_tree = true →
    (blk st.blocks (upper fn rank a)).count_valid = true → (arc st.arcs a).count_valid = true →
    sum_counts st.arcs (blk fn.blocks (upper fn rank a)).pred = (blk st.blocks (upper fn rank a)).count ∧
    sum_counts st.arcs (blk fn.blocks (upper fn rank a)).succ = (blk st.blocks (upper fn rank a)).count
  root0 : (blk st.blocks 0).count_valid = true → (blk st.blocks 0).num_succ = 0
  rootn : (blk st.blocks (fn.num_blocks - 1)).count_valid = true →
    (blk st.blocks (fn.num_blocks - 1)).num_pred = 0

/-- The quantity that each turn of the fixed-point loop makes smaller: twice
the arcs and the blocks without valid count, plus the lengths of the two
work-lists. -/
def solve_measure (fn : function_info) (st : solve_state) : Nat :=
  2 * inv_count st.arcs (List.range fn.arcs.length) +
  2 * (List.range fn.num_blocks).countP (fun j => !(blk st.blocks j).count_valid) +
  st.invalid_blocks.length + st.valid_blocks.length

/-- Two states of the solver that differ at most in the chain flags and the
work-lists. -/
def same_counts (st st1 : solve_state) : Prop :=
  st1.arcs = st.arcs ∧ st1.blocks.length = st.blocks.length ∧
  ∀ j, (blk st1.blocks j).succ = (blk st.blocks j).succ ∧ (blk st1.blocks j).pred = (blk st.blocks j).pred ∧
       (blk st1.blocks j).num_succ = (blk st.blocks j).num_succ ∧
       (blk st1.blocks j).num_pred = (blk st.blocks j).num_pred ∧
       (blk st1.blocks j).count = (blk st.blocks j).count ∧
       (blk st1.blocks j).count_valid = (blk st.blocks j).count_valid

/-- What lines 1095-1112 (and 1131-1148) do with the block `o` whose pending
counter, just decremented, is `pending`: `st1` is `st` with `o` put on the
valid list, or on the invalid list, or unchanged when the test fails. -/
def requeued (o : Nat) (pending : Int) (st st1 : solve_state) : Prop :=
  (st1.valid_blocks = o :: st.valid_blocks ∧ st1.invalid_blocks = st.invalid_blocks ∧
    (blk st1.blocks o).valid_chain = true ∧
    (blk st1.blocks o).invalid_chain = (blk st.blocks o).invalid_chain ∧
    (blk st.blocks o).count_valid = true ∧ (blk st.blocks o).valid_chain = false) ∨
  (st1.invalid_blocks = o :: st.invalid_blocks ∧ st1.valid_blocks = st.valid_blocks ∧
    (blk st1.blocks o).invalid_chain = true ∧
    (blk st1.blocks o).valid_chain = (blk st.blocks o).valid_chain ∧
    (blk st.blocks o).count_valid = false ∧ (blk st.blocks o).invalid_chain = false) ∨
  (st1.valid_blocks = st.valid_blocks ∧ st1.invalid_blocks = st.invalid_blocks ∧
    (blk st1.blocks o).valid_chain = (blk st.blocks o).valid_chain ∧
    (blk st1.blocks o).invalid_chain = (blk st.blocks o).invalid_chain ∧
    ((blk st.blocks o).count_valid = true → pending = 1 → (blk st.blocks o).valid_chain = true) ∧
    ((blk st.blocks o).count_valid = false → pending = 0 → (blk st.blocks o).invalid_chain = true))

/-- One deduction of the valid loop (lines 1078-1113 or 1114-1149): the arc
`ia`, an exit (`exit = true`) or an entry of the block `v`, gets the count
`total`; the pending counters of its two ends are decremented, and its other
end `o` is put on a work-list as `requeued` tells. -/
structure deduced (v o ia : Nat) («exit» : Bool) (total : Int) (st st1 : solve_state) : Prop where
  harcs : st1.arcs = st.arcs.set ia { arc st.arcs ia with count_valid := true, count := total }
  hlen : st1.blocks.length = st.blocks.length
  hsame : ∀ j, (blk st1.blocks j).succ = (blk st.blocks j).succ ∧
    (blk st1.blocks j).pred = (blk st.blocks j).pred ∧
    (blk st1.blocks j).count = (blk st.blocks j).count ∧
    (blk st1.blocks j).count_valid = (blk st.blocks j).count_valid
  hns : ∀ j, (blk st1.blocks j).num_succ =
    if j = (arc st.arcs ia).src then (blk st.blocks j).num_succ - 1 else (blk st.blocks j).num_succ
  hnp : ∀ j, (blk st1.blocks j).num_pred =
    if j = (arc st.arcs ia).dst then (blk st.blocks j).num_pred - 1 else (blk st.blocks j).num_pred
  hends : if «exit» then (arc st.arcs ia).src = v ∧ (arc st.arcs ia).dst = o
    else (arc st.arcs ia).dst = v ∧ (arc st.arcs ia).src = o
  hflags : ∀ j, j ≠ o → (blk st1.blocks j).valid_chain = (blk st.blocks j).valid_chain ∧
    (blk st1.blocks j).invalid_chain = (blk st.blocks j).invalid_chain
  hq : requeued o (if «exit» then (blk st1.blocks o).num_pred else (blk st1.blocks o).num_succ) st st1

/-- The positions of a chain of `n` functions in cyclic order, from just
after the position `cur` of the function matched last round to that position
itself; from the head of the chain when no function is matched. -/
def cyclic_order (n : Nat) (cur : Option Nat) : List Nat :=
  match cur with
  | none => List.range n
  | some c => (List.range n).drop (c + 1) ++ (List.range n).take (c + 1)

/-- Order of the chain of functions of a source: `f` comes before `g` when
its first line is greater, or the same and `f` was read later (a function
pointer is its index in `fns`, in the order of the FUNCTION records). -/
def line_desc (p : pair_state) (f g : Nat) : Prop :=
  (p.fn f).line > (p.fn g).line ∨ ((p.fn f).line = (p.fn g).line ∧ g < f)

instance (p : pair_state) (f g : Nat) : Decidable (line_desc p f g) := by
  unfold line_desc; infer_instance

/-- The reverse order: ascending first line, functions of the same first
line in the order read. -/
def line_asc (p : pair_state) (f g : Nat) : Prop :=
  (p.fn f).line < (p.fn g).line ∨ ((p.fn f).line = (p.fn g).line ∧ f < g)

instance (p : pair_state) (f g : Nat) : Decidable (line_asc p f g) := by
  unfold line_asc; infer_instance

/-- The sources of the chain `sources` are allocated. -/
def sources_ok (p : pair_state) : Prop := ∀ s ∈ p.sources, s < p.srcs.length

/-- Every chain of functions of a source is in the order `line_desc` and
holds allocated functions only; the sources of the chain are allocated. -/
def by_line (p : pair_state) : Prop :=
  sources_ok p ∧
  ∀ s, (p.source s).functions.Pairwise (line_desc p) ∧
    ∀ f ∈ (p.source s).functions, f < p.fns.length

/-- Two states of a pair with the same functions, first lines and chains of
functions of the sources, the second with its sources allocated when those
of the first are. -/
def same_lines (p p1 : pair_state) : Prop :=
  p1.fns.length = p.fns.length ∧ (∀ g, (p1.fn g).line = (p.fn g).line) ∧
  (∀ s, (p1.source s).functions = (p.source s).functions) ∧
  (sources_ok p → sources_ok p1)

/-- The state in which `read_graph_file` starts the loop over the records of
a file with stamp `stamp`. -/
def reader_init (stamp : Nat) : reader_state :=
  { pair := { pair_state.empty with gcno_stamp := stamp }, fn := none, current_tag := false,
    src := none }

/-- A FUNCTION record for a function `f` of `a.c` with first line 3. -/
def twin_records : List (note_record × Bool) :=
  [(note_record.function 1 11 ['f'] a_c 3, false)]

/-- The state of the reader after `twin_records`. -/
def twin_first : reader_state :=
  match read_records 8 (skew_pair 0 0).gcno twin_records (reader_init 7) with
  | result.ok rs => rs
  | _ => reader_init 7

/-- The state of the reader after a second FUNCTION record, for a function
`g` of `a.c` with the same first line. -/
def twin_second : reader_state :=
  match read_function 8 (skew_pair 0 0).gcno 2 22 ['g'] a_c 3 twin_first with
  | result.ok rs => rs
  | _ => reader_init 7

/-- One turn of the loops of lines 1047-1151: the body of the inner loop in
which control is, for the block at the head of its work-list, as in
`solve_loop`; the flag of the result tells in which inner loop control is
next.  When both work-lists are empty the loops are over and the state
stays.  `none` is a crash. -/
def solve_turn (in_valid : Bool) (st : solve_state) : Option (Bool × solve_state) :=
  match in_valid, st.invalid_blocks, st.valid_blocks with
  | _, [], [] => some (in_valid, st)
  | false, b :: _, _ => some (false, solve_invalid_step b st)
  | false, [], v :: _ =>
    match solve_valid_step v st with
    | none => none
    | some st1 => some (true, st1)
  | true, _, v :: _ =>
    match solve_valid_step v st with
    | none => none
    | some st1 => some (true, st1)
  | true, b :: _, [] => some (false, solve_invalid_step b st)

/-- The state of the fixed-point loop after `k` turns (or at its end, when
it ends before). -/
def solve_iter : Nat → Bool → solve_state → Option (Bool × solve_state)
  | 0, in_valid, st => some (in_valid, st)
  | k + 1, in_valid, st =>
    match solve_turn in_valid st with
    | none => none
    | some (in_valid1, st1) => solve_iter k in_valid1 st1

/-- The state in which `solve_flow_graph` enters the fixed-point loop. -/
def solve_start (fuel : Nat) (fn : function_info) : Option solve_state :=
  solve_setup fuel fn.counts fn.num_blocks 0
    { blocks := (solve_entry_exit fn.blocks).1, arcs := fn.arcs, count_ptr := 0,
      invalid_blocks := [], valid_blocks := [] }

/-- What the fixed-point loop does to a block or an arc: line 1067 gives the
block `b` a count and marks it valid; lines 1091-1092 and 1127-1128 give the
arc `a` a count and mark it valid. -/
inductive solve_event where
  | mark (b : Nat) : solve_event
  | deduce (a : Nat) : solve_event
deriving DecidableEq, Repr

/-- The event of the body of the invalid loop for block `b` (lines 1056-1068). -/
def invalid_step_events (b : Nat) (st : solve_state) : List solve_event :=
  if (blk st.blocks b).num_succ = 0 then [solve_event.mark b]
  else if (blk st.blocks b).num_pred = 0 then [solve_event.mark b]
  else []

/-- The event of lines 1078-1092 for block `b`. -/
def valid_succ_events (b : Nat) (st : solve_state) : List solve_event :=
  if (blk st.blocks b).num_succ = 1 then
    match find_inv_arc st.arcs (blk st.blocks b).succ none with
    | none => []
    | some ia => [solve_event.deduce ia]
  else []

/-- The event of lines 1114-1128 for block `b`. -/
def valid_pred_events (b : Nat) (st : solve_state) : List solve_event :=
  if (blk st.blocks b).num_pred = 1 then
    match find_inv_arc st.arcs (blk st.blocks b).pred none with
    | none => []
    | some ia => [solve_event.deduce ia]
  else []

/-- The events of the body of the valid loop for block `b`. -/
def valid_step_events (b : Nat) (st : solve_state) : List solve_event :=
  let st1 := { st with valid_blocks := st.valid_blocks.tail
                       blocks := st.blocks.set b { blk st.blocks b with valid_chain := false } }
  match solve_valid_succ b st1 with
  | none => valid_succ_events b st1
  | some st2 => valid_succ_events b st1 ++ valid_pred_events b st2

/-- The events of one turn (`solve_turn`). -/
def turn_events (in_valid : Bool) (st : solve_state) : List solve_event :=
  match in_valid, st.invalid_blocks, st.valid_blocks with
  | _, [], [] => []
  | false, b :: _, _ => invalid_step_events b st
  | false, [], v :: _ => valid_step_events v st
  | true, _, v :: _ => valid_step_events v st
  | true, b :: _, [] => invalid_step_events b st

/-- The events of the first `k` turns of the fixed-point loop, in order. -/
def iter_events : Nat → Bool → solve_state → List solve_event
  | 0, _, _ => []
  | k + 1, in_valid, st =>
    match solve_turn in_valid st with
    | none => turn_events in_valid st
    | some (in_valid1, st1) => turn_events in_valid st ++ iter_events k in_valid1 st1

/-- The block or arc of an event has no valid count in the state `st`. -/
def event_pending (st : solve_state) : solve_event → Prop
  | solve_event.mark b => (blk st.blocks b).count_valid = false
  | solve_event.deduce a => (arc st.arcs a).count_valid = false

/-- The body of the invalid loop when it gives the block `b` the count
`total` (lines 1054-1068): the sum of the exit counts when no exit is
pending, else the sum of the entry counts when no entry is pending. -/
structure marked (b : Nat) (total : Int) (st st1 : solve_state) : Prop where
  harcs : st1.arcs = st.arcs
  hlen : st1.blocks.length = st.blocks.length
  hother : ∀ j, j ≠ b → blk st1.blocks j = blk st.blocks j
  hsame : (blk st1.blocks b).succ = (blk st.blocks b).succ ∧
    (blk st1.blocks b).pred = (blk st.blocks b).pred ∧
    (blk st1.blocks b).num_succ = (blk st.blocks b).num_succ ∧
    (blk st1.blocks b).num_pred = (blk st.blocks b).num_pred
  hcount : (blk st1.blocks b).count = total ∧ (blk st1.blocks b).count_valid = true
  hflags : (blk st1.blocks b).valid_chain = true ∧ (blk st1.blocks b).invalid_chain = false
  hlists : st1.invalid_blocks = st.invalid_blocks.tail ∧ st1.valid_blocks = b :: st.valid_blocks
  htotal : ((blk st.blocks b).num_succ = 0 ∧ total = sum_counts st.arcs (blk st.blocks b).succ) ∨
    ((blk st.blocks b).num_succ ≠ 0 ∧ (blk st.blocks b).num_pred = 0 ∧
      total = sum_counts st.arcs (blk st.blocks b).pred)

/-- The atomic steps of the fixed-point loop on a state in which the pending
counters are right (`graph_inv`): a block without valid count is marked, an
arc without valid count of a valid block with one pending exit (entry) is
deduced, or only chain flags and work-lists change. -/
inductive solve_step (fn : function_info) : solve_state → solve_state → Prop where
  | mark (st st1 : solve_state) (b : Nat) (total : Int) :
      graph_inv fn st → b < fn.num_blocks → (blk st.blocks b).count_valid = false →
      marked b total st st1 → solve_step fn st st1
  | flags (st st1 : solve_state) : graph_inv fn st → same_counts st st1 → solve_step fn st st1
  | deduce (st st1 : solve_state) (v o ia : Nat) («exit» : Bool) (total : Int) :
      graph_inv fn st → v < fn.num_blocks → (blk st.blocks v).count_valid = true →
      ia < fn.arcs.length → (arc st.arcs ia).count_valid = false →
      (if «exit» then (blk st.blocks v).num_succ = 1 ∧ ia ∈ (blk st.blocks v).succ ∧
          total = (blk st.blocks v).count - sum_counts st.arcs (blk st.blocks v).succ
        else (blk st.blocks v).num_pred = 1 ∧ ia ∈ (blk st.blocks v).pred ∧
          total = (blk st.blocks v).count - sum_counts st.arcs (blk st.blocks v).pred) →
      deduced v o ia «exit» total st st1 → solve_step fn st st1

/-- An assignment of counts to the blocks (`FB`) and arcs (`FA`) of a function
that satisfies the flow equations: the count of a block other than the exit
is the sum over its exit arcs, the count of a block other than the entry is
the sum over its entry arcs. -/
def flow_conserved (fn : function_info) (FB FA : Nat → Int) : Prop :=
  (∀ j, j + 1 < fn.num_blocks → FB j = ((blk fn.blocks j).succ.map FA).sum) ∧
  (∀ j, 0 < j → j < fn.num_blocks → FB j = ((blk fn.blocks j).pred.map FA).sum)

/-- The valid counts of a state of the solver are those of the assignment
`FB`, `FA`, and the exit counter of the last block and the entry counter of
the first are saturated. -/
def flow_sound (fn : function_info) (FB FA : Nat → Int) (st : solve_state) : Prop :=
  (∀ a, a < fn.arcs.length → (arc st.arcs a).count_valid = true → (arc st.arcs a).count = FA a) ∧
  (∀ j, j < fn.num_blocks → (blk st.blocks j).count_valid = true → (blk st.blocks j).count = FB j) ∧
  (blk st.blocks (fn.num_blocks - 1)).num_succ = saturated ∧ (blk st.blocks 0).num_pred = saturated

/-- A function `G` of `a.c` with first line 5 and four blocks; block 1 is on
line 10, block 2 has no LINES record. -/
def carry_note : note_file :=
  { magic_ok := true, stamp := 7, records := [
    (note_record.function 1 99 ['G'] ['a', '.', 'c'] 5, false),
    (note_record.blocks [0, 0, 0, 0], false),
    (note_record.arcs 0 [(1, 0)], false),
    (note_record.arcs 1 [(2, 1)], false),
    (note_record.arcs 2 [(3, 1)], false),
    (note_record.lines 1 [line_item.file_name ['a', '.', 'c'], line_item.lineno 10], false)] }

/-- The pair of `carry_note` with the measured count 3 of the arc 0->1. -/
def carry_pair : pair_input :=
  { gcno := ['/', 'd', '/', 'a', '.', 'g', 'c', 'n', 'o'],
    note := some carry_note,
    data := some { magic_ok := true, stamp := 7, records := [
      (data_record.function 1 99, false),
      (data_record.arc_counts 2 [3], false)] } }

/-- The structures of `carry_pair` after the flow graphs are solved and the
line arrays allocated (lines 437-453), before `add_line_counts`. -/
def carry_solved : pair_state :=
  match read_graph_file 8 carry_pair.gcno carry_pair.note pair_state.empty with
  | result.ok p =>
    match read_count_file carry_pair.data p with
    | result.ok p1 =>
      match solve_all 40 p1.functions p1 with
      | some p2 => alloc_lines p2
      | none => pair_state.empty
    | _ => pair_state.empty
  | _ => pair_state.empty

/-- The structures of `carry_pair` after `add_line_counts`. -/
def carry_lines : pair_state :=
  match add_line_counts 0 carry_solved with
  | result.ok p => p
  | _ => pair_state.empty

/-- The state of the loop of `add_line_counts` on `carry_solved` after the
blocks 0 and 1: the structures and the loop variable `line`. -/
def carry_mid : pair_state × Option (Nat × Nat) :=
  match add_line_counts_loop 0 2 0 (carry_solved, none) with
  | result.ok st => st
  | _ => (pair_state.empty, none)

/-- A function `G` of `a.c` with a single block and no arc. -/
def lone_note : note_file :=
  { magic_ok := true, stamp := 7, records := [
    (note_record.function 1 99 ['G'] ['a', '.', 'c'] 5, false),
    (note_record.blocks [0], false)] }

/-- The structures read from `lone_note`. -/
def lone_graph : pair_state :=
  match read_graph_file 8 (skew_pair 5 6).gcno (some lone_note) pair_state.empty with
  | result.ok p => p
  | _ => pair_state.empty

/-- The flag `out_of_order` after the loop of lines 969-985 over the chain
`l`, from the values `prev` of `prev_dst` and `flag` of `out_of_order` before
it. -/
def scan_flag (as : List arc_info) : Option Nat → Bool → List Nat → Bool
  | _, flag, [] => flag
  | prev, flag, a :: rest =>
    scan_flag as (some (arc as a).dst)
      (match prev with
        | none => flag
        | some p => if p > (arc as a).dst then true else flag) rest

/-- The arcs off the tree of a function in the order in which they appear in
the note file (an arc pointer is its index in `arcs`, in the order read). -/
def note_order (fn : function_info) : List Nat :=
  (List.range fn.arcs.length).filter (fun a => !(arc fn.arcs a).on_tree)

/-- The arcs off the tree of a function in the order of the first loop of
`solve_flow_graph` (lines 963-985): the blocks by ascending index, the arcs
of a block in the order of its exit chain. -/
def block_order (fn : function_info) : List Nat :=
  ((List.range fn.num_blocks).flatMap (fun j => (blk fn.blocks j).succ)).filter
    (fun a => !(arc fn.arcs a).on_tree)

/-- The first loop of the solver has stored the first `count_ptr` values of
the buffer `cs` in the arcs off the tree of the list `pre`, in order. -/
def counts_placed (fn : function_info) (cs : List Int) (pre : List Nat) (st : solve_state) : Prop :=
  st.count_ptr = (pre.filter (fun a => !(arc fn.arcs a).on_tree)).length ∧
  (pre.filter (fun a => !(arc fn.arcs a).on_tree)).map (fun a => (arc st.arcs a).count) =
    cs.take st.count_ptr

/-- A function `G` of `a.c` with three blocks whose ARCS record of block 1
comes before the ARCS record of block 0; both arcs are off the tree. -/
def swap_note : note_file :=
  { magic_ok := true, stamp := 7, records := [
    (note_record.function 1 99 ['G'] ['a', '.', 'c'] 5, false),
    (note_record.blocks [0, 0, 0], false),
    (note_record.arcs 1 [(2, 0)], false),
    (note_record.arcs 0 [(1, 0)], false)] }

/-- The structures read from `swap_note`. -/
def swap_graph : pair_state :=
  match read_graph_file 8 (skew_pair 5 6).gcno (some swap_note) pair_state.empty with
  | result.ok p => p
  | _ => pair_state.empty

/-- The data file of `swap_note` with the counts 5 and 7. -/
def swap_data : data_file :=
  { magic_ok := true, stamp := 7, records := [
    (data_record.function 1 99, false),
    (data_record.arc_counts 4 [5, 7], false)] }

/-- The structures of `swap_note` after `read_count_file`. -/
def swap_counted : pair_state :=
  match read_count_file (some swap_data) swap_graph with
  | result.ok p => p
  | _ => pair_state.empty

/-- What the search for the cycles of the line with identity `ix` relies on
in a function: `S` holds of the blocks of the function that are on the line,
every block carrying the identity is one of them, their exit chains are
well formed, and `rank` decreases along every arc between two of them (the
sub-graph of the line has no directed cycle). -/
structure search_ok (ix : Nat) (S : Nat → Prop) (rank : Nat → Nat) (fn : function_info) : Prop where
  hid : ∀ j, j < fn.blocks.length → (blk fn.blocks j).cycle_ident = ix → S j
  hlt : ∀ j, S j → j < fn.blocks.length
  hnd : ∀ j, S j → (blk fn.blocks j).succ.Nodup
  hsrc : ∀ j, S j → ∀ a ∈ (blk fn.blocks j).succ, (arc fn.arcs a).src = j
  hdst : ∀ j, S j → ∀ a ∈ (blk fn.blocks j).succ, (arc fn.arcs a).dst < fn.blocks.length
  hrank : ∀ j, S j → ∀ a ∈ (blk fn.blocks j).succ, S (arc fn.arcs a).dst →
    rank (arc fn.arcs a).dst < rank j

/-- What the search relies on in a pair at the line with identity `ix` and
block chain `C`: every function is fit for the search with its blocks of
the chain, and no block of the chain holds a path arc. -/
structure line_ok (ix : Nat) (C : List (Nat × Nat)) (rank : Nat × Nat → Nat) (p : pair_state) : Prop where
  hfn : ∀ f, search_ok ix (fun j => (f, j) ∈ C) (fun j => rank (f, j)) (p.fn f)
  hnone : ∀ f j, (f, j) ∈ C → (blk (p.fn f).blocks j).cycle_arc = none

/-- The counts of the entry arcs of block `b` whose source block does not
carry the identity `ix`. -/
def ident_entries (ix : Nat) (fn : function_info) (b : Nat) : Int :=
  (((blk fn.blocks b).pred.filter
      (fun x => decide ((blk fn.blocks (arc fn.arcs x).src).cycle_ident ≠ ix))).map
    (fun x => (arc fn.arcs x).count)).sum

/-- The entry-sum of a line with block chain `C`: the sum of the counts of
the incoming arcs of the blocks of the chain whose source block is not on the
chain. -/
def line_entry_sum (p : pair_state) (C : List (Nat × Nat)) : Int :=
  (C.map (fun fb =>
    (((blk (p.fn fb.1).blocks fb.2).pred.filter
        (fun x => decide ((fb.1, (arc (p.fn fb.1).arcs x).src) ∉ C))).map
      (fun x => (arc (p.fn fb.1).arcs x).count)).sum)).sum

/-- An arc of the sub-graph of the line with block chain `C`: `x` and `y` are
blocks of the chain, in the same function, and an exit arc of `x` leads to
`y`. -/
def line_arc (p : pair_state) (C : List (Nat × Nat)) (x y : Nat × Nat) : Prop :=
  x ∈ C ∧ y ∈ C ∧ y.1 = x.1 ∧
    ∃ a ∈ (blk (p.fn x.1).blocks x.2).succ, (arc (p.fn x.1).arcs a).dst = y.2

/-- Note file of a function `G` at line 10 of `a.c` with a call: blocks 0
(entry), 1 (the call), 2 (the return of the call), 3 (a branch), 4 and 5
(exit); the blocks 1, 2 and 3 are on line 10.  The arcs 0->1, 1->5 (fake) and
3->5 are measured, the arcs 1->2 (fall through), 2->3, 3->4 and 4->5 are on
the tree. -/
def call_note : note_file :=
  { magic_ok := true, stamp := 7, records := [
    (note_record.function 1 99 ['G'] ['a', '.', 'c'] 10, false),
    (note_record.blocks [0, 0, 0, 0, 0, 0], false),
    (note_record.arcs 0 [(1, 0)], false),
    (note_record.arcs 1 [(2, 5), (5, 2)], false),
    (note_record.arcs 2 [(3, 1)], false),
    (note_record.arcs 3 [(4, 1), (5, 0)], false),
    (note_record.arcs 4 [(5, 1)], false),
    (note_record.lines 1 [line_item.file_name ['a', '.', 'c'], line_item.lineno 10], false),
    (note_record.lines 2 [line_item.file_name ['a', '.', 'c'], line_item.lineno 10], false),
    (note_record.lines 3 [line_item.file_name ['a', '.', 'c'], line_item.lineno 10], false)] }

/-- The pair of `call_note` with the measured counts 5 (arc 0->1), 0 (arc 1->5)
and 2 (arc 3->5). -/
def call_pair : pair_input :=
  { gcno := ['/', 'd', '/', 'a', '.', 'g', 'c', 'n', 'o'],
    note := some call_note,
    data := some { magic_ok := true, stamp := 7, records := [
      (data_record.function 1 99, false),
      (data_record.arc_counts 6 [5, 0, 2], false)] } }

/-- The note file `skew_note` with the first line 0 for its function. -/
def zero_note : note_file :=
  { magic_ok := true, stamp := 7, records := [
    (note_record.function 1 99 ['G'] ['a', '.', 'c'] 0, false),
    (note_record.blocks [0, 0, 0, 0], false),
    (note_record.arcs 0 [(1, 0)], false),
    (note_record.arcs 1 [(2, 0), (3, 1)], false),
    (note_record.arcs 2 [(3, 1)], false),
    (note_record.lines 1 [line_item.file_name ['a', '.', 'c'], line_item.lineno 10], false),
    (note_record.lines 2 [line_item.file_name ['a', '.', 'c'], line_item.lineno 11], false)] }

/-- The pair of `zero_note` with the measured counts 5 and 6. -/
def zero_pair : pair_input :=
  { gcno := ['/', 'd', '/', 'a', '.', 'g', 'c', 'n', 'o'],
    note := some zero_note,
    data := some { magic_ok := true, stamp := 7, records := [
      (data_record.function 1 99, false),
      (data_record.arc_counts 4 [5, 6], false)] } }

/-- A note file whose only record is the FUNCTION record of `G`, at line 10
of `a.c`: the function has no BLOCKS record. -/
def bare_note : note_file :=
  { magic_ok := true, stamp := 7, records := [
    (note_record.function 1 99 ['G'] ['a', '.', 'c'] 10, false)] }

/-- The pair of `bare_note` with a data file that names the function. -/
def bare_pair : pair_input :=
  { gcno := ['/', 'd', '/', 'a', '.', 'g', 'c', 'n', 'o'],
    note := some bare_note,
    data := some { magic_ok := true, stamp := 7, records := [
      (data_record.function 1 99, false)] } }

/-- The structures read from `bare_note`. -/
def bare_graph : pair_state :=
  match read_graph_file 8 bare_pair.gcno bare_pair.note pair_state.empty with
  | result.ok p => p
  | _ => pair_state.empty

/-- The structures of `bare_pair` after `read_count_file`. -/
def bare_counted : pair_state :=
  match read_count_file bare_pair.data bare_graph with
  | result.ok p => p
  | _ => pair_state.empty

/-- A note file whose function `G` (of `a.c`, three blocks) has a LINES record
for block 1 that begins with the line number 10: no file name comes before
it. -/
def nosrc_note : note_file :=
  { magic_ok := true, stamp := 7, records := [
    (note_record.function 1 99 ['G'] ['a', '.', 'c'] 10, false),
    (note_record.blocks [0, 0, 0], false),
    (note_record.lines 1 [line_item.lineno 10], false)] }

/-- A note file with two functions of `a.c`: the LINES record of `G` names
the file `b.h`; the LINES record of `H` begins with the line number 20. -/
def stale_note : note_file :=
  { magic_ok := true, stamp := 7, records := [
    (note_record.function 1 99 ['G'] ['a', '.', 'c'] 10, false),
    (note_record.blocks [0, 0, 0], false),
    (note_record.lines 1 [line_item.file_name ['b', '.', 'h'], line_item.lineno 3], false),
    (note_record.function 2 98 ['H'] ['a', '.', 'c'] 20, false),
    (note_record.blocks [0, 0, 0], false),
    (note_record.lines 1 [line_item.lineno 20], false)] }

/-- The structures read from `stale_note`. -/
def stale_graph : pair_state :=
  match read_graph_file 8 ['/', 'd', '/', 'a', '.', 'g', 'c', 'n', 'o'] (some stale_note)
      pair_state.empty with
  | result.ok p => p
  | _ => pair_state.empty

/-- What one turn of the loop of `cycle_search` ends with: a crash (a walk
along the path that does not end), the next state, or the result. -/
inductive cycle_outcome where
  | crash : cycle_outcome
  | more : cycle_state → cycle_outcome
  | done : function_info → Int → cycle_outcome

/-- Lines 1445-1510: one turn of the search for the cycles through `block`:
one arc of the exit chain is looked at, or the path is left by its last
vertex.  The walks along the path get the fuel `fuel + 1`. -/
def cycle_turn (ix block fuel : Nat) (st : cycle_state) : cycle_outcome :=
  match st.arc with
  | [] =>
    match (blk st.fn.blocks st.head).cycle_arc with
    | some a =>
      let fn1 : function_info :=
        { st.fn with blocks := st.fn.blocks.set st.head { blk st.fn.blocks st.head with cycle_arc := none } }
      cycle_outcome.more { st with fn := fn1, head := (arc st.fn.arcs a).src, arc := succ_next st.fn a }
    | none =>
      let R : block_info := { blk st.fn.blocks block with cycle_ident := 4294967295 }
      cycle_outcome.done { st.fn with blocks := st.fn.blocks.set block R } st.count
  | a :: rest =>
    let A := arc st.fn.arcs a
    let D := blk st.fn.blocks A.dst
    if A.cycle ∨ D.cycle_ident ≠ ix ∨ D.cycle_arc ≠ none then
      cycle_outcome.more { st with arc := rest }
    else if A.dst = block then
      match cycle_minimum st.fn (fuel + 1) st.head (A.cs_count, a) with
      | none => cycle_outcome.crash
      | some (cycle_count, cycle_arc) =>
        let fn1 : function_info :=
          { st.fn with arcs := st.fn.arcs.set cycle_arc { arc st.fn.arcs cycle_arc with cycle := true } }
        let fn2 : function_info :=
          { fn1 with arcs := fn1.arcs.set a { arc fn1.arcs a with cs_count := (arc fn1.arcs a).cs_count - cycle_count } }
        match cycle_remove cycle_count (fuel + 1) st.head fn2 with
        | none => cycle_outcome.crash
        | some fn3 =>
          match cycle_unwind (arc fn3.arcs cycle_arc).src (fuel + 1) st.head a fn3 with
          | none => cycle_outcome.crash
          | some (fn4, head, a1) =>
            cycle_outcome.more
              { fn := fn4, count := st.count + cycle_count, head := head, arc := succ_next fn4 a1 }
    else
      let fn1 : function_info :=
        { st.fn with blocks := st.fn.blocks.set A.dst { D with cycle_arc := some a } }
      cycle_outcome.more { st with fn := fn1, head := A.dst, arc := (blk fn1.blocks A.dst).succ }

/-- The states that the search passes through, one for each turn of its
loop, the first state included. -/
def cycle_trace (ix block : Nat) : Nat → cycle_state → List cycle_state
  | 0, st => [st]
  | fuel + 1, st =>
    st :: (match cycle_turn ix block fuel st with
      | cycle_outcome.more st1 => cycle_trace ix block fuel st1
      | _ => [])

/-- The shape of a function that the search of the line with identity `ix`
relies on: `S` holds of the blocks of the function that are on the line,
every block carrying the identity is one of them, and their exit chains hold
each arc once, with the block as source and a destination inside the block
array. -/
structure search_wf (ix : Nat) (S : Nat → Prop) (fn : function_info) : Prop where
  hid : ∀ j, j < fn.blocks.length → (blk fn.blocks j).cycle_ident = ix → S j
  hlt : ∀ j, S j → j < fn.blocks.length
  hnd : ∀ j, S j → (blk fn.blocks j).succ.Nodup
  harc : ∀ j, S j → ∀ a ∈ (blk fn.blocks j).succ,
    a < fn.arcs.length ∧ (arc fn.arcs a).src = j ∧ (arc fn.arcs a).dst < fn.blocks.length

/-- The path held in the `u.cycle.arc` fields: `P` lists its arcs from the
one that leads to `h` back to the one that leaves `block`. -/
def on_path (fn : function_info) (S : Nat → Prop) (block : Nat) : Nat → List Nat → Prop
  | h, [] => h = block
  | h, a :: rest =>
    (blk fn.blocks h).cycle_arc = some a ∧ (arc fn.arcs a).dst = h ∧ S (arc fn.arcs a).src ∧
    a ∈ (blk fn.blocks (arc fn.arcs a).src).succ ∧ on_path fn S block (arc fn.arcs a).src rest

/-- The invariant of the loop of `cycle_search`: the function keeps its
shape, the path `P` leads from `block` to `head` through different
blocks, the blocks of the line off the path hold no path arc, and `arc` is
the rest of the exit chain of `head`. -/
structure search_inv (ix block : Nat) (S : Nat → Prop) (st : cycle_state) (P : List Nat) : Prop where
  wf : search_wf ix S st.fn
  hblock : S block
  hhead : S st.head
  hnone : (blk st.fn.blocks block).cycle_arc = none
  hpath : on_path st.fn S block st.head P
  hnodup : (P.map (fun a => (arc st.fn.arcs a).dst)).Nodup
  hfree : ∀ j, S j → j ∉ P.map (fun a => (arc st.fn.arcs a).dst) → (blk st.fn.blocks j).cycle_arc = none
  hrem : ∃ pre, (blk st.fn.blocks st.head).succ = pre ++ st.arc

/-- The part of the measure of the search that the lower levels of the path
contribute: for every arc of the path, the arcs that come after it on the exit
chain of its source, weighted by the level. -/
def path_measure (fn : function_info) (B N : Nat) : List Nat → Nat
  | [] => 0
  | a :: rest => ((succ_next fn a).length + 1) * B ^ (N - rest.length) + path_measure fn B N rest

/-- The measure of the search: it decreases with every turn of the loop. -/
def search_measure (st : cycle_state) (P : List Nat) : Nat :=
  (st.arc.length + 1) * (st.fn.arcs.length + 2) ^ (st.fn.blocks.length - P.length) +
    path_measure st.fn (st.fn.arcs.length + 2) st.fn.blocks.length P

/-- No working count of an arc that leaves a block of the line is negative. -/
def counts_nonneg (S : Nat → Prop) (fn : function_info) : Prop :=
  ∀ j, S j → ∀ a ∈ (blk fn.blocks j).succ, 0 ≤ (arc fn.arcs a).cs_count

/-- The shape of a pair that the search of the line with identity `ix` and
block chain `C` relies on: every function has the shape the search needs,
with its blocks of the chain, and no block of the chain holds a path arc. -/
structure line_wf (ix : Nat) (C : List (Nat × Nat)) (p : pair_state) : Prop where
  hfn : ∀ f, search_wf ix (fun j => (f, j) ∈ C) (p.fn f)
  hnone : ∀ f j, (f, j) ∈ C → (blk (p.fn f).blocks j).cycle_arc = none

/-- The states that the loop over the blocks of a line passes through: for
every block of the chain the states of its search, each with its function. -/
def line_trace (fuel ix : Nat) :
    List (Nat × Nat) → pair_state × Int → List (Nat × cycle_state)
  | [], _ => []
  | (f, b) :: rest, (p, count) =>
    (cycle_trace ix b fuel
        { fn := p.fn f, count := count, head := b, arc := (blk (p.fn f).blocks b).succ }).map
      (fun st => (f, st)) ++
    (match cycle_search ix b fuel
        { fn := p.fn f, count := count, head := b, arc := (blk (p.fn f).blocks b).succ } with
      | none => []
      | some (fn1, count1) => line_trace fuel ix rest (p.set_fn f fn1, count1))

/-- Lines 1389-1414: the structures and the count with which the search for
the cycles of line `l` of source `s` starts. -/
def search_start (s l ix : Nat) (p : pair_state) : pair_state × Int :=
  let line := p.line s l
  let chain := line.blocks.reverse
  let p1 := (mark_line_blocks ix line.blocks p).upd_line s l (fun L => { L with blocks := chain })
  let e := sum_line_entries ix chain (p1, 0, (p1.source s).coverage)
  (e.1.set_source s { e.1.source s with coverage := e.2.2 }, e.2.1)

/-- A number of turns that is enough for the search of every block of the
chain `C`. -/
def search_bound (p : pair_state) (C : List (Nat × Nat)) : Nat :=
  (C.map (fun fb => ((p.fn fb.1).arcs.length + 2) ^ ((p.fn fb.1).blocks.length + 1))).sum

/-! # Theorems

## Reads and writes of the arrays -/

theorem getD_set_eq {α : Type} (l : List α) (i j : Nat) (v d : α) :
    (l.set i v).getD j d = if i = j ∧ i < l.length then v else l.getD j d := by
  simp only [List.getD_eq_getElem?_getD, List.getElem?_set]
  by_cases h : i = j
  · subst h
    by_cases h2 : i < l.length
    · simp [h2]
    · simp [h2, List.getElem?_eq_none (Nat.le_of_not_lt h2)]
  · simp [h]

theorem blk_set (bs : List block_info) (i j : Nat) (v : block_info) :
    blk (bs.set i v) j = if i = j ∧ i < bs.length then v else blk bs j := by
  unfold blk; exact getD_set_eq bs i j v _

theorem arc_set (as : List arc_info) (i j : Nat) (v : arc_info) :
    arc (as.set i v) j = if i = j ∧ i < as.length then v else arc as j := by
  unfold arc; exact getD_set_eq as i j v _

theorem arc_append_lt (as : List arc_info) (A : arc_info) (a : Nat) (h : a < as.length) :
    arc (as ++ [A]) a = arc as a := by
  unfold arc; simp [List.getD_eq_getElem?_getD, List.getElem?_append_left h]

theorem arc_append_eq (as : List arc_info) (A : arc_info) :
    arc (as ++ [A]) as.length = A := by
  unfold arc; simp [List.getD_eq_getElem?_getD]

theorem blk_map (bs : List block_info) (g : block_info → block_info) (j : Nat)
    (hz : g block_info.zero = block_info.zero) : blk (bs.map g) j = g (blk bs j) := by
  unfold blk
  simp only [List.getD_eq_getElem?_getD, List.getElem?_map]
  cases h : bs[j]? <;> simp [hz]

/-! ## Graph assembly: arc symmetry -/

theorem read_arc_spec (src dest flags : Nat) (fn fn1 : function_info)
    (h : read_arc src dest flags fn = some fn1) (hs : src < fn.num_blocks) :
    dest < fn.num_blocks ∧ fn1.blocks.length = fn.blocks.length ∧
    fn1.arcs.length = fn.arcs.length + 1 ∧
    (∀ a, a < fn.arcs.length → arc fn1.arcs a = arc fn.arcs a) ∧
    (arc fn1.arcs fn.arcs.length).src = src ∧ (arc fn1.arcs fn.arcs.length).dst = dest ∧
    (∀ j, (blk fn1.blocks j).succ =
      if src = j then fn.arcs.length :: (blk fn.blocks j).succ else (blk fn.blocks j).succ) ∧
    (∀ j, (blk fn1.blocks j).pred =
      if dest = j then fn.arcs.length :: (blk fn.blocks j).pred else (blk fn.blocks j).pred) := by
  unfold read_arc at h
  by_cases hd : dest ≥ fn.num_blocks
  · simp [hd] at h
  · simp only [hd, if_false] at h
    have hd' : dest < fn.blocks.length := by
      unfold function_info.num_blocks at hd; omega
    have hs' : src < fn.blocks.length := hs
    injection h with h
    subst h
    refine ⟨by unfold function_info.num_blocks; omega, ?_, ?_, ?_, ?_, ?_, ?_, ?_⟩
    · simp only; split <;> [split; skip] <;> simp
    · simp
    · intro a ha; simp only; exact arc_append_lt _ _ _ ha
    · simp only [arc_append_eq]
    · simp only [arc_append_eq]
    · intro j
      simp only
      split <;> [split; skip] <;>
        (simp only [blk_set, List.length_set]
         by_cases h1 : src = j <;> by_cases h2 : dest = j <;> simp_all)
    · intro j
      simp only
      split <;> [split; skip] <;>
        (simp only [blk_set, List.length_set]
         by_cases h1 : src = j <;> by_cases h2 : dest = j <;> simp_all)

theorem read_arc_linked (src dest flags : Nat) (fn fn1 : function_info)
    (h : read_arc src dest flags fn = some fn1) (hs : src < fn.num_blocks)
    (hl : arcs_linked fn) : arcs_linked fn1 ∧ fn1.num_blocks = fn.num_blocks ∧
      fn1.blocks_seen = fn.blocks_seen := by
  obtain ⟨hd, hlen, halen, hold, hsrc, hdst, hsucc, hpred⟩ := read_arc_spec src dest flags fn fn1 h hs
  have hseen : fn1.blocks_seen = fn.blocks_seen := by
    unfold read_arc at h
    by_cases hd2 : dest ≥ fn.num_blocks
    · simp [hd2] at h
    · simp only [hd2, if_false] at h
      injection h with h; subst h; rfl
  obtain ⟨h1, h2, h3⟩ := hl
  have hn : fn1.num_blocks = fn.num_blocks := hlen
  have hfresh_s : ∀ b, b < fn.num_blocks → fn.arcs.length ∉ (blk fn.blocks b).succ := by
    intro b hb hx; have := (h2 b hb _ hx).1; omega
  have hfresh_p : ∀ b, b < fn.num_blocks → fn.arcs.length ∉ (blk fn.blocks b).pred := by
    intro b hb hx; have := (h3 b hb _ hx).1; omega
  refine ⟨⟨?_, ?_, ?_⟩, hn, hseen⟩
  · intro a ha
    rw [halen] at ha
    rcases Nat.lt_succ_iff_lt_or_eq.mp ha with ha' | ha'
    · obtain ⟨q1, q2, q3, q4⟩ := h1 a ha'
      rw [hold a ha', hn, hsucc, hpred]
      refine ⟨q1, q2, ?_, ?_⟩
      · split
        · rw [List.count_cons_of_ne (by omega)]; exact q3
        · exact q3
      · split
        · rw [List.count_cons_of_ne (by omega)]; exact q4
        · exact q4
    · subst ha'
      rw [hsrc, hdst, hn, hsucc, hpred]
      refine ⟨hs, hd, ?_, ?_⟩
      · simp only [if_true, List.count_cons_self]
        rw [List.count_eq_zero_of_not_mem (hfresh_s src hs)]
      · simp only [if_true, List.count_cons_self]
        rw [List.count_eq_zero_of_not_mem (hfresh_p dest hd)]
  · intro b hb x hx
    rw [hn] at hb
    rw [hsucc] at hx
    rw [halen]
    by_cases hsb : src = b
    · rw [if_pos hsb] at hx
      rcases List.mem_cons.mp hx with hx | hx
      · subst hx; exact ⟨by omega, by rw [hsrc]; exact hsb⟩
      · have := h2 b hb x hx
        exact ⟨by omega, by rw [hold x this.1]; exact this.2⟩
    · rw [if_neg hsb] at hx
      have := h2 b hb x hx
      exact ⟨by omega, by rw [hold x this.1]; exact this.2⟩
  · intro b hb x hx
    rw [hn] at hb
    rw [hpred] at hx
    rw [halen]
    by_cases hsb : dest = b
    · rw [if_pos hsb] at hx
      rcases List.mem_cons.mp hx with hx | hx
      · subst hx; exact ⟨by omega, by rw [hdst]; exact hsb⟩
      · have := h3 b hb x hx
        exact ⟨by omega, by rw [hold x this.1]; exact this.2⟩
    · rw [if_neg hsb] at hx
      have := h3 b hb x hx
      exact ⟨by omega, by rw [hold x this.1]; exact this.2⟩

theorem read_arc_list_linked (src : Nat) (dests : List (Nat × Nat)) :
    ∀ (fn fn1 : function_info), read_arc_list src dests fn = some fn1 → src < fn.num_blocks →
      arcs_linked fn → arcs_linked fn1 ∧ fn1.num_blocks = fn.num_blocks ∧
        fn1.blocks_seen = fn.blocks_seen := by
  induction dests with
  | nil =>
    intro fn fn1 h _ hl
    simp only [read_arc_list] at h
    injection h with h; subst h; exact ⟨hl, rfl, rfl⟩
  | cons d rest ih =>
    intro fn fn1 h hs hl
    obtain ⟨dest, flags⟩ := d
    simp only [read_arc_list] at h
    cases hr : read_arc src dest flags fn with
    | none => rw [hr] at h; simp at h
    | some fn2 =>
      rw [hr] at h
      obtain ⟨q1, q2, q3⟩ := read_arc_linked src dest flags fn fn2 hr hs hl
      obtain ⟨r1, r2, r3⟩ := ih fn2 fn1 h (by rw [q2]; exact hs) q1
      exact ⟨r1, by rw [r2, q2], by rw [r3, q3]⟩

theorem getD_append_single {α : Type} (l : List α) (x d : α) (f : Nat) :
    (l ++ [x]).getD f d = if f < l.length then l.getD f d else if f = l.length then x else d := by
  simp only [List.getD_eq_getElem?_getD]
  by_cases h : f < l.length
  · simp [h, List.getElem?_append_left h]
  · by_cases h2 : f = l.length
    · subst h2; simp
    · rw [List.getElem?_eq_none (by simp; omega)]; simp [h, h2]

theorem fn_set_fn (p : pair_state) (f g : Nat) (v : function_info) :
    (p.set_fn f v).fn g = if f = g ∧ f < p.fns.length then v else p.fn g := by
  unfold pair_state.fn pair_state.set_fn; exact getD_set_eq p.fns f g v _

theorem fn_set_source (p : pair_state) (s g : Nat) (v : source_info) :
    (p.set_source s v).fn g = p.fn g := rfl

theorem find_source_fns (fuel : Nat) (a b : List Char) (p p1 : pair_state) (s : Nat)
    (h : find_source fuel a b p = some (s, p1)) :
    p1.fns = p.fns ∧ p1.functions = p.functions := by
  unfold find_source at h
  split at h
  · simp at h
  · split at h
    · injection h with h; injection h with h1 h2; subst h2; exact ⟨rfl, rfl⟩
    · injection h with h; injection h with h1 h2; subst h2; exact ⟨rfl, rfl⟩

theorem arcs_linked_zero : arcs_linked function_info.zero := by
  refine ⟨?_, ?_, ?_⟩ <;> intro a ha <;> simp [function_info.zero, function_info.num_blocks] at ha

theorem fn_fresh_zero : fn_fresh function_info.zero := by
  refine ⟨rfl, fun j => ?_, fun a => ?_⟩
  · simp [function_info.zero, blk, block_info.zero]
  · simp [function_info.zero, arc, arc_info.zero]

theorem read_arc_fresh (src dest flags : Nat) (fn fn1 : function_info)
    (h : read_arc src dest flags fn = some fn1) (hs : src < fn.num_blocks)
    (hf : fn_fresh fn) : fn_fresh fn1 := by
  obtain ⟨f1, f2, f3⟩ := hf
  unfold read_arc at h
  by_cases hd : dest ≥ fn.num_blocks
  · simp [hd] at h
  · simp only [hd, if_false] at h
    have hd' : dest < fn.blocks.length := by
      unfold function_info.num_blocks at hd; omega
    have hs' : src < fn.blocks.length := hs
    injection h with h
    subst h
    refine ⟨?_, ?_, ?_⟩
    · simp only [List.countP_append, List.countP_cons, List.countP_nil, f1]
      by_cases ht : flag_set flags GCOV_ARC_ON_TREE = true
      · simp [ht]
      · simp [ht]
    · intro j
      obtain ⟨g1, g2, g3, g4, g5⟩ := f2 j
      obtain ⟨s1, s2, s3, s4, s5⟩ := f2 src
      obtain ⟨d1, d2, d3, d4, d5⟩ := f2 dest
      simp only
      split <;> [split; skip] <;>
        (simp only [blk_set, List.length_set]
         by_cases h1 : src = j <;> by_cases h2 : dest = j <;>
           simp_all [List.length_cons])
    · intro a
      simp only
      by_cases ha : a < fn.arcs.length
      · rw [arc_append_lt _ _ _ ha]; exact f3 a
      · by_cases ha2 : a = fn.arcs.length
        · subst ha2; rw [arc_append_eq]; exact ⟨rfl, rfl⟩
        · unfold arc
          rw [getD_append_single]
          simp only [ha, ha2, if_false]
          exact ⟨rfl, rfl⟩

theorem read_arc_list_fresh (src : Nat) (dests : List (Nat × Nat)) :
    ∀ (fn fn1 : function_info), read_arc_list src dests fn = some fn1 → src < fn.num_blocks →
      arcs_linked fn → fn_fresh fn → fn_fresh fn1 := by
  induction dests with
  | nil =>
    intro fn fn1 h _ _ hf
    simp only [read_arc_list] at h
    injection h with h; subst h; exact hf
  | cons d rest ih =>
    intro fn fn1 h hs hl hf
    obtain ⟨dest, flags⟩ := d
    simp only [read_arc_list] at h
    cases hr : read_arc src dest flags fn with
    | none => rw [hr] at h; simp at h
    | some fn2 =>
      rw [hr] at h
      obtain ⟨q1, q2, _⟩ := read_arc_linked src dest flags fn fn2 hr hs hl
      exact ih fn2 fn1 h (by rw [q2]; exact hs) q1 (read_arc_fresh src dest flags fn fn2 hr hs hf)

theorem read_arc_list_counts (src : Nat) (dests : List (Nat × Nat)) :
    ∀ (fn fn1 : function_info), read_arc_list src dests fn = some fn1 → fn1.counts = fn.counts := by
  induction dests with
  | nil => intro fn fn1 h; simp only [read_arc_list] at h; injection h with h; subst h; rfl
  | cons d rest ih =>
    intro fn fn1 h
    obtain ⟨dest, flags⟩ := d
    simp only [read_arc_list] at h
    cases hr : read_arc src dest flags fn with
    | none => rw [hr] at h; simp at h
    | some fn2 =>
      rw [hr] at h
      rw [ih fn2 fn1 h]
      unfold read_arc at hr
      split at hr
      · simp at hr
      · injection hr with hr; subst hr; rfl

theorem read_function_inv (fuel : Nat) (gcno : List Char) (ident checksum : Nat)
    (name source : List Char) (lineno : Nat) (rs rs1 : reader_state)
    (h : read_function fuel gcno ident checksum name source lineno rs = result.ok rs1)
    (hi : ∀ f, fn_inv (rs.pair.fn f)) : ∀ f, fn_inv (rs1.pair.fn f) := by
  unfold read_function at h
  cases hf : find_source fuel source gcno rs.pair with
  | none => rw [hf] at h; simp at h
  | some r =>
    obtain ⟨s, p1⟩ := r
    rw [hf] at h
    simp only at h
    injection h with h; subst h
    have hfns := (find_source_fns _ _ _ _ _ _ hf).1
    intro f
    simp only [fn_set_source]
    unfold pair_state.fn
    simp only [hfns, getD_append_single]
    by_cases hlt : f < rs.pair.fns.length
    · simp only [hlt, if_true]; exact hi f
    · simp only [hlt, if_false]
      by_cases heq : f = rs.pair.fns.length
      · simp only [heq, if_true]
        refine ⟨⟨?_, ?_, ?_⟩, fun _ => rfl, ?_⟩
        · intro a ha; simp [function_info.zero, function_info.num_blocks] at ha
        · intro a ha; simp [function_info.zero, function_info.num_blocks] at ha
        · intro a ha; simp [function_info.zero, function_info.num_blocks] at ha
        · refine ⟨⟨rfl, fun j => ?_, fun a => ?_⟩, rfl⟩
          · simp [function_info.zero, blk, block_info.zero]
          · simp [function_info.zero, arc, arc_info.zero]
      · simp only [heq, if_false]
        exact ⟨arcs_linked_zero, fun _ => rfl, fn_fresh_zero, rfl⟩

theorem read_blocks_inv (flags : List Nat) (f : Nat) (rs : reader_state)
    (hi : ∀ g, fn_inv (rs.pair.fn g)) : ∀ g, fn_inv ((read_blocks flags f rs).pair.fn g) := by
  unfold read_blocks
  dsimp only
  split
  · exact hi
  · rename_i hseen
    intro g
    simp only [fn_set_fn]
    split
    · have hf := hi f
      have hb : (rs.pair.fn f).blocks = [] := hf.2.1 (by simpa using hseen)
      have ha : (rs.pair.fn f).arcs.length = 0 := by
        by_contra hne
        have := (hf.1.1 0 (by omega)).1
        simp [function_info.num_blocks, hb] at this
      have hfr := hf.2.2.1
      refine ⟨⟨?_, ?_, ?_⟩, by simp, ?_, hf.2.2.2⟩
      rotate_left 3
      · refine ⟨?_, fun j => ?_, hfr.2.2⟩
        · have := hfr.1
          simpa using this
        · simp only [blk, List.getD_eq_getElem?_getD, List.getElem?_map]
          cases flags[j]? <;> simp [block_info.zero]
      · intro a h; simp only at h; omega
      · intro b hb x hx
        simp only [function_info.num_blocks, List.length_map] at hb
        simp [blk, List.getD_eq_getElem?_getD, List.getElem?_map, List.getElem?_eq_getElem hb,
          block_info.zero] at hx
      · intro b hb x hx
        simp only [function_info.num_blocks, List.length_map] at hb
        simp [blk, List.getD_eq_getElem?_getD, List.getElem?_map, List.getElem?_eq_getElem hb,
          block_info.zero] at hx
    · exact hi g

theorem read_arcs_inv (src : Nat) (dests : List (Nat × Nat)) (f : Nat) (rs rs1 : reader_state)
    (h : read_arcs src dests f rs = result.ok rs1)
    (hi : ∀ g, fn_inv (rs.pair.fn g)) : ∀ g, fn_inv (rs1.pair.fn g) := by
  unfold read_arcs at h
  dsimp only at h
  split at h
  · simp at h
  · rename_i hc
    have hs : src < (rs.pair.fn f).num_blocks := by
      by_contra hn; exact hc (Or.inl (by omega))
    cases hr : read_arc_list src dests (rs.pair.fn f) with
    | none => rw [hr] at h; simp at h
    | some fn1 =>
      rw [hr] at h
      simp only at h
      injection h with h; subst h
      obtain ⟨q1, q2, q3⟩ := read_arc_list_linked src dests _ _ hr hs (hi f).1
      intro g
      simp only [fn_set_fn]
      split
      · refine ⟨q1, fun hb => ?_, read_arc_list_fresh src dests _ _ hr hs (hi f).1 (hi f).2.2.1, ?_⟩
        rotate_left 1
        · rw [read_arc_list_counts src dests _ _ hr]; exact (hi f).2.2.2
        rw [q3] at hb
        have := (hi f).2.1 hb
        unfold function_info.num_blocks at hs
        rw [this] at hs; simp at hs
      · exact hi g

theorem arcs_linked_congr (fn fn1 : function_info) (hl : arcs_linked fn)
    (hn : fn1.blocks.length = fn.blocks.length)
    (ha : fn1.arcs.length = fn.arcs.length)
    (hsd : ∀ a, (arc fn1.arcs a).src = (arc fn.arcs a).src ∧ (arc fn1.arcs a).dst = (arc fn.arcs a).dst)
    (hs : ∀ j, (blk fn1.blocks j).succ = (blk fn.blocks j).succ)
    (hp : ∀ j, (blk fn1.blocks j).pred = (blk fn.blocks j).pred) : arcs_linked fn1 := by
  obtain ⟨h1, h2, h3⟩ := hl
  unfold arcs_linked function_info.num_blocks at *
  refine ⟨?_, ?_, ?_⟩
  · intro a h
    rw [(hsd a).1, (hsd a).2, hs, hp, hn]
    exact h1 a (by omega)
  · intro b hb x hx
    rw [hs] at hx; rw [(hsd x).1, ha]
    exact h2 b (by omega) x hx
  · intro b hb x hx
    rw [hp] at hx; rw [(hsd x).2, ha]
    exact h3 b (by omega) x hx

theorem read_line_item_fns (fuel : Nat) (gcno : List Char) (it : line_item) (ls ls1 : lines_scan)
    (h : read_line_item fuel gcno it ls = result.ok ls1) :
    ls1.rs.pair.fns = ls.rs.pair.fns := by
  unfold read_line_item at h
  cases it with
  | lineno n =>
    simp only at h
    cases hs : ls.rs.src with
    | none => rw [hs] at h; simp at h
    | some s => rw [hs] at h; simp only at h; injection h with h; subst h; rfl
  | file_name nm =>
    simp only at h
    cases hf : find_source fuel nm gcno ls.rs.pair with
    | none => rw [hf] at h; simp at h
    | some r =>
      obtain ⟨s, p1⟩ := r
      rw [hf] at h; simp only at h; injection h with h; subst h
      exact (find_source_fns _ _ _ _ _ _ hf).1

theorem read_line_items_fns (fuel : Nat) (gcno : List Char) (items : List line_item) :
    ∀ (ls ls1 : lines_scan), read_line_items fuel gcno items ls = result.ok ls1 →
      ls1.rs.pair.fns = ls.rs.pair.fns := by
  induction items with
  | nil => intro ls ls1 h; simp only [read_line_items] at h; injection h with h; subst h; rfl
  | cons it rest ih =>
    intro ls ls1 h
    simp only [read_line_items] at h
    cases hr : read_line_item fuel gcno it ls with
    | ok ls2 => rw [hr] at h; rw [ih ls2 ls1 h, read_line_item_fns _ _ _ _ _ hr]
    | error => rw [hr] at h; simp at h
    | undefined => rw [hr] at h; simp at h

theorem read_lines_inv (fuel : Nat) (gcno : List Char) (blockno : Nat) (items : List line_item)
    (f : Nat) (rs rs1 : reader_state)
    (h : read_lines fuel gcno blockno items f rs = result.ok rs1)
    (hi : ∀ g, fn_inv (rs.pair.fn g)) : ∀ g, fn_inv (rs1.pair.fn g) := by
  unfold read_lines at h
  dsimp only at h
  split at h
  · simp at h
  · cases hr : read_line_items fuel gcno items { rs := rs, line_nos := [] } with
    | error => rw [hr] at h; simp at h
    | undefined => rw [hr] at h; simp at h
    | ok ls =>
      rw [hr] at h; simp only at h; injection h with h; subst h
      have hfns : ls.rs.pair.fns = rs.pair.fns := read_line_items_fns _ _ _ _ _ hr
      have hfn : ∀ g, ls.rs.pair.fn g = rs.pair.fn g := by
        intro g; unfold pair_state.fn; rw [hfns]
      intro g
      simp only [fn_set_fn]
      split
      · rw [hfn]
        refine ⟨arcs_linked_congr _ _ (hi f).1 (by simp) rfl (fun a => ⟨rfl, rfl⟩) ?_ ?_, ?_⟩
        · intro j; simp only [blk_set]; split
          · rename_i hc; rw [← hc.1]
          · rfl
        · intro j; simp only [blk_set]; split
          · rename_i hc; rw [← hc.1]
          · rfl
        · refine ⟨fun hb => ?_, ?_⟩
          · have := (hi f).2.1 hb
            simp [this]
          · obtain ⟨f1, f2, f3⟩ := (hi f).2.2.1
            refine ⟨⟨f1, fun j => ?_, f3⟩, (hi f).2.2.2⟩
            simp only [blk_set]
            split
            · exact f2 blockno
            · exact f2 j
      · rw [hfn]; exact hi g

theorem read_record_inv (fuel : Nat) (gcno : List Char) (r : note_record) (rs rs1 : reader_state)
    (h : read_record fuel gcno r rs = result.ok rs1)
    (hi : ∀ g, fn_inv (rs.pair.fn g)) : ∀ g, fn_inv (rs1.pair.fn g) := by
  unfold read_record at h
  cases r with
  | function ident checksum name source lineno =>
    simp only at h
    exact read_function_inv _ _ _ _ _ _ _ _ _ h hi
  | blocks flags =>
    cases hf : rs.fn with
    | none => rw [hf] at h; simp only at h; injection h with h; subst h; exact hi
    | some f =>
      rw [hf] at h; simp only at h; injection h with h; subst h
      exact read_blocks_inv _ _ _ hi
  | arcs src dests =>
    cases hf : rs.fn with
    | none => rw [hf] at h; simp only at h; injection h with h; subst h; exact hi
    | some f => rw [hf] at h; simp only at h; exact read_arcs_inv _ _ _ _ _ h hi
  | lines blockno items =>
    cases hf : rs.fn with
    | none => rw [hf] at h; simp only at h; injection h with h; subst h; exact hi
    | some f => rw [hf] at h; simp only at h; exact read_lines_inv _ _ _ _ _ _ _ h hi
  | other is_subtag =>
    simp only at h
    injection h with h; subst h
    split <;> exact hi

theorem read_records_inv (fuel : Nat) (gcno : List Char) (rcs : List (note_record × Bool)) :
    ∀ (rs rs1 : reader_state), read_records fuel gcno rcs rs = result.ok rs1 →
      (∀ g, fn_inv (rs.pair.fn g)) → ∀ g, fn_inv (rs1.pair.fn g) := by
  induction rcs with
  | nil => intro rs rs1 h hi; simp only [read_records] at h; injection h with h; subst h; exact hi
  | cons rc rest ih =>
    intro rs rs1 h hi
    obtain ⟨r, e⟩ := rc
    simp only [read_records] at h
    cases hr : read_record fuel gcno r rs with
    | ok rs2 =>
      rw [hr] at h; simp only at h
      split at h
      · simp at h
      · exact ih rs2 rs1 h (read_record_inv _ _ _ _ _ hr hi)
    | error => rw [hr] at h; simp at h
    | undefined => rw [hr] at h; simp at h

theorem reverse_arcs_linked (fn : function_info) (hl : arcs_linked fn) :
    arcs_linked (reverse_arcs fn) := by
  have hb : ∀ j, blk (reverse_arcs fn).blocks j =
      { blk fn.blocks j with succ := (blk fn.blocks j).succ.reverse,
                             pred := (blk fn.blocks j).pred.reverse } := by
    intro j; unfold reverse_arcs; simp only; rw [blk_map]; rfl
  obtain ⟨h1, h2, h3⟩ := hl
  have hn : (reverse_arcs fn).num_blocks = fn.num_blocks := by
    simp [reverse_arcs, function_info.num_blocks]
  have ha : (reverse_arcs fn).arcs = fn.arcs := rfl
  refine ⟨?_, ?_, ?_⟩
  · intro a h
    rw [ha] at h ⊢
    rw [hn, hb, hb]
    simp only [List.count_reverse]
    exact h1 a h
  · intro b hlt x hx
    rw [hb] at hx; simp only [List.mem_reverse] at hx
    rw [ha]; exact h2 b (by rw [← hn]; exact hlt) x hx
  · intro b hlt x hx
    rw [hb] at hx; simp only [List.mem_reverse] at hx
    rw [ha]; exact h3 b (by rw [← hn]; exact hlt) x hx

theorem reverse_arcs_fresh (fn : function_info) (hf : fn_fresh fn) : fn_fresh (reverse_arcs fn) := by
  have hb : ∀ j, blk (reverse_arcs fn).blocks j =
      { blk fn.blocks j with succ := (blk fn.blocks j).succ.reverse,
                             pred := (blk fn.blocks j).pred.reverse } := by
    intro j; unfold reverse_arcs; simp only; rw [blk_map]; rfl
  obtain ⟨f1, f2, f3⟩ := hf
  refine ⟨f1, fun j => ?_, f3⟩
  rw [hb]
  simp only [List.length_reverse]
  exact f2 j

theorem reverse_all_fn (p : pair_state) (g : Nat) :
    (reverse_all p).fn g = (if g ∈ p.functions then reverse_arcs (p.fn g) else p.fn g) ∨
    (reverse_all p).fn g = p.fn g := by
  unfold reverse_all pair_state.fn
  simp only [List.getD_eq_getElem?_getD, List.getElem?_map]
  by_cases h : g < p.fns.length
  · left
    simp [List.getElem?_range h, List.getD_eq_getElem?_getD]
  · right
    rw [List.getElem?_eq_none (by simpa using h), List.getElem?_eq_none (by omega)]
    rfl

theorem reverse_all_inv (p : pair_state) (hi : ∀ g, fn_inv (p.fn g)) :
    ∀ g, fn_inv ((reverse_all p).fn g) := by
  intro g
  rcases reverse_all_fn p g with h | h
  · rw [h]; split
    · exact ⟨reverse_arcs_linked _ (hi g).1, fun hb => by
        have := (hi g).2.1 hb; simp [reverse_arcs, this], reverse_arcs_fresh _ (hi g).2.2.1,
        (hi g).2.2.2⟩
    · exact hi g
  · rw [h]; exact hi g

theorem fn_inv_empty (g : Nat) : fn_inv (pair_state.empty.fn g) := by
  have : pair_state.empty.fn g = function_info.zero := by
    simp [pair_state.fn, pair_state.empty]
  rw [this]; exact ⟨arcs_linked_zero, fun _ => rfl, fn_fresh_zero, rfl⟩

theorem read_graph_file_inv (fuel : Nat) (gcno : List Char) (file : Option note_file)
    (p : pair_state) (h : read_graph_file fuel gcno file pair_state.empty = result.ok p) :
    ∀ g, fn_inv (p.fn g) := by
  unfold read_graph_file at h
  cases file with
  | none => simp at h
  | some nf =>
    simp only at h
    split at h
    · simp at h
    · cases hr : read_records fuel gcno nf.records
          { pair := { pair_state.empty with gcno_stamp := nf.stamp }, fn := none,
            current_tag := false, src := none } with
      | ok rs =>
        rw [hr] at h; simp only at h; injection h with h; subst h
        exact reverse_all_inv _ (read_records_inv _ _ _ _ _ hr (fun g => fn_inv_empty g))
      | error => rw [hr] at h; simp at h
      | undefined => rw [hr] at h; simp at h

/-- C3: after `read_graph_file` succeeds, every arc of every function is
once on the exit chain of its source block and once on the entry chain of its
destination block, and all arcs of those two chains have that block as source
(respectively destination). -/
theorem read_graph_file_arc_symmetry (fuel : Nat) (gcno : List Char) (file : Option note_file)
    (p : pair_state) (h : read_graph_file fuel gcno file pair_state.empty = result.ok p)
    (f a : Nat) (ha : a < (p.fn f).arcs.length) :
    (blk (p.fn f).blocks (arc (p.fn f).arcs a).src).succ.count a = 1 ∧
    (blk (p.fn f).blocks (arc (p.fn f).arcs a).dst).pred.count a = 1 ∧
    (∀ x ∈ (blk (p.fn f).blocks (arc (p.fn f).arcs a).src).succ,
      (arc (p.fn f).arcs x).src = (arc (p.fn f).arcs a).src) ∧
    (∀ x ∈ (blk (p.fn f).blocks (arc (p.fn f).arcs a).dst).pred,
      (arc (p.fn f).arcs x).dst = (arc (p.fn f).arcs a).dst) := by
  obtain ⟨h1, h2, h3⟩ := (read_graph_file_inv fuel gcno file p h f).1
  obtain ⟨q1, q2, q3, q4⟩ := h1 a ha
  exact ⟨q3, q4, fun x hx => (h2 _ q1 x hx).2, fun x hx => (h3 _ q2 x hx).2⟩

/-- Witness of C3 on the graph of the single-block loop, at the loop arc 1->1. -/
theorem read_graph_file_arc_symmetry_witness :
    read_graph_file 8 (loop_pair 3 7).gcno (some loop_note) pair_state.empty = result.ok loop_graph ∧
    1 < (loop_graph.fn 0).arcs.length ∧
    (blk (loop_graph.fn 0).blocks (arc (loop_graph.fn 0).arcs 1).src).succ.count 1 = 1 ∧
    (blk (loop_graph.fn 0).blocks (arc (loop_graph.fn 0).arcs 1).dst).pred.count 1 = 1 ∧
    (∀ x ∈ (blk (loop_graph.fn 0).blocks (arc (loop_graph.fn 0).arcs 1).src).succ,
      (arc (loop_graph.fn 0).arcs x).src = (arc (loop_graph.fn 0).arcs 1).src) ∧
    (∀ x ∈ (blk (loop_graph.fn 0).blocks (arc (loop_graph.fn 0).arcs 1).dst).pred,
      (arc (loop_graph.fn 0).arcs x).dst = (arc (loop_graph.fn 0).arcs 1).dst) :=
  ⟨by decide, by decide,
   read_graph_file_arc_symmetry 8 (loop_pair 3 7).gcno (some loop_note) loop_graph (by decide) 0 1
     (by decide)⟩

/-! ## Aggregation: the merge of a branch value -/

theorem table_insert_same {κ ν : Type} [DecidableEq κ] (t : table κ ν) (k : κ) (v : ν) :
    (t.insert k v) k = some v := by
  simp [table.insert]

theorem table_insert_other {κ ν : Type} [DecidableEq κ] (t : table κ ν) (k x : κ) (v : ν)
    (h : x ≠ k) : (t.insert k v) x = t x := by
  simp [table.insert, h]

theorem merge_branch_other (t : Branches) (id : BranchId) (taken : Int) (x : BranchId)
    (h : x ≠ id) : (merge_branch t id taken) x = t x := by
  unfold merge_branch
  exact table_insert_other _ _ _ _ h

/-- C7: the merge of a new taken value into the branch table (lines
1619-1630), a value being known when it is not negative: known and known
give the sum; unknown or absent and known give the new value; known and
unknown keep the prior value; unknown and unknown, or absent and unknown,
give an unknown value; no other entry changes. -/
theorem merge_branch_rule (t : Branches) (id : BranchId) (taken : Int) :
    (∀ v, t id = some v → 0 ≤ v → 0 ≤ taken → (merge_branch t id taken) id = some (v + taken)) ∧
    (∀ v, t id = some v → v < 0 → 0 ≤ taken → (merge_branch t id taken) id = some taken) ∧
    (t id = none → 0 ≤ taken → (merge_branch t id taken) id = some taken) ∧
    (∀ v, t id = some v → 0 ≤ v → taken < 0 → (merge_branch t id taken) id = some v) ∧
    (∀ v, t id = some v → v < 0 → taken < 0 → (merge_branch t id taken) id = some v) ∧
    (t id = none → taken < 0 → (merge_branch t id taken) id = some (-1)) ∧
    (∀ x, x ≠ id → (merge_branch t id taken) x = t x) := by
  unfold merge_branch
  refine ⟨?_, ?_, ?_, ?_, ?_, ?_, ?_⟩
  · intro v hv h1 h2
    simp only [table_insert_same, hv]
    rw [if_pos (by omega), if_neg (by omega)]
  · intro v hv h1 h2
    simp only [table_insert_same, hv]
    rw [if_pos (by omega), if_pos (by omega)]
  · intro hv h2
    simp only [table_insert_same, hv]
    rw [if_pos (by omega), if_pos (by omega)]
  · intro v hv h1 h2
    simp only [table_insert_same, hv]
    rw [if_neg (by omega)]
  · intro v hv h1 h2
    simp only [table_insert_same, hv]
    rw [if_neg (by omega)]
  · intro hv h2
    simp only [table_insert_same, hv]
    rw [if_neg (by omega)]
  · intro x hx
    exact table_insert_other _ _ _ _ hx

/-- Witness of C7: a prior value 4 and a new value 3 give 7; an absent entry
and an unknown value give the sentinel. -/
theorem merge_branch_rule_witness :
    (merge_branch (table.insert table.empty { line := 10, block := 0, branch := 1 } 4)
      { line := 10, block := 0, branch := 1 } 3) { line := 10, block := 0, branch := 1 } = some 7 ∧
    (merge_branch table.empty { line := 10, block := 0, branch := 1 } (-1))
      { line := 10, block := 0, branch := 1 } = some (-1) :=
  ⟨(merge_branch_rule (table.insert table.empty { line := 10, block := 0, branch := 1 } 4)
      { line := 10, block := 0, branch := 1 } 3).1 4 (by decide) (by decide) (by decide),
   (merge_branch_rule table.empty { line := 10, block := 0, branch := 1 } (-1)).2.2.2.2.2.1
      (by decide) (by decide)⟩

/-! ## Aggregation: the branch table of one pair -/

theorem aggregate_arcs_eq (p : pair_state) (f : Nat) (line_num block : Int) (l : List Nat) :
    ∀ (jx : Int) (t : Branches), 0 ≤ jx →
      aggregate_arcs (p.fn f) line_num block l (jx, t) =
        ((arc_records p f line_num block l jx).2,
         (arc_records p f line_num block l jx).1.foldl (fun t r => merge_branch t r.id (r.taken p)) t) := by
  induction l with
  | nil => intro jx t _; rfl
  | cons a rest ih =>
    intro jx t hjx
    simp only [aggregate_arcs, arc_records, output_branch_count]
    by_cases h1 : (arc (p.fn f).arcs a).is_call_non_return = true
    · simp only [h1, if_true]
      rw [← ih (jx + 1) t (by omega)]
      simp
    · simp only [h1]
      by_cases h2 : (arc (p.fn f).arcs a).is_unconditional = true
      · simp only [h2]
        simp only [Bool.not_true, Bool.false_eq_true, if_false]
        rw [← ih jx t hjx]
        simp
      · have h2' : (arc (p.fn f).arcs a).is_unconditional = false := by simpa using h2
        simp only [h2', Bool.not_false, if_true, Bool.false_eq_true, if_false]
        have hne : jx ≠ -1 := by omega
        simp only [hne, ne_eq, not_false_eq_true, if_true, List.foldl_cons]
        rw [ih (jx + 1) _ (by omega)]
        simp [branch_record.taken]

theorem arc_records_bounds (p : pair_state) (f : Nat) (line_num block : Int) (l : List Nat) :
    ∀ (jx : Int), jx ≤ (arc_records p f line_num block l jx).2 ∧
      (∀ r ∈ (arc_records p f line_num block l jx).1,
        jx ≤ r.id.branch ∧ r.id.branch < (arc_records p f line_num block l jx).2 ∧
        r.id.line = line_num) ∧
      (arc_records p f line_num block l jx).1.Pairwise (fun r1 r2 => r1.id.branch < r2.id.branch) := by
  induction l with
  | nil => intro jx; simp [arc_records]
  | cons a rest ih =>
    intro jx
    simp only [arc_records]
    by_cases h1 : (arc (p.fn f).arcs a).is_call_non_return = true
    · simp only [h1, if_true]
      obtain ⟨q1, q2, q3⟩ := ih (jx + 1)
      refine ⟨by omega, fun r hr => ?_, q3⟩
      have := q2 r hr
      exact ⟨by omega, this.2.1, this.2.2⟩
    · simp only [h1]
      by_cases h2 : (arc (p.fn f).arcs a).is_unconditional = true
      · simp only [h2, Bool.not_true, Bool.false_eq_true, if_false]
        exact ih jx
      · have h2' : (arc (p.fn f).arcs a).is_unconditional = false := by simpa using h2
        simp only [h2', Bool.not_false, if_true, Bool.false_eq_true, if_false]
        obtain ⟨q1, q2, q3⟩ := ih (jx + 1)
        refine ⟨by omega, ?_, ?_⟩
        · intro r hr
          rcases List.mem_cons.mp hr with hr | hr
          · subst hr; exact ⟨le_refl _, by simp only; omega, rfl⟩
          · have := q2 r hr
            exact ⟨by omega, this.2.1, this.2.2⟩
        · refine List.Pairwise.cons ?_ q3
          intro r hr
          have := (q2 r hr).1
          simp only; omega

theorem block_records_bounds (p : pair_state) (line_num : Int) (chain : List (Nat × Nat)) :
    ∀ (ix jx : Int),
      (∀ r ∈ block_records p line_num chain ix jx, jx ≤ r.id.branch ∧ r.id.line = line_num) ∧
      (block_records p line_num chain ix jx).Pairwise (fun r1 r2 => r1.id.branch < r2.id.branch) := by
  induction chain with
  | nil => intro ix jx; simp [block_records]
  | cons fb rest ih =>
    intro ix jx
    obtain ⟨f, b⟩ := fb
    simp only [block_records]
    obtain ⟨q1, q2, q3⟩ := arc_records_bounds p f line_num
      (if (blk (p.fn f).blocks b).is_call_return = true then 9999 else ix)
      (blk (p.fn f).blocks b).succ jx
    obtain ⟨r1, r2⟩ := ih (if (blk (p.fn f).blocks b).is_call_return = true then ix else ix + 1)
      (arc_records p f line_num
        (if (blk (p.fn f).blocks b).is_call_return = true then 9999 else ix)
        (blk (p.fn f).blocks b).succ jx).2
    refine ⟨?_, ?_⟩
    · intro r hr
      rcases List.mem_append.mp hr with hr | hr
      · exact ⟨(q2 r hr).1, (q2 r hr).2.2⟩
      · exact ⟨by have := (r1 r hr).1; omega, (r1 r hr).2⟩
    · rw [List.pairwise_append]
      refine ⟨q3, r2, ?_⟩
      intro x hx y hy
      have := (q2 x hx).2.1
      have := (r1 y hy).1
      omega

theorem line_records_bounds (p : pair_state) (s : Nat) (todo : Nat) :
    ∀ (line_num : Nat),
      (∀ r ∈ line_records p s todo line_num, (line_num : Int) ≤ r.id.line) ∧
      (line_records p s todo line_num).Pairwise (fun r1 r2 => r1.id ≠ r2.id) := by
  induction todo with
  | zero => intro line_num; simp [line_records]
  | succ n ih =>
    intro line_num
    simp only [line_records]
    obtain ⟨q1, q2⟩ := block_records_bounds p line_num (p.line s line_num).blocks 0 0
    obtain ⟨r1, r2⟩ := ih (line_num + 1)
    refine ⟨?_, ?_⟩
    · intro r hr
      rcases List.mem_append.mp hr with hr | hr
      · rw [(q1 r hr).2]
      · have := r1 r hr; push_cast at this; omega
    · rw [List.pairwise_append]
      refine ⟨q2.imp (fun h he => ?_), r2, ?_⟩
      · rw [he] at h; exact lt_irrefl _ h
      · intro x hx y hy he
        have h1 := (q1 x hx).2
        have h2 := r1 y hy
        rw [he] at h1; push_cast at h2; omega

theorem merge_branch_congr (t1 t2 : Branches) (id : BranchId) (x : Int) (h : t1 id = t2 id) :
    (merge_branch t1 id x) id = (merge_branch t2 id x) id := by
  unfold merge_branch
  simp only [table_insert_same, h]

theorem foldl_merge_other (p : pair_state) (L : List branch_record) :
    ∀ (t : Branches) (id : BranchId), (∀ r ∈ L, r.id ≠ id) →
      (L.foldl (fun t r => merge_branch t r.id (r.taken p)) t) id = t id := by
  induction L with
  | nil => intro t id _; rfl
  | cons r rest ih =>
    intro t id h
    simp only [List.foldl_cons]
    rw [ih _ id (fun x hx => h x (List.mem_cons_of_mem _ hx))]
    exact merge_branch_other t r.id (r.taken p) id
      (fun he => h r (List.mem_cons_self _ _) he.symm)

theorem foldl_merge_unique (p : pair_state) (L : List branch_record)
    (hp : L.Pairwise (fun r1 r2 => r1.id ≠ r2.id)) (t : Branches) (r : branch_record) (hr : r ∈ L) :
    (L.foldl (fun t r => merge_branch t r.id (r.taken p)) t) r.id =
      (merge_branch t r.id (r.taken p)) r.id := by
  obtain ⟨L1, L2, rfl⟩ := List.append_of_mem hr
  rw [List.pairwise_append] at hp
  obtain ⟨h1, h2, h3⟩ := hp
  rw [List.foldl_append, List.foldl_cons]
  rw [foldl_merge_other p L2 _ r.id (fun x hx he => (List.pairwise_cons.mp h2).1 x hx he.symm)]
  have hpre : (L1.foldl (fun t r => merge_branch t r.id (r.taken p)) t) r.id = t r.id :=
    foldl_merge_other p L1 t r.id (fun x hx => h3 x hx r (List.mem_cons_self _ _))
  exact merge_branch_congr _ _ _ _ hpre

theorem aggregate_blocks_eq (p : pair_state) (line_num : Int) (chain : List (Nat × Nat)) :
    ∀ (ix jx : Int) (t : Branches), 0 ≤ jx →
      (aggregate_blocks p line_num chain (ix, jx, t)).2.2 =
        (block_records p line_num chain ix jx).foldl (fun t r => merge_branch t r.id (r.taken p)) t := by
  induction chain with
  | nil => intro ix jx t _; rfl
  | cons fb rest ih =>
    intro ix jx t hjx
    obtain ⟨f, b⟩ := fb
    simp only [aggregate_blocks, block_records, List.foldl_append]
    rw [aggregate_arcs_eq p f line_num _ _ jx t hjx]
    simp only
    rw [ih _ _ _ (le_trans hjx (arc_records_bounds p f line_num _ _ jx).1)]

theorem record_lines_branches (p : pair_state) (s : Nat) (todo : Nat) :
    ∀ (line_num : Nat) (fn : List Nat) (t : source_tables),
      (record_lines p s todo line_num fn t).srcBranches =
        (line_records p s todo line_num).foldl (fun t r => merge_branch t r.id (r.taken p))
          t.srcBranches := by
  induction todo with
  | zero => intro line_num fn t; rfl
  | succ n ih =>
    intro line_num fn t
    simp only [record_lines, line_records, List.foldl_append]
    rw [ih]
    simp only
    rw [aggregate_blocks_eq p line_num _ 0 0 _ (le_refl _)]

theorem record_info_branches (p : pair_state) (s : Nat) (g : aggregates) :
    (record_info p s g).SourceBranches (p.source s).name =
      some ((source_records p s).foldl (fun t r => merge_branch t r.id (r.taken p))
        (g.SourceBranches.at (p.source s).name table.empty)) := by
  unfold record_info source_records
  simp only [table_insert_same, record_lines_branches]

/-! ## The reads of `aggregate_info` outside the block array -/

theorem record_functions_eq (p : pair_state) (line_num : Nat) (chain : List Nat) :
    ∀ (t : Functions), record_functions p line_num chain t =
      ((chain.takeWhile (fun f => decide ((p.fn f).line = line_num))).foldl (record_function p) t,
       chain.dropWhile (fun f => decide ((p.fn f).line = line_num))) := by
  induction chain with
  | nil => intro t; rfl
  | cons f rest ih =>
    intro t
    simp only [record_functions]
    by_cases h : (p.fn f).line = line_num
    · rw [if_pos h, ih, List.takeWhile_cons_of_pos (by simpa using h),
        List.dropWhile_cons_of_pos (by simpa using h)]
      rfl
    · simp [h, List.takeWhile_cons, List.dropWhile_cons]

theorem aggregate_functions_eq (p : pair_state) (line_num : Nat) (chain : List Nat) :
    ∀ (t : Functions), aggregate_functions p line_num chain t =
      if ∀ f ∈ chain.takeWhile (fun f => decide ((p.fn f).line = line_num)), (p.fn f).num_blocks ≠ 0
      then some (record_functions p line_num chain t) else none := by
  induction chain with
  | nil => intro t; simp [aggregate_functions, record_functions]
  | cons f rest ih =>
    intro t
    simp only [aggregate_functions, record_functions]
    by_cases h : (p.fn f).line = line_num
    · rw [if_pos h, if_pos h, List.takeWhile_cons_of_pos (by simpa using h)]
      by_cases hb : (p.fn f).num_blocks = 0
      · rw [if_pos hb, if_neg]
        intro hall
        exact hall f (List.mem_cons_self _ _) hb
      · rw [if_neg hb, ih]
        by_cases hall : ∀ g ∈ rest.takeWhile (fun f => decide ((p.fn f).line = line_num)),
            (p.fn g).num_blocks ≠ 0
        · rw [if_pos hall, if_pos]
          intro g hg
          rcases List.mem_cons.mp hg with e | e
          · rw [e]; exact hb
          · exact hall g e
        · rw [if_neg hall, if_neg]
          intro h2
          exact hall (fun g hg => h2 g (List.mem_cons_of_mem _ hg))
    · rw [if_neg h, if_neg h, List.takeWhile_cons_of_neg (by simpa using h)]
      simp

theorem aggregate_lines_eq (p : pair_state) (s : Nat) (todo : Nat) :
    ∀ (line_num : Nat) (chain : List Nat) (t : source_tables),
      aggregate_lines p s todo line_num chain t =
        if ∀ f ∈ function_visits p todo line_num chain, (p.fn f).num_blocks ≠ 0
        then some (record_lines p s todo line_num chain t) else none := by
  induction todo with
  | zero => intro line_num chain t; simp [aggregate_lines, record_lines, function_visits]
  | succ n ih =>
    intro line_num chain t
    simp only [aggregate_lines, record_lines, function_visits]
    rw [aggregate_functions_eq]
    by_cases h1 : ∀ f ∈ chain.takeWhile (fun f => decide ((p.fn f).line = line_num)),
        (p.fn f).num_blocks ≠ 0
    · rw [if_pos h1]
      simp only
      rw [ih]
      have hr : (record_functions p line_num chain t.srcFunctions).2 =
          chain.dropWhile (fun f => decide ((p.fn f).line = line_num)) := by
        rw [record_functions_eq]
      rw [hr]
      by_cases h2 : ∀ f ∈ function_visits p n (line_num + 1)
          (chain.dropWhile (fun f => decide ((p.fn f).line = line_num))), (p.fn f).num_blocks ≠ 0
      · have h3 : ∀ f ∈ chain.takeWhile (fun f => decide ((p.fn f).line = line_num)) ++
            function_visits p n (line_num + 1)
              (chain.dropWhile (fun f => decide ((p.fn f).line = line_num))),
            (p.fn f).num_blocks ≠ 0 := by
          intro f hf
          rcases List.mem_append.mp hf with e | e
          · exact h1 f e
          · exact h2 f e
        rw [if_pos h2, if_pos h3]
      · have h3 : ¬ ∀ f ∈ chain.takeWhile (fun f => decide ((p.fn f).line = line_num)) ++
            function_visits p n (line_num + 1)
              (chain.dropWhile (fun f => decide ((p.fn f).line = line_num))),
            (p.fn f).num_blocks ≠ 0 :=
          fun h3 => h2 (fun f hf => h3 f (List.mem_append_right _ hf))
        rw [if_neg h2, if_neg h3]
    · have h3 : ¬ ∀ f ∈ chain.takeWhile (fun f => decide ((p.fn f).line = line_num)) ++
          function_visits p n (line_num + 1)
            (chain.dropWhile (fun f => decide ((p.fn f).line = line_num))),
          (p.fn f).num_blocks ≠ 0 :=
        fun h3 => h1 (fun f hf => h3 f (List.mem_append_left _ hf))
      rw [if_neg h1, if_neg h3]

/-- The call `aggregate_info (src)` has a defined result exactly when every
function it records has a block; the result is then `record_info`. -/
theorem aggregate_info_eq (p : pair_state) (s : Nat) (g : aggregates) :
    aggregate_info p s g =
      if visits_have_blocks p s then some (record_info p s g) else none := by
  unfold aggregate_info record_info visits_have_blocks
  simp only
  rw [aggregate_lines_eq]
  by_cases h : ∀ f ∈ function_visits p ((p.source s).num_lines - 1) 1 (p.source s).functions,
      (p.fn f).num_blocks ≠ 0
  · rw [if_pos h, if_pos h]
  · rw [if_neg h, if_neg h]

theorem aggregate_info_some (p : pair_state) (s : Nat) (g g1 : aggregates)
    (h : aggregate_info p s g = some g1) : visits_have_blocks p s ∧ g1 = record_info p s g := by
  rw [aggregate_info_eq] at h
  by_cases hb : visits_have_blocks p s
  · rw [if_pos hb] at h
    exact ⟨hb, (Option.some.inj h).symm⟩
  · rw [if_neg hb] at h
    exact absurd h (by simp)

theorem aggregate_info_of_blocks (p : pair_state) (s : Nat) (g : aggregates)
    (h : visits_have_blocks p s) : aggregate_info p s g = some (record_info p s g) := by
  rw [aggregate_info_eq, if_pos h]

theorem aggregate_all_eq (fuel : Nat) (l : List Nat) :
    ∀ (p : pair_state) (g : aggregates),
      (aggregate_all fuel l (p, g)).map (fun r => r.2) =
        (pair_steps fuel l p).bind
          (fun st => if steps_defined st then some (record_steps st g) else none) := by
  induction l with
  | nil => intro p g; simp [aggregate_all, pair_steps, steps_defined, record_steps]
  | cons s rest ih =>
    intro p g
    simp only [aggregate_all, pair_steps]
    cases h : accumulate_line_counts fuel s p with
    | none => rfl
    | some p1 =>
      simp only
      rw [aggregate_info_eq]
      by_cases hb : visits_have_blocks p1 s
      · rw [if_pos hb]
        simp only
        rw [ih p1 (record_info p1 s g)]
        cases h2 : pair_steps fuel rest p1 with
        | none => rfl
        | some st =>
          simp only [Option.some_bind]
          by_cases hd : steps_defined st
          · rw [if_pos hd, if_pos]
            · rfl
            · intro x hx
              rcases List.mem_cons.mp hx with e | e
              · rw [e]; exact hb
              · exact hd x e
          · rw [if_neg hd, if_neg]
            intro h3
            exact hd (fun x hx => h3 x (List.mem_cons_of_mem _ hx))
      · rw [if_neg hb]
        simp only [Option.map_none']
        cases h2 : pair_steps fuel rest p1 with
        | none => rfl
        | some st =>
          simp only [Option.some_bind]
          rw [if_neg]
          intro h3
          exact hb (h3 (p1, s) (List.mem_cons_self _ _))

theorem process_file_eq (fuel : Nat) (i : pair_input) (g : aggregates) :
    process_file fuel i g = (file_steps fuel i).bind
      (fun st => if steps_defined st then some (record_steps st g) else none) := by
  unfold process_file file_steps
  cases h : prepare_pair fuel i with
  | error => simp [steps_defined, record_steps]
  | undefined => rfl
  | ok p =>
    simp only
    rw [← aggregate_all_eq]
    cases h2 : aggregate_all fuel p.sources (p, g) with
    | none => rfl
    | some r => rfl

theorem process_file_some (fuel : Nat) (i : pair_input) (g g1 : aggregates)
    (h : process_file fuel i g = some g1) :
    ∃ st, file_steps fuel i = some st ∧ steps_defined st ∧ g1 = record_steps st g := by
  rw [process_file_eq] at h
  cases hs : file_steps fuel i with
  | none => rw [hs] at h; simp at h
  | some st =>
    rw [hs] at h
    simp only [Option.some_bind] at h
    by_cases hd : steps_defined st
    · rw [if_pos hd] at h
      exact ⟨st, rfl, hd, (Option.some.inj h).symm⟩
    · rw [if_neg hd] at h
      exact absurd h (by simp)

/-- C6, amended: after a source of a pair is aggregated into tables that hold
nothing for it (`g1` are the tables that `aggregate_info` leaves), the entry
of every recorded branch holds the sentinel -1 (written `-`) when the source
block of its arc has count zero or the count of the arc is negative, and
otherwise the count of the arc, which is then not negative (written in
decimal). -/
theorem branch_taken_encoding (p : pair_state) (s : Nat) (g g1 : aggregates)
    (h1 : aggregate_info p s g = some g1)
    (hg : g.SourceBranches (p.source s).name = none)
    (r : branch_record) (hr : r ∈ source_records p s) :
    ∃ t, g1.SourceBranches (p.source s).name = some t ∧
      t r.id = some
        (if (blk (p.fn r.fn).blocks (arc (p.fn r.fn).arcs r.arc).src).count = 0 ∨
            (arc (p.fn r.fn).arcs r.arc).count < 0 then -1
         else (arc (p.fn r.fn).arcs r.arc).count) := by
  obtain ⟨_, rfl⟩ := aggregate_info_some p s g g1 h1
  refine ⟨_, record_info_branches p s g, ?_⟩
  have hpw : (source_records p s).Pairwise (fun r1 r2 => r1.id ≠ r2.id) :=
    (line_records_bounds p s _ 1).2
  rw [foldl_merge_unique p _ hpw _ r hr]
  have hnone : (g.SourceBranches.at (p.source s).name table.empty) r.id = none := by
    simp [table.at, hg, table.empty]
  unfold merge_branch
  simp only [table_insert_same, hnone, branch_record.taken]
  by_cases h0 : (blk (p.fn r.fn).blocks (arc (p.fn r.fn).arcs r.arc).src).count = 0
  · simp [h0]
  · by_cases h1 : (arc (p.fn r.fn).arcs r.arc).count < 0
    · simp [h0, h1]
    · simp [h0, h1]

/-- C6 as stated fails: with measured counts 5 (into the branch block) and 6
(out of it on one side) the other side is deduced as -1, so the branch
(10, 0, 1), whose source block has count 5, holds the sentinel and not a
non-negative integer. -/
theorem branch_taken_encoding_counterexample :
    ({ id := { line := 10, block := 0, branch := 1 }, fn := 0, arc := 2 } : branch_record) ∈
      source_records (first_source_state 16 (skew_pair 5 6)) 0 ∧
    (blk ((first_source_state 16 (skew_pair 5 6)).fn 0).blocks
      (arc ((first_source_state 16 (skew_pair 5 6)).fn 0).arcs 2).src).count = 5 ∧
    (process_file 16 (skew_pair 5 6) aggregates.empty).map
      (fun g => (g.SourceBranches.at a_c table.empty) { line := 10, block := 0, branch := 1 }) =
      some (some (-1)) := by
  refine ⟨by decide, by decide, by decide⟩

/-- Witness of C6 amended, on the same pair: the aggregation of its source
returns, and the branch (10, 0, 0) holds the count 6 of its arc. -/
theorem branch_taken_encoding_witness :
    aggregates.empty.SourceBranches ((first_source_state 16 (skew_pair 5 6)).source 0).name = none ∧
    ({ id := { line := 10, block := 0, branch := 0 }, fn := 0, arc := 1 } : branch_record) ∈
      source_records (first_source_state 16 (skew_pair 5 6)) 0 ∧
    ∃ g1, aggregate_info (first_source_state 16 (skew_pair 5 6)) 0 aggregates.empty = some g1 ∧
      ∃ t, g1.SourceBranches ((first_source_state 16 (skew_pair 5 6)).source 0).name = some t ∧
        t { line := 10, block := 0, branch := 0 } = some 6 :=
  ⟨rfl, by decide, record_info (first_source_state 16 (skew_pair 5 6)) 0 aggregates.empty, rfl,
   branch_taken_encoding (first_source_state 16 (skew_pair 5 6)) 0 aggregates.empty
     (record_info (first_source_state 16 (skew_pair 5 6)) 0 aggregates.empty) rfl
     rfl { id := { line := 10, block := 0, branch := 0 }, fn := 0, arc := 1 } (by decide)⟩

/-! ## Line attribution: a single block with a self-loop -/

theorem cycle_search_skip (ix block : Nat) (post : List Nat) :
    ∀ (k : Nat) (fn : function_info) (count : Int),
      (∀ x ∈ post, (blk fn.blocks (arc fn.arcs x).dst).cycle_ident ≠ ix ∨ (arc fn.arcs x).cycle = true) →
      (blk fn.blocks block).cycle_arc = none →
      cycle_search ix block (post.length + 1 + k) { fn := fn, count := count, head := block, arc := post } =
        some ({ fn with
                blocks := fn.blocks.set block { blk fn.blocks block with cycle_ident := 4294967295 } },
              count) := by
  induction post with
  | nil =>
    intro k fn count _ hb
    simp only [List.length_nil, Nat.zero_add]
    rw [show 1 + k = k + 1 by omega]
    simp only [cycle_search, hb]
  | cons x rest ih =>
    intro k fn count hx hb
    rw [show (x :: rest).length + 1 + k = (rest.length + 1 + k) + 1 by simp; omega]
    simp only [cycle_search]
    have hskip := hx x (List.mem_cons_self _ _)
    rw [if_pos (by rcases hskip with h | h
                   · exact Or.inr (Or.inl h)
                   · exact Or.inl h)]
    exact ih k fn count (fun y hy => hx y (List.mem_cons_of_mem _ hy)) hb

theorem dropWhile_ne_append (a : Nat) (pre post : List Nat) (h : a ∉ pre) :
    ((pre ++ a :: post).dropWhile (fun x => x != a)).tail = post := by
  induction pre with
  | nil => simp [List.dropWhile]
  | cons y rest ih =>
    have hy : y ≠ a := fun he => h (by rw [he]; exact List.mem_cons_self _ _)
    have hr : a ∉ rest := fun hm => h (List.mem_cons_of_mem _ hm)
    simp only [List.cons_append, List.dropWhile_cons]
    rw [if_pos (by simpa using hy)]
    exact ih hr

theorem cycle_search_close (ix block a : Nat) (post : List Nat) (n : Nat)
    (fn : function_info) (count : Int)
    (ha : a < fn.arcs.length)
    (hsrc : (arc fn.arcs a).src = block) (hdst : (arc fn.arcs a).dst = block)
    (hcyc : (arc fn.arcs a).cycle = false)
    (hsucc : ((blk fn.blocks block).succ.dropWhile (fun x => x != a)).tail = post)
    (hid : (blk fn.blocks block).cycle_ident = ix)
    (hnone : (blk fn.blocks block).cycle_arc = none) :
    ∃ fn1, fn1.blocks = fn.blocks ∧ (∀ x, (arc fn1.arcs x).dst = (arc fn.arcs x).dst) ∧
      cycle_search ix block (n + 1) { fn := fn, count := count, head := block, arc := a :: post } =
      cycle_search ix block n
        { fn := fn1, count := count + (arc fn.arcs a).cs_count, head := block, arc := post } := by
  simp only [cycle_search]
  rw [if_neg (by rw [hcyc, hdst, hid, hnone]; simp)]
  rw [if_pos hdst]
  simp only [cycle_minimum, hnone, cycle_remove, blk_set, arc_set, List.length_set, ha,
    and_self, if_true, cycle_unwind, hsrc, ne_eq, not_true_eq_false, if_false, succ_next, hsucc]
  refine ⟨_, ?_, ?_, rfl⟩
  · rfl
  intro x
  simp only [arc_set, List.length_set, ha, and_true]
  by_cases hx : a = x
  · subst hx; simp
  · simp [hx]

theorem cycle_search_self_loop (ix block a : Nat) (post : List Nat) (k : Nat)
    (fn : function_info) (count : Int)
    (ha : a < fn.arcs.length)
    (hsrc : (arc fn.arcs a).src = block) (hdst : (arc fn.arcs a).dst = block)
    (hcyc : (arc fn.arcs a).cycle = false)
    (hsucc : ((blk fn.blocks block).succ.dropWhile (fun x => x != a)).tail = post)
    (hid : (blk fn.blocks block).cycle_ident = ix)
    (hnone : (blk fn.blocks block).cycle_arc = none)
    (hpost : ∀ x ∈ post, (blk fn.blocks (arc fn.arcs x).dst).cycle_ident ≠ ix) :
    ∀ (pre : List Nat), (∀ x ∈ pre, (blk fn.blocks (arc fn.arcs x).dst).cycle_ident ≠ ix) →
      ∃ fn1, cycle_search ix block (pre.length + post.length + 2 + k)
          { fn := fn, count := count, head := block, arc := pre ++ a :: post } =
        some (fn1, count + (arc fn.arcs a).cs_count) := by
  intro pre
  induction pre with
  | nil =>
    intro _
    obtain ⟨fn1, hb, hd, hstep⟩ :=
      cycle_search_close ix block a post (post.length + 1 + k) fn count ha hsrc hdst hcyc hsucc hid hnone
    simp only [List.length_nil, Nat.zero_add, List.nil_append]
    rw [show post.length + 2 + k = (post.length + 1 + k) + 1 by omega, hstep]
    refine ⟨_, cycle_search_skip ix block post k fn1 _ ?_ ?_⟩
    · intro x hx; left; rw [hb, hd]; exact hpost x hx
    · rw [hb]; exact hnone
  | cons y rest ih =>
    intro hpre
    obtain ⟨fn1, h1⟩ := ih (fun x hx => hpre x (List.mem_cons_of_mem _ hx))
    refine ⟨fn1, ?_⟩
    rw [show (y :: rest).length + post.length + 2 + k = (rest.length + post.length + 2 + k) + 1 by
      simp; omega]
    simp only [List.cons_append, cycle_search]
    rw [if_pos (Or.inr (Or.inl (hpre y (List.mem_cons_self _ _))))]
    exact h1

theorem sum_entry_arcs_fst (ix : Nat) (fn : function_info) (l : List Nat) :
    ∀ (count : Int) (c : coverage_info),
      (sum_entry_arcs ix fn l (count, c)).1 =
        count + ((l.filter (fun x => decide ((blk fn.blocks (arc fn.arcs x).src).cycle_ident ≠ ix))).map
          (fun x => (arc fn.arcs x).count)).sum := by
  induction l with
  | nil => intro count c; simp [sum_entry_arcs]
  | cons x rest ih =>
    intro count c
    simp only [sum_entry_arcs]
    rw [ih]
    by_cases h : (blk fn.blocks (arc fn.arcs x).src).cycle_ident = ix
    · simp [h]
    · simp [h]; omega

theorem init_cs_count_arc (succ : List Nat) :
    ∀ (as : List arc_info) (x : Nat),
      arc (init_cs_count as succ) x =
        { arc as x with cs_count :=
            if x ∈ succ ∧ x < as.length then (arc as x).count else (arc as x).cs_count } ∧
      (init_cs_count as succ).length = as.length := by
  induction succ with
  | nil => intro as x; simp [init_cs_count]
  | cons y rest ih =>
    intro as x
    have hfold : init_cs_count as (y :: rest) =
        init_cs_count (as.set y { arc as y with cs_count := (arc as y).count }) rest := by
      simp [init_cs_count]
    rw [hfold]
    obtain ⟨h1, h2⟩ := ih (as.set y { arc as y with cs_count := (arc as y).count }) x
    rw [h1, h2]
    simp only [List.length_set, arc_set, List.mem_cons, and_true]
    by_cases hy : y = x
    · subst hy
      by_cases hlt : y < as.length
      · simp [hlt]
      · simp [hlt]
    · have hxy : ¬ x = y := fun h => hy h.symm
      simp [hy, hxy]

theorem upd_line_fn (p : pair_state) (s l : Nat) (g : line_info → line_info) (f : Nat) :
    (p.upd_line s l g).fn f = p.fn f := by
  unfold pair_state.upd_line
  dsimp only
  split <;> rfl

theorem source_set_source (p : pair_state) (s : Nat) (v : source_info) (h : s < p.srcs.length) :
    (p.set_source s v).source s = v := by
  unfold pair_state.source pair_state.set_source
  simp [getD_set_eq, h]

theorem source_set_fn (p : pair_state) (f s : Nat) (v : function_info) :
    (p.set_fn f v).source s = p.source s := rfl

theorem line_set_fn (p : pair_state) (f s l : Nat) (v : function_info) :
    (p.set_fn f v).line s l = p.line s l := rfl

theorem line_upd_line (p : pair_state) (s l : Nat) (g : line_info → line_info)
    (ls : List line_info) (hs : s < p.srcs.length) (hls : (p.source s).lines = some ls)
    (hl : l < ls.length) :
    (p.upd_line s l g).line s l = g (p.line s l) ∧
    (p.upd_line s l g).srcs.length = p.srcs.length ∧
    (p.upd_line s l g).fns = p.fns ∧
    (p.upd_line s l g).source s = { p.source s with lines := some (ls.set l (g (p.line s l))) } := by
  unfold pair_state.upd_line pair_state.line
  simp only [hls]
  rw [source_set_source _ _ _ hs]
  simp [getD_set_eq, hl, pair_state.set_source]

theorem count_line_line (s l : Nat) (q : pair_state) :
    (count_line s l q).line s l = q.line s l := by
  unfold count_line
  dsimp only
  split
  · unfold pair_state.line
    by_cases hs : s < q.srcs.length
    · rw [source_set_source _ _ _ hs]
    · have : ∀ v, q.set_source s v = q := by
        intro v
        unfold pair_state.set_source
        rw [List.set_eq_of_length_le (by omega)]
      rw [this]
  · rfl

/-- C5: the body of the loop of `accumulate_line_counts` for a line whose
only block `b` has a self-loop arc `a` (once on the exit chain of `b`) with
count `N`, no other arc from `b` to itself, and whose other incoming arcs, all
from blocks that are not on the line (they do not carry its identity `ix`), have counts summing to `E`, returns and
sets the count of the line to `E + N`. -/
theorem accumulate_line_self_loop (fuel s l ix f b a : Nat) (p : pair_state) (E N : Int)
    (ls : List line_info)
    (hs : s < p.srcs.length) (hls : (p.source s).lines = some ls) (hl : l < ls.length)
    (hf : f < p.fns.length) (hb : b < (p.fn f).blocks.length)
    (hchain : (p.line s l).blocks = [(f, b)])
    (ha : a < (p.fn f).arcs.length)
    (hsrc : (arc (p.fn f).arcs a).src = b) (hdst : (arc (p.fn f).arcs a).dst = b)
    (hN : (arc (p.fn f).arcs a).count = N)
    (hcyc : (arc (p.fn f).arcs a).cycle = false)
    (hnone : (blk (p.fn f).blocks b).cycle_arc = none)
    (hin : a ∈ (blk (p.fn f).blocks b).succ) (hnodup : (blk (p.fn f).blocks b).succ.Nodup)
    (hsucc : ∀ x ∈ (blk (p.fn f).blocks b).succ, x ≠ a → (arc (p.fn f).arcs x).dst ≠ b)
    (hpred : ∀ x ∈ (blk (p.fn f).blocks b).pred, x ≠ a → (arc (p.fn f).arcs x).src ≠ b)
    (hrs : ∀ x ∈ (blk (p.fn f).blocks b).succ, (arc (p.fn f).arcs x).dst < (p.fn f).blocks.length)
    (hrp : ∀ x ∈ (blk (p.fn f).blocks b).pred, (arc (p.fn f).arcs x).src < (p.fn f).blocks.length)
    (hoff : ∀ j, j < (p.fn f).blocks.length → j ≠ b → (blk (p.fn f).blocks j).cycle_ident ≠ ix)
    (hE : (((blk (p.fn f).blocks b).pred.filter (fun x => decide (x ≠ a))).map
            (fun x => (arc (p.fn f).arcs x).count)).sum = E)
    (hfuel : (blk (p.fn f).blocks b).succ.length + 1 ≤ fuel) :
    ∃ p', accumulate_line fuel s l ix p = some p' ∧ (p'.line s l).count = E + N := by
  -- the function after the blocks of the line are marked
  obtain ⟨fnm, hfnm⟩ : ∃ x : function_info, x =
    { p.fn f with blocks := (p.fn f).blocks.set b { blk (p.fn f).blocks b with cycle_ident := ix } } :=
    ⟨_, rfl⟩
  have hmark : mark_line_blocks ix [(f, b)] p = p.set_fn f fnm := by rw [hfnm]; rfl
  have hfarcs : fnm.arcs = (p.fn f).arcs := by rw [hfnm]
  have hblk : ∀ j, blk fnm.blocks j =
      if b = j then { blk (p.fn f).blocks b with cycle_ident := ix } else blk (p.fn f).blocks j := by
    intro j; rw [hfnm]; simp only [blk_set, hb, and_true]
  have hblk_b : blk fnm.blocks b = { blk (p.fn f).blocks b with cycle_ident := ix } := by
    rw [hblk]; simp
  have hmsucc : (blk fnm.blocks b).succ = (blk (p.fn f).blocks b).succ := by rw [hblk_b]
  have hmpred : (blk fnm.blocks b).pred = (blk (p.fn f).blocks b).pred := by rw [hblk_b]
  -- the function after the entry arcs are summed
  obtain ⟨fn1, hfn1⟩ : ∃ x : function_info, x =
    { fnm with arcs := init_cs_count fnm.arcs (blk fnm.blocks b).succ } := ⟨_, rfl⟩
  have hfn1b : fn1.blocks = fnm.blocks := by rw [hfn1]
  have harc1 : ∀ x, arc fn1.arcs x = { arc (p.fn f).arcs x with cs_count :=
      if x ∈ (blk (p.fn f).blocks b).succ ∧ x < (p.fn f).arcs.length then (arc (p.fn f).arcs x).count
      else (arc (p.fn f).arcs x).cs_count } := by
    intro x
    have h := (init_cs_count_arc (blk (p.fn f).blocks b).succ (p.fn f).arcs x).1
    rw [hfn1]; simp only; rw [hmsucc, hfarcs]; exact h
  have hlen1a : fn1.arcs.length = (p.fn f).arcs.length := by
    rw [hfn1]; simp only; rw [(init_cs_count_arc _ _ 0).2, hfarcs]
  obtain ⟨pre, post, hdec⟩ := List.append_of_mem hin
  have hnd := hnodup
  rw [hdec] at hnd
  have hapre : a ∉ pre := fun h => by
    have := (List.nodup_append.mp hnd).2.2
    exact this h (List.mem_cons_self _ _)
  have hapost : a ∉ post := by
    have := (List.nodup_append.mp hnd).2.1
    exact (List.nodup_cons.mp this).1
  have hident : ∀ x ∈ pre ++ post, (blk fn1.blocks (arc fn1.arcs x).dst).cycle_ident ≠ ix := by
    intro x hx
    have hxa : x ≠ a := by
      intro h; subst h
      rcases List.mem_append.mp hx with h | h
      · exact hapre h
      · exact hapost h
    have hxs : x ∈ (blk (p.fn f).blocks b).succ := by
      rw [hdec]
      rcases List.mem_append.mp hx with h | h
      · exact List.mem_append_left _ h
      · exact List.mem_append_right _ (List.mem_cons_of_mem _ h)
    have hd := hsucc x hxs hxa
    rw [harc1, hfn1b]
    simp only
    rw [hblk, if_neg (fun h => hd h.symm)]
    exact hoff _ (hrs x hxs) hd
  have hlen1 : fuel = pre.length + post.length + 2 + (fuel - ((blk (p.fn f).blocks b).succ.length + 1)) := by
    rw [hdec] at hfuel ⊢
    simp only [List.length_append, List.length_cons] at hfuel ⊢
    omega
  -- the entry sum
  have hEsum : ∀ c, (sum_entry_arcs ix fnm (blk fnm.blocks b).pred (0, c)).1 = E := by
    intro c
    rw [sum_entry_arcs_fst, hmpred, hfarcs, Int.zero_add, ← hE]
    congr 2
    apply List.filter_congr
    intro x hx
    by_cases hxa : x = a
    · subst hxa; rw [hsrc, hblk_b]; simp
    · have := hpred x hx hxa
      rw [hblk, if_neg (fun h => this h.symm)]
      simp [hxa, hoff _ (hrp x hx) this]
  have hcs : (arc fn1.arcs a).cs_count = N := by
    rw [harc1]; simp [hin, ha, hN]
  obtain ⟨fn2, hsearch⟩ := cycle_search_self_loop ix b a post
    (fuel - ((blk (p.fn f).blocks b).succ.length + 1)) fn1 E
    (by rw [hlen1a]; exact ha)
    (by rw [harc1]; exact hsrc) (by rw [harc1]; exact hdst) (by rw [harc1]; exact hcyc)
    (by rw [hfn1b, hmsucc, hdec]; exact dropWhile_ne_append a pre post hapre)
    (by rw [hfn1b, hblk_b])
    (by rw [hfn1b, hblk_b]; exact hnone)
    (fun x hx => hident x (List.mem_append_right _ hx)) pre
    (fun x hx => hident x (List.mem_append_left _ hx))
  rw [← hlen1, hcs, ← hdec, ← hmsucc] at hsearch
  -- run the body
  have hs0 : s < (p.set_fn f fnm).srcs.length := hs
  obtain ⟨_, h1b, h1c, h1d⟩ := line_upd_line (p.set_fn f fnm) s l
    (fun L => { L with blocks := [(f, b)] }) ls hs0 hls hl
  generalize hP1 : (p.set_fn f fnm).upd_line s l (fun L => { L with blocks := [(f, b)] }) = P1
    at h1b h1c h1d
  have hP1fn : P1.fn f = fnm := by
    rw [← hP1, upd_line_fn, fn_set_fn]; simp [hf]
  have hP1len : f < P1.fns.length := by
    rw [h1c]; simp [pair_state.set_fn, hf]
  unfold accumulate_line
  simp only [hchain, ne_eq, List.cons_ne_nil, not_false_eq_true, if_true, List.reverse_cons,
    List.reverse_nil, List.nil_append, hmark, hP1, sum_line_entries, hP1fn,
    find_line_cycles, fn_set_source, fn_set_fn, hP1len, and_self, hEsum, ← hfn1, hfn1b, hsearch]
  have hsrcQ : ∀ X : source_info, (((P1.set_fn f fn1).set_source s X).set_fn f fn2).source s = X := by
    intro X
    rw [source_set_fn, source_set_source]
    show s < P1.srcs.length
    rw [h1b]; exact hs
  obtain ⟨q1, _, _, _⟩ := line_upd_line
    (((P1.set_fn f fn1).set_source s
      { (P1.set_fn f fn1).source s with
        coverage := (sum_entry_arcs ix fnm (blk fnm.blocks b).pred (0, (P1.source s).coverage)).2 }).set_fn f fn2)
    s l (fun L => { L with count := E + N }) (ls.set l ((fun L => { L with blocks := [(f, b)] })
      ((p.set_fn f fnm).line s l)))
    (by simp only [pair_state.set_fn, pair_state.set_source, List.length_set, h1b]; exact hs)
    (by rw [hsrcQ]; simp only [source_set_fn, h1d])
    (by simp only [List.length_set]; exact hl)
  refine ⟨_, rfl, ?_⟩
  rw [count_line_line, q1]

/-- Witness of C5: scenario 5, entry count 3 and loop-back count 7 give the
count 10 on line 10. -/
theorem accumulate_line_self_loop_witness :
    ∃ p', accumulate_line 3 0 10 0 (loop_state 3 7) = some p' ∧ (p'.line 0 10).count = 3 + 7 :=
  accumulate_line_self_loop 3 0 10 0 0 1 1 (loop_state 3 7) 3 7
    (List.replicate 10 line_info.zero ++ [{ count := 10, blocks := [(0, 1)], «exists» := true }])
    (by decide) (by decide) (by decide) (by decide) (by decide) (by decide) (by decide) (by decide)
    (by decide) (by decide) (by decide) (by decide) (by decide) (by decide) (by decide) (by decide)
    (by decide) (by decide) (by decide) (by decide) (by decide)

/-! ## Aggregation: function and line tables -/

theorem toInt32_add_left (x y : Int) : toInt32 (toInt32 x + y) = toInt32 (x + y) := by
  unfold toInt32; omega

theorem toInt32_of_range (x : Int) (h1 : -2147483648 ≤ x) (h2 : x < 2147483648) : toInt32 x = x := by
  unfold toInt32; omega

theorem record_lines_functions (p : pair_state) (s : Nat) (todo : Nat) :
    ∀ (line_num : Nat) (chain : List Nat) (t : source_tables),
      (record_lines p s todo line_num chain t).srcFunctions =
        (function_visits p todo line_num chain).foldl (record_function p) t.srcFunctions := by
  induction todo with
  | zero => intro line_num chain t; rfl
  | succ n ih =>
    intro line_num chain t
    simp only [record_lines, function_visits, List.foldl_append, record_functions_eq]
    rw [ih]

theorem function_visits_sorted (p : pair_state) (todo : Nat) :
    ∀ (line_num : Nat) (chain : List Nat),
      chain.Pairwise (fun f g => (p.fn f).line ≤ (p.fn g).line) →
      (∀ f ∈ chain, line_num ≤ (p.fn f).line ∧ (p.fn f).line < line_num + todo) →
      function_visits p todo line_num chain = chain := by
  induction todo with
  | zero =>
    intro line_num chain _ hr
    cases chain with
    | nil => rfl
    | cons f rest => have := hr f (List.mem_cons_self _ _); omega
  | succ n ih =>
    intro line_num chain hs hr
    simp only [function_visits]
    rw [ih (line_num + 1) _ (hs.sublist (List.dropWhile_sublist _))]
    · exact List.takeWhile_append_dropWhile _ _
    · intro f hf
      have hmem : f ∈ chain := (List.dropWhile_sublist _).subset hf
      refine ⟨?_, by have := (hr f hmem).2; omega⟩
      -- the head of the rest is on a later line, and the chain is sorted
      cases hd : chain.dropWhile (fun f => decide ((p.fn f).line = line_num)) with
      | nil => rw [hd] at hf; simp at hf
      | cons g rest =>
        have hg : ¬ (p.fn g).line = line_num := by
          have := List.head_dropWhile_not (fun f => decide ((p.fn f).line = line_num)) chain
            (by rw [hd]; simp)
          simp only [hd, List.head_cons] at this
          simpa using this
        have hgm : g ∈ chain := (List.dropWhile_sublist _).subset (by rw [hd]; exact List.mem_cons_self _ _)
        have hg1 : line_num + 1 ≤ (p.fn g).line := by have := (hr g hgm).1; omega
        rw [hd] at hf
        rcases List.mem_cons.mp hf with hf | hf
        · rw [hf]; exact hg1
        · have hs2 : (g :: rest).Pairwise (fun f g => (p.fn f).line ≤ (p.fn g).line) := by
            rw [← hd]; exact hs.sublist (List.dropWhile_sublist _)
          have := (List.pairwise_cons.mp hs2).1 f hf
          omega

theorem table_at_insert_same {κ ν : Type} [DecidableEq κ] (t : table κ ν) (k : κ) (v d : ν) :
    (t.insert k v).at k d = v := by
  simp [table.at, table.insert]

theorem foldl_record_other (p : pair_state) (L : List Nat) :
    ∀ (t : Functions) (k : List Char), (∀ f ∈ L, (p.fn f).name ≠ k) →
      (L.foldl (record_function p) t) k = t k := by
  induction L with
  | nil => intro t k _; rfl
  | cons f rest ih =>
    intro t k h
    simp only [List.foldl_cons]
    rw [ih _ k (fun g hg => h g (List.mem_cons_of_mem _ hg))]
    exact table_insert_other _ _ _ _ (fun he => h f (List.mem_cons_self _ _) he.symm)

theorem entry_hits_cons (p : pair_state) (f : Nat) (rest : List Nat) (k : List Char) :
    entry_hits p (f :: rest) k =
      (if (p.fn f).name = k then (blk (p.fn f).blocks 0).count else 0) + entry_hits p rest k := by
  unfold entry_hits
  by_cases h : (p.fn f).name = k
  · simp [List.filter_cons, h]
  · simp [List.filter_cons, h]

theorem entry_hits_none (p : pair_state) (L : List Nat) (k : List Char)
    (h : ∀ f ∈ L, (p.fn f).name ≠ k) : entry_hits p L k = 0 := by
  induction L with
  | nil => rfl
  | cons f rest ih =>
    rw [entry_hits_cons, if_neg (h f (List.mem_cons_self _ _)),
      ih (fun g hg => h g (List.mem_cons_of_mem _ hg))]
    rfl

theorem foldl_record_hit (p : pair_state) (L : List Nat) :
    ∀ (t : Functions) (k : List Char), (∃ f ∈ L, (p.fn f).name = k) →
      ∃ e, (L.foldl (record_function p) t) k = some e ∧
        e.hit = toInt32 ((t.at k { line := 0, hit := 0 }).hit + entry_hits p L k) := by
  induction L with
  | nil => intro t k h; obtain ⟨f, hf, _⟩ := h; simp at hf
  | cons f rest ih =>
    intro t k h
    simp only [List.foldl_cons]
    rw [entry_hits_cons]
    by_cases hrest : ∃ g ∈ rest, (p.fn g).name = k
    · obtain ⟨e, he1, he2⟩ := ih (record_function p t f) k hrest
      refine ⟨e, he1, ?_⟩
      rw [he2]
      by_cases hf : (p.fn f).name = k
      · rw [if_pos hf]
        unfold record_function
        rw [hf, table_at_insert_same]
        simp only
        rw [toInt32_add_left]
        congr 1; omega
      · rw [if_neg hf]
        unfold record_function table.at
        rw [table_insert_other _ _ _ _ (fun he => hf he.symm)]
        congr 1; omega
    · have hnone : ∀ g ∈ rest, (p.fn g).name ≠ k := fun g hg he => hrest ⟨g, hg, he⟩
      have hf : (p.fn f).name = k := by
        obtain ⟨g, hg, hgk⟩ := h
        rcases List.mem_cons.mp hg with hg | hg
        · rw [← hg]; exact hgk
        · exact absurd hgk (hnone g hg)
      rw [foldl_record_other p rest _ k hnone, entry_hits_none p rest k hnone, if_pos hf]
      unfold record_function
      rw [hf, table_insert_same]
      exact ⟨_, rfl, by simp⟩

theorem record_lines_lines (p : pair_state) (s : Nat) (todo : Nat) :
    ∀ (line_num : Nat) (chain : List Nat) (t : source_tables) (l : Nat),
      (record_lines p s todo line_num chain t).srcLines l =
        if line_num ≤ l ∧ l < line_num + todo ∧ (p.line s l).«exists» = true
        then some (toInt32 (t.srcLines.at l 0 + (p.line s l).count)) else t.srcLines l := by
  induction todo with
  | zero =>
    intro line_num chain t l
    simp only [record_lines]
    rw [if_neg (fun h => absurd h.2.1 (by omega))]
  | succ n ih =>
    intro line_num chain t l
    simp only [record_lines]
    rw [ih]
    by_cases hl : l = line_num
    · subst hl
      rw [if_neg (fun h => absurd h.1 (by omega))]
      by_cases he : (p.line s l).«exists» = true
      · simp only [he, if_true]
        rw [if_pos ⟨le_refl _, by omega, trivial⟩, table_insert_same]
      · rw [if_neg he, if_neg (fun h => he h.2.2)]
    · by_cases he : (p.line s line_num).«exists» = true
      · simp only [he, if_true]
        simp only [table.at, table_insert_other _ _ _ _ hl]
        by_cases hc : line_num + 1 ≤ l ∧ l < line_num + 1 + n ∧ (p.line s l).«exists» = true
        · rw [if_pos hc, if_pos ⟨by omega, by omega, hc.2.2⟩]
        · rw [if_neg hc, if_neg (fun h => hc ⟨by omega, by omega, h.2.2⟩)]
      · rw [if_neg he]
        by_cases hc : line_num + 1 ≤ l ∧ l < line_num + 1 + n ∧ (p.line s l).«exists» = true
        · rw [if_pos hc, if_pos ⟨by omega, by omega, hc.2.2⟩]
        · rw [if_neg hc, if_neg (fun h => hc ⟨by omega, by omega, h.2.2⟩)]

theorem record_info_functions (p : pair_state) (s : Nat) (g : aggregates) (nm : List Char) :
    (record_info p s g).SourceFunctions nm =
      if nm = (p.source s).name then
        some ((function_visits p ((p.source s).num_lines - 1) 1 (p.source s).functions).foldl
          (record_function p) (g.SourceFunctions.at (p.source s).name table.empty))
      else g.SourceFunctions nm := by
  unfold record_info
  simp only [record_lines_functions]
  by_cases h : nm = (p.source s).name
  · rw [if_pos h, h, table_insert_same]
  · rw [if_neg h, table_insert_other _ _ _ _ h]

theorem record_info_lines (p : pair_state) (s : Nat) (g : aggregates) (nm : List Char) :
    (record_info p s g).SourceLines nm =
      if nm = (p.source s).name then
        some (record_lines p s ((p.source s).num_lines - 1) 1 (p.source s).functions
          { srcFunctions := g.SourceFunctions.at (p.source s).name table.empty,
            srcLines := g.SourceLines.at (p.source s).name table.empty,
            srcBranches := g.SourceBranches.at (p.source s).name table.empty }).srcLines
      else g.SourceLines nm := by
  unfold record_info
  dsimp only
  by_cases h : nm = (p.source s).name
  · rw [if_pos h, h, table_insert_same]
  · rw [if_neg h, table_insert_other _ _ _ _ h]

theorem record_info_branches_other (p : pair_state) (s : Nat) (g : aggregates) (nm : List Char)
    (h : nm ≠ (p.source s).name) :
    (record_info p s g).SourceBranches nm = g.SourceBranches nm := by
  unfold record_info
  dsimp only
  exact table_insert_other _ _ _ _ h

theorem visits_of_sorted (p : pair_state) (s : Nat) (h : chain_sorted p s) :
    function_visits p ((p.source s).num_lines - 1) 1 (p.source s).functions = (p.source s).functions := by
  apply function_visits_sorted p _ 1 _ h.1
  intro f hf
  have := h.2 f hf
  omega

theorem record_info_line_at (p : pair_state) (s : Nat) (g : aggregates) (l : Nat) :
    ∃ t, (record_info p s g).SourceLines (p.source s).name = some t ∧
      t l = if 1 ≤ l ∧ l < (p.source s).num_lines ∧ (p.line s l).«exists» = true
        then some (toInt32 ((g.SourceLines.at (p.source s).name table.empty).at l 0 + (p.line s l).count))
        else (g.SourceLines.at (p.source s).name table.empty) l := by
  refine ⟨_, by rw [record_info_lines, if_pos rfl], ?_⟩
  rw [record_lines_lines]
  by_cases hc : 1 ≤ l ∧ l < (p.source s).num_lines ∧ (p.line s l).«exists» = true
  · rw [if_pos hc, if_pos ⟨hc.1, by omega, hc.2.2⟩]
  · rw [if_neg hc, if_neg (fun h => hc ⟨h.1, by omega, h.2.2⟩)]

/-- Accumulation over two pairs: when two sources of the same name (one of
each of two pairs, function chains in ascending line order) are aggregated one
after the other (`g1` and `g2` are the tables that the two calls of
`aggregate_info` leave) into tables that hold nothing for that name, the hit recorded
for every function name of the source is the sum over both pairs of the
entry-block counts of the functions of that name, converted to `int` (32
bits), and the count recorded for every line is the sum over both pairs of the
line's count, converted to `int`; both are the exact sums when these lie in
the range of `int`. -/
theorem aggregate_two_pairs (p1 p2 : pair_state) (s1 s2 : Nat) (g g1 g2 : aggregates)
    (hg1 : aggregate_info p1 s1 g = some g1) (hg2 : aggregate_info p2 s2 g1 = some g2)
    (hname : (p2.source s2).name = (p1.source s1).name)
    (hF : g.SourceFunctions (p1.source s1).name = none)
    (hL : g.SourceLines (p1.source s1).name = none)
    (hc1 : chain_sorted p1 s1) (hc2 : chain_sorted p2 s2) :
    (∀ k, ((∃ f ∈ (p1.source s1).functions, (p1.fn f).name = k) ∨
           (∃ f ∈ (p2.source s2).functions, (p2.fn f).name = k)) →
      ∃ t e, g2.SourceFunctions (p1.source s1).name = some t ∧
        t k = some e ∧
        e.hit = toInt32 (entry_hits p1 (p1.source s1).functions k + entry_hits p2 (p2.source s2).functions k) ∧
        (-2147483648 ≤ entry_hits p1 (p1.source s1).functions k + entry_hits p2 (p2.source s2).functions k →
         entry_hits p1 (p1.source s1).functions k + entry_hits p2 (p2.source s2).functions k < 2147483648 →
         e.hit = entry_hits p1 (p1.source s1).functions k + entry_hits p2 (p2.source s2).functions k)) ∧
    (∀ l, ((1 ≤ l ∧ l < (p1.source s1).num_lines ∧ (p1.line s1 l).«exists» = true) ∨
           (1 ≤ l ∧ l < (p2.source s2).num_lines ∧ (p2.line s2 l).«exists» = true)) →
      ∃ t, g2.SourceLines (p1.source s1).name = some t ∧
        t l = some (toInt32 (line_contribution p1 s1 l + line_contribution p2 s2 l)) ∧
        (-2147483648 ≤ line_contribution p1 s1 l + line_contribution p2 s2 l →
         line_contribution p1 s1 l + line_contribution p2 s2 l < 2147483648 →
         t l = some (line_contribution p1 s1 l + line_contribution p2 s2 l))) := by
  obtain ⟨_, rfl⟩ := aggregate_info_some p1 s1 g g1 hg1
  obtain ⟨_, rfl⟩ := aggregate_info_some p2 s2 _ g2 hg2
  constructor
  · intro k hk
    -- the table of the source after the first pair
    have h1 : (record_info p1 s1 g).SourceFunctions.at (p1.source s1).name table.empty =
        (p1.source s1).functions.foldl (record_function p1) table.empty := by
      unfold table.at
      rw [record_info_functions, if_pos rfl, visits_of_sorted p1 s1 hc1]
      simp [table.at, hF]
    have h2 : (record_info p2 s2 (record_info p1 s1 g)).SourceFunctions (p1.source s1).name =
        some ((p2.source s2).functions.foldl (record_function p2)
          ((p1.source s1).functions.foldl (record_function p1) table.empty)) := by
      rw [record_info_functions, if_pos hname.symm, visits_of_sorted p2 s2 hc2, hname, h1]
    have hfin : ∃ e, ((p2.source s2).functions.foldl (record_function p2)
          ((p1.source s1).functions.foldl (record_function p1) table.empty)) k = some e ∧
        e.hit = toInt32 (entry_hits p1 (p1.source s1).functions k +
          entry_hits p2 (p2.source s2).functions k) := by
      by_cases hk1 : ∃ f ∈ (p1.source s1).functions, (p1.fn f).name = k
      · obtain ⟨e1, q1, q2⟩ := foldl_record_hit p1 _ table.empty k hk1
        have q2' : e1.hit = toInt32 (entry_hits p1 (p1.source s1).functions k) := by
          rw [q2]; simp [table.at, table.empty]
        by_cases hk2 : ∃ f ∈ (p2.source s2).functions, (p2.fn f).name = k
        · obtain ⟨e2, r1, r2⟩ := foldl_record_hit p2 _
            ((p1.source s1).functions.foldl (record_function p1) table.empty) k hk2
          refine ⟨e2, r1, ?_⟩
          rw [r2]; unfold table.at; rw [q1]; simp only [Option.getD_some]
          rw [q2', toInt32_add_left]
        · have hnone : ∀ f ∈ (p2.source s2).functions, (p2.fn f).name ≠ k :=
            fun f hf he => hk2 ⟨f, hf, he⟩
          refine ⟨e1, by rw [foldl_record_other p2 _ _ k hnone]; exact q1, ?_⟩
          rw [q2', entry_hits_none p2 _ k hnone, Int.add_zero]
      · have hnone : ∀ f ∈ (p1.source s1).functions, (p1.fn f).name ≠ k :=
          fun f hf he => hk1 ⟨f, hf, he⟩
        have hk2 : ∃ f ∈ (p2.source s2).functions, (p2.fn f).name = k := by
          rcases hk with h | h
          · exact absurd h hk1
          · exact h
        obtain ⟨e2, r1, r2⟩ := foldl_record_hit p2 _
          ((p1.source s1).functions.foldl (record_function p1) table.empty) k hk2
        refine ⟨e2, r1, ?_⟩
        rw [r2]; unfold table.at
        rw [foldl_record_other p1 _ _ k hnone, entry_hits_none p1 _ k hnone]
        simp [table.empty]
    obtain ⟨e, he1, he2⟩ := hfin
    exact ⟨_, e, h2, he1, he2, fun a b => by rw [he2]; exact toInt32_of_range _ a b⟩
  · intro l hl
    obtain ⟨t1, a1, a2⟩ := record_info_line_at p1 s1 g l
    obtain ⟨t2, b1, b2⟩ := record_info_line_at p2 s2 (record_info p1 s1 g) l
    rw [hname] at b1
    have hat : (record_info p1 s1 g).SourceLines.at (p2.source s2).name table.empty = t1 := by
      unfold table.at; rw [hname, a1]; rfl
    have hg0 : (g.SourceLines.at (p1.source s1).name table.empty) l = none := by
      simp [table.at, hL, table.empty]
    have hg0' : (g.SourceLines.at (p1.source s1).name table.empty).at l 0 = 0 := by
      unfold table.at at hg0 ⊢; rw [hg0]; rfl
    rw [hat] at b2
    rw [hg0, hg0'] at a2
    have hval : t2 l = some (toInt32 (line_contribution p1 s1 l + line_contribution p2 s2 l)) := by
      unfold line_contribution
      by_cases c1 : 1 ≤ l ∧ l < (p1.source s1).num_lines ∧ (p1.line s1 l).«exists» = true
      · rw [if_pos c1] at a2 ⊢
        by_cases c2 : 1 ≤ l ∧ l < (p2.source s2).num_lines ∧ (p2.line s2 l).«exists» = true
        · rw [if_pos c2] at b2 ⊢
          rw [b2]; unfold table.at; rw [a2]; simp only [Option.getD_some]
          rw [Int.zero_add, toInt32_add_left]
        · rw [if_neg c2] at b2 ⊢
          rw [b2, a2]; simp
      · rw [if_neg c1] at a2 ⊢
        have c2 : 1 ≤ l ∧ l < (p2.source s2).num_lines ∧ (p2.line s2 l).«exists» = true := by
          rcases hl with h | h
          · exact absurd h c1
          · exact h
        rw [if_pos c2] at b2 ⊢
        rw [b2]; unfold table.at; rw [a2]; simp
    exact ⟨t2, b1, hval, fun a b => by rw [hval, toInt32_of_range _ a b]⟩

/-- C8 at a failing input: two data files for the note file of scenario 5,
with entry counts 2147483648 and 0.  The sum of the entry-block counts is
2147483648; the hit recorded for `F` and the count recorded for line 10 are
-2147483648, the `int` fields of the tables having truncated the 64-bit
counts. -/
theorem two_pairs_int_truncation :
    (process_all 8 [loop_pair 2147483648 0, loop_pair 0 0] aggregates.empty).map
      (fun g => ((g.SourceFunctions.at a_c table.empty) ['F']).map (fun e => e.hit)) =
      some (some (-2147483648)) ∧
    (process_all 8 [loop_pair 2147483648 0, loop_pair 0 0] aggregates.empty).map
      (fun g => (g.SourceLines.at a_c table.empty) 10) = some (some (-2147483648)) ∧
    (blk ((first_source_state 8 (loop_pair 2147483648 0)).fn 0).blocks 0).count +
      (blk ((first_source_state 8 (loop_pair 0 0)).fn 0).blocks 0).count = 2147483648 := by
  decide

/-- Instance of the accumulation over two pairs: the data files of scenario 5 with entry counts 3
and 1 give the hit 4 for `F`. -/
theorem aggregate_two_pairs_witness :
    ∃ g1 g2, aggregate_info (first_source_state 8 (loop_pair 3 7)) 0 aggregates.empty = some g1 ∧
      aggregate_info (first_source_state 8 (loop_pair 1 2)) 0 g1 = some g2 ∧
      ∃ t e, g2.SourceFunctions ((first_source_state 8 (loop_pair 3 7)).source 0).name = some t ∧
        t ['F'] = some e ∧ e.hit = 3 + 1 := by
  have q1 := aggregate_info_of_blocks (first_source_state 8 (loop_pair 3 7)) 0 aggregates.empty
    (by decide)
  have q2 := aggregate_info_of_blocks (first_source_state 8 (loop_pair 1 2)) 0
    (record_info (first_source_state 8 (loop_pair 3 7)) 0 aggregates.empty) (by decide)
  obtain ⟨t, e, h1, h2, h3, _⟩ :=
    (aggregate_two_pairs (first_source_state 8 (loop_pair 3 7)) (first_source_state 8 (loop_pair 1 2))
      0 0 aggregates.empty _ _ q1 q2 (by decide) rfl rfl (by decide) (by decide)).1 ['F']
      (Or.inl (by decide))
  exact ⟨_, _, q1, q2, t, e, h1, h2, by rw [h3]; decide⟩

/-! ## Aggregation over several pairs -/

theorem record_info_comm (p1 p2 : pair_state) (s1 s2 : Nat) (g : aggregates)
    (h : (p1.source s1).name ≠ (p2.source s2).name) :
    record_info p1 s1 (record_info p2 s2 g) = record_info p2 s2 (record_info p1 s1 g) := by
  have h' : (p2.source s2).name ≠ (p1.source s1).name := fun e => h e.symm
  unfold record_info
  simp only [table.at, table_insert_other _ _ _ _ h, table_insert_other _ _ _ _ h']
  congr 1 <;>
  · funext x
    simp only [table.insert]
    by_cases hx1 : x = (p1.source s1).name
    · have hx2 : ¬ x = (p2.source s2).name := fun e => h (hx1.symm.trans e)
      simp [hx1, hx2, h]
    · simp [hx1]

theorem record_steps_comm_one (p : pair_state) (s : Nat) (l : List (pair_state × Nat)) :
    ∀ (g : aggregates), (∀ x ∈ l, (x.1.source x.2).name ≠ (p.source s).name) →
      record_steps l (record_info p s g) = record_info p s (record_steps l g) := by
  induction l with
  | nil => intro g _; rfl
  | cons x rest ih =>
    intro g h
    simp only [record_steps, List.foldl_cons]
    have hx := h x (List.mem_cons_self _ _)
    rw [record_info_comm x.1 p x.2 s g hx]
    exact ih _ (fun y hy => h y (List.mem_cons_of_mem _ hy))

theorem record_steps_comm (la lb : List (pair_state × Nat)) :
    ∀ (g : aggregates),
      (∀ x ∈ la, ∀ y ∈ lb, (x.1.source x.2).name ≠ (y.1.source y.2).name) →
      record_steps lb (record_steps la g) = record_steps la (record_steps lb g) := by
  induction la with
  | nil => intro g _; rfl
  | cons x rest ih =>
    intro g h
    have e1 : record_steps (x :: rest) g = record_steps rest (record_info x.1 x.2 g) := rfl
    have e2 : record_steps (x :: rest) (record_steps lb g) =
        record_steps rest (record_info x.1 x.2 (record_steps lb g)) := rfl
    rw [e1, e2, ih _ (fun a ha b hb => h a (List.mem_cons_of_mem _ ha) b hb)]
    rw [record_steps_comm_one x.1 x.2 lb g
      (fun y hy e => h x (List.mem_cons_self _ _) y hy e.symm)]

/-- C10: for two pairs `A` and `B` that reference disjoint sets of source
paths, processing `A` then `B` and processing `B` then `A` leave the same
three aggregate tables (and one order has a defined result exactly when the
other has). -/
theorem process_file_comm (fuel : Nat) (A B : pair_input) (g : aggregates)
    (h : ∀ n ∈ aggregated_names fuel A, n ∉ aggregated_names fuel B) :
    (process_file fuel A g).bind (process_file fuel B) =
      (process_file fuel B g).bind (process_file fuel A) := by
  unfold aggregated_names at h
  rw [process_file_eq fuel A g, process_file_eq fuel B g]
  cases ha : file_steps fuel A with
  | none =>
    cases hb : file_steps fuel B with
    | none => rfl
    | some lb =>
      simp only [Option.none_bind, Option.some_bind]
      split
      · simp [process_file_eq, ha]
      · rfl
  | some la =>
    cases hb : file_steps fuel B with
    | none =>
      simp only [Option.none_bind, Option.some_bind]
      split
      · simp [process_file_eq, hb]
      · rfl
    | some lb =>
      simp only [Option.some_bind]
      rw [ha, hb] at h
      by_cases da : steps_defined la
      · by_cases db : steps_defined lb
        · simp only [if_pos da, if_pos db, Option.some_bind, process_file_eq, ha, hb]
          congr 1
          apply record_steps_comm
          intro x hx y hy e
          exact h _ (List.mem_map_of_mem _ hx) (by rw [e]; exact List.mem_map_of_mem _ hy)
        · simp only [if_pos da, if_neg db, Option.some_bind, Option.none_bind, process_file_eq, ha, hb]
      · by_cases db : steps_defined lb
        · simp only [if_neg da, if_pos db, Option.some_bind, Option.none_bind, process_file_eq, ha, hb,
            if_false]
        · simp only [if_neg da, if_neg db, Option.none_bind]

/-- Witness of C10: the pair of scenario 5 under `/d` and under `/e`. -/
theorem process_file_comm_witness :
    (process_file 8 (loop_pair 3 7) aggregates.empty).bind (process_file 8 (loop_pair_e 1 2)) =
      (process_file 8 (loop_pair_e 1 2) aggregates.empty).bind (process_file 8 (loop_pair 3 7)) :=
  process_file_comm 8 (loop_pair 3 7) (loop_pair_e 1 2) aggregates.empty (by decide)

/-! ### The effect of a pair on one entry -/

theorem function_update_comp (F G : Option FunctionInfo → Option FunctionInfo)
    (hF : function_update F) (hG : function_update G) : function_update (G ∘ F) := by
  rcases hF with rfl | ⟨c, h, rfl⟩
  · simpa using hG
  · rcases hG with rfl | ⟨c2, h2, rfl⟩
    · right; exact ⟨c, h, rfl⟩
    · right
      refine ⟨c2, h + h2, ?_⟩
      funext o
      simp only [Function.comp, Option.getD_some]
      rw [toInt32_add_left]
      congr 3; omega

theorem function_update_twice (F : Option FunctionInfo → Option FunctionInfo)
    (hF : function_update F) :
    F (F none) = (F none).map (fun e => { line := e.line, hit := toInt32 (2 * e.hit) }) := by
  rcases hF with rfl | ⟨c, h, rfl⟩
  · rfl
  · simp only [Option.getD_none, Option.getD_some, Option.map_some']
    congr 2
    unfold toInt32; omega

theorem foldl_record_update (p : pair_state) (k : List Char) (L : List Nat) :
    ∃ F, function_update F ∧ ∀ t : Functions, (L.foldl (record_function p) t) k = F (t k) := by
  induction L with
  | nil => exact ⟨id, Or.inl rfl, fun t => rfl⟩
  | cons f rest ih =>
    obtain ⟨F, hF, hFt⟩ := ih
    by_cases hk : (p.fn f).name = k
    · have hB : function_update (fun o => some
          { line := toInt32 (p.fn f).line,
            hit := toInt32 ((o.getD { line := 0, hit := 0 }).hit + (blk (p.fn f).blocks 0).count) }) :=
        Or.inr ⟨_, _, rfl⟩
      refine ⟨F ∘ _, function_update_comp _ _ hB hF, ?_⟩
      intro t
      simp only [List.foldl_cons, hFt, Function.comp]
      congr 1
      unfold record_function
      rw [hk, table_insert_same]
      rfl
    · refine ⟨F, hF, ?_⟩
      intro t
      simp only [List.foldl_cons, hFt]
      congr 1
      unfold record_function
      exact table_insert_other _ _ _ _ (fun e => hk e.symm)

theorem line_update_comp (F G : Option Int → Option Int)
    (hF : line_update F) (hG : line_update G) : line_update (G ∘ F) := by
  rcases hF with rfl | ⟨c, rfl⟩
  · simpa using hG
  · rcases hG with rfl | ⟨c2, rfl⟩
    · right; exact ⟨c, rfl⟩
    · right
      refine ⟨c + c2, ?_⟩
      funext o
      simp only [Function.comp, Option.getD_some]
      rw [toInt32_add_left]
      congr 2; omega

theorem line_update_twice (F : Option Int → Option Int) (hF : line_update F) :
    F (F none) = (F none).map (fun c => toInt32 (2 * c)) := by
  rcases hF with rfl | ⟨c, rfl⟩
  · rfl
  · simp only [Option.getD_none, Option.getD_some, Option.map_some']
    congr 1
    unfold toInt32; omega

theorem branch_update_comp (F G : Option Int → Option Int)
    (hF : branch_update F) (hG : branch_update G) : branch_update (G ∘ F) := by
  rcases hF with rfl | rfl | ⟨s, hs, rfl⟩
  · simpa using hG
  · rcases hG with rfl | rfl | ⟨s2, hs2, rfl⟩
    · right; left; rfl
    · right; left; rfl
    · right; right; exact ⟨s2, hs2, rfl⟩
  · rcases hG with rfl | rfl | ⟨s2, hs2, rfl⟩
    · right; right; exact ⟨s, hs, rfl⟩
    · right; right; exact ⟨s, hs, rfl⟩
    · right; right
      refine ⟨s + s2, by omega, ?_⟩
      funext o
      simp only [Function.comp, Option.getD_some]
      congr 1
      by_cases h : o.getD (-1) < 0
      · simp only [h, if_true]
        rw [if_neg (by omega)]
      · simp only [h, if_false]
        rw [if_neg (by omega)]; omega

theorem branch_update_twice (F : Option Int → Option Int) (hF : branch_update F) :
    F (F none) = (F none).map (fun v => if 0 ≤ v then 2 * v else v) := by
  rcases hF with rfl | rfl | ⟨s, hs, rfl⟩
  · rfl
  · rfl
  · have h1 : ((-1 : Int) < 0) := by decide
    simp only [Option.getD_none, h1, if_true, Option.getD_some, Option.map_some']
    congr 1
    rw [if_neg (by omega), if_pos hs]; omega

theorem foldl_merge_update (p : pair_state) (id : BranchId) (L : List branch_record) :
    ∃ F, branch_update F ∧
      ∀ t : Branches, (L.foldl (fun t r => merge_branch t r.id (r.taken p)) t) id = F (t id) := by
  induction L with
  | nil => exact ⟨_, Or.inl rfl, fun t => rfl⟩
  | cons r rest ih =>
    obtain ⟨F, hF, hFt⟩ := ih
    by_cases hk : r.id = id
    · by_cases ht : 0 ≤ r.taken p
      · have hB : branch_update (fun o => some
            (if o.getD (-1) < 0 then r.taken p else o.getD (-1) + r.taken p)) :=
          Or.inr (Or.inr ⟨_, ht, rfl⟩)
        refine ⟨F ∘ _, branch_update_comp _ _ hB hF, ?_⟩
        intro t
        simp only [List.foldl_cons, hFt, Function.comp]
        congr 1
        unfold merge_branch
        rw [← hk, table_insert_same]
        cases h : t r.id <;> simp [ht]
      · have hB : branch_update (fun o => some (o.getD (-1))) := Or.inr (Or.inl rfl)
        refine ⟨F ∘ _, branch_update_comp _ _ hB hF, ?_⟩
        intro t
        simp only [List.foldl_cons, hFt, Function.comp]
        congr 1
        unfold merge_branch
        rw [← hk, table_insert_same]
        cases h : t r.id <;> simp [ht]
    · refine ⟨F, hF, ?_⟩
      intro t
      simp only [List.foldl_cons, hFt]
      congr 1
      exact merge_branch_other t r.id (r.taken p) id (fun e => hk e.symm)

theorem at_empty_apply {κ ν : Type} (t : table (List Char) (table κ ν)) (nm : List Char) (k : κ) :
    (t.at nm table.empty) k = (t nm).bind (fun u => u k) := by
  unfold table.at
  cases h : t nm <;> rfl

theorem record_info_function_entry (p : pair_state) (s : Nat) (nm k : List Char) :
    ∃ F, function_update F ∧
      ∀ g, (record_info p s g).function_entry nm k = F (g.function_entry nm k) := by
  by_cases h : nm = (p.source s).name
  · obtain ⟨F, hF, hFt⟩ := foldl_record_update p k
      (function_visits p ((p.source s).num_lines - 1) 1 (p.source s).functions)
    refine ⟨F, hF, fun g => ?_⟩
    unfold aggregates.function_entry
    rw [record_info_functions, if_pos h]
    simp only [Option.some_bind, hFt]
    rw [at_empty_apply, h]
  · refine ⟨id, Or.inl rfl, fun g => ?_⟩
    unfold aggregates.function_entry
    rw [record_info_functions, if_neg h]; rfl

theorem record_info_line_entry (p : pair_state) (s : Nat) (nm : List Char) (l : Nat) :
    ∃ F, line_update F ∧
      ∀ g, (record_info p s g).line_entry nm l = F (g.line_entry nm l) := by
  by_cases h : nm = (p.source s).name
  · by_cases hc : 1 ≤ l ∧ l < (p.source s).num_lines ∧ (p.line s l).«exists» = true
    · refine ⟨_, Or.inr ⟨(p.line s l).count, rfl⟩, fun g => ?_⟩
      obtain ⟨t, h1, h2⟩ := record_info_line_at p s g l
      unfold aggregates.line_entry
      rw [h, h1]
      simp only [Option.some_bind, h2, if_pos hc]
      congr 3
      unfold table.at
      rw [← at_empty_apply]; rfl
    · refine ⟨id, Or.inl rfl, fun g => ?_⟩
      obtain ⟨t, h1, h2⟩ := record_info_line_at p s g l
      unfold aggregates.line_entry
      rw [h, h1]
      simp only [Option.some_bind, h2, if_neg hc]
      rw [at_empty_apply]; rfl
  · refine ⟨id, Or.inl rfl, fun g => ?_⟩
    unfold aggregates.line_entry
    rw [record_info_lines, if_neg h]; rfl

theorem record_info_branch_entry (p : pair_state) (s : Nat) (nm : List Char) (id : BranchId) :
    ∃ F, branch_update F ∧
      ∀ g, (record_info p s g).branch_entry nm id = F (g.branch_entry nm id) := by
  by_cases h : nm = (p.source s).name
  · obtain ⟨F, hF, hFt⟩ := foldl_merge_update p id (source_records p s)
    refine ⟨F, hF, fun g => ?_⟩
    unfold aggregates.branch_entry
    rw [h, record_info_branches]
    simp only [Option.some_bind, hFt]
    rw [at_empty_apply]
  · refine ⟨_, Or.inl rfl, fun g => ?_⟩
    unfold aggregates.branch_entry
    rw [record_info_branches_other p s g nm h]; rfl

theorem record_steps_function_entry (L : List (pair_state × Nat)) (nm k : List Char) :
    ∃ F, function_update F ∧
      ∀ g, (record_steps L g).function_entry nm k = F (g.function_entry nm k) := by
  induction L with
  | nil => exact ⟨id, Or.inl rfl, fun g => rfl⟩
  | cons x rest ih =>
    obtain ⟨F, hF, hFt⟩ := ih
    obtain ⟨G, hG, hGt⟩ := record_info_function_entry x.1 x.2 nm k
    refine ⟨F ∘ G, function_update_comp _ _ hG hF, fun g => ?_⟩
    have e : record_steps (x :: rest) g = record_steps rest (record_info x.1 x.2 g) := rfl
    rw [e, hFt, hGt]; rfl

theorem record_steps_line_entry (L : List (pair_state × Nat)) (nm : List Char) (l : Nat) :
    ∃ F, line_update F ∧
      ∀ g, (record_steps L g).line_entry nm l = F (g.line_entry nm l) := by
  induction L with
  | nil => exact ⟨id, Or.inl rfl, fun g => rfl⟩
  | cons x rest ih =>
    obtain ⟨F, hF, hFt⟩ := ih
    obtain ⟨G, hG, hGt⟩ := record_info_line_entry x.1 x.2 nm l
    refine ⟨F ∘ G, line_update_comp _ _ hG hF, fun g => ?_⟩
    have e : record_steps (x :: rest) g = record_steps rest (record_info x.1 x.2 g) := rfl
    rw [e, hFt, hGt]; rfl

theorem record_steps_branch_entry (L : List (pair_state × Nat)) (nm : List Char) (id : BranchId) :
    ∃ F, branch_update F ∧
      ∀ g, (record_steps L g).branch_entry nm id = F (g.branch_entry nm id) := by
  induction L with
  | nil => exact ⟨_, Or.inl rfl, fun g => rfl⟩
  | cons x rest ih =>
    obtain ⟨F, hF, hFt⟩ := ih
    obtain ⟨G, hG, hGt⟩ := record_info_branch_entry x.1 x.2 nm id
    refine ⟨F ∘ G, branch_update_comp _ _ hG hF, fun g => ?_⟩
    have e : record_steps (x :: rest) g = record_steps rest (record_info x.1 x.2 g) := rfl
    rw [e, hFt, hGt]; rfl

/-- The entries after a pair was processed a second time, in terms of the
entries after the first time: hits and line counts are doubled and converted
to `int`; known branch values are doubled, unknown ones kept. -/
theorem process_twice_entries (fuel : Nat) (i : pair_input) (g1 g2 : aggregates)
    (h1 : process_file fuel i aggregates.empty = some g1)
    (h2 : process_file fuel i g1 = some g2) :
    (∀ nm k, g2.function_entry nm k =
      (g1.function_entry nm k).map (fun e => { line := e.line, hit := toInt32 (2 * e.hit) })) ∧
    (∀ nm l, g2.line_entry nm l = (g1.line_entry nm l).map (fun c => toInt32 (2 * c))) ∧
    (∀ nm id, g2.branch_entry nm id =
      (g1.branch_entry nm id).map (fun v => if 0 ≤ v then 2 * v else v)) := by
  obtain ⟨L, hs, _, e1⟩ := process_file_some fuel i _ g1 h1
  obtain ⟨L2, hs2, _, e2⟩ := process_file_some fuel i _ g2 h2
  rw [hs] at hs2
  have hL : L2 = L := (Option.some.inj hs2).symm
  rw [hL] at e2
  subst e1; subst e2
  refine ⟨fun nm k => ?_, fun nm l => ?_, fun nm id => ?_⟩
  · obtain ⟨F, hF, hFt⟩ := record_steps_function_entry L nm k
    rw [hFt, hFt]
    exact function_update_twice F hF
  · obtain ⟨F, hF, hFt⟩ := record_steps_line_entry L nm l
    rw [hFt, hFt]
    exact line_update_twice F hF
  · obtain ⟨F, hF, hFt⟩ := record_steps_branch_entry L nm id
    rw [hFt, hFt]
    exact branch_update_twice F hF

/-- C9 as stated fails: after the pair `skew_pair 5 6` is processed once the
branch (10, 0, 1) holds the sentinel -1, and after the second processing it
still holds -1, not twice that value. -/
theorem process_twice_counterexample :
    skew_once.branch_entry a_c { line := 10, block := 0, branch := 1 } = some (-1) ∧
    skew_twice.branch_entry a_c { line := 10, block := 0, branch := 1 } = some (-1) ∧
    process_file 16 (skew_pair 5 6) aggregates.empty = some skew_once ∧
    process_file 16 (skew_pair 5 6) skew_once = some skew_twice := by
  refine ⟨by decide, by decide, rfl, rfl⟩

/-- C9, amended: when a pair is processed twice, starting from empty tables,
every function hit and every line count held after the second processing is
exactly twice the value held after the first, whenever the doubled value lies
in the range of `int`; every branch value that is known (not negative) after
the first processing is exactly twice that value after the second, and a
branch that is unknown after the first is unknown, with the same sentinel,
after the second. -/
theorem process_twice (fuel : Nat) (i : pair_input) (g1 g2 : aggregates)
    (h1 : process_file fuel i aggregates.empty = some g1)
    (h2 : process_file fuel i g1 = some g2) :
    (∀ nm k e, g1.function_entry nm k = some e →
      -2147483648 ≤ 2 * e.hit → 2 * e.hit < 2147483648 →
      g2.function_entry nm k = some { line := e.line, hit := 2 * e.hit }) ∧
    (∀ nm l c, g1.line_entry nm l = some c →
      -2147483648 ≤ 2 * c → 2 * c < 2147483648 →
      g2.line_entry nm l = some (2 * c)) ∧
    (∀ nm id v, g1.branch_entry nm id = some v →
      (0 ≤ v → g2.branch_entry nm id = some (2 * v)) ∧
      (v < 0 → g2.branch_entry nm id = some v)) := by
  obtain ⟨q1, q2, q3⟩ := process_twice_entries fuel i g1 g2 h1 h2
  refine ⟨?_, ?_, ?_⟩
  · intro nm k e he a b
    rw [q1, he, Option.map_some', toInt32_of_range _ a b]
  · intro nm l c hc a b
    rw [q2, hc, Option.map_some', toInt32_of_range _ a b]
  · intro nm id v hv
    rw [q3, hv, Option.map_some']
    exact ⟨fun h => by rw [if_pos h], fun h => by rw [if_neg (by omega)]⟩

/-- Witness of C9 amended: the branch (10, 0, 0) of `skew_pair 5 6` holds 6
after the first processing and 12 after the second. -/
theorem process_twice_witness :
    skew_once.branch_entry a_c { line := 10, block := 0, branch := 0 } = some 6 ∧
    skew_twice.branch_entry a_c { line := 10, block := 0, branch := 0 } = some (2 * 6) :=
  ⟨by decide,
   ((process_twice 16 (skew_pair 5 6) skew_once skew_twice rfl rfl).2.2 a_c
      { line := 10, block := 0, branch := 0 } 6 (by decide)).1 (by decide)⟩

/-! ## Flow solver: the sort of the exit chain -/

theorem sort_pass_spec (as : List arc_info) (rest : List Nat) :
    ∀ (a : Nat), ((sort_pass as a rest).1).Perm (a :: rest) ∧
      ((sort_pass as a rest).2 = true → inversions as (sort_pass as a rest).1 < inversions as (a :: rest)) ∧
      inversions as (sort_pass as a rest).1 ≤ inversions as (a :: rest) := by
  induction rest with
  | nil => intro a; simp [sort_pass]
  | cons n rest ih =>
    intro a
    simp only [sort_pass]
    by_cases h : (arc as a).dst > (arc as n).dst
    · simp only [h, if_true]
      obtain ⟨p1, _, p3⟩ := ih a
      have hperm : (n :: (sort_pass as a rest).1).Perm (a :: n :: rest) :=
        (List.Perm.cons n p1).trans (List.Perm.swap a n rest)
      have hcount : (sort_pass as a rest).1.countP (fun x => decide ((arc as x).dst < (arc as n).dst)) =
          (a :: rest).countP (fun x => decide ((arc as x).dst < (arc as n).dst)) := p1.countP_eq _
      have hlt : inversions as (n :: (sort_pass as a rest).1) < inversions as (a :: n :: rest) := by
        simp only [inversions, hcount, List.countP_cons]
        have h1 : decide ((arc as a).dst < (arc as n).dst) = false := by
          simp; omega
        have h2 : decide ((arc as n).dst < (arc as a).dst) = true := by
          simp; omega
        simp only [h1, h2, if_true, Bool.false_eq_true, if_false]
        simp only [inversions] at p3
        omega
      exact ⟨hperm, fun _ => hlt, le_of_lt hlt⟩
    · simp only [h, if_false]
      obtain ⟨p1, p2, p3⟩ := ih n
      have hcount : (sort_pass as n rest).1.countP (fun x => decide ((arc as x).dst < (arc as a).dst)) =
          (n :: rest).countP (fun x => decide ((arc as x).dst < (arc as a).dst)) := p1.countP_eq _
      refine ⟨List.Perm.cons a p1, ?_, ?_⟩
      · intro hc
        have := p2 hc
        simp only [inversions, hcount] at this ⊢
        omega
      · simp only [inversions, hcount] at p3 ⊢
        omega

theorem sort_loop_spec (as : List arc_info) :
    ∀ (fuel : Nat) (start : List Nat), start ≠ [] → inversions as start < fuel →
      ∃ s, sort_loop as fuel start = some s ∧ s.Perm start := by
  intro fuel
  induction fuel with
  | zero => intro start _ h; omega
  | succ k ih =>
    intro start hne h
    cases start with
    | nil => exact absurd rfl hne
    | cons a rest =>
      simp only [sort_loop]
      obtain ⟨p1, p2, _⟩ := sort_pass_spec as rest a
      by_cases hc : (sort_pass as a rest).2 = true
      · simp only [hc, if_true]
        have hne2 : (sort_pass as a rest).1 ≠ [] := by
          intro he; rw [he] at p1; exact absurd p1.length_eq (by simp)
        obtain ⟨s, hs1, hs2⟩ := ih _ hne2 (by have := p2 hc; omega)
        exact ⟨s, hs1, hs2.trans p1⟩
      · simp only [hc]
        exact ⟨_, rfl, p1⟩

theorem inversions_le (as : List arc_info) (l : List Nat) : inversions as l ≤ l.length * l.length := by
  induction l with
  | nil => simp [inversions]
  | cons a rest ih =>
    simp only [inversions, List.length_cons]
    have := List.countP_le_length (fun x => decide ((arc as x).dst < (arc as a).dst)) (l := rest)
    nlinarith

/-! ## Count attachment -/

theorem add_counts_ready (fn : function_info) (values : List Int) (h : fn_ready fn) :
    fn_ready (add_counts fn values) := by
  obtain ⟨h1, h2, _⟩ := h
  refine ⟨h1, h2, ?_⟩
  intro cs hcs
  unfold add_counts at hcs
  simp only at hcs
  injection hcs with hcs
  rw [← hcs]
  simp [add_counts]

theorem read_count_record_ready (r : data_record) (st st1 : pair_state × Option Nat)
    (h : read_count_record r st = result.ok st1) (hi : ∀ f, fn_ready (st.1.fn f)) :
    ∀ f, fn_ready (st1.1.fn f) := by
  unfold read_count_record at h
  cases r with
  | object_summary => simp only at h; injection h with h; subst h; exact hi
  | program_summary => simp only at h; injection h with h; subst h; exact hi
  | other => simp only at h; injection h with h; subst h; exact hi
  | function ident checksum =>
    simp only at h
    split at h
    · injection h with h; subst h; exact hi
    · split at h
      · simp at h
      · injection h with h; subst h; exact hi
  | arc_counts length values =>
    simp only at h
    split at h
    · injection h with h; subst h; exact hi
    · split at h
      · simp at h
      · injection h with h; subst h
        intro f
        simp only [fn_set_fn]
        split
        · exact add_counts_ready _ _ (hi _)
        · exact hi f

theorem read_count_records_ready (rcs : List (data_record × Bool)) :
    ∀ (st st1 : pair_state × Option Nat), read_count_records rcs st = result.ok st1 →
      (∀ f, fn_ready (st.1.fn f)) → ∀ f, fn_ready (st1.1.fn f) := by
  induction rcs with
  | nil => intro st st1 h hi; simp only [read_count_records] at h; injection h with h; subst h; exact hi
  | cons rc rest ih =>
    intro st st1 h hi
    obtain ⟨r, e⟩ := rc
    simp only [read_count_records] at h
    cases hr : read_count_record r st with
    | ok st2 =>
      rw [hr] at h; simp only at h
      split at h
      · simp at h
      · exact ih st2 st1 h (read_count_record_ready _ _ _ hr hi)
    | error => rw [hr] at h; simp at h
    | undefined => rw [hr] at h; simp at h

/-- The functions of a pair whose note file and data file were read are
ready for the solver. -/
theorem read_files_ready (fuel : Nat) (gcno : List Char) (note : Option note_file)
    (data : Option data_file) (p p1 : pair_state)
    (h : read_graph_file fuel gcno note pair_state.empty = result.ok p)
    (h1 : read_count_file data p = result.ok p1) : ∀ f, fn_ready (p1.fn f) := by
  have hi := read_graph_file_inv fuel gcno note p h
  have hr : ∀ f, fn_ready (p.fn f) := fun f =>
    ⟨(hi f).1, (hi f).2.2.1, fun cs hcs => by rw [(hi f).2.2.2] at hcs; simp at hcs⟩
  unfold read_count_file at h1
  cases data with
  | none => simp at h1
  | some df =>
    simp only at h1
    split at h1
    · simp at h1
    · split at h1
      · simp at h1
      · cases hrr : read_count_records df.records (p, none) with
        | ok st =>
          rw [hrr] at h1; simp only at h1; injection h1 with h1; subst h1
          exact read_count_records_ready _ _ _ hrr hr
        | error => rw [hrr] at h1; simp at h1
        | undefined => rw [hrr] at h1; simp at h1

/-! ## Flow solver: the propagation of the measured counts -/

theorem blk_set_set (bs : List block_info) (i d : Nat) (f g : block_info → block_info)
    (hi : i < bs.length) (hd : d < bs.length) (j : Nat) :
    blk ((bs.set i (f (blk bs i))).set d (g (blk (bs.set i (f (blk bs i))) d))) j =
      if j = d then (if j = i then g (f (blk bs j)) else g (blk bs j))
      else if j = i then f (blk bs j) else blk bs j := by
  simp only [blk_set, List.length_set, hi, hd, and_true]
  by_cases h1 : j = d
  · subst h1
    by_cases h2 : j = i
    · subst h2; simp
    · have h2' : ¬ i = j := fun e => h2 e.symm
      simp [h2, h2']
  · have h1' : ¬ d = j := fun e => h1 e.symm
    simp only [h1, h1', if_false]
    by_cases h2 : j = i
    · subst h2; simp
    · have h2' : ¬ i = j := fun e => h2 e.symm
      simp [h2, h2']

theorem solve_scan_arc_spec (counts : Option (List Int)) (ix a : Nat) (st : solve_state)
    (sc : succ_scan) (st1 : solve_state) (sc1 : succ_scan)
    (h : solve_scan_arc counts ix a st sc = some (st1, sc1))
    (hix : ix < st.blocks.length) (ha : a < st.arcs.length)
    (hd : (arc st.arcs a).dst < st.blocks.length) :
    st1.blocks.length = st.blocks.length ∧ st1.arcs.length = st.arcs.length ∧
    st1.invalid_blocks = st.invalid_blocks ∧ st1.valid_blocks = st.valid_blocks ∧
    (∀ x, x ≠ a → arc st1.arcs x = arc st.arcs x) ∧
    arc_frame (arc st.arcs a) (arc st1.arcs a) ∧
    (∀ j, blk_frame (blk st.blocks j) (blk st1.blocks j)) ∧
    ((arc st.arcs a).on_tree = true →
      arc st1.arcs a = arc st.arcs a ∧ st1.count_ptr = st.count_ptr ∧
      ∀ j, (blk st1.blocks j).num_succ = (blk st.blocks j).num_succ ∧
           (blk st1.blocks j).num_pred = (blk st.blocks j).num_pred) ∧
    ((arc st.arcs a).on_tree = false →
      (arc st1.arcs a).count_valid = true ∧
      (st1.count_ptr = if counts = none then st.count_ptr else st.count_ptr + 1) ∧
      (∀ cs, counts = some cs → st.count_ptr < cs.length) ∧
      ∀ j, (blk st1.blocks j).num_succ =
             (blk st.blocks j).num_succ - (if j = ix then 1 else 0) ∧
           (blk st1.blocks j).num_pred =
             (blk st.blocks j).num_pred - (if j = (arc st.arcs a).dst then 1 else 0)) := by
  unfold solve_scan_arc at h
  by_cases ht : (arc st.arcs a).on_tree = true
  · simp only [ht, if_true] at h
    injection h with h; injection h with h1 h2; subst h1
    refine ⟨rfl, rfl, rfl, rfl, fun _ _ => rfl, ⟨rfl, rfl, rfl, rfl⟩,
      fun _ => ⟨rfl, rfl, rfl, rfl, rfl, rfl⟩, fun _ => ⟨rfl, rfl, fun _ => ⟨rfl, rfl⟩⟩, ?_⟩
    intro hf; rw [ht] at hf; exact absurd hf (by decide)
  · have htf : (arc st.arcs a).on_tree = false := by simpa using ht
    simp only [htf, Bool.false_eq_true, if_false] at h
    cases hc : counts with
    | none =>
      rw [hc] at h
      simp only at h
      injection h with h; injection h with h1 h2; subst h1
      refine ⟨by simp, by simp, rfl, rfl, ?_, ?_, ?_, ?_, ?_⟩
      · intro x hx; simp only [arc_set]; rw [if_neg (fun hh => hx hh.1.symm)]
      · simp only [arc_set, ha, and_self, if_true]; exact ⟨rfl, rfl, htf.symm, rfl⟩
      · intro j
        have := blk_set_set st.blocks ix (arc st.arcs a).dst
          (fun B => { B with num_succ := B.num_succ - 1 })
          (fun B => { B with num_pred := B.num_pred - 1 }) hix hd j
        simp only at this
        rw [this]
        unfold blk_frame
        split_ifs <;> exact ⟨rfl, rfl, rfl, rfl, rfl, rfl⟩
      · intro hf; rw [htf] at hf; exact absurd hf (by decide)
      · intro _
        refine ⟨by simp [arc_set, ha], by simp, fun cs hcs => by simp at hcs, ?_⟩
        intro j
        have := blk_set_set st.blocks ix (arc st.arcs a).dst
          (fun B => { B with num_succ := B.num_succ - 1 })
          (fun B => { B with num_pred := B.num_pred - 1 }) hix hd j
        simp only at this
        rw [this]
        clear this
        split_ifs <;> constructor <;> simp
    | some cs =>
      rw [hc] at h
      simp only at h
      cases hg : cs.get? st.count_ptr with
      | none => rw [hg] at h; simp at h
      | some v =>
        rw [hg] at h
        simp only at h
        injection h with h; injection h with h1 h2; subst h1
        have hlt : st.count_ptr < cs.length := by
          by_contra hn
          rw [List.get?_eq_none.mpr (by omega)] at hg; simp at hg
        refine ⟨by simp, by simp, rfl, rfl, ?_, ?_, ?_, ?_, ?_⟩
        · intro x hx; simp only [arc_set]; rw [if_neg (fun hh => hx hh.1.symm)]
        · simp only [arc_set, ha, and_self, if_true]; exact ⟨rfl, rfl, htf.symm, rfl⟩
        · intro j
          have := blk_set_set st.blocks ix (arc st.arcs a).dst
            (fun B => { B with num_succ := B.num_succ - 1 })
            (fun B => { B with num_pred := B.num_pred - 1 }) hix hd j
          simp only at this
          rw [this]
          unfold blk_frame
          split_ifs <;> exact ⟨rfl, rfl, rfl, rfl, rfl, rfl⟩
        · intro hf; rw [htf] at hf; exact absurd hf (by decide)
        · intro _
          refine ⟨by simp [arc_set, ha], by simp, fun cs' hcs => by
            injection hcs with hcs; rw [← hcs]; exact hlt, ?_⟩
          intro j
          have := blk_set_set st.blocks ix (arc st.arcs a).dst
            (fun B => { B with num_succ := B.num_succ - 1 })
            (fun B => { B with num_pred := B.num_pred - 1 }) hix hd j
          simp only at this
          rw [this]
          clear this
          split_ifs <;> constructor <;> simp

theorem countP_flip (as as1 : List arc_info) (x : Nat)
    (hoth : ∀ a, a ≠ x → (arc as1 a).count_valid = (arc as a).count_valid)
    (h0 : (arc as x).count_valid = false) (h1 : (arc as1 x).count_valid = true) (L : List Nat) :
    L.countP (fun a => (arc as1 a).count_valid) = L.countP (fun a => (arc as a).count_valid) + L.count x := by
  induction L with
  | nil => simp
  | cons y rest ih =>
    simp only [List.countP_cons, List.count_cons, ih]
    by_cases hy : y = x
    · subst hy; simp [h0, h1]; omega
    · rw [hoth y hy]
      simp [hy]; omega

theorem inv_count_flip (as as1 : List arc_info) (x : Nat)
    (hoth : ∀ a, a ≠ x → (arc as1 a).count_valid = (arc as a).count_valid)
    (h0 : (arc as x).count_valid = false) (h1 : (arc as1 x).count_valid = true) (L : List Nat) :
    inv_count as1 L + L.count x = inv_count as L := by
  unfold inv_count
  induction L with
  | nil => simp
  | cons y rest ih =>
    simp only [List.countP_cons, List.count_cons]
    by_cases hy : y = x
    · subst hy; simp [h0, h1]; omega
    · rw [hoth y hy]
      simp [hy]; omega

theorem countP_same (as as1 : List arc_info)
    (h : ∀ a, (arc as1 a).count_valid = (arc as a).count_valid) (L : List Nat) :
    L.countP (fun a => (arc as1 a).count_valid) = L.countP (fun a => (arc as a).count_valid) := by
  congr 1; funext a; rw [h]

theorem countP_arcs_range (as : List arc_info) (q : arc_info → Bool) :
    as.countP q = (List.range as.length).countP (fun a => q (arc as a)) := by
  induction as using List.reverseRecOn with
  | nil => rfl
  | append_singleton l A ih =>
    rw [List.countP_append, List.length_append, List.length_singleton, List.range_succ,
      List.countP_append, ih]
    congr 1
    · apply List.countP_congr
      intro a ha
      rw [List.mem_range] at ha
      rw [arc_append_lt _ _ _ ha]
    · rw [List.countP_singleton, List.countP_singleton, arc_append_eq]

theorem count_range (m x : Nat) : (List.range m).count x = if x < m then 1 else 0 := by
  by_cases h : x < m
  · rw [if_pos h]
    exact List.count_eq_one_of_mem (List.nodup_range m) (List.mem_range.mpr h)
  · rw [if_neg h]
    exact List.count_eq_zero_of_not_mem (fun hm => h (List.mem_range.mp hm))

theorem solve_scan_arc_some (counts : Option (List Int)) (ix a : Nat) (st : solve_state)
    (sc : succ_scan)
    (h : (arc st.arcs a).on_tree = false → ∀ cs, counts = some cs → st.count_ptr < cs.length) :
    ∃ r, solve_scan_arc counts ix a st sc = some r := by
  unfold solve_scan_arc
  by_cases ht : (arc st.arcs a).on_tree = true
  · simp only [ht, if_true]; exact ⟨_, rfl⟩
  · have htf : (arc st.arcs a).on_tree = false := by simpa using ht
    simp only [htf, Bool.false_eq_true, if_false]
    cases hc : counts with
    | none => exact ⟨_, rfl⟩
    | some cs =>
      simp only
      have := h htf cs hc
      rw [List.get?_eq_get this]
      exact ⟨_, rfl⟩

theorem valid_count_lt (as : List arc_info) (off : Nat → Bool) (x : Nat) (L : List Nat)
    (hv : ∀ a ∈ L, (arc as a).count_valid = true → off a = true)
    (hx : (arc as x).count_valid = false) (hox : off x = true) :
    valid_count as L + L.count x ≤ L.countP off := by
  unfold valid_count
  induction L with
  | nil => simp
  | cons y rest ih =>
    have ih' := ih (fun a ha => hv a (List.mem_cons_of_mem _ ha))
    simp only [List.countP_cons, List.count_cons]
    by_cases hy : y = x
    · subst hy; simp [hx, hox]; omega
    · by_cases hvy : (arc as y).count_valid = true
      · have := hv y (List.mem_cons_self _ _) hvy
        simp [hy, hvy, this]; omega
      · have hvy' : (arc as y).count_valid = false := by simpa using hvy
        simp only [hvy', Bool.false_eq_true, if_false, beq_iff_eq, hy]
        split <;> omega

theorem linked_count_succ (fn : function_info) (hl : arcs_linked fn) (x : Nat)
    (hx : x < fn.arcs.length) (j : Nat) :
    (blk fn.blocks j).succ.count x = if j = (arc fn.arcs x).src then 1 else 0 := by
  obtain ⟨h1, h2, _⟩ := hl
  by_cases hj : j = (arc fn.arcs x).src
  · rw [if_pos hj, hj]; exact (h1 x hx).2.2.1
  · rw [if_neg hj]
    apply List.count_eq_zero_of_not_mem
    intro hm
    by_cases hjn : j < fn.num_blocks
    · exact hj (h2 j hjn x hm).2.symm
    · have : blk fn.blocks j = block_info.zero := by
        unfold blk function_info.num_blocks at *
        rw [List.getD_eq_default _ _ (by omega)]
      rw [this] at hm; simp [block_info.zero] at hm

theorem linked_count_pred (fn : function_info) (hl : arcs_linked fn) (x : Nat)
    (hx : x < fn.arcs.length) (j : Nat) :
    (blk fn.blocks j).pred.count x = if j = (arc fn.arcs x).dst then 1 else 0 := by
  obtain ⟨h1, _, h3⟩ := hl
  by_cases hj : j = (arc fn.arcs x).dst
  · rw [if_pos hj, hj]; exact (h1 x hx).2.2.2
  · rw [if_neg hj]
    apply List.count_eq_zero_of_not_mem
    intro hm
    by_cases hjn : j < fn.num_blocks
    · exact hj (h3 j hjn x hm).2.symm
    · have : blk fn.blocks j = block_info.zero := by
        unfold blk function_info.num_blocks at *
        rw [List.getD_eq_default _ _ (by omega)]
      rw [this] at hm; simp [block_info.zero] at hm

theorem arc_frame_trans (A B C : arc_info) (h1 : arc_frame A B) (h2 : arc_frame B C) :
    arc_frame A C :=
  ⟨h2.1.trans h1.1, h2.2.1.trans h1.2.1, h2.2.2.1.trans h1.2.2.1, h2.2.2.2.trans h1.2.2.2⟩

theorem scan_arc_inv (fn : function_info) (bs0 : List block_info) (P : Nat → Bool)
    (st st1 : solve_state) (sc sc1 : succ_scan) (ix x : Nat)
    (hinv : scan_inv fn bs0 P st) (hl : arcs_linked fn)
    (hx : x < fn.arcs.length) (hsrc : (arc fn.arcs x).src = ix) (hPx : P x = false)
    (h : solve_scan_arc fn.counts ix x st sc = some (st1, sc1)) :
    scan_inv fn bs0 (fun a => P a || decide (a = x)) st1 := by
  obtain ⟨i1, i2, i3, i4, i5, i6, i7, i8, i9⟩ := hinv
  have hixn : ix < fn.blocks.length := by rw [← hsrc]; exact (hl.1 x hx).1
  have hdn : (arc fn.arcs x).dst < fn.blocks.length := (hl.1 x hx).2.1
  have hdst : (arc st.arcs x).dst = (arc fn.arcs x).dst := (i3 x).2.1
  have hon : (arc st.arcs x).on_tree = (arc fn.arcs x).on_tree := (i3 x).2.2.1
  have hxinv : (arc st.arcs x).count_valid = false := by rw [i4 x hx, hPx]; simp
  obtain ⟨s1, s2, s3, s4, s5, s6, s7, s8, s9⟩ := solve_scan_arc_spec fn.counts ix x st sc st1 sc1 h
    (by rw [i1]; exact hixn) (by rw [i2]; exact hx) (by rw [i1, hdst]; exact hdn)
  have hframe : ∀ a, arc_frame (arc fn.arcs a) (arc st1.arcs a) := by
    intro a
    by_cases hax : a = x
    · subst hax; exact arc_frame_trans _ _ _ (i3 a) s6
    · rw [s5 a hax]; exact i3 a
  have hblk : ∀ j, (blk st1.blocks j).pred = (blk fn.blocks j).pred ∧
        ((blk st1.blocks j).succ).Perm (blk fn.blocks j).succ ∧
        (blk st1.blocks j).count_valid = false ∧ (blk st1.blocks j).valid_chain = false := by
    intro j
    obtain ⟨f1, f2, _, f4, f5, _⟩ := s7 j
    obtain ⟨g1, g2, g3, g4⟩ := i6 j
    exact ⟨f2.trans g1, by rw [f1]; exact g2, f4.trans g3, f5.trans g4⟩
  by_cases ht : (arc fn.arcs x).on_tree = true
  · -- an arc of the tree: nothing changes
    obtain ⟨e1, e2, e3⟩ := s8 (hon.trans ht)
    have hsame : ∀ a, (arc st1.arcs a).count_valid = (arc st.arcs a).count_valid := by
      intro a
      by_cases hax : a = x
      · subst hax; rw [e1]
      · rw [s5 a hax]
    refine ⟨s1.trans i1, s2.trans i2, hframe, ?_, ?_, hblk, ?_, ?_, s4.trans i9⟩
    · intro a ha
      rw [hsame, i4 a ha]
      by_cases hax : a = x
      · subst hax; simp [ht]
      · simp [hax]
    · intro a hv
      by_cases hax : a = x
      · subst hax; rw [e1] at hv ⊢; exact i5 a hv
      · rw [s5 a hax] at hv ⊢; exact i5 a hv
    · intro j
      unfold valid_count
      rw [countP_same st.arcs st1.arcs hsame, countP_same st.arcs st1.arcs hsame,
        (e3 j).1, (e3 j).2]
      exact i7 j
    · intro hc
      unfold valid_count
      rw [countP_same st.arcs st1.arcs hsame, e2]
      exact i8 hc
  · -- a measured arc: it becomes valid
    have htf : (arc fn.arcs x).on_tree = false := by simpa using ht
    obtain ⟨e1, e2, _, e4⟩ := s9 (hon.trans htf)
    have hoth : ∀ a, a ≠ x → (arc st1.arcs a).count_valid = (arc st.arcs a).count_valid := by
      intro a hax; rw [s5 a hax]
    refine ⟨s1.trans i1, s2.trans i2, hframe, ?_, ?_, hblk, ?_, ?_, s4.trans i9⟩
    · intro a ha
      by_cases hax : a = x
      · subst hax; rw [e1]; simp [htf]
      · rw [hoth a hax, i4 a ha]; simp [hax]
    · intro a hv
      by_cases hax : a = x
      · subst hax; rw [e1] at hv; exact absurd hv (by decide)
      · rw [s5 a hax] at hv ⊢; exact i5 a hv
    · intro j
      unfold valid_count at *
      rw [countP_flip st.arcs st1.arcs x hoth hxinv e1, countP_flip st.arcs st1.arcs x hoth hxinv e1,
        linked_count_succ fn hl x hx, linked_count_pred fn hl x hx, (e4 j).1, (e4 j).2,
        (i7 j).1, (i7 j).2, hsrc, hdst]
      constructor
      · split <;> (simp; try omega)
      · split <;> (simp; try omega)
    · intro hc
      unfold valid_count at *
      rw [countP_flip st.arcs st1.arcs x hoth hxinv e1, count_range, if_pos hx, e2, if_neg hc,
        i8 hc]

theorem scan_inv_congr (fn : function_info) (bs0 : List block_info) (P Q : Nat → Bool)
    (st : solve_state) (h : ∀ a, a < fn.arcs.length → P a = Q a) (hi : scan_inv fn bs0 P st) :
    scan_inv fn bs0 Q st := by
  obtain ⟨i1, i2, i3, i4, i5, i6, i7, i8, i9⟩ := hi
  exact ⟨i1, i2, i3, fun a ha => by rw [i4 a ha, h a ha], i5, i6, i7, i8, i9⟩

theorem solve_scan_inv (fn : function_info) (bs0 : List block_info) (ix : Nat)
    (hl : arcs_linked fn) (hc : counts_fit fn) (todo : List Nat) :
    ∀ (pre : List Nat) (st : solve_state) (sc : succ_scan),
      scan_inv fn bs0 (passed fn ix pre) st →
      (∀ x ∈ todo, x < fn.arcs.length ∧ (arc fn.arcs x).src = ix) →
      todo.Nodup → (∀ x ∈ todo, x ∉ pre) → (∀ x ∈ pre, (arc fn.arcs x).src = ix) →
      ∃ st1 sc1, solve_scan fn.counts ix todo st sc = some (st1, sc1) ∧
        scan_inv fn bs0 (passed fn ix (pre ++ todo)) st1 ∧
        st1.invalid_blocks = st.invalid_blocks ∧
        ∀ j, (blk st1.blocks j).invalid_chain = (blk st.blocks j).invalid_chain := by
  induction todo with
  | nil =>
    intro pre st sc hi _ _ _ _
    exact ⟨st, sc, rfl, by rw [List.append_nil]; exact hi, rfl, fun _ => rfl⟩
  | cons x rest ih =>
    intro pre st sc hi hmem hnd hfresh hpre
    obtain ⟨hx, hsrc⟩ := hmem x (List.mem_cons_self _ _)
    have hPx : passed fn ix pre x = false := by
      unfold passed
      have h1 : ¬ (arc fn.arcs x).src < ix := by omega
      have h2 : x ∉ pre := hfresh x (List.mem_cons_self _ _)
      simp [h1, h2]
    have hxinv : (arc st.arcs x).count_valid = false := by
      rw [hi.2.2.2.1 x hx, hPx]; simp
    -- the read of the counts buffer is inside the buffer
    obtain ⟨r, hr⟩ := solve_scan_arc_some fn.counts ix x st sc (by
      intro hoff cs hcs
      have hoff' : (arc fn.arcs x).on_tree = false := by rw [← (hi.2.2.1 x).2.2.1]; exact hoff
      have hb := valid_count_lt st.arcs (fun a => !(arc fn.arcs a).on_tree) x
        (List.range fn.arcs.length)
        (fun a ha hv => by
          rw [hi.2.2.2.1 a (List.mem_range.mp ha)] at hv
          simp only [Bool.and_eq_true] at hv
          exact hv.1)
        hxinv (by simp [hoff'])
      rw [count_range, if_pos hx] at hb
      rw [hi.2.2.2.2.2.2.2.1 (by rw [hcs]; simp), hc cs hcs]
      omega)
    obtain ⟨st1, sc1⟩ := r
    have hi1 := scan_arc_inv fn bs0 (passed fn ix pre) st st1 sc sc1 ix x hi hl hx hsrc hPx hr
    have hi1' : scan_inv fn bs0 (passed fn ix (pre ++ [x])) st1 := by
      apply scan_inv_congr fn bs0 _ _ st1 _ hi1
      intro a _
      unfold passed
      simp only [List.mem_append, List.mem_singleton]
      by_cases h1 : (arc fn.arcs a).src < ix <;> by_cases h2 : a ∈ pre <;> by_cases h3 : a = x <;>
        simp [h1, h2, h3]
    obtain ⟨s1, s2, s3, _, _, _, s7, _, _⟩ := solve_scan_arc_spec fn.counts ix x st sc st1 sc1 hr
      (by rw [hi.1, ← hsrc]; exact (hl.1 x hx).1) (by rw [hi.2.1]; exact hx)
      (by rw [hi.1, (hi.2.2.1 x).2.1]; exact (hl.1 x hx).2.1)
    obtain ⟨st2, sc2, q1, q2, q3, q4⟩ := ih (pre ++ [x]) st1 sc1 hi1'
      (fun y hy => hmem y (List.mem_cons_of_mem _ hy)) (List.nodup_cons.mp hnd).2
      (fun y hy hm => by
        rcases List.mem_append.mp hm with hm | hm
        · exact hfresh y (List.mem_cons_of_mem _ hy) hm
        · rw [List.mem_singleton] at hm
          subst hm
          exact (List.nodup_cons.mp hnd).1 hy)
      (fun y hy => by
        rcases List.mem_append.mp hy with hy | hy
        · exact hpre y hy
        · rw [List.mem_singleton] at hy; rw [hy]; exact hsrc)
    refine ⟨st2, sc2, ?_, ?_, q3.trans s3, fun j => (q4 j).trans (s7 j).2.2.2.2.2⟩
    · simp only [solve_scan, hr]; exact q1
    · rw [List.append_assoc] at q2; exact q2

theorem same_solve_refl (st : solve_state) : same_solve st st :=
  ⟨rfl, rfl, rfl, rfl, rfl, fun _ => ⟨rfl, rfl, rfl, rfl, rfl, rfl⟩,
   fun _ => ⟨rfl, rfl, rfl, rfl, rfl, rfl, rfl, rfl⟩⟩

theorem same_solve_trans (a b c : solve_state) (h1 : same_solve a b) (h2 : same_solve b c) :
    same_solve a c := by
  obtain ⟨p1, p2, p3, p4, p5, p6, p7⟩ := h1
  obtain ⟨q1, q2, q3, q4, q5, q6, q7⟩ := h2
  refine ⟨q1.trans p1, q2.trans p2, q3.trans p3, q4.trans p4, q5.trans p5, fun x => ?_, fun j => ?_⟩
  · obtain ⟨a1, a2, a3, a4, a5, a6⟩ := p6 x
    obtain ⟨b1, b2, b3, b4, b5, b6⟩ := q6 x
    exact ⟨b1.trans a1, b2.trans a2, b3.trans a3, b4.trans a4, b5.trans a5, b6.trans a6⟩
  · obtain ⟨a1, a2, a3, a4, a5, a6, a7, a8⟩ := p7 j
    obtain ⟨b1, b2, b3, b4, b5, b6, b7, b8⟩ := q7 j
    exact ⟨b1.trans a1, b2.trans a2, b3.trans a3, b4.trans a4, b5.trans a5, b6.trans a6,
      b7.trans a7, b8.trans a8⟩

theorem solve_mark_arc_same (ix a : Nat) (st : solve_state) :
    same_solve st (solve_mark_arc ix a st) := by
  unfold solve_mark_arc
  dsimp only
  split
  · exact same_solve_refl st
  · split
    · refine ⟨by simp, by simp, rfl, rfl, rfl, fun x => ?_, fun j => ?_⟩
      · simp only [arc_set]
        split
        · rename_i hc; rw [← hc.1]; exact ⟨rfl, rfl, rfl, rfl, rfl, rfl⟩
        · exact ⟨rfl, rfl, rfl, rfl, rfl, rfl⟩
      · simp only [blk_set]
        split
        · rename_i hc; rw [← hc.1]; exact ⟨rfl, rfl, rfl, rfl, rfl, rfl, rfl, rfl⟩
        · exact ⟨rfl, rfl, rfl, rfl, rfl, rfl, rfl, rfl⟩
    · refine ⟨rfl, by simp, rfl, rfl, rfl, fun x => ?_, fun j => ⟨rfl, rfl, rfl, rfl, rfl, rfl, rfl, rfl⟩⟩
      simp only [arc_set]
      split
      · rename_i hc; rw [← hc.1]; exact ⟨rfl, rfl, rfl, rfl, rfl, rfl⟩
      · exact ⟨rfl, rfl, rfl, rfl, rfl, rfl⟩

theorem solve_mark_same (ix : Nat) (succ : List Nat) :
    ∀ st : solve_state, same_solve st (solve_mark ix succ st) := by
  induction succ with
  | nil => intro st; exact same_solve_refl st
  | cons a rest ih =>
    intro st
    have e : solve_mark ix (a :: rest) st = solve_mark ix rest (solve_mark_arc ix a st) := rfl
    rw [e]
    exact same_solve_trans _ _ _ (solve_mark_arc_same ix a st) (ih _)

theorem scan_inv_same (fn : function_info) (bs0 : List block_info) (P : Nat → Bool)
    (st st1 : solve_state) (hs : same_solve st st1) (hi : scan_inv fn bs0 P st) :
    scan_inv fn bs0 P st1 := by
  obtain ⟨p1, p2, p3, _, p5, p6, p7⟩ := hs
  obtain ⟨i1, i2, i3, i4, i5, i6, i7, i8, i9⟩ := hi
  have hv : ∀ a, (arc st1.arcs a).count_valid = (arc st.arcs a).count_valid := fun a => (p6 a).2.2.2.2.2
  refine ⟨p1.trans i1, p2.trans i2, ?_, ?_, ?_, ?_, ?_, ?_, p5.trans i9⟩
  · intro a
    obtain ⟨a1, a2, a3, a4, _, _⟩ := p6 a
    obtain ⟨b1, b2, b3, b4⟩ := i3 a
    exact ⟨a1.trans b1, a2.trans b2, a3.trans b3, a4.trans b4⟩
  · intro a ha; rw [hv]; exact i4 a ha
  · intro a h; rw [hv] at h; rw [(p6 a).2.2.2.2.1]; exact i5 a h
  · intro j
    obtain ⟨a1, a2, _, _, _, a6, a7, _⟩ := p7 j
    obtain ⟨b1, b2, b3, b4⟩ := i6 j
    exact ⟨a2.trans b1, by rw [a1]; exact b2, a6.trans b3, a7.trans b4⟩
  · intro j
    unfold valid_count
    rw [countP_same st.arcs st1.arcs hv, countP_same st.arcs st1.arcs hv, (p7 j).2.2.1, (p7 j).2.2.2.1]
    exact i7 j
  · intro hc
    unfold valid_count
    rw [countP_same st.arcs st1.arcs hv, p3]
    exact i8 hc

theorem linked_mem_succ (fn : function_info) (hl : arcs_linked fn) (x : Nat)
    (hx : x < fn.arcs.length) (j : Nat) :
    x ∈ (blk fn.blocks j).succ ↔ j = (arc fn.arcs x).src := by
  rw [← List.count_pos_iff, linked_count_succ fn hl x hx j]
  split <;> simp_all

theorem linked_mem_pred (fn : function_info) (hl : arcs_linked fn) (x : Nat)
    (hx : x < fn.arcs.length) (j : Nat) :
    x ∈ (blk fn.blocks j).pred ↔ j = (arc fn.arcs x).dst := by
  rw [← List.count_pos_iff, linked_count_pred fn hl x hx j]
  split <;> simp_all

theorem linked_succ_nodup (fn : function_info) (hl : arcs_linked fn) (j : Nat)
    (hj : j < fn.num_blocks) : (blk fn.blocks j).succ.Nodup := by
  rw [List.nodup_iff_count_le_one]
  intro x
  by_cases hm : x ∈ (blk fn.blocks j).succ
  · have hx := (hl.2.1 j hj x hm).1
    rw [linked_count_succ fn hl x hx j]; split <;> omega
  · rw [List.count_eq_zero_of_not_mem hm]; omega

theorem linked_pred_nodup (fn : function_info) (hl : arcs_linked fn) (j : Nat)
    (hj : j < fn.num_blocks) : (blk fn.blocks j).pred.Nodup := by
  rw [List.nodup_iff_count_le_one]
  intro x
  by_cases hm : x ∈ (blk fn.blocks j).pred
  · have hx := (hl.2.2 j hj x hm).1
    rw [linked_count_pred fn hl x hx j]; split <;> omega
  · rw [List.count_eq_zero_of_not_mem hm]; omega

theorem nodup_length_le (l : List Nat) (m : Nat) (hn : l.Nodup) (hb : ∀ x ∈ l, x < m) :
    l.length ≤ m := by
  have h : l.Subperm (List.range m) :=
    List.subperm_of_subset hn (fun x hx => List.mem_range.2 (hb x hx))
  simpa using h.length_le

theorem solve_scan_nil_flag (counts : Option (List Int)) (ix : Nat) (st st1 : solve_state)
    (sc sc1 : succ_scan) (h : solve_scan counts ix [] st sc = some (st1, sc1)) : sc1 = sc := by
  simp only [solve_scan, Option.some.injEq, Prod.mk.injEq] at h
  exact h.2.symm

theorem scan_inv_sort (fn : function_info) (bs0 : List block_info) (P : Nat → Bool)
    (st : solve_state) (ix : Nat) (s : List Nat) (hs : s.Perm (blk st.blocks ix).succ)
    (hi : scan_inv fn bs0 P st) :
    scan_inv fn bs0 P { st with blocks := st.blocks.set ix { blk st.blocks ix with succ := s } } := by
  obtain ⟨i1, i2, i3, i4, i5, i6, i7, i8, i9⟩ := hi
  refine ⟨by simpa using i1, i2, i3, i4, i5, ?_, ?_, i8, i9⟩
  · intro j
    simp only [blk_set]
    split
    · rename_i hc; rw [← hc.1]
      exact ⟨(i6 ix).1, hs.trans (i6 ix).2.1, (i6 ix).2.2.1, (i6 ix).2.2.2⟩
    · exact i6 j
  · intro j
    simp only [blk_set]
    split
    · rename_i hc; rw [← hc.1]; exact i7 ix
    · exact i7 j

theorem scan_inv_push (fn : function_info) (bs0 : List block_info) (P : Nat → Bool)
    (st : solve_state) (ix : Nat) (hi : scan_inv fn bs0 P st) :
    scan_inv fn bs0 P { st with
      blocks := st.blocks.set ix { blk st.blocks ix with invalid_chain := true }
      invalid_blocks := ix :: st.invalid_blocks } := by
  obtain ⟨i1, i2, i3, i4, i5, i6, i7, i8, i9⟩ := hi
  refine ⟨by simpa using i1, i2, i3, i4, i5, ?_, ?_, i8, i9⟩
  · intro j
    simp only [blk_set]
    split
    · rename_i hc; rw [← hc.1]; exact i6 ix
    · exact i6 j
  · intro j
    simp only [blk_set]
    split
    · rename_i hc; rw [← hc.1]; exact i7 ix
    · exact i7 j

theorem solve_setup_block_inv (fn : function_info) (bs0 : List block_info) (ix fuel : Nat)
    (hl : arcs_linked fn) (hc : counts_fit fn) (hix : ix < fn.num_blocks)
    (hfuel : fn.arcs.length * fn.arcs.length < fuel) (st : solve_state)
    (hi : scan_inv fn bs0 (passed fn ix []) st) :
    ∃ st1, solve_setup_block fuel fn.counts ix st = some st1 ∧
      scan_inv fn bs0 (passed fn (ix + 1) []) st1 ∧
      st1.invalid_blocks = ix :: st.invalid_blocks ∧
      st1.blocks.length = st.blocks.length ∧
      ∀ j, (blk st1.blocks j).invalid_chain =
        if j = ix ∧ ix < st.blocks.length then true else (blk st.blocks j).invalid_chain := by
  have hperm := (hi.2.2.2.2.2.1 ix).2.1
  have hnd : (blk st.blocks ix).succ.Nodup := hperm.nodup_iff.2 (linked_succ_nodup fn hl ix hix)
  have hmem : ∀ x ∈ (blk st.blocks ix).succ, x < fn.arcs.length ∧ (arc fn.arcs x).src = ix :=
    fun x hx => hl.2.1 ix hix x (hperm.mem_iff.1 hx)
  obtain ⟨st1, sc1, hscan, hi1, hinv1, hch1⟩ :=
    solve_scan_inv fn bs0 ix hl hc (blk st.blocks ix).succ [] st
      { prev_dst := none, out_of_order := false, non_fake_succ := 0 } hi hmem hnd
      (fun _ _ => List.not_mem_nil _) (fun _ h => absurd h (List.not_mem_nil _))
  have hi1b : scan_inv fn bs0 (passed fn (ix + 1) []) st1 := by
    refine scan_inv_congr fn bs0 _ _ st1 ?_ hi1
    intro a ha
    unfold passed
    have hm : a ∈ (blk st.blocks ix).succ ↔ ix = (arc fn.arcs a).src := by
      rw [hperm.mem_iff]; exact linked_mem_succ fn hl a ha ix
    by_cases h1 : (arc fn.arcs a).src < ix
    · simp [h1]; omega
    · by_cases h2 : ix = (arc fn.arcs a).src
      · simp [hm.2 h2, ← h2]
      · have h3 : a ∉ (blk st.blocks ix).succ := fun h => h2 (hm.1 h)
        have h4 : ¬ (arc fn.arcs a).src < ix + 1 := by omega
        simp [h1, h3, h4]
  obtain ⟨st2, hst2⟩ : ∃ x, x = (if sc1.non_fake_succ = 1 then
      solve_mark ix (blk st1.blocks ix).succ st1 else st1) := ⟨_, rfl⟩
  have hsame : same_solve st1 st2 := by
    rw [hst2]; split
    · exact solve_mark_same ix _ st1
    · exact same_solve_refl st1
  have hi2 : scan_inv fn bs0 (passed fn (ix + 1) []) st2 := scan_inv_same fn bs0 _ st1 st2 hsame hi1b
  have hperm2 := (hi2.2.2.2.2.2.1 ix).2.1
  have e0 : solve_setup_block fuel fn.counts ix st =
      match (if sc1.out_of_order then
        match sort_loop st2.arcs fuel (blk st2.blocks ix).succ with
        | none => none
        | some s => some { st2 with blocks := st2.blocks.set ix { blk st2.blocks ix with succ := s } }
      else some st2 : Option solve_state) with
      | none => none
      | some st4 =>
        some { st4 with
          blocks := st4.blocks.set ix { blk st4.blocks ix with invalid_chain := true }
          invalid_blocks := ix :: st4.invalid_blocks } := by
    unfold solve_setup_block
    rw [hscan, hst2]
  obtain ⟨st4, hst4, hi4, hinv4, hlen4, hch4⟩ : ∃ st4,
      (if sc1.out_of_order then
        match sort_loop st2.arcs fuel (blk st2.blocks ix).succ with
        | none => none
        | some s => some { st2 with blocks := st2.blocks.set ix { blk st2.blocks ix with succ := s } }
      else some st2 : Option solve_state) = some st4 ∧
      scan_inv fn bs0 (passed fn (ix + 1) []) st4 ∧ st4.invalid_blocks = st2.invalid_blocks ∧
      st4.blocks.length = st2.blocks.length ∧
      ∀ j, (blk st4.blocks j).invalid_chain = (blk st2.blocks j).invalid_chain := by
    by_cases ho : sc1.out_of_order = true
    · rw [if_pos ho]
      have hne : (blk st2.blocks ix).succ ≠ [] := by
        intro hnil
        have h0 : (blk st.blocks ix).succ = [] := by
          have := hperm2.length_eq.trans hperm.length_eq.symm
          rw [hnil] at this
          exact List.length_eq_zero.1 this.symm
        rw [h0] at hscan
        have := solve_scan_nil_flag _ _ _ _ _ _ hscan
        rw [this] at ho
        simp at ho
      have hlen : (blk st2.blocks ix).succ.length ≤ fn.arcs.length := by
        rw [hperm2.length_eq]
        exact nodup_length_le _ _ (linked_succ_nodup fn hl ix hix)
          (fun x hx => (hl.2.1 ix hix x hx).1)
      have hfu : inversions st2.arcs (blk st2.blocks ix).succ < fuel :=
        lt_of_le_of_lt (inversions_le _ _) (lt_of_le_of_lt (Nat.mul_le_mul hlen hlen) hfuel)
      obtain ⟨s, hs, hsp⟩ := sort_loop_spec st2.arcs fuel _ hne hfu
      rw [hs]
      refine ⟨_, rfl, scan_inv_sort fn bs0 _ st2 ix s hsp hi2, rfl, by simp, ?_⟩
      intro j
      simp only [blk_set]
      split
      · rename_i hcj; rw [← hcj.1]
      · rfl
    · rw [if_neg ho]
      exact ⟨st2, rfl, hi2, rfl, rfl, fun _ => rfl⟩
  rw [e0, hst4]
  refine ⟨_, rfl, scan_inv_push fn bs0 _ st4 ix hi4, ?_, ?_, ?_⟩
  · show ix :: st4.invalid_blocks = ix :: st.invalid_blocks
    rw [hinv4, hsame.2.2.2.1, hinv1]
  · show (st4.blocks.set ix _).length = st.blocks.length
    rw [List.length_set, hlen4, hsame.1, hi1.1, hi.1]
  · intro j
    show (blk (st4.blocks.set ix _) j).invalid_chain = _
    rw [blk_set]
    have hl4 : st4.blocks.length = st.blocks.length := by rw [hlen4, hsame.1, hi1.1, hi.1]
    rw [hl4]
    by_cases hcj : ix = j ∧ ix < st.blocks.length
    · rw [if_pos hcj, if_pos ⟨hcj.1.symm, hcj.2⟩]
    · rw [if_neg hcj, if_neg (fun h => hcj ⟨h.1.symm, h.2⟩), hch4, (hsame.2.2.2.2.2.2 j).2.2.2.2.2.2.2, hch1]

theorem solve_setup_inv (fn : function_info) (bs0 : List block_info) (fuel : Nat)
    (hl : arcs_linked fn) (hc : counts_fit fn)
    (hfuel : fn.arcs.length * fn.arcs.length < fuel) :
    ∀ (todo ix : Nat) (st : solve_state), ix + todo = fn.num_blocks →
      scan_inv fn bs0 (passed fn ix []) st →
      ∃ st1, solve_setup fuel fn.counts todo ix st = some st1 ∧
        scan_inv fn bs0 (passed fn fn.num_blocks []) st1 ∧
        st1.invalid_blocks = (List.range' ix todo).reverse ++ st.invalid_blocks ∧
        ∀ j, (blk st1.blocks j).invalid_chain =
          if ix ≤ j ∧ j < fn.num_blocks then true else (blk st.blocks j).invalid_chain := by
  intro todo
  induction todo with
  | zero =>
    intro ix st hn hi
    have : ix = fn.num_blocks := by omega
    subst this
    refine ⟨st, rfl, hi, by simp, ?_⟩
    intro j
    rw [if_neg (by omega)]
  | succ t ih =>
    intro ix st hn hi
    obtain ⟨st1, h1, hi1, hv1, hlen1, hch1⟩ :=
      solve_setup_block_inv fn bs0 ix fuel hl hc (by omega) hfuel st hi
    obtain ⟨st2, h2, hi2, hv2, hch2⟩ := ih (ix + 1) st1 (by omega) hi1
    refine ⟨st2, ?_, hi2, ?_, ?_⟩
    · show (match solve_setup_block fuel fn.counts ix st with
        | none => none
        | some st1 => solve_setup fuel fn.counts t (ix + 1) st1) = some st2
      rw [h1]; exact h2
    · rw [hv2, hv1, List.range'_succ]; simp
    · intro j
      rw [hch2, hch1]
      have hlen : st.blocks.length = fn.num_blocks := hi.1
      rw [hlen]
      by_cases hj : j = ix
      · subst hj
        rw [if_neg (by omega), if_pos ⟨rfl, by omega⟩, if_pos ⟨le_refl _, by omega⟩]
      · by_cases h3 : ix + 1 ≤ j ∧ j < fn.num_blocks
        · rw [if_pos h3, if_pos ⟨by omega, h3.2⟩]
        · rw [if_neg h3, if_neg (fun h => hj h.1)]
          by_cases h4 : ix ≤ j ∧ j < fn.num_blocks
          · exfalso; omega
          · rw [if_neg h4]

theorem solve_entry_exit_length (bs : List block_info) :
    (solve_entry_exit bs).1.length = bs.length := by
  unfold solve_entry_exit
  split
  · rfl
  · dsimp only
    split <;> split <;> simp

theorem solve_entry_exit_blk (bs : List block_info) (j : Nat) :
    ∃ p s, blk (solve_entry_exit bs).1 j = { blk bs j with num_pred := p, num_succ := s } := by
  unfold solve_entry_exit
  split
  · exact ⟨_, _, rfl⟩
  · dsimp only
    split
    · split
      · exact ⟨_, _, rfl⟩
      · rw [blk_set]; split
        · rename_i hc; rw [← hc.1]; exact ⟨_, _, rfl⟩
        · exact ⟨_, _, rfl⟩
    · split
      · rw [blk_set]; split
        · rename_i hc; rw [← hc.1]; exact ⟨_, _, rfl⟩
        · exact ⟨_, _, rfl⟩
      · rw [blk_set]; split
        · rename_i hc; rw [← hc.1, blk_set]; split
          · rename_i hd; rw [← hd.1]; exact ⟨_, _, rfl⟩
          · exact ⟨_, _, rfl⟩
        · rw [blk_set]; split
          · rename_i hd; rw [← hd.1]; exact ⟨_, _, rfl⟩
          · exact ⟨_, _, rfl⟩

theorem valid_count_fresh (as : List arc_info) (h : ∀ a, (arc as a).count_valid = false)
    (L : List Nat) : valid_count as L = 0 := by
  unfold valid_count
  rw [List.countP_eq_zero]
  intro a _
  simp [h a]

theorem scan_inv_start (fn : function_info) (hf : fn_fresh fn) :
    scan_inv fn (solve_entry_exit fn.blocks).1 (passed fn 0 [])
      { blocks := (solve_entry_exit fn.blocks).1, arcs := fn.arcs, count_ptr := 0,
        invalid_blocks := [], valid_blocks := [] } := by
  have hv : ∀ a, (arc fn.arcs a).count_valid = false := fun a => (hf.2.2 a).1
  refine ⟨solve_entry_exit_length _, rfl, fun a => ⟨rfl, rfl, rfl, rfl⟩, ?_, ?_, ?_, ?_, ?_, rfl⟩
  · intro a _
    show (arc fn.arcs a).count_valid = _
    rw [hv a]; simp [passed]
  · intro a _; exact (hf.2.2 a).2
  · intro j
    obtain ⟨p, s, e⟩ := solve_entry_exit_blk fn.blocks j
    show (blk (solve_entry_exit fn.blocks).1 j).pred = _ ∧ _
    rw [e]
    exact ⟨rfl, List.Perm.refl _, (hf.2.1 j).2.2.1, (hf.2.1 j).2.2.2.1⟩
  · intro j
    show _ = _ - ((valid_count fn.arcs _ : Nat) : Int) ∧ _ = _ - ((valid_count fn.arcs _ : Nat) : Int)
    rw [valid_count_fresh _ hv, valid_count_fresh _ hv]
    simp
  · intro _
    show 0 = valid_count fn.arcs _
    rw [valid_count_fresh _ hv]

theorem counts_fit_ready (fn : function_info) (hr : fn_ready fn) : counts_fit fn := by
  intro cs h
  rw [hr.2.2 cs h, hr.2.1.1, countP_arcs_range]

theorem solve_setup_ready (fn : function_info) (hr : fn_ready fn) (fuel : Nat)
    (hfuel : fn.arcs.length * fn.arcs.length < fuel) :
    ∃ st, solve_setup fuel fn.counts fn.num_blocks 0
        { blocks := (solve_entry_exit fn.blocks).1, arcs := fn.arcs, count_ptr := 0,
          invalid_blocks := [], valid_blocks := [] } = some st ∧
      scan_inv fn (solve_entry_exit fn.blocks).1 (fun _ => true) st ∧
      st.invalid_blocks = (List.range fn.num_blocks).reverse ∧
      ∀ j, (blk st.blocks j).invalid_chain = decide (j < fn.num_blocks) := by
  obtain ⟨st, h1, h2, h3, h4⟩ := solve_setup_inv fn _ fuel hr.1 (counts_fit_ready fn hr) hfuel
    fn.num_blocks 0 _ (by omega) (scan_inv_start fn hr.2.1)
  refine ⟨st, h1, ?_, ?_, ?_⟩
  · refine scan_inv_congr fn _ _ _ st ?_ h2
    intro a ha
    have := (hr.1.1 a ha).1
    simp [passed, this]
  · rw [h3, List.range_eq_range']; simp
  · intro j
    rw [h4 j]
    show (if 0 ≤ j ∧ j < fn.num_blocks then true else (blk (solve_entry_exit fn.blocks).1 j).invalid_chain) = _
    by_cases hj : j < fn.num_blocks
    · simp [hj]
    · obtain ⟨p, s, e⟩ := solve_entry_exit_blk fn.blocks j
      rw [e]
      simp [hj, (hr.2.1.2.1 j).2.2.2.2]

theorem setup_count_ptr (fn : function_info) (st : solve_state)
    (hi : scan_inv fn (solve_entry_exit fn.blocks).1 (fun _ => true) st) (hc : fn.counts ≠ none) :
    st.count_ptr = fn.arcs.countP (fun A => !A.on_tree) := by
  rw [hi.2.2.2.2.2.2.2.1 hc, countP_arcs_range]
  unfold valid_count
  apply List.countP_congr
  intro a ha
  rw [List.mem_range] at ha
  rw [hi.2.2.2.1 a ha]
  simp

/-! ## The counts buffer and the first loop of the solver -/

/-- C4: for every function of a note file that `read_graph_file` accepted,
`num_counts` is the number of arcs with `on_tree = 0`, before and after
`read_count_file`; the buffer that `read_count_file` allocated has
`num_counts` entries, and `solve_flow_graph` (with enough fuel for its sort
loops) reads exactly `num_counts` values from it, without a read past its
end. -/
theorem solve_reads_num_counts (rfuel : Nat) (gcno : List Char) (note : Option note_file)
    (data : Option data_file) (p p1 : pair_state)
    (h : read_graph_file rfuel gcno note pair_state.empty = result.ok p)
    (h1 : read_count_file data p = result.ok p1) (f fuel : Nat)
    (hfuel : (p1.fn f).arcs.length * (p1.fn f).arcs.length < fuel) :
    (p.fn f).num_counts = (p.fn f).arcs.countP (fun A => !A.on_tree) ∧
    (p1.fn f).num_counts = (p1.fn f).arcs.countP (fun A => !A.on_tree) ∧
    ∀ cs, (p1.fn f).counts = some cs →
      cs.length = (p1.fn f).num_counts ∧
      solve_counts_read fuel (p1.fn f) = some (p1.fn f).num_counts := by
  have hr := read_files_ready rfuel gcno note data p p1 h h1 f
  refine ⟨(read_graph_file_inv rfuel gcno note p h f).2.2.1.1, hr.2.1.1, ?_⟩
  intro cs hcs
  refine ⟨hr.2.2 cs hcs, ?_⟩
  obtain ⟨st, hs, hi, _, _⟩ := solve_setup_ready (p1.fn f) hr fuel hfuel
  unfold solve_counts_read
  dsimp only
  rw [hs]
  show some st.count_ptr = _
  rw [setup_count_ptr (p1.fn f) st hi (by rw [hcs]; simp), hr.2.1.1]

/-- Witness of C4 on the function `G` of `skew_note` with the measured
counts 5 and 6: two arcs off the tree, two values read. -/
theorem solve_reads_num_counts_witness :
    read_graph_file 8 (skew_pair 5 6).gcno (some skew_note) pair_state.empty = result.ok skew_graph ∧
    read_count_file (skew_pair 5 6).data skew_graph = result.ok (skew_counted 5 6) ∧
    ((skew_counted 5 6).fn 0).arcs.length * ((skew_counted 5 6).fn 0).arcs.length < 17 ∧
    (skew_graph.fn 0).num_counts = (skew_graph.fn 0).arcs.countP (fun A => !A.on_tree) ∧
    ((skew_counted 5 6).fn 0).num_counts =
      ((skew_counted 5 6).fn 0).arcs.countP (fun A => !A.on_tree) ∧
    ∀ cs, ((skew_counted 5 6).fn 0).counts = some cs →
      cs.length = ((skew_counted 5 6).fn 0).num_counts ∧
      solve_counts_read 17 ((skew_counted 5 6).fn 0) = some ((skew_counted 5 6).fn 0).num_counts :=
  ⟨by decide, by decide, by decide,
   solve_reads_num_counts 8 (skew_pair 5 6).gcno (some skew_note) (skew_pair 5 6).data
     skew_graph (skew_counted 5 6) (by decide) (by decide) 0 17 (by decide)⟩

/-! ## Rejected pairs -/

/-- C13: when `read_graph_file` returns non-zero for a pair, or the note file
declares no function, or `read_count_file` returns non-zero, `process_file`
returns with the three aggregate tables exactly as they were. -/
theorem process_file_rejected (fuel : Nat) (i : pair_input) (g : aggregates)
    (h : read_graph_file fuel i.gcno i.note pair_state.empty = result.error ∨
      ∃ p, read_graph_file fuel i.gcno i.note pair_state.empty = result.ok p ∧
        (p.functions = [] ∨ read_count_file i.data p = result.error)) :
    process_file fuel i g = some g := by
  have hp : prepare_pair fuel i = result.error := by
    unfold prepare_pair
    rcases h with h | ⟨p, h, h1 | h1⟩
    · rw [h]
    · rw [h]; simp only [h1, if_true]
    · rw [h]
      dsimp only
      split
      · rfl
      · rw [h1]
  unfold process_file
  rw [hp]

/-- Witness of C13: the pair of scenario 5 with a data file whose stamp (8)
is not the stamp of the note file (7), and tables that already hold the
result of `skew_pair 5 6`. -/
theorem process_file_rejected_witness :
    (read_graph_file 8 (loop_pair 3 7).gcno (loop_pair 3 7).note pair_state.empty = result.error ∨
      ∃ p, read_graph_file 8 (loop_pair 3 7).gcno (loop_pair 3 7).note pair_state.empty = result.ok p ∧
        (p.functions = [] ∨
          read_count_file (some { magic_ok := true, stamp := 8, records := [] }) p = result.error)) ∧
    process_file 8 { loop_pair 3 7 with data := some { magic_ok := true, stamp := 8, records := [] } }
      skew_once = some skew_once :=
  ⟨Or.inr ⟨loop_graph, by decide, Or.inr (by decide)⟩,
   process_file_rejected 8
     { loop_pair 3 7 with data := some { magic_ok := true, stamp := 8, records := [] } } skew_once
     (Or.inr ⟨loop_graph, by decide, Or.inr (by decide)⟩)⟩

/-! ## The arc-counter record of the data file -/

/-- C14: an arc-counter record that follows a matched FUNCTION record (the
current function is the `i`-th of the chain): when its length is not
`2 * num_counts` words, `read_count_file` jumps to `cleanup` (non-zero
return) and no count was touched; otherwise the record is accepted, the
buffer of the function has `num_counts` entries and each entry is its old
value (zero when the buffer is first allocated) plus the counter read at its
index, while `num_counts` and the other functions are as before. -/
theorem read_count_record_arc_counts (length : Nat) (values : List Int) (p : pair_state)
    (i : Nat) (hf : p.functions.getD i 0 < p.fns.length) :
    (length ≠ 2 * (p.fn (p.functions.getD i 0)).num_counts →
      read_count_record (data_record.arc_counts length values) (p, some i) = result.error) ∧
    (length = 2 * (p.fn (p.functions.getD i 0)).num_counts →
      ∃ p1 cs, read_count_record (data_record.arc_counts length values) (p, some i)
          = result.ok (p1, some i) ∧
        (p1.fn (p.functions.getD i 0)).counts = some cs ∧
        (p1.fn (p.functions.getD i 0)).num_counts = (p.fn (p.functions.getD i 0)).num_counts ∧
        cs.length = (p.fn (p.functions.getD i 0)).num_counts ∧
        (∀ ix, ix < (p.fn (p.functions.getD i 0)).num_counts →
          cs.getD ix 0 =
            (match (p.fn (p.functions.getD i 0)).counts with
              | none => 0
              | some old => old.getD ix 0) + values.getD ix 0) ∧
        ∀ g, g ≠ p.functions.getD i 0 → p1.fn g = p.fn g) := by
  constructor
  · intro h
    simp only [read_count_record, h, ne_eq, not_false_eq_true, if_true]
  · intro h
    refine ⟨p.set_fn (p.functions.getD i 0) (add_counts (p.fn (p.functions.getD i 0)) values),
      (List.range (p.fn (p.functions.getD i 0)).num_counts).map (fun ix =>
        (match (p.fn (p.functions.getD i 0)).counts with
          | none => List.replicate (p.fn (p.functions.getD i 0)).num_counts (0 : Int)
          | some cs => cs).getD ix 0 + values.getD ix 0), ?_, ?_, ?_, ?_, ?_, ?_⟩
    · simp only [read_count_record, h, ne_eq, not_true_eq_false, if_false]
    · rw [fn_set_fn, if_pos ⟨rfl, hf⟩]; rfl
    · rw [fn_set_fn, if_pos ⟨rfl, hf⟩]; rfl
    · simp
    · intro ix hix
      rw [List.getD_eq_getElem?_getD, List.getElem?_map, List.getElem?_range hix]
      simp only [Option.map_some', Option.getD_some]
      cases hc : (p.fn (p.functions.getD i 0)).counts with
      | none =>
        simp only [add_left_inj]
        rw [List.getD_eq_getElem?_getD, List.getElem?_replicate, if_pos hix]
        rfl
      | some old => rfl
    · intro g hg
      rw [fn_set_fn, if_neg (fun hh => hg hh.1.symm)]

/-- Witness of C14 on the function `G` of `skew_note`, whose buffer already
holds the counts 5 and 6, for a record of 4 words with the counters 1 and 2. -/
theorem read_count_record_arc_counts_witness :
    (skew_counted 5 6).functions.getD 0 0 < (skew_counted 5 6).fns.length ∧
    ((4 ≠ 2 * ((skew_counted 5 6).fn ((skew_counted 5 6).functions.getD 0 0)).num_counts →
      read_count_record (data_record.arc_counts 4 [1, 2]) (skew_counted 5 6, some 0) = result.error) ∧
    (4 = 2 * ((skew_counted 5 6).fn ((skew_counted 5 6).functions.getD 0 0)).num_counts →
      ∃ p1 cs, read_count_record (data_record.arc_counts 4 [1, 2]) (skew_counted 5 6, some 0)
          = result.ok (p1, some 0) ∧
        (p1.fn ((skew_counted 5 6).functions.getD 0 0)).counts = some cs ∧
        (p1.fn ((skew_counted 5 6).functions.getD 0 0)).num_counts =
          ((skew_counted 5 6).fn ((skew_counted 5 6).functions.getD 0 0)).num_counts ∧
        cs.length = ((skew_counted 5 6).fn ((skew_counted 5 6).functions.getD 0 0)).num_counts ∧
        (∀ ix, ix < ((skew_counted 5 6).fn ((skew_counted 5 6).functions.getD 0 0)).num_counts →
          cs.getD ix 0 =
            (match ((skew_counted 5 6).fn ((skew_counted 5 6).functions.getD 0 0)).counts with
              | none => 0
              | some old => old.getD ix 0) + [1, 2].getD ix 0) ∧
        ∀ g, g ≠ (skew_counted 5 6).functions.getD 0 0 → p1.fn g = (skew_counted 5 6).fn g)) :=
  ⟨by decide, read_count_record_arc_counts 4 [1, 2] (skew_counted 5 6) 0 (by decide)⟩

/-! ## Repeated and out-of-range records of the note file -/

theorem read_records_append (fuel : Nat) (gcno : List Char) (pre rest : List (note_record × Bool)) :
    ∀ rs : reader_state, read_records fuel gcno (pre ++ rest) rs =
      match read_records fuel gcno pre rs with
      | result.ok rs1 => read_records fuel gcno rest rs1
      | result.error => result.error
      | result.undefined => result.undefined := by
  induction pre with
  | nil => intro rs; rfl
  | cons rc pre ih =>
    intro rs
    obtain ⟨r, e⟩ := rc
    simp only [List.cons_append, read_records]
    cases read_record fuel gcno r rs with
    | ok rs1 =>
      simp only
      cases e with
      | true => rfl
      | false => simp only [Bool.false_eq_true, if_false]; exact ih rs1
    | error => rfl
    | undefined => rfl

/-- C15 as stated fails: the note file of scenario 5 with a second BLOCKS
record is not rejected; it is read as the file without that record. -/
theorem read_blocks_twice_counterexample :
    read_graph_file 8 (loop_pair 3 7).gcno (some dup_blocks_note) pair_state.empty ≠ result.error ∧
    read_graph_file 8 (loop_pair 3 7).gcno (some dup_blocks_note) pair_state.empty =
      result.ok loop_graph := by
  decide

/-- C15, amended: a BLOCKS record for a function that already has a block
array is ignored (the code prints a notice only): the state of the reader is
unchanged, and the file is read as if the record were not there. -/
theorem read_blocks_twice (fuel : Nat) (gcno : List Char) (pre post : List (note_record × Bool))
    (flags : List Nat) (rs0 rs : reader_state) (f : Nat)
    (hpre : read_records fuel gcno pre rs0 = result.ok rs) (hfn : rs.fn = some f)
    (hseen : (rs.pair.fn f).blocks_seen = true) :
    read_record fuel gcno (note_record.blocks flags) rs = result.ok rs ∧
    read_records fuel gcno (pre ++ (note_record.blocks flags, false) :: post) rs0 =
      read_records fuel gcno (pre ++ post) rs0 := by
  have h1 : read_record fuel gcno (note_record.blocks flags) rs = result.ok rs := by
    simp only [read_record, hfn, read_blocks, hseen, if_true]
  refine ⟨h1, ?_⟩
  rw [read_records_append, read_records_append, hpre]
  simp only [read_records, h1, Bool.false_eq_true, if_false]

/-- Witness of C15 (amended): the second BLOCKS record of `dup_blocks_note`. -/
theorem read_blocks_twice_witness :
    read_records 8 (loop_pair 3 7).gcno (dup_blocks_note.records.take 2) reader_start
      = result.ok blocks_read ∧
    blocks_read.fn = some 0 ∧ (blocks_read.pair.fn 0).blocks_seen = true ∧
    read_record 8 (loop_pair 3 7).gcno (note_record.blocks [0, 0, 0, 0, 0]) blocks_read
      = result.ok blocks_read ∧
    read_records 8 (loop_pair 3 7).gcno
      (dup_blocks_note.records.take 2 ++
        (note_record.blocks [0, 0, 0, 0, 0], false) :: dup_blocks_note.records.drop 3) reader_start =
      read_records 8 (loop_pair 3 7).gcno
        (dup_blocks_note.records.take 2 ++ dup_blocks_note.records.drop 3) reader_start :=
  ⟨by decide, by decide, by decide,
   read_blocks_twice 8 (loop_pair 3 7).gcno (dup_blocks_note.records.take 2)
     (dup_blocks_note.records.drop 3) [0, 0, 0, 0, 0] reader_start blocks_read 0
     (by decide) (by decide) (by decide)⟩

/-- C16 at a failing input: the second ARCS record of block 1 comes after an
ARCS record of block 1 without destination; `read_graph_file` does not return
non-zero, it reads the file as the note file of scenario 5.  (After an ARCS
record with a destination the second record is rejected: `split_arcs_note`.) -/
theorem read_arcs_after_empty :
    read_graph_file 8 (loop_pair 3 7).gcno (some empty_arcs_note) pair_state.empty
      = result.ok loop_graph ∧
    read_graph_file 8 (loop_pair 3 7).gcno (some split_arcs_note) pair_state.empty
      = result.error := by
  decide

theorem read_arc_num_blocks (src dest flags : Nat) (fn fn1 : function_info)
    (h : read_arc src dest flags fn = some fn1) : fn1.num_blocks = fn.num_blocks := by
  unfold read_arc at h
  split at h
  · simp at h
  · simp only [Option.some.injEq] at h
    subst h
    unfold function_info.num_blocks
    dsimp only
    split
    · split <;> simp
    · simp

theorem read_arc_list_far (src : Nat) (dests : List (Nat × Nat)) :
    ∀ fn : function_info, (∃ d ∈ dests, d.1 ≥ fn.num_blocks) → read_arc_list src dests fn = none := by
  induction dests with
  | nil => intro fn h; obtain ⟨d, hd, _⟩ := h; simp at hd
  | cons d rest ih =>
    intro fn h
    obtain ⟨dest, flags⟩ := d
    simp only [read_arc_list]
    cases hr : read_arc src dest flags fn with
    | none => rfl
    | some fn1 =>
      simp only
      apply ih
      obtain ⟨x, hx, hge⟩ := h
      rw [read_arc_num_blocks _ _ _ _ _ hr]
      rcases List.mem_cons.1 hx with he | hm
      · exfalso
        subst he
        unfold read_arc at hr
        simp only at hge
        rw [if_pos hge] at hr
        simp at hr
      · exact ⟨x, hm, hge⟩

theorem read_record_out_of_range (fuel : Nat) (gcno : List Char) (r : note_record)
    (rs : reader_state) (f : Nat) (hfn : rs.fn = some f) (h : out_of_range (rs.pair.fn f) r) :
    read_record fuel gcno r rs = result.error := by
  cases r with
  | arcs src dests =>
    simp only [read_record, hfn, read_arcs]
    by_cases hs : src ≥ (rs.pair.fn f).num_blocks
    · rw [if_pos (Or.inl hs)]
    · have hd : ∃ d ∈ dests, d.1 ≥ (rs.pair.fn f).num_blocks := by
        rcases h with h | h
        · exact absurd h hs
        · exact h
      split
      · rfl
      · rw [read_arc_list_far src dests _ hd]
  | lines blockno items =>
    have h1 : blockno ≥ (rs.pair.fn f).num_blocks := h
    simp only [read_record, hfn, read_lines]
    rw [if_pos (Or.inl h1)]
  | function _ _ _ _ _ => exact absurd h id
  | blocks _ => exact absurd h id
  | other _ => exact absurd h id

/-- C17: inside a function scope (`fn` is not null), an ARCS record that
names a source block or a destination block `>= num_blocks`, or a LINES record
that names a block `>= num_blocks`, makes `read_graph_file` return non-zero;
and after a successful read every arc has its source and its destination
inside the block array of its function, as has every annotated block. -/
theorem read_graph_file_range (fuel : Nat) (gcno : List Char) (nf : note_file) :
    (∀ (pre post : List (note_record × Bool)) (r : note_record) (e : Bool) (rs : reader_state)
        (f : Nat), nf.magic_ok = true → nf.records = pre ++ (r, e) :: post →
      read_records fuel gcno pre
        { pair := { pair_state.empty with gcno_stamp := nf.stamp }, fn := none,
          current_tag := false, src := none } = result.ok rs →
      rs.fn = some f → out_of_range (rs.pair.fn f) r →
      read_graph_file fuel gcno (some nf) pair_state.empty = result.error) ∧
    (∀ p, read_graph_file fuel gcno (some nf) pair_state.empty = result.ok p →
      ∀ f, (∀ a, a < (p.fn f).arcs.length →
          (arc (p.fn f).arcs a).src < (p.fn f).num_blocks ∧
          (arc (p.fn f).arcs a).dst < (p.fn f).num_blocks) ∧
        ∀ j, (blk (p.fn f).blocks j).line_encoding ≠ none → j < (p.fn f).num_blocks) := by
  constructor
  · intro pre post r e rs f hm hrec hpre hfn hbad
    unfold read_graph_file
    simp only [hm, Bool.not_true, Bool.false_eq_true, if_false]
    rw [hrec, read_records_append, hpre]
    simp only [read_records, read_record_out_of_range fuel gcno r rs f hfn hbad]
  · intro p h f
    have hi := (read_graph_file_inv fuel gcno (some nf) p h f).1
    refine ⟨fun a ha => ⟨(hi.1 a ha).1, (hi.1 a ha).2.1⟩, ?_⟩
    intro j hj
    by_contra hlt
    apply hj
    unfold blk
    rw [List.getD_eq_getElem?_getD, List.getElem?_eq_none (by
      unfold function_info.num_blocks at hlt; omega)]
    rfl

/-- Witness of C17: the destination 3 of the second ARCS record of
`far_arc_note`, whose function has three blocks. -/
theorem read_graph_file_range_witness :
    far_arc_note.magic_ok = true ∧
    far_arc_note.records = far_arc_note.records.take 3 ++
      (note_record.arcs 1 [(1, 0), (3, 1)], false) :: far_arc_note.records.drop 4 ∧
    read_records 8 (loop_pair 3 7).gcno (far_arc_note.records.take 3)
      { pair := { pair_state.empty with gcno_stamp := far_arc_note.stamp }, fn := none,
        current_tag := false, src := none } = result.ok far_arc_read ∧
    far_arc_read.fn = some 0 ∧
    out_of_range (far_arc_read.pair.fn 0) (note_record.arcs 1 [(1, 0), (3, 1)]) ∧
    read_graph_file 8 (loop_pair 3 7).gcno (some far_arc_note) pair_state.empty = result.error :=
  ⟨by decide, by decide, by decide, by decide,
   Or.inr ⟨(3, 1), by decide, by decide⟩,
   (read_graph_file_range 8 (loop_pair 3 7).gcno far_arc_note).1 (far_arc_note.records.take 3)
     (far_arc_note.records.drop 4) (note_record.arcs 1 [(1, 0), (3, 1)]) false far_arc_read 0
     (by decide) (by decide) (by decide) (by decide) (Or.inr ⟨(3, 1), by decide, by decide⟩)⟩

/-! ## The path reduction of find_source -/

theorem dotdot_eq : "/../".toList = ['/', '.', '.', '/'] := rfl

theorem starts_with_dotdot (s : List Char) :
    starts_with ['/', '.', '.', '/'] s = true ↔
      s[0]? = some '/' ∧ s[1]? = some '.' ∧ s[2]? = some '.' ∧ s[3]? = some '/' := by
  match s with
  | [] => simp [starts_with]
  | [a] => simp [starts_with]
  | [a, b] => simp [starts_with]
  | [a, b, c] => simp [starts_with]
  | a :: b :: c :: d :: t =>
    simp only [starts_with, Bool.and_true, Bool.and_eq_true, beq_iff_eq, List.getElem?_cons_zero,
      List.getElem?_cons_succ, Option.some.injEq]
    constructor
    · rintro ⟨h1, h2, h3, h4⟩; exact ⟨h1.symm, h2.symm, h3.symm, h4.symm⟩
    · rintro ⟨h1, h2, h3, h4⟩; exact ⟨h1.symm, h2.symm, h3.symm, h4.symm⟩

/-- An occurrence of `/../` at position `p`, read character by character. -/
theorem occurs_iff (s : List Char) (p : Nat) :
    starts_with ['/', '.', '.', '/'] (s.drop p) = true ↔
      s[p]? = some '/' ∧ s[p + 1]? = some '.' ∧ s[p + 2]? = some '.' ∧ s[p + 3]? = some '/' := by
  rw [starts_with_dotdot]
  simp only [List.getElem?_drop, Nat.add_zero]

theorem str_find_none (s : List Char) :
    str_find ['/', '.', '.', '/'] s = none ↔
      ∀ p, starts_with ['/', '.', '.', '/'] (s.drop p) = false := by
  induction s with
  | nil =>
    simp only [str_find, List.isEmpty_cons, Bool.false_eq_true, if_false, true_iff]
    intro p; simp [starts_with]
  | cons c cs ih =>
    simp only [str_find]
    by_cases h : starts_with ['/', '.', '.', '/'] (c :: cs) = true
    · simp only [h, if_true]
      constructor
      · intro hh; simp at hh
      · intro hh; have := hh 0; simp [h] at this
    · simp only [h, if_false, Option.map_eq_none', Bool.false_eq_true]
      rw [ih]
      constructor
      · intro hh p
        cases p with
        | zero => simpa using h
        | succ q => simpa using hh q
      · intro hh p
        simpa using hh (p + 1)

theorem str_find_some (s : List Char) (f : Nat) :
    str_find ['/', '.', '.', '/'] s = some f ↔
      starts_with ['/', '.', '.', '/'] (s.drop f) = true ∧
      ∀ p, p < f → starts_with ['/', '.', '.', '/'] (s.drop p) = false := by
  induction s generalizing f with
  | nil =>
    simp only [str_find, List.isEmpty_cons, Bool.false_eq_true, if_false, List.drop_nil]
    simp [starts_with]
  | cons c cs ih =>
    simp only [str_find]
    by_cases h : starts_with ['/', '.', '.', '/'] (c :: cs) = true
    · simp only [h, if_true, Option.some.injEq]
      constructor
      · intro hh; subst hh; exact ⟨by simpa using h, fun p hp => absurd hp (Nat.not_lt_zero p)⟩
      · rintro ⟨_, h2⟩
        by_contra hne
        have := h2 0 (Nat.pos_of_ne_zero (fun e => hne e.symm))
        simp [h] at this
    · simp only [h, if_false, Bool.false_eq_true, Option.map_eq_some']
      constructor
      · rintro ⟨a, ha, rfl⟩
        obtain ⟨h1, h2⟩ := (ih a).1 ha
        refine ⟨by simpa using h1, ?_⟩
        intro p hp
        cases p with
        | zero => simpa using h
        | succ q => simpa using h2 q (by omega)
      · rintro ⟨h1, h2⟩
        cases f with
        | zero => simp at h1; exact absurd h1 h
        | succ a =>
          refine ⟨a, (ih a).2 ⟨by simpa using h1, ?_⟩, rfl⟩
          intro p hp
          simpa using h2 (p + 1) (by omega)

theorem last_below_none (q : Nat → Bool) (n : Nat) :
    ((List.range n).reverse.filter q).head? = none ↔ ∀ i, i < n → q i = false := by
  induction n with
  | zero => simp
  | succ n ih =>
    rw [List.range_succ, List.reverse_append, List.reverse_singleton, List.singleton_append,
      List.filter_cons]
    by_cases h : q n = true
    · simp only [h, if_true, List.head?_cons]
      constructor
      · intro hh; simp at hh
      · intro hh; have := hh n (by omega); rw [h] at this; simp at this
    · simp only [h, if_false, Bool.false_eq_true]
      rw [ih]
      constructor
      · intro hh i hi
        by_cases e : i = n
        · subst e; simpa using h
        · exact hh i (by omega)
      · intro hh i hi; exact hh i (by omega)

theorem last_below_some (q : Nat → Bool) (n b : Nat) :
    ((List.range n).reverse.filter q).head? = some b ↔
      b < n ∧ q b = true ∧ ∀ i, b < i → i < n → q i = false := by
  induction n with
  | zero => simp
  | succ n ih =>
    rw [List.range_succ, List.reverse_append, List.reverse_singleton, List.singleton_append,
      List.filter_cons]
    by_cases h : q n = true
    · simp only [h, if_true, List.head?_cons, Option.some.injEq]
      constructor
      · intro hh; subst hh; exact ⟨by omega, h, fun i h1 h2 => by omega⟩
      · rintro ⟨h1, _, h3⟩
        by_contra hne
        have := h3 n (by omega) (by omega)
        rw [h] at this; simp at this
    · simp only [h, if_false, Bool.false_eq_true]
      rw [ih]
      constructor
      · rintro ⟨h1, h2, h3⟩
        refine ⟨by omega, h2, ?_⟩
        intro i hi hn
        by_cases e : i = n
        · subst e; simpa using h
        · exact h3 i hi (by omega)
      · rintro ⟨h1, h2, h3⟩
        have hb : b ≠ n := fun e => h (e ▸ h2)
        exact ⟨by omega, h2, fun i hi hn => h3 i hi (by omega)⟩

theorem str_rfind_none (ch : Char) (s : List Char) (pos : Nat) :
    str_rfind ch s pos = none ↔ ∀ i, i ≤ pos → s[i]? ≠ some ch := by
  unfold str_rfind
  rw [last_below_none]
  constructor
  · intro h i hi hs
    have hlt : i < s.length := by
      by_contra hge
      rw [List.getElem?_eq_none (by omega)] at hs
      simp at hs
    have := h i hlt
    simp [hi, List.getD_eq_getElem?_getD, hs] at this
  · intro h i hi
    by_cases hp : i ≤ pos
    · have := h i hp
      rw [List.getElem?_eq_getElem hi] at this
      simp only [hp, decide_True, Bool.true_and, List.getD_eq_getElem?_getD,
        List.getElem?_eq_getElem hi, Option.getD_some, beq_eq_false_iff_ne, ne_eq]
      intro e; exact this (by rw [e])
    · simp [hp]

theorem str_rfind_some (ch : Char) (s : List Char) (pos b : Nat) :
    str_rfind ch s pos = some b ↔
      b ≤ pos ∧ s[b]? = some ch ∧ ∀ i, b < i → i ≤ pos → s[i]? ≠ some ch := by
  unfold str_rfind
  rw [last_below_some]
  constructor
  · rintro ⟨h1, h2, h3⟩
    simp only [Bool.and_eq_true, decide_eq_true_eq, beq_iff_eq, List.getD_eq_getElem?_getD,
      List.getElem?_eq_getElem h1, Option.getD_some] at h2
    refine ⟨h2.1, by rw [List.getElem?_eq_getElem h1, h2.2], ?_⟩
    intro i hi hp hs
    have hlt : i < s.length := by
      by_contra hge
      rw [List.getElem?_eq_none (by omega)] at hs
      simp at hs
    have := h3 i hi hlt
    simp [hp, List.getD_eq_getElem?_getD, hs] at this
  · rintro ⟨h1, h2, h3⟩
    have hlt : b < s.length := by
      by_contra hge
      rw [List.getElem?_eq_none (by omega)] at h2
      simp at h2
    refine ⟨hlt, ?_, ?_⟩
    · simp [h1, List.getD_eq_getElem?_getD, h2]
    · intro i hi hn
      by_cases hp : i ≤ pos
      · have := h3 i hi hp
        rw [List.getElem?_eq_getElem hn] at this
        simp only [hp, decide_True, Bool.true_and, List.getD_eq_getElem?_getD,
          List.getElem?_eq_getElem hn, Option.getD_some, beq_eq_false_iff_ne, ne_eq]
        intro e; exact this (by rw [e])
      · simp [hp]

theorem reduce_path_succ (fuel : Nat) (s : List Char) :
    reduce_path (fuel + 1) s =
      match str_find ['/', '.', '.', '/'] s with
      | none => some s
      | some found =>
        match str_rfind '/' s ((found + 2 ^ 64 - 1) % 2 ^ 64) with
        | some before =>
          reduce_path fuel (str_erase s before ((found + 2 ^ 64 - before + 3) % 2 ^ 64))
        | none => some s := rfl

theorem str_erase_length (s : List Char) (pos len : Nat) :
    (str_erase s pos len).length ≤ s.length := by
  unfold str_erase
  rw [List.length_append, List.length_take, List.length_drop]
  omega

theorem occurs_lt (s : List Char) (p : Nat)
    (h : starts_with ['/', '.', '.', '/'] (s.drop p) = true) : p + 3 < s.length := by
  have := ((occurs_iff s p).1 h).2.2.2
  by_contra hge
  rw [List.getElem?_eq_none (by omega)] at this
  simp at this

/-- What the reduction loop returns: a name without `/../`, or a name in
which no `/` stands before the first `/../` (the `break`). -/
theorem reduce_path_result (fuel : Nat) :
    ∀ (s r : List Char), s.length < 2 ^ 64 → reduce_path fuel s = some r →
      str_find ['/', '.', '.', '/'] r = none ∨
      ∃ f, str_find ['/', '.', '.', '/'] r = some f ∧ 0 < f ∧ ∀ j, j < f → r[j]? ≠ some '/' := by
  induction fuel with
  | zero => intro s r _ h; simp [reduce_path] at h
  | succ fuel ih =>
    intro s r hlen h
    rw [reduce_path_succ] at h
    cases hf : str_find ['/', '.', '.', '/'] s with
    | none =>
      rw [hf] at h
      simp only [Option.some.injEq] at h
      subst h
      exact Or.inl hf
    | some found =>
      rw [hf] at h
      simp only at h
      have hocc := (str_find_some s found).1 hf
      have hfl := occurs_lt s found hocc.1
      cases hr : str_rfind '/' s ((found + 2 ^ 64 - 1) % 2 ^ 64) with
      | none =>
        rw [hr] at h
        simp only [Option.some.injEq] at h
        subst h
        rw [str_rfind_none] at hr
        right
        refine ⟨found, hf, ?_, ?_⟩
        · by_contra h0
          have h0 : found = 0 := by omega
          subst h0
          exact hr 0 (Nat.zero_le _) ((occurs_iff s 0).1 hocc.1).1
        · intro j hj
          apply hr j
          omega
      | some before =>
        rw [hr] at h
        simp only at h
        exact ih _ r (lt_of_le_of_lt (str_erase_length _ _ _) hlen) h

theorem lookup_source_name (p : pair_state) (filename : List Char) (s : Nat)
    (h : lookup_source p filename = some s) : (p.source s).name = filename := by
  unfold lookup_source at h
  have := List.find?_some h
  simpa using this

theorem find_source_name (fuel : Nat) (file_name gcno : List Char) (p p1 : pair_state) (s : Nat)
    (h : find_source fuel file_name gcno p = some (s, p1)) :
    reduce_path fuel (qualify_path file_name gcno) = some (p1.source s).name := by
  unfold find_source at h
  cases hr : reduce_path fuel (qualify_path file_name gcno) with
  | none => rw [hr] at h; simp at h
  | some filename =>
    rw [hr] at h
    simp only at h
    cases hl : lookup_source p filename with
    | some s1 =>
      rw [hl] at h
      simp only [Option.some.injEq, Prod.mk.injEq] at h
      obtain ⟨h1, h2⟩ := h
      subst h1; subst h2
      rw [lookup_source_name p filename s1 hl]
    | none =>
      rw [hl] at h
      simp only [Option.some.injEq, Prod.mk.injEq] at h
      obtain ⟨h1, h2⟩ := h
      subst h1; subst h2
      unfold pair_state.source
      simp

theorem starts_with_iff (pat : List Char) : ∀ s : List Char, starts_with pat s = true ↔ pat <+: s := by
  induction pat with
  | nil => intro s; simp [starts_with]
  | cons a pat ih =>
    intro s
    cases s with
    | nil => simp [starts_with]
    | cons c cs =>
      simp only [starts_with, Bool.and_eq_true, beq_iff_eq, ih, List.cons_prefix_cons]

theorem has_dotdot_iff (s : List Char) :
    has_dotdot s ↔ ∃ p, starts_with ['/', '.', '.', '/'] (s.drop p) = true := by
  unfold has_dotdot
  constructor
  · rintro ⟨a, b, h⟩
    refine ⟨a.length, ?_⟩
    rw [starts_with_iff, ← h, List.append_assoc, List.drop_left]
    exact List.prefix_append _ _
  · rintro ⟨p, h⟩
    rw [starts_with_iff] at h
    obtain ⟨t, ht⟩ := h
    refine ⟨s.take p, t, ?_⟩
    rw [List.append_assoc, ht, List.take_append_drop]

theorem str_find_none_iff (s : List Char) :
    str_find ['/', '.', '.', '/'] s = none ↔ ¬ has_dotdot s := by
  rw [str_find_none, has_dotdot_iff]
  constructor
  · rintro h ⟨p, hp⟩; rw [h p] at hp; simp at hp
  · intro h p
    cases hs : starts_with ['/', '.', '.', '/'] (s.drop p) with
    | false => rfl
    | true => exact absurd ⟨p, hs⟩ h

/-- C12 as stated fails: for the note file `./a.gcno` and the source name
`../x.h`, `find_source` returns a source whose name is `./../x.h`, which
holds `/../`. -/
theorem find_source_reduced_counterexample :
    (find_source 8 "../x.h".toList "./a.gcno".toList pair_state.empty).map
        (fun r => (r.2.source r.1).name) = some "./../x.h".toList ∧
    has_dotdot "./../x.h".toList := by
  decide

/-- C12, amended: when `find_source` returns, the name stored in the returned
source either holds no `/../`, or no `/` stands before its first `/../` (the
reduction loop left at its `break`); a stored name that begins with `/`
holds no `/../`. -/
theorem find_source_reduced (fuel : Nat) (file_name gcno : List Char) (p p1 : pair_state) (s : Nat)
    (hlen : (qualify_path file_name gcno).length < 2 ^ 64)
    (h : find_source fuel file_name gcno p = some (s, p1)) :
    (has_dotdot (p1.source s).name →
      ∃ f, str_find ['/', '.', '.', '/'] (p1.source s).name = some f ∧ 0 < f ∧
        ∀ j, j < f → (p1.source s).name[j]? ≠ some '/') ∧
    ((p1.source s).name.head? = some '/' → ¬ has_dotdot (p1.source s).name) := by
  have hr := reduce_path_result fuel _ _ hlen (find_source_name fuel file_name gcno p p1 s h)
  have h1 : has_dotdot (p1.source s).name →
      ∃ f, str_find ['/', '.', '.', '/'] (p1.source s).name = some f ∧ 0 < f ∧
        ∀ j, j < f → (p1.source s).name[j]? ≠ some '/' := by
    intro hd
    rcases hr with hn | hs
    · exact absurd hd ((str_find_none_iff _).1 hn)
    · exact hs
  refine ⟨h1, ?_⟩
  intro hh hd
  obtain ⟨f, _, hpos, hno⟩ := h1 hd
  apply hno 0 hpos
  cases hnm : (p1.source s).name with
  | nil => rw [hnm] at hh; simp at hh
  | cons c cs => rw [hnm] at hh; simpa using hh

/-- Witness of C12 (amended): the source name `/d/x/../a.c` is stored as
`/d/a.c`. -/
theorem find_source_reduced_witness :
    (qualify_path "/d/x/../a.c".toList "/d/a.gcno".toList).length < 2 ^ 64 ∧
    find_source 8 "/d/x/../a.c".toList "/d/a.gcno".toList pair_state.empty =
      some (0, first_source "/d/a.c".toList) ∧
    ((has_dotdot ((first_source "/d/a.c".toList).source 0).name →
      ∃ f, str_find ['/', '.', '.', '/'] ((first_source "/d/a.c".toList).source 0).name = some f ∧
        0 < f ∧ ∀ j, j < f → ((first_source "/d/a.c".toList).source 0).name[j]? ≠ some '/') ∧
    (((first_source "/d/a.c".toList).source 0).name.head? = some '/' →
      ¬ has_dotdot ((first_source "/d/a.c".toList).source 0).name)) :=
  ⟨by decide, by decide,
   find_source_reduced 8 "/d/x/../a.c".toList "/d/a.gcno".toList pair_state.empty
     (first_source "/d/a.c".toList) 0 (by decide) (by decide)⟩

theorem inserted_low (pre post X : List Char) (i : Nat) (hi : i ≤ pre.length) :
    (pre ++ '/' :: (X ++ '/' :: '.' :: '.' :: '/' :: post))[i]? = (pre ++ '/' :: post)[i]? := by
  by_cases h : i < pre.length
  · rw [List.getElem?_append_left h, List.getElem?_append_left h]
  · have e : i = pre.length := by omega
    subst e
    rw [List.getElem?_append_right (le_refl _), List.getElem?_append_right (le_refl _)]
    simp

theorem inserted_name (pre post X : List Char) (t : Nat) (ht : t < X.length) :
    (pre ++ '/' :: (X ++ '/' :: '.' :: '.' :: '/' :: post))[pre.length + 1 + t]? = X[t]? := by
  rw [List.getElem?_append_right (by omega)]
  have e : pre.length + 1 + t - pre.length = t + 1 := by omega
  rw [e, List.getElem?_cons_succ, List.getElem?_append_left ht]

theorem inserted_tail (pre post X : List Char) (t : Nat) :
    (pre ++ '/' :: (X ++ '/' :: '.' :: '.' :: '/' :: post))[pre.length + 1 + X.length + t]? =
      ('/' :: '.' :: '.' :: '/' :: post)[t]? := by
  rw [List.getElem?_append_right (by omega)]
  have e : pre.length + 1 + X.length + t - pre.length = (X.length + t) + 1 := by omega
  rw [e, List.getElem?_cons_succ, List.getElem?_append_right (by omega)]
  congr 1
  omega

theorem inserted_erase (pre post X : List Char) :
    str_erase (pre ++ '/' :: (X ++ '/' :: '.' :: '.' :: '/' :: post)) pre.length (X.length + 4) =
      pre ++ '/' :: post := by
  unfold str_erase
  rw [List.take_left]
  congr 1
  rw [List.drop_append_eq_append_drop, List.drop_of_length_le (by omega)]
  have e : pre.length + (X.length + 4) - pre.length = (X.length + 3) + 1 := by omega
  rw [e, List.nil_append, List.drop_succ_cons, List.drop_append_eq_append_drop,
    List.drop_of_length_le (by omega)]
  have e2 : X.length + 3 - X.length = 3 := by omega
  rw [e2]
  rfl

theorem inserted_find (pre post X : List Char) (hX0 : X ≠ []) (hXs : '/' ∉ X)
    (hXd : X ≠ ['.', '.'])
    (hno : ∀ p, p + 3 ≤ pre.length →
      starts_with ['/', '.', '.', '/'] ((pre ++ '/' :: post).drop p) = false) :
    str_find ['/', '.', '.', '/'] (pre ++ '/' :: (X ++ '/' :: '.' :: '.' :: '/' :: post)) =
      some (pre.length + 1 + X.length) := by
  rw [str_find_some]
  constructor
  · rw [occurs_iff]
    have h0 := inserted_tail pre post X 0
    have h1 := inserted_tail pre post X 1
    have h2 := inserted_tail pre post X 2
    have h3 := inserted_tail pre post X 3
    simp only [Nat.add_zero] at h0
    exact ⟨by rw [h0]; simp, by rw [h1]; simp, by rw [h2]; simp, by rw [h3]; simp⟩
  · intro p hp
    cases hs : starts_with ['/', '.', '.', '/']
        ((pre ++ '/' :: (X ++ '/' :: '.' :: '.' :: '/' :: post)).drop p) with
    | false => rfl
    | true =>
      exfalso
      obtain ⟨c0, c1, c2, c3⟩ := (occurs_iff _ p).1 hs
      have hn : (pre ++ '/' :: (X ++ '/' :: '.' :: '.' :: '/' :: post))[pre.length]? = some '/' := by
        rw [inserted_low pre post X _ (le_refl _), List.getElem?_append_right (le_refl _)]
        simp
      by_cases q1 : p + 3 ≤ pre.length
      · have := hno p q1
        rw [inserted_low _ _ _ _ (by omega)] at c0 c1 c2 c3
        rw [(occurs_iff _ p).2 ⟨c0, c1, c2, c3⟩] at this
        simp at this
      · by_cases q2 : p < pre.length
        · by_cases q3 : p + 1 = pre.length
          · rw [q3, hn] at c1; simp at c1
          · have q4 : p + 2 = pre.length := by omega
            rw [q4, hn] at c2; simp at c2
        · by_cases q3 : p = pre.length
          · subst q3
            match X, hX0, hXs, hXd with
            | [a], _, _, _ =>
              have := inserted_tail pre post [a] 0
              simp only [List.length_singleton, Nat.add_zero] at this
              rw [this] at c2
              simp at c2
            | [a, b], _, _, hd =>
              have e0 := inserted_name pre post [a, b] 0 (by simp)
              have e1 := inserted_name pre post [a, b] 1 (by simp)
              simp only [Nat.add_zero] at e0
              rw [e0] at c1
              rw [e1] at c2
              simp at c1 c2
              exact hd (by rw [c1, c2])
            | a :: b :: c :: t, _, hs3, _ =>
              have e2 := inserted_name pre post (a :: b :: c :: t) 2 (by simp)
              rw [e2] at c3
              simp at c3
              apply hs3
              rw [c3]
              simp
          · have q5 : p = pre.length + 1 + (p - pre.length - 1) := by omega
            have q6 : p - pre.length - 1 < X.length := by omega
            rw [q5, inserted_name pre post X _ q6, List.getElem?_eq_getElem q6] at c0
            simp only [Option.some.injEq] at c0
            apply hXs
            rw [← c0]
            exact List.getElem_mem _

theorem inserted_rfind (pre post X : List Char) (hXs : '/' ∉ X) :
    str_rfind '/' (pre ++ '/' :: (X ++ '/' :: '.' :: '.' :: '/' :: post)) (pre.length + X.length) =
      some pre.length := by
  rw [str_rfind_some]
  refine ⟨by omega, ?_, ?_⟩
  · rw [inserted_low pre post X _ (le_refl _), List.getElem?_append_right (le_refl _)]
    simp
  · intro i h1 h2 hc
    have q5 : i = pre.length + 1 + (i - pre.length - 1) := by omega
    have q6 : i - pre.length - 1 < X.length := by omega
    rw [q5, inserted_name pre post X _ q6, List.getElem?_eq_getElem q6] at hc
    simp only [Option.some.injEq] at hc
    apply hXs
    rw [← hc]
    exact List.getElem_mem _

/-- One turn of the reduction loop on a path with an inserted `X/../`, when
no `/../` occurs before the place of the insertion: the segment is erased. -/
theorem inserted_step (pre post X : List Char) (hX0 : X ≠ []) (hXs : '/' ∉ X)
    (hXd : X ≠ ['.', '.'])
    (hno : ∀ p, p + 3 ≤ pre.length →
      starts_with ['/', '.', '.', '/'] ((pre ++ '/' :: post).drop p) = false)
    (hlen : (pre ++ '/' :: (X ++ '/' :: '.' :: '.' :: '/' :: post)).length < 2 ^ 64) (fuel : Nat) :
    reduce_path (fuel + 1) (pre ++ '/' :: (X ++ '/' :: '.' :: '.' :: '/' :: post)) =
      reduce_path fuel (pre ++ '/' :: post) := by
  have hl : pre.length + X.length + 5 < 2 ^ 64 := by
    simp only [List.length_append, List.length_cons] at hlen
    omega
  rw [reduce_path_succ, inserted_find pre post X hX0 hXs hXd hno]
  simp only
  have e1 : (pre.length + 1 + X.length + 2 ^ 64 - 1) % 2 ^ 64 = pre.length + X.length := by omega
  rw [e1, inserted_rfind pre post X hXs]
  simp only
  have e2 : (pre.length + 1 + X.length + 2 ^ 64 - pre.length + 3) % 2 ^ 64 = X.length + 4 := by
    omega
  rw [e2, inserted_erase]

theorem str_find_le (s : List Char) (p : Nat)
    (h : starts_with ['/', '.', '.', '/'] (s.drop p) = true) :
    ∃ j, str_find ['/', '.', '.', '/'] s = some j ∧ j ≤ p := by
  cases hf : str_find ['/', '.', '.', '/'] s with
  | none => rw [str_find_none] at hf; rw [hf p] at h; simp at h
  | some j =>
    refine ⟨j, rfl, ?_⟩
    by_contra hlt
    have := ((str_find_some s j).1 hf).2 p (by omega)
    rw [this] at h; simp at h

theorem occurs_congr (s t : List Char) (p : Nat) (h : ∀ i, i ≤ p + 3 → s[i]? = t[i]?) :
    starts_with ['/', '.', '.', '/'] (s.drop p) = starts_with ['/', '.', '.', '/'] (t.drop p) := by
  rw [Bool.eq_iff_iff, occurs_iff, occurs_iff, h p (by omega), h (p + 1) (by omega),
    h (p + 2) (by omega), h (p + 3) (by omega)]

theorem str_find_congr (s t : List Char) (j : Nat) (h : ∀ i, i ≤ j + 3 → s[i]? = t[i]?)
    (hf : str_find ['/', '.', '.', '/'] s = some j) : str_find ['/', '.', '.', '/'] t = some j := by
  rw [str_find_some] at hf ⊢
  refine ⟨by rw [← occurs_congr s t j h]; exact hf.1, ?_⟩
  intro p hp
  rw [← occurs_congr s t p (fun i hi => h i (by omega))]
  exact hf.2 p hp

theorem str_rfind_congr (s t : List Char) (q : Nat) (h : ∀ i, i ≤ q → s[i]? = t[i]?) :
    str_rfind '/' t q = str_rfind '/' s q := by
  cases hs : str_rfind '/' s q with
  | none =>
    rw [str_rfind_none] at hs ⊢
    intro i hi; rw [← h i hi]; exact hs i hi
  | some b =>
    rw [str_rfind_some] at hs ⊢
    refine ⟨hs.1, by rw [← h b hs.1]; exact hs.2.1, ?_⟩
    intro i h1 h2; rw [← h i h2]; exact hs.2.2 i h1 h2

theorem str_erase_append (pre t : List Char) (b len : Nat) (h : b + len ≤ pre.length) :
    str_erase (pre ++ t) b len = str_erase pre b len ++ t := by
  unfold str_erase
  rw [List.take_append_of_le_length (by omega), List.drop_append_of_le_length h,
    List.append_assoc]

/-- A path that begins with `/../` keeps the reduction loop turning. -/
theorem reduce_path_rooted (fuel : Nat) :
    ∀ s : List Char, s.length < 2 ^ 64 → starts_with ['/', '.', '.', '/'] s = true →
      reduce_path fuel s = none := by
  induction fuel with
  | zero => intro s _ _; rfl
  | succ fuel ih =>
    intro s hlen h
    have h0 : starts_with ['/', '.', '.', '/'] (s.drop 0) = true := by simpa using h
    have hc := (occurs_iff s 0).1 h0
    have hf : str_find ['/', '.', '.', '/'] s = some 0 :=
      (str_find_some s 0).2 ⟨h0, fun p hp => absurd hp (Nat.not_lt_zero p)⟩
    rw [reduce_path_succ, hf]
    simp only
    have e1 : (0 + 2 ^ 64 - 1) % 2 ^ 64 = 2 ^ 64 - 1 := by omega
    rw [e1]
    cases hr : str_rfind '/' s (2 ^ 64 - 1) with
    | none =>
      rw [str_rfind_none] at hr
      exact absurd hc.1 (hr 0 (Nat.zero_le _))
    | some b =>
      simp only
      have hb := (str_rfind_some _ _ _ _).1 hr
      have hl3 := occurs_lt s 0 h0
      have hb3 : 3 ≤ b := by
        by_contra hlt
        exact hb.2.2 3 (by omega) (by omega) (by simpa using hc.2.2.2)
      have hbl : b < s.length := by
        by_contra hge
        have := hb.2.1
        rw [List.getElem?_eq_none (by omega)] at this
        simp at this
      apply ih _ (lt_of_le_of_lt (str_erase_length _ _ _) hlen)
      have h1 : starts_with ['/', '.', '.', '/'] ((str_erase s b ((0 + 2 ^ 64 - b + 3) % 2 ^ 64)).drop 0)
          = true := by
        rw [occurs_congr _ s 0, h0]
        intro i hi
        by_cases e : b = 3
        · subst e
          have e2 : (0 + 2 ^ 64 - 3 + 3) % 2 ^ 64 = 0 := by omega
          rw [e2]
          unfold str_erase
          rw [Nat.add_zero, List.take_append_drop]
        · unfold str_erase
          rw [List.getElem?_append_left (by rw [List.length_take]; omega), List.getElem?_take]
          rw [if_pos (by omega)]
      simpa using h1

theorem str_erase_low (s : List Char) (b len i : Nat) (hi : i < b) (hb : b ≤ s.length) :
    (str_erase s b len)[i]? = s[i]? := by
  unfold str_erase
  rw [List.getElem?_append_left (by rw [List.length_take]; omega), List.getElem?_take,
    if_pos hi]

/-- The reduction of a path with one inserted `X/../`: when the path without
the segment reduces to a name without `/../`, the path with the segment
reduces to the same name, one turn of the loop later. -/
theorem reduce_inserted (post X r : List Char) (hX0 : X ≠ []) (hXs : '/' ∉ X)
    (hXd : X ≠ ['.', '.']) (hr : str_find ['/', '.', '.', '/'] r = none) (fuel : Nat) :
    ∀ pre : List Char,
      (pre ++ '/' :: (X ++ '/' :: '.' :: '.' :: '/' :: post)).length < 2 ^ 64 →
      reduce_path fuel (pre ++ '/' :: post) = some r →
      reduce_path (fuel + 1) (pre ++ '/' :: (X ++ '/' :: '.' :: '.' :: '/' :: post)) = some r := by
  induction fuel with
  | zero => intro pre _ h; simp [reduce_path] at h
  | succ fuel ih =>
    intro pre hlen h
    have hlen0 : (pre ++ '/' :: post).length < 2 ^ 64 := by
      simp only [List.length_append, List.length_cons] at hlen ⊢
      omega
    have hpl : pre.length < 2 ^ 64 := by
      simp only [List.length_append, List.length_cons] at hlen0
      omega
    by_cases hno : ∀ p, p + 3 ≤ pre.length →
        starts_with ['/', '.', '.', '/'] ((pre ++ '/' :: post).drop p) = false
    · rw [inserted_step pre post X hX0 hXs hXd hno hlen]; exact h
    · have hex : ∃ p, p + 3 ≤ pre.length ∧
          starts_with ['/', '.', '.', '/'] ((pre ++ '/' :: post).drop p) = true := by
        by_contra hc
        apply hno
        intro p hp
        cases hs : starts_with ['/', '.', '.', '/'] ((pre ++ '/' :: post).drop p) with
        | false => rfl
        | true => exact absurd ⟨p, hp, hs⟩ hc
      obtain ⟨p, hp, hocc⟩ := hex
      obtain ⟨j, hj, hjp⟩ := str_find_le _ p hocc
      have hsame : ∀ i, i ≤ j + 3 →
          (pre ++ '/' :: post)[i]? = (pre ++ '/' :: (X ++ '/' :: '.' :: '.' :: '/' :: post))[i]? :=
        fun i hi => (inserted_low pre post X i (by omega)).symm
      have hj' := str_find_congr _ _ j hsame hj
      rw [reduce_path_succ, hj] at h
      simp only at h
      rw [reduce_path_succ, hj']
      simp only
      by_cases hj0 : j = 0
      · exfalso
        subst hj0
        have := reduce_path_rooted (fuel + 1) (pre ++ '/' :: post) hlen0
          (by simpa using ((str_find_some _ 0).1 hj).1)
        rw [reduce_path_succ, hj] at this
        simp only at this
        rw [this] at h
        simp at h
      · have e1 : (j + 2 ^ 64 - 1) % 2 ^ 64 = j - 1 := by omega
        rw [e1] at h ⊢
        rw [str_rfind_congr (pre ++ '/' :: post) _ (j - 1) (fun i hi => hsame i (by omega))]
        cases hb : str_rfind '/' (pre ++ '/' :: post) (j - 1) with
        | none =>
          exfalso
          rw [hb] at h
          simp only [Option.some.injEq] at h
          subst h
          rw [hr] at hj
          simp at hj
        | some b =>
          rw [hb] at h
          simp only at h ⊢
          have hbj := ((str_rfind_some _ _ _ _).1 hb).1
          have e2 : (j + 2 ^ 64 - b + 3) % 2 ^ 64 = j - b + 3 := by omega
          rw [e2] at h ⊢
          rw [str_erase_append pre _ b (j - b + 3) (by omega)] at h ⊢
          apply ih _ _ h
          have := str_erase_length pre b (j - b + 3)
          simp only [List.length_append, List.length_cons] at hlen ⊢
          omega

theorem qualify_path_inserted (pre post X gcno : List Char) :
    ∃ pre2, qualify_path (pre ++ '/' :: post) gcno = pre2 ++ '/' :: post ∧
      qualify_path (pre ++ '/' :: (X ++ '/' :: '.' :: '.' :: '/' :: post)) gcno =
        pre2 ++ '/' :: (X ++ '/' :: '.' :: '.' :: '/' :: post) := by
  have hh : (pre ++ '/' :: (X ++ '/' :: '.' :: '.' :: '/' :: post)).head? =
      (pre ++ '/' :: post).head? := by
    cases pre <;> rfl
  unfold qualify_path
  rw [hh]
  split
  · exact ⟨pre, rfl, rfl⟩
  · split
    · rename_i position _
      exact ⟨gcno.take (position + 1) ++ pre, by rw [List.append_assoc], by rw [List.append_assoc]⟩
    · exact ⟨pre, rfl, rfl⟩

theorem find_source_congr (f1 f2 : Nat) (n1 n2 gcno : List Char) (p : pair_state)
    (h : reduce_path f1 (qualify_path n1 gcno) = reduce_path f2 (qualify_path n2 gcno)) :
    find_source f1 n1 gcno p = find_source f2 n2 gcno p := by
  unfold find_source
  rw [h]

theorem reduce_path_inserted (gcno r : List Char) (hr : str_find ['/', '.', '.', '/'] r = none)
    (fuel n : Nat) (P P1 : List Char) (hins : dotdot_inserted n P P1) :
    (qualify_path P1 gcno).length < 2 ^ 64 →
    reduce_path fuel (qualify_path P gcno) = some r →
    reduce_path (fuel + n) (qualify_path P1 gcno) = some r := by
  induction hins with
  | zero P => intro _ h; exact h
  | step n P pre post X _ hX0 hXs hXd ih =>
    intro hlen h
    obtain ⟨pre2, e1, e2⟩ := qualify_path_inserted pre post X gcno
    rw [e2] at hlen ⊢
    rw [e1] at ih
    have hlen1 : (pre2 ++ '/' :: post).length < 2 ^ 64 := by
      simp only [List.length_append, List.length_cons] at hlen ⊢
      omega
    exact reduce_inserted post X r hX0 hXs hXd hr (fuel + n) pre2 hlen (ih hlen1 h)

/-- C11 as stated fails: for the note file `./a.gcno`, the source names
`../b/c` and `../x/../b/c` (the segment `x/../` inserted after the first `/`)
are stored under two names, `./../b/c` and `./../x/../b/c`. -/
theorem find_source_inserted_counterexample :
    dotdot_inserted 1 ['.', '.', '/', 'b', '/', 'c']
      (['.', '.'] ++ '/' :: (['x'] ++ '/' :: '.' :: '.' :: '/' :: ['b', '/', 'c'])) ∧
    (find_source 8 ['.', '.', '/', 'b', '/', 'c'] "./a.gcno".toList pair_state.empty).map
        (fun r => (r.2.source r.1).name) = some "./../b/c".toList ∧
    (find_source 9 (['.', '.'] ++ '/' :: (['x'] ++ '/' :: '.' :: '.' :: '/' :: ['b', '/', 'c']))
        "./a.gcno".toList pair_state.empty).map
        (fun r => (r.2.source r.1).name) = some "./../x/../b/c".toList ∧
    "./../b/c".toList ≠ "./../x/../b/c".toList :=
  ⟨dotdot_inserted.step 0 _ ['.', '.'] ['b', '/', 'c'] ['x'] (dotdot_inserted.zero _)
      (by decide) (by decide) (by decide),
   by decide, by decide, by decide⟩

/-- C11, amended: when `find_source` returns for the name `P` a source whose
stored name holds no `/../` (as it does whenever that name begins with `/`),
it returns the same source, in the same state, for every name got from `P` by
inserting segments `X/../` after a `/` (`n` insertions take `n` more turns of
the reduction loop), the note-file path and the structures being the same. -/
theorem find_source_inserted (fuel n : Nat) (P P1 gcno : List Char) (p p1 : pair_state) (s : Nat)
    (hins : dotdot_inserted n P P1) (hlen : (qualify_path P1 gcno).length < 2 ^ 64)
    (h : find_source fuel P gcno p = some (s, p1)) (hclean : ¬ has_dotdot (p1.source s).name) :
    find_source (fuel + n) P1 gcno p = some (s, p1) := by
  rw [← h]
  apply find_source_congr
  have hr := find_source_name fuel P gcno p p1 s h
  rw [hr]
  exact reduce_path_inserted gcno _ ((str_find_none_iff _).2 hclean) fuel n P P1 hins hlen hr

/-- Witness of C11 (amended): `/d/a.c` and `/d/x/../a.c`. -/
theorem find_source_inserted_witness :
    dotdot_inserted 1 ['/', 'd', '/', 'a', '.', 'c']
      (['/', 'd'] ++ '/' :: (['x'] ++ '/' :: '.' :: '.' :: '/' :: ['a', '.', 'c'])) ∧
    (qualify_path (['/', 'd'] ++ '/' :: (['x'] ++ '/' :: '.' :: '.' :: '/' :: ['a', '.', 'c']))
      "/d/a.gcno".toList).length < 2 ^ 64 ∧
    find_source 8 ['/', 'd', '/', 'a', '.', 'c'] "/d/a.gcno".toList pair_state.empty =
      some (0, first_source "/d/a.c".toList) ∧
    ¬ has_dotdot ((first_source "/d/a.c".toList).source 0).name ∧
    find_source (8 + 1) (['/', 'd'] ++ '/' :: (['x'] ++ '/' :: '.' :: '.' :: '/' :: ['a', '.', 'c']))
      "/d/a.gcno".toList pair_state.empty = some (0, first_source "/d/a.c".toList) :=
  ⟨dotdot_inserted.step 0 _ ['/', 'd'] ['a', '.', 'c'] ['x'] (dotdot_inserted.zero _)
      (by decide) (by decide) (by decide),
   by decide, by decide, by decide,
   find_source_inserted 8 1 ['/', 'd', '/', 'a', '.', 'c']
     (['/', 'd'] ++ '/' :: (['x'] ++ '/' :: '.' :: '.' :: '/' :: ['a', '.', 'c']))
     "/d/a.gcno".toList pair_state.empty (first_source "/d/a.c".toList) 0
     (dotdot_inserted.step 0 _ ['/', 'd'] ['a', '.', 'c'] ['x'] (dotdot_inserted.zero _)
       (by decide) (by decide) (by decide))
     (by decide) (by decide) (by decide)⟩

/-! ## The single-branch function (`branch_note`), run symbolically -/

theorem branch_graph_read (a b : Int) :
    read_graph_file 32 (branch_pair a b).gcno (branch_pair a b).note pair_state.empty
      = result.ok branch_graph := by
  show read_graph_file 32 (branch_pair 0 0).gcno (some branch_note) pair_state.empty = _
  decide

theorem branch_pair_tables (a b : Int) :
    ∃ g t, process_file 32 (branch_pair a b) aggregates.empty = some g ∧
      g.line_entry a_c 10 = some (toInt32 (a + b)) ∧
      g.SourceBranches a_c = some t ∧
      ∀ id, t id =
        if id = branch_key 1 then some (if a + b ≠ 0 ∧ 0 ≤ b then b else -1)
        else if id = branch_key 0 then some (if a + b ≠ 0 ∧ 0 ≤ a then a else -1)
        else none := by
  simp only [process_file, prepare_pair, branch_graph_read]
  simp [branch_graph, branch_pair, arc_info.zero, block_info.zero, function_info.zero,
    source_info.new, find_function, add_counts, read_count_record, read_count_records,
    read_count_file, pair_state.fn, pair_state.set_fn, List.range_succ, List.range_zero]
  simp [solve_all, pair_state.fn, pair_state.set_fn, solve_flow_graph, solve_entry_exit,
    solve_setup, solve_setup_block, solve_scan, solve_scan_arc, solve_mark, solve_mark_arc,
    sort_loop, sort_pass, solve_loop, solve_invalid_step, solve_valid_step, solve_valid_succ,
    solve_valid_pred, solve_requeue, find_inv_arc, sum_counts, blk, arc, saturated,
    function_info.num_blocks, List.range_succ, List.range_zero]
  simp [alloc_lines, add_all_line_counts, add_line_counts, add_line_counts_loop,
    add_line_counts_block, scan_encoding, pair_state.upd_line, pair_state.line, pair_state.fn,
    pair_state.source, pair_state.set_fn, pair_state.set_source, line_info.zero, blk, arc,
    function_info.num_blocks, List.replicate]
  simp [aggregate_all, accumulate_line_counts, accumulate_lines, accumulate_line,
    mark_line_blocks, sum_line_entries, sum_entry_arcs, init_cs_count, add_branch_counts,
    find_line_cycles, cycle_search, cycle_minimum, cycle_remove, cycle_unwind, succ_next,
    count_line, pair_state.upd_line, pair_state.line, pair_state.fn, pair_state.source,
    pair_state.set_fn, pair_state.set_source, blk, arc]
  simp [aggregates.line_entry, aggregate_info_eq, visits_have_blocks, function_visits,
    function_info.num_blocks, record_info, record_lines, record_functions,
    aggregate_blocks, aggregate_arcs, merge_branch, output_branch_count, table.insert, table.at,
    table.empty, aggregates.empty, pair_state.line, pair_state.fn, pair_state.source, blk, arc,
    branch_key]
  intro id
  by_cases h0 : a + b = 0 <;> simp [h0]


theorem branch_pair_state (a b : Int) :
    ∃ p p1, prepare_pair 32 (branch_pair a b) = result.ok p ∧
      accumulate_line_counts 32 0 p = some p1 ∧
      (blk (p.fn 0).blocks 1).count = a + b ∧
      (arc (p.fn 0).arcs 1).count = a ∧ (arc (p.fn 0).arcs 2).count = b ∧
      (p1.line 0 10).count = a + b := by
  simp only [prepare_pair, branch_graph_read]
  simp [branch_graph, branch_pair, arc_info.zero, block_info.zero, function_info.zero,
    source_info.new, find_function, add_counts, read_count_record, read_count_records,
    read_count_file, pair_state.fn, pair_state.set_fn, List.range_succ, List.range_zero]
  simp [solve_all, pair_state.fn, pair_state.set_fn, solve_flow_graph, solve_entry_exit,
    solve_setup, solve_setup_block, solve_scan, solve_scan_arc, solve_mark, solve_mark_arc,
    sort_loop, sort_pass, solve_loop, solve_invalid_step, solve_valid_step, solve_valid_succ,
    solve_valid_pred, solve_requeue, find_inv_arc, sum_counts, blk, arc, saturated,
    function_info.num_blocks, List.range_succ, List.range_zero]
  simp [alloc_lines, add_all_line_counts, add_line_counts, add_line_counts_loop,
    add_line_counts_block, scan_encoding, pair_state.upd_line, pair_state.line, pair_state.fn,
    pair_state.source, pair_state.set_fn, pair_state.set_source, line_info.zero, blk, arc,
    function_info.num_blocks, List.replicate]
  simp [accumulate_line_counts, accumulate_lines, accumulate_line,
    mark_line_blocks, sum_line_entries, sum_entry_arcs, init_cs_count, add_branch_counts,
    find_line_cycles, cycle_search, cycle_minimum, cycle_remove, cycle_unwind, succ_next,
    count_line, pair_state.upd_line, pair_state.line, pair_state.fn, pair_state.source,
    pair_state.set_fn, pair_state.set_source, blk, arc]


theorem branch_zero_table :
    ∃ t, branch_zero.SourceBranches a_c = some t ∧
      ∀ id, t id = if id = branch_key 1 then some (-1)
        else if id = branch_key 0 then some (-1) else none := by
  obtain ⟨g, t, h1, _, h3, h4⟩ := branch_pair_tables 0 0
  refine ⟨t, ?_, ?_⟩
  · unfold branch_zero
    rw [h1]
    exact h3
  · intro id
    rw [h4 id]
    simp

theorem branch_zero_keys (t : Branches)
    (h : ∀ id, t id = if id = branch_key 1 then some (-1)
        else if id = branch_key 0 then some (-1) else none) :
    table_keys t [branch_key 0, branch_key 1] ∧
    t (branch_key 0) = some (-1) ∧ t (branch_key 1) = some (-1) := by
  refine ⟨⟨by decide, ?_⟩, ?_, ?_⟩
  · intro k
    rw [h k]
    by_cases h1 : k = branch_key 1
    · simp [h1]
    · by_cases h0 : k = branch_key 0
      · simp [h0]
      · simp [h0, h1]
  · rw [h]; simp [branch_key]
  · rw [h]; simp

/-- The value BRH is the number of entries whose value is not zero; it is at
most the number of entries. -/
theorem report_branches_count (t : Branches) (keys : List BranchId) :
    (report_branches t keys).2 = (keys.countP (fun k => decide (t.at k 0 ≠ 0)) : Nat) ∧
    (report_branches t keys).2 ≤ (keys.length : Nat) := by
  have h : ∀ (l : List BranchId) (n : Int),
      l.foldl (fun brh k => if t.at k 0 ≠ 0 then brh + 1 else brh) n =
        n + (l.countP (fun k => decide (t.at k 0 ≠ 0)) : Nat) := by
    intro l
    induction l with
    | nil => intro n; simp
    | cons k l ih =>
      intro n
      rw [List.foldl_cons, ih, List.countP_cons]
      by_cases hk : t.at k 0 ≠ 0
      · have hd : decide (t.at k 0 ≠ 0) = true := decide_eq_true hk
        rw [if_pos hk, hd]
        simp only [if_true]
        push_cast
        ring
      · have hd : decide (t.at k 0 ≠ 0) = false := decide_eq_false hk
        rw [if_neg hk, hd]
        simp
  have e : (report_branches t keys).2 = (keys.countP (fun k => decide (t.at k 0 ≠ 0)) : Nat) := by
    unfold report_branches
    rw [h]
    simp
  refine ⟨e, ?_⟩
  rw [e]
  exact_mod_cast List.countP_le_length _

/-- C18 as stated fails, in two ways.  With the measured counts `[-2, 5]` of
`branch_note` the sum is 3 > 0, but the entry of the first branch holds the
sentinel -1 and not -2: a negative value is never merged into the table
(line 1625).  And for the function of `entry_branch_note`, of the same shape
with the entry block as the branch block, with the measured counts `[1, 1]`:
the branch block has the count 2 and its line the count 2, the two arcs out
of it are conditional and off the tree, but no branch is recorded, since the
entry block is put on no line's chain of blocks (lines 1317-1318). -/
theorem branch_shape_counts_counterexample :
    (process_file 32 (branch_pair (-2) 5) aggregates.empty).map
      (fun g => (g.line_entry a_c 10, g.branch_entry a_c (branch_key 0),
        g.branch_entry a_c (branch_key 1))) = some (some 3, some (-1), some 5) ∧
    (blk ((first_source_state 32 (entry_branch_pair 1 1)).fn 0).blocks 0).count = 1 + 1 ∧
    (blk ((first_source_state 32 (entry_branch_pair 1 1)).fn 0).blocks 0).succ = [0, 1] ∧
    (((first_source_state 32 (entry_branch_pair 1 1)).fn 0).arcs.map
      (fun A => (A.src, A.dst, A.count, A.on_tree, A.is_unconditional))).take 2 =
      [(0, 1, 1, false, false), (0, 2, 1, false, false)] ∧
    source_records (first_source_state 32 (entry_branch_pair 1 1)) 0 = [] ∧
    ∃ g, process_file 32 (entry_branch_pair 1 1) aggregates.empty = some g ∧
      g.line_entry a_c 10 = some (1 + 1) ∧ ∀ id, g.branch_entry a_c id = none := by
  refine ⟨by decide, by decide, by decide, by decide, by decide, ?_⟩
  have hs : file_steps 32 (entry_branch_pair 1 1) =
      some [(first_source_state 32 (entry_branch_pair 1 1), 0)] := by decide
  have hd : steps_defined [(first_source_state 32 (entry_branch_pair 1 1), 0)] := by decide
  refine ⟨record_info (first_source_state 32 (entry_branch_pair 1 1)) 0 aggregates.empty, ?_,
    by decide, ?_⟩
  · rw [process_file_eq, hs, Option.some_bind, if_pos hd]
    rfl
  · intro id
    have hn : ((first_source_state 32 (entry_branch_pair 1 1)).source 0).name = a_c := by decide
    have hr : source_records (first_source_state 32 (entry_branch_pair 1 1)) 0 = [] := by decide
    unfold aggregates.branch_entry
    rw [← hn, record_info_branches, hr]
    rfl

/-- C18, amended: for the function of `branch_note` (the entry block 0 leads
by an arc on the tree to the branch block 1, on line 10, which has the two
conditional exits 1->2 and 1->3, the arcs off the tree; the two sides 2 and 3
merge at the exit 4 by arcs on the tree) with measured counts `a` and `b`
that are not negative, the solver gives the branch block the count `a + b`,
the line attribution gives the branch line the count `a + b` (recorded in the
line table through its conversion to `int`), and, when `a + b > 0`, the
aggregation into empty tables leaves two branch entries, with the values `a`
and `b`. -/
theorem branch_shape_counts (a b : Int) (ha : 0 ≤ a) (hb : 0 ≤ b) :
    ∃ p p1 g t, prepare_pair 32 (branch_pair a b) = result.ok p ∧
      accumulate_line_counts 32 0 p = some p1 ∧
      process_file 32 (branch_pair a b) aggregates.empty = some g ∧
      (blk (p.fn 0).blocks 1).count = a + b ∧
      (p1.line 0 10).count = a + b ∧
      g.line_entry a_c 10 = some (toInt32 (a + b)) ∧
      (a + b < 2147483648 → g.line_entry a_c 10 = some (a + b)) ∧
      g.SourceBranches a_c = some t ∧
      (0 < a + b →
        table_keys t [branch_key 0, branch_key 1] ∧
        t (branch_key 0) = some a ∧ t (branch_key 1) = some b) := by
  obtain ⟨p, p1, h1, h2, h3, _, _, h6⟩ := branch_pair_state a b
  obtain ⟨g, t, q1, q2, q3, q4⟩ := branch_pair_tables a b
  refine ⟨p, p1, g, t, h1, h2, q1, h3, h6, q2, ?_, q3, ?_⟩
  · intro hlt
    rw [q2, toInt32_of_range _ (by omega) hlt]
  · intro hpos
    have hne : a + b ≠ 0 := by omega
    have hk : branch_key 0 ≠ branch_key 1 := by decide
    refine ⟨⟨by decide, ?_⟩, ?_, ?_⟩
    · intro k
      rw [q4 k]
      by_cases k1 : k = branch_key 1
      · simp [k1]
      · by_cases k0 : k = branch_key 0
        · simp [k0, hk]
        · simp [k0, k1]
    · rw [q4]; simp [hk, hne, ha]
    · rw [q4]; simp [hne, hb]

/-- Witness of C18 amended: the measured counts `[1, 1]` (line count 2, two
entries with the value 1). -/
theorem branch_shape_counts_witness :
    (0 : Int) ≤ 1 ∧ (0 : Int) ≤ 1 ∧ toInt32 (1 + 1) = 2 ∧
    ∃ p p1 g t, prepare_pair 32 (branch_pair 1 1) = result.ok p ∧
      accumulate_line_counts 32 0 p = some p1 ∧
      process_file 32 (branch_pair 1 1) aggregates.empty = some g ∧
      (blk (p.fn 0).blocks 1).count = 1 + 1 ∧
      (p1.line 0 10).count = 1 + 1 ∧
      g.line_entry a_c 10 = some (toInt32 (1 + 1)) ∧
      ((1 : Int) + 1 < 2147483648 → g.line_entry a_c 10 = some (1 + 1)) ∧
      g.SourceBranches a_c = some t ∧
      ((0 : Int) < 1 + 1 →
        table_keys t [branch_key 0, branch_key 1] ∧
        t (branch_key 0) = some 1 ∧ t (branch_key 1) = some 1) :=
  ⟨by decide, by decide, by decide, branch_shape_counts 1 1 (by decide) (by decide)⟩

/-- C19 as stated fails: with the measured counts `[0, 0]` the two branch
entries hold -1, written `-`, not the value 0. -/
theorem branch_zero_entries_counterexample :
    branch_zero.branch_entry a_c (branch_key 0) = some (-1) ∧
    branch_zero.branch_entry a_c (branch_key 1) = some (-1) ∧
    brda_field (-1) = none ∧ brda_field (-1) ≠ brda_field 0 := by
  decide

/-- C19, amended: for the function of `branch_note` with the measured counts
`[0, 0]` the branch block has the count zero, so both branch entries are
recorded with the unknown value -1, written `-`; they are the only entries
of the source, and BRF is 2. -/
theorem branch_zero_entries :
    ∃ p t, prepare_pair 32 (branch_pair 0 0) = result.ok p ∧
      (blk (p.fn 0).blocks 1).count = 0 ∧
      branch_zero.SourceBranches a_c = some t ∧
      table_keys t [branch_key 0, branch_key 1] ∧
      t (branch_key 0) = some (-1) ∧ t (branch_key 1) = some (-1) ∧
      brda_field (-1) = none ∧
      (report_branches t [branch_key 0, branch_key 1]).1 = 2 := by
  obtain ⟨p, _, h1, _, h3, _⟩ := branch_pair_state 0 0
  obtain ⟨t, ht, hall⟩ := branch_zero_table
  obtain ⟨hk, e0, e1⟩ := branch_zero_keys t hall
  exact ⟨p, t, h1, by simpa using h3, ht, hk, e0, e1, by decide, by simp [report_branches, toInt32]⟩

/-- C20 at a failing input: after the pair `branch_pair 0 0` the branch table
of `/d/a.c` has two entries, both unknown (-1); no entry is positive, and the
report writes BRH = 2 (with BRF = 2), since it counts the entries that are not
zero. -/
theorem report_branches_sentinel :
    ∃ t, branch_zero.SourceBranches a_c = some t ∧
      table_keys t [branch_key 0, branch_key 1] ∧
      report_branches t [branch_key 0, branch_key 1] = (2, 2) ∧
      [branch_key 0, branch_key 1].countP (fun k => decide (0 < t.at k 0)) = 0 := by
  obtain ⟨t, ht, hall⟩ := branch_zero_table
  obtain ⟨hk, e0, e1⟩ := branch_zero_keys t hall
  refine ⟨t, ht, hk, ?_, ?_⟩
  · simp [report_branches, table.at, e0, e1, toInt32]
  · simp [table.at, e0, e1]

/-! ## The fixed-point loop of the solver -/

theorem inv_count_perm (as : List arc_info) (l1 l2 : List Nat) (h : l1.Perm l2) :
    inv_count as l1 = inv_count as l2 := h.countP_eq _

theorem sum_counts_perm (as : List arc_info) (l1 l2 : List Nat) (h : l1.Perm l2) :
    sum_counts as l1 = sum_counts as l2 := (h.map _).sum_eq

theorem inv_count_pos (as : List arc_info) (l : List Nat) (x : Nat) (hx : x ∈ l)
    (hv : (arc as x).count_valid = false) : 0 < inv_count as l := by
  unfold inv_count
  rw [List.countP_pos_iff]
  exact ⟨x, hx, by simp [hv]⟩

theorem inv_count_zero (as : List arc_info) (l : List Nat) (h : inv_count as l = 0)
    (x : Nat) (hx : x ∈ l) : (arc as x).count_valid = true := by
  cases hv : (arc as x).count_valid with
  | true => rfl
  | false => have := inv_count_pos as l x hx hv; omega

theorem inv_count_two (as : List arc_info) (l : List Nat) (x y : Nat) (hx : x ∈ l) (hy : y ∈ l)
    (hne : x ≠ y) (hvx : (arc as x).count_valid = false) (hvy : (arc as y).count_valid = false) :
    2 ≤ inv_count as l := by
  unfold inv_count
  rw [List.countP_eq_length_filter]
  have hsub : [x, y].Subperm (l.filter (fun a => !(arc as a).count_valid)) := by
    apply List.subperm_of_subset
    · simp [hne]
    · intro z hz
      simp only [List.mem_cons, List.mem_singleton, List.not_mem_nil, or_false] at hz
      rw [List.mem_filter]
      rcases hz with rfl | rfl
      · exact ⟨hx, by simp [hvx]⟩
      · exact ⟨hy, by simp [hvy]⟩
  simpa using hsub.length_le

theorem find_inv_arc_valid (as : List arc_info) (l : List Nat) :
    ∀ r, (∀ x ∈ l, (arc as x).count_valid = true) → find_inv_arc as l r = r := by
  induction l with
  | nil => intro r _; rfl
  | cons a rest ih =>
    intro r h
    simp only [find_inv_arc, h a (List.mem_cons_self _ _), if_true]
    exact ih r (fun x hx => h x (List.mem_cons_of_mem _ hx))

theorem find_inv_arc_some (as : List arc_info) (l : List Nat) :
    ∀ r, (∃ x ∈ l, (arc as x).count_valid = false) →
      ∃ ia, find_inv_arc as l r = some ia ∧ ia ∈ l ∧ (arc as ia).count_valid = false := by
  induction l with
  | nil => intro r h; obtain ⟨x, hx, _⟩ := h; simp at hx
  | cons a rest ih =>
    intro r h
    simp only [find_inv_arc]
    by_cases hr : ∃ x ∈ rest, (arc as x).count_valid = false
    · obtain ⟨ia, h1, h2, h3⟩ := ih (if (arc as a).count_valid = true then r else some a) hr
      exact ⟨ia, h1, List.mem_cons_of_mem _ h2, h3⟩
    · have hall : ∀ x ∈ rest, (arc as x).count_valid = true := by
        intro x hx
        cases hv : (arc as x).count_valid with
        | true => rfl
        | false => exact absurd ⟨x, hx, hv⟩ hr
      rw [find_inv_arc_valid as rest _ hall]
      obtain ⟨x, hx, hv⟩ := h
      rcases List.mem_cons.1 hx with rfl | hm
      · exact ⟨x, by simp [hv], List.mem_cons_self _ _, hv⟩
      · rw [hall x hm] at hv; simp at hv

/-- The arc selected by the loops of lines 1084-1089 and 1120-1125 when the
chain holds exactly one arc without valid count. -/
theorem find_inv_arc_one (as : List arc_info) (l : List Nat) (h : inv_count as l = 1) :
    ∃ ia, find_inv_arc as l none = some ia ∧ ia ∈ l ∧ (arc as ia).count_valid = false ∧
      ∀ x ∈ l, x ≠ ia → (arc as x).count_valid = true := by
  have hex : ∃ x ∈ l, (arc as x).count_valid = false := by
    by_contra hc
    have hall : ∀ x ∈ l, (arc as x).count_valid = true := by
      intro x hx
      cases hv : (arc as x).count_valid with
      | true => rfl
      | false => exact absurd ⟨x, hx, hv⟩ hc
    have : inv_count as l = 0 := by
      unfold inv_count
      rw [List.countP_eq_zero]
      intro x hx
      simp [hall x hx]
    omega
  obtain ⟨ia, h1, h2, h3⟩ := find_inv_arc_some as l none hex
  refine ⟨ia, h1, h2, h3, ?_⟩
  intro x hx hne
  cases hv : (arc as x).count_valid with
  | true => rfl
  | false =>
    have := inv_count_two as l x ia hx h2 hne hv h3
    omega

theorem sum_counts_set (as : List arc_info) (ia : Nat) (A : arc_info) (hia : ia < as.length)
    (l : List Nat) :
    sum_counts (as.set ia A) l = sum_counts as l + (l.count ia : Nat) * (A.count - (arc as ia).count) := by
  unfold sum_counts
  induction l with
  | nil => simp
  | cons x rest ih =>
    rw [List.map_cons, List.sum_cons, List.map_cons, List.sum_cons, ih, arc_set, List.count_cons]
    by_cases hx : x = ia
    · subst hx
      simp only [hia, and_self, if_true, beq_self_eq_true]
      push_cast
      ring
    · have hx2 : ¬ (ia = x ∧ ia < as.length) := fun h => hx h.1.symm
      have hx3 : (x == ia) = false := by simpa using hx
      rw [if_neg hx2, hx3]
      simp only [Bool.false_eq_true, if_false, Nat.add_zero]
      ring

theorem solve_entry_exit_counters (bs : List block_info) (j : Nat) :
    ((blk (solve_entry_exit bs).1 j).num_succ = (blk bs j).num_succ ∨
      ((blk (solve_entry_exit bs).1 j).num_succ = saturated ∧ (blk bs j).num_succ = 0 ∧
        j + 1 = bs.length)) ∧
    ((blk (solve_entry_exit bs).1 j).num_pred = (blk bs j).num_pred ∨
      ((blk (solve_entry_exit bs).1 j).num_pred = saturated ∧ (blk bs j).num_pred = 0 ∧ j = 0)) := by
  unfold solve_entry_exit
  split
  · exact ⟨Or.inl rfl, Or.inl rfl⟩
  · rename_i hn
    dsimp only
    by_cases h0 : (blk bs 0).num_pred ≠ 0
    · have d0 : decide ((blk bs 0).num_pred ≠ 0) = true := decide_eq_true h0
      simp only [d0, if_true]
      by_cases h1 : (blk bs (bs.length - 1)).num_succ ≠ 0
      · have d1 : decide ((blk bs (bs.length - 1)).num_succ ≠ 0) = true := decide_eq_true h1
        simp only [d1, if_true]
        exact ⟨Or.inl trivial, Or.inl trivial⟩
      · have d1 : decide ((blk bs (bs.length - 1)).num_succ ≠ 0) = false := decide_eq_false h1
        simp only [d1, Bool.false_eq_true, if_false]
        rw [blk_set]
        split
        · rename_i hc
          rw [← hc.1]
          exact ⟨Or.inr ⟨rfl, by simpa using h1, by omega⟩, Or.inl rfl⟩
        · exact ⟨Or.inl rfl, Or.inl rfl⟩
    · have d0 : decide ((blk bs 0).num_pred ≠ 0) = false := decide_eq_false h0
      simp only [d0, Bool.false_eq_true, if_false]
      have hlast : (blk (bs.set 0 { blk bs 0 with num_pred := saturated }) (bs.length - 1)).num_succ
          = (blk bs (bs.length - 1)).num_succ := by
        rw [blk_set]; split
        · rename_i hc; rw [← hc.1]
        · rfl
      have hj : ∀ i, (blk (bs.set 0 { blk bs 0 with num_pred := saturated }) i).num_succ
            = (blk bs i).num_succ ∧
          ((blk (bs.set 0 { blk bs 0 with num_pred := saturated }) i).num_pred = (blk bs i).num_pred ∨
            ((blk (bs.set 0 { blk bs 0 with num_pred := saturated }) i).num_pred = saturated ∧
              (blk bs i).num_pred = 0 ∧ i = 0)) := by
        intro i
        rw [blk_set]; split
        · rename_i hc; rw [← hc.1]
          exact ⟨rfl, Or.inr ⟨rfl, by simpa using h0, rfl⟩⟩
        · exact ⟨rfl, Or.inl rfl⟩
      rw [hlast]
      by_cases h1 : (blk bs (bs.length - 1)).num_succ ≠ 0
      · have d1 : decide ((blk bs (bs.length - 1)).num_succ ≠ 0) = true := decide_eq_true h1
        simp only [d1, if_true]
        exact ⟨Or.inl (hj j).1, (hj j).2⟩
      · have d1 : decide ((blk bs (bs.length - 1)).num_succ ≠ 0) = false := decide_eq_false h1
        simp only [d1, Bool.false_eq_true, if_false]
        rw [blk_set]
        split
        · rename_i hc
          rw [← hc.1]
          refine ⟨Or.inr ⟨rfl, by simpa using h1, ?_⟩, ?_⟩
          · have := hc.2; simp only [List.length_set] at this; omega
          · have hne : bs.length - 1 ≠ 0 := by omega
            have e : (blk (bs.set 0 { blk bs 0 with num_pred := saturated }) (bs.length - 1)).num_pred
                = (blk bs (bs.length - 1)).num_pred := by
              rw [blk_set, if_neg (fun h => hne h.1.symm)]
            exact Or.inl e
        · exact ⟨Or.inl (hj j).1, (hj j).2⟩

theorem inv_count_add_valid (as : List arc_info) (l : List Nat) :
    inv_count as l + valid_count as l = l.length := by
  unfold inv_count valid_count
  rw [Nat.add_comm]
  have := List.length_eq_countP_add_countP (fun a => (arc as a).count_valid) l
  rw [this]
  congr 1
  apply List.countP_congr
  intro a _
  simp

/-- The state in which the fixed-point loop starts: the invariants of the
loop hold, every block is on the invalid list. -/
theorem solve_setup_loop_start (fn : function_info) (hr : fn_ready fn) (rank : Nat → Nat)
    (fuel : Nat) (hfuel : fn.arcs.length * fn.arcs.length < fuel) :
    ∃ st, solve_setup fuel fn.counts fn.num_blocks 0
        { blocks := (solve_entry_exit fn.blocks).1, arcs := fn.arcs, count_ptr := 0,
          invalid_blocks := [], valid_blocks := [] } = some st ∧
      graph_inv fn st ∧ list_inv fn (fun _ => False) (fun _ => False) st ∧ tree_inv fn rank st ∧
      solve_measure fn st ≤ 2 * fn.arcs.length + 3 * fn.num_blocks := by
  obtain ⟨st, hs, hi, hinv, hch⟩ := solve_setup_ready fn hr fuel hfuel
  obtain ⟨i1, i2, i3, i4, i5, i6, i7, _, i9⟩ := hi
  have hav : ∀ a, a < fn.arcs.length → (arc fn.arcs a).on_tree = true →
      (arc st.arcs a).count_valid = false := by
    intro a ha ht; rw [i4 a ha, ht]; rfl
  have hbv : ∀ j, (blk st.blocks j).count_valid = true → False := by
    intro j h; rw [(i6 j).2.2.1] at h; simp at h
  refine ⟨st, hs, ?_, ?_, ?_, ?_⟩
  · refine ⟨i1, i2, i3, fun j => (i6 j).1, fun j => (i6 j).2.1, ?_, ?_, ?_⟩
    · intro a ha hv
      refine ⟨?_, i5 a hv⟩
      rw [i4 a ha] at hv
      simpa using hv
    · intro j
      have hc := (solve_entry_exit_counters fn.blocks j).1
      have hl := inv_count_add_valid st.arcs (blk fn.blocks j).succ
      rcases hc with hc | ⟨hc, h0, hj⟩
      · left
        rw [(i7 j).1, hc, (hr.2.1.2.1 j).1]
        omega
      · right
        have e : (blk fn.blocks j).succ = [] := by
          have := (hr.2.1.2.1 j).1
          rw [h0] at this
          exact List.length_eq_zero.1 (by exact_mod_cast this.symm)
        refine ⟨?_, e, hj⟩
        rw [(i7 j).1, hc, e]
        simp [valid_count]
    · intro j
      have hc := (solve_entry_exit_counters fn.blocks j).2
      have hl := inv_count_add_valid st.arcs (blk fn.blocks j).pred
      rcases hc with hc | ⟨hc, h0, hj⟩
      · left
        rw [(i7 j).2, hc, (hr.2.1.2.1 j).2.1]
        omega
      · right
        have e : (blk fn.blocks j).pred = [] := by
          have := (hr.2.1.2.1 j).2.1
          rw [h0] at this
          exact List.length_eq_zero.1 (by exact_mod_cast this.symm)
        refine ⟨?_, e, hj⟩
        rw [(i7 j).2, hc, e]
        simp [valid_count]
  · have hmem : ∀ j, j ∈ st.invalid_blocks ↔ j < fn.num_blocks := by
      intro j; rw [hinv]; simp
    refine ⟨?_, ?_, ?_, ?_, ?_, ?_, ?_, ?_, ?_, ?_⟩
    · intro j; rw [hch j, hmem j]; simp
    · intro j; rw [(i6 j).2.2.2, i9]; simp
    · rw [hinv]; exact List.nodup_reverse.2 (List.nodup_range _)
    · rw [i9]; exact List.nodup_nil
    · intro j hj; exact ⟨(hmem j).1 hj, (i6 j).2.2.1⟩
    · intro j hj; rw [i9] at hj; simp at hj
    · intro j hj _ _; exact Or.inl ((hmem j).2 hj)
    · intro j hj _ _; exact Or.inl ((hmem j).2 hj)
    · intro j _ hv _; exact absurd hv (hbv j)
    · intro j _ hv _; exact absurd hv (hbv j)
  · refine ⟨?_, ?_, ?_, ?_, ?_, ?_⟩
    · intro a ha ht _; exact hav a ha ht
    · intro a _ e he _ hte _ _; exact hav e he hte
    · intro a _ _ hv; exact absurd hv (hbv _)
    · intro a _ _ hv; exact absurd hv (hbv _)
    · intro hv; exact absurd hv (hbv _)
    · intro hv; exact absurd hv (hbv _)
  · unfold solve_measure
    have h1 : inv_count st.arcs (List.range fn.arcs.length) ≤ fn.arcs.length := by
      unfold inv_count
      exact le_trans (List.countP_le_length _) (by simp)
    have h2 : (List.range fn.num_blocks).countP (fun j => !(blk st.blocks j).count_valid)
        ≤ fn.num_blocks := le_trans (List.countP_le_length _) (by simp)
    have h3 : st.invalid_blocks.length = fn.num_blocks := by rw [hinv]; simp
    have h4 : st.valid_blocks.length = 0 := by rw [i9]; rfl
    omega

theorem solve_requeue_spec (o : Nat) (pending : block_info → Int) (st : solve_state)
    (ho : o < st.blocks.length) :
    (solve_requeue o pending st).arcs = st.arcs ∧
    (solve_requeue o pending st).blocks.length = st.blocks.length ∧
    (∀ j, (blk (solve_requeue o pending st).blocks j).succ = (blk st.blocks j).succ ∧
      (blk (solve_requeue o pending st).blocks j).pred = (blk st.blocks j).pred ∧
      (blk (solve_requeue o pending st).blocks j).num_succ = (blk st.blocks j).num_succ ∧
      (blk (solve_requeue o pending st).blocks j).num_pred = (blk st.blocks j).num_pred ∧
      (blk (solve_requeue o pending st).blocks j).count = (blk st.blocks j).count ∧
      (blk (solve_requeue o pending st).blocks j).count_valid = (blk st.blocks j).count_valid) ∧
    (∀ j, j ≠ o →
      (blk (solve_requeue o pending st).blocks j).valid_chain = (blk st.blocks j).valid_chain ∧
      (blk (solve_requeue o pending st).blocks j).invalid_chain = (blk st.blocks j).invalid_chain) ∧
    requeued o (pending (blk st.blocks o)) st (solve_requeue o pending st) := by
  unfold solve_requeue
  dsimp only
  by_cases hv : (blk st.blocks o).count_valid = true
  · rw [if_pos hv]
    by_cases hc : pending (blk st.blocks o) = 1 ∧ (blk st.blocks o).valid_chain = false
    · rw [if_pos hc]
      refine ⟨rfl, by simp, ?_, ?_, ?_⟩
      · intro j
        show (blk (st.blocks.set o _) j).succ = _ ∧ _
        rw [blk_set]
        split
        · rename_i h; rw [← h.1]; exact ⟨rfl, rfl, rfl, rfl, rfl, rfl⟩
        · exact ⟨rfl, rfl, rfl, rfl, rfl, rfl⟩
      · intro j hj
        show (blk (st.blocks.set o _) j).valid_chain = _ ∧ _
        rw [blk_set, if_neg (fun h => hj h.1.symm)]
        exact ⟨rfl, rfl⟩
      · left
        refine ⟨rfl, rfl, ?_, ?_, hv, hc.2⟩
        · show (blk (st.blocks.set o _) o).valid_chain = true
          rw [blk_set, if_pos ⟨rfl, ho⟩]
        · show (blk (st.blocks.set o _) o).invalid_chain = _
          rw [blk_set, if_pos ⟨rfl, ho⟩]
    · rw [if_neg hc]
      refine ⟨rfl, rfl, fun j => ⟨rfl, rfl, rfl, rfl, rfl, rfl⟩, fun j _ => ⟨rfl, rfl⟩, ?_⟩
      right; right
      refine ⟨rfl, rfl, rfl, rfl, ?_, ?_⟩
      · intro _ hp
        by_contra hn
        apply hc
        refine ⟨hp, ?_⟩
        cases hx : (blk st.blocks o).valid_chain with
        | false => rfl
        | true => exact absurd hx hn
      · intro hf; rw [hv] at hf; simp at hf
  · rw [if_neg hv]
    have hvf : (blk st.blocks o).count_valid = false := by
      cases hx : (blk st.blocks o).count_valid with
      | false => rfl
      | true => exact absurd hx hv
    by_cases hc : pending (blk st.blocks o) = 0 ∧ (blk st.blocks o).invalid_chain = false
    · rw [if_pos hc]
      refine ⟨rfl, by simp, ?_, ?_, ?_⟩
      · intro j
        show (blk (st.blocks.set o _) j).succ = _ ∧ _
        rw [blk_set]
        split
        · rename_i h; rw [← h.1]; exact ⟨rfl, rfl, rfl, rfl, rfl, rfl⟩
        · exact ⟨rfl, rfl, rfl, rfl, rfl, rfl⟩
      · intro j hj
        show (blk (st.blocks.set o _) j).valid_chain = _ ∧ _
        rw [blk_set, if_neg (fun h => hj h.1.symm)]
        exact ⟨rfl, rfl⟩
      · right; left
        refine ⟨rfl, rfl, ?_, ?_, hvf, hc.2⟩
        · show (blk (st.blocks.set o _) o).invalid_chain = true
          rw [blk_set, if_pos ⟨rfl, ho⟩]
        · show (blk (st.blocks.set o _) o).valid_chain = _
          rw [blk_set, if_pos ⟨rfl, ho⟩]
    · rw [if_neg hc]
      refine ⟨rfl, rfl, fun j => ⟨rfl, rfl, rfl, rfl, rfl, rfl⟩, fun j _ => ⟨rfl, rfl⟩, ?_⟩
      right; right
      refine ⟨rfl, rfl, rfl, rfl, ?_, ?_⟩
      · intro hf; rw [hvf] at hf; simp at hf
      · intro _ hp
        by_contra hn
        apply hc
        refine ⟨hp, ?_⟩
        cases hx : (blk st.blocks o).invalid_chain with
        | false => rfl
        | true => exact absurd hx hn

theorem solve_valid_succ_deduced (v ia : Nat) (st : solve_state)
    (h1 : (blk st.blocks v).num_succ = 1)
    (hf : find_inv_arc st.arcs (blk st.blocks v).succ none = some ia)
    (hv : v < st.blocks.length) (hsrc : (arc st.arcs ia).src = v)
    (hd : (arc st.arcs ia).dst < st.blocks.length) :
    ∃ st1, solve_valid_succ v st = some st1 ∧
      deduced v (arc st.arcs ia).dst ia true
        ((blk st.blocks v).count - sum_counts st.arcs (blk st.blocks v).succ) st st1 := by
  obtain ⟨X, hX⟩ : ∃ X : solve_state, X =
      { st with
        arcs := st.arcs.set ia { arc st.arcs ia with
          count_valid := true, count := (blk st.blocks v).count - sum_counts st.arcs (blk st.blocks v).succ }
        blocks := (st.blocks.set v { blk st.blocks v with num_succ := (blk st.blocks v).num_succ - 1 }).set
          (arc st.arcs ia).dst
          { blk (st.blocks.set v { blk st.blocks v with num_succ := (blk st.blocks v).num_succ - 1 })
              (arc st.arcs ia).dst with
            num_pred := (blk (st.blocks.set v
              { blk st.blocks v with num_succ := (blk st.blocks v).num_succ - 1 })
              (arc st.arcs ia).dst).num_pred - 1 } } := ⟨_, rfl⟩
  have hres : solve_valid_succ v st = some (solve_requeue (arc st.arcs ia).dst (fun x => x.num_pred) X) := by
    unfold solve_valid_succ
    dsimp only
    rw [if_pos h1, hf, hX]
  have hb : ∀ j, blk X.blocks j =
      if j = (arc st.arcs ia).dst then
        (if j = v then { { blk st.blocks j with num_succ := (blk st.blocks j).num_succ - 1 } with
            num_pred := (blk st.blocks j).num_pred - 1 }
         else { blk st.blocks j with num_pred := (blk st.blocks j).num_pred - 1 })
      else if j = v then { blk st.blocks j with num_succ := (blk st.blocks j).num_succ - 1 }
      else blk st.blocks j := by
    intro j
    rw [hX]
    exact blk_set_set st.blocks v (arc st.arcs ia).dst
      (fun B => { B with num_succ := B.num_succ - 1 })
      (fun B => { B with num_pred := B.num_pred - 1 }) hv hd j
  have hXlen : X.blocks.length = st.blocks.length := by rw [hX]; simp
  have hXarcs : X.arcs = st.arcs.set ia { arc st.arcs ia with
      count_valid := true, count := (blk st.blocks v).count - sum_counts st.arcs (blk st.blocks v).succ } := by
    rw [hX]
  have hXv : X.valid_blocks = st.valid_blocks := by rw [hX]
  have hXi : X.invalid_blocks = st.invalid_blocks := by rw [hX]
  obtain ⟨r1, r2, r3, r4, r5⟩ :=
    solve_requeue_spec (arc st.arcs ia).dst (fun x => x.num_pred) X (by rw [hXlen]; exact hd)
  have hfl : ∀ j, (blk X.blocks j).succ = (blk st.blocks j).succ ∧
      (blk X.blocks j).pred = (blk st.blocks j).pred ∧
      (blk X.blocks j).count = (blk st.blocks j).count ∧
      (blk X.blocks j).count_valid = (blk st.blocks j).count_valid ∧
      (blk X.blocks j).valid_chain = (blk st.blocks j).valid_chain ∧
      (blk X.blocks j).invalid_chain = (blk st.blocks j).invalid_chain ∧
      (blk X.blocks j).num_succ = (if j = v then (blk st.blocks j).num_succ - 1 else (blk st.blocks j).num_succ) ∧
      (blk X.blocks j).num_pred = (if j = (arc st.arcs ia).dst then (blk st.blocks j).num_pred - 1
        else (blk st.blocks j).num_pred) := by
    intro j
    rw [hb j]
    split_ifs <;> simp
  refine ⟨_, hres, ?_⟩
  refine ⟨by rw [r1, hXarcs], by rw [r2, hXlen], ?_, ?_, ?_, ⟨hsrc, rfl⟩, ?_, ?_⟩
  · intro j
    obtain ⟨a1, a2, a3, a4, a5, a6⟩ := r3 j
    obtain ⟨b1, b2, b3, b4, _, _, _, _⟩ := hfl j
    exact ⟨a1.trans b1, a2.trans b2, a5.trans b3, a6.trans b4⟩
  · intro j
    rw [(r3 j).2.2.1, (hfl j).2.2.2.2.2.2.1, hsrc]
  · intro j
    rw [(r3 j).2.2.2.1, (hfl j).2.2.2.2.2.2.2]
  · intro j hj
    obtain ⟨a1, a2⟩ := r4 j hj
    exact ⟨a1.trans (hfl j).2.2.2.2.1, a2.trans (hfl j).2.2.2.2.2.1⟩
  · have e : (blk (solve_requeue (arc st.arcs ia).dst (fun x => x.num_pred) X).blocks
        (arc st.arcs ia).dst).num_pred = (blk X.blocks (arc st.arcs ia).dst).num_pred :=
      (r3 _).2.2.2.1
    simp only [if_true]
    rw [e]
    unfold requeued at r5 ⊢
    rw [hXv, hXi, (hfl _).2.2.2.1, (hfl _).2.2.2.2.1, (hfl _).2.2.2.2.2.1] at r5
    exact r5

theorem solve_valid_pred_deduced (v ia : Nat) (st : solve_state)
    (h1 : (blk st.blocks v).num_pred = 1)
    (hf : find_inv_arc st.arcs (blk st.blocks v).pred none = some ia)
    (hv : v < st.blocks.length) (hdst : (arc st.arcs ia).dst = v)
    (hd : (arc st.arcs ia).src < st.blocks.length) :
    ∃ st1, solve_valid_pred v st = some st1 ∧
      deduced v (arc st.arcs ia).src ia false
        ((blk st.blocks v).count - sum_counts st.arcs (blk st.blocks v).pred) st st1 := by
  obtain ⟨X, hX⟩ : ∃ X : solve_state, X =
      { st with
        arcs := st.arcs.set ia { arc st.arcs ia with
          count_valid := true, count := (blk st.blocks v).count - sum_counts st.arcs (blk st.blocks v).pred }
        blocks := (st.blocks.set v { blk st.blocks v with num_pred := (blk st.blocks v).num_pred - 1 }).set
          (arc st.arcs ia).src
          { blk (st.blocks.set v { blk st.blocks v with num_pred := (blk st.blocks v).num_pred - 1 })
              (arc st.arcs ia).src with
            num_succ := (blk (st.blocks.set v
              { blk st.blocks v with num_pred := (blk st.blocks v).num_pred - 1 })
              (arc st.arcs ia).src).num_succ - 1 } } := ⟨_, rfl⟩
  have hres : solve_valid_pred v st = some (solve_requeue (arc st.arcs ia).src (fun x => x.num_succ) X) := by
    unfold solve_valid_pred
    dsimp only
    rw [if_pos h1, hf, hX]
  have hb : ∀ j, blk X.blocks j =
      if j = (arc st.arcs ia).src then
        (if j = v then { { blk st.blocks j with num_pred := (blk st.blocks j).num_pred - 1 } with
            num_succ := (blk st.blocks j).num_succ - 1 }
         else { blk st.blocks j with num_succ := (blk st.blocks j).num_succ - 1 })
      else if j = v then { blk st.blocks j with num_pred := (blk st.blocks j).num_pred - 1 }
      else blk st.blocks j := by
    intro j
    rw [hX]
    exact blk_set_set st.blocks v (arc st.arcs ia).src
      (fun B => { B with num_pred := B.num_pred - 1 })
      (fun B => { B with num_succ := B.num_succ - 1 }) hv hd j
  have hXlen : X.blocks.length = st.blocks.length := by rw [hX]; simp
  have hXarcs : X.arcs = st.arcs.set ia { arc st.arcs ia with
      count_valid := true, count := (blk st.blocks v).count - sum_counts st.arcs (blk st.blocks v).pred } := by
    rw [hX]
  have hXv : X.valid_blocks = st.valid_blocks := by rw [hX]
  have hXi : X.invalid_blocks = st.invalid_blocks := by rw [hX]
  obtain ⟨r1, r2, r3, r4, r5⟩ :=
    solve_requeue_spec (arc st.arcs ia).src (fun x => x.num_succ) X (by rw [hXlen]; exact hd)
  have hfl : ∀ j, (blk X.blocks j).pred = (blk st.blocks j).pred ∧
      (blk X.blocks j).succ = (blk st.blocks j).succ ∧
      (blk X.blocks j).count = (blk st.blocks j).count ∧
      (blk X.blocks j).count_valid = (blk st.blocks j).count_valid ∧
      (blk X.blocks j).valid_chain = (blk st.blocks j).valid_chain ∧
      (blk X.blocks j).invalid_chain = (blk st.blocks j).invalid_chain ∧
      (blk X.blocks j).num_pred = (if j = v then (blk st.blocks j).num_pred - 1 else (blk st.blocks j).num_pred) ∧
      (blk X.blocks j).num_succ = (if j = (arc st.arcs ia).src then (blk st.blocks j).num_succ - 1
        else (blk st.blocks j).num_succ) := by
    intro j
    rw [hb j]
    split_ifs <;> simp
  refine ⟨_, hres, ?_⟩
  refine ⟨by rw [r1, hXarcs], by rw [r2, hXlen], ?_, ?_, ?_, ⟨hdst, rfl⟩, ?_, ?_⟩
  · intro j
    obtain ⟨a1, a2, a3, a4, a5, a6⟩ := r3 j
    obtain ⟨b1, b2, b3, b4, _, _, _, _⟩ := hfl j
    exact ⟨a1.trans b2, a2.trans b1, a5.trans b3, a6.trans b4⟩
  · intro j
    rw [(r3 j).2.2.1, (hfl j).2.2.2.2.2.2.2]
  · intro j
    rw [(r3 j).2.2.2.1, (hfl j).2.2.2.2.2.2.1, hdst]
  · intro j hj
    obtain ⟨a1, a2⟩ := r4 j hj
    exact ⟨a1.trans (hfl j).2.2.2.2.1, a2.trans (hfl j).2.2.2.2.2.1⟩
  · have e : (blk (solve_requeue (arc st.arcs ia).src (fun x => x.num_succ) X).blocks
        (arc st.arcs ia).src).num_succ = (blk X.blocks (arc st.arcs ia).src).num_succ :=
      (r3 _).2.2.1
    simp only [Bool.false_eq_true, if_false]
    rw [e]
    unfold requeued at r5 ⊢
    rw [hXv, hXi, (hfl _).2.2.2.1, (hfl _).2.2.2.2.1, (hfl _).2.2.2.2.2.1] at r5
    exact r5

/-! ## The function cursor of read_count_file -/

theorem find_or_append {α : Type} (q : α → Bool) (D T : List α) :
    (D ++ (T ++ D)).find? q = (D ++ T).find? q := by
  rw [List.find?_append, List.find?_append, List.find?_append]
  cases h : D.find? q with
  | none => simp
  | some x => simp

/-- C25: for a FUNCTION record with identity `ident`, the search of
`read_count_file` (lines 880-895) selects the first function with that
identity in cyclic order from just after the function matched by the last
record (from the head of the chain when none is matched), and it selects no
function exactly when no function of the chain has the identity.  The record
then makes the selected function the current one, unless its checksum
differs. -/
theorem find_function_cyclic (p : pair_state) (cur : Option Nat) (ident checksum : Nat) :
    find_function p cur ident =
      (cyclic_order p.functions.length cur).find?
        (fun i => (p.fn (p.functions.getD i 0)).ident == ident) ∧
    (find_function p cur ident = none ↔
      ∀ i, i < p.functions.length → (p.fn (p.functions.getD i 0)).ident ≠ ident) ∧
    (∀ i, find_function p cur ident = some i →
      i < p.functions.length ∧ (p.fn (p.functions.getD i 0)).ident = ident ∧
      read_count_record (data_record.function ident checksum) (p, cur) =
        if checksum ≠ (p.fn (p.functions.getD i 0)).checksum then result.error
        else result.ok (p, some i)) ∧
    (find_function p cur ident = none →
      read_count_record (data_record.function ident checksum) (p, cur) = result.ok (p, none)) := by
  have h1 : find_function p cur ident =
      (cyclic_order p.functions.length cur).find?
        (fun i => (p.fn (p.functions.getD i 0)).ident == ident) := by
    unfold find_function cyclic_order
    cases cur with
    | none => simp
    | some c =>
      dsimp only
      conv_lhs => rw [← List.take_append_drop (c + 1) (List.range p.functions.length)]
      rw [List.take_append_drop]
      conv_lhs =>
        arg 2
        arg 2
        rw [← List.take_append_drop (c + 1) (List.range p.functions.length)]
      exact find_or_append _ _ _
  have h2 : find_function p cur ident = none ↔
      ∀ i, i < p.functions.length → (p.fn (p.functions.getD i 0)).ident ≠ ident := by
    unfold find_function
    dsimp only
    rw [List.find?_eq_none]
    constructor
    · intro h i hi
      have := h i (List.mem_append_right _ (List.mem_range.2 hi))
      simpa using this
    · intro h i hi
      have hi2 : i < p.functions.length := by
        rcases List.mem_append.1 hi with h3 | h3
        · cases cur with
          | none => simp at h3
          | some c => exact List.mem_range.1 (List.mem_of_mem_drop h3)
        · exact List.mem_range.1 h3
      simpa using h i hi2
  refine ⟨h1, h2, ?_, ?_⟩
  · intro i hi
    have hm := List.mem_of_find?_eq_some (by unfold find_function at hi; exact hi)
    have hq := List.find?_some (by unfold find_function at hi; exact hi)
    have hi2 : i < p.functions.length := by
      rcases List.mem_append.1 hm with h3 | h3
      · cases cur with
        | none => simp at h3
        | some c => exact List.mem_range.1 (List.mem_of_mem_drop h3)
      · exact List.mem_range.1 h3
    refine ⟨hi2, by simpa using hq, ?_⟩
    simp only [read_count_record, hi]
  · intro hn
    simp only [read_count_record, hn]

/-! ## The chain of functions of a source -/

theorem same_lines_refl (p : pair_state) : same_lines p p :=
  ⟨rfl, fun _ => rfl, fun _ => rfl, fun h => h⟩

theorem same_lines_trans (p p1 p2 : pair_state) (h1 : same_lines p p1) (h2 : same_lines p1 p2) :
    same_lines p p2 :=
  ⟨h2.1.trans h1.1, fun g => (h2.2.1 g).trans (h1.2.1 g), fun s => (h2.2.2.1 s).trans (h1.2.2.1 s),
    fun h => h2.2.2.2 (h1.2.2.2 h)⟩

theorem line_desc_same (p p1 : pair_state) (h : same_lines p p1) (f g : Nat) :
    line_desc p1 f g ↔ line_desc p f g := by
  unfold line_desc; rw [h.2.1 f, h.2.1 g]

theorem by_line_same (p p1 : pair_state) (h : same_lines p p1) (hb : by_line p) : by_line p1 := by
  refine ⟨h.2.2.2 hb.1, fun s => ?_⟩
  rw [h.2.2.1 s, h.1]
  refine ⟨?_, (hb.2 s).2⟩
  exact (hb.2 s).1.imp (fun {f g} hfg => (line_desc_same p p1 h f g).2 hfg)

theorem source_getD_append (l : List source_info) (s : Nat) (v : source_info)
    (hv : v.functions = []) :
    ((l ++ [v]).getD s source_info.new).functions = (l.getD s source_info.new).functions := by
  simp only [List.getD_eq_getElem?_getD]
  by_cases h : s < l.length
  · rw [List.getElem?_append_left h]
  · rw [List.getElem?_append_right (Nat.le_of_not_lt h), List.getElem?_eq_none (Nat.le_of_not_lt h)]
    by_cases h2 : s - l.length = 0
    · rw [h2]; simp [hv, source_info.new]
    · rw [List.getElem?_eq_none (by simp; omega)]

theorem find_source_same_lines (fuel : Nat) (a b : List Char) (p p1 : pair_state) (s : Nat)
    (h : find_source fuel a b p = some (s, p1)) : same_lines p p1 := by
  unfold find_source at h
  split at h
  · simp at h
  · split at h
    · injection h with h; injection h with h1 h2; subst h2; exact same_lines_refl p
    · injection h with h; injection h with h1 h2; subst h2
      refine ⟨rfl, fun _ => rfl, fun s => ?_, fun hs t ht => ?_⟩
      · unfold pair_state.source
        exact source_getD_append _ _ _ rfl
      · simp only [List.mem_cons] at ht
        simp only [List.length_append, List.length_singleton]
        rcases ht with rfl | ht
        · omega
        · have := hs t ht; omega

theorem set_fn_same_lines (p : pair_state) (f : Nat) (v : function_info)
    (hv : v.line = (p.fn f).line) : same_lines p (p.set_fn f v) := by
  refine ⟨by simp [pair_state.set_fn], fun g => ?_, fun _ => rfl, fun h => h⟩
  rw [fn_set_fn]
  split
  · next h => rw [← h.1]; exact hv
  · rfl

theorem source_set_functions (p : pair_state) (s t : Nat) (v : source_info) :
    ((p.set_source s v).source t).functions =
      if s = t ∧ s < p.srcs.length then v.functions else (p.source t).functions := by
  unfold pair_state.source pair_state.set_source
  simp only
  rw [getD_set_eq]
  split <;> rfl

theorem set_source_same_lines (p : pair_state) (s : Nat) (v : source_info)
    (hv : v.functions = (p.source s).functions) : same_lines p (p.set_source s v) := by
  refine ⟨rfl, fun _ => rfl, fun t => ?_, fun h t ht => ?_⟩
  swap
  · have := h t ht
    simpa [pair_state.set_source] using this
  rw [source_set_functions]
  split
  · next h => rw [← h.1]; exact hv
  · rfl

theorem read_arc_list_line (src : Nat) (dests : List (Nat × Nat)) :
    ∀ fn fn1, read_arc_list src dests fn = some fn1 → fn1.line = fn.line := by
  induction dests with
  | nil => intro fn fn1 h; simp only [read_arc_list] at h; injection h with h; subst h; rfl
  | cons d rest ih =>
    intro fn fn1 h
    obtain ⟨dest, flags⟩ := d
    simp only [read_arc_list] at h
    cases hr : read_arc src dest flags fn with
    | none => rw [hr] at h; simp at h
    | some fn2 =>
      rw [hr] at h
      rw [ih fn2 fn1 h]
      unfold read_arc at hr
      split at hr
      · simp at hr
      · injection hr with hr; subst hr; rfl

theorem read_line_item_same_lines (fuel : Nat) (gcno : List Char) (it : line_item)
    (ls ls1 : lines_scan) (h : read_line_item fuel gcno it ls = result.ok ls1) :
    same_lines ls.rs.pair ls1.rs.pair := by
  unfold read_line_item at h
  cases it with
  | lineno n =>
    simp only at h
    cases hs : ls.rs.src with
    | none => rw [hs] at h; simp at h
    | some s =>
      rw [hs] at h; simp only at h; injection h with h; subst h
      apply set_source_same_lines
      split <;> rfl
  | file_name nm =>
    simp only at h
    cases hf : find_source fuel nm gcno ls.rs.pair with
    | none => rw [hf] at h; simp at h
    | some r =>
      obtain ⟨s, p1⟩ := r
      rw [hf] at h; simp only at h; injection h with h; subst h
      exact find_source_same_lines _ _ _ _ _ _ hf

theorem read_line_items_same_lines (fuel : Nat) (gcno : List Char) (items : List line_item) :
    ∀ (ls ls1 : lines_scan), read_line_items fuel gcno items ls = result.ok ls1 →
      same_lines ls.rs.pair ls1.rs.pair := by
  induction items with
  | nil =>
    intro ls ls1 h; simp only [read_line_items] at h; injection h with h; subst h
    exact same_lines_refl _
  | cons it rest ih =>
    intro ls ls1 h
    simp only [read_line_items] at h
    cases hr : read_line_item fuel gcno it ls with
    | ok ls2 =>
      rw [hr] at h
      exact same_lines_trans _ _ _ (read_line_item_same_lines _ _ _ _ _ hr) (ih ls2 ls1 h)
    | error => rw [hr] at h; simp at h
    | undefined => rw [hr] at h; simp at h

theorem find_source_lt (fuel : Nat) (a b : List Char) (p p1 : pair_state) (s : Nat)
    (h : find_source fuel a b p = some (s, p1)) (hs : sources_ok p) : s < p1.srcs.length := by
  unfold find_source at h
  split at h
  · simp at h
  · split at h
    · next hl =>
      injection h with h; injection h with h1 h2; subst h2; subst h1
      unfold lookup_source at hl
      exact hs _ (List.mem_of_find?_eq_some hl)
    · injection h with h; injection h with h1 h2; subst h2; subst h1
      simp

theorem read_lines_same_lines (fuel : Nat) (gcno : List Char) (blockno : Nat)
    (items : List line_item) (f : Nat) (rs rs1 : reader_state)
    (h : read_lines fuel gcno blockno items f rs = result.ok rs1) :
    same_lines rs.pair rs1.pair := by
  unfold read_lines at h
  simp only at h
  split at h
  · simp at h
  · cases hr : read_line_items fuel gcno items { rs := rs, line_nos := [] } with
    | ok ls =>
      rw [hr] at h; simp only at h; injection h with h; subst h
      exact same_lines_trans _ _ _ (read_line_items_same_lines _ _ _ _ _ hr)
        (set_fn_same_lines _ _ _ rfl)
    | error => rw [hr] at h; simp at h
    | undefined => rw [hr] at h; simp at h

theorem read_blocks_same_lines (flags : List Nat) (f : Nat) (rs : reader_state) :
    same_lines rs.pair (read_blocks flags f rs).pair := by
  unfold read_blocks
  simp only
  split
  · exact same_lines_refl _
  · exact set_fn_same_lines _ _ _ rfl

theorem read_arcs_same_lines (src : Nat) (dests : List (Nat × Nat)) (f : Nat)
    (rs rs1 : reader_state) (h : read_arcs src dests f rs = result.ok rs1) :
    same_lines rs.pair rs1.pair := by
  unfold read_arcs at h
  simp only at h
  split at h
  · simp at h
  · cases hr : read_arc_list src dests (rs.pair.fn f) with
    | none => rw [hr] at h; simp at h
    | some fn1 =>
      rw [hr] at h; simp only at h; injection h with h; subst h
      exact set_fn_same_lines _ _ _ (read_arc_list_line _ _ _ _ hr)

/-- Lines 636-644: the new function goes between the functions of greater
first line and the first function whose first line is not greater. -/
theorem insert_by_line_spec (p : pair_state) (f lineno : Nat) (l : List Nat) :
    ∃ pre post, l = pre ++ post ∧ insert_by_line p f lineno l = pre ++ f :: post ∧
      (∀ g ∈ pre, (p.fn g).line > lineno) ∧ (∀ g, post.head? = some g → (p.fn g).line ≤ lineno) := by
  induction l with
  | nil => exact ⟨[], [], rfl, rfl, by simp, by simp⟩
  | cons probe rest ih =>
    simp only [insert_by_line]
    by_cases h : (p.fn probe).line > lineno
    · obtain ⟨pre, post, h1, h2, h3, h4⟩ := ih
      refine ⟨probe :: pre, post, by rw [h1]; rfl, by rw [if_pos h, h2]; rfl, ?_, h4⟩
      intro g hg
      rcases List.mem_cons.1 hg with rfl | hg
      · exact h
      · exact h3 g hg
    · refine ⟨[], probe :: rest, rfl, by rw [if_neg h]; rfl, by simp, ?_⟩
      intro g hg
      simp only [List.head?_cons, Option.some.injEq] at hg
      subst hg
      omega

theorem fn_getD_append (l : List function_info) (v : function_info) (g : Nat) :
    (l ++ [v]).getD g function_info.zero =
      if g = l.length then v else l.getD g function_info.zero := by
  simp only [List.getD_eq_getElem?_getD]
  by_cases h : g < l.length
  · rw [List.getElem?_append_left h, if_neg (by omega)]
  · rw [List.getElem?_append_right (Nat.le_of_not_lt h), List.getElem?_eq_none (Nat.le_of_not_lt h)]
    by_cases h2 : g = l.length
    · rw [if_pos h2, h2]; simp
    · rw [if_neg h2, List.getElem?_eq_none (by simp; omega)]

theorem pairwise_insert_desc (p : pair_state) (f : Nat) (pre post : List Nat)
    (hs : (pre ++ post).Pairwise (line_desc p))
    (hpre : ∀ g ∈ pre, (p.fn g).line > (p.fn f).line)
    (hpost : ∀ g ∈ post, (p.fn g).line ≤ (p.fn f).line ∧ g < f) :
    (pre ++ f :: post).Pairwise (line_desc p) := by
  rw [List.pairwise_append] at hs ⊢
  refine ⟨hs.1, ?_, ?_⟩
  · rw [List.pairwise_cons]
    refine ⟨?_, hs.2.1⟩
    intro g hg
    have := hpost g hg
    unfold line_desc
    omega
  · intro a ha b hb
    rcases List.mem_cons.1 hb with rfl | hb
    · exact Or.inl (hpre a ha)
    · exact hs.2.2 a ha b hb

theorem post_le_of_head (p : pair_state) (lineno : Nat) (post : List Nat)
    (hs : post.Pairwise (line_desc p))
    (hh : ∀ g, post.head? = some g → (p.fn g).line ≤ lineno) :
    ∀ g ∈ post, (p.fn g).line ≤ lineno := by
  cases post with
  | nil => intro g hg; simp at hg
  | cons x rest =>
    have hx := hh x rfl
    intro g hg
    rcases List.mem_cons.1 hg with rfl | hg
    · exact hx
    · have := (List.pairwise_cons.1 hs).1 g hg
      unfold line_desc at this
      omega

/-- A FUNCTION record (lines 611-645) with the chains in order: the new
function is linked into the chain of its source after the functions of
greater first line and before all the others, and the chains stay in order. -/
theorem read_function_chain (fuel : Nat) (gcno : List Char) (ident checksum : Nat)
    (name source : List Char) (lineno : Nat) (rs rs1 : reader_state) (hb : by_line rs.pair)
    (h : read_function fuel gcno ident checksum name source lineno rs = result.ok rs1) :
    ∃ s pre post,
      rs1.fn = some rs.pair.fns.length ∧ rs1.pair.fns.length = rs.pair.fns.length + 1 ∧
      (rs1.pair.fn rs.pair.fns.length).line = lineno ∧
      (∀ g, g < rs.pair.fns.length → (rs1.pair.fn g).line = (rs.pair.fn g).line) ∧
      (rs.pair.source s).functions = pre ++ post ∧
      (rs1.pair.source s).functions = pre ++ rs.pair.fns.length :: post ∧
      (∀ g ∈ pre, (rs.pair.fn g).line > lineno) ∧ (∀ g ∈ post, (rs.pair.fn g).line ≤ lineno) ∧
      (∀ t, t ≠ s → (rs1.pair.source t).functions = (rs.pair.source t).functions) ∧
      by_line rs1.pair := by
  unfold read_function at h
  cases hf : find_source fuel source gcno rs.pair with
  | none => rw [hf] at h; simp at h
  | some r =>
    obtain ⟨s, p1⟩ := r
    rw [hf] at h
    simp only at h
    injection h with h
    have hsl := find_source_same_lines _ _ _ _ _ _ hf
    have hb1 : by_line p1 := by_line_same _ _ hsl hb
    have hslt : s < p1.srcs.length := find_source_lt _ _ _ _ _ _ hf hb.1
    obtain ⟨q, hq⟩ : ∃ q : pair_state, q = { p1 with
        fns := p1.fns ++ [{ function_info.zero with
          name := name, ident := ident, checksum := checksum, src := s, line := lineno }],
        functions := p1.fns.length :: p1.functions } := ⟨_, rfl⟩
    rw [← hq] at h
    have hqfn : ∀ g, q.fn g = if g = p1.fns.length then { function_info.zero with
          name := name, ident := ident, checksum := checksum, src := s, line := lineno }
        else p1.fn g := by
      intro g; rw [hq]; unfold pair_state.fn; exact fn_getD_append _ _ _
    have hqsrc : ∀ t, q.source t = p1.source t := by intro t; rw [hq]; rfl
    have hqlen : q.fns.length = p1.fns.length + 1 := by rw [hq]; simp
    have hqs : q.srcs = p1.srcs := by rw [hq]
    have hqline : ∀ g, g < p1.fns.length → (q.fn g).line = (p1.fn g).line := by
      intro g hg; rw [hqfn, if_neg (by omega)]
    have hqnew : (q.fn p1.fns.length).line = lineno := by rw [hqfn, if_pos rfl]
    obtain ⟨pre, post, e1, e2, e3, e4⟩ :=
      insert_by_line_spec q p1.fns.length lineno (p1.source s).functions
    have hmem : ∀ g ∈ (p1.source s).functions, g < p1.fns.length := (hb1.2 s).2
    have hsorted : (pre ++ post).Pairwise (line_desc q) := by
      rw [← e1]
      refine List.Pairwise.imp_of_mem ?_ (hb1.2 s).1
      intro f g hf hg hfg
      unfold line_desc at hfg ⊢
      rw [hqline f (hmem f hf), hqline g (hmem g hg)]
      exact hfg
    have e5 : ∀ g ∈ post, (q.fn g).line ≤ lineno :=
      post_le_of_head q lineno post (List.pairwise_append.1 hsorted).2.1 e4
    have hfin : ∀ t, (rs1.pair.source t).functions =
        if t = s then pre ++ p1.fns.length :: post else (p1.source t).functions := by
      intro t
      rw [← h]
      simp only
      rw [source_set_functions, hqs]
      by_cases hts : t = s
      · subst hts
        rw [if_pos ⟨rfl, hslt⟩, if_pos rfl]
        simp only [hqsrc]
        rw [← e2]
        split <;> rfl
      · rw [if_neg (fun hc => hts hc.1.symm), if_neg hts, hqsrc]
    have hfns : rs1.pair.fns = q.fns := by rw [← h]; rfl
    have hfn1 : ∀ g, rs1.pair.fn g = q.fn g := by intro g; unfold pair_state.fn; rw [hfns]
    have hdesc : ∀ f g, line_desc rs1.pair f g ↔ line_desc q f g := by
      intro f g; unfold line_desc; rw [hfn1, hfn1]
    refine ⟨s, pre, post, by rw [← h, hsl.1], by rw [hfns, hqlen, hsl.1], ?_, ?_, ?_, ?_, ?_, ?_, ?_,
      ?_⟩
    · rw [hfn1, ← hsl.1]; exact hqnew
    · intro g hg
      rw [hfn1, hqline g (by rw [hsl.1]; exact hg)]
      exact hsl.2.1 g
    · rw [← hsl.2.2.1 s]; exact e1
    · rw [hfin s, if_pos rfl, hsl.1]
    · intro g hg
      have h1 := e3 g hg
      have h2 : g < p1.fns.length := hmem g (by rw [e1]; exact List.mem_append_left _ hg)
      rw [hqline g h2, hsl.2.1 g] at h1
      exact h1
    · intro g hg
      have h1 := e5 g hg
      have h2 : g < p1.fns.length := hmem g (by rw [e1]; exact List.mem_append_right _ hg)
      rw [hqline g h2, hsl.2.1 g] at h1
      exact h1
    · intro t ht
      rw [hfin t, if_neg ht]
      exact hsl.2.2.1 t
    · refine ⟨?_, fun t => ?_⟩
      · intro t ht
        have : rs1.pair.sources = p1.sources := by rw [← h, hq]; rfl
        rw [this] at ht
        have h3 : rs1.pair.srcs.length = p1.srcs.length := by
          rw [← h]; simp [pair_state.set_source, hqs]
        rw [h3]
        exact hb1.1 t ht
      · rw [hfin t, hfns, hqlen]
        by_cases hts : t = s
        · rw [if_pos hts]
          refine ⟨?_, ?_⟩
          · refine (pairwise_insert_desc q p1.fns.length pre post hsorted ?_ ?_).imp
              (fun {f g} hfg => (hdesc f g).2 hfg)
            · intro g hg; rw [hqnew]; exact e3 g hg
            · intro g hg
              rw [hqnew]
              exact ⟨e5 g hg, hmem g (by rw [e1]; exact List.mem_append_right _ hg)⟩
          · intro f hf
            rcases List.mem_append.1 hf with hf | hf
            · have := hmem f (by rw [e1]; exact List.mem_append_left _ hf); omega
            · rcases List.mem_cons.1 hf with rfl | hf
              · omega
              · have := hmem f (by rw [e1]; exact List.mem_append_right _ hf); omega
        · rw [if_neg hts]
          refine ⟨?_, fun f hf => by have := (hb1.2 t).2 f hf; omega⟩
          refine List.Pairwise.imp_of_mem ?_ (hb1.2 t).1
          intro f g hf hg hfg
          rw [hdesc]
          unfold line_desc at hfg ⊢
          rw [hqline f ((hb1.2 t).2 f hf), hqline g ((hb1.2 t).2 g hg)]
          exact hfg

theorem read_record_by_line (fuel : Nat) (gcno : List Char) (r : note_record)
    (rs rs1 : reader_state) (hb : by_line rs.pair)
    (h : read_record fuel gcno r rs = result.ok rs1) : by_line rs1.pair := by
  unfold read_record at h
  simp only at h
  split at h
  · obtain ⟨_, _, _, _, _, _, _, _, _, _, _, _, hx⟩ :=
      read_function_chain _ _ _ _ _ _ _ _ _ hb h
    exact hx
  · injection h with h; subst h
    exact by_line_same _ _ (read_blocks_same_lines _ _ _) hb
  · exact by_line_same _ _ (read_arcs_same_lines _ _ _ _ _ h) hb
  · exact by_line_same _ _ (read_lines_same_lines _ _ _ _ _ _ _ h) hb
  · injection h with h; subst h
    split <;> exact hb
  · injection h with h; subst h; exact hb

theorem read_records_by_line (fuel : Nat) (gcno : List Char) (recs : List (note_record × Bool)) :
    ∀ (rs rs1 : reader_state), by_line rs.pair →
      read_records fuel gcno recs rs = result.ok rs1 → by_line rs1.pair := by
  induction recs with
  | nil => intro rs rs1 hb h; simp only [read_records] at h; injection h with h; subst h; exact hb
  | cons r rest ih =>
    intro rs rs1 hb h
    obtain ⟨r, se⟩ := r
    simp only [read_records] at h
    cases hr : read_record fuel gcno r rs with
    | ok rs2 =>
      rw [hr] at h
      simp only at h
      split at h
      · simp at h
      · exact ih rs2 rs1 (read_record_by_line _ _ _ _ _ hb hr) h
    | error => rw [hr] at h; simp at h
    | undefined => rw [hr] at h; simp at h

theorem by_line_init (stamp : Nat) : by_line (reader_init stamp).pair := by
  refine ⟨fun s hs => by simp [reader_init, pair_state.empty] at hs, fun s => ?_⟩
  have : ((reader_init stamp).pair.source s).functions = [] := by
    simp [reader_init, pair_state.empty, pair_state.source, source_info.new]
  rw [this]
  exact ⟨List.Pairwise.nil, fun f hf => by simp at hf⟩

theorem line_asc_reverse (p : pair_state) (l : List Nat) (h : l.Pairwise (line_desc p)) :
    l.reverse.Pairwise (line_asc p) := by
  rw [List.pairwise_reverse]
  refine h.imp ?_
  intro f g hfg
  unfold line_desc at hfg
  unfold line_asc
  omega

/-- C26: after a FUNCTION record, read in the state `rs` that the reader
reached on any records before it, the new function (the one read last) is
linked into the chain of functions of its source `s` after the functions of
greater first line and before those of the same or a smaller first line, the
chain holds the functions it held and the other chains are as they were;
every chain is in descending order of first line, later functions first
among those of one first line, and so its reversal (the first step of
`accumulate_line_counts`) is in ascending order of first line with the
functions of one first line in the order read. -/
theorem read_function_by_line (stamp fuel : Nat) (gcno : List Char)
    (recs : List (note_record × Bool)) (rs rs1 : reader_state) (ident checksum : Nat)
    (name source : List Char) (lineno : Nat)
    (h0 : read_records fuel gcno recs (reader_init stamp) = result.ok rs)
    (h : read_function fuel gcno ident checksum name source lineno rs = result.ok rs1) :
    ∃ s pre post,
      rs1.fn = some rs.pair.fns.length ∧ rs1.pair.fns.length = rs.pair.fns.length + 1 ∧
      (rs1.pair.fn rs.pair.fns.length).line = lineno ∧
      (∀ g, g < rs.pair.fns.length → (rs1.pair.fn g).line = (rs.pair.fn g).line) ∧
      (rs.pair.source s).functions = pre ++ post ∧
      (rs1.pair.source s).functions = pre ++ rs.pair.fns.length :: post ∧
      (∀ g ∈ pre, (rs.pair.fn g).line > lineno) ∧ (∀ g ∈ post, (rs.pair.fn g).line ≤ lineno) ∧
      (∀ t, t ≠ s → (rs1.pair.source t).functions = (rs.pair.source t).functions) ∧
      (∀ t, (rs1.pair.source t).functions.Pairwise
        (fun f g => (rs1.pair.fn f).line ≥ (rs1.pair.fn g).line)) ∧
      (∀ t, (rs1.pair.source t).functions.Pairwise (line_desc rs1.pair)) ∧
      (∀ t, (rs1.pair.source t).functions.reverse.Pairwise
        (fun f g => (rs1.pair.fn f).line ≤ (rs1.pair.fn g).line)) ∧
      (∀ t, (rs1.pair.source t).functions.reverse.Pairwise (line_asc rs1.pair)) := by
  have hb := read_records_by_line fuel gcno recs _ _ (by_line_init stamp) h0
  obtain ⟨s, pre, post, a1, a2, a3, a4, a5, a6, a7, a8, a9, a10⟩ :=
    read_function_chain _ _ _ _ _ _ _ _ _ hb h
  refine ⟨s, pre, post, a1, a2, a3, a4, a5, a6, a7, a8, a9, ?_, fun t => (a10.2 t).1, ?_,
    fun t => line_asc_reverse _ _ (a10.2 t).1⟩
  · intro t
    refine (a10.2 t).1.imp ?_
    intro f g hfg
    unfold line_desc at hfg
    omega
  · intro t
    refine (line_asc_reverse _ _ (a10.2 t).1).imp ?_
    intro f g hfg
    unfold line_asc at hfg
    omega

/-- Witness of C26: two functions of `a.c` with first line 3; the second is
put at the head of the chain, `[1, 0]`. -/
theorem read_function_by_line_witness :
    read_records 8 (skew_pair 0 0).gcno twin_records (reader_init 7) = result.ok twin_first ∧
    read_function 8 (skew_pair 0 0).gcno 2 22 ['g'] a_c 3 twin_first = result.ok twin_second ∧
    (twin_first.pair.source 0).functions = [0] ∧
    (twin_second.pair.source 0).functions = [1, 0] ∧
    ∃ s pre post,
      twin_second.fn = some twin_first.pair.fns.length ∧
      twin_second.pair.fns.length = twin_first.pair.fns.length + 1 ∧
      (twin_second.pair.fn twin_first.pair.fns.length).line = 3 ∧
      (∀ g, g < twin_first.pair.fns.length →
        (twin_second.pair.fn g).line = (twin_first.pair.fn g).line) ∧
      (twin_first.pair.source s).functions = pre ++ post ∧
      (twin_second.pair.source s).functions = pre ++ twin_first.pair.fns.length :: post ∧
      (∀ g ∈ pre, (twin_first.pair.fn g).line > 3) ∧ (∀ g ∈ post, (twin_first.pair.fn g).line ≤ 3) ∧
      (∀ t, t ≠ s → (twin_second.pair.source t).functions = (twin_first.pair.source t).functions) ∧
      (∀ t, (twin_second.pair.source t).functions.Pairwise
        (fun f g => (twin_second.pair.fn f).line ≥ (twin_second.pair.fn g).line)) ∧
      (∀ t, (twin_second.pair.source t).functions.Pairwise (line_desc twin_second.pair)) ∧
      (∀ t, (twin_second.pair.source t).functions.reverse.Pairwise
        (fun f g => (twin_second.pair.fn f).line ≤ (twin_second.pair.fn g).line)) ∧
      (∀ t, (twin_second.pair.source t).functions.reverse.Pairwise (line_asc twin_second.pair)) :=
  ⟨by decide, by decide, by decide, by decide,
   read_function_by_line 7 8 (skew_pair 0 0).gcno twin_records twin_first twin_second 2 22 ['g'] a_c 3
     (by decide) (by decide)⟩

/-! ### The body of the invalid loop -/

theorem solve_invalid_step_spec (b : Nat) (st : solve_state) (hb : b < st.blocks.length) :
    (∃ total, marked b total st (solve_invalid_step b st)) ∨
    ((blk st.blocks b).num_succ ≠ 0 ∧ (blk st.blocks b).num_pred ≠ 0 ∧
      same_counts st (solve_invalid_step b st) ∧
      (solve_invalid_step b st).invalid_blocks = st.invalid_blocks.tail ∧
      (solve_invalid_step b st).valid_blocks = st.valid_blocks ∧
      (∀ j, j ≠ b → blk (solve_invalid_step b st).blocks j = blk st.blocks j) ∧
      (blk (solve_invalid_step b st).blocks b).invalid_chain = false ∧
      (blk (solve_invalid_step b st).blocks b).valid_chain = (blk st.blocks b).valid_chain) := by
  have hmark : ∀ t : Int,
      (((blk st.blocks b).num_succ = 0 ∧ t = sum_counts st.arcs (blk st.blocks b).succ) ∨
        ((blk st.blocks b).num_succ ≠ 0 ∧ (blk st.blocks b).num_pred = 0 ∧
          t = sum_counts st.arcs (blk st.blocks b).pred)) →
      marked b t st
        { st with
          invalid_blocks := st.invalid_blocks.tail,
          blocks := (st.blocks.set b { blk st.blocks b with invalid_chain := false }).set b
            { blk st.blocks b with invalid_chain := false, count := t, count_valid := true,
                                      valid_chain := true },
          valid_blocks := b :: st.valid_blocks } := by
    intro t ht
    have hbb : blk ((st.blocks.set b { blk st.blocks b with invalid_chain := false }).set b
            { blk st.blocks b with invalid_chain := false, count := t, count_valid := true,
                                      valid_chain := true }) b =
        { blk st.blocks b with invalid_chain := false, count := t, count_valid := true,
                                      valid_chain := true } := by
      rw [blk_set, if_pos ⟨rfl, by simpa using hb⟩]
    refine ⟨rfl, by simp, ?_, ?_, ?_, ?_, ⟨rfl, rfl⟩, ht⟩
    · intro j hj
      simp only
      rw [blk_set, if_neg (fun h => hj h.1.symm), blk_set, if_neg (fun h => hj h.1.symm)]
    · simp only; rw [hbb]; exact ⟨rfl, rfl, rfl, rfl⟩
    · simp only; rw [hbb]; exact ⟨rfl, rfl⟩
    · simp only; rw [hbb]; exact ⟨rfl, rfl⟩
  unfold solve_invalid_step
  dsimp only
  by_cases h1 : (blk st.blocks b).num_succ = 0
  · left
    refine ⟨sum_counts st.arcs (blk st.blocks b).succ, ?_⟩
    rw [if_pos h1]
    exact hmark _ (Or.inl ⟨h1, rfl⟩)
  · by_cases h2 : (blk st.blocks b).num_pred = 0
    · left
      refine ⟨sum_counts st.arcs (blk st.blocks b).pred, ?_⟩
      rw [if_neg h1, if_pos h2]
      exact hmark _ (Or.inr ⟨h1, h2, rfl⟩)
    · right
      rw [if_neg h1, if_neg h2]
      have hbb : blk (st.blocks.set b { blk st.blocks b with invalid_chain := false }) b =
          { blk st.blocks b with invalid_chain := false } := by
        rw [blk_set, if_pos ⟨rfl, hb⟩]
      have hj : ∀ j, j ≠ b →
          blk (st.blocks.set b { blk st.blocks b with invalid_chain := false }) j = blk st.blocks j := by
        intro j hj
        rw [blk_set, if_neg (fun h => hj h.1.symm)]
      refine ⟨h1, h2, ⟨rfl, by simp, ?_⟩, rfl, rfl, hj, by rw [hbb], by rw [hbb]⟩
      intro j
      by_cases e : j = b
      · subst e; simp only; rw [hbb]; exact ⟨rfl, rfl, rfl, rfl, rfl, rfl⟩
      · simp only; rw [hj j e]; exact ⟨rfl, rfl, rfl, rfl, rfl, rfl⟩

theorem graph_inv_congr (fn : function_info) (st st1 : solve_state) (hg : graph_inv fn st)
    (ha : st1.arcs = st.arcs) (hl : st1.blocks.length = st.blocks.length)
    (hb : ∀ j, (blk st1.blocks j).succ = (blk st.blocks j).succ ∧
      (blk st1.blocks j).pred = (blk st.blocks j).pred ∧
      (blk st1.blocks j).num_succ = (blk st.blocks j).num_succ ∧
      (blk st1.blocks j).num_pred = (blk st.blocks j).num_pred) : graph_inv fn st1 := by
  refine ⟨hl.trans hg.blen, by rw [ha]; exact hg.alen, by rw [ha]; exact hg.frame, ?_, ?_,
    by rw [ha]; exact hg.off, ?_, ?_⟩
  · intro j; rw [(hb j).2.1]; exact hg.preds j
  · intro j; rw [(hb j).1]; exact hg.succs j
  · intro j; rw [(hb j).2.2.1, ha]; exact hg.nsucc j
  · intro j; rw [(hb j).2.2.2, ha]; exact hg.npred j

theorem same_counts_graph_inv (fn : function_info) (st st1 : solve_state) (hg : graph_inv fn st)
    (h : same_counts st st1) : graph_inv fn st1 :=
  graph_inv_congr fn st st1 hg h.1 h.2.1
    (fun j => ⟨(h.2.2 j).1, (h.2.2 j).2.1, (h.2.2 j).2.2.1, (h.2.2 j).2.2.2.1⟩)

theorem marked_blk (b : Nat) (total : Int) (st st1 : solve_state) (h : marked b total st st1)
    (j : Nat) :
    (blk st1.blocks j).succ = (blk st.blocks j).succ ∧
    (blk st1.blocks j).pred = (blk st.blocks j).pred ∧
    (blk st1.blocks j).num_succ = (blk st.blocks j).num_succ ∧
    (blk st1.blocks j).num_pred = (blk st.blocks j).num_pred := by
  by_cases e : j = b
  · subst e; exact h.hsame
  · rw [h.hother j e]; exact ⟨rfl, rfl, rfl, rfl⟩

theorem marked_graph_inv (fn : function_info) (b : Nat) (total : Int) (st st1 : solve_state)
    (hg : graph_inv fn st) (h : marked b total st st1) : graph_inv fn st1 :=
  graph_inv_congr fn st st1 hg h.harcs h.hlen (marked_blk b total st st1 h)

theorem countP_range_flip (f g : Nat → Bool) (b : Nat) (hfb : f b = true) (hgb : g b = false)
    (h : ∀ j, j ≠ b → g j = f j) :
    ∀ n, (List.range n).countP g + (if b < n then 1 else 0) = (List.range n).countP f := by
  intro n
  induction n with
  | zero => simp
  | succ k ih =>
    rw [List.range_succ, List.countP_append, List.countP_append]
    simp only [List.countP_cons, List.countP_nil, Nat.zero_add]
    by_cases e : k = b
    · subst e
      rw [hfb, hgb]
      simp only [Nat.lt_irrefl, if_false, Nat.add_zero] at ih
      simp only [Nat.lt_succ_self, if_true, Bool.false_eq_true, if_false]
      omega
    · rw [h k e]
      by_cases hlt : b < k
      · rw [if_pos hlt] at ih
        rw [if_pos (show b < k + 1 by omega)]
        omega
      · rw [if_neg hlt] at ih
        rw [if_neg (show ¬ b < k + 1 by omega)]
        omega

theorem countP_range_same (f g : Nat → Bool) (h : ∀ j, g j = f j) (n : Nat) :
    (List.range n).countP g = (List.range n).countP f := by
  have : g = f := funext h
  rw [this]

theorem marked_measure (fn : function_info) (b : Nat) (total : Int) (st st1 : solve_state)
    (rest : List Nat) (hl : st.invalid_blocks = b :: rest) (hb : b < fn.num_blocks)
    (hv : (blk st.blocks b).count_valid = false) (h : marked b total st st1) :
    solve_measure fn st1 + 2 ≤ solve_measure fn st := by
  unfold solve_measure
  rw [h.harcs, h.hlists.1, h.hlists.2, hl]
  have := countP_range_flip (fun j => !(blk st.blocks j).count_valid)
    (fun j => !(blk st1.blocks j).count_valid) b (by simp [hv]) (by simp [h.hcount.2])
    (fun j hj => by simp only; rw [h.hother j hj]) fn.num_blocks
  rw [if_pos hb] at this
  simp only [List.tail_cons, List.length_cons]
  omega

theorem same_counts_measure (fn : function_info) (st st1 : solve_state) (h : same_counts st st1) :
    solve_measure fn st1 + st.invalid_blocks.length + st.valid_blocks.length =
      solve_measure fn st + st1.invalid_blocks.length + st1.valid_blocks.length := by
  unfold solve_measure
  rw [h.1]
  have := countP_range_same (fun j => !(blk st.blocks j).count_valid)
    (fun j => !(blk st1.blocks j).count_valid)
    (fun j => by simp only; rw [(h.2.2 j).2.2.2.2.2]) fn.num_blocks
  omega

theorem marked_list_inv (fn : function_info) (b : Nat) (total : Int) (st st1 : solve_state)
    (rest : List Nat) (hl : st.invalid_blocks = b :: rest)
    (hi : list_inv fn (fun _ => False) (fun _ => False) st) (h : marked b total st st1) :
    list_inv fn (fun _ => False) (fun _ => False) st1 := by
  have hnd : b ∉ rest ∧ rest.Nodup := by
    have := hi.inv_nodup; rw [hl] at this; exact List.nodup_cons.1 this
  have hbl := hi.inv_lt b (by rw [hl]; exact List.mem_cons_self _ _)
  have hbv : b ∉ st.valid_blocks := by
    intro hc
    have := (hi.val_lt b hc).2
    rw [hbl.2] at this; exact absurd this (by decide)
  have hmem : ∀ j, j ≠ b → (j ∈ st.invalid_blocks ↔ j ∈ rest) := by
    intro j hj; rw [hl, List.mem_cons]; exact ⟨fun h => h.resolve_left hj, Or.inr⟩
  have hq := marked_blk b total st st1 h
  refine ⟨?_, ?_, ?_, ?_, ?_, ?_, ?_, ?_, ?_, ?_⟩
  · intro j
    rw [h.hlists.1, hl, List.tail_cons]
    by_cases e : j = b
    · subst e; rw [h.hflags.2]; exact ⟨fun hc => absurd hc (by decide), fun hc => absurd hc hnd.1⟩
    · rw [h.hother j e, ← hmem j e]; exact hi.inv_mem j
  · intro j
    rw [h.hlists.2, List.mem_cons]
    by_cases e : j = b
    · subst e; rw [h.hflags.1]; exact ⟨fun _ => Or.inl rfl, fun _ => rfl⟩
    · rw [h.hother j e]
      exact ⟨fun hc => Or.inr ((hi.val_mem j).1 hc), fun hc => (hi.val_mem j).2 (hc.resolve_left e)⟩
  · rw [h.hlists.1, hl, List.tail_cons]; exact hnd.2
  · rw [h.hlists.2]; exact List.nodup_cons.2 ⟨hbv, hi.val_nodup⟩
  · intro j hj
    rw [h.hlists.1, hl, List.tail_cons] at hj
    have e : j ≠ b := fun hc => hnd.1 (hc ▸ hj)
    rw [h.hother j e]
    exact hi.inv_lt j ((hmem j e).2 hj)
  · intro j hj
    rw [h.hlists.2, List.mem_cons] at hj
    rcases hj with rfl | hj
    · exact ⟨hbl.1, h.hcount.2⟩
    · have e : j ≠ b := fun hc => hbv (hc ▸ hj)
      rw [h.hother j e]
      exact hi.val_lt j hj
  · intro j hj hv hs
    by_cases e : j = b
    · subst e; rw [h.hcount.2] at hv; exact absurd hv (by decide)
    · rw [h.hother j e] at hv hs
      rw [h.hlists.1, hl, List.tail_cons]
      exact Or.inl ((hmem j e).1 ((hi.inv_s j hj hv hs).resolve_right id))
  · intro j hj hv hs
    by_cases e : j = b
    · subst e; rw [h.hcount.2] at hv; exact absurd hv (by decide)
    · rw [h.hother j e] at hv hs
      rw [h.hlists.1, hl, List.tail_cons]
      exact Or.inl ((hmem j e).1 ((hi.inv_p j hj hv hs).resolve_right id))
  · intro j hj hv hs
    rw [h.hlists.2]
    by_cases e : j = b
    · subst e; exact Or.inl (List.mem_cons_self _ _)
    · rw [h.hother j e] at hv hs
      exact Or.inl (List.mem_cons_of_mem _ ((hi.val_s j hj hv hs).resolve_right id))
  · intro j hj hv hs
    rw [h.hlists.2]
    by_cases e : j = b
    · subst e; exact Or.inl (List.mem_cons_self _ _)
    · rw [h.hother j e] at hv hs
      exact Or.inl (List.mem_cons_of_mem _ ((hi.val_p j hj hv hs).resolve_right id))

/-- The body of the invalid loop for a block with pending exits and pending
entries: the block leaves the list, nothing else changes. -/
theorem skipped_list_inv (fn : function_info) (b : Nat) (st st1 : solve_state)
    (rest : List Nat) (hl : st.invalid_blocks = b :: rest)
    (hi : list_inv fn (fun _ => False) (fun _ => False) st)
    (hs : (blk st.blocks b).num_succ ≠ 0) (hp : (blk st.blocks b).num_pred ≠ 0)
    (hsc : same_counts st st1) (h1 : st1.invalid_blocks = st.invalid_blocks.tail)
    (h2 : st1.valid_blocks = st.valid_blocks)
    (h3 : ∀ j, j ≠ b → blk st1.blocks j = blk st.blocks j)
    (h4 : (blk st1.blocks b).invalid_chain = false)
    (h5 : (blk st1.blocks b).valid_chain = (blk st.blocks b).valid_chain) :
    list_inv fn (fun _ => False) (fun _ => False) st1 := by
  have hnd : b ∉ rest ∧ rest.Nodup := by
    have := hi.inv_nodup; rw [hl] at this; exact List.nodup_cons.1 this
  have hmem : ∀ j, j ≠ b → (j ∈ st.invalid_blocks ↔ j ∈ rest) := by
    intro j hj; rw [hl, List.mem_cons]; exact ⟨fun h => h.resolve_left hj, Or.inr⟩
  have hf : ∀ j, (blk st1.blocks j).num_succ = (blk st.blocks j).num_succ ∧
      (blk st1.blocks j).num_pred = (blk st.blocks j).num_pred ∧
      (blk st1.blocks j).count_valid = (blk st.blocks j).count_valid :=
    fun j => ⟨(hsc.2.2 j).2.2.1, (hsc.2.2 j).2.2.2.1, (hsc.2.2 j).2.2.2.2.2⟩
  have hvc : ∀ j, (blk st1.blocks j).valid_chain = (blk st.blocks j).valid_chain := by
    intro j
    by_cases e : j = b
    · subst e; exact h5
    · rw [h3 j e]
  rw [hl, List.tail_cons] at h1
  refine ⟨?_, ?_, ?_, ?_, ?_, ?_, ?_, ?_, ?_, ?_⟩
  · intro j
    rw [h1]
    by_cases e : j = b
    · subst e; rw [h4]; exact ⟨fun hc => absurd hc (by decide), fun hc => absurd hc hnd.1⟩
    · rw [h3 j e, ← hmem j e]; exact hi.inv_mem j
  · intro j; rw [h2, hvc j]; exact hi.val_mem j
  · rw [h1]; exact hnd.2
  · rw [h2]; exact hi.val_nodup
  · intro j hj
    rw [h1] at hj
    have e : j ≠ b := fun hc => hnd.1 (hc ▸ hj)
    rw [(hf j).2.2]
    exact hi.inv_lt j ((hmem j e).2 hj)
  · intro j hj
    rw [h2] at hj
    rw [(hf j).2.2]
    exact hi.val_lt j hj
  · intro j hj hv hz
    rw [(hf j).2.2] at hv; rw [(hf j).1] at hz
    by_cases e : j = b
    · subst e; exact absurd hz hs
    · rw [h1]; exact Or.inl ((hmem j e).1 ((hi.inv_s j hj hv hz).resolve_right id))
  · intro j hj hv hz
    rw [(hf j).2.2] at hv; rw [(hf j).2.1] at hz
    by_cases e : j = b
    · subst e; exact absurd hz hp
    · rw [h1]; exact Or.inl ((hmem j e).1 ((hi.inv_p j hj hv hz).resolve_right id))
  · intro j hj hv hz
    rw [(hf j).2.2] at hv; rw [(hf j).1] at hz
    rw [h2]; exact hi.val_s j hj hv hz
  · intro j hj hv hz
    rw [(hf j).2.2] at hv; rw [(hf j).2.1] at hz
    rw [h2]; exact hi.val_p j hj hv hz

/-! ### The work-lists after a deduction -/

theorem requeued_lists (fn : function_info) (exs exp : Nat → Prop) (o : Nat) (pending : Int)
    (st st1 : solve_state) (hi : list_inv fn exs exp st) (hq : requeued o pending st st1)
    (hfl : ∀ j, j ≠ o → (blk st1.blocks j).valid_chain = (blk st.blocks j).valid_chain ∧
      (blk st1.blocks j).invalid_chain = (blk st.blocks j).invalid_chain)
    (hcv : ∀ j, (blk st1.blocks j).count_valid = (blk st.blocks j).count_valid)
    (ho : o < fn.num_blocks) :
    (∀ j, j ∈ st.invalid_blocks → j ∈ st1.invalid_blocks) ∧
    (∀ j, j ∈ st.valid_blocks → j ∈ st1.valid_blocks) ∧
    (∀ j, (blk st1.blocks j).invalid_chain = true ↔ j ∈ st1.invalid_blocks) ∧
    (∀ j, (blk st1.blocks j).valid_chain = true ↔ j ∈ st1.valid_blocks) ∧
    st1.invalid_blocks.Nodup ∧ st1.valid_blocks.Nodup ∧
    (∀ j, j ∈ st1.invalid_blocks → j < fn.num_blocks ∧ (blk st1.blocks j).count_valid = false) ∧
    (∀ j, j ∈ st1.valid_blocks → j < fn.num_blocks ∧ (blk st1.blocks j).count_valid = true) ∧
    ((blk st.blocks o).count_valid = true → pending = 1 → o ∈ st1.valid_blocks) ∧
    ((blk st.blocks o).count_valid = false → pending = 0 → o ∈ st1.invalid_blocks) := by
  rcases hq with ⟨q1, q2, q3, q4, q5, q6⟩ | ⟨q1, q2, q3, q4, q5, q6⟩ | ⟨q1, q2, q3, q4, q5, q6⟩
  · have hno : o ∉ st.valid_blocks := by
      intro hc; rw [(hi.val_mem o).2 hc] at q6; exact absurd q6 (by decide)
    refine ⟨fun j hj => by rw [q2]; exact hj, fun j hj => by rw [q1]; exact List.mem_cons_of_mem _ hj,
      ?_, ?_, by rw [q2]; exact hi.inv_nodup, by rw [q1]; exact List.nodup_cons.2 ⟨hno, hi.val_nodup⟩,
      ?_, ?_, fun _ _ => by rw [q1]; exact List.mem_cons_self _ _, ?_⟩
    · intro j
      rw [q2]
      by_cases e : j = o
      · subst e; rw [q4]; exact hi.inv_mem j
      · rw [(hfl j e).2]; exact hi.inv_mem j
    · intro j
      rw [q1, List.mem_cons]
      by_cases e : j = o
      · subst e; rw [q3]; exact ⟨fun _ => Or.inl rfl, fun _ => rfl⟩
      · rw [(hfl j e).1]
        exact ⟨fun hc => Or.inr ((hi.val_mem j).1 hc), fun hc => (hi.val_mem j).2 (hc.resolve_left e)⟩
    · intro j hj; rw [q2] at hj; rw [hcv j]; exact hi.inv_lt j hj
    · intro j hj
      rw [q1, List.mem_cons] at hj
      rw [hcv j]
      rcases hj with rfl | hj
      · exact ⟨ho, q5⟩
      · exact hi.val_lt j hj
    · intro hc; rw [q5] at hc; exact absurd hc (by decide)
  · have hno : o ∉ st.invalid_blocks := by
      intro hc; rw [(hi.inv_mem o).2 hc] at q6; exact absurd q6 (by decide)
    refine ⟨fun j hj => by rw [q1]; exact List.mem_cons_of_mem _ hj, fun j hj => by rw [q2]; exact hj,
      ?_, ?_, by rw [q1]; exact List.nodup_cons.2 ⟨hno, hi.inv_nodup⟩, by rw [q2]; exact hi.val_nodup,
      ?_, ?_, ?_, fun _ _ => by rw [q1]; exact List.mem_cons_self _ _⟩
    · intro j
      rw [q1, List.mem_cons]
      by_cases e : j = o
      · subst e; rw [q3]; exact ⟨fun _ => Or.inl rfl, fun _ => rfl⟩
      · rw [(hfl j e).2]
        exact ⟨fun hc => Or.inr ((hi.inv_mem j).1 hc), fun hc => (hi.inv_mem j).2 (hc.resolve_left e)⟩
    · intro j
      rw [q2]
      by_cases e : j = o
      · subst e; rw [q4]; exact hi.val_mem j
      · rw [(hfl j e).1]; exact hi.val_mem j
    · intro j hj
      rw [q1, List.mem_cons] at hj
      rw [hcv j]
      rcases hj with rfl | hj
      · exact ⟨ho, q5⟩
      · exact hi.inv_lt j hj
    · intro j hj; rw [q2] at hj; rw [hcv j]; exact hi.val_lt j hj
    · intro hc; rw [q5] at hc; exact absurd hc (by decide)
  · have hfl2 : ∀ j, (blk st1.blocks j).valid_chain = (blk st.blocks j).valid_chain ∧
        (blk st1.blocks j).invalid_chain = (blk st.blocks j).invalid_chain := by
      intro j
      by_cases e : j = o
      · subst e; exact ⟨q3, q4⟩
      · exact hfl j e
    refine ⟨fun j hj => by rw [q2]; exact hj, fun j hj => by rw [q1]; exact hj,
      ?_, ?_, by rw [q2]; exact hi.inv_nodup, by rw [q1]; exact hi.val_nodup, ?_, ?_, ?_, ?_⟩
    · intro j; rw [q2, (hfl2 j).2]; exact hi.inv_mem j
    · intro j; rw [q1, (hfl2 j).1]; exact hi.val_mem j
    · intro j hj; rw [q2] at hj; rw [hcv j]; exact hi.inv_lt j hj
    · intro j hj; rw [q1] at hj; rw [hcv j]; exact hi.val_lt j hj
    · intro h1 h2; rw [q1]; exact (hi.val_mem o).1 (q5 h1 h2)
    · intro h1 h2; rw [q2]; exact (hi.inv_mem o).1 (q6 h1 h2)

/-- The work-lists after the deduction of an exit arc of the block `v`, whose
exit counter is exempt. -/
theorem deduced_exit_list_inv (fn : function_info) (exs exp : Nat → Prop) (v o ia : Nat)
    (total : Int) (st st1 : solve_state) (hi : list_inv fn exs exp st)
    (hd : deduced v o ia true total st st1) (hex : exs v) (ho : o < fn.num_blocks) :
    list_inv fn exs exp st1 := by
  have hends : (arc st.arcs ia).src = v ∧ (arc st.arcs ia).dst = o := by
    have := hd.hends; simpa using this
  have hq : requeued o (blk st1.blocks o).num_pred st st1 := by
    have := hd.hq; simpa using this
  have hcv : ∀ j, (blk st1.blocks j).count_valid = (blk st.blocks j).count_valid :=
    fun j => (hd.hsame j).2.2.2
  obtain ⟨m1, m2, f1, f2, n1, n2, l1, l2, q1, q2⟩ :=
    requeued_lists fn exs exp o _ st st1 hi hq hd.hflags hcv ho
  refine ⟨f1, f2, n1, n2, l1, l2, ?_, ?_, ?_, ?_⟩
  · intro j hj hv hz
    by_cases e : j = v
    · subst e; exact Or.inr hex
    · rw [hcv j] at hv
      rw [hd.hns j, hends.1, if_neg e] at hz
      exact (hi.inv_s j hj hv hz).imp (m1 j) id
  · intro j hj hv hz
    rw [hcv j] at hv
    by_cases e : j = o
    · subst e; exact Or.inl (q2 hv hz)
    · rw [hd.hnp j, hends.2, if_neg e] at hz
      exact (hi.inv_p j hj hv hz).imp (m1 j) id
  · intro j hj hv hz
    by_cases e : j = v
    · subst e; exact Or.inr hex
    · rw [hcv j] at hv
      rw [hd.hns j, hends.1, if_neg e] at hz
      exact (hi.val_s j hj hv hz).imp (m2 j) id
  · intro j hj hv hz
    rw [hcv j] at hv
    by_cases e : j = o
    · subst e; exact Or.inl (q1 hv hz)
    · rw [hd.hnp j, hends.2, if_neg e] at hz
      exact (hi.val_p j hj hv hz).imp (m2 j) id

/-- The work-lists after the deduction of an entry arc of the block `v`,
whose entry counter is exempt. -/
theorem deduced_entry_list_inv (fn : function_info) (exs exp : Nat → Prop) (v o ia : Nat)
    (total : Int) (st st1 : solve_state) (hi : list_inv fn exs exp st)
    (hd : deduced v o ia false total st st1) (hex : exp v) (ho : o < fn.num_blocks) :
    list_inv fn exs exp st1 := by
  have hends : (arc st.arcs ia).dst = v ∧ (arc st.arcs ia).src = o := by
    have := hd.hends; simpa using this
  have hq : requeued o (blk st1.blocks o).num_succ st st1 := by
    have := hd.hq; simpa using this
  have hcv : ∀ j, (blk st1.blocks j).count_valid = (blk st.blocks j).count_valid :=
    fun j => (hd.hsame j).2.2.2
  obtain ⟨m1, m2, f1, f2, n1, n2, l1, l2, q1, q2⟩ :=
    requeued_lists fn exs exp o _ st st1 hi hq hd.hflags hcv ho
  refine ⟨f1, f2, n1, n2, l1, l2, ?_, ?_, ?_, ?_⟩
  · intro j hj hv hz
    rw [hcv j] at hv
    by_cases e : j = o
    · subst e; exact Or.inl (q2 hv hz)
    · rw [hd.hns j, hends.2, if_neg e] at hz
      exact (hi.inv_s j hj hv hz).imp (m1 j) id
  · intro j hj hv hz
    by_cases e : j = v
    · subst e; exact Or.inr hex
    · rw [hcv j] at hv
      rw [hd.hnp j, hends.1, if_neg e] at hz
      exact (hi.inv_p j hj hv hz).imp (m1 j) id
  · intro j hj hv hz
    rw [hcv j] at hv
    by_cases e : j = o
    · subst e; exact Or.inl (q1 hv hz)
    · rw [hd.hns j, hends.2, if_neg e] at hz
      exact (hi.val_s j hj hv hz).imp (m2 j) id
  · intro j hj hv hz
    by_cases e : j = v
    · subst e; exact Or.inr hex
    · rw [hcv j] at hv
      rw [hd.hnp j, hends.1, if_neg e] at hz
      exact (hi.val_p j hj hv hz).imp (m2 j) id

theorem deduced_arc (v o ia : Nat) (ex : Bool) (total : Int) (st st1 : solve_state)
    (hd : deduced v o ia ex total st st1) (hia : ia < st.arcs.length) (a : Nat) :
    arc st1.arcs a =
      if a = ia then { arc st.arcs ia with count_valid := true, count := total } else arc st.arcs a := by
  rw [hd.harcs, arc_set]
  by_cases e : a = ia
  · subst e; rw [if_pos ⟨rfl, hia⟩, if_pos rfl]
  · rw [if_neg (fun h => e h.1.symm), if_neg e]

theorem deduced_graph_inv (fn : function_info) (hl : arcs_linked fn) (v o ia : Nat) (ex : Bool)
    (total : Int) (st st1 : solve_state) (hg : graph_inv fn st)
    (hd : deduced v o ia ex total st st1) (hia : ia < fn.arcs.length)
    (hiv : (arc st.arcs ia).count_valid = false) : graph_inv fn st1 := by
  have hia2 : ia < st.arcs.length := by rw [hg.alen]; exact hia
  have harc := deduced_arc v o ia ex total st st1 hd hia2
  have hoth : ∀ a, a ≠ ia → (arc st1.arcs a).count_valid = (arc st.arcs a).count_valid := by
    intro a ha; rw [harc a, if_neg ha]
  have h1 : (arc st1.arcs ia).count_valid = true := by rw [harc ia, if_pos rfl]
  have hsrc : (arc st.arcs ia).src = (arc fn.arcs ia).src := (hg.frame ia).1
  have hdst : (arc st.arcs ia).dst = (arc fn.arcs ia).dst := (hg.frame ia).2.1
  refine ⟨hd.hlen.trans hg.blen, by rw [hd.harcs, List.length_set]; exact hg.alen, ?_, ?_, ?_, ?_,
    ?_, ?_⟩
  · intro a
    rw [harc a]
    by_cases e : a = ia
    · subst e; rw [if_pos rfl]; exact hg.frame a
    · rw [if_neg e]; exact hg.frame a
  · intro j; rw [(hd.hsame j).2.1]; exact hg.preds j
  · intro j; rw [(hd.hsame j).1]; exact hg.succs j
  · intro a ha hv
    have e : a ≠ ia := by intro hc; subst hc; rw [h1] at hv; exact absurd hv (by decide)
    rw [hoth a e] at hv
    rw [harc a, if_neg e]
    exact hg.off a ha hv
  · intro j
    have hf := inv_count_flip st.arcs st1.arcs ia hoth hiv h1 (blk fn.blocks j).succ
    rw [linked_count_succ fn hl ia hia j] at hf
    rw [hd.hns j, hsrc]
    by_cases e : j = (arc fn.arcs ia).src
    · rw [if_pos e] at hf ⊢
      rcases hg.nsucc j with h | ⟨_, h, _⟩
      · left; rw [h]; omega
      · have hm := (linked_mem_succ fn hl ia hia j).2 e
        rw [h] at hm; simp at hm
    · rw [if_neg e] at hf ⊢
      rcases hg.nsucc j with h | h
      · left; rw [h]; omega
      · right; exact h
  · intro j
    have hf := inv_count_flip st.arcs st1.arcs ia hoth hiv h1 (blk fn.blocks j).pred
    rw [linked_count_pred fn hl ia hia j] at hf
    rw [hd.hnp j, hdst]
    by_cases e : j = (arc fn.arcs ia).dst
    · rw [if_pos e] at hf ⊢
      rcases hg.npred j with h | ⟨_, h, _⟩
      · left; rw [h]; omega
      · have hm := (linked_mem_pred fn hl ia hia j).2 e
        rw [h] at hm; simp at hm
    · rw [if_neg e] at hf ⊢
      rcases hg.npred j with h | h
      · left; rw [h]; omega
      · right; exact h

theorem requeued_length (o : Nat) (pending : Int) (st st1 : solve_state)
    (hq : requeued o pending st st1) :
    st1.invalid_blocks.length + st1.valid_blocks.length ≤
      st.invalid_blocks.length + st.valid_blocks.length + 1 := by
  rcases hq with ⟨q1, q2, _⟩ | ⟨q1, q2, _⟩ | ⟨q1, q2, _⟩ <;> rw [q1, q2] <;> simp <;> omega

theorem deduced_measure (fn : function_info) (v o ia : Nat) (ex : Bool)
    (total : Int) (st st1 : solve_state) (hg : graph_inv fn st)
    (hd : deduced v o ia ex total st st1) (hia : ia < fn.arcs.length)
    (hiv : (arc st.arcs ia).count_valid = false) :
    solve_measure fn st1 + 1 ≤ solve_measure fn st := by
  have hia2 : ia < st.arcs.length := by rw [hg.alen]; exact hia
  have harc := deduced_arc v o ia ex total st st1 hd hia2
  have hoth : ∀ a, a ≠ ia → (arc st1.arcs a).count_valid = (arc st.arcs a).count_valid := by
    intro a ha; rw [harc a, if_neg ha]
  have h1 : (arc st1.arcs ia).count_valid = true := by rw [harc ia, if_pos rfl]
  have hf := inv_count_flip st.arcs st1.arcs ia hoth hiv h1 (List.range fn.arcs.length)
  rw [count_range, if_pos hia] at hf
  have hb := countP_range_same (fun j => !(blk st.blocks j).count_valid)
    (fun j => !(blk st1.blocks j).count_valid)
    (fun j => by simp only; rw [(hd.hsame j).2.2.2]) fn.num_blocks
  have hq : st1.invalid_blocks.length + st1.valid_blocks.length ≤
      st.invalid_blocks.length + st.valid_blocks.length + 1 := by
    cases ex
    · exact requeued_length o _ st st1 hd.hq
    · exact requeued_length o _ st st1 hd.hq
  unfold solve_measure
  omega

/-- An exemption of the exit counters is not needed for blocks with a valid
count and an exit counter other than one. -/
theorem list_inv_drop_exit (fn : function_info) (exs exp : Nat → Prop) (st : solve_state)
    (hi : list_inv fn exs exp st)
    (h : ∀ j, exs j → (blk st.blocks j).count_valid = true ∧ (blk st.blocks j).num_succ ≠ 1) :
    list_inv fn (fun _ => False) exp st := by
  refine ⟨hi.inv_mem, hi.val_mem, hi.inv_nodup, hi.val_nodup, hi.inv_lt, hi.val_lt, ?_, hi.inv_p, ?_,
    hi.val_p⟩
  · intro j hj hv hz
    rcases hi.inv_s j hj hv hz with h1 | h1
    · exact Or.inl h1
    · rw [(h j h1).1] at hv; exact absurd hv (by decide)
  · intro j hj hv hz
    rcases hi.val_s j hj hv hz with h1 | h1
    · exact Or.inl h1
    · exact absurd hz (h j h1).2

theorem list_inv_drop_entry (fn : function_info) (exs exp : Nat → Prop) (st : solve_state)
    (hi : list_inv fn exs exp st)
    (h : ∀ j, exp j → (blk st.blocks j).count_valid = true ∧ (blk st.blocks j).num_pred ≠ 1) :
    list_inv fn exs (fun _ => False) st := by
  refine ⟨hi.inv_mem, hi.val_mem, hi.inv_nodup, hi.val_nodup, hi.inv_lt, hi.val_lt, hi.inv_s, ?_,
    hi.val_s, ?_⟩
  · intro j hj hv hz
    rcases hi.inv_p j hj hv hz with h1 | h1
    · exact Or.inl h1
    · rw [(h j h1).1] at hv; exact absurd hv (by decide)
  · intro j hj hv hz
    rcases hi.val_p j hj hv hz with h1 | h1
    · exact Or.inl h1
    · exact absurd hz (h j h1).2

/-! ### The body of the valid loop -/

theorem pop_valid (fn : function_info) (v : Nat) (rest : List Nat) (st : solve_state)
    (hg : graph_inv fn st) (hi : list_inv fn (fun _ => False) (fun _ => False) st)
    (hv : st.valid_blocks = v :: rest) :
    v < fn.num_blocks ∧ (blk st.blocks v).count_valid = true ∧
    same_counts st { st with valid_blocks := st.valid_blocks.tail,
                             blocks := st.blocks.set v { blk st.blocks v with valid_chain := false } } ∧
    list_inv fn (fun j => j = v) (fun j => j = v)
      { st with valid_blocks := st.valid_blocks.tail,
                blocks := st.blocks.set v { blk st.blocks v with valid_chain := false } } := by
  have hvl := hi.val_lt v (by rw [hv]; exact List.mem_cons_self _ _)
  have hvb : v < st.blocks.length := by rw [hg.blen]; exact hvl.1
  have hnd : v ∉ rest ∧ rest.Nodup := by
    have := hi.val_nodup; rw [hv] at this; exact List.nodup_cons.1 this
  have hbv : blk (st.blocks.set v { blk st.blocks v with valid_chain := false }) v =
      { blk st.blocks v with valid_chain := false } := by rw [blk_set, if_pos ⟨rfl, hvb⟩]
  have hbj : ∀ j, j ≠ v →
      blk (st.blocks.set v { blk st.blocks v with valid_chain := false }) j = blk st.blocks j := by
    intro j hj; rw [blk_set, if_neg (fun h => hj h.1.symm)]
  have hall : ∀ j, ∃ c, blk (st.blocks.set v { blk st.blocks v with valid_chain := false }) j =
      { blk st.blocks j with valid_chain := c } := by
    intro j
    by_cases e : j = v
    · subst e; exact ⟨false, hbv⟩
    · exact ⟨(blk st.blocks j).valid_chain, by rw [hbj j e]⟩
  have hmem : ∀ j, j ≠ v → (j ∈ st.valid_blocks ↔ j ∈ rest) := by
    intro j hj; rw [hv, List.mem_cons]; exact ⟨fun h => h.resolve_left hj, Or.inr⟩
  refine ⟨hvl.1, hvl.2, ⟨rfl, by simp, ?_⟩, ?_⟩
  · intro j
    obtain ⟨c, hc⟩ := hall j
    simp only; rw [hc]; exact ⟨rfl, rfl, rfl, rfl, rfl, rfl⟩
  · refine ⟨?_, ?_, hi.inv_nodup, ?_, ?_, ?_, ?_, ?_, ?_, ?_⟩
    · intro j
      obtain ⟨c, hc⟩ := hall j
      simp only; rw [hc]; exact hi.inv_mem j
    · intro j
      simp only [hv, List.tail_cons]
      by_cases e : j = v
      · subst e; rw [hbv]; exact ⟨fun hc => absurd hc Bool.false_ne_true, fun hc => absurd hc hnd.1⟩
      · rw [hbj j e, ← hmem j e]; exact hi.val_mem j
    · simp only [hv, List.tail_cons]; exact hnd.2
    · intro j hj
      obtain ⟨c, hc⟩ := hall j
      simp only at hj ⊢; rw [hc]; exact hi.inv_lt j hj
    · intro j hj
      obtain ⟨c, hc⟩ := hall j
      simp only [hv, List.tail_cons] at hj
      simp only; rw [hc]
      exact hi.val_lt j (by rw [hv]; exact List.mem_cons_of_mem _ hj)
    · intro j hj h1 h2
      obtain ⟨c, hc⟩ := hall j
      simp only at h1 h2 ⊢; rw [hc] at h1 h2
      exact Or.inl ((hi.inv_s j hj h1 h2).resolve_right id)
    · intro j hj h1 h2
      obtain ⟨c, hc⟩ := hall j
      simp only at h1 h2 ⊢; rw [hc] at h1 h2
      exact Or.inl ((hi.inv_p j hj h1 h2).resolve_right id)
    · intro j hj h1 h2
      obtain ⟨c, hc⟩ := hall j
      simp only at h1 h2 ⊢; rw [hc] at h1 h2
      by_cases e : j = v
      · exact Or.inr e
      · simp only [hv, List.tail_cons]
        exact Or.inl ((hmem j e).1 ((hi.val_s j hj h1 h2).resolve_right id))
    · intro j hj h1 h2
      obtain ⟨c, hc⟩ := hall j
      simp only at h1 h2 ⊢; rw [hc] at h1 h2
      by_cases e : j = v
      · exact Or.inr e
      · simp only [hv, List.tail_cons]
        exact Or.inl ((hmem j e).1 ((hi.val_p j hj h1 h2).resolve_right id))

theorem saturated_ne_one : saturated ≠ 1 := by unfold saturated; decide

theorem saturated_ne_zero : saturated ≠ 0 := by unfold saturated; decide

/-- Lines 1078-1113 for a block `v` with a valid count, in a state where the
pending counters are right: the deduction does not crash, and it keeps the
invariants. -/
theorem valid_succ_phase (fn : function_info) (hl : arcs_linked fn) (v : Nat) (st : solve_state)
    (hg : graph_inv fn st) (hi : list_inv fn (fun j => j = v) (fun j => j = v) st)
    (hvn : v < fn.num_blocks) (hcv : (blk st.blocks v).count_valid = true) :
    ∃ st1, solve_valid_succ v st = some st1 ∧ graph_inv fn st1 ∧
      list_inv fn (fun _ => False) (fun j => j = v) st1 ∧
      solve_measure fn st1 ≤ solve_measure fn st ∧ (blk st1.blocks v).count_valid = true ∧
      ((st1 = st ∧ valid_succ_events v st = []) ∨
       (solve_step fn st st1 ∧ ∃ ia, valid_succ_events v st = [solve_event.deduce ia] ∧
          (arc st.arcs ia).count_valid = false ∧ (arc st1.arcs ia).count_valid = true)) := by
  by_cases h1 : (blk st.blocks v).num_succ = 1
  · have hc : inv_count st.arcs (blk st.blocks v).succ = 1 := by
      rw [inv_count_perm _ _ _ (hg.succs v)]
      rcases hg.nsucc v with h | ⟨h, _, _⟩
      · rw [h1] at h; exact_mod_cast h.symm
      · rw [h1] at h; exact absurd h.symm saturated_ne_one
    obtain ⟨ia, hf, hmem, hinv, _⟩ := find_inv_arc_one st.arcs _ hc
    have hmf : ia ∈ (blk fn.blocks v).succ := (hg.succs v).mem_iff.1 hmem
    obtain ⟨hia, hsf⟩ := hl.2.1 v hvn ia hmf
    have hsrc : (arc st.arcs ia).src = v := (hg.frame ia).1.trans hsf
    have hdst : (arc st.arcs ia).dst < fn.num_blocks := by
      rw [(hg.frame ia).2.1]; exact (hl.1 ia hia).2.1
    have hvb : v < st.blocks.length := by rw [hg.blen]; exact hvn
    obtain ⟨st1, hs, hd⟩ := solve_valid_succ_deduced v ia st h1 hf hvb hsrc
      (by rw [hg.blen]; exact hdst)
    have hns : (blk st1.blocks v).num_succ = 0 := by
      rw [hd.hns v, hsrc, if_pos rfl, h1]; rfl
    have hcv1 : (blk st1.blocks v).count_valid = true := by rw [(hd.hsame v).2.2.2]; exact hcv
    have harc := deduced_arc v _ ia true _ st st1 hd (by rw [hg.alen]; exact hia) ia
    refine ⟨st1, hs, deduced_graph_inv fn hl v _ ia true _ st st1 hg hd hia hinv, ?_,
      by have := deduced_measure fn v _ ia true _ st st1 hg hd hia hinv; omega, hcv1, Or.inr ⟨?_, ia, ?_,
        hinv, by rw [harc, if_pos rfl]⟩⟩
    · apply list_inv_drop_exit fn _ _ st1
        (deduced_exit_list_inv fn _ _ v _ ia _ st st1 hi hd rfl hdst)
      intro j hj
      subst hj
      exact ⟨hcv1, by rw [hns]; decide⟩
    · exact solve_step.deduce st st1 v _ ia true _ hg hvn hcv hia hinv
        (by rw [if_pos rfl]; exact ⟨h1, hmem, rfl⟩) hd
    · unfold valid_succ_events; rw [if_pos h1, hf]
  · have hs : solve_valid_succ v st = some st := by
      unfold solve_valid_succ; dsimp only; rw [if_neg h1]
    refine ⟨st, hs, hg, ?_, le_refl _, hcv, Or.inl ⟨rfl, by unfold valid_succ_events; rw [if_neg h1]⟩⟩
    apply list_inv_drop_exit fn _ _ st hi
    intro j hj
    subst hj
    exact ⟨hcv, h1⟩

/-- Lines 1114-1149 for a block `v` with a valid count. -/
theorem valid_pred_phase (fn : function_info) (hl : arcs_linked fn) (v : Nat) (st : solve_state)
    (hg : graph_inv fn st) (hi : list_inv fn (fun _ => False) (fun j => j = v) st)
    (hvn : v < fn.num_blocks) (hcv : (blk st.blocks v).count_valid = true) :
    ∃ st1, solve_valid_pred v st = some st1 ∧ graph_inv fn st1 ∧
      list_inv fn (fun _ => False) (fun _ => False) st1 ∧
      solve_measure fn st1 ≤ solve_measure fn st ∧ (blk st1.blocks v).count_valid = true ∧
      ((st1 = st ∧ valid_pred_events v st = []) ∨
       (solve_step fn st st1 ∧ ∃ ia, valid_pred_events v st = [solve_event.deduce ia] ∧
          (arc st.arcs ia).count_valid = false ∧ (arc st1.arcs ia).count_valid = true)) := by
  by_cases h1 : (blk st.blocks v).num_pred = 1
  · have hc : inv_count st.arcs (blk st.blocks v).pred = 1 := by
      rw [hg.preds v]
      rcases hg.npred v with h | ⟨h, _, _⟩
      · rw [h1] at h; exact_mod_cast h.symm
      · rw [h1] at h; exact absurd h.symm saturated_ne_one
    obtain ⟨ia, hf, hmem, hinv, _⟩ := find_inv_arc_one st.arcs _ hc
    have hmf : ia ∈ (blk fn.blocks v).pred := by rw [← hg.preds v]; exact hmem
    obtain ⟨hia, hsf⟩ := hl.2.2 v hvn ia hmf
    have hdst : (arc st.arcs ia).dst = v := (hg.frame ia).2.1.trans hsf
    have hsrc : (arc st.arcs ia).src < fn.num_blocks := by
      rw [(hg.frame ia).1]; exact (hl.1 ia hia).1
    have hvb : v < st.blocks.length := by rw [hg.blen]; exact hvn
    obtain ⟨st1, hs, hd⟩ := solve_valid_pred_deduced v ia st h1 hf hvb hdst
      (by rw [hg.blen]; exact hsrc)
    have hns : (blk st1.blocks v).num_pred = 0 := by
      rw [hd.hnp v, hdst, if_pos rfl, h1]; rfl
    have hcv1 : (blk st1.blocks v).count_valid = true := by rw [(hd.hsame v).2.2.2]; exact hcv
    have harc := deduced_arc v _ ia false _ st st1 hd (by rw [hg.alen]; exact hia) ia
    refine ⟨st1, hs, deduced_graph_inv fn hl v _ ia false _ st st1 hg hd hia hinv, ?_,
      by have := deduced_measure fn v _ ia false _ st st1 hg hd hia hinv; omega, hcv1, Or.inr ⟨?_, ia, ?_,
        hinv, by rw [harc, if_pos rfl]⟩⟩
    · apply list_inv_drop_entry fn _ _ st1
        (deduced_entry_list_inv fn _ _ v _ ia _ st st1 hi hd rfl hsrc)
      intro j hj
      subst hj
      exact ⟨hcv1, by rw [hns]; decide⟩
    · exact solve_step.deduce st st1 v _ ia false _ hg hvn hcv hia hinv
        (by rw [if_neg Bool.false_ne_true]; exact ⟨h1, hmem, rfl⟩) hd
    · unfold valid_pred_events; rw [if_pos h1, hf]
  · have hs : solve_valid_pred v st = some st := by
      unfold solve_valid_pred; dsimp only; rw [if_neg h1]
    refine ⟨st, hs, hg, ?_, le_refl _, hcv, Or.inl ⟨rfl, by unfold valid_pred_events; rw [if_neg h1]⟩⟩
    apply list_inv_drop_entry fn _ _ st hi
    intro j hj
    subst hj
    exact ⟨hcv, h1⟩

/-! ### Counts once valid stay -/

theorem solve_step_mono (fn : function_info) (st st1 : solve_state) (h : solve_step fn st st1) :
    (∀ a, (arc st.arcs a).count_valid = true →
      (arc st1.arcs a).count_valid = true ∧ (arc st1.arcs a).count = (arc st.arcs a).count) ∧
    (∀ j, (blk st.blocks j).count_valid = true →
      (blk st1.blocks j).count_valid = true ∧ (blk st1.blocks j).count = (blk st.blocks j).count) := by
  cases h with
  | mark b total hg hb hv hm =>
    refine ⟨fun a ha => by rw [hm.harcs]; exact ⟨ha, rfl⟩, fun j hj => ?_⟩
    have e : j ≠ b := by intro hc; subst hc; rw [hv] at hj; exact absurd hj (by decide)
    rw [hm.hother j e]; exact ⟨hj, rfl⟩
  | flags hg hs =>
    refine ⟨fun a ha => by rw [hs.1]; exact ⟨ha, rfl⟩, fun j hj => ?_⟩
    rw [(hs.2.2 j).2.2.2.2.2, (hs.2.2 j).2.2.2.2.1]; exact ⟨hj, rfl⟩
  | deduce v o ia ex total hg hv hcv hia hiv hside hd =>
    refine ⟨fun a ha => ?_, fun j hj => ?_⟩
    · have e : a ≠ ia := by intro hc; subst hc; rw [hiv] at ha; exact absurd ha (by decide)
      rw [deduced_arc v o ia ex total st st1 hd (by rw [hg.alen]; exact hia) a, if_neg e]
      exact ⟨ha, rfl⟩
    · rw [(hd.hsame j).2.2.2, (hd.hsame j).2.2.1]; exact ⟨hj, rfl⟩

theorem solve_steps_mono (fn : function_info) (st st1 : solve_state)
    (h : Relation.ReflTransGen (solve_step fn) st st1) :
    (∀ a, (arc st.arcs a).count_valid = true →
      (arc st1.arcs a).count_valid = true ∧ (arc st1.arcs a).count = (arc st.arcs a).count) ∧
    (∀ j, (blk st.blocks j).count_valid = true →
      (blk st1.blocks j).count_valid = true ∧ (blk st1.blocks j).count = (blk st.blocks j).count) := by
  induction h with
  | refl => exact ⟨fun _ ha => ⟨ha, rfl⟩, fun _ hj => ⟨hj, rfl⟩⟩
  | tail _ hstep ih =>
    obtain ⟨m1, m2⟩ := solve_step_mono fn _ _ hstep
    refine ⟨fun a ha => ?_, fun j hj => ?_⟩
    · obtain ⟨h1, h2⟩ := ih.1 a ha
      obtain ⟨h3, h4⟩ := m1 a h1
      exact ⟨h3, h4.trans h2⟩
    · obtain ⟨h1, h2⟩ := ih.2 j hj
      obtain ⟨h3, h4⟩ := m2 j h1
      exact ⟨h3, h4.trans h2⟩

theorem pending_of_later (fn : function_info) (st st1 : solve_state)
    (h : Relation.ReflTransGen (solve_step fn) st st1) (e : solve_event)
    (he : event_pending st1 e) : event_pending st e := by
  obtain ⟨m1, m2⟩ := solve_steps_mono fn st st1 h
  cases e with
  | mark b =>
    simp only [event_pending] at he ⊢
    cases hv : (blk st.blocks b).count_valid with
    | false => rfl
    | true => rw [(m2 b hv).1] at he; exact absurd he (by decide)
  | deduce a =>
    simp only [event_pending] at he ⊢
    cases hv : (arc st.arcs a).count_valid with
    | false => rfl
    | true => rw [(m1 a hv).1] at he; exact absurd he (by decide)

theorem events_append (fn : function_info) (st0 st1 : solve_state) (E1 E2 : List solve_event)
    (h01 : Relation.ReflTransGen (solve_step fn) st0 st1)
    (n1 : E1.Nodup) (n2 : E2.Nodup)
    (p1 : ∀ e ∈ E1, event_pending st0 e ∧ ¬ event_pending st1 e)
    (p2 : ∀ e ∈ E2, event_pending st1 e) :
    (E1 ++ E2).Nodup ∧ ∀ e ∈ E1 ++ E2, event_pending st0 e := by
  refine ⟨List.nodup_append.2 ⟨n1, n2, ?_⟩, ?_⟩
  · intro e h1 h2
    exact (p1 e h1).2 (p2 e h2)
  · intro e he
    rcases List.mem_append.1 he with h | h
    · exact (p1 e h).1
    · exact pending_of_later fn st0 st1 h01 e (p2 e h)

/-! ### One turn of the loop -/

theorem solve_invalid_turn (fn : function_info) (b : Nat) (rest : List Nat) (st : solve_state)
    (hg : graph_inv fn st) (hi : list_inv fn (fun _ => False) (fun _ => False) st)
    (hlist : st.invalid_blocks = b :: rest) :
    graph_inv fn (solve_invalid_step b st) ∧
    list_inv fn (fun _ => False) (fun _ => False) (solve_invalid_step b st) ∧
    solve_measure fn (solve_invalid_step b st) + 1 ≤ solve_measure fn st ∧
    Relation.ReflTransGen (solve_step fn) st (solve_invalid_step b st) ∧
    (invalid_step_events b st).Nodup ∧
    ∀ e ∈ invalid_step_events b st,
      event_pending st e ∧ ¬ event_pending (solve_invalid_step b st) e := by
  obtain ⟨hb, hv⟩ := hi.inv_lt b (by rw [hlist]; exact List.mem_cons_self _ _)
  rcases solve_invalid_step_spec b st (by rw [hg.blen]; exact hb) with ⟨total, hm⟩ | hsk
  · have hev : invalid_step_events b st = [solve_event.mark b] := by
      unfold invalid_step_events
      rcases hm.htotal with ⟨h1, _⟩ | ⟨h1, h2, _⟩
      · rw [if_pos h1]
      · rw [if_neg h1, if_pos h2]
    refine ⟨marked_graph_inv fn b total st _ hg hm, marked_list_inv fn b total st _ rest hlist hi hm,
      by have := marked_measure fn b total st _ rest hlist hb hv hm; omega,
      Relation.ReflTransGen.single (solve_step.mark st _ b total hg hb hv hm), ?_, ?_⟩
    · rw [hev]; exact List.nodup_singleton _
    · intro e he
      rw [hev, List.mem_singleton] at he
      subst he
      simp only [event_pending]
      exact ⟨hv, by rw [hm.hcount.2]; decide⟩
  · obtain ⟨h1, h2, hsc, h3, h4, h5, h6, h7⟩ := hsk
    have hev : invalid_step_events b st = [] := by
      unfold invalid_step_events; rw [if_neg h1, if_neg h2]
    refine ⟨same_counts_graph_inv fn st _ hg hsc,
      skipped_list_inv fn b st _ rest hlist hi h1 h2 hsc h3 h4 h5 h6 h7, ?_,
      Relation.ReflTransGen.single (solve_step.flags st _ hg hsc), ?_, ?_⟩
    · have := same_counts_measure fn st _ hsc
      rw [h3, h4, hlist] at this
      simp only [List.tail_cons, List.length_cons] at this
      omega
    · rw [hev]; exact List.nodup_nil
    · intro e he; rw [hev] at he; simp at he

theorem solve_valid_turn (fn : function_info) (hl : arcs_linked fn) (v : Nat) (rest : List Nat)
    (st : solve_state) (hg : graph_inv fn st)
    (hi : list_inv fn (fun _ => False) (fun _ => False) st) (hlist : st.valid_blocks = v :: rest) :
    ∃ st2, solve_valid_step v st = some st2 ∧ graph_inv fn st2 ∧
      list_inv fn (fun _ => False) (fun _ => False) st2 ∧
      solve_measure fn st2 + 1 ≤ solve_measure fn st ∧
      Relation.ReflTransGen (solve_step fn) st st2 ∧
      (valid_step_events v st).Nodup ∧
      ∀ e ∈ valid_step_events v st, event_pending st e ∧ ¬ event_pending st2 e := by
  obtain ⟨hvn, hcv, hsc, hi0⟩ := pop_valid fn v rest st hg hi hlist
  obtain ⟨st0, hst0⟩ : ∃ st0 : solve_state, st0 =
      { st with valid_blocks := st.valid_blocks.tail,
                blocks := st.blocks.set v { blk st.blocks v with valid_chain := false } } := ⟨_, rfl⟩
  rw [← hst0] at hsc hi0
  have hg0 := same_counts_graph_inv fn st st0 hg hsc
  have hcv0 : (blk st0.blocks v).count_valid = true := by rw [(hsc.2.2 v).2.2.2.2.2]; exact hcv
  have hm0 : solve_measure fn st0 + 1 = solve_measure fn st := by
    have := same_counts_measure fn st st0 hsc
    have e1 : st0.valid_blocks = rest := by rw [hst0, hlist]; rfl
    have e2 : st0.invalid_blocks = st.invalid_blocks := by rw [hst0]
    rw [e1, e2, hlist] at this
    simp only [List.length_cons] at this
    omega
  have hs0 : Relation.ReflTransGen (solve_step fn) st st0 :=
    Relation.ReflTransGen.single (solve_step.flags st st0 hg hsc)
  obtain ⟨st1, hs1, hg1, hi1, hm1, hcv1, hph1⟩ := valid_succ_phase fn hl v st0 hg0 hi0 hvn hcv0
  obtain ⟨st2, hs2, hg2, hi2, hm2, _, hph2⟩ := valid_pred_phase fn hl v st1 hg1 hi1 hvn hcv1
  have h01 : Relation.ReflTransGen (solve_step fn) st0 st1 := by
    rcases hph1 with ⟨h, _⟩ | ⟨h, _⟩
    · rw [h]
    · exact Relation.ReflTransGen.single h
  have h12 : Relation.ReflTransGen (solve_step fn) st1 st2 := by
    rcases hph2 with ⟨h, _⟩ | ⟨h, _⟩
    · rw [h]
    · exact Relation.ReflTransGen.single h
  have hstep : solve_valid_step v st = some st2 := by
    unfold solve_valid_step; dsimp only; rw [← hst0, hs1]; exact hs2
  have hev : valid_step_events v st = valid_succ_events v st0 ++ valid_pred_events v st1 := by
    unfold valid_step_events; dsimp only; rw [← hst0, hs1]
  have hE1 : (valid_succ_events v st0).Nodup ∧
      ∀ e ∈ valid_succ_events v st0, event_pending st0 e ∧ ¬ event_pending st1 e := by
    rcases hph1 with ⟨_, h⟩ | ⟨_, ia, h, h3, h4⟩
    · rw [h]; exact ⟨List.nodup_nil, fun e he => by simp at he⟩
    · rw [h]
      refine ⟨List.nodup_singleton _, fun e he => ?_⟩
      rw [List.mem_singleton] at he; subst he
      simp only [event_pending]
      exact ⟨h3, by rw [h4]; decide⟩
  have hE2 : (valid_pred_events v st1).Nodup ∧
      ∀ e ∈ valid_pred_events v st1, event_pending st1 e ∧ ¬ event_pending st2 e := by
    rcases hph2 with ⟨_, h⟩ | ⟨_, ia, h, h3, h4⟩
    · rw [h]; exact ⟨List.nodup_nil, fun e he => by simp at he⟩
    · rw [h]
      refine ⟨List.nodup_singleton _, fun e he => ?_⟩
      rw [List.mem_singleton] at he; subst he
      simp only [event_pending]
      exact ⟨h3, by rw [h4]; decide⟩
  obtain ⟨hn, hp⟩ := events_append fn st0 st1 _ _ h01 hE1.1 hE2.1 hE1.2 (fun e he => (hE2.2 e he).1)
  refine ⟨st2, hstep, hg2, hi2, by omega, hs0.trans (h01.trans h12), by rw [hev]; exact hn, ?_⟩
  intro e he
  rw [hev] at he
  refine ⟨pending_of_later fn st st0 hs0 e (hp e he), ?_⟩
  rcases List.mem_append.1 he with h | h
  · intro hc
    exact (hE1.2 e h).2 (pending_of_later fn st1 st2 h12 e hc)
  · exact (hE2.2 e h).2

theorem solve_turn_spec (fn : function_info) (hl : arcs_linked fn) (in_valid : Bool)
    (st : solve_state) (hg : graph_inv fn st)
    (hi : list_inv fn (fun _ => False) (fun _ => False) st)
    (hne : st.invalid_blocks ≠ [] ∨ st.valid_blocks ≠ []) :
    ∃ in_valid1 st1, solve_turn in_valid st = some (in_valid1, st1) ∧ graph_inv fn st1 ∧
      list_inv fn (fun _ => False) (fun _ => False) st1 ∧
      solve_measure fn st1 + 1 ≤ solve_measure fn st ∧
      Relation.ReflTransGen (solve_step fn) st st1 ∧
      (turn_events in_valid st).Nodup ∧
      ∀ e ∈ turn_events in_valid st, event_pending st e ∧ ¬ event_pending st1 e := by
  cases hI : st.invalid_blocks with
  | nil =>
    cases hV : st.valid_blocks with
    | nil => rw [hI, hV] at hne; simp at hne
    | cons v rest =>
      obtain ⟨st2, h1, h2, h3, h4, h5, h6, h7⟩ := solve_valid_turn fn hl v rest st hg hi hV
      have ht : solve_turn in_valid st = some (true, st2) := by
        unfold solve_turn; rw [hI, hV]; cases in_valid <;> simp only [h1]
      have he : turn_events in_valid st = valid_step_events v st := by
        unfold turn_events; rw [hI, hV]; cases in_valid <;> rfl
      exact ⟨true, st2, ht, h2, h3, h4, h5, by rw [he]; exact h6, by rw [he]; exact h7⟩
  | cons b rest =>
    cases hV : st.valid_blocks with
    | nil =>
      obtain ⟨h2, h3, h4, h5, h6, h7⟩ := solve_invalid_turn fn b rest st hg hi hI
      have ht : solve_turn in_valid st = some (false, solve_invalid_step b st) := by
        unfold solve_turn; rw [hI, hV]; cases in_valid <;> rfl
      have he : turn_events in_valid st = invalid_step_events b st := by
        unfold turn_events; rw [hI, hV]; cases in_valid <;> rfl
      exact ⟨false, _, ht, h2, h3, h4, h5, by rw [he]; exact h6, by rw [he]; exact h7⟩
    | cons v vrest =>
      cases in_valid with
      | false =>
        obtain ⟨h2, h3, h4, h5, h6, h7⟩ := solve_invalid_turn fn b rest st hg hi hI
        have ht : solve_turn false st = some (false, solve_invalid_step b st) := by
          unfold solve_turn; rw [hI, hV]
        have he : turn_events false st = invalid_step_events b st := by
          unfold turn_events; rw [hI, hV]
        exact ⟨false, _, ht, h2, h3, h4, h5, by rw [he]; exact h6, by rw [he]; exact h7⟩
      | true =>
        obtain ⟨st2, h1, h2, h3, h4, h5, h6, h7⟩ := solve_valid_turn fn hl v vrest st hg hi hV
        have ht : solve_turn true st = some (true, st2) := by
          unfold solve_turn; rw [hI, hV]; simp only [h1]
        have he : turn_events true st = valid_step_events v st := by
          unfold turn_events; rw [hI, hV]
        exact ⟨true, st2, ht, h2, h3, h4, h5, by rw [he]; exact h6, by rw [he]; exact h7⟩

/-! ### The loop -/

theorem solve_turn_done (in_valid : Bool) (st : solve_state) (hI : st.invalid_blocks = [])
    (hV : st.valid_blocks = []) :
    solve_turn in_valid st = some (in_valid, st) ∧ turn_events in_valid st = [] := by
  unfold solve_turn turn_events
  rw [hI, hV]
  cases in_valid <;> exact ⟨rfl, rfl⟩

/-- The loop `solve_loop` is the iteration of `solve_turn`: it returns the
state reached when both work-lists are empty. -/
theorem solve_loop_iter : ∀ (fuel : Nat) (in_valid : Bool) (st : solve_state),
    solve_loop fuel in_valid st =
      match solve_iter fuel in_valid st with
      | none => none
      | some (_, st1) =>
        match st1.invalid_blocks, st1.valid_blocks with
        | [], [] => some st1
        | _, _ => none := by
  intro fuel
  induction fuel with
  | zero => intro in_valid st; simp only [solve_loop, solve_iter]; try rfl
  | succ k ih =>
    intro in_valid st
    cases hI : st.invalid_blocks with
    | nil =>
      cases hV : st.valid_blocks with
      | nil =>
        have h1 : solve_loop (k + 1) in_valid st = some st := by
          unfold solve_loop; rw [hI, hV]; cases in_valid <;> rfl
        have h2 := ih in_valid st
        have h3 : solve_loop k in_valid st = some st := by
          cases k with
          | zero => unfold solve_loop; rw [hI, hV]
          | succ n => unfold solve_loop; rw [hI, hV]; cases in_valid <;> rfl
        rw [h1]
        simp only [solve_iter, (solve_turn_done in_valid st hI hV).1]
        rw [← h2, h3]
      | cons v rest =>
        have h1 : solve_loop (k + 1) in_valid st =
            match solve_valid_step v st with
            | none => none
            | some st1 => solve_loop k true st1 := by
          conv_lhs => unfold solve_loop
          rw [hI, hV]; cases in_valid <;> rfl
        have h2 : solve_turn in_valid st =
            match solve_valid_step v st with
            | none => none
            | some st1 => some (true, st1) := by
          unfold solve_turn; rw [hI, hV]; cases in_valid <;> rfl
        rw [h1]
        simp only [solve_iter, h2]
        cases solve_valid_step v st with
        | none => rfl
        | some st1 => exact ih true st1
    | cons b rest =>
      cases hV : st.valid_blocks with
      | nil =>
        have h1 : solve_loop (k + 1) in_valid st = solve_loop k false (solve_invalid_step b st) := by
          conv_lhs => unfold solve_loop
          rw [hI, hV]; cases in_valid <;> rfl
        have h2 : solve_turn in_valid st = some (false, solve_invalid_step b st) := by
          unfold solve_turn; rw [hI, hV]; cases in_valid <;> rfl
        rw [h1]
        simp only [solve_iter, h2]
        exact ih false _
      | cons v vrest =>
        cases in_valid with
        | false =>
          have h1 : solve_loop (k + 1) false st = solve_loop k false (solve_invalid_step b st) := by
            conv_lhs => unfold solve_loop
            rw [hI, hV]
          have h2 : solve_turn false st = some (false, solve_invalid_step b st) := by
            unfold solve_turn; rw [hI, hV]
          rw [h1]
          simp only [solve_iter, h2]
          exact ih false _
        | true =>
          have h1 : solve_loop (k + 1) true st =
              match solve_valid_step v st with
              | none => none
              | some st1 => solve_loop k true st1 := by
            conv_lhs => unfold solve_loop
            rw [hI, hV]
            try rfl
          have h2 : solve_turn true st =
              match solve_valid_step v st with
              | none => none
              | some st1 => some (true, st1) := by
            unfold solve_turn; rw [hI, hV]
            try rfl
          rw [h1]
          simp only [solve_iter, h2]
          cases solve_valid_step v st with
          | none => rfl
          | some st1 => exact ih true st1

theorem solve_iter_done (k : Nat) (in_valid : Bool) (st : solve_state)
    (hI : st.invalid_blocks = []) (hV : st.valid_blocks = []) :
    solve_iter k in_valid st = some (in_valid, st) := by
  induction k with
  | zero => rfl
  | succ n ih => simp only [solve_iter, (solve_turn_done in_valid st hI hV).1]; exact ih

theorem solve_iter_spec (fn : function_info) (hl : arcs_linked fn) :
    ∀ (k : Nat) (in_valid : Bool) (st : solve_state), graph_inv fn st →
      list_inv fn (fun _ => False) (fun _ => False) st →
      ∃ in_valid1 st1, solve_iter k in_valid st = some (in_valid1, st1) ∧ graph_inv fn st1 ∧
        list_inv fn (fun _ => False) (fun _ => False) st1 ∧
        Relation.ReflTransGen (solve_step fn) st st1 ∧
        (solve_measure fn st1 + k ≤ solve_measure fn st ∨
          (st1.invalid_blocks = [] ∧ st1.valid_blocks = [])) ∧
        (iter_events k in_valid st).Nodup ∧
        ∀ e ∈ iter_events k in_valid st, event_pending st e ∧ ¬ event_pending st1 e := by
  intro k
  induction k with
  | zero =>
    intro in_valid st hg hi
    exact ⟨in_valid, st, rfl, hg, hi, Relation.ReflTransGen.refl, Or.inl (by omega),
      by simp [iter_events], fun e he => by simp [iter_events] at he⟩
  | succ k ih =>
    intro in_valid st hg hi
    by_cases hne : st.invalid_blocks ≠ [] ∨ st.valid_blocks ≠ []
    · obtain ⟨iv1, st1, t1, t2, t3, t4, t5, t6, t7⟩ := solve_turn_spec fn hl in_valid st hg hi hne
      obtain ⟨iv2, st2, u1, u2, u3, u4, u5, u6, u7⟩ := ih iv1 st1 t2 t3
      have hev : iter_events (k + 1) in_valid st = turn_events in_valid st ++ iter_events k iv1 st1 := by
        simp only [iter_events, t1]
      obtain ⟨hn, hp⟩ := events_append fn st st1 _ _ t5 t6 u6 t7 (fun e he => (u7 e he).1)
      refine ⟨iv2, st2, by simp only [solve_iter, t1]; exact u1, u2, u3, t5.trans u4, ?_,
        by rw [hev]; exact hn, ?_⟩
      · rcases u5 with h | h
        · left; omega
        · right; exact h
      · intro e he
        rw [hev] at he
        refine ⟨hp e he, ?_⟩
        rcases List.mem_append.1 he with h | h
        · intro hc
          exact (t7 e h).2 (pending_of_later fn st1 st2 u4 e hc)
        · exact (u7 e h).2
    · have hI : st.invalid_blocks = [] := by
        by_contra hc; exact hne (Or.inl hc)
      have hV : st.valid_blocks = [] := by
        by_contra hc; exact hne (Or.inr hc)
      obtain ⟨d1, d2⟩ := solve_turn_done in_valid st hI hV
      obtain ⟨iv2, st2, u1, u2, u3, u4, u5, u6, u7⟩ := ih in_valid st hg hi
      have hev : iter_events (k + 1) in_valid st = iter_events k in_valid st := by
        simp only [iter_events, d1, d2, List.nil_append]
      have hst : st2 = st := by
        rw [solve_iter_done k in_valid st hI hV] at u1
        injection u1 with u1; injection u1 with _ u1; exact u1.symm
      refine ⟨iv2, st2, by simp only [solve_iter, d1]; exact u1, u2, u3, u4,
        Or.inr (by rw [hst]; exact ⟨hI, hV⟩), by rw [hev]; exact u6, by rw [hev]; exact u7⟩

/-- The run of `solve_flow_graph` on a function as the readers leave it: the
first loop ends in a state `st0` where the invariants of the fixed-point loop
hold, the fixed-point loop ends with both work-lists empty in a state `st1`
reached by atomic steps, and no block or arc is given a count twice. -/
theorem solve_run (fn : function_info) (hr : fn_ready fn) (fuel : Nat)
    (hfuel : fn.arcs.length * fn.arcs.length + 2 * fn.arcs.length + 3 * fn.num_blocks < fuel) :
    ∃ st0 in_valid1 st1, solve_start fuel fn = some st0 ∧ graph_inv fn st0 ∧
      list_inv fn (fun _ => False) (fun _ => False) st0 ∧
      solve_iter fuel false st0 = some (in_valid1, st1) ∧
      st1.invalid_blocks = [] ∧ st1.valid_blocks = [] ∧
      solve_flow_graph fuel fn = some { fn with blocks := st1.blocks, arcs := st1.arcs } ∧
      graph_inv fn st1 ∧ list_inv fn (fun _ => False) (fun _ => False) st1 ∧
      Relation.ReflTransGen (solve_step fn) st0 st1 ∧
      (iter_events fuel false st0).Nodup ∧
      ∀ e ∈ iter_events fuel false st0, event_pending st0 e ∧ ¬ event_pending st1 e := by
  obtain ⟨st0, hs, hg, hi, _, hm⟩ := solve_setup_loop_start fn hr (fun _ => 0) fuel (by omega)
  obtain ⟨iv1, st1, u1, u2, u3, u4, u5, u6, u7⟩ := solve_iter_spec fn hr.1 fuel false st0 hg hi
  have hdone : st1.invalid_blocks = [] ∧ st1.valid_blocks = [] := by
    rcases u5 with h | h
    · omega
    · exact h
  have hloop : solve_loop fuel false st0 = some st1 := by
    rw [solve_loop_iter, u1]
    simp only [hdone.1, hdone.2]
  refine ⟨st0, iv1, st1, hs, hg, hi, u1, hdone.1, hdone.2, ?_, u2, u3, u4, u6, u7⟩
  unfold solve_flow_graph
  simp only [hs, hloop]

/-! ### Termination and the pending counters -/

/-- C23: for every function of a pair that the two readers accepted,
`solve_flow_graph` terminates (for every fuel above a bound in the numbers of
arcs and blocks): the first loop reaches the state `st0`, the turns of the
fixed-point loop reach a state `st1` with both work-lists empty, which is the
result; and in the list of the blocks marked valid and of the arcs deduced by
these turns no block and no arc comes twice. -/
theorem solve_flow_graph_terminates (rfuel : Nat) (gcno : List Char) (note : Option note_file)
    (data : Option data_file) (p p1 : pair_state)
    (h : read_graph_file rfuel gcno note pair_state.empty = result.ok p)
    (h1 : read_count_file data p = result.ok p1) (f fuel : Nat)
    (hfuel : (p1.fn f).arcs.length * (p1.fn f).arcs.length + 2 * (p1.fn f).arcs.length +
      3 * (p1.fn f).num_blocks < fuel) :
    ∃ st0 in_valid1 st1, solve_start fuel (p1.fn f) = some st0 ∧
      solve_iter fuel false st0 = some (in_valid1, st1) ∧
      st1.invalid_blocks = [] ∧ st1.valid_blocks = [] ∧
      solve_loop fuel false st0 = some st1 ∧
      solve_flow_graph fuel (p1.fn f) =
        some { p1.fn f with blocks := st1.blocks, arcs := st1.arcs } ∧
      (iter_events fuel false st0).Nodup ∧
      ∀ e ∈ iter_events fuel false st0, event_pending st0 e ∧ ¬ event_pending st1 e := by
  have hr := read_files_ready rfuel gcno note data p p1 h h1 f
  obtain ⟨st0, iv1, st1, r1, _, _, r4, r5, r6, r7, _, _, _, r11, r12⟩ := solve_run (p1.fn f) hr fuel hfuel
  refine ⟨st0, iv1, st1, r1, r4, r5, r6, ?_, r7, r11, r12⟩
  rw [solve_loop_iter, r4]
  simp only [r5, r6]

/-- Witness of C23 on the function `G` of `skew_note` with the measured
counts 5 and 6 (four blocks, four arcs). -/
theorem solve_flow_graph_terminates_witness :
    read_graph_file 8 (skew_pair 5 6).gcno (some skew_note) pair_state.empty = result.ok skew_graph ∧
    read_count_file (skew_pair 5 6).data skew_graph = result.ok (skew_counted 5 6) ∧
    ∃ st0 in_valid1 st1, solve_start 37 ((skew_counted 5 6).fn 0) = some st0 ∧
      solve_iter 37 false st0 = some (in_valid1, st1) ∧
      st1.invalid_blocks = [] ∧ st1.valid_blocks = [] ∧
      solve_loop 37 false st0 = some st1 ∧
      solve_flow_graph 37 ((skew_counted 5 6).fn 0) =
        some { (skew_counted 5 6).fn 0 with blocks := st1.blocks, arcs := st1.arcs } ∧
      (iter_events 37 false st0).Nodup ∧
      ∀ e ∈ iter_events 37 false st0, event_pending st0 e ∧ ¬ event_pending st1 e :=
  ⟨by decide, by decide,
   solve_flow_graph_terminates 8 (skew_pair 5 6).gcno (some skew_note) (skew_pair 5 6).data
     skew_graph (skew_counted 5 6) (by decide) (by decide) 0 37 (by decide)⟩

theorem inv_arc_present_succ (fn : function_info) (v : Nat) (st : solve_state)
    (hg : graph_inv fn st) (h1 : (blk st.blocks v).num_succ = 1) :
    ∃ ia, find_inv_arc st.arcs (blk st.blocks v).succ none = some ia ∧
      ia ∈ (blk st.blocks v).succ ∧ (arc st.arcs ia).count_valid = false := by
  have hc : inv_count st.arcs (blk st.blocks v).succ = 1 := by
    rw [inv_count_perm _ _ _ (hg.succs v)]
    rcases hg.nsucc v with h | ⟨h, _, _⟩
    · rw [h1] at h; exact_mod_cast h.symm
    · rw [h1] at h; exact absurd h.symm saturated_ne_one
  obtain ⟨ia, hf, hmem, hinv, _⟩ := find_inv_arc_one st.arcs _ hc
  exact ⟨ia, hf, hmem, hinv⟩

theorem inv_arc_present_pred (fn : function_info) (v : Nat) (st : solve_state)
    (hg : graph_inv fn st) (h1 : (blk st.blocks v).num_pred = 1) :
    ∃ ia, find_inv_arc st.arcs (blk st.blocks v).pred none = some ia ∧
      ia ∈ (blk st.blocks v).pred ∧ (arc st.arcs ia).count_valid = false := by
  have hc : inv_count st.arcs (blk st.blocks v).pred = 1 := by
    rw [hg.preds v]
    rcases hg.npred v with h | ⟨h, _, _⟩
    · rw [h1] at h; exact_mod_cast h.symm
    · rw [h1] at h; exact absurd h.symm saturated_ne_one
  obtain ⟨ia, hf, hmem, hinv, _⟩ := find_inv_arc_one st.arcs _ hc
  exact ⟨ia, hf, hmem, hinv⟩

theorem graph_inv_counters (fn : function_info) (st : solve_state) (hg : graph_inv fn st) (j : Nat) :
    ((blk st.blocks j).num_succ = inv_count st.arcs (blk st.blocks j).succ ∨
      ((blk st.blocks j).num_succ = saturated ∧ (blk st.blocks j).succ = [] ∧
        j + 1 = st.blocks.length)) ∧
    ((blk st.blocks j).num_pred = inv_count st.arcs (blk st.blocks j).pred ∨
      ((blk st.blocks j).num_pred = saturated ∧ (blk st.blocks j).pred = [] ∧ j = 0)) := by
  constructor
  · rcases hg.nsucc j with h | ⟨h, h2, h3⟩
    · left; rw [inv_count_perm _ _ _ (hg.succs j)]; exact h
    · right
      refine ⟨h, ?_, by rw [hg.blen]; exact h3⟩
      have := hg.succs j
      rw [h2] at this
      exact List.Perm.eq_nil this
  · rw [hg.preds j]
    exact hg.npred j

/-- C24: in every state `st` that the fixed-point loop visits (after any
number `k` of turns), each pending counter is the number of arcs of its chain
without valid count, unless it is the saturated exit counter of the last
block or entry counter of the first, whose chain is empty; and for the block
`v` at the head of the valid list, the body of the valid loop finds an arc
without valid count on the exit chain when `num_succ` is one, and on the
entry chain when `num_pred` is one after that, so that it does not
dereference a null `inv_arc`. -/
theorem solve_counters_pending (rfuel : Nat) (gcno : List Char) (note : Option note_file)
    (data : Option data_file) (p p1 : pair_state)
    (h : read_graph_file rfuel gcno note pair_state.empty = result.ok p)
    (h1 : read_count_file data p = result.ok p1) (f fuel : Nat)
    (hfuel : (p1.fn f).arcs.length * (p1.fn f).arcs.length < fuel) :
    ∃ st0, solve_start fuel (p1.fn f) = some st0 ∧
      ∀ k, ∃ in_valid st, solve_iter k false st0 = some (in_valid, st) ∧
        (∀ j, ((blk st.blocks j).num_succ = inv_count st.arcs (blk st.blocks j).succ ∨
            ((blk st.blocks j).num_succ = saturated ∧ (blk st.blocks j).succ = [] ∧
              j + 1 = st.blocks.length)) ∧
          ((blk st.blocks j).num_pred = inv_count st.arcs (blk st.blocks j).pred ∨
            ((blk st.blocks j).num_pred = saturated ∧ (blk st.blocks j).pred = [] ∧ j = 0))) ∧
        ∀ v rest, st.valid_blocks = v :: rest →
          ((blk st.blocks v).num_succ = 1 →
            ∃ ia, find_inv_arc st.arcs (blk st.blocks v).succ none = some ia ∧
              ia ∈ (blk st.blocks v).succ ∧ (arc st.arcs ia).count_valid = false) ∧
          ∃ st1 st2,
            solve_valid_succ v
              { st with valid_blocks := st.valid_blocks.tail,
                        blocks := st.blocks.set v { blk st.blocks v with valid_chain := false } } =
              some st1 ∧
            ((blk st1.blocks v).num_pred = 1 →
              ∃ ia, find_inv_arc st1.arcs (blk st1.blocks v).pred none = some ia ∧
                ia ∈ (blk st1.blocks v).pred ∧ (arc st1.arcs ia).count_valid = false) ∧
            solve_valid_pred v st1 = some st2 ∧ solve_valid_step v st = some st2 := by
  have hr := read_files_ready rfuel gcno note data p p1 h h1 f
  obtain ⟨st0, hs, hg, hi, _, _⟩ := solve_setup_loop_start (p1.fn f) hr (fun _ => 0) fuel hfuel
  refine ⟨st0, hs, fun k => ?_⟩
  obtain ⟨iv, st, u1, u2, u3, _⟩ := solve_iter_spec (p1.fn f) hr.1 k false st0 hg hi
  refine ⟨iv, st, u1, graph_inv_counters (p1.fn f) st u2, ?_⟩
  intro v rest hv
  refine ⟨inv_arc_present_succ (p1.fn f) v st u2, ?_⟩
  obtain ⟨hvn, hcv, hsc, hi0⟩ := pop_valid (p1.fn f) v rest st u2 u3 hv
  have hg0 := same_counts_graph_inv (p1.fn f) st _ u2 hsc
  obtain ⟨st1, hs1, hg1, hi1, _, hcv1, _⟩ := valid_succ_phase (p1.fn f) hr.1 v _ hg0 hi0 hvn
    (by rw [(hsc.2.2 v).2.2.2.2.2]; exact hcv)
  obtain ⟨st2, hs2, _⟩ := valid_pred_phase (p1.fn f) hr.1 v st1 hg1 hi1 hvn hcv1
  refine ⟨st1, st2, hs1, inv_arc_present_pred (p1.fn f) v st1 hg1, hs2, ?_⟩
  unfold solve_valid_step
  dsimp only
  rw [hs1]
  exact hs2

/-- Witness of C24 on the function `G` of `skew_note` with the measured
counts 5 and 6. -/
theorem solve_counters_pending_witness :
    read_graph_file 8 (skew_pair 5 6).gcno (some skew_note) pair_state.empty = result.ok skew_graph ∧
    read_count_file (skew_pair 5 6).data skew_graph = result.ok (skew_counted 5 6) ∧
    ∃ st0, solve_start 17 ((skew_counted 5 6).fn 0) = some st0 ∧
      ∀ k, ∃ in_valid st, solve_iter k false st0 = some (in_valid, st) ∧
        (∀ j, ((blk st.blocks j).num_succ = inv_count st.arcs (blk st.blocks j).succ ∨
            ((blk st.blocks j).num_succ = saturated ∧ (blk st.blocks j).succ = [] ∧
              j + 1 = st.blocks.length)) ∧
          ((blk st.blocks j).num_pred = inv_count st.arcs (blk st.blocks j).pred ∨
            ((blk st.blocks j).num_pred = saturated ∧ (blk st.blocks j).pred = [] ∧ j = 0))) ∧
        ∀ v rest, st.valid_blocks = v :: rest →
          ((blk st.blocks v).num_succ = 1 →
            ∃ ia, find_inv_arc st.arcs (blk st.blocks v).succ none = some ia ∧
              ia ∈ (blk st.blocks v).succ ∧ (arc st.arcs ia).count_valid = false) ∧
          ∃ st1 st2,
            solve_valid_succ v
              { st with valid_blocks := st.valid_blocks.tail,
                        blocks := st.blocks.set v { blk st.blocks v with valid_chain := false } } =
              some st1 ∧
            ((blk st1.blocks v).num_pred = 1 →
              ∃ ia, find_inv_arc st1.arcs (blk st1.blocks v).pred none = some ia ∧
                ia ∈ (blk st1.blocks v).pred ∧ (arc st1.arcs ia).count_valid = false) ∧
            solve_valid_pred v st1 = some st2 ∧ solve_valid_step v st = some st2 :=
  ⟨by decide, by decide,
   solve_counters_pending 8 (skew_pair 5 6).gcno (some skew_note) (skew_pair 5 6).data
     skew_graph (skew_counted 5 6) (by decide) (by decide) 0 17 (by decide)⟩

/-! ### Soundness of the deductions -/

theorem sum_counts_valid (as : List arc_info) (FA : Nat → Int) (L : List Nat)
    (h : ∀ x ∈ L, (arc as x).count = FA x) : sum_counts as L = (L.map FA).sum := by
  unfold sum_counts
  congr 1
  exact List.map_congr_left h

theorem sum_counts_one_pending (as : List arc_info) (FA : Nat → Int) (L : List Nat) (ia : Nat)
    (hia : ia < as.length) (hc : L.count ia = 1) (h0 : (arc as ia).count = 0)
    (h : ∀ x ∈ L, x ≠ ia → (arc as x).count = FA x) :
    sum_counts as L = (L.map FA).sum - FA ia := by
  have h1 := sum_counts_set as ia { arc as ia with count := FA ia } hia L
  have h2 : sum_counts (as.set ia { arc as ia with count := FA ia }) L = (L.map FA).sum := by
    apply sum_counts_valid
    intro x hx
    rw [arc_set]
    by_cases e : x = ia
    · subst e; rw [if_pos ⟨rfl, hia⟩]
    · rw [if_neg (fun hh => e hh.1.symm)]; exact h x hx e
  rw [h2, hc, h0] at h1
  simp only [Nat.cast_one, one_mul, sub_zero] at h1
  omega

theorem chain_all_valid (as : List arc_info) (L : List Nat) (h : inv_count as L = 0) :
    ∀ x ∈ L, (arc as x).count_valid = true := fun x hx => inv_count_zero as L h x hx

theorem flow_sound_step (fn : function_info) (hl : arcs_linked fn) (FB FA : Nat → Int)
    (hc : flow_conserved fn FB FA) (hn : 2 ≤ fn.num_blocks)
    (hexit : (blk fn.blocks (fn.num_blocks - 1)).succ = []) (hentry : (blk fn.blocks 0).pred = [])
    (st st1 : solve_state) (hs : flow_sound fn FB FA st) (h : solve_step fn st st1) :
    flow_sound fn FB FA st1 := by
  obtain ⟨s1, s2, s3, s4⟩ := hs
  cases h with
  | mark b total hg hb hv hm =>
    have hq := marked_blk b total st st1 hm
    refine ⟨by rw [hm.harcs]; exact s1, ?_, by rw [(hq _).2.2.1]; exact s3,
      by rw [(hq _).2.2.2]; exact s4⟩
    intro j hj hcv
    by_cases e : j = b
    · subst e
      rw [hm.hcount.1]
      rcases hm.htotal with ⟨h1, h2⟩ | ⟨_, h1, h2⟩
      · have hne : j + 1 < fn.num_blocks := by
          by_contra hc2
          have : j = fn.num_blocks - 1 := by omega
          rw [this, s3] at h1
          exact saturated_ne_zero h1
        have hcnt : inv_count st.arcs (blk fn.blocks j).succ = 0 := by
          rcases hg.nsucc j with h3 | ⟨h3, _, _⟩
          · rw [h1] at h3; exact_mod_cast h3.symm
          · rw [h1] at h3; exact absurd h3.symm saturated_ne_zero
        rw [h2, sum_counts_perm _ _ _ (hg.succs j), hc.1 j hne]
        apply sum_counts_valid
        intro x hx
        exact s1 x (hl.2.1 j hj x hx).1 (chain_all_valid _ _ hcnt x hx)
      · have hne : 0 < j := by
          by_contra hc2
          have : j = 0 := by omega
          rw [this, s4] at h1
          exact saturated_ne_zero h1
        have hcnt : inv_count st.arcs (blk fn.blocks j).pred = 0 := by
          rcases hg.npred j with h3 | ⟨h3, _, _⟩
          · rw [h1] at h3; exact_mod_cast h3.symm
          · rw [h1] at h3; exact absurd h3.symm saturated_ne_zero
        rw [h2, hg.preds j, hc.2 j hne hj]
        apply sum_counts_valid
        intro x hx
        exact s1 x (hl.2.2 j hj x hx).1 (chain_all_valid _ _ hcnt x hx)
    · rw [hm.hother j e] at hcv ⊢
      exact s2 j hj hcv
  | flags hg hsc =>
    refine ⟨by rw [hsc.1]; exact s1, ?_, by rw [(hsc.2.2 _).2.2.1]; exact s3,
      by rw [(hsc.2.2 _).2.2.2.1]; exact s4⟩
    intro j hj hcv
    rw [(hsc.2.2 j).2.2.2.2.2] at hcv
    rw [(hsc.2.2 j).2.2.2.2.1]
    exact s2 j hj hcv
  | deduce v o ia ex total hg hv hcv hia hiv hside hd =>
    have hia2 : ia < st.arcs.length := by rw [hg.alen]; exact hia
    have harc := deduced_arc v o ia ex total st st1 hd hia2
    have hsrc : (arc st.arcs ia).src = (arc fn.arcs ia).src := (hg.frame ia).1
    have hdst : (arc st.arcs ia).dst = (arc fn.arcs ia).dst := (hg.frame ia).2.1
    have hlast : fn.num_blocks - 1 ≠ (arc fn.arcs ia).src := by
      intro hc2
      have := (linked_mem_succ fn hl ia hia _).2 hc2
      rw [hexit] at this; simp at this
    have hfirst : 0 ≠ (arc fn.arcs ia).dst := by
      intro hc2
      have := (linked_mem_pred fn hl ia hia _).2 hc2
      rw [hentry] at this; simp at this
    have hoff := (hg.off ia hia hiv).2
    have htotal : total = FA ia := by
      cases ex with
      | true =>
        rw [if_pos rfl] at hside
        obtain ⟨h1, hmem, ht⟩ := hside
        have hne : v + 1 < fn.num_blocks := by
          by_contra hc2
          have : v = fn.num_blocks - 1 := by omega
          rw [this, s3] at h1
          exact saturated_ne_one h1
        have hmf : ia ∈ (blk fn.blocks v).succ := (hg.succs v).mem_iff.1 hmem
        have hcnt : inv_count st.arcs (blk fn.blocks v).succ = 1 := by
          rcases hg.nsucc v with h3 | ⟨h3, _, _⟩
          · rw [h1] at h3; exact_mod_cast h3.symm
          · rw [h1] at h3; exact absurd h3.symm saturated_ne_one
        have hsum := sum_counts_one_pending st.arcs FA (blk fn.blocks v).succ ia hia2
          (by rw [linked_count_succ fn hl ia hia v, if_pos ((linked_mem_succ fn hl ia hia v).1 hmf)])
          hoff
          (by
            intro x hx hxne
            apply s1 x (hl.2.1 v hv x hx).1
            cases hxv : (arc st.arcs x).count_valid with
            | true => rfl
            | false =>
              have := inv_count_two st.arcs _ x ia hx hmf hxne hxv hiv
              omega)
        rw [ht, sum_counts_perm _ _ _ (hg.succs v), hsum, s2 v hv hcv, hc.1 v hne]
        ring
      | false =>
        rw [if_neg Bool.false_ne_true] at hside
        obtain ⟨h1, hmem, ht⟩ := hside
        have hne : 0 < v := by
          by_contra hc2
          have : v = 0 := by omega
          rw [this, s4] at h1
          exact saturated_ne_one h1
        have hmf : ia ∈ (blk fn.blocks v).pred := by rw [← hg.preds v]; exact hmem
        have hcnt : inv_count st.arcs (blk fn.blocks v).pred = 1 := by
          rcases hg.npred v with h3 | ⟨h3, _, _⟩
          · rw [h1] at h3; exact_mod_cast h3.symm
          · rw [h1] at h3; exact absurd h3.symm saturated_ne_one
        have hsum := sum_counts_one_pending st.arcs FA (blk fn.blocks v).pred ia hia2
          (by rw [linked_count_pred fn hl ia hia v, if_pos ((linked_mem_pred fn hl ia hia v).1 hmf)])
          hoff
          (by
            intro x hx hxne
            apply s1 x (hl.2.2 v hv x hx).1
            cases hxv : (arc st.arcs x).count_valid with
            | true => rfl
            | false =>
              have := inv_count_two st.arcs _ x ia hx hmf hxne hxv hiv
              omega)
        rw [ht, hg.preds v, hsum, s2 v hv hcv, hc.2 v hne hv]
        ring
    refine ⟨?_, ?_, ?_, ?_⟩
    · intro a ha hav
      rw [harc a] at hav ⊢
      by_cases e : a = ia
      · rw [if_pos e]; subst e; exact htotal
      · rw [if_neg e] at hav ⊢; exact s1 a ha hav
    · intro j hj hjv
      rw [(hd.hsame j).2.2.2] at hjv
      rw [(hd.hsame j).2.2.1]
      exact s2 j hj hjv
    · rw [hd.hns, hsrc, if_neg hlast]; exact s3
    · rw [hd.hnp, hdst, if_neg hfirst]; exact s4

theorem flow_sound_steps (fn : function_info) (hl : arcs_linked fn) (FB FA : Nat → Int)
    (hc : flow_conserved fn FB FA) (hn : 2 ≤ fn.num_blocks)
    (hexit : (blk fn.blocks (fn.num_blocks - 1)).succ = []) (hentry : (blk fn.blocks 0).pred = [])
    (st st1 : solve_state) (hs : flow_sound fn FB FA st)
    (h : Relation.ReflTransGen (solve_step fn) st st1) : flow_sound fn FB FA st1 := by
  induction h with
  | refl => exact hs
  | tail _ hstep ih => exact flow_sound_step fn hl FB FA hc hn hexit hentry _ _ ih hstep

theorem solve_entry_exit_saturated (bs : List block_info) (hn : 2 ≤ bs.length)
    (h0 : (blk bs 0).num_pred = 0) (h1 : (blk bs (bs.length - 1)).num_succ = 0) :
    (blk (solve_entry_exit bs).1 (bs.length - 1)).num_succ = saturated ∧
    (blk (solve_entry_exit bs).1 0).num_pred = saturated := by
  unfold solve_entry_exit
  rw [if_neg (by omega)]
  simp only [h0, ne_eq, not_true_eq_false, decide_False, Bool.false_eq_true, if_false]
  have hb : blk (bs.set 0 { blk bs 0 with num_pred := saturated }) (bs.length - 1) =
      blk bs (bs.length - 1) := by
    rw [blk_set, if_neg (by omega)]
  rw [hb]
  simp only [h1, ne_eq, not_true_eq_false, decide_False, Bool.false_eq_true, if_false]
  constructor
  · rw [blk_set, if_pos ⟨rfl, by simp; omega⟩]
  · rw [blk_set, if_neg (by omega), blk_set, if_pos ⟨rfl, by omega⟩]

/-- The state left by the first loop of the solver: exactly the arcs off the
tree have a valid count, no block has one, and the counters of the two ends
of the function are saturated when their chains are empty. -/
theorem solve_start_valid (fn : function_info) (hr : fn_ready fn) (fuel : Nat)
    (hfuel : fn.arcs.length * fn.arcs.length < fuel) (st0 : solve_state)
    (hs : solve_start fuel fn = some st0) :
    (∀ a, a < fn.arcs.length → (arc st0.arcs a).count_valid = !(arc fn.arcs a).on_tree) ∧
    (∀ j, (blk st0.blocks j).count_valid = false) ∧
    (2 ≤ fn.num_blocks → (blk fn.blocks (fn.num_blocks - 1)).succ = [] →
      (blk st0.blocks (fn.num_blocks - 1)).num_succ = saturated) ∧
    (2 ≤ fn.num_blocks → (blk fn.blocks 0).pred = [] → (blk st0.blocks 0).num_pred = saturated) := by
  obtain ⟨st, hst, hi, _, _⟩ := solve_setup_ready fn hr fuel hfuel
  unfold solve_start at hs
  rw [hst] at hs
  injection hs with hs
  subst hs
  obtain ⟨i1, i2, i3, i4, i5, i6, i7, _, i9⟩ := hi
  have hf := hr.2.1.2.1
  refine ⟨fun a ha => by rw [i4 a ha]; simp, fun j => (i6 j).2.2.1, ?_, ?_⟩
  · intro hn hex
    have h0 : (blk fn.blocks (fn.num_blocks - 1)).num_succ = 0 := by
      rw [(hf _).1, hex]; rfl
    rw [(i7 _).1, hex]
    by_cases hp : (blk fn.blocks 0).num_pred = 0
    · have := (solve_entry_exit_saturated fn.blocks hn hp h0).1
      simp only [valid_count, List.countP_nil, Nat.cast_zero, sub_zero]
      exact this
    · unfold solve_entry_exit
      rw [if_neg (by unfold function_info.num_blocks at hn; omega)]
      simp only [hp, ne_eq, not_false_eq_true, decide_True, if_true]
      have h0' : (blk fn.blocks (fn.blocks.length - 1)).num_succ = 0 := h0
      simp only [h0', not_true_eq_false, decide_False, Bool.false_eq_true, if_false]
      rw [blk_set, if_pos ⟨rfl, by unfold function_info.num_blocks at hn; omega⟩]
      simp [valid_count]
  · intro hn hen
    have h0 : (blk fn.blocks 0).num_pred = 0 := by rw [(hf _).2.1, hen]; rfl
    rw [(i7 _).2, hen]
    simp only [valid_count, List.countP_nil, Nat.cast_zero, sub_zero]
    unfold solve_entry_exit
    rw [if_neg (by unfold function_info.num_blocks at hn; omega)]
    simp only [h0, ne_eq, not_true_eq_false, decide_False, Bool.false_eq_true, if_false]
    have hlen : 0 < fn.blocks.length := by unfold function_info.num_blocks at hn; omega
    split
    · rw [blk_set, if_pos ⟨rfl, hlen⟩]
    · rw [blk_set, if_neg (by unfold function_info.num_blocks at hn; omega), blk_set,
        if_pos ⟨rfl, hlen⟩]

/-- C22: soundness of the flow solver.  For a function of an accepted pair
with at least two blocks, no entry arc of the first block and no exit arc of
the last, `solve_flow_graph` returns, and for every assignment `FB`, `FA` of
integer counts to the blocks and arcs that gives the arcs off the tree their
measured counts (the counts they carry after the first loop, state `st0`)
and satisfies the flow equations, every block marked valid has the count
`FB` and every arc marked valid has the count `FA`. -/
theorem solve_flow_graph_sound (rfuel : Nat) (gcno : List Char) (note : Option note_file)
    (data : Option data_file) (p p1 : pair_state)
    (h : read_graph_file rfuel gcno note pair_state.empty = result.ok p)
    (h1 : read_count_file data p = result.ok p1) (f fuel : Nat)
    (hfuel : (p1.fn f).arcs.length * (p1.fn f).arcs.length + 2 * (p1.fn f).arcs.length +
      3 * (p1.fn f).num_blocks < fuel)
    (hn : 2 ≤ (p1.fn f).num_blocks)
    (hentry : (blk (p1.fn f).blocks 0).pred = [])
    (hexit : (blk (p1.fn f).blocks ((p1.fn f).num_blocks - 1)).succ = []) :
    ∃ st0 fn1, solve_start fuel (p1.fn f) = some st0 ∧
      solve_flow_graph fuel (p1.fn f) = some fn1 ∧
      ∀ FB FA : Nat → Int,
        (∀ a, a < (p1.fn f).arcs.length → (arc (p1.fn f).arcs a).on_tree = false →
          FA a = (arc st0.arcs a).count) →
        flow_conserved (p1.fn f) FB FA →
        (∀ j, j < (p1.fn f).num_blocks → (blk fn1.blocks j).count_valid = true →
          (blk fn1.blocks j).count = FB j) ∧
        (∀ a, a < (p1.fn f).arcs.length → (arc fn1.arcs a).count_valid = true →
          (arc fn1.arcs a).count = FA a) := by
  have hr := read_files_ready rfuel gcno note data p p1 h h1 f
  obtain ⟨st0, iv1, st1, r1, _, _, _, _, _, r7, _, _, r10, _, _⟩ := solve_run (p1.fn f) hr fuel hfuel
  refine ⟨st0, _, r1, r7, ?_⟩
  intro FB FA hm hc
  obtain ⟨v1, v2, v3, v4⟩ := solve_start_valid (p1.fn f) hr fuel (by omega) st0 r1
  have h0 : flow_sound (p1.fn f) FB FA st0 := by
    refine ⟨?_, ?_, v3 hn hexit, v4 hn hentry⟩
    · intro a ha hv
      rw [v1 a ha] at hv
      exact (hm a ha (by simpa using hv)).symm
    · intro j _ hv
      rw [v2 j] at hv
      exact absurd hv (by decide)
  obtain ⟨s1, s2, _, _⟩ := flow_sound_steps (p1.fn f) hr.1 FB FA hc hn hexit hentry st0 st1 h0 r10
  exact ⟨s2, s1⟩

/-- Witness of C22 on the function `G` of `skew_note` with the measured
counts 6 and 5. -/
theorem solve_flow_graph_sound_witness :
    read_graph_file 8 (skew_pair 5 6).gcno (some skew_note) pair_state.empty = result.ok skew_graph ∧
    read_count_file (skew_pair 6 5).data skew_graph = result.ok (skew_counted 6 5) ∧
    ∃ st0 fn1, solve_start 37 ((skew_counted 6 5).fn 0) = some st0 ∧
      solve_flow_graph 37 ((skew_counted 6 5).fn 0) = some fn1 ∧
      ∀ FB FA : Nat → Int,
        (∀ a, a < ((skew_counted 6 5).fn 0).arcs.length →
          (arc ((skew_counted 6 5).fn 0).arcs a).on_tree = false →
          FA a = (arc st0.arcs a).count) →
        flow_conserved ((skew_counted 6 5).fn 0) FB FA →
        (∀ j, j < ((skew_counted 6 5).fn 0).num_blocks → (blk fn1.blocks j).count_valid = true →
          (blk fn1.blocks j).count = FB j) ∧
        (∀ a, a < ((skew_counted 6 5).fn 0).arcs.length → (arc fn1.arcs a).count_valid = true →
          (arc fn1.arcs a).count = FA a) :=
  ⟨by decide, by decide,
   solve_flow_graph_sound 8 (skew_pair 5 6).gcno (some skew_note) (skew_pair 6 5).data
     skew_graph (skew_counted 6 5) (by decide) (by decide) 0 37 (by decide) (by decide) (by decide)
     (by decide)⟩

/-! ## Line attribution: blocks without line encoding -/

/-- Counterexample to C29 as stated: in the function `G` of `carry_note`
(first line 5 of `a.c`) block 1 mentions line 10 and the interior block 2 has
no line encoding; `add_line_counts` links block 2 onto the chain of line 10,
and the chain of line 5 stays empty. -/
theorem add_line_counts_first_line_counterexample :
    add_line_counts 0 carry_solved = result.ok carry_lines ∧
    (carry_solved.fn 0).num_blocks = 4 ∧
    (blk (carry_solved.fn 0).blocks 2).line_encoding = none ∧
    (carry_solved.fn 0).src = 0 ∧ (carry_solved.fn 0).line = 5 ∧
    (0, 2) ∉ (carry_lines.line 0 5).blocks ∧
    (carry_lines.line 0 10).blocks = [(0, 2), (0, 1)] := by
  decide

/-- C29, amended: the body of the loop of `add_line_counts` for an interior
block `ix` without line encoding leaves the loop variable `line` as the
preceding blocks set it, and links the block onto the chain of that line; it
links the block onto the chain of the first line of the function, in the
source of the function, only when `line` is still null, that is when no
preceding block mentions a line. -/
theorem add_line_counts_block_carried (f ix : Nat) (st : pair_state × Option (Nat × Nat))
    (h0 : ix ≠ 0) (h1 : ix + 1 ≠ (st.1.fn f).num_blocks)
    (hnone : (blk (st.1.fn f).blocks ix).line_encoding = none) :
    ∃ p2 : pair_state, add_line_counts_block f ix st =
        result.ok (p2.upd_line (st.2.getD ((st.1.fn f).src, (st.1.fn f).line)).1
          (st.2.getD ((st.1.fn f).src, (st.1.fn f).line)).2
          (fun L => { L with blocks := (f, ix) :: L.blocks }), st.2) ∧
      (∀ s, (p2.source s) = (st.1.source s)) ∧
      (∀ s l ls, (st.1.source s).lines = some ls → l < ls.length →
        st.2.getD ((st.1.fn f).src, (st.1.fn f).line) = (s, l) →
        ((p2.upd_line s l (fun L => { L with blocks := (f, ix) :: L.blocks })).line s l).blocks =
          (f, ix) :: (st.1.line s l).blocks) := by
  have hsrc : ∀ (v : function_info) (s : Nat), (st.1.set_fn f v).source s = st.1.source s :=
    fun _ _ => rfl
  have hlen : ∀ v : function_info, (st.1.set_fn f v).srcs.length = st.1.srcs.length := fun _ => rfl
  have hkey : ∃ v : function_info, add_line_counts_block f ix st =
        result.ok ((st.1.set_fn f v).upd_line (st.2.getD ((st.1.fn f).src, (st.1.fn f).line)).1
          (st.2.getD ((st.1.fn f).src, (st.1.fn f).line)).2
          (fun L => { L with blocks := (f, ix) :: L.blocks }), st.2) := by
    obtain ⟨p, line⟩ := st
    cases line with
    | none =>
      unfold add_line_counts_block
      simp only [hnone, Option.getD_none, scan_encoding, h0, h1, ne_eq, not_false_eq_true,
        decide_True, Bool.and_self, if_true]
      exact ⟨_, rfl⟩
    | some sl =>
      unfold add_line_counts_block
      simp only [hnone, Option.getD_none, Option.getD_some, scan_encoding, h0, h1, ne_eq,
        not_false_eq_true, decide_True, Bool.and_self, if_true]
      exact ⟨_, rfl⟩
  obtain ⟨v, hv⟩ := hkey
  refine ⟨st.1.set_fn f v, hv, hsrc v, ?_⟩
  intro s l ls hls hl _
  have hs : s < st.1.srcs.length := by
    by_contra hc
    have : st.1.source s = source_info.new := by
      unfold pair_state.source
      rw [List.getD_eq_getElem?_getD, List.getElem?_eq_none (Nat.le_of_not_lt hc)]
      rfl
    rw [this] at hls
    simp [source_info.new] at hls
  rw [(line_upd_line (st.1.set_fn f v) s l _ ls (by rw [hlen]; exact hs)
    (by rw [hsrc]; exact hls) hl).1]
  have : (st.1.set_fn f v).line s l = st.1.line s l := by
    unfold pair_state.line; rw [hsrc]
  rw [this]

/-- Witness of C29: block 2 of `carry_note`, reached with `line` at line 10 of
source 0. -/
theorem add_line_counts_block_carried_witness :
    add_line_counts_loop 0 2 0 (carry_solved, none) = result.ok carry_mid ∧
    carry_mid.2 = some (0, 10) ∧
    ∃ p2 : pair_state, add_line_counts_block 0 2 carry_mid =
        result.ok (p2.upd_line (carry_mid.2.getD ((carry_mid.1.fn 0).src, (carry_mid.1.fn 0).line)).1
          (carry_mid.2.getD ((carry_mid.1.fn 0).src, (carry_mid.1.fn 0).line)).2
          (fun L => { L with blocks := (0, 2) :: L.blocks }), carry_mid.2) ∧
      (∀ s, (p2.source s) = (carry_mid.1.source s)) ∧
      (∀ s l ls, (carry_mid.1.source s).lines = some ls → l < ls.length →
        carry_mid.2.getD ((carry_mid.1.fn 0).src, (carry_mid.1.fn 0).line) = (s, l) →
        ((p2.upd_line s l (fun L => { L with blocks := (0, 2) :: L.blocks })).line s l).blocks =
          (0, 2) :: (carry_mid.1.line s l).blocks) :=
  ⟨by decide, by decide,
   add_line_counts_block_carried 0 2 carry_mid (by decide) (by decide) (by decide)⟩

/-! ## Flow solver: functions with fewer than two blocks -/

/-- Counterexample to C28 as stated: the function of `lone_note` has one
block and no arc; after `solve_flow_graph` its block has the validity bit
set, which it had not before. -/
theorem solve_flow_graph_lone_counterexample :
    read_graph_file 8 (skew_pair 5 6).gcno (some lone_note) pair_state.empty = result.ok lone_graph ∧
    (lone_graph.fn 0).num_blocks = 1 ∧
    (blk (lone_graph.fn 0).blocks 0).count_valid = false ∧
    ∃ fn1, solve_flow_graph 5 (lone_graph.fn 0) = some fn1 ∧
      (blk fn1.blocks 0).count_valid = true := by
  refine ⟨by decide, by decide, by decide, ?_⟩
  have h : (solve_flow_graph 5 (lone_graph.fn 0)).isSome = true := by decide
  obtain ⟨fn1, h1⟩ := Option.isSome_iff_exists.1 h
  refine ⟨fn1, h1, ?_⟩
  have h2 : ((solve_flow_graph 5 (lone_graph.fn 0)).map
      (fun fn => (blk fn.blocks 0).count_valid)) = some true := by decide
  rw [h1] at h2
  simpa using h2

theorem all_valid_steps (fn : function_info) (st st1 : solve_state)
    (h : Relation.ReflTransGen (solve_step fn) st st1)
    (ha : ∀ a, a < fn.arcs.length → (arc st.arcs a).count_valid = true) (j : Nat) :
    (blk st1.blocks j).num_succ = (blk st.blocks j).num_succ := by
  induction h with
  | refl => rfl
  | tail hprev hstep ih =>
    rw [← ih]
    have hb := (solve_steps_mono fn st _ hprev).1
    cases hstep with
    | mark b total hg hb2 hv hm => exact (marked_blk b total _ _ hm j).2.2.1
    | flags hg hs => exact (hs.2.2 j).2.2.1
    | deduce v o ia ex total hg hv hcv hia hiv hside hd =>
      rw [(hb ia (ha ia hia)).1] at hiv
      exact absurd hiv (by decide)

theorem solve_flow_graph_no_block (fn : function_info) (hl : arcs_linked fn)
    (hn : fn.num_blocks = 0) (fuel : Nat) : solve_flow_graph fuel fn = some fn := by
  have hb : fn.blocks = [] := List.length_eq_zero.1 hn
  unfold solve_flow_graph
  simp only [hn, solve_setup]
  have hloop : ∀ st : solve_state, st.invalid_blocks = [] → st.valid_blocks = [] →
      solve_loop fuel false st = some st := by
    intro st h1 h2
    cases fuel with
    | zero => unfold solve_loop; rw [h1, h2]
    | succ k => unfold solve_loop; rw [h1, h2]
  rw [hloop _ rfl rfl]
  simp only [hb, solve_entry_exit, List.length_nil, Nat.lt_succ_self, Nat.zero_lt_succ, if_true]
  cases fn
  simp only at hb
  simp [hb]

/-- C28, amended: for a function with fewer than two blocks the set-up of
lines 945-960 saturates no counter, and the two loops of `solve_flow_graph`
run on it as on any function: with no block the function is left as it is;
in every case the arcs off the tree come out with the validity bit set, and
the block of a one-block function none of whose arcs is on the tree is marked
valid. -/
theorem solve_flow_graph_few_blocks (rfuel : Nat) (gcno : List Char) (note : Option note_file)
    (data : Option data_file) (p p1 : pair_state)
    (h : read_graph_file rfuel gcno note pair_state.empty = result.ok p)
    (h1 : read_count_file data p = result.ok p1) (f fuel : Nat)
    (hfuel : (p1.fn f).arcs.length * (p1.fn f).arcs.length + 2 * (p1.fn f).arcs.length +
      3 * (p1.fn f).num_blocks < fuel)
    (hn : (p1.fn f).num_blocks < 2) :
    solve_entry_exit (p1.fn f).blocks = ((p1.fn f).blocks, false, false) ∧
    ((p1.fn f).num_blocks = 0 → solve_flow_graph fuel (p1.fn f) = some (p1.fn f)) ∧
    ∃ fn1, solve_flow_graph fuel (p1.fn f) = some fn1 ∧
      (∀ a, a < (p1.fn f).arcs.length → (arc (p1.fn f).arcs a).on_tree = false →
        (arc fn1.arcs a).count_valid = true) ∧
      ((p1.fn f).num_blocks = 1 →
        (∀ a, a < (p1.fn f).arcs.length → (arc (p1.fn f).arcs a).on_tree = false) →
        (blk fn1.blocks 0).count_valid = true) := by
  have hr := read_files_ready rfuel gcno note data p p1 h h1 f
  have hee : solve_entry_exit (p1.fn f).blocks = ((p1.fn f).blocks, false, false) := by
    unfold solve_entry_exit; rw [if_pos (show (p1.fn f).blocks.length < 2 from hn)]
  refine ⟨hee, fun h0 => solve_flow_graph_no_block _ hr.1 h0 fuel, ?_⟩
  obtain ⟨st0, iv1, st1, r1, r2, r3, r4, r5, r6, r7, r8, r9, r10, _, _⟩ :=
    solve_run (p1.fn f) hr fuel hfuel
  obtain ⟨v1, v2, _, _⟩ := solve_start_valid (p1.fn f) hr fuel (by omega) st0 r1
  obtain ⟨m1, m2⟩ := solve_steps_mono (p1.fn f) st0 st1 r10
  refine ⟨_, r7, ?_, ?_⟩
  · intro a ha ht
    exact (m1 a (by rw [v1 a ha, ht]; rfl)).1
  · intro hone hall
    have hav : ∀ a, a < (p1.fn f).arcs.length → (arc st0.arcs a).count_valid = true := by
      intro a ha; rw [v1 a ha, hall a ha]; rfl
    have hns := all_valid_steps (p1.fn f) st0 st1 r10 hav 0
    obtain ⟨st, hst, hi, _, _⟩ := solve_setup_ready (p1.fn f) hr fuel (by omega)
    have hst0 : st = st0 := by
      unfold solve_start at r1; rw [hst] at r1; injection r1
    subst hst0
    obtain ⟨i1, i2, i3, i4, i5, i6, i7, _, i9⟩ := hi
    have hz : (blk st.blocks 0).num_succ = 0 := by
      rw [(i7 0).1, hee, (hr.2.1.2.1 0).1]
      have hvc : valid_count st.arcs (blk (p1.fn f).blocks 0).succ =
          (blk (p1.fn f).blocks 0).succ.length := by
        unfold valid_count
        rw [List.countP_eq_length]
        intro x hx
        exact hav x (hr.1.2.1 0 (by omega) x hx).1
      rw [hvc]; omega
    show (blk st1.blocks 0).count_valid = true
    cases hcv : (blk st1.blocks 0).count_valid with
    | true => rfl
    | false =>
      have := r9.inv_s 0 (by omega) hcv (by rw [hns]; exact hz)
      rw [r5] at this
      simp at this

/-- Witness of C28 on the function of `lone_note`, with a data file that has
no record. -/
theorem solve_flow_graph_few_blocks_witness :
    read_graph_file 8 (skew_pair 5 6).gcno (some lone_note) pair_state.empty = result.ok lone_graph ∧
    read_count_file (some { magic_ok := true, stamp := 7, records := [] }) lone_graph =
      result.ok lone_graph ∧
    (lone_graph.fn 0).num_blocks < 2 ∧
    solve_entry_exit (lone_graph.fn 0).blocks = ((lone_graph.fn 0).blocks, false, false) ∧
    ((lone_graph.fn 0).num_blocks = 0 →
      solve_flow_graph 5 (lone_graph.fn 0) = some (lone_graph.fn 0)) ∧
    ∃ fn1, solve_flow_graph 5 (lone_graph.fn 0) = some fn1 ∧
      (∀ a, a < (lone_graph.fn 0).arcs.length → (arc (lone_graph.fn 0).arcs a).on_tree = false →
        (arc fn1.arcs a).count_valid = true) ∧
      ((lone_graph.fn 0).num_blocks = 1 →
        (∀ a, a < (lone_graph.fn 0).arcs.length → (arc (lone_graph.fn 0).arcs a).on_tree = false) →
        (blk fn1.blocks 0).count_valid = true) :=
  ⟨by decide, by decide, by decide,
   solve_flow_graph_few_blocks 8 (skew_pair 5 6).gcno (some lone_note)
     (some { magic_ok := true, stamp := 7, records := [] }) lone_graph lone_graph
     (by decide) (by decide) 0 5 (by decide) (by decide)⟩

/-! ## Flow solver: the exit chains after the sort -/

theorem sort_pass_stable (as : List arc_info) (d0 : Nat) (rest : List Nat) :
    ∀ a, (sort_pass as a rest).1.filter (fun x => decide ((arc as x).dst = d0)) =
      (a :: rest).filter (fun x => decide ((arc as x).dst = d0)) := by
  induction rest with
  | nil => intro a; simp [sort_pass]
  | cons n rest ih =>
    intro a
    simp only [sort_pass]
    by_cases h : (arc as a).dst > (arc as n).dst
    · simp only [h, if_true]
      rw [List.filter_cons, ih a]
      simp only [List.filter_cons]
      by_cases h1 : (arc as n).dst = d0
      · have h2 : ¬ (arc as a).dst = d0 := by omega
        simp [h1, h2]
      · simp [h1]
    · simp only [h, if_false]
      rw [List.filter_cons, ih n]
      simp only [List.filter_cons]

theorem sort_pass_unchanged (as : List arc_info) (rest : List Nat) :
    ∀ a, (sort_pass as a rest).2 = false →
      (sort_pass as a rest).1 = a :: rest ∧
      (a :: rest).Chain' (fun x y => (arc as x).dst ≤ (arc as y).dst) := by
  induction rest with
  | nil => intro a _; simp [sort_pass]
  | cons n rest ih =>
    intro a hf
    simp only [sort_pass] at hf ⊢
    by_cases h : (arc as a).dst > (arc as n).dst
    · simp only [h, if_true] at hf
      exact absurd hf (by decide)
    · simp only [h, if_false] at hf ⊢
      obtain ⟨h1, h2⟩ := ih n hf
      rw [h1]
      exact ⟨rfl, List.Chain'.cons (by omega) h2⟩

theorem chain_le_sorted (as : List arc_info) (l : List Nat)
    (h : l.Chain' (fun x y => (arc as x).dst ≤ (arc as y).dst)) :
    l.Pairwise (fun x y => (arc as x).dst ≤ (arc as y).dst) := by
  have : IsTrans Nat (fun x y => (arc as x).dst ≤ (arc as y).dst) :=
    ⟨fun _ _ _ h1 h2 => Nat.le_trans h1 h2⟩
  exact List.chain'_iff_pairwise.1 h

/-- The bubble sort of lines 1004-1039, when it returns: the chain is in
ascending order of destination, a permutation of the chain it started from,
and the arcs of one destination are in the order they had. -/
theorem sort_loop_sorted (as : List arc_info) :
    ∀ (fuel : Nat) (start s : List Nat), sort_loop as fuel start = some s →
      s.Pairwise (fun x y => (arc as x).dst ≤ (arc as y).dst) ∧ s.Perm start ∧
      ∀ d0, s.filter (fun x => decide ((arc as x).dst = d0)) =
        start.filter (fun x => decide ((arc as x).dst = d0)) := by
  intro fuel
  induction fuel with
  | zero => intro start s h; simp [sort_loop] at h
  | succ k ih =>
    intro start s h
    cases start with
    | nil => simp [sort_loop] at h
    | cons a rest =>
      simp only [sort_loop] at h
      by_cases hc : (sort_pass as a rest).2 = true
      · simp only [hc, if_true] at h
        obtain ⟨h1, h2, h3⟩ := ih _ s h
        refine ⟨h1, h2.trans (sort_pass_spec as rest a).1, fun d0 => ?_⟩
        rw [h3 d0, sort_pass_stable]
      · have hf : (sort_pass as a rest).2 = false := by simpa using hc
        simp only [hf, Bool.false_eq_true, if_false] at h
        injection h with h
        obtain ⟨h1, h2⟩ := sort_pass_unchanged as rest a hf
        rw [← h, h1]
        exact ⟨chain_le_sorted as _ h2, List.Perm.refl _, fun _ => rfl⟩

theorem scan_flag_congr (as as1 : List arc_info) (h : ∀ x, (arc as1 x).dst = (arc as x).dst)
    (l : List Nat) : ∀ prev flag, scan_flag as1 prev flag l = scan_flag as prev flag l := by
  induction l with
  | nil => intro prev flag; rfl
  | cons a rest ih => intro prev flag; simp only [scan_flag, h a, ih]

theorem scan_flag_true (as : List arc_info) (l : List Nat) :
    ∀ prev, scan_flag as prev true l = true := by
  induction l with
  | nil => intro prev; rfl
  | cons a rest ih =>
    intro prev
    simp only [scan_flag]
    cases prev with
    | none => exact ih _
    | some p => simp only [ite_self]; exact ih _

theorem scan_flag_chain (as : List arc_info) (l : List Nat) :
    ∀ p, scan_flag as (some p) false l = false →
      List.Chain (fun x y => x ≤ y) p (l.map (fun a => (arc as a).dst)) := by
  induction l with
  | nil => intro p _; exact List.Chain.nil
  | cons a rest ih =>
    intro p h
    simp only [scan_flag] at h
    by_cases hp : p > (arc as a).dst
    · simp only [hp, if_true] at h
      rw [scan_flag_true] at h
      exact absurd h (by decide)
    · simp only [hp, if_false] at h
      rw [List.map_cons]
      exact List.Chain.cons (Nat.le_of_not_lt hp) (ih _ h)

/-- A chain on which the loop of lines 969-985 does not set `out_of_order`
is in ascending order of destination. -/
theorem scan_flag_sorted (as : List arc_info) (l : List Nat)
    (h : scan_flag as none false l = false) :
    l.Pairwise (fun x y => (arc as x).dst ≤ (arc as y).dst) := by
  apply chain_le_sorted
  cases l with
  | nil => exact List.chain'_nil
  | cons a rest =>
    simp only [scan_flag] at h
    have := scan_flag_chain as rest _ h
    rw [List.Chain'] 
    exact (List.chain_map (fun a => (arc as a).dst)).1 this

theorem blk_set_succ (bs : List block_info) (i : Nat) (v : block_info) (j : Nat)
    (h : v.succ = (blk bs i).succ) : (blk (bs.set i v) j).succ = (blk bs j).succ := by
  rw [blk_set]
  split
  · next hc => rw [h, hc.1]
  · rfl

theorem scan_arc_state (st : solve_state) (ix d a p : Nat) (V1 V2 : block_info) (A : arc_info)
    (stx : solve_state)
    (hx : stx = { st with blocks := (st.blocks.set ix V1).set d V2, arcs := st.arcs.set a A,
                          count_ptr := p })
    (h1 : V1.succ = (blk st.blocks ix).succ) (h2 : V2.succ = (blk (st.blocks.set ix V1) d).succ)
    (h3 : A.dst = (arc st.arcs a).dst) (h4 : A.on_tree = (arc st.arcs a).on_tree) :
    (∀ j, (blk stx.blocks j).succ = (blk st.blocks j).succ) ∧
    (∀ x, (arc stx.arcs x).dst = (arc st.arcs x).dst ∧
      (arc stx.arcs x).on_tree = (arc st.arcs x).on_tree) ∧
    stx.blocks.length = st.blocks.length ∧ stx.arcs.length = st.arcs.length := by
  subst hx
  refine ⟨?_, ?_, by simp, by simp⟩
  · intro j
    show (blk ((st.blocks.set ix V1).set d V2) j).succ = _
    rw [blk_set_succ _ _ _ j h2, blk_set_succ _ _ _ j h1]
  · intro x
    show (arc (st.arcs.set a A) x).dst = _ ∧ (arc (st.arcs.set a A) x).on_tree = _
    rw [arc_set]
    split
    · next hc => rw [← hc.1]; exact ⟨h3, h4⟩
    · exact ⟨rfl, rfl⟩

theorem solve_scan_arc_frame (counts : Option (List Int)) (ix a : Nat) (st st1 : solve_state)
    (sc sc1 : succ_scan) (h : solve_scan_arc counts ix a st sc = some (st1, sc1)) :
    (∀ j, (blk st1.blocks j).succ = (blk st.blocks j).succ) ∧
    (∀ x, (arc st1.arcs x).dst = (arc st.arcs x).dst ∧
      (arc st1.arcs x).on_tree = (arc st.arcs x).on_tree) ∧
    st1.blocks.length = st.blocks.length ∧ st1.arcs.length = st.arcs.length ∧
    sc1.prev_dst = some (arc st.arcs a).dst ∧
    sc1.out_of_order =
      (match sc.prev_dst with
        | none => sc.out_of_order
        | some p => if p > (arc st.arcs a).dst then true else sc.out_of_order) := by
  unfold solve_scan_arc at h
  dsimp only at h
  by_cases ht : (arc st.arcs a).on_tree = true
  · simp only [ht, if_true] at h
    injection h with h; injection h with h1 h2; subst h1; subst h2
    exact ⟨fun _ => rfl, fun _ => ⟨rfl, rfl⟩, rfl, rfl, rfl, rfl⟩
  · have htf : (arc st.arcs a).on_tree = false := by simpa using ht
    simp only [htf, Bool.false_eq_true, if_false] at h
    cases hc : counts with
    | none =>
      rw [hc] at h
      simp only at h
      injection h with h; injection h with h1 h2
      obtain ⟨k1, k2, k3, k4⟩ := scan_arc_state st ix (arc st.arcs a).dst a _ _ _ _
        st1 h1.symm rfl rfl rfl (by simp [htf])
      subst h2
      exact ⟨k1, k2, k3, k4, rfl, rfl⟩
    | some cs =>
      rw [hc] at h
      simp only at h
      cases hg : cs.get? st.count_ptr with
      | none => rw [hg] at h; simp at h
      | some v =>
        rw [hg] at h
        simp only at h
        injection h with h; injection h with h1 h2
        obtain ⟨k1, k2, k3, k4⟩ := scan_arc_state st ix (arc st.arcs a).dst a _ _ _ _
          st1 h1.symm rfl rfl rfl (by simp [htf])
        subst h2
        exact ⟨k1, k2, k3, k4, rfl, rfl⟩

theorem solve_scan_frame (counts : Option (List Int)) (ix : Nat) (l : List Nat) :
    ∀ (st st1 : solve_state) (sc sc1 : succ_scan),
      solve_scan counts ix l st sc = some (st1, sc1) →
      (∀ j, (blk st1.blocks j).succ = (blk st.blocks j).succ) ∧
      (∀ x, (arc st1.arcs x).dst = (arc st.arcs x).dst ∧
        (arc st1.arcs x).on_tree = (arc st.arcs x).on_tree) ∧
      st1.blocks.length = st.blocks.length ∧ st1.arcs.length = st.arcs.length ∧
      sc1.out_of_order = scan_flag st.arcs sc.prev_dst sc.out_of_order l := by
  induction l with
  | nil =>
    intro st st1 sc sc1 h
    simp only [solve_scan] at h
    injection h with h; injection h with h1 h2; subst h1; subst h2
    exact ⟨fun _ => rfl, fun _ => ⟨rfl, rfl⟩, rfl, rfl, rfl⟩
  | cons a rest ih =>
    intro st st1 sc sc1 h
    simp only [solve_scan] at h
    cases hr : solve_scan_arc counts ix a st sc with
    | none => rw [hr] at h; simp at h
    | some r =>
      obtain ⟨st2, sc2⟩ := r
      rw [hr] at h
      simp only at h
      obtain ⟨a1, a2, a3, a4, a5, a6⟩ := solve_scan_arc_frame counts ix a st st2 sc sc2 hr
      obtain ⟨b1, b2, b3, b4, b5⟩ := ih st2 st1 sc2 sc1 h
      refine ⟨fun j => (b1 j).trans (a1 j),
        fun x => ⟨(b2 x).1.trans (a2 x).1, (b2 x).2.trans (a2 x).2⟩, b3.trans a3, b4.trans a4, ?_⟩
      rw [b5, scan_flag_congr st.arcs st2.arcs (fun x => (a2 x).1), a5, a6]
      rfl

theorem solve_setup_block_frame (fuel : Nat) (counts : Option (List Int)) (ix : Nat)
    (st st1 : solve_state) (h : solve_setup_block fuel counts ix st = some st1)
    (hix : ix < st.blocks.length) :
    (∀ x, (arc st1.arcs x).dst = (arc st.arcs x).dst ∧
      (arc st1.arcs x).on_tree = (arc st.arcs x).on_tree) ∧
    st1.blocks.length = st.blocks.length ∧ st1.arcs.length = st.arcs.length ∧
    (∀ j, j ≠ ix → (blk st1.blocks j).succ = (blk st.blocks j).succ) ∧
    (blk st1.blocks ix).succ.Pairwise (fun x y => (arc st.arcs x).dst ≤ (arc st.arcs y).dst) ∧
    ((blk st1.blocks ix).succ).Perm (blk st.blocks ix).succ ∧
    ∀ d0, (blk st1.blocks ix).succ.filter (fun x => decide ((arc st.arcs x).dst = d0)) =
      (blk st.blocks ix).succ.filter (fun x => decide ((arc st.arcs x).dst = d0)) := by
  unfold solve_setup_block at h
  cases hs : solve_scan counts ix (blk st.blocks ix).succ st
      { prev_dst := none, out_of_order := false, non_fake_succ := 0 } with
  | none => rw [hs] at h; simp at h
  | some r =>
    obtain ⟨s1, sc⟩ := r
    rw [hs] at h
    simp only at h
    obtain ⟨f1, f2, f3, f4, f5⟩ := solve_scan_frame counts ix _ st s1 _ sc hs
    obtain ⟨st2, hst2⟩ : ∃ st2, st2 =
        (if sc.non_fake_succ = 1 then solve_mark ix (blk s1.blocks ix).succ s1 else s1) := ⟨_, rfl⟩
    rw [← hst2] at h
    have hsame : same_solve s1 st2 := by
      rw [hst2]; split
      · exact solve_mark_same ix _ s1
      · exact same_solve_refl s1
    obtain ⟨m1, m2, _, _, _, m6, m7⟩ := hsame
    have hdst : ∀ x, (arc st2.arcs x).dst = (arc st.arcs x).dst ∧
        (arc st2.arcs x).on_tree = (arc st.arcs x).on_tree :=
      fun x => ⟨(m6 x).2.1.trans (f2 x).1, (m6 x).2.2.1.trans (f2 x).2⟩
    have hsucc : ∀ j, (blk st2.blocks j).succ = (blk st.blocks j).succ :=
      fun j => (m7 j).1.trans (f1 j)
    have hlen : st2.blocks.length = st.blocks.length := m1.trans f3
    have hrel : (fun x y => (arc st2.arcs x).dst ≤ (arc st2.arcs y).dst) =
        (fun x y => (arc st.arcs x).dst ≤ (arc st.arcs y).dst) := by
      funext x y; rw [(hdst x).1, (hdst y).1]
    have hfil : ∀ d0, (fun x => decide ((arc st2.arcs x).dst = d0)) =
        (fun x => decide ((arc st.arcs x).dst = d0)) := by
      intro d0; funext x; rw [(hdst x).1]
    by_cases ho : sc.out_of_order = true
    · simp only [ho, if_true] at h
      cases hsort : sort_loop st2.arcs fuel (blk st2.blocks ix).succ with
      | none => rw [hsort] at h; simp at h
      | some s =>
        rw [hsort] at h
        simp only at h
        injection h with h
        obtain ⟨q1, q2, q3⟩ := sort_loop_sorted st2.arcs fuel _ s hsort
        rw [hrel] at q1
        rw [hsucc ix] at q2
        have hb : ∀ j, (blk st1.blocks j).succ = if j = ix then s else (blk st.blocks j).succ := by
          intro j
          rw [← h]
          simp only [blk_set, List.length_set]
          by_cases e : j = ix
          · subst e; simp [hlen, hix]
          · have e2 : ¬ ix = j := fun hc => e hc.symm
            simp only [e2, false_and, if_false, e]
            exact hsucc j
        refine ⟨by rw [← h]; exact hdst, by rw [← h]; simp [hlen], by rw [← h]; exact m2.trans f4,
          fun j hj => by rw [hb j, if_neg hj], by rw [hb ix, if_pos rfl]; exact q1,
          by rw [hb ix, if_pos rfl]; exact q2, fun d0 => ?_⟩
        rw [hb ix, if_pos rfl, ← hfil d0, q3 d0, hsucc ix]
    · have hof : sc.out_of_order = false := by simpa using ho
      simp only [hof, Bool.false_eq_true, if_false] at h
      injection h with h
      have hb : ∀ j, (blk st1.blocks j).succ = (blk st.blocks j).succ := by
        intro j
        rw [← h]
        show (blk (st2.blocks.set ix _) j).succ = _
        rw [blk_set_succ]
        · exact hsucc j
        · rfl
      rw [f5] at hof
      refine ⟨by rw [← h]; exact hdst, by rw [← h]; simp [hlen], by rw [← h]; exact m2.trans f4,
        fun j _ => hb j, by rw [hb ix]; exact scan_flag_sorted st.arcs _ hof,
        by rw [hb ix], fun d0 => by rw [hb ix]⟩

theorem solve_setup_frame (fuel : Nat) (counts : Option (List Int)) :
    ∀ (todo ix : Nat) (st st1 : solve_state), solve_setup fuel counts todo ix st = some st1 →
      ix + todo ≤ st.blocks.length →
      (∀ x, (arc st1.arcs x).dst = (arc st.arcs x).dst ∧
        (arc st1.arcs x).on_tree = (arc st.arcs x).on_tree) ∧
      st1.blocks.length = st.blocks.length ∧ st1.arcs.length = st.arcs.length ∧
      (∀ j, (j < ix ∨ ix + todo ≤ j) → (blk st1.blocks j).succ = (blk st.blocks j).succ) ∧
      (∀ j, ix ≤ j → j < ix + todo →
        (blk st1.blocks j).succ.Pairwise (fun x y => (arc st.arcs x).dst ≤ (arc st.arcs y).dst) ∧
        ((blk st1.blocks j).succ).Perm (blk st.blocks j).succ ∧
        ∀ d0, (blk st1.blocks j).succ.filter (fun x => decide ((arc st.arcs x).dst = d0)) =
          (blk st.blocks j).succ.filter (fun x => decide ((arc st.arcs x).dst = d0))) := by
  intro todo
  induction todo with
  | zero =>
    intro ix st st1 h _
    simp only [solve_setup] at h
    injection h with h; subst h
    exact ⟨fun _ => ⟨rfl, rfl⟩, rfl, rfl, fun _ _ => rfl, fun j h1 h2 => by omega⟩
  | succ k ih =>
    intro ix st st1 h hlen
    simp only [solve_setup] at h
    cases hb : solve_setup_block fuel counts ix st with
    | none => rw [hb] at h; simp at h
    | some st2 =>
      rw [hb] at h
      simp only at h
      obtain ⟨b1, b2, b3, b4, b5, b6, b7⟩ := solve_setup_block_frame fuel counts ix st st2 hb (by omega)
      obtain ⟨c1, c2, c3, c4, c5⟩ := ih (ix + 1) st2 st1 h (by rw [b2]; omega)
      have hrel : (fun x y => (arc st2.arcs x).dst ≤ (arc st2.arcs y).dst) =
          (fun x y => (arc st.arcs x).dst ≤ (arc st.arcs y).dst) := by
        funext x y; rw [(b1 x).1, (b1 y).1]
      have hfil : ∀ d0, (fun x => decide ((arc st2.arcs x).dst = d0)) =
          (fun x => decide ((arc st.arcs x).dst = d0)) := by
        intro d0; funext x; rw [(b1 x).1]
      refine ⟨fun x => ⟨(c1 x).1.trans (b1 x).1, (c1 x).2.trans (b1 x).2⟩, c2.trans b2, c3.trans b3,
        ?_, ?_⟩
      · intro j hj
        rw [c4 j (by omega), b4 j (by omega)]
      · intro j h1 h2
        by_cases e : j = ix
        · subst e
          rw [c4 j (by omega)]
          exact ⟨b5, b6, b7⟩
        · obtain ⟨d1, d2, d3⟩ := c5 j (by omega) (by omega)
          rw [hrel] at d1
          rw [b4 j e] at d2 d3
          refine ⟨d1, d2, fun d0 => ?_⟩
          rw [← hfil d0]
          exact d3 d0

theorem solve_steps_succ (fn : function_info) (st st1 : solve_state)
    (h : Relation.ReflTransGen (solve_step fn) st st1) :
    (∀ j, (blk st1.blocks j).succ = (blk st.blocks j).succ) ∧
    (∀ x, (arc st1.arcs x).dst = (arc st.arcs x).dst) := by
  induction h with
  | refl => exact ⟨fun _ => rfl, fun _ => rfl⟩
  | tail _ hstep ih =>
    cases hstep with
    | mark b total hg hb hv hm =>
      exact ⟨fun j => ((marked_blk b total _ _ hm j).1).trans (ih.1 j),
        fun x => by rw [hm.harcs]; exact ih.2 x⟩
    | flags hg hs =>
      exact ⟨fun j => ((hs.2.2 j).1).trans (ih.1 j), fun x => by rw [hs.1]; exact ih.2 x⟩
    | deduce v o ia ex total hg hv hcv hia hiv hside hd =>
      refine ⟨fun j => ((hd.hsame j).1).trans (ih.1 j), fun x => ?_⟩
      rw [deduced_arc v o ia ex total _ _ hd (by rw [hg.alen]; exact hia) x]
      split
      · next e => subst e; exact ih.2 x
      · exact ih.2 x

/-- C27: for every function of an accepted pair, after `solve_flow_graph` the
exit chain of every block is in ascending order of the index of the
destination block, a permutation of the chain the block had before, and the
arcs of one destination are in the order they had; the destinations of the
arcs are as before.  The bubble sort of lines 1004-1039 returns for every
non-empty chain (the sort is entered only with a chain of two arcs or more),
within a number of passes bounded by the square of the length. -/
theorem solve_flow_graph_sorted (rfuel : Nat) (gcno : List Char) (note : Option note_file)
    (data : Option data_file) (p p1 : pair_state)
    (h : read_graph_file rfuel gcno note pair_state.empty = result.ok p)
    (h1 : read_count_file data p = result.ok p1) (f fuel : Nat)
    (hfuel : (p1.fn f).arcs.length * (p1.fn f).arcs.length + 2 * (p1.fn f).arcs.length +
      3 * (p1.fn f).num_blocks < fuel) :
    (∃ fn1, solve_flow_graph fuel (p1.fn f) = some fn1 ∧
      (∀ x, (arc fn1.arcs x).dst = (arc (p1.fn f).arcs x).dst) ∧
      ∀ j, j < (p1.fn f).num_blocks →
        (blk fn1.blocks j).succ.Pairwise (fun x y => (arc fn1.arcs x).dst ≤ (arc fn1.arcs y).dst) ∧
        ((blk fn1.blocks j).succ).Perm (blk (p1.fn f).blocks j).succ ∧
        ∀ d0, (blk fn1.blocks j).succ.filter (fun x => decide ((arc fn1.arcs x).dst = d0)) =
          (blk (p1.fn f).blocks j).succ.filter (fun x => decide ((arc fn1.arcs x).dst = d0))) ∧
    ∀ (as : List arc_info) (start : List Nat) (k : Nat), start ≠ [] →
      start.length * start.length < k →
      ∃ s, sort_loop as k start = some s ∧
        s.Pairwise (fun x y => (arc as x).dst ≤ (arc as y).dst) ∧ s.Perm start ∧
        ∀ d0, s.filter (fun x => decide ((arc as x).dst = d0)) =
          start.filter (fun x => decide ((arc as x).dst = d0)) := by
  have hr := read_files_ready rfuel gcno note data p p1 h h1 f
  constructor
  · obtain ⟨st0, iv1, st1, r1, _, _, _, _, _, r7, _, _, r10, _, _⟩ := solve_run (p1.fn f) hr fuel hfuel
    obtain ⟨t1, t2⟩ := solve_steps_succ (p1.fn f) st0 st1 r10
    unfold solve_start at r1
    obtain ⟨c1, c2, c3, c4, c5⟩ := solve_setup_frame fuel (p1.fn f).counts (p1.fn f).num_blocks 0 _ st0 r1
      (by simp [solve_entry_exit_length, function_info.num_blocks])
    have hee : ∀ j, (blk (solve_entry_exit (p1.fn f).blocks).1 j).succ = (blk (p1.fn f).blocks j).succ := by
      intro j
      obtain ⟨a, b, e⟩ := solve_entry_exit_blk (p1.fn f).blocks j
      rw [e]
    have hdst : ∀ x, (arc st1.arcs x).dst = (arc (p1.fn f).arcs x).dst :=
      fun x => (t2 x).trans (c1 x).1
    have hrel : (fun x y => (arc st1.arcs x).dst ≤ (arc st1.arcs y).dst) =
        (fun x y => (arc (p1.fn f).arcs x).dst ≤ (arc (p1.fn f).arcs y).dst) := by
      funext x y; rw [hdst x, hdst y]
    have hfil : ∀ d0, (fun x => decide ((arc st1.arcs x).dst = d0)) =
        (fun x => decide ((arc (p1.fn f).arcs x).dst = d0)) := by
      intro d0; funext x; rw [hdst x]
    refine ⟨_, r7, hdst, ?_⟩
    intro j hj
    obtain ⟨d1, d2, d3⟩ := c5 j (by omega) (by omega)
    simp only at d1 d2 d3
    rw [hee j] at d2 d3
    show (blk st1.blocks j).succ.Pairwise (fun x y => (arc st1.arcs x).dst ≤ (arc st1.arcs y).dst) ∧
      ((blk st1.blocks j).succ).Perm (blk (p1.fn f).blocks j).succ ∧
      ∀ d0, (blk st1.blocks j).succ.filter (fun x => decide ((arc st1.arcs x).dst = d0)) =
        (blk (p1.fn f).blocks j).succ.filter (fun x => decide ((arc st1.arcs x).dst = d0))
    rw [hrel, t1 j]
    refine ⟨d1, d2, fun d0 => ?_⟩
    rw [hfil d0]
    exact d3 d0
  · intro as start k hne hk
    obtain ⟨s, hs, _⟩ := sort_loop_spec as k start hne (by have := inversions_le as start; omega)
    exact ⟨s, hs, sort_loop_sorted as k start s hs⟩

/-- Witness of C27 on the function `G` of `skew_note` with the measured
counts 5 and 6. -/
theorem solve_flow_graph_sorted_witness :
    read_graph_file 8 (skew_pair 5 6).gcno (some skew_note) pair_state.empty = result.ok skew_graph ∧
    read_count_file (skew_pair 5 6).data skew_graph = result.ok (skew_counted 5 6) ∧
    (∃ fn1, solve_flow_graph 37 ((skew_counted 5 6).fn 0) = some fn1 ∧
      (∀ x, (arc fn1.arcs x).dst = (arc ((skew_counted 5 6).fn 0).arcs x).dst) ∧
      ∀ j, j < ((skew_counted 5 6).fn 0).num_blocks →
        (blk fn1.blocks j).succ.Pairwise (fun x y => (arc fn1.arcs x).dst ≤ (arc fn1.arcs y).dst) ∧
        ((blk fn1.blocks j).succ).Perm (blk ((skew_counted 5 6).fn 0).blocks j).succ ∧
        ∀ d0, (blk fn1.blocks j).succ.filter (fun x => decide ((arc fn1.arcs x).dst = d0)) =
          (blk ((skew_counted 5 6).fn 0).blocks j).succ.filter
            (fun x => decide ((arc fn1.arcs x).dst = d0))) ∧
    ∀ (as : List arc_info) (start : List Nat) (k : Nat), start ≠ [] →
      start.length * start.length < k →
      ∃ s, sort_loop as k start = some s ∧
        s.Pairwise (fun x y => (arc as x).dst ≤ (arc as y).dst) ∧ s.Perm start ∧
        ∀ d0, s.filter (fun x => decide ((arc as x).dst = d0)) =
          start.filter (fun x => decide ((arc as x).dst = d0)) :=
  ⟨by decide, by decide,
   solve_flow_graph_sorted 8 (skew_pair 5 6).gcno (some skew_note) (skew_pair 5 6).data
     skew_graph (skew_counted 5 6) (by decide) (by decide) 0 37 (by decide)⟩

/-! ## Flow solver: where the measured counts go -/

theorem solve_scan_arc_value (cs : List Int) (ix x : Nat) (st st1 : solve_state)
    (sc sc1 : succ_scan) (h : solve_scan_arc (some cs) ix x st sc = some (st1, sc1)) :
    (∀ y, y ≠ x → arc st1.arcs y = arc st.arcs y) ∧
    ((arc st.arcs x).on_tree = true → st1.arcs = st.arcs ∧ st1.count_ptr = st.count_ptr) ∧
    ((arc st.arcs x).on_tree = false → x < st.arcs.length →
      cs.get? st.count_ptr = some (arc st1.arcs x).count ∧ st1.count_ptr = st.count_ptr + 1) := by
  unfold solve_scan_arc at h
  dsimp only at h
  by_cases ht : (arc st.arcs x).on_tree = true
  · simp only [ht, if_true] at h
    injection h with h; injection h with h1 h2; subst h1
    exact ⟨fun _ _ => rfl, fun _ => ⟨rfl, rfl⟩, fun hc => by rw [ht] at hc; exact absurd hc (by decide)⟩
  · rw [if_neg ht] at h
    cases hg : cs.get? st.count_ptr with
    | none => rw [hg] at h; simp at h
    | some v =>
      rw [hg] at h
      simp only at h
      injection h with h; injection h with h1 h2
      have harcs : st1.arcs = st.arcs.set x { arc st.arcs x with count := v, count_valid := true } := by
        rw [← h1]
      have hptr : st1.count_ptr = st.count_ptr + 1 := by rw [← h1]
      refine ⟨?_, fun hc => absurd hc ht, fun _ hx => ⟨?_, hptr⟩⟩
      · intro y hy
        rw [harcs, arc_set, if_neg (fun hc => hy hc.1.symm)]
      · rw [harcs, arc_set, if_pos ⟨rfl, hx⟩]

theorem counts_placed_arc (fn : function_info) (cs : List Int) (pre : List Nat) (ix x : Nat)
    (st st1 : solve_state) (sc sc1 : succ_scan) (hp : counts_placed fn cs pre st)
    (h : solve_scan_arc (some cs) ix x st sc = some (st1, sc1))
    (hx : x ∉ pre) (hlt : x < st.arcs.length)
    (ht : (arc st.arcs x).on_tree = (arc fn.arcs x).on_tree) :
    counts_placed fn cs (pre ++ [x]) st1 := by
  obtain ⟨v1, v2, v3⟩ := solve_scan_arc_value cs ix x st st1 sc sc1 h
  obtain ⟨p1, p2⟩ := hp
  have hmap : (pre.filter (fun a => !(arc fn.arcs a).on_tree)).map (fun a => (arc st1.arcs a).count) =
      (pre.filter (fun a => !(arc fn.arcs a).on_tree)).map (fun a => (arc st.arcs a).count) := by
    apply List.map_congr_left
    intro a ha
    have : a ≠ x := fun hc => hx (hc ▸ (List.mem_filter.1 ha).1)
    rw [v1 a this]
  unfold counts_placed
  rw [List.filter_append]
  by_cases hon : (arc fn.arcs x).on_tree = true
  · obtain ⟨w1, w2⟩ := v2 (ht.trans hon)
    have : [x].filter (fun a => !(arc fn.arcs a).on_tree) = [] := by simp [hon]
    rw [this, List.append_nil, hmap, w2]
    exact ⟨p1, p2⟩
  · have hof : (arc fn.arcs x).on_tree = false := by simpa using hon
    obtain ⟨w1, w2⟩ := v3 (ht.trans hof) hlt
    have : [x].filter (fun a => !(arc fn.arcs a).on_tree) = [x] := by simp [hof]
    rw [this, List.map_append, hmap, p2, w2, List.length_append, ← p1]
    refine ⟨rfl, ?_⟩
    rw [List.take_succ, ← List.get?_eq_getElem?, w1]
    rfl

theorem counts_placed_scan (fn : function_info) (cs : List Int) (ix : Nat) (l : List Nat) :
    ∀ (pre : List Nat) (st st1 : solve_state) (sc sc1 : succ_scan),
      counts_placed fn cs pre st → solve_scan (some cs) ix l st sc = some (st1, sc1) →
      l.Nodup → (∀ x ∈ l, x ∉ pre) → (∀ x ∈ l, x < st.arcs.length) →
      (∀ x, (arc st.arcs x).on_tree = (arc fn.arcs x).on_tree) →
      counts_placed fn cs (pre ++ l) st1 := by
  induction l with
  | nil =>
    intro pre st st1 sc sc1 hp h _ _ _ _
    simp only [solve_scan] at h
    injection h with h; injection h with h1 _; subst h1
    rw [List.append_nil]; exact hp
  | cons a rest ih =>
    intro pre st st1 sc sc1 hp h hnd hdis hlt hon
    simp only [solve_scan] at h
    cases hr : solve_scan_arc (some cs) ix a st sc with
    | none => rw [hr] at h; simp at h
    | some r =>
      obtain ⟨st2, sc2⟩ := r
      rw [hr] at h
      simp only at h
      obtain ⟨_, a2, _, a4, _, _⟩ := solve_scan_arc_frame (some cs) ix a st st2 sc sc2 hr
      have hp2 := counts_placed_arc fn cs pre ix a st st2 sc sc2 hp hr
        (hdis a (List.mem_cons_self _ _)) (hlt a (List.mem_cons_self _ _)) (hon a)
      have := ih (pre ++ [a]) st2 st1 sc2 sc1 hp2 h (List.nodup_cons.1 hnd).2
        (by
          intro x hx hc
          rcases List.mem_append.1 hc with hc | hc
          · exact hdis x (List.mem_cons_of_mem _ hx) hc
          · rw [List.mem_singleton] at hc
            subst hc
            exact (List.nodup_cons.1 hnd).1 hx)
        (fun x hx => by rw [a4]; exact hlt x (List.mem_cons_of_mem _ hx))
        (fun x => (a2 x).2.trans (hon x))
      rw [List.append_assoc] at this
      exact this

theorem solve_setup_block_scan (fuel : Nat) (counts : Option (List Int)) (ix : Nat)
    (st st1 : solve_state) (h : solve_setup_block fuel counts ix st = some st1) :
    ∃ s1 sc, solve_scan counts ix (blk st.blocks ix).succ st
        { prev_dst := none, out_of_order := false, non_fake_succ := 0 } = some (s1, sc) ∧
      st1.count_ptr = s1.count_ptr ∧ ∀ x, (arc st1.arcs x).count = (arc s1.arcs x).count := by
  unfold solve_setup_block at h
  cases hs : solve_scan counts ix (blk st.blocks ix).succ st
      { prev_dst := none, out_of_order := false, non_fake_succ := 0 } with
  | none => rw [hs] at h; simp at h
  | some r =>
    obtain ⟨s1, sc⟩ := r
    rw [hs] at h
    simp only at h
    obtain ⟨st2, hst2⟩ : ∃ st2, st2 =
        (if sc.non_fake_succ = 1 then solve_mark ix (blk s1.blocks ix).succ s1 else s1) := ⟨_, rfl⟩
    rw [← hst2] at h
    have hsame : same_solve s1 st2 := by
      rw [hst2]; split
      · exact solve_mark_same ix _ s1
      · exact same_solve_refl s1
    obtain ⟨_, _, m3, _, _, m6, _⟩ := hsame
    refine ⟨s1, sc, rfl, ?_⟩
    by_cases ho : sc.out_of_order = true
    · simp only [ho, if_true] at h
      cases hsort : sort_loop st2.arcs fuel (blk st2.blocks ix).succ with
      | none => rw [hsort] at h; simp at h
      | some s =>
        rw [hsort] at h
        simp only at h
        injection h with h
        rw [← h]
        exact ⟨m3, fun x => (m6 x).2.2.2.2.1⟩
    · have hof : sc.out_of_order = false := by simpa using ho
      simp only [hof, Bool.false_eq_true, if_false] at h
      injection h with h
      rw [← h]
      exact ⟨m3, fun x => (m6 x).2.2.2.2.1⟩

theorem counts_placed_congr (fn : function_info) (cs : List Int) (pre : List Nat)
    (st st1 : solve_state) (hp : counts_placed fn cs pre st) (h1 : st1.count_ptr = st.count_ptr)
    (h2 : ∀ x, (arc st1.arcs x).count = (arc st.arcs x).count) : counts_placed fn cs pre st1 := by
  unfold counts_placed at hp ⊢
  rw [h1]
  refine ⟨hp.1, ?_⟩
  rw [← hp.2]
  exact List.map_congr_left (fun a _ => h2 a)

theorem range_flatMap_succ (n : Nat) (g : Nat → List Nat) :
    (List.range (n + 1)).flatMap g = (List.range n).flatMap g ++ g n := by
  rw [List.range_succ, List.flatMap_append]
  simp

/-- The first loop of the solver (lines 963-1045) over the blocks from `ix`
on: the values of the buffer go to the arcs off the tree in the order of the
blocks and of their exit chains. -/
theorem counts_placed_setup (fn : function_info) (hl : arcs_linked fn) (cs : List Int)
    (fuel : Nat) :
    ∀ (todo ix : Nat) (st st1 : solve_state), solve_setup fuel (some cs) todo ix st = some st1 →
      ix + todo = fn.num_blocks → st.blocks.length = fn.num_blocks →
      st.arcs.length = fn.arcs.length →
      (∀ x, (arc st.arcs x).on_tree = (arc fn.arcs x).on_tree) →
      (∀ j, ix ≤ j → (blk st.blocks j).succ = (blk fn.blocks j).succ) →
      counts_placed fn cs ((List.range ix).flatMap (fun j => (blk fn.blocks j).succ)) st →
      counts_placed fn cs ((List.range fn.num_blocks).flatMap (fun j => (blk fn.blocks j).succ)) st1 := by
  intro todo
  induction todo with
  | zero =>
    intro ix st st1 h hix _ _ _ _ hp
    simp only [solve_setup] at h
    injection h with h; subst h
    have : ix = fn.num_blocks := by omega
    rw [← this]; exact hp
  | succ k ih =>
    intro ix st st1 h hix hbl hal hon hsucc hp
    simp only [solve_setup] at h
    cases hb : solve_setup_block fuel (some cs) ix st with
    | none => rw [hb] at h; simp at h
    | some st2 =>
      rw [hb] at h
      simp only at h
      obtain ⟨b1, b2, b3, b4, _, _, _⟩ := solve_setup_block_frame fuel (some cs) ix st st2 hb (by omega)
      obtain ⟨s1, sc, e1, e2, e3⟩ := solve_setup_block_scan fuel (some cs) ix st st2 hb
      have hixn : ix < fn.num_blocks := by omega
      rw [hsucc ix (le_refl _)] at e1
      have hp1 := counts_placed_scan fn cs ix _ _ st s1 _ sc hp e1 (linked_succ_nodup fn hl ix hixn)
        (by
          intro x hx hc
          rw [List.mem_flatMap] at hc
          obtain ⟨j, hj, hxj⟩ := hc
          rw [List.mem_range] at hj
          have h1 := (hl.2.1 ix hixn x hx).2
          have h2 := (hl.2.1 j (by omega) x hxj).2
          omega)
        (fun x hx => by rw [hal]; exact (hl.2.1 ix hixn x hx).1) hon
      rw [← range_flatMap_succ] at hp1
      have hp2 := counts_placed_congr fn cs _ s1 st2 hp1 e2 e3
      exact ih (ix + 1) st2 st1 h (by omega) (b2.trans hbl) (b3.trans hal)
        (fun x => (b1 x).2.trans (hon x))
        (fun j hj => by rw [b4 j (by omega)]; exact hsucc j (by omega)) hp2

/-- The two orders hold the same arcs. -/
theorem block_order_perm (fn : function_info) (hl : arcs_linked fn) :
    (block_order fn).Perm (note_order fn) := by
  unfold block_order note_order
  apply List.Perm.filter
  rw [List.perm_ext_iff_of_nodup _ (List.nodup_range _)]
  · intro a
    rw [List.mem_flatMap, List.mem_range]
    constructor
    · rintro ⟨j, hj, ha⟩
      exact (hl.2.1 j (List.mem_range.1 hj) a ha).1
    · intro ha
      refine ⟨(arc fn.arcs a).src, List.mem_range.2 (hl.1 a ha).1, ?_⟩
      exact (linked_mem_succ fn hl a ha _).2 rfl
  · rw [List.nodup_flatMap]
    refine ⟨fun j hj => linked_succ_nodup fn hl j (List.mem_range.1 hj), ?_⟩
    refine List.Pairwise.imp_of_mem ?_ (List.pairwise_lt_range fn.num_blocks)
    intro i j hi hj hij
    show List.Disjoint (blk fn.blocks i).succ (blk fn.blocks j).succ
    intro x hx1 hx2
    have h1 := (hl.2.1 i (List.mem_range.1 hi) x hx1).2
    have h2 := (hl.2.1 j (List.mem_range.1 hj) x hx2).2
    omega

/-- The state left by the first loop: the arcs off the tree, in the order of
the loop, carry the values of the counts buffer. -/
theorem solve_start_counts (fn : function_info) (hr : fn_ready fn) (fuel : Nat)
    (hfuel : fn.arcs.length * fn.arcs.length < fuel) (st0 : solve_state)
    (hs : solve_start fuel fn = some st0) (cs : List Int) (hcs : fn.counts = some cs) :
    (block_order fn).map (fun a => (arc st0.arcs a).count) = cs := by
  obtain ⟨st, hst, hi, _, _⟩ := solve_setup_ready fn hr fuel hfuel
  have hst0 : st = st0 := by
    unfold solve_start at hs; rw [hst] at hs; injection hs
  subst hst0
  have hptr := setup_count_ptr fn st hi (by rw [hcs]; simp)
  rw [hcs] at hst
  have hee : ∀ j, (blk (solve_entry_exit fn.blocks).1 j).succ = (blk fn.blocks j).succ := by
    intro j
    obtain ⟨a, b, e⟩ := solve_entry_exit_blk fn.blocks j
    rw [e]
  have hp := counts_placed_setup fn hr.1 cs fuel fn.num_blocks 0 _ st hst (by omega)
    (solve_entry_exit_length fn.blocks) rfl (fun _ => rfl) (fun j _ => hee j)
    (by unfold counts_placed; simp)
  obtain ⟨p1, p2⟩ := hp
  unfold block_order
  rw [p2, hptr, ← hr.2.1.1, ← hr.2.2 cs hcs, List.take_length]

/-- Counterexample to C21 as stated: in `swap_note` the ARCS record of block
1 comes before that of block 0, so the arc 1->2 is the first arc off the tree
in the note file; with the buffer `[5, 7]` it carries 7 after
`solve_flow_graph`, not the first value 5. -/
theorem solve_counts_note_order_counterexample :
    read_graph_file 8 (skew_pair 5 6).gcno (some swap_note) pair_state.empty = result.ok swap_graph ∧
    read_count_file (some swap_data) swap_graph = result.ok swap_counted ∧
    (swap_counted.fn 0).counts = some [5, 7] ∧
    note_order (swap_counted.fn 0) = [0, 1] ∧
    ∃ fn1, solve_flow_graph 30 (swap_counted.fn 0) = some fn1 ∧
      (note_order (swap_counted.fn 0)).map (fun a => (arc fn1.arcs a).count) = [7, 5] := by
  refine ⟨by decide, by decide, by decide, by decide, ?_⟩
  have h : (solve_flow_graph 30 (swap_counted.fn 0)).isSome = true := by decide
  obtain ⟨fn1, h1⟩ := Option.isSome_iff_exists.1 h
  refine ⟨fn1, h1, ?_⟩
  have h2 : ((solve_flow_graph 30 (swap_counted.fn 0)).map
      (fun fn => (note_order (swap_counted.fn 0)).map (fun a => (arc fn.arcs a).count))) =
      some [7, 5] := by decide
  rw [h1] at h2
  simpa using h2

/-- C21, amended: for every function of an accepted pair with a counts
buffer `cs`, the arcs off the tree taken in the order of the first loop of
`solve_flow_graph` (blocks by ascending index, the arcs of a block in the
order of its exit chain; the same arcs as in the order of the note file)
carry the values of `cs` in order after that loop, and they carry the same
counts, marked valid, after every number of turns of the fixed-point loop and
in the result. -/
theorem solve_counts_block_order (rfuel : Nat) (gcno : List Char) (note : Option note_file)
    (data : Option data_file) (p p1 : pair_state)
    (h : read_graph_file rfuel gcno note pair_state.empty = result.ok p)
    (h1 : read_count_file data p = result.ok p1) (f fuel : Nat)
    (hfuel : (p1.fn f).arcs.length * (p1.fn f).arcs.length + 2 * (p1.fn f).arcs.length +
      3 * (p1.fn f).num_blocks < fuel)
    (cs : List Int) (hcs : (p1.fn f).counts = some cs) :
    (block_order (p1.fn f)).Perm (note_order (p1.fn f)) ∧
    ∃ st0 fn1, solve_start fuel (p1.fn f) = some st0 ∧
      solve_flow_graph fuel (p1.fn f) = some fn1 ∧
      (block_order (p1.fn f)).map (fun a => (arc st0.arcs a).count) = cs ∧
      (∀ t, ∃ in_valid st, solve_iter t false st0 = some (in_valid, st) ∧
        ∀ a, a < (p1.fn f).arcs.length → (arc (p1.fn f).arcs a).on_tree = false →
          (arc st.arcs a).count_valid = true ∧ (arc st.arcs a).count = (arc st0.arcs a).count) ∧
      (∀ a, a < (p1.fn f).arcs.length → (arc (p1.fn f).arcs a).on_tree = false →
        (arc fn1.arcs a).count_valid = true ∧ (arc fn1.arcs a).count = (arc st0.arcs a).count) ∧
      (block_order (p1.fn f)).map (fun a => (arc fn1.arcs a).count) = cs := by
  have hr := read_files_ready rfuel gcno note data p p1 h h1 f
  refine ⟨block_order_perm _ hr.1, ?_⟩
  obtain ⟨st0, iv1, st1, r1, r2, r3, _, _, _, r7, _, _, r10, _, _⟩ := solve_run (p1.fn f) hr fuel hfuel
  obtain ⟨v1, _, _, _⟩ := solve_start_valid (p1.fn f) hr fuel (by omega) st0 r1
  have hc0 := solve_start_counts (p1.fn f) hr fuel (by omega) st0 r1 cs hcs
  have hkeep : ∀ st, Relation.ReflTransGen (solve_step (p1.fn f)) st0 st →
      ∀ a, a < (p1.fn f).arcs.length → (arc (p1.fn f).arcs a).on_tree = false →
        (arc st.arcs a).count_valid = true ∧ (arc st.arcs a).count = (arc st0.arcs a).count := by
    intro st hst a ha ht
    exact (solve_steps_mono (p1.fn f) st0 st hst).1 a (by rw [v1 a ha, ht]; rfl)
  refine ⟨st0, _, r1, r7, hc0, ?_, hkeep st1 r10, ?_⟩
  · intro t
    obtain ⟨iv, st, u1, _, _, u4, _⟩ := solve_iter_spec (p1.fn f) hr.1 t false st0 r2 r3
    exact ⟨iv, st, u1, hkeep st u4⟩
  · rw [← hc0]
    apply List.map_congr_left
    intro a ha
    have hm := (block_order_perm _ hr.1).mem_iff.1 ha
    unfold note_order at hm
    rw [List.mem_filter, List.mem_range] at hm
    exact (hkeep st1 r10 a hm.1 (by simpa using hm.2)).2

/-- Witness of C21 on `swap_note` with the buffer `[5, 7]`. -/
theorem solve_counts_block_order_witness :
    read_graph_file 8 (skew_pair 5 6).gcno (some swap_note) pair_state.empty = result.ok swap_graph ∧
    read_count_file (some swap_data) swap_graph = result.ok swap_counted ∧
    block_order (swap_counted.fn 0) = [1, 0] ∧
    (block_order (swap_counted.fn 0)).Perm (note_order (swap_counted.fn 0)) ∧
    ∃ st0 fn1, solve_start 30 (swap_counted.fn 0) = some st0 ∧
      solve_flow_graph 30 (swap_counted.fn 0) = some fn1 ∧
      (block_order (swap_counted.fn 0)).map (fun a => (arc st0.arcs a).count) = [5, 7] ∧
      (∀ t, ∃ in_valid st, solve_iter t false st0 = some (in_valid, st) ∧
        ∀ a, a < (swap_counted.fn 0).arcs.length → (arc (swap_counted.fn 0).arcs a).on_tree = false →
          (arc st.arcs a).count_valid = true ∧ (arc st.arcs a).count = (arc st0.arcs a).count) ∧
      (∀ a, a < (swap_counted.fn 0).arcs.length → (arc (swap_counted.fn 0).arcs a).on_tree = false →
        (arc fn1.arcs a).count_valid = true ∧ (arc fn1.arcs a).count = (arc st0.arcs a).count) ∧
      (block_order (swap_counted.fn 0)).map (fun a => (arc fn1.arcs a).count) = [5, 7] :=
  ⟨by decide, by decide, by decide,
   solve_counts_block_order 8 (skew_pair 5 6).gcno (some swap_note) (some swap_data)
     swap_graph swap_counted (by decide) (by decide) 0 30 (by decide) [5, 7] (by decide)⟩

theorem block_cycle_arc_none (B : block_info) (h : B.cycle_arc = none) :
    { B with cycle_arc := none } = B := by
  cases B
  simp only at h
  subst h
  rfl

theorem set_getD_self {α : Type} (l : List α) (d : α) : ∀ i : Nat, l.set i (l.getD i d) = l := by
  induction l with
  | nil => intro i; rfl
  | cons x xs ih =>
    intro i
    cases i with
    | zero => rfl
    | succ i => simp only [List.getD_cons_succ, List.set_cons_succ, ih]

theorem search_ok_congr (ix : Nat) (S : Nat → Prop) (rank : Nat → Nat) (fn fn1 : function_info)
    (H : search_ok ix S rank fn) (hl : fn1.blocks.length = fn.blocks.length)
    (ha : ∀ a, (arc fn1.arcs a).src = (arc fn.arcs a).src ∧ (arc fn1.arcs a).dst = (arc fn.arcs a).dst)
    (hs : ∀ j, (blk fn1.blocks j).succ = (blk fn.blocks j).succ)
    (hi : ∀ j, j < fn.blocks.length → (blk fn1.blocks j).cycle_ident = ix →
      (blk fn.blocks j).cycle_ident = ix ∨ S j) :
    search_ok ix S rank fn1 := by
  constructor
  · intro j hj hc
    rw [hl] at hj
    rcases hi j hj hc with h | h
    · exact H.hid j hj h
    · exact h
  · intro j hj
    rw [hl]
    exact H.hlt j hj
  · intro j hj
    rw [hs]
    exact H.hnd j hj
  · intro j hj a hm
    rw [hs] at hm
    rw [(ha a).1]
    exact H.hsrc j hj a hm
  · intro j hj a hm
    rw [hs] at hm
    rw [(ha a).2, hl]
    exact H.hdst j hj a hm
  · intro j hj a hm
    rw [hs] at hm
    rw [(ha a).2]
    intro hd
    exact H.hrank j hj a hm hd

theorem search_ok_push (ix : Nat) (S : Nat → Prop) (rank : Nat → Nat) (fn : function_info)
    (H : search_ok ix S rank fn) (d : Nat) (v : Option Nat) :
    search_ok ix S rank
      { fn with blocks := fn.blocks.set d { blk fn.blocks d with cycle_arc := v } } := by
  have hb : ∀ j, blk (fn.blocks.set d { blk fn.blocks d with cycle_arc := v }) j =
      { blk fn.blocks j with cycle_arc := if d = j ∧ d < fn.blocks.length then v
                                           else (blk fn.blocks j).cycle_arc } := by
    intro j
    rw [blk_set]
    by_cases e : d = j ∧ d < fn.blocks.length
    · rw [if_pos e, if_pos e, e.1]
    · rw [if_neg e, if_neg e]
  refine search_ok_congr ix S rank fn _ H (by simp) (fun a => ⟨rfl, rfl⟩) ?_ ?_
  · intro j; rw [hb]
  · intro j _ hc; rw [hb] at hc; exact Or.inl hc

theorem search_ok_done (ix : Nat) (S : Nat → Prop) (rank : Nat → Nat) (fn : function_info)
    (H : search_ok ix S rank fn) (d v : Nat) (hd : S d) :
    search_ok ix S rank
      { fn with blocks := fn.blocks.set d { blk fn.blocks d with cycle_ident := v } } := by
  refine search_ok_congr ix S rank fn _ H (by simp) (fun a => ⟨rfl, rfl⟩) ?_ ?_
  · intro j
    simp only [blk_set]
    split
    · rename_i e; rw [e.1]
    · rfl
  · intro j _ hc
    simp only [blk_set] at hc
    split at hc
    · rename_i e; rw [← e.1]; exact Or.inr hd
    · exact Or.inl hc

theorem cycle_search_explore (ix block : Nat) (S : Nat → Prop) (rank : Nat → Nat) :
    ∀ (N h : Nat), rank h < N → S h → rank h ≤ rank block →
      ∀ (fn : function_info), search_ok ix S rank fn →
      ∀ (post pre : List Nat), (blk fn.blocks h).succ = pre ++ post →
      ∀ (count : Int), ∃ n, ∀ k,
        cycle_search ix block (n + k) { fn := fn, count := count, head := h, arc := post } =
        cycle_search ix block k { fn := fn, count := count, head := h, arc := [] } := by
  intro N
  induction N with
  | zero => intro h hN; omega
  | succ N ihN =>
    intro h hN hS hle fn H post
    induction post with
    | nil =>
      intro pre _ count
      exact ⟨0, fun k => by rw [Nat.zero_add]⟩
    | cons a rest ih =>
      intro pre hpre count
      obtain ⟨n2, h2⟩ := ih (pre ++ [a]) (by rw [hpre]; simp) count
      have hmem : a ∈ (blk fn.blocks h).succ := by rw [hpre]; simp
      by_cases hskip : (arc fn.arcs a).cycle = true ∨
          (blk fn.blocks (arc fn.arcs a).dst).cycle_ident ≠ ix ∨
          (blk fn.blocks (arc fn.arcs a).dst).cycle_arc ≠ none
      · refine ⟨n2 + 1, fun k => ?_⟩
        rw [show n2 + 1 + k = (n2 + k) + 1 by omega]
        simp only [cycle_search]
        rw [if_pos hskip]
        exact h2 k
      · have hid : (blk fn.blocks (arc fn.arcs a).dst).cycle_ident = ix := by
          by_contra hc; exact hskip (Or.inr (Or.inl hc))
        have hnone : (blk fn.blocks (arc fn.arcs a).dst).cycle_arc = none := by
          by_contra hc; exact hskip (Or.inr (Or.inr hc))
        have hdlt := H.hdst h hS a hmem
        have hSd := H.hid _ hdlt hid
        have hrk := H.hrank h hS a hmem hSd
        have hne : (arc fn.arcs a).dst ≠ block := by
          intro he; rw [he] at hrk; omega
        obtain ⟨B1, hB1⟩ : ∃ x : block_info, x =
            { blk fn.blocks (arc fn.arcs a).dst with cycle_arc := some a } := ⟨_, rfl⟩
        obtain ⟨fn1, hfn1⟩ : ∃ x : function_info, x =
            { fn with blocks := fn.blocks.set (arc fn.arcs a).dst B1 } := ⟨_, rfl⟩
        have H1 : search_ok ix S rank fn1 := by
          rw [hfn1, hB1]; exact search_ok_push ix S rank fn H _ _
        have hb1 : ∀ j, blk fn1.blocks j =
            if (arc fn.arcs a).dst = j
            then { blk fn.blocks (arc fn.arcs a).dst with cycle_arc := some a }
            else blk fn.blocks j := by
          intro j; rw [hfn1, hB1]; simp only [blk_set, hdlt, and_true]
        have hsd : (blk fn1.blocks (arc fn.arcs a).dst).succ = (blk fn.blocks (arc fn.arcs a).dst).succ := by
          rw [hb1, if_pos rfl]
        obtain ⟨n1, h1⟩ := ihN (arc fn.arcs a).dst (by omega) hSd (by omega) fn1 H1
          (blk fn1.blocks (arc fn.arcs a).dst).succ [] rfl count
        refine ⟨n1 + n2 + 2, fun k => ?_⟩
        rw [show n1 + n2 + 2 + k = (n1 + ((n2 + k) + 1)) + 1 by omega]
        rw [cycle_search]
        simp only
        rw [if_neg hskip, if_neg hne, ← hB1, ← hfn1]
        rw [show (blk (fn.blocks.set (arc fn.arcs a).dst B1) (arc fn.arcs a).dst).succ =
          (blk fn1.blocks (arc fn.arcs a).dst).succ by rw [hfn1], h1 ((n2 + k) + 1)]
        rw [cycle_search]
        simp only
        rw [hb1, if_pos rfl]
        simp only
        have hback : ∀ B : block_info, B = { blk fn.blocks (arc fn.arcs a).dst with cycle_arc := none } →
            ({ fn1 with blocks := fn1.blocks.set (arc fn.arcs a).dst B } : function_info) = fn := by
          intro B hB
          rw [hfn1, hB, hB1]
          simp only [List.set_set]
          rw [block_cycle_arc_none _ hnone]
          have : fn.blocks.set (arc fn.arcs a).dst (blk fn.blocks (arc fn.arcs a).dst) = fn.blocks := by
            exact set_getD_self _ _ _
          rw [this]
        have harcs : fn1.arcs = fn.arcs := by rw [hfn1]
        have hnext : succ_next fn1 a = rest := by
          unfold succ_next
          rw [harcs, H.hsrc h hS a hmem]
          have hsh : (blk fn1.blocks h).succ = (blk fn.blocks h).succ := by
            rw [hb1]; split
            · rename_i e; rw [e]
            · rfl
          rw [hsh, hpre]
          have hnd := H.hnd h hS
          rw [hpre] at hnd
          exact dropWhile_ne_append a pre rest (fun hm =>
            (List.nodup_append.mp hnd).2.2 hm (List.mem_cons_self _ _))
        rw [hback _ rfl, harcs, H.hsrc h hS a hmem, hnext]
        exact h2 k

theorem cycle_search_acyclic (ix block : Nat) (S : Nat → Prop) (rank : Nat → Nat)
    (fn : function_info) (H : search_ok ix S rank fn) (hS : S block)
    (hnone : (blk fn.blocks block).cycle_arc = none) (count : Int) :
    ∃ n, ∀ k, cycle_search ix block (n + k)
        { fn := fn, count := count, head := block, arc := (blk fn.blocks block).succ } =
      some ({ fn with blocks :=
                fn.blocks.set block { blk fn.blocks block with cycle_ident := 4294967295 } }, count) := by
  obtain ⟨n, hn⟩ := cycle_search_explore ix block S rank (rank block + 1) block (by omega) hS
    (Nat.le_refl _) fn H (blk fn.blocks block).succ [] rfl count
  refine ⟨n + 1, fun k => ?_⟩
  rw [show n + 1 + k = n + (k + 1) by omega, hn (k + 1)]
  simp only [cycle_search, hnone]

theorem find_line_cycles_acyclic (ix : Nat) (C : List (Nat × Nat)) (rank : Nat × Nat → Nat) :
    ∀ (rest : List (Nat × Nat)), (∀ x ∈ rest, x ∈ C) → ∀ (p : pair_state), line_ok ix C rank p →
      ∀ (count : Int), ∃ n, ∀ k, ∃ p1,
        find_line_cycles (n + k) ix rest (p, count) = some (p1, count) ∧ p1.srcs = p.srcs := by
  intro rest
  induction rest with
  | nil =>
    intro _ p _ count
    exact ⟨0, fun k => ⟨p, rfl, rfl⟩⟩
  | cons x rest ih =>
    intro hsub p hp count
    obtain ⟨f, b⟩ := x
    have hmem : (f, b) ∈ C := hsub _ (List.mem_cons_self _ _)
    obtain ⟨n1, h1⟩ := cycle_search_acyclic ix b (fun j => (f, j) ∈ C) (fun j => rank (f, j))
      (p.fn f) (hp.hfn f) hmem (hp.hnone f b hmem) count
    obtain ⟨B1, hB1⟩ : ∃ x : block_info, x =
        { blk (p.fn f).blocks b with cycle_ident := 4294967295 } := ⟨_, rfl⟩
    obtain ⟨fn1, hfn1⟩ : ∃ x : function_info, x =
        { p.fn f with blocks := (p.fn f).blocks.set b B1 } := ⟨_, rfl⟩
    have hp1 : line_ok ix C rank (p.set_fn f fn1) := by
      constructor
      · intro g
        rw [fn_set_fn]
        split
        · rename_i e
          rw [← e.1, hfn1, hB1]
          exact search_ok_done ix _ _ (p.fn f) (hp.hfn f) b _ hmem
        · exact hp.hfn g
      · intro g j hj
        rw [fn_set_fn]
        split
        · rename_i e
          rw [hfn1, hB1]
          simp only [blk_set]
          split
          · rw [e.1]; exact hp.hnone g b (by rename_i e2; rw [e2.1]; exact hj)
          · rw [e.1]; exact hp.hnone g j hj
        · exact hp.hnone g j hj
    obtain ⟨n2, h2⟩ := ih (fun y hy => hsub y (List.mem_cons_of_mem _ hy)) (p.set_fn f fn1) hp1 count
    refine ⟨n1 + n2, fun k => ?_⟩
    obtain ⟨p2, e2, e3⟩ := h2 (n1 + k)
    refine ⟨p2, ?_, e3⟩
    simp only [find_line_cycles]
    rw [show n1 + n2 + k = n1 + (n2 + k) by omega, h1 (n2 + k)]
    simp only
    rw [← hB1, ← hfn1, show n1 + (n2 + k) = n2 + (n1 + k) by omega]
    exact e2

theorem mark_line_blocks_spec (ix : Nat) :
    ∀ (chain : List (Nat × Nat)) (p : pair_state),
      (mark_line_blocks ix chain p).srcs = p.srcs ∧
      (mark_line_blocks ix chain p).fns.length = p.fns.length ∧
      ∀ f, ((mark_line_blocks ix chain p).fn f).arcs = (p.fn f).arcs ∧
        ((mark_line_blocks ix chain p).fn f).blocks.length = (p.fn f).blocks.length ∧
        ∀ j, blk ((mark_line_blocks ix chain p).fn f).blocks j =
          { blk (p.fn f).blocks j with cycle_ident :=
              if (f, j) ∈ chain ∧ f < p.fns.length ∧ j < (p.fn f).blocks.length then ix
              else (blk (p.fn f).blocks j).cycle_ident } := by
  intro chain
  induction chain with
  | nil =>
    intro p
    refine ⟨rfl, rfl, fun f => ⟨rfl, rfl, fun j => ?_⟩⟩
    simp [mark_line_blocks]
  | cons x rest ih =>
    intro p
    obtain ⟨f0, b0⟩ := x
    obtain ⟨B1, hB1⟩ : ∃ x : block_info, x =
        { blk (p.fn f0).blocks b0 with cycle_ident := ix } := ⟨_, rfl⟩
    obtain ⟨fn1, hfn1⟩ : ∃ x : function_info, x =
        { p.fn f0 with blocks := (p.fn f0).blocks.set b0 B1 } := ⟨_, rfl⟩
    have hstep : mark_line_blocks ix ((f0, b0) :: rest) p =
        mark_line_blocks ix rest (p.set_fn f0 fn1) := by
      rw [hfn1, hB1]; simp [mark_line_blocks]
    rw [hstep]
    obtain ⟨i1, i2, i3⟩ := ih (p.set_fn f0 fn1)
    refine ⟨i1, ?_, fun f => ?_⟩
    · rw [i2]; simp [pair_state.set_fn]
    obtain ⟨j1, j2, j3⟩ := i3 f
    have hlen : (p.set_fn f0 fn1).fns.length = p.fns.length := by simp [pair_state.set_fn]
    by_cases e : f0 = f ∧ f0 < p.fns.length
    · have hf : (p.set_fn f0 fn1).fn f = fn1 := by rw [fn_set_fn, if_pos e]
      rw [hf] at j1 j2 j3
      obtain ⟨e1, e2⟩ := e
      subst e1
      have hl1 : fn1.blocks.length = (p.fn f0).blocks.length := by rw [hfn1]; simp
      refine ⟨by rw [j1, hfn1], by rw [j2, hl1], fun j => ?_⟩
      rw [j3, hlen, hl1]
      have hb : blk fn1.blocks j = if b0 = j ∧ b0 < (p.fn f0).blocks.length then B1
          else blk (p.fn f0).blocks j := by rw [hfn1]; simp only [blk_set]
      rw [hb]
      by_cases e3 : b0 = j ∧ b0 < (p.fn f0).blocks.length
      · rw [if_pos e3, hB1]
        obtain ⟨e4, e5⟩ := e3
        subst e4
        simp [e2, e5]
      · rw [if_neg e3]
        by_cases e6 : j < (p.fn f0).blocks.length
        · have : b0 ≠ j := fun h => e3 ⟨h, h ▸ e6⟩
          have h2 : j ≠ b0 := fun h => this h.symm
          simp [e2, e6, h2]
        · simp [e6]
    · have hf : (p.set_fn f0 fn1).fn f = p.fn f := by rw [fn_set_fn, if_neg e]
      rw [hf] at j1 j2 j3
      refine ⟨j1, j2, fun j => ?_⟩
      rw [j3, hlen]
      by_cases e2 : f < p.fns.length
      · have : f0 ≠ f := fun h => e ⟨h, h ▸ e2⟩
        have h2 : f ≠ f0 := fun h => this h.symm
        simp [h2]
      · simp [e2]

theorem ident_entries_congr (ix : Nat) (fn fn1 : function_info) (b : Nat)
    (hb : fn1.blocks = fn.blocks)
    (ha : ∀ a, (arc fn1.arcs a).src = (arc fn.arcs a).src ∧
      (arc fn1.arcs a).count = (arc fn.arcs a).count) :
    ident_entries ix fn1 b = ident_entries ix fn b := by
  unfold ident_entries
  rw [hb]
  have h1 : (fun x => decide ((blk fn.blocks (arc fn1.arcs x).src).cycle_ident ≠ ix)) =
      (fun x => decide ((blk fn.blocks (arc fn.arcs x).src).cycle_ident ≠ ix)) := by
    funext x; rw [(ha x).1]
  have h2 : (fun x => (arc fn1.arcs x).count) = (fun x => (arc fn.arcs x).count) := by
    funext x; rw [(ha x).2]
  rw [h1, h2]

theorem sum_line_entries_spec (ix : Nat) :
    ∀ (rest : List (Nat × Nat)) (p : pair_state) (count : Int) (c : coverage_info),
      (sum_line_entries ix rest (p, count, c)).1.srcs = p.srcs ∧
      (sum_line_entries ix rest (p, count, c)).1.fns.length = p.fns.length ∧
      (∀ f, ((sum_line_entries ix rest (p, count, c)).1.fn f).blocks = (p.fn f).blocks ∧
        ∀ a, (arc ((sum_line_entries ix rest (p, count, c)).1.fn f).arcs a).src = (arc (p.fn f).arcs a).src ∧
          (arc ((sum_line_entries ix rest (p, count, c)).1.fn f).arcs a).dst = (arc (p.fn f).arcs a).dst ∧
          (arc ((sum_line_entries ix rest (p, count, c)).1.fn f).arcs a).count = (arc (p.fn f).arcs a).count) ∧
      (sum_line_entries ix rest (p, count, c)).2.1 =
        count + (rest.map (fun fb => ident_entries ix (p.fn fb.1) fb.2)).sum := by
  intro rest
  induction rest with
  | nil =>
    intro p count c
    refine ⟨rfl, rfl, fun f => ⟨rfl, fun a => ⟨rfl, rfl, rfl⟩⟩, ?_⟩
    simp [sum_line_entries]
  | cons x rest ih =>
    intro p count c
    obtain ⟨f0, b0⟩ := x
    obtain ⟨fn1, hfn1⟩ : ∃ x : function_info, x =
        { p.fn f0 with arcs := init_cs_count (p.fn f0).arcs (blk (p.fn f0).blocks b0).succ } := ⟨_, rfl⟩
    have hstep : sum_line_entries ix ((f0, b0) :: rest) (p, count, c) =
        sum_line_entries ix rest (p.set_fn f0 fn1,
          (sum_entry_arcs ix (p.fn f0) (blk (p.fn f0).blocks b0).pred (count, c)).1,
          (sum_entry_arcs ix (p.fn f0) (blk (p.fn f0).blocks b0).pred (count, c)).2) := by
      rw [hfn1]; rfl
    rw [hstep]
    obtain ⟨i1, i2, i3, i4⟩ := ih (p.set_fn f0 fn1) _ _
    have hsame : ∀ f, ((p.set_fn f0 fn1).fn f).blocks = (p.fn f).blocks ∧
        ∀ a, (arc ((p.set_fn f0 fn1).fn f).arcs a).src = (arc (p.fn f).arcs a).src ∧
          (arc ((p.set_fn f0 fn1).fn f).arcs a).dst = (arc (p.fn f).arcs a).dst ∧
          (arc ((p.set_fn f0 fn1).fn f).arcs a).count = (arc (p.fn f).arcs a).count := by
      intro f
      rw [fn_set_fn]
      split
      · rename_i e
        rw [← e.1, hfn1]
        refine ⟨rfl, fun a => ?_⟩
        simp only
        rw [(init_cs_count_arc _ _ a).1]
        exact ⟨rfl, rfl, rfl⟩
      · exact ⟨rfl, fun a => ⟨rfl, rfl, rfl⟩⟩
    refine ⟨i1, ?_, fun f => ?_, ?_⟩
    · rw [i2]; simp [pair_state.set_fn]
    · obtain ⟨j1, j2⟩ := i3 f
      obtain ⟨k1, k2⟩ := hsame f
      refine ⟨j1.trans k1, fun a => ?_⟩
      obtain ⟨a1, a2, a3⟩ := j2 a
      obtain ⟨b1, b2, b3⟩ := k2 a
      exact ⟨a1.trans b1, a2.trans b2, a3.trans b3⟩
    · rw [i4, sum_entry_arcs_fst, List.map_cons, List.sum_cons]
      have hm : rest.map (fun fb => ident_entries ix ((p.set_fn f0 fn1).fn fb.1) fb.2) =
          rest.map (fun fb => ident_entries ix (p.fn fb.1) fb.2) := by
        apply List.map_congr_left
        intro fb _
        exact ident_entries_congr ix _ _ _ (hsame fb.1).1
          (fun a => ⟨((hsame fb.1).2 a).1, ((hsame fb.1).2 a).2.2⟩)
      rw [hm]
      unfold ident_entries
      dsimp only
      rw [Int.add_assoc]

theorem rank_of_acyclic {α : Type} [DecidableEq α] (r : α → α → Prop) (C : List α)
    (hC : ∀ x y, r x y → x ∈ C)
    (hacyc : ∀ x, ¬ Relation.TransGen r x x) :
    ∃ rank : α → Nat, ∀ x y, r x y → rank y < rank x := by
  classical
  refine ⟨fun x => (C.toFinset.filter (fun z => Relation.ReflTransGen r x z)).card, ?_⟩
  intro x y hxy
  apply Finset.card_lt_card
  rw [Finset.ssubset_iff_of_subset]
  · refine ⟨x, ?_, ?_⟩
    · rw [Finset.mem_filter, List.mem_toFinset]
      exact ⟨hC x y hxy, Relation.ReflTransGen.refl⟩
    · rw [Finset.mem_filter]
      intro h
      exact hacyc x (Relation.TransGen.head' hxy h.2)
  · intro z hz
    rw [Finset.mem_filter] at hz ⊢
    exact ⟨hz.1, Relation.ReflTransGen.head hxy hz.2⟩

theorem acyclic_of_rank {α : Type} (r : α → α → Prop) (rank : α → Nat)
    (h : ∀ x y, r x y → rank y < rank x) : ∀ x, ¬ Relation.TransGen r x x := by
  have key : ∀ x y, Relation.TransGen r x y → rank y < rank x := by
    intro x y hxy
    induction hxy with
    | single h1 => exact h _ _ h1
    | tail _ h2 ih => exact Nat.lt_trans (h _ _ h2) ih
  intro x hx
  exact Nat.lt_irrefl _ (key x x hx)

theorem fn_out_of_range (p : pair_state) (f : Nat) (h : ¬ f < p.fns.length) :
    p.fn f = function_info.zero := by
  unfold pair_state.fn
  rw [List.getD_eq_default _ _ (Nat.le_of_not_lt h)]

theorem line_ok_marked (ix : Nat) (p q : pair_state) (C0 : List (Nat × Nat))
    (rank : Nat × Nat → Nat)
    (hC : ∀ fb ∈ C0, fb.1 < p.fns.length ∧ fb.2 < (p.fn fb.1).blocks.length)
    (hoff : ∀ f, f < p.fns.length → ∀ j, j < (p.fn f).blocks.length → (f, j) ∉ C0 →
      (blk (p.fn f).blocks j).cycle_ident ≠ ix)
    (hwf : ∀ fb ∈ C0, (blk (p.fn fb.1).blocks fb.2).cycle_arc = none ∧
      (blk (p.fn fb.1).blocks fb.2).succ.Nodup ∧
      (∀ a ∈ (blk (p.fn fb.1).blocks fb.2).succ, (arc (p.fn fb.1).arcs a).src = fb.2 ∧
        (arc (p.fn fb.1).arcs a).dst < (p.fn fb.1).blocks.length) ∧
      (∀ a ∈ (blk (p.fn fb.1).blocks fb.2).pred,
        (arc (p.fn fb.1).arcs a).src < (p.fn fb.1).blocks.length))
    (hrank : ∀ x y, line_arc p C0 x y → rank y < rank x)
    (hq : ∀ f, (q.fn f).blocks.length = (p.fn f).blocks.length ∧
      (∀ a, (arc (q.fn f).arcs a).src = (arc (p.fn f).arcs a).src ∧
        (arc (q.fn f).arcs a).dst = (arc (p.fn f).arcs a).dst) ∧
      ∀ j, (blk (q.fn f).blocks j).succ = (blk (p.fn f).blocks j).succ ∧
        (blk (q.fn f).blocks j).cycle_arc = (blk (p.fn f).blocks j).cycle_arc ∧
        ((blk (q.fn f).blocks j).cycle_ident = ix →
          (blk (p.fn f).blocks j).cycle_ident = ix ∨ (f, j) ∈ C0)) :
    line_ok ix C0.reverse rank q := by
  constructor
  · intro f
    have hbase : search_ok ix (fun j => (f, j) ∈ C0.reverse) (fun j => rank (f, j)) (p.fn f) := by
      constructor
      · intro j hj hi
        rw [List.mem_reverse]
        by_contra hc
        by_cases hf : f < p.fns.length
        · exact hoff f hf j hj hc hi
        · rw [fn_out_of_range p f hf] at hj
          exact Nat.not_lt_zero _ hj
      · intro j hj
        exact (hC _ (List.mem_reverse.1 hj)).2
      · intro j hj
        exact (hwf _ (List.mem_reverse.1 hj)).2.1
      · intro j hj a ha
        exact ((hwf _ (List.mem_reverse.1 hj)).2.2.1 a ha).1
      · intro j hj a ha
        exact ((hwf _ (List.mem_reverse.1 hj)).2.2.1 a ha).2
      · intro j hj a ha hd
        exact hrank (f, j) (f, (arc (p.fn f).arcs a).dst)
          ⟨List.mem_reverse.1 hj, List.mem_reverse.1 hd, rfl, a, ha, rfl⟩
    obtain ⟨q1, q2, q3⟩ := hq f
    refine search_ok_congr ix _ _ (p.fn f) (q.fn f) hbase q1 q2 (fun j => (q3 j).1) ?_
    intro j _ hi
    rcases (q3 j).2.2 hi with h | h
    · exact Or.inl h
    · exact Or.inr (List.mem_reverse.2 h)
  · intro f j hj
    rw [((hq f).2.2 j).2.1]
    exact (hwf _ (List.mem_reverse.1 hj)).1

theorem line_entry_sum_marked (ix : Nat) (p q : pair_state) (C0 : List (Nat × Nat))
    (hC : ∀ fb ∈ C0, fb.1 < p.fns.length ∧ fb.2 < (p.fn fb.1).blocks.length)
    (hoff : ∀ f, f < p.fns.length → ∀ j, j < (p.fn f).blocks.length → (f, j) ∉ C0 →
      (blk (p.fn f).blocks j).cycle_ident ≠ ix)
    (hpred : ∀ fb ∈ C0, ∀ a ∈ (blk (p.fn fb.1).blocks fb.2).pred,
        (arc (p.fn fb.1).arcs a).src < (p.fn fb.1).blocks.length)
    (hq : ∀ f, (∀ a, (arc (q.fn f).arcs a).src = (arc (p.fn f).arcs a).src ∧
        (arc (q.fn f).arcs a).count = (arc (p.fn f).arcs a).count) ∧
      ∀ j, (blk (q.fn f).blocks j).pred = (blk (p.fn f).blocks j).pred ∧
        (blk (q.fn f).blocks j).cycle_ident =
          if (f, j) ∈ C0 ∧ f < p.fns.length ∧ j < (p.fn f).blocks.length then ix
          else (blk (p.fn f).blocks j).cycle_ident) :
    (C0.reverse.map (fun fb => ident_entries ix (q.fn fb.1) fb.2)).sum = line_entry_sum p C0 := by
  rw [List.map_reverse, List.sum_reverse]
  unfold line_entry_sum
  congr 1
  apply List.map_congr_left
  intro fb hfb
  obtain ⟨f, b⟩ := fb
  unfold ident_entries
  dsimp only
  obtain ⟨q1, q2⟩ := hq f
  rw [(q2 b).1]
  have h2 : (fun x => (arc (q.fn f).arcs x).count) = (fun x => (arc (p.fn f).arcs x).count) := by
    funext x; rw [(q1 x).2]
  rw [h2]
  congr 2
  apply List.filter_congr
  intro x hx
  rw [(q1 x).1, (q2 _).2]
  have hlt := hpred (f, b) hfb x hx
  have hf := (hC (f, b) hfb).1
  dsimp only at hlt hf
  by_cases hm : (f, (arc (p.fn f).arcs x).src) ∈ C0
  · simp [hm, hf, hlt]
  · have := hoff f hf _ hlt hm
    simp [hm, this]

theorem line_acyclic_of_rank (p : pair_state) (C : List (Nat × Nat)) (rank : Nat × Nat → Nat)
    (h : ∀ x ∈ C, ∀ a ∈ (blk (p.fn x.1).blocks x.2).succ,
      (x.1, (arc (p.fn x.1).arcs a).dst) ∈ C → rank (x.1, (arc (p.fn x.1).arcs a).dst) < rank x) :
    ∀ x, ¬ Relation.TransGen (line_arc p C) x x := by
  apply acyclic_of_rank (line_arc p C) rank
  intro x y hxy
  obtain ⟨hx, hy, h1, a, ha, hd⟩ := hxy
  have e : y = (x.1, (arc (p.fn x.1).arcs a).dst) := by
    rw [hd, ← h1]
  rw [e] at hy ⊢
  exact h x hx a ha hy

/-- C30: the body of the loop of `accumulate_line_counts` for a line of an
allocated line array whose block chain is not empty and whose sub-graph (the
arcs between two blocks of the chain) has no directed cycle, in a state as
`add_line_counts` and the earlier turns of the loop leave it (only the blocks
of a chain being searched carry an identity other than the all-ones value, no block of the chain holds a
path arc, the chains of the blocks are those of the arcs), returns for
every large enough fuel and sets the count of the line to the entry-sum: the
sum of the counts of the incoming arcs of the blocks of the line whose source
block is not on the line. -/
theorem accumulate_line_acyclic (s l ix : Nat) (p : pair_state) (ls : List line_info)
    (hs : s < p.srcs.length) (hls : (p.source s).lines = some ls) (hl : l < ls.length)
    (hne : (p.line s l).blocks ≠ [])
    (hC : ∀ fb ∈ (p.line s l).blocks, fb.1 < p.fns.length ∧ fb.2 < (p.fn fb.1).blocks.length)
    (hoff : ∀ f, f < p.fns.length → ∀ j, j < (p.fn f).blocks.length →
      (f, j) ∉ (p.line s l).blocks → (blk (p.fn f).blocks j).cycle_ident ≠ ix)
    (hwf : ∀ fb ∈ (p.line s l).blocks, (blk (p.fn fb.1).blocks fb.2).cycle_arc = none ∧
      (blk (p.fn fb.1).blocks fb.2).succ.Nodup ∧
      (∀ a ∈ (blk (p.fn fb.1).blocks fb.2).succ, (arc (p.fn fb.1).arcs a).src = fb.2 ∧
        (arc (p.fn fb.1).arcs a).dst < (p.fn fb.1).blocks.length) ∧
      (∀ a ∈ (blk (p.fn fb.1).blocks fb.2).pred,
        (arc (p.fn fb.1).arcs a).src < (p.fn fb.1).blocks.length))
    (hacyc : ∀ x, ¬ Relation.TransGen (line_arc p (p.line s l).blocks) x x) :
    ∃ n, ∀ fuel, n ≤ fuel → ∃ p1, accumulate_line fuel s l ix p = some p1 ∧
      (p1.line s l).count = line_entry_sum p (p.line s l).blocks := by
  obtain ⟨C0, hC0⟩ : ∃ c, c = (p.line s l).blocks := ⟨_, rfl⟩
  rw [← hC0] at hne hC hoff hwf hacyc ⊢
  obtain ⟨rank, hrank⟩ := rank_of_acyclic (line_arc p C0) C0 (fun x y h => h.1) hacyc
  obtain ⟨m1, m2, m3⟩ := mark_line_blocks_spec ix C0 p
  obtain ⟨pm, hpm⟩ : ∃ x, x = mark_line_blocks ix C0 p := ⟨_, rfl⟩
  rw [← hpm] at m1 m2 m3
  have hsm : s < pm.srcs.length := by rw [m1]; exact hs
  have hlsm : (pm.source s).lines = some ls := by
    unfold pair_state.source; rw [m1]; exact hls
  obtain ⟨_, u2, u3, u4⟩ := line_upd_line pm s l (fun L => { L with blocks := C0.reverse }) ls hsm hlsm hl
  obtain ⟨P1, hP1⟩ : ∃ x, x = pm.upd_line s l (fun L => { L with blocks := C0.reverse }) := ⟨_, rfl⟩
  rw [← hP1] at u2 u3 u4
  have hP1fn : ∀ f, P1.fn f = pm.fn f := by
    intro f; rw [hP1]; exact upd_line_fn _ _ _ _ _
  obtain ⟨e1, e2, e3, e4⟩ := sum_line_entries_spec ix C0.reverse P1 0 (P1.source s).coverage
  obtain ⟨E, hE⟩ : ∃ x, x = sum_line_entries ix C0.reverse (P1, 0, (P1.source s).coverage) := ⟨_, rfl⟩
  rw [← hE] at e1 e2 e3 e4
  obtain ⟨V, hV⟩ : ∃ x : source_info, x = { E.1.source s with coverage := E.2.2 } := ⟨_, rfl⟩
  obtain ⟨P2, hP2⟩ : ∃ x, x = E.1.set_source s V := ⟨_, rfl⟩
  have hunf : ∀ fuel, accumulate_line fuel s l ix p =
      match find_line_cycles fuel ix C0.reverse (P2, E.2.1) with
      | none => none
      | some (p3, count) =>
        some (count_line s l (p3.upd_line s l (fun L => { L with count := count }))) := by
    intro fuel
    subst hP2 hV hE hP1 hpm hC0
    unfold accumulate_line
    exact if_pos hne
  have hfnq : ∀ f, (P2.fn f).blocks = (pm.fn f).blocks ∧
      ∀ a, (arc (P2.fn f).arcs a).src = (arc (p.fn f).arcs a).src ∧
        (arc (P2.fn f).arcs a).dst = (arc (p.fn f).arcs a).dst := by
    intro f
    have h0 : P2.fn f = E.1.fn f := by rw [hP2]; rfl
    obtain ⟨b1, b2⟩ := e3 f
    rw [h0, b1, hP1fn]
    refine ⟨rfl, fun a => ?_⟩
    obtain ⟨a1, a2, _⟩ := b2 a
    rw [a1, a2, hP1fn, (m3 f).1]
    exact ⟨rfl, rfl⟩
  have hlo : line_ok ix C0.reverse rank P2 := by
    refine line_ok_marked ix p P2 C0 rank hC hoff hwf hrank (fun f => ?_)
    obtain ⟨b1, b2⟩ := hfnq f
    obtain ⟨_, c2, c3⟩ := m3 f
    refine ⟨by rw [b1, c2], b2, fun j => ?_⟩
    rw [b1, c3 j]
    refine ⟨rfl, rfl, ?_⟩
    dsimp only
    split
    · rename_i e; exact fun _ => Or.inr e.1
    · exact fun h => Or.inl h
  have hsum : E.2.1 = line_entry_sum p C0 := by
    rw [e4, Int.zero_add]
    refine line_entry_sum_marked ix p P1 C0 hC hoff (fun fb hfb => (hwf fb hfb).2.2.2) (fun f => ?_)
    rw [hP1fn]
    obtain ⟨c1, _, c3⟩ := m3 f
    rw [c1]
    refine ⟨fun a => ⟨rfl, rfl⟩, fun j => ?_⟩
    rw [c3 j]
    exact ⟨rfl, rfl⟩
  obtain ⟨n, hn⟩ := find_line_cycles_acyclic ix C0.reverse rank C0.reverse (fun x h => h) P2 hlo E.2.1
  refine ⟨n, fun fuel hfuel => ?_⟩
  obtain ⟨p3, f1, f2⟩ := hn (fuel - n)
  rw [show n + (fuel - n) = fuel by omega] at f1
  rw [hunf, f1]
  refine ⟨_, rfl, ?_⟩
  rw [count_line_line]
  have hsE : s < E.1.srcs.length := by rw [e1, u2]; exact hsm
  have hsrc3 : p3.source s = V := by
    unfold pair_state.source
    rw [f2, hP2]
    exact source_set_source E.1 s V hsE
  have hlines : (p3.source s).lines = some (ls.set l ((fun L : line_info => { L with blocks := C0.reverse }) (pm.line s l))) := by
    rw [hsrc3, hV]
    dsimp only
    have : E.1.source s = P1.source s := by unfold pair_state.source; rw [e1]
    rw [this, u4]
  obtain ⟨q1, _, _, _⟩ := line_upd_line p3 s l (fun L => { L with count := E.2.1 }) _
    (by rw [f2, hP2]; simp only [pair_state.set_source, List.length_set]; exact hsE)
    hlines (by simp only [List.length_set]; exact hl)
  rw [q1]
  exact hsum

/-- Witness of C30: line 10 of `carry_lines` holds the blocks 1 and 2 with the
arc 1->2 between them; its count becomes 3, the count of the arc 0->1. -/
theorem accumulate_line_acyclic_witness :
    (carry_lines.line 0 10).blocks = [(0, 2), (0, 1)] ∧
    line_entry_sum carry_lines (carry_lines.line 0 10).blocks = 3 ∧
    ∃ n, ∀ fuel, n ≤ fuel → ∃ p1, accumulate_line fuel 0 10 0 carry_lines = some p1 ∧
      (p1.line 0 10).count = line_entry_sum carry_lines (carry_lines.line 0 10).blocks :=
  ⟨by decide, by decide,
   accumulate_line_acyclic 0 10 0 carry_lines
     (List.replicate 10 line_info.zero ++ [{ count := 3, blocks := [(0, 2), (0, 1)], «exists» := true }])
     (by decide) (by decide) (by decide) (by decide) (by decide) (by decide) (by decide)
     (line_acyclic_of_rank carry_lines _ (fun x => 10 - x.2) (by decide))⟩

theorem aggregate_blocks_append (p : pair_state) (line_num : Int) (pre : List (Nat × Nat)) :
    ∀ (rest : List (Nat × Nat)) (st : Int × Int × Branches),
      aggregate_blocks p line_num (pre ++ rest) st =
        aggregate_blocks p line_num rest (aggregate_blocks p line_num pre st) := by
  induction pre with
  | nil => intro rest st; rfl
  | cons fb pre ih =>
    intro rest st
    obtain ⟨f, b⟩ := fb
    obtain ⟨ix, jx, t⟩ := st
    rw [List.cons_append]
    simp only [aggregate_blocks]
    exact ih _ _

theorem aggregate_blocks_counter (p : pair_state) (line_num : Int) (pre : List (Nat × Nat)) :
    ∀ (ix jx : Int) (t : Branches),
      (aggregate_blocks p line_num pre (ix, jx, t)).1 =
        ix + ((pre.filter (fun fb => !(blk (p.fn fb.1).blocks fb.2).is_call_return)).length : Int) := by
  induction pre with
  | nil => intro ix jx t; simp [aggregate_blocks]
  | cons fb pre ih =>
    intro ix jx t
    obtain ⟨f, b⟩ := fb
    simp only [aggregate_blocks]
    rw [ih]
    by_cases h : (blk (p.fn f).blocks b).is_call_return = true
    · simp [h]
    · simp [h]; omega

/-- Counterexample to C32 as stated: on line 10 of `call_pair` the chain holds
the blocks 1, 2, 3 and 4, block 2 is the return of a call; the branches of
block 3, with two blocks before it on the chain, are recorded with the block
component 1, and nothing is recorded with the block component 2. -/
theorem aggregate_block_ordinal_counterexample :
    ((first_source_state 40 call_pair).line 0 10).blocks = [(0, 1), (0, 2), (0, 3), (0, 4)] ∧
    (blk ((first_source_state 40 call_pair).fn 0).blocks 2).is_call_return = true ∧
    (blk ((first_source_state 40 call_pair).fn 0).blocks 3).is_call_return = false ∧
    source_records (first_source_state 40 call_pair) 0 =
      [{ id := { line := 10, block := 1, branch := 1 }, fn := 0, arc := 4 },
       { id := { line := 10, block := 1, branch := 2 }, fn := 0, arc := 5 }] ∧
    (process_file 40 call_pair aggregates.empty).map (fun g =>
      ((g.SourceBranches.at a_c table.empty) { line := 10, block := 1, branch := 1 },
       (g.SourceBranches.at a_c table.empty) { line := 10, block := 2, branch := 1 })) =
      some (some 3, none) := by
  refine ⟨by decide, by decide, by decide, by decide, by decide⟩

/-- C32, amended: in the loop over the blocks of a line of `aggregate_info`
the block-ordinal counter increments for the blocks that are not the return
of a call only: when the loop reaches a block, the counter is the number of
such blocks before it on the chain; the arcs of the block are recorded with
the sentinel 9999 when the block is the return of a call, and with that
number otherwise. -/
theorem aggregate_blocks_ordinal (p : pair_state) (line_num : Int) (pre rest : List (Nat × Nat))
    (f b : Nat) (t : Branches) :
    (aggregate_blocks p line_num pre (0, 0, t)).1 =
      ((pre.filter (fun fb => !(blk (p.fn fb.1).blocks fb.2).is_call_return)).length : Int) ∧
    aggregate_blocks p line_num (pre ++ (f, b) :: rest) (0, 0, t) =
      aggregate_blocks p line_num rest
        (((pre ++ [(f, b)]).filter (fun fb => !(blk (p.fn fb.1).blocks fb.2).is_call_return)).length,
         aggregate_arcs (p.fn f) line_num
           (if (blk (p.fn f).blocks b).is_call_return then 9999
            else ((pre.filter (fun fb => !(blk (p.fn fb.1).blocks fb.2).is_call_return)).length : Int))
           (blk (p.fn f).blocks b).succ
           ((aggregate_blocks p line_num pre (0, 0, t)).2.1,
            (aggregate_blocks p line_num pre (0, 0, t)).2.2)) := by
  have h1 := aggregate_blocks_counter p line_num pre 0 0 t
  rw [Int.zero_add] at h1
  refine ⟨h1, ?_⟩
  rw [aggregate_blocks_append]
  rw [← h1]
  generalize aggregate_blocks p line_num pre (0, 0, t) = r0 at h1 ⊢
  obtain ⟨ix, jx, t1⟩ := r0
  simp only [aggregate_blocks]
  simp only at h1
  congr 2
  rw [List.filter_append, List.length_append, Nat.cast_add, ← h1]
  by_cases h : (blk (p.fn f).blocks b).is_call_return = true
  · simp [h]
  · simp [h]

/-- C33: within one call of `aggregate_info` (`g1` are the tables it leaves)
the branch table of the source is the table before the call with the recorded
branches merged in, one after the other; two different recorded branches
never have the same `BranchId` (the branch component, the counter `jx`,
grows from one recorded arc of a line to the next, whatever the block
component is), so that the entry of every recorded branch results from
merging the value of that branch alone into the entry held before the call. -/
theorem branch_ids_distinct (p : pair_state) (s : Nat) (g g1 : aggregates)
    (h1 : aggregate_info p s g = some g1) :
    g1.SourceBranches (p.source s).name =
      some ((source_records p s).foldl (fun t r => merge_branch t r.id (r.taken p))
        (g.SourceBranches.at (p.source s).name table.empty)) ∧
    (source_records p s).Pairwise (fun r1 r2 => r1.id ≠ r2.id) ∧
    ∀ r ∈ source_records p s,
      ((source_records p s).foldl (fun t r => merge_branch t r.id (r.taken p))
        (g.SourceBranches.at (p.source s).name table.empty)) r.id =
      (merge_branch (g.SourceBranches.at (p.source s).name table.empty) r.id (r.taken p)) r.id := by
  obtain ⟨_, rfl⟩ := aggregate_info_some p s g g1 h1
  have hpw : (source_records p s).Pairwise (fun r1 r2 => r1.id ≠ r2.id) :=
    (line_records_bounds p s _ 1).2
  exact ⟨record_info_branches p s g, hpw,
    fun r hr => foldl_merge_unique p (source_records p s) hpw _ r hr⟩

/-- Witness of C33: the source of `skew_pair 5 6`, whose aggregation returns
and records the two branches of line 10. -/
theorem branch_ids_distinct_witness :
    source_records (first_source_state 16 (skew_pair 5 6)) 0 =
      [{ id := { line := 10, block := 0, branch := 0 }, fn := 0, arc := 1 },
       { id := { line := 10, block := 0, branch := 1 }, fn := 0, arc := 2 }] ∧
    ∃ g1, aggregate_info (first_source_state 16 (skew_pair 5 6)) 0 aggregates.empty = some g1 ∧
      g1.SourceBranches ((first_source_state 16 (skew_pair 5 6)).source 0).name =
        some ((source_records (first_source_state 16 (skew_pair 5 6)) 0).foldl
          (fun t r => merge_branch t r.id (r.taken (first_source_state 16 (skew_pair 5 6))))
          (aggregates.empty.SourceBranches.at
            ((first_source_state 16 (skew_pair 5 6)).source 0).name table.empty)) :=
  ⟨by decide, record_info (first_source_state 16 (skew_pair 5 6)) 0 aggregates.empty, rfl,
   (branch_ids_distinct (first_source_state 16 (skew_pair 5 6)) 0 aggregates.empty
     (record_info (first_source_state 16 (skew_pair 5 6)) 0 aggregates.empty) rfl).1⟩

theorem foldl_record_line (p : pair_state) (L : List Nat) :
    ∀ (t : Functions) (k : List Char), (∃ f ∈ L, (p.fn f).name = k) →
      ∃ e, (L.foldl (record_function p) t) k = some e ∧
        ∃ f ∈ L, (p.fn f).name = k ∧ e.line = toInt32 (p.fn f).line := by
  induction L with
  | nil => intro t k h; obtain ⟨f, hf, _⟩ := h; simp at hf
  | cons f rest ih =>
    intro t k h
    simp only [List.foldl_cons]
    by_cases hrest : ∃ g ∈ rest, (p.fn g).name = k
    · obtain ⟨e, he1, f1, hf1, hn, hl⟩ := ih (record_function p t f) k hrest
      exact ⟨e, he1, f1, List.mem_cons_of_mem _ hf1, hn, hl⟩
    · have hnone : ∀ g ∈ rest, (p.fn g).name ≠ k := fun g hg he => hrest ⟨g, hg, he⟩
      have hf : (p.fn f).name = k := by
        obtain ⟨g, hg, hgk⟩ := h
        rcases List.mem_cons.mp hg with hg | hg
        · rw [← hg]; exact hgk
        · exact absurd hgk (hnone g hg)
      rw [foldl_record_other p rest _ k hnone]
      unfold record_function
      rw [hf, table_insert_same]
      exact ⟨_, rfl, f, List.mem_cons_self _ _, hf, rfl⟩

/-- Counterexample to C34 as stated: the function `G` of `zero_pair` has the
first line 0; it is on the list of functions of its source, the loop over the
lines starts at line 1 and never reaches it, and the function table of the
source holds no entry for `G` after the pair is processed (line 10 is
counted). -/
theorem aggregate_function_line_zero_counterexample :
    ((first_source_state 16 zero_pair).source 0).functions = [0] ∧
    ((first_source_state 16 zero_pair).fn 0).name = ['G'] ∧
    ((first_source_state 16 zero_pair).fn 0).line = 0 ∧
    ((first_source_state 16 zero_pair).source 0).name = a_c ∧
    (aggregate_info (first_source_state 16 zero_pair) 0 aggregates.empty).map
      (fun g => g.function_entry a_c ['G']) = some none ∧
    (process_file 16 zero_pair aggregates.empty).map
      (fun g => (g.function_entry a_c ['G'], g.line_entry a_c 10)) = some (none, some 5) := by
  refine ⟨by decide, by decide, by decide, by decide, by decide, by decide⟩

/-- C34, amended: when the list of functions of a source is in ascending
order of first line with first lines from 1 on (as `read_graph_file` and the
reversal of `accumulate_line_counts` leave it when no function has the first
line 0) and every function of the list has a block, `aggregate_info` returns,
and after it every function of the list has an entry in the function table
of the source under its raw name; the hit of the entry is the hit held
before, increased by the entry-block counts of the functions of the list with
that name, converted to `int`; its line is the first line, converted to
`int`, of a function of the list with that name, and of the function itself
when the functions of that name have the same first line.  Where the values
lie in the range of `int` the conversions change nothing. -/
theorem aggregate_function_entry (p : pair_state) (s : Nat) (g : aggregates)
    (h : chain_sorted p s) (hb : ∀ f ∈ (p.source s).functions, (p.fn f).num_blocks ≠ 0)
    (f : Nat) (hf : f ∈ (p.source s).functions) :
    ∃ g1, aggregate_info p s g = some g1 ∧
    ∃ e, g1.function_entry (p.source s).name (p.fn f).name = some e ∧
      e.hit = toInt32 (((g.SourceFunctions.at (p.source s).name table.empty).at (p.fn f).name
        { line := 0, hit := 0 }).hit + entry_hits p (p.source s).functions (p.fn f).name) ∧
      (-2147483648 ≤ ((g.SourceFunctions.at (p.source s).name table.empty).at (p.fn f).name
          { line := 0, hit := 0 }).hit + entry_hits p (p.source s).functions (p.fn f).name →
        ((g.SourceFunctions.at (p.source s).name table.empty).at (p.fn f).name
          { line := 0, hit := 0 }).hit + entry_hits p (p.source s).functions (p.fn f).name < 2147483648 →
        e.hit = ((g.SourceFunctions.at (p.source s).name table.empty).at (p.fn f).name
          { line := 0, hit := 0 }).hit + entry_hits p (p.source s).functions (p.fn f).name) ∧
      (∃ f1 ∈ (p.source s).functions, (p.fn f1).name = (p.fn f).name ∧
        e.line = toInt32 (p.fn f1).line) ∧
      ((∀ f1 ∈ (p.source s).functions, (p.fn f1).name = (p.fn f).name →
          (p.fn f1).line = (p.fn f).line) →
        e.line = toInt32 (p.fn f).line ∧
        ((p.fn f).line < 2147483648 → e.line = (p.fn f).line)) := by
  have hv := visits_of_sorted p s h
  have hvb : visits_have_blocks p s := by
    unfold visits_have_blocks
    rw [hv]
    exact hb
  refine ⟨record_info p s g, aggregate_info_of_blocks p s g hvb, ?_⟩
  have htab := record_info_functions p s g (p.source s).name
  rw [if_pos rfl, hv] at htab
  obtain ⟨e, he1, he2⟩ := foldl_record_hit p (p.source s).functions
    (g.SourceFunctions.at (p.source s).name table.empty) (p.fn f).name ⟨f, hf, rfl⟩
  obtain ⟨e1, he3, f1, hf1, hn1, hl1⟩ := foldl_record_line p (p.source s).functions
    (g.SourceFunctions.at (p.source s).name table.empty) (p.fn f).name ⟨f, hf, rfl⟩
  have hee : e1 = e := by
    rw [he1] at he3
    exact (Option.some.inj he3).symm
  subst hee
  refine ⟨e1, ?_, he2, ?_, ⟨f1, hf1, hn1, hl1⟩, ?_⟩
  · unfold aggregates.function_entry
    rw [htab]
    exact he1
  · intro r1 r2
    rw [he2, toInt32_of_range _ r1 r2]
  · intro hsame
    have hline : e1.line = toInt32 (p.fn f).line := by rw [hl1, hsame f1 hf1 hn1]
    refine ⟨hline, fun hr => ?_⟩
    rw [hline]
    exact toInt32_of_range _ (by omega) (by omega)

/-- Witness of C34: the function `G` of `skew_pair 5 6`. -/
theorem aggregate_function_entry_witness :
    chain_sorted (first_source_state 16 (skew_pair 5 6)) 0 ∧
    (∀ f ∈ ((first_source_state 16 (skew_pair 5 6)).source 0).functions,
      ((first_source_state 16 (skew_pair 5 6)).fn f).num_blocks ≠ 0) ∧
    (0 : Nat) ∈ ((first_source_state 16 (skew_pair 5 6)).source 0).functions ∧
    ∃ g1, aggregate_info (first_source_state 16 (skew_pair 5 6)) 0 aggregates.empty = some g1 ∧
    ∃ e, g1.function_entry
        ((first_source_state 16 (skew_pair 5 6)).source 0).name
        ((first_source_state 16 (skew_pair 5 6)).fn 0).name = some e ∧ e.hit = 5 ∧ e.line = 10 := by
  have hs : chain_sorted (first_source_state 16 (skew_pair 5 6)) 0 := by decide
  have hb : ∀ f ∈ ((first_source_state 16 (skew_pair 5 6)).source 0).functions,
      ((first_source_state 16 (skew_pair 5 6)).fn f).num_blocks ≠ 0 := by decide
  have hm : (0 : Nat) ∈ ((first_source_state 16 (skew_pair 5 6)).source 0).functions := by decide
  obtain ⟨g1, hg1, e, h1, h2, _, _, h5⟩ :=
    aggregate_function_entry (first_source_state 16 (skew_pair 5 6)) 0 aggregates.empty hs hb 0 hm
  refine ⟨hs, hb, hm, g1, hg1, e, h1, ?_, ?_⟩
  · rw [h2]; decide
  · rw [(h5 (by decide)).1]; decide

/-- C35 fails: `read_graph_file` and `read_count_file` accept `bare_pair`,
whose function `G` has no BLOCKS record (no block array, `num_blocks` 0);
the pair is processed up to the aggregation of its source, where
`aggregate_info` visits `G` and reads `blocks[num_blocks - 1]` and
`blocks[0]` outside any block array: the call, and with it `process_file`,
has no defined result. -/
theorem aggregate_visits_no_blocks :
    read_graph_file 8 bare_pair.gcno bare_pair.note pair_state.empty = result.ok bare_graph ∧
    read_count_file bare_pair.data bare_graph = result.ok bare_counted ∧
    (bare_counted.fn 0).num_blocks = 0 ∧ (bare_counted.fn 0).blocks_seen = false ∧
    ((first_source_state 16 bare_pair).fn 0).num_blocks = 0 ∧
    function_visits (first_source_state 16 bare_pair)
      (((first_source_state 16 bare_pair).source 0).num_lines - 1) 1
      ((first_source_state 16 bare_pair).source 0).functions = [0] ∧
    aggregate_info (first_source_state 16 bare_pair) 0 aggregates.empty = none ∧
    process_file 16 bare_pair aggregates.empty = none := by
  refine ⟨by decide, by decide, by decide, by decide, by decide, by decide, ?_, ?_⟩
  · exact Option.not_isSome_iff_eq_none.mp (by decide)
  · exact Option.not_isSome_iff_eq_none.mp (by decide)

/-- C36 fails: the FUNCTION record sets a variable `src` of its own block and
leaves the `src` that the LINES records use as it was.  The LINES record of
`nosrc_note`, which begins with a line number, is read with a null `src`
(no defined result); the LINES record of `H` in `stale_note` is read with the
source `b.h` named by the LINES record of the function before, whose index 2
(not the index 1 of `a.c`, the source of `H`) is stored in the line encoding
of the block. -/
theorem read_lines_without_file_name :
    read_graph_file 8 ['/', 'd', '/', 'a', '.', 'g', 'c', 'n', 'o'] (some nosrc_note)
      pair_state.empty = result.undefined ∧
    read_graph_file 8 ['/', 'd', '/', 'a', '.', 'g', 'c', 'n', 'o'] (some stale_note)
      pair_state.empty = result.ok stale_graph ∧
    (stale_graph.fn 1).name = ['H'] ∧ (stale_graph.fn 1).src = 0 ∧
    (stale_graph.source 0).name = ['/', 'd', '/', 'a', '.', 'c'] ∧ (stale_graph.source 0).index = 1 ∧
    (stale_graph.source 1).name = ['/', 'd', '/', 'b', '.', 'h'] ∧ (stale_graph.source 1).index = 2 ∧
    (blk (stale_graph.fn 1).blocks 1).line_encoding = some [0, 2, 20] := by
  refine ⟨by decide, by decide, by decide, by decide, by decide, by decide, by decide, by decide,
    by decide⟩

/-- C37 fails: for a name that begins with `/../` the path-reduction loop of
`find_source` never ends.  The first `/../` is found at position 0, the search
for a `/` before it starts at `0 - 1`, the largest `size_t`, and finds the last
`/` of the name, at a position `b` of 3 or more; the erasure then removes
`0 - b + 3` characters modulo 2^64, that is none when `b` is 3 and the tail of
the name from `b` on otherwise, so the name still begins with `/../`: whatever
the fuel, the model of the loop and `find_source` return nothing. -/
theorem reduce_path_never_returns (rest gcno : List Char) (p : pair_state) (fuel : Nat) :
    reduce_path fuel ('/' :: '.' :: '.' :: '/' :: rest) = none ∧
    find_source fuel ('/' :: '.' :: '.' :: '/' :: rest) gcno p = none := by
  have key : ∀ (fuel : Nat) (rest : List Char),
      reduce_path fuel ('/' :: '.' :: '.' :: '/' :: rest) = none := by
    intro fuel
    induction fuel with
    | zero => intro rest; rfl
    | succ n ih =>
      intro rest
      have hfind : str_find "/../".toList ('/' :: '.' :: '.' :: '/' :: rest) = some 0 := by
        simp [str_find, starts_with]
      rw [reduce_path, hfind]
      simp only
      have hpos : (0 + 2 ^ 64 - 1) % 2 ^ 64 = 2 ^ 64 - 1 := by norm_num
      rw [hpos]
      cases hr : str_rfind '/' ('/' :: '.' :: '.' :: '/' :: rest) (2 ^ 64 - 1) with
      | none =>
        rw [str_rfind_none] at hr
        exact absurd (hr 3 (by norm_num) (by simp)) id
      | some b =>
        simp only
        rw [str_rfind_some] at hr
        obtain ⟨h1, h2, h3⟩ := hr
        have hb : 3 ≤ b := by
          by_contra hlt
          exact absurd (h3 3 (by omega) (by norm_num) (by simp)) id
        by_cases hb3 : b = 3
        · subst hb3
          have hlen : (0 + 2 ^ 64 - 3 + 3) % 2 ^ 64 = 0 := by norm_num
          rw [hlen]
          have he : str_erase ('/' :: '.' :: '.' :: '/' :: rest) 3 0 =
              '/' :: '.' :: '.' :: '/' :: rest := by
            simp [str_erase]
          rw [he]
          exact ih rest
        · obtain ⟨c, hc⟩ : ∃ c, b = c + 4 := ⟨b - 4, by omega⟩
          subst hc
          have he : ∀ len, str_erase ('/' :: '.' :: '.' :: '/' :: rest) (c + 4) len =
              '/' :: '.' :: '.' :: '/' :: (rest.take c ++ rest.drop (c + len)) := by
            intro len
            simp only [str_erase, List.take_succ_cons, List.cons_append]
            congr 4
            rw [show c + 4 + len = (c + len) + 4 by omega]
            rfl
          rw [he]
          exact ih _
  refine ⟨key fuel rest, ?_⟩
  unfold find_source
  have hq : qualify_path ('/' :: '.' :: '.' :: '/' :: rest) gcno = '/' :: '.' :: '.' :: '/' :: rest := by
    simp [qualify_path]
  rw [hq, key fuel rest]

/-- C38 fails: for the data file of scenario 5 with the entry count
2147483648, aggregated into empty tables, the entry block of `F` has the
count 2147483648 and line 10 exists with the count 2147483648, but the hit
stored for `F` and the count stored for line 10 are -2147483648: the fields
are `int`, and the 64-bit counts are converted on the way in. -/
theorem one_pair_int_truncation :
    (blk ((first_source_state 8 (loop_pair 2147483648 0)).fn 0).blocks 0).count = 2147483648 ∧
    ((first_source_state 8 (loop_pair 2147483648 0)).line 0 10).«exists» = true ∧
    ((first_source_state 8 (loop_pair 2147483648 0)).line 0 10).count = 2147483648 ∧
    (process_file 8 (loop_pair 2147483648 0) aggregates.empty).map
      (fun g => (g.function_entry a_c ['F'], g.line_entry a_c 10)) =
      some (some { line := 10, hit := -2147483648 }, some (-2147483648)) := by
  refine ⟨by decide, by decide, by decide, by decide⟩

theorem cycle_search_turn (ix block fuel : Nat) (st : cycle_state) :
    cycle_search ix block (fuel + 1) st =
      match cycle_turn ix block fuel st with
      | cycle_outcome.crash => none
      | cycle_outcome.more st1 => cycle_search ix block fuel st1
      | cycle_outcome.done fn1 count => some (fn1, count) := by
  rw [cycle_search]
  unfold cycle_turn
  cases h : st.arc with
  | nil =>
    simp only
    cases h2 : (blk st.fn.blocks st.head).cycle_arc with
    | none => rfl
    | some a => rfl
  | cons a rest =>
    simp only
    split
    · rfl
    · split
      · cases h3 : cycle_minimum st.fn (fuel + 1) st.head ((arc st.fn.arcs a).cs_count, a) with
        | none => rfl
        | some r =>
          obtain ⟨cc, ca⟩ := r
          try simp only
          split
          · rfl
          · rename_i fn3 h4
            try simp only [h4]
            cases h5 : cycle_unwind (arc fn3.arcs ca).src (fuel + 1) st.head a fn3 with
            | none => rfl
            | some r =>
              obtain ⟨fn4, hd, a1⟩ := r
              rfl
      · rfl

theorem on_path_mem (fn : function_info) (S : Nat → Prop) (block : Nat) (P : List Nat) :
    ∀ h, on_path fn S block h P → ∀ a ∈ P,
      (blk fn.blocks (arc fn.arcs a).dst).cycle_arc = some a ∧ S (arc fn.arcs a).src ∧
      a ∈ (blk fn.blocks (arc fn.arcs a).src).succ := by
  induction P with
  | nil => intro h _ a ha; simp at ha
  | cons x rest ih =>
    intro h hp a ha
    obtain ⟨h1, h2, h3, h4, h5⟩ := hp
    rcases List.mem_cons.mp ha with e | e
    · subst e; rw [h2]; exact ⟨h1, h3, h4⟩
    · exact ih _ h5 a e

theorem on_path_congr (fn fn1 : function_info) (S : Nat → Prop) (block : Nat) (P : List Nat)
    (ha : ∀ a, (arc fn1.arcs a).src = (arc fn.arcs a).src ∧ (arc fn1.arcs a).dst = (arc fn.arcs a).dst)
    (hs : ∀ j, (blk fn1.blocks j).succ = (blk fn.blocks j).succ) :
    ∀ h, on_path fn S block h P →
      (∀ a ∈ P, (blk fn1.blocks (arc fn.arcs a).dst).cycle_arc =
        (blk fn.blocks (arc fn.arcs a).dst).cycle_arc) →
      on_path fn1 S block h P := by
  induction P with
  | nil => intro h hp _; exact hp
  | cons x rest ih =>
    intro h hp hc
    obtain ⟨h1, h2, h3, h4, h5⟩ := hp
    refine ⟨?_, ?_, ?_, ?_, ?_⟩
    · have := hc x (List.mem_cons_self _ _)
      rw [h2] at this
      rw [this, h1]
    · rw [(ha x).2, h2]
    · rw [(ha x).1]; exact h3
    · rw [(ha x).1, hs]; exact h4
    · rw [(ha x).1]
      exact ih _ h5 (fun a hm => hc a (List.mem_cons_of_mem _ hm))

theorem search_wf_congr (ix : Nat) (S : Nat → Prop) (fn fn1 : function_info)
    (H : search_wf ix S fn) (hl : fn1.blocks.length = fn.blocks.length)
    (hla : fn1.arcs.length = fn.arcs.length)
    (ha : ∀ a, (arc fn1.arcs a).src = (arc fn.arcs a).src ∧ (arc fn1.arcs a).dst = (arc fn.arcs a).dst)
    (hs : ∀ j, (blk fn1.blocks j).succ = (blk fn.blocks j).succ)
    (hi : ∀ j, j < fn.blocks.length → (blk fn1.blocks j).cycle_ident = ix →
      (blk fn.blocks j).cycle_ident = ix ∨ S j) :
    search_wf ix S fn1 := by
  constructor
  · intro j hj hc
    rw [hl] at hj
    rcases hi j hj hc with h | h
    · exact H.hid j hj h
    · exact h
  · intro j hj
    rw [hl]
    exact H.hlt j hj
  · intro j hj
    rw [hs]
    exact H.hnd j hj
  · intro j hj a hm
    rw [hs] at hm
    rw [(ha a).1, (ha a).2, hl, hla]
    exact H.harc j hj a hm

theorem succ_next_congr (fn fn1 : function_info)
    (ha : ∀ a, (arc fn1.arcs a).src = (arc fn.arcs a).src)
    (hs : ∀ j, (blk fn1.blocks j).succ = (blk fn.blocks j).succ) (a : Nat) :
    succ_next fn1 a = succ_next fn a := by
  unfold succ_next
  rw [ha, hs]

theorem path_measure_congr (fn fn1 : function_info) (B N : Nat)
    (ha : ∀ a, (arc fn1.arcs a).src = (arc fn.arcs a).src)
    (hs : ∀ j, (blk fn1.blocks j).succ = (blk fn.blocks j).succ) (P : List Nat) :
    path_measure fn1 B N P = path_measure fn B N P := by
  induction P with
  | nil => rfl
  | cons a rest ih =>
    simp only [path_measure]
    rw [ih, succ_next_congr fn fn1 ha hs]

theorem path_measure_append (fn : function_info) (B N : Nat) (P1 P2 : List Nat) :
    path_measure fn B N P2 ≤ path_measure fn B N (P1 ++ P2) := by
  induction P1 with
  | nil => exact Nat.le_refl _
  | cons a rest ih =>
    rw [List.cons_append, path_measure]
    exact Nat.le_trans ih (Nat.le_add_left _ _)

theorem weight_pos (A k : Nat) : 0 < (A + 2) ^ k := Nat.pow_pos (by omega)

theorem cycle_turn_skip (ix block fuel : Nat) (S : Nat → Prop) (st : cycle_state) (P : List Nat)
    (a : Nat) (rest : List Nat) (hI : search_inv ix block S st P) (harc : st.arc = a :: rest)
    (hskip : (arc st.fn.arcs a).cycle = true ∨
      (blk st.fn.blocks (arc st.fn.arcs a).dst).cycle_ident ≠ ix ∨
      (blk st.fn.blocks (arc st.fn.arcs a).dst).cycle_arc ≠ none) :
    ∃ st1, cycle_turn ix block fuel st = cycle_outcome.more st1 ∧ search_inv ix block S st1 P ∧
      search_measure st1 P < search_measure st P ∧ st1.count = st.count ∧ st1.fn = st.fn := by
  refine ⟨{ st with arc := rest }, ?_, ?_, ?_, rfl, rfl⟩
  · unfold cycle_turn
    rw [harc]
    simp only
    rw [if_pos hskip]
  · obtain ⟨pre, hpre⟩ := hI.hrem
    exact ⟨hI.wf, hI.hblock, hI.hhead, hI.hnone, hI.hpath, hI.hnodup, hI.hfree,
      ⟨pre ++ [a], by rw [hpre, harc]; simp⟩⟩
  · unfold search_measure
    rw [harc]
    simp only [List.length_cons]
    have := weight_pos st.fn.arcs.length (st.fn.blocks.length - P.length)
    nlinarith

theorem path_blocks_lt (ix block : Nat) (S : Nat → Prop) (st : cycle_state) (P : List Nat)
    (hI : search_inv ix block S st P) :
    ∀ x ∈ P.map (fun a => (arc st.fn.arcs a).dst), x < st.fn.blocks.length ∧ x ≠ block ∧
      (blk st.fn.blocks x).cycle_arc ≠ none := by
  intro x hx
  obtain ⟨a, ha, rfl⟩ := List.mem_map.mp hx
  obtain ⟨h1, h2, h3⟩ := on_path_mem st.fn S block P st.head hI.hpath a ha
  refine ⟨(hI.wf.harc _ h2 a h3).2.2, ?_, by rw [h1]; simp⟩
  intro he
  rw [he, hI.hnone] at h1
  exact absurd h1 (by simp)

theorem cycle_turn_push (ix block fuel : Nat) (S : Nat → Prop) (st : cycle_state) (P : List Nat)
    (a : Nat) (rest : List Nat) (hI : search_inv ix block S st P) (harc : st.arc = a :: rest)
    (hskip : ¬ ((arc st.fn.arcs a).cycle = true ∨
      (blk st.fn.blocks (arc st.fn.arcs a).dst).cycle_ident ≠ ix ∨
      (blk st.fn.blocks (arc st.fn.arcs a).dst).cycle_arc ≠ none))
    (hne : (arc st.fn.arcs a).dst ≠ block) :
    ∃ st1, cycle_turn ix block fuel st = cycle_outcome.more st1 ∧
      search_inv ix block S st1 (a :: P) ∧
      search_measure st1 (a :: P) < search_measure st P ∧ st1.count = st.count ∧
      st1.fn.arcs = st.fn.arcs ∧ (∀ j, (blk st1.fn.blocks j).succ = (blk st.fn.blocks j).succ) := by
  obtain ⟨fn, count, head, arcl⟩ := st
  simp only at harc hskip hne
  subst harc
  have hid : (blk fn.blocks (arc fn.arcs a).dst).cycle_ident = ix := by
    by_contra hc; exact hskip (Or.inr (Or.inl hc))
  have hnone : (blk fn.blocks (arc fn.arcs a).dst).cycle_arc = none := by
    by_contra hc; exact hskip (Or.inr (Or.inr hc))
  obtain ⟨pre, hpre⟩ := hI.hrem
  simp only at hpre
  have hmem : a ∈ (blk fn.blocks head).succ := by rw [hpre]; simp
  obtain ⟨halt, hsrc, hdlt⟩ := hI.wf.harc head hI.hhead a hmem
  have hSd : S (arc fn.arcs a).dst := hI.wf.hid _ hdlt hid
  obtain ⟨B1, hB1⟩ : ∃ x : block_info, x =
      { blk fn.blocks (arc fn.arcs a).dst with cycle_arc := some a } := ⟨_, rfl⟩
  obtain ⟨fn1, hfn1⟩ : ∃ x : function_info, x =
      { fn with blocks := fn.blocks.set (arc fn.arcs a).dst B1 } := ⟨_, rfl⟩
  have harcs : fn1.arcs = fn.arcs := by rw [hfn1]
  have hlen : fn1.blocks.length = fn.blocks.length := by rw [hfn1]; simp
  have hb1 : ∀ j, blk fn1.blocks j = if (arc fn.arcs a).dst = j then B1 else blk fn.blocks j := by
    intro j; rw [hfn1]; simp only [blk_set, hdlt, and_true]
  have hsucc : ∀ j, (blk fn1.blocks j).succ = (blk fn.blocks j).succ := by
    intro j; rw [hb1]; split
    · rename_i e; rw [hB1, e]
    · rfl
  have hident : ∀ j, (blk fn1.blocks j).cycle_ident = (blk fn.blocks j).cycle_ident := by
    intro j; rw [hb1]; split
    · rename_i e; rw [hB1, e]
    · rfl
  have hother : ∀ j, j ≠ (arc fn.arcs a).dst → blk fn1.blocks j = blk fn.blocks j := by
    intro j hj; rw [hb1, if_neg (fun e => hj e.symm)]
  have hpb := path_blocks_lt ix block S _ P hI
  simp only at hpb
  have hdP : (arc fn.arcs a).dst ∉ P.map (fun x => (arc fn.arcs x).dst) := by
    intro hm
    exact (hpb _ hm).2.2 hnone
  refine ⟨{ fn := fn1, count := count, head := (arc fn.arcs a).dst,
            arc := (blk fn1.blocks (arc fn.arcs a).dst).succ }, ?_, ?_, ?_, rfl, harcs, hsucc⟩
  · unfold cycle_turn
    simp only
    rw [if_neg hskip, if_neg hne, ← hB1, ← hfn1]
    have e : fn.blocks.set (arc fn.arcs a).dst B1 = fn1.blocks := by rw [hfn1]
    rw [e]
  · constructor
    · exact search_wf_congr ix S fn fn1 hI.wf hlen (by rw [harcs])
        (fun x => by rw [harcs]; exact ⟨rfl, rfl⟩) hsucc
        (fun j _ hc => Or.inl (by rw [hident] at hc; exact hc))
    · exact hI.hblock
    · exact hSd
    · show (blk fn1.blocks block).cycle_arc = none
      rw [hother block (fun e => hne e.symm)]; exact hI.hnone
    · show on_path fn1 S block (arc fn.arcs a).dst (a :: P)
      refine ⟨?_, ?_, ?_, ?_, ?_⟩
      · rw [hb1, if_pos rfl, hB1]
      · rw [harcs]
      · rw [harcs, hsrc]; exact hI.hhead
      · rw [harcs, hsucc, hsrc]; exact hmem
      · rw [harcs, hsrc]
        refine on_path_congr fn fn1 S block P (fun x => by rw [harcs]; exact ⟨rfl, rfl⟩) hsucc
          head hI.hpath ?_
        intro x hx
        rw [hother]
        intro e
        exact hdP (e ▸ List.mem_map_of_mem _ hx)
    · show ((a :: P).map (fun x => (arc fn1.arcs x).dst)).Nodup
      rw [harcs, List.map_cons]
      exact List.nodup_cons.mpr ⟨hdP, hI.hnodup⟩
    · intro j hj hn
      show (blk fn1.blocks j).cycle_arc = none
      have hn2 : j ∉ (a :: P).map (fun x => (arc fn.arcs x).dst) := by
        intro hm; apply hn
        show j ∈ (a :: P).map (fun x => (arc fn1.arcs x).dst)
        rw [harcs]; exact hm
      rw [List.map_cons, List.mem_cons, not_or] at hn2
      rw [hother j hn2.1]
      exact hI.hfree j hj hn2.2
    · exact ⟨[], rfl⟩
  · unfold search_measure
    simp only [List.length_cons, path_measure]
    rw [hlen, harcs, hsucc,
      path_measure_congr fn fn1 _ _ (fun x => by rw [harcs]) hsucc P,
      succ_next_congr fn fn1 (fun x => by rw [harcs]) hsucc a]
    have hnext : succ_next fn a = rest := by
      unfold succ_next
      rw [hsrc, hpre]
      have hnd := hI.wf.hnd head hI.hhead
      rw [hpre] at hnd
      exact dropWhile_ne_append a pre rest (fun hm =>
        (List.nodup_append.mp hnd).2.2 hm (List.mem_cons_self _ _))
    rw [hnext]
    have hsl : (blk fn.blocks (arc fn.arcs a).dst).succ.length ≤ fn.arcs.length :=
      nodup_length_le _ _ (hI.wf.hnd _ hSd) (fun x hx => (hI.wf.harc _ hSd x hx).1)
    have hPl : P.length + 1 ≤ fn.blocks.length := by
      have := nodup_length_le ((arc fn.arcs a).dst :: P.map (fun x => (arc fn.arcs x).dst))
        fn.blocks.length (List.nodup_cons.mpr ⟨hdP, hI.hnodup⟩) (fun x hx => by
          rcases List.mem_cons.mp hx with e | e
          · rw [e]; exact hdlt
          · exact (hpb x e).1)
      simpa using this
    obtain ⟨m, hm⟩ : ∃ m, fn.blocks.length - P.length = m + 1 :=
      ⟨fn.blocks.length - P.length - 1, by omega⟩
    rw [show fn.blocks.length - (P.length + 1) = m by omega, hm, pow_succ]
    have hw := weight_pos fn.arcs.length m
    nlinarith

theorem cycle_turn_pop (ix block fuel : Nat) (S : Nat → Prop) (st : cycle_state) (a : Nat)
    (P : List Nat) (hI : search_inv ix block S st (a :: P)) (harc : st.arc = []) :
    ∃ st1, cycle_turn ix block fuel st = cycle_outcome.more st1 ∧ search_inv ix block S st1 P ∧
      search_measure st1 P < search_measure st (a :: P) ∧ st1.count = st.count ∧
      st1.fn.arcs = st.fn.arcs ∧ (∀ j, (blk st1.fn.blocks j).succ = (blk st.fn.blocks j).succ) := by
  obtain ⟨fn, count, head, arcl⟩ := st
  simp only at harc
  subst harc
  obtain ⟨p1, p2, p3, p4, p5⟩ := hI.hpath
  simp only at p1 p2 p3 p4 p5
  have hhlt : head < fn.blocks.length := hI.wf.hlt head hI.hhead
  obtain ⟨B1, hB1⟩ : ∃ x : block_info, x = { blk fn.blocks head with cycle_arc := none } := ⟨_, rfl⟩
  obtain ⟨fn1, hfn1⟩ : ∃ x : function_info, x = { fn with blocks := fn.blocks.set head B1 } :=
    ⟨_, rfl⟩
  have harcs : fn1.arcs = fn.arcs := by rw [hfn1]
  have hlen : fn1.blocks.length = fn.blocks.length := by rw [hfn1]; simp
  have hb1 : ∀ j, blk fn1.blocks j = if head = j then B1 else blk fn.blocks j := by
    intro j; rw [hfn1]; simp only [blk_set, hhlt, and_true]
  have hsucc : ∀ j, (blk fn1.blocks j).succ = (blk fn.blocks j).succ := by
    intro j; rw [hb1]; split
    · rename_i e; rw [hB1, e]
    · rfl
  have hident : ∀ j, (blk fn1.blocks j).cycle_ident = (blk fn.blocks j).cycle_ident := by
    intro j; rw [hb1]; split
    · rename_i e; rw [hB1, e]
    · rfl
  have hother : ∀ j, j ≠ head → blk fn1.blocks j = blk fn.blocks j := by
    intro j hj; rw [hb1, if_neg (fun e => hj e.symm)]
  have hnd := hI.hnodup
  simp only [List.map_cons, p2] at hnd
  obtain ⟨hn1, hn2⟩ := List.nodup_cons.mp hnd
  refine ⟨{ fn := fn1, count := count, head := (arc fn.arcs a).src, arc := succ_next fn a },
    ?_, ?_, ?_, rfl, harcs, hsucc⟩
  · unfold cycle_turn
    simp only [p1]
    rw [← hB1, ← hfn1]
  · constructor
    · exact search_wf_congr ix S fn fn1 hI.wf hlen (by rw [harcs])
        (fun x => by rw [harcs]; exact ⟨rfl, rfl⟩) hsucc
        (fun j _ hc => Or.inl (by rw [hident] at hc; exact hc))
    · exact hI.hblock
    · exact p3
    · show (blk fn1.blocks block).cycle_arc = none
      rw [hb1]; split
      · rw [hB1]
      · exact hI.hnone
    · show on_path fn1 S block (arc fn.arcs a).src P
      refine on_path_congr fn fn1 S block P (fun x => by rw [harcs]; exact ⟨rfl, rfl⟩) hsucc
        _ p5 ?_
      intro x hx
      rw [hother]
      intro e
      exact hn1 (e ▸ List.mem_map_of_mem _ hx)
    · show (P.map (fun x => (arc fn1.arcs x).dst)).Nodup
      rw [harcs]; exact hn2
    · intro j hj hn
      show (blk fn1.blocks j).cycle_arc = none
      by_cases e : j = head
      · rw [e, hb1, if_pos rfl, hB1]
      · rw [hother j e]
        apply hI.hfree j hj
        show j ∉ (a :: P).map (fun x => (arc fn.arcs x).dst)
        rw [List.map_cons, List.mem_cons, not_or, p2]
        refine ⟨e, ?_⟩
        intro hm; apply hn
        show j ∈ P.map (fun x => (arc fn1.arcs x).dst)
        rw [harcs]; exact hm
    · obtain ⟨pre, post, hdec⟩ := List.append_of_mem p4
      have hnds := hI.wf.hnd _ p3
      simp only at hnds
      rw [hdec] at hnds
      refine ⟨pre ++ [a], ?_⟩
      show (blk fn1.blocks (arc fn.arcs a).src).succ = pre ++ [a] ++ succ_next fn a
      unfold succ_next
      rw [hsucc, hdec, dropWhile_ne_append a pre post (fun hm =>
        (List.nodup_append.mp hnds).2.2 hm (List.mem_cons_self _ _))]
      simp
  · unfold search_measure
    simp only [List.length_cons, List.length_nil, path_measure]
    rw [hlen, harcs, path_measure_congr fn fn1 _ _ (fun x => by rw [harcs]) hsucc P]
    have hw := weight_pos fn.arcs.length (fn.blocks.length - (P.length + 1))
    omega

theorem cycle_turn_done (ix block fuel : Nat) (S : Nat → Prop) (st : cycle_state)
    (hI : search_inv ix block S st []) (harc : st.arc = []) :
    cycle_turn ix block fuel st = cycle_outcome.done
      { st.fn with blocks :=
          st.fn.blocks.set block { blk st.fn.blocks block with cycle_ident := 4294967295 } }
      st.count ∧ st.head = block := by
  have hh : st.head = block := hI.hpath
  refine ⟨?_, hh⟩
  unfold cycle_turn
  rw [harc]
  simp only
  rw [hh, hI.hnone]

theorem cycle_minimum_path (fn : function_info) (S : Nat → Prop) (block : Nat)
    (hnone : (blk fn.blocks block).cycle_arc = none) :
    ∀ (P : List Nat) (h : Nat), on_path fn S block h P → ∀ fuel, P.length < fuel →
      ∀ (c0 : Int) (a0 : Nat), ∃ cc ca, cycle_minimum fn fuel h (c0, a0) = some (cc, ca) ∧
        (ca = a0 ∨ ca ∈ P) ∧ cc ≤ c0 ∧ (∀ x ∈ P, cc ≤ (arc fn.arcs x).cs_count) ∧
        (cc = c0 ∨ ∃ x ∈ P, cc = (arc fn.arcs x).cs_count) := by
  intro P
  induction P with
  | nil =>
    intro h hp fuel hf c0 a0
    obtain ⟨n, rfl⟩ : ∃ n, fuel = n + 1 := ⟨fuel - 1, by simp at hf; omega⟩
    have hh : h = block := hp
    refine ⟨c0, a0, ?_, Or.inl rfl, le_refl _, fun x hx => by simp at hx, Or.inl rfl⟩
    rw [cycle_minimum, hh, hnone]
  | cons a rest ih =>
    intro h hp fuel hf c0 a0
    obtain ⟨n, rfl⟩ : ∃ n, fuel = n + 1 := ⟨fuel - 1, by simp at hf; omega⟩
    obtain ⟨p1, p2, p3, p4, p5⟩ := hp
    rw [cycle_minimum, p1]
    simp only
    by_cases hc : c0 > (arc fn.arcs a).cs_count
    · rw [if_pos hc]
      obtain ⟨cc, ca, q1, q2, q3, q4, q5⟩ := ih _ p5 n (by simp at hf; omega)
        (arc fn.arcs a).cs_count a
      refine ⟨cc, ca, q1, ?_, by omega, ?_, ?_⟩
      · rcases q2 with e | e
        · exact Or.inr (e ▸ List.mem_cons_self _ _)
        · exact Or.inr (List.mem_cons_of_mem _ e)
      · intro x hx
        rcases List.mem_cons.mp hx with e | e
        · rw [e]; exact q3
        · exact q4 x e
      · rcases q5 with e | ⟨x, hx, e⟩
        · exact Or.inr ⟨a, List.mem_cons_self _ _, e⟩
        · exact Or.inr ⟨x, List.mem_cons_of_mem _ hx, e⟩
    · rw [if_neg hc]
      obtain ⟨cc, ca, q1, q2, q3, q4, q5⟩ := ih _ p5 n (by simp at hf; omega) c0 a0
      refine ⟨cc, ca, q1, ?_, q3, ?_, ?_⟩
      · rcases q2 with e | e
        · exact Or.inl e
        · exact Or.inr (List.mem_cons_of_mem _ e)
      · intro x hx
        rcases List.mem_cons.mp hx with e | e
        · rw [e]; omega
        · exact q4 x e
      · rcases q5 with e | ⟨x, hx, e⟩
        · exact Or.inl e
        · exact Or.inr ⟨x, List.mem_cons_of_mem _ hx, e⟩

theorem cycle_remove_path (S : Nat → Prop) (block : Nat) (cc : Int) :
    ∀ (P : List Nat) (fn : function_info) (h : Nat), on_path fn S block h P →
      (blk fn.blocks block).cycle_arc = none → P.Nodup → (∀ x ∈ P, x < fn.arcs.length) →
      ∀ fuel, P.length < fuel →
      ∃ fn3, cycle_remove cc fuel h fn = some fn3 ∧ fn3.blocks = fn.blocks ∧
        fn3.arcs.length = fn.arcs.length ∧
        ∀ x, arc fn3.arcs x =
          if x ∈ P then { arc fn.arcs x with cs_count := (arc fn.arcs x).cs_count - cc }
          else arc fn.arcs x := by
  intro P
  induction P with
  | nil =>
    intro fn h hp hnone _ _ fuel hf
    obtain ⟨n, rfl⟩ : ∃ n, fuel = n + 1 := ⟨fuel - 1, by simp at hf; omega⟩
    have hh : h = block := hp
    refine ⟨fn, ?_, rfl, rfl, fun x => by simp⟩
    rw [cycle_remove, hh, hnone]
  | cons a rest ih =>
    intro fn h hp hnone hnd hlt fuel hf
    obtain ⟨n, rfl⟩ : ∃ n, fuel = n + 1 := ⟨fuel - 1, by simp at hf; omega⟩
    obtain ⟨p1, p2, p3, p4, p5⟩ := hp
    obtain ⟨A1, hA1⟩ : ∃ x : arc_info, x =
        { arc fn.arcs a with cs_count := (arc fn.arcs a).cs_count - cc } := ⟨_, rfl⟩
    obtain ⟨fn1, hfn1⟩ : ∃ x : function_info, x = { fn with arcs := fn.arcs.set a A1 } := ⟨_, rfl⟩
    have halt : a < fn.arcs.length := hlt a (List.mem_cons_self _ _)
    have ha1 : ∀ x, arc fn1.arcs x = if a = x then A1 else arc fn.arcs x := by
      intro x; rw [hfn1]; simp only [arc_set, halt, and_true]
    have hsd : ∀ x, (arc fn1.arcs x).src = (arc fn.arcs x).src ∧
        (arc fn1.arcs x).dst = (arc fn.arcs x).dst := by
      intro x; rw [ha1]; split
      · rename_i e; rw [hA1, e]; exact ⟨rfl, rfl⟩
      · exact ⟨rfl, rfl⟩
    have hb : fn1.blocks = fn.blocks := by rw [hfn1]
    obtain ⟨hn1, hn2⟩ := List.nodup_cons.mp hnd
    obtain ⟨fn3, q1, q2, q3, q4⟩ := ih fn1 (arc fn.arcs a).src
      (on_path_congr fn fn1 S block rest hsd (fun j => by rw [hb]) _ p5 (fun x _ => by rw [hb]))
      (by rw [hb]; exact hnone) hn2
      (fun x hx => by rw [hfn1]; simp only [List.length_set]; exact hlt x (List.mem_cons_of_mem _ hx))
      n (by simp at hf; omega)
    refine ⟨fn3, ?_, by rw [q2, hb], by rw [q3, hfn1]; simp, ?_⟩
    · rw [cycle_remove, p1]
      simp only
      rw [← hA1, ← hfn1]
      exact q1
    · intro x
      rw [q4 x]
      by_cases hx : x ∈ rest
      · have hxa : a ≠ x := fun e => hn1 (e ▸ hx)
        rw [if_pos hx, if_pos (List.mem_cons_of_mem _ hx), ha1, if_neg hxa]
      · rw [if_neg hx, ha1]
        by_cases hxa : a = x
        · rw [if_pos hxa, if_pos (hxa ▸ List.mem_cons_self _ _), hA1, hxa]
        · rw [if_neg hxa, if_neg (fun hm => by
            rcases List.mem_cons.mp hm with e | e
            · exact hxa e.symm
            · exact hx e)]

theorem on_path_head (fn : function_info) (S : Nat → Prop) (block : Nat) (P : List Nat) (h : Nat)
    (hp : on_path fn S block h P) :
    h = block ∨ h ∈ P.map (fun a => (arc fn.arcs a).dst) := by
  cases P with
  | nil => exact Or.inl hp
  | cons a rest =>
    obtain ⟨_, p2, _⟩ := hp
    exact Or.inr (by rw [List.map_cons, p2]; exact List.mem_cons_self _ _)

theorem cycle_unwind_path (S : Nat → Prop) (block ca : Nat) (P2 : List Nat) :
    ∀ (P1 : List Nat) (fn : function_info) (h a0 : Nat),
      on_path fn S block h (P1 ++ ca :: P2) →
      ((P1 ++ ca :: P2).map (fun a => (arc fn.arcs a).dst)).Nodup →
      (blk fn.blocks block).cycle_arc = none →
      (∀ x ∈ P1 ++ ca :: P2, (arc fn.arcs x).dst < fn.blocks.length) →
      ∀ fuel, P1.length + 1 < fuel →
      ∃ fn4, cycle_unwind (arc fn.arcs ca).src fuel h a0 fn = some (fn4, (arc fn.arcs ca).src, ca) ∧
        fn4.arcs = fn.arcs ∧ fn4.blocks.length = fn.blocks.length ∧
        ∀ j, blk fn4.blocks j =
          if j ∈ (P1 ++ [ca]).map (fun a => (arc fn.arcs a).dst)
          then { blk fn.blocks j with cycle_arc := none } else blk fn.blocks j := by
  intro P1
  induction P1 with
  | nil =>
    intro fn h a0 hp hnd hnone hlt fuel hf
    obtain ⟨n, rfl⟩ : ∃ n, fuel = n + 2 := ⟨fuel - 2, by simp at hf; omega⟩
    simp only [List.nil_append] at hp hnd hlt ⊢
    obtain ⟨p1, p2, p3, p4, p5⟩ := hp
    rw [List.map_cons, p2] at hnd
    obtain ⟨hn1, hn2⟩ := List.nodup_cons.mp hnd
    have hne : h ≠ (arc fn.arcs ca).src := by
      intro e
      rcases on_path_head fn S block P2 _ p5 with e2 | e2
      · rw [e, e2, hnone] at p1; exact absurd p1 (by simp)
      · rw [← e] at e2; exact hn1 e2
    have hhl : h < fn.blocks.length := by
      have := hlt ca (List.mem_cons_self _ _)
      rw [p2] at this; exact this
    obtain ⟨B1, hB1⟩ : ∃ x : block_info, x = { blk fn.blocks h with cycle_arc := none } := ⟨_, rfl⟩
    refine ⟨{ fn with blocks := fn.blocks.set h B1 }, ?_, rfl, by simp, ?_⟩
    · rw [cycle_unwind, if_pos hne, p1]
      simp only
      rw [← hB1, cycle_unwind, if_neg (by simp)]
    · intro j
      simp only [blk_set, hhl, and_true, List.map_cons, List.map_nil, List.mem_singleton, p2]
      by_cases e : h = j
      · rw [if_pos e, if_pos e.symm, hB1, e]
      · rw [if_neg e, if_neg (fun e2 => e e2.symm)]
  | cons x P1 ih =>
    intro fn h a0 hp hnd hnone hlt fuel hf
    obtain ⟨n, rfl⟩ : ∃ n, fuel = n + 1 := ⟨fuel - 1, by simp at hf; omega⟩
    simp only [List.cons_append] at hp hnd hlt ⊢
    obtain ⟨p1, p2, p3, p4, p5⟩ := hp
    rw [List.map_cons, p2] at hnd
    obtain ⟨hn1, hn2⟩ := List.nodup_cons.mp hnd
    have hmemca : ∀ y, y ∈ P1 ++ ca :: P2 →
        (blk fn.blocks (arc fn.arcs y).dst).cycle_arc = some y := fun y hy =>
      (on_path_mem fn S block _ _ p5 y hy).1
    have hne : h ≠ (arc fn.arcs ca).src := by
      intro e
      have hq : on_path fn S block (arc fn.arcs ca).src P2 := by
        have : ∀ (Q : List Nat) (g : Nat), on_path fn S block g (Q ++ ca :: P2) →
            on_path fn S block (arc fn.arcs ca).src P2 := by
          intro Q
          induction Q with
          | nil => intro g hg; exact hg.2.2.2.2
          | cons y Q ihq => intro g hg; exact ihq _ hg.2.2.2.2
        exact this P1 _ p5
      rcases on_path_head fn S block P2 _ hq with e2 | e2
      · rw [e, e2, hnone] at p1; exact absurd p1 (by simp)
      · rw [← e] at e2
        apply hn1
        rw [List.map_append, List.map_cons]
        exact List.mem_append_right _ (List.mem_cons_of_mem _ e2)
    have hhl : h < fn.blocks.length := by
      have := hlt x (List.mem_cons_self _ _)
      rw [p2] at this; exact this
    obtain ⟨B1, hB1⟩ : ∃ x : block_info, x = { blk fn.blocks h with cycle_arc := none } := ⟨_, rfl⟩
    obtain ⟨fn1, hfn1⟩ : ∃ x : function_info, x = { fn with blocks := fn.blocks.set h B1 } :=
      ⟨_, rfl⟩
    have harcs : fn1.arcs = fn.arcs := by rw [hfn1]
    have hb1 : ∀ j, blk fn1.blocks j = if h = j then B1 else blk fn.blocks j := by
      intro j; rw [hfn1]; simp only [blk_set, hhl, and_true]
    have hother : ∀ j, j ≠ h → blk fn1.blocks j = blk fn.blocks j := by
      intro j hj; rw [hb1, if_neg (fun e => hj e.symm)]
    have hsucc : ∀ j, (blk fn1.blocks j).succ = (blk fn.blocks j).succ := by
      intro j; rw [hb1]; split
      · rename_i e; rw [hB1, e]
      · rfl
    obtain ⟨fn4, q1, q2, q3, q4⟩ := ih fn1 (arc fn.arcs x).src x
      (on_path_congr fn fn1 S block _ (fun y => by rw [harcs]; exact ⟨rfl, rfl⟩) hsucc _ p5
        (fun y hy => by
          rw [hother]
          intro e
          exact hn1 (e ▸ List.mem_map_of_mem _ hy)))
      (by rw [harcs]; exact hn2)
      (by rw [hb1]; split
          · rw [hB1]
          · exact hnone)
      (fun y hy => by
        rw [harcs, hfn1]; simp only [List.length_set]
        exact hlt y (List.mem_cons_of_mem _ hy))
      n (by simp at hf; omega)
    rw [harcs] at q1 q4
    refine ⟨fn4, ?_, by rw [q2, harcs], by rw [q3, hfn1]; simp, ?_⟩
    · rw [cycle_unwind, if_pos hne, p1]
      simp only
      rw [← hB1, ← hfn1]
      exact q1
    · intro j
      rw [q4 j]
      simp only [List.map_cons, List.mem_cons, p2]
      by_cases e : j = h
      · have hnot : j ∉ (P1 ++ [ca]).map (fun a => (arc fn.arcs a).dst) := by
          rw [e]
          intro hm
          apply hn1
          rw [List.map_append] at hm ⊢
          rcases List.mem_append.mp hm with m | m
          · exact List.mem_append_left _ m
          · exact List.mem_append_right _ (by
              rw [List.map_cons]; simp only [List.map_cons, List.map_nil, List.mem_singleton] at m
              rw [m]; exact List.mem_cons_self _ _)
        rw [if_neg hnot, if_pos (Or.inl e), e, hb1, if_pos rfl, hB1]
      · rw [hother j e]
        by_cases hm : j ∈ (P1 ++ [ca]).map (fun a => (arc fn.arcs a).dst)
        · rw [if_pos hm, if_pos (Or.inr hm)]
        · rw [if_neg hm, if_neg (fun h2 => by
            rcases h2 with h2 | h2
            · exact e h2
            · exact hm h2)]

theorem on_path_suffix (fn : function_info) (S : Nat → Prop) (block ca : Nat) (P2 : List Nat) :
    ∀ (Q : List Nat) (g : Nat), on_path fn S block g (Q ++ ca :: P2) →
      on_path fn S block (arc fn.arcs ca).src P2 := by
  intro Q
  induction Q with
  | nil => intro g hg; exact hg.2.2.2.2
  | cons y Q ihq => intro g hg; exact ihq _ hg.2.2.2.2

theorem search_inv_congr (ix block : Nat) (S : Nat → Prop) (st st1 : cycle_state) (P : List Nat)
    (hI : search_inv ix block S st P) (hb : st1.fn.blocks = st.fn.blocks)
    (hl : st1.fn.arcs.length = st.fn.arcs.length)
    (ha : ∀ x, (arc st1.fn.arcs x).src = (arc st.fn.arcs x).src ∧
      (arc st1.fn.arcs x).dst = (arc st.fn.arcs x).dst)
    (hh : st1.head = st.head) (hr : st1.arc = st.arc) :
    search_inv ix block S st1 P ∧ search_measure st1 P = search_measure st P := by
  have hmap : P.map (fun a => (arc st1.fn.arcs a).dst) = P.map (fun a => (arc st.fn.arcs a).dst) := by
    apply List.map_congr_left
    intro x _
    exact (ha x).2
  refine ⟨⟨?_, hI.hblock, by rw [hh]; exact hI.hhead, by rw [hb]; exact hI.hnone, ?_, ?_, ?_, ?_⟩, ?_⟩
  · exact search_wf_congr ix S st.fn st1.fn hI.wf (by rw [hb]) hl ha (fun j => by rw [hb])
      (fun j _ hc => Or.inl (by rw [hb] at hc; exact hc))
  · rw [hh]
    exact on_path_congr st.fn st1.fn S block P ha (fun j => by rw [hb]) _ hI.hpath
      (fun x _ => by rw [hb])
  · rw [hmap]; exact hI.hnodup
  · intro j hj hn
    rw [hmap] at hn
    rw [hb]
    exact hI.hfree j hj hn
  · rw [hh, hr, hb]; exact hI.hrem
  · unfold search_measure
    rw [hr, hl, hb, path_measure_congr st.fn st1.fn _ _ (fun x => (ha x).1) (fun j => by rw [hb])]

theorem path_measure_pos (fn : function_info) (A N : Nat) (P : List Nat) :
    P.length ≤ path_measure fn (A + 2) N P := by
  induction P with
  | nil => exact Nat.le_refl _
  | cons a rest ih =>
    rw [path_measure, List.length_cons]
    have hw := weight_pos A (N - rest.length)
    have : 1 ≤ ((succ_next fn a).length + 1) * (A + 2) ^ (N - rest.length) :=
      Nat.le_trans hw (Nat.le_mul_of_pos_left _ (by omega))
    omega

theorem search_inv_unwind (ix block : Nat) (S : Nat → Prop) (fn fn4 : function_info)
    (c c1 : Int) (h : Nat) (r P1 : List Nat) (ca : Nat) (P2 : List Nat)
    (hI : search_inv ix block S { fn := fn, count := c, head := h, arc := r } (P1 ++ ca :: P2))
    (h1 : fn4.arcs = fn.arcs) (h2 : fn4.blocks.length = fn.blocks.length)
    (h3 : ∀ j, blk fn4.blocks j =
      if j ∈ (P1 ++ [ca]).map (fun a => (arc fn.arcs a).dst)
      then { blk fn.blocks j with cycle_arc := none } else blk fn.blocks j) :
    search_inv ix block S
      { fn := fn4, count := c1, head := (arc fn.arcs ca).src, arc := succ_next fn4 ca } P2 ∧
    search_measure { fn := fn4, count := c1, head := (arc fn.arcs ca).src, arc := succ_next fn4 ca } P2 <
      search_measure { fn := fn, count := c, head := h, arc := r } (P1 ++ ca :: P2) := by
  have hsucc : ∀ j, (blk fn4.blocks j).succ = (blk fn.blocks j).succ := by
    intro j; rw [h3]; split <;> rfl
  have hident : ∀ j, (blk fn4.blocks j).cycle_ident = (blk fn.blocks j).cycle_ident := by
    intro j; rw [h3]; split <;> rfl
  have hnd := hI.hnodup
  simp only [List.map_append, List.map_cons] at hnd
  have hsplit : ∀ j, j ∈ (P1 ++ ca :: P2).map (fun a => (arc fn.arcs a).dst) ↔
      (j ∈ (P1 ++ [ca]).map (fun a => (arc fn.arcs a).dst) ∨
       j ∈ P2.map (fun a => (arc fn.arcs a).dst)) := by
    intro j
    simp only [List.map_append, List.map_cons, List.map_nil, List.mem_append, List.mem_cons,
      List.mem_singleton, List.not_mem_nil, or_false]
    tauto
  have hdisj : ∀ j, j ∈ P2.map (fun a => (arc fn.arcs a).dst) →
      j ∉ (P1 ++ [ca]).map (fun a => (arc fn.arcs a).dst) := by
    intro j hj hm
    simp only [List.map_append, List.map_cons, List.map_nil, List.mem_append,
      List.mem_singleton] at hm
    obtain ⟨q1, q2, q3⟩ := List.nodup_append.mp hnd
    obtain ⟨r1, r2⟩ := List.nodup_cons.mp q2
    rcases hm with m | m
    · exact q3 m (List.mem_cons_of_mem _ hj)
    · exact r1 (m ▸ hj)
  obtain ⟨m1, m2, m3⟩ := on_path_mem fn S block _ h hI.hpath ca (by simp)
  have hsnext : succ_next fn4 ca = succ_next fn ca :=
    succ_next_congr fn fn4 (fun x => by rw [h1]) hsucc ca
  refine ⟨⟨?_, hI.hblock, m2, ?_, ?_, ?_, ?_, ?_⟩, ?_⟩
  · exact search_wf_congr ix S fn fn4 hI.wf h2 (by rw [h1])
      (fun x => by rw [h1]; exact ⟨rfl, rfl⟩) hsucc
      (fun j _ hc => Or.inl (by rw [hident j] at hc; exact hc))
  · show (blk fn4.blocks block).cycle_arc = none
    rw [h3]; split
    · rfl
    · exact hI.hnone
  · show on_path fn4 S block (arc fn.arcs ca).src P2
    refine on_path_congr fn fn4 S block P2 (fun x => by rw [h1]; exact ⟨rfl, rfl⟩) hsucc _
      (on_path_suffix fn S block ca P2 P1 h hI.hpath) ?_
    intro x hx
    rw [h3, if_neg (hdisj _ (List.mem_map_of_mem _ hx))]
  · show (P2.map (fun a => (arc fn4.arcs a).dst)).Nodup
    rw [h1]
    obtain ⟨_, q2, _⟩ := List.nodup_append.mp hnd
    exact (List.nodup_cons.mp q2).2
  · intro j hj hn
    show (blk fn4.blocks j).cycle_arc = none
    have hn2 : j ∉ P2.map (fun a => (arc fn.arcs a).dst) := by
      intro hm; apply hn
      show j ∈ P2.map (fun a => (arc fn4.arcs a).dst)
      rw [h1]; exact hm
    rw [h3]; split
    · rfl
    · rename_i hm
      exact hI.hfree j hj (fun hw => by
        rcases (hsplit j).mp hw with w | w
        · exact hm w
        · exact hn2 w)
  · obtain ⟨pre, post, hdec⟩ := List.append_of_mem m3
    have hnds := hI.wf.hnd _ m2
    simp only at hnds
    rw [hdec] at hnds
    refine ⟨pre ++ [ca], ?_⟩
    show (blk fn4.blocks (arc fn.arcs ca).src).succ = pre ++ [ca] ++ succ_next fn4 ca
    rw [hsnext]
    unfold succ_next
    rw [hsucc, hdec, dropWhile_ne_append ca pre post (fun hm =>
      (List.nodup_append.mp hnds).2.2 hm (List.mem_cons_self _ _))]
    simp
  · unfold search_measure
    simp only
    rw [h1, h2, hsnext, path_measure_congr fn fn4 _ _ (fun x => by rw [h1]) hsucc P2]
    have hpm := path_measure_append fn (fn.arcs.length + 2) fn.blocks.length P1 (ca :: P2)
    rw [path_measure] at hpm
    have hw := weight_pos fn.arcs.length (fn.blocks.length - (P1 ++ ca :: P2).length)
    have : 1 ≤ (r.length + 1) * (fn.arcs.length + 2) ^ (fn.blocks.length - (P1 ++ ca :: P2).length) :=
      Nat.le_trans hw (Nat.le_mul_of_pos_left _ (by omega))
    omega

theorem cycle_turn_close (ix block fuel : Nat) (S : Nat → Prop) (st : cycle_state) (P : List Nat)
    (a : Nat) (rest : List Nat) (hI : search_inv ix block S st P) (harc : st.arc = a :: rest)
    (hskip : ¬ ((arc st.fn.arcs a).cycle = true ∨
      (blk st.fn.blocks (arc st.fn.arcs a).dst).cycle_ident ≠ ix ∨
      (blk st.fn.blocks (arc st.fn.arcs a).dst).cycle_arc ≠ none))
    (hdst : (arc st.fn.arcs a).dst = block) (hfuel : P.length ≤ fuel) :
    ∃ st1 P1 cc, cycle_turn ix block fuel st = cycle_outcome.more st1 ∧
      search_inv ix block S st1 P1 ∧
      search_measure st1 P1 < search_measure st P ∧ st1.count = st.count + cc ∧
      (∀ j, (blk st1.fn.blocks j).succ = (blk st.fn.blocks j).succ) ∧
      cc ≤ (arc st.fn.arcs a).cs_count ∧ (∀ x ∈ P, cc ≤ (arc st.fn.arcs x).cs_count) ∧
      (cc = (arc st.fn.arcs a).cs_count ∨ ∃ x ∈ P, cc = (arc st.fn.arcs x).cs_count) ∧
      (∀ x, (arc st1.fn.arcs x).cs_count =
        if x = a ∨ x ∈ P then (arc st.fn.arcs x).cs_count - cc else (arc st.fn.arcs x).cs_count) := by
  obtain ⟨fn, count, head, arcl⟩ := st
  simp only at harc hskip hdst
  subst harc
  obtain ⟨pre, hpre⟩ := hI.hrem
  simp only at hpre
  have hmem : a ∈ (blk fn.blocks head).succ := by rw [hpre]; simp
  obtain ⟨halt, hsrc, hdlt⟩ := hI.wf.harc head hI.hhead a hmem
  simp only at halt hsrc hdlt
  have hpb := path_blocks_lt ix block S _ P hI
  simp only at hpb
  have hPlt : ∀ x ∈ P, x < fn.arcs.length := fun x hx => by
    obtain ⟨_, h2, h3⟩ := on_path_mem fn S block P head hI.hpath x hx
    exact (hI.wf.harc _ h2 x h3).1
  have hPnd : P.Nodup := List.Nodup.of_map _ hI.hnodup
  have haP : a ∉ P := fun hm => (hpb _ (List.mem_map_of_mem _ hm)).2.1 hdst
  obtain ⟨cc, ca, m1, m2, m3, m4, m5⟩ := cycle_minimum_path fn S block hI.hnone P head hI.hpath
    (fuel + 1) (by omega) (arc fn.arcs a).cs_count a
  have hcalt : ca < fn.arcs.length := by
    rcases m2 with e | e
    · rw [e]; exact halt
    · exact hPlt ca e
  obtain ⟨A1, hA1⟩ : ∃ x : arc_info, x = { arc fn.arcs ca with cycle := true } := ⟨_, rfl⟩
  obtain ⟨fn1, hfn1⟩ : ∃ x : function_info, x = { fn with arcs := fn.arcs.set ca A1 } := ⟨_, rfl⟩
  obtain ⟨A2, hA2⟩ : ∃ x : arc_info, x =
      { arc fn1.arcs a with cs_count := (arc fn1.arcs a).cs_count - cc } := ⟨_, rfl⟩
  obtain ⟨fn2, hfn2⟩ : ∃ x : function_info, x = { fn1 with arcs := fn1.arcs.set a A2 } := ⟨_, rfl⟩
  have ha1 : ∀ x, arc fn1.arcs x = if ca = x then A1 else arc fn.arcs x := by
    intro x; rw [hfn1]; simp only [arc_set, hcalt, and_true]
  have hl1 : fn1.arcs.length = fn.arcs.length := by rw [hfn1]; simp
  have ha2 : ∀ x, arc fn2.arcs x = if a = x then A2 else arc fn1.arcs x := by
    intro x; rw [hfn2]; simp only [arc_set, hl1, halt, and_true]
  have hl2 : fn2.arcs.length = fn.arcs.length := by rw [hfn2]; simp [hl1]
  have hb2 : fn2.blocks = fn.blocks := by rw [hfn2, hfn1]
  have hsd1 : ∀ x, (arc fn1.arcs x).src = (arc fn.arcs x).src ∧
      (arc fn1.arcs x).dst = (arc fn.arcs x).dst ∧
      (arc fn1.arcs x).cs_count = (arc fn.arcs x).cs_count := by
    intro x; rw [ha1]; split
    · rename_i e; rw [hA1, e]; exact ⟨rfl, rfl, rfl⟩
    · exact ⟨rfl, rfl, rfl⟩
  have hsd2 : ∀ x, (arc fn2.arcs x).src = (arc fn.arcs x).src ∧
      (arc fn2.arcs x).dst = (arc fn.arcs x).dst ∧
      (arc fn2.arcs x).cs_count =
        if x = a then (arc fn.arcs x).cs_count - cc else (arc fn.arcs x).cs_count := by
    intro x; rw [ha2]
    by_cases e : a = x
    · rw [if_pos e, if_pos e.symm, hA2, ← e]
      exact ⟨(hsd1 a).1, (hsd1 a).2.1, by rw [(hsd1 a).2.2]⟩
    · rw [if_neg e, if_neg (fun e2 => e e2.symm)]
      exact hsd1 x
  obtain ⟨fn3, r1, r2, r3, r4⟩ := cycle_remove_path S block cc P fn2 head
    (on_path_congr fn fn2 S block P (fun x => ⟨(hsd2 x).1, (hsd2 x).2.1⟩) (fun j => by rw [hb2])
      _ hI.hpath (fun x _ => by rw [hb2]))
    (by rw [hb2]; exact hI.hnone) hPnd (fun x hx => by rw [hl2]; exact hPlt x hx)
    (fuel + 1) (by omega)
  have hb3 : fn3.blocks = fn.blocks := by rw [r2, hb2]
  have hl3 : fn3.arcs.length = fn.arcs.length := by rw [r3, hl2]
  have hsd3 : ∀ x, (arc fn3.arcs x).src = (arc fn.arcs x).src ∧
      (arc fn3.arcs x).dst = (arc fn.arcs x).dst := by
    intro x; rw [r4 x]; split
    · exact ⟨(hsd2 x).1, (hsd2 x).2.1⟩
    · exact ⟨(hsd2 x).1, (hsd2 x).2.1⟩
  have hcs3 : ∀ x, (arc fn3.arcs x).cs_count =
      if x = a ∨ x ∈ P then (arc fn.arcs x).cs_count - cc else (arc fn.arcs x).cs_count := by
    intro x; rw [r4 x]
    by_cases hx : x ∈ P
    · have hxa : x ≠ a := fun e => haP (e ▸ hx)
      rw [if_pos hx, if_pos (Or.inr hx)]
      simp only
      rw [(hsd2 x).2.2, if_neg hxa]
    · rw [if_neg hx, (hsd2 x).2.2]
      by_cases hxa : x = a
      · rw [if_pos hxa, if_pos (Or.inl hxa)]
      · rw [if_neg hxa, if_neg (fun h => by
          rcases h with h | h
          · exact hxa h
          · exact hx h)]
  have hturn : cycle_turn ix block fuel { fn := fn, count := count, head := head, arc := a :: rest } =
      match cycle_unwind (arc fn3.arcs ca).src (fuel + 1) head a fn3 with
      | none => cycle_outcome.crash
      | some (fn4, head, a1) =>
        cycle_outcome.more
          { fn := fn4, count := count + cc, head := head, arc := succ_next fn4 a1 } := by
    clear hcs3 hsd3 hl3 hb3 r2 r3 r4 hsd2 hsd1 hb2 hl2 ha2 hl1 ha1
    subst hfn2 hA2 hfn1 hA1
    unfold cycle_turn
    simp only
    rw [if_neg hskip, if_pos hdst, m1]
    simp only
    rw [r1]
  have hnext : succ_next fn a = rest := by
    unfold succ_next
    rw [hsrc, hpre]
    have hnd := hI.wf.hnd head hI.hhead
    simp only at hnd
    rw [hpre] at hnd
    exact dropWhile_ne_append a pre rest (fun hm =>
      (List.nodup_append.mp hnd).2.2 hm (List.mem_cons_self _ _))
  have hI3 := search_inv_congr ix block S _
    { fn := fn3, count := count, head := head, arc := a :: rest } P hI hb3 hl3 hsd3 rfl rfl
  rcases m2 with e | e
  · -- the closing arc holds the smallest count: the path stays
    subst e
    have hunw : cycle_unwind (arc fn3.arcs ca).src (fuel + 1) head ca fn3 = some (fn3, head, ca) := by
      rw [cycle_unwind, if_neg (by rw [(hsd3 ca).1, hsrc]; simp)]
    rw [hunw] at hturn
    simp only at hturn
    have hn3 : succ_next fn3 ca = rest := by
      rw [succ_next_congr fn fn3 (fun x => (hsd3 x).1) (fun j => by rw [hb3]) ca, hnext]
    rw [hn3] at hturn
    have hIs : search_inv ix block S { fn := fn3, count := count + cc, head := head, arc := rest } P :=
      ⟨hI3.1.wf, hI3.1.hblock, hI3.1.hhead, hI3.1.hnone, hI3.1.hpath, hI3.1.hnodup, hI3.1.hfree,
        ⟨pre ++ [ca], by show (blk fn3.blocks head).succ = _; rw [hb3, hpre]; simp⟩⟩
    refine ⟨_, P, cc, hturn, hIs, ?_, rfl, fun j => by show (blk fn3.blocks j).succ = _; rw [hb3],
      m3, m4, m5, hcs3⟩
    have hm3 := hI3.2
    unfold search_measure at hm3 ⊢
    simp only [List.length_cons] at hm3 ⊢
    rw [← hm3]
    have := weight_pos fn3.arcs.length (fn3.blocks.length - P.length)
    nlinarith
  · -- an arc of the path holds the smallest count: unwind to its source
    obtain ⟨P1, P2, hdec⟩ := List.append_of_mem e
    subst hdec
    obtain ⟨fn4, u1, u2, u3, u4⟩ := cycle_unwind_path S block ca P2 P1 fn3 head a hI3.1.hpath
      hI3.1.hnodup hI3.1.hnone
      (fun x hx => by
        have := (hpb _ (List.mem_map_of_mem _ hx)).1
        show (arc fn3.arcs x).dst < fn3.blocks.length
        rw [(hsd3 x).2, hb3]; exact this)
      (fuel + 1) (by simp at hfuel; omega)
    rw [u1] at hturn
    simp only at hturn
    obtain ⟨v1, v2⟩ := search_inv_unwind ix block S fn3 fn4 count (count + cc) head (a :: rest)
      P1 ca P2 hI3.1 u2 u3 u4
    refine ⟨_, P2, cc, hturn, v1, ?_, rfl, ?_, m3, m4, m5, ?_⟩
    · rw [← hI3.2]; exact v2
    · intro j
      show (blk fn4.blocks j).succ = _
      rw [u4]; split
      · simp only; rw [hb3]
      · rw [hb3]
    · intro x
      show (arc fn4.arcs x).cs_count = _
      rw [u2]; exact hcs3 x

theorem counts_nonneg_congr (S : Nat → Prop) (fn fn1 : function_info)
    (ha : ∀ x, (arc fn1.arcs x).cs_count = (arc fn.arcs x).cs_count)
    (hs : ∀ j, (blk fn1.blocks j).succ = (blk fn.blocks j).succ)
    (h : counts_nonneg S fn) : counts_nonneg S fn1 := by
  intro j hj a hm
  rw [hs] at hm
  rw [ha]
  exact h j hj a hm

theorem cycle_turn_spec (ix block fuel : Nat) (S : Nat → Prop) (st : cycle_state) (P : List Nat)
    (hI : search_inv ix block S st P) (hfuel : search_measure st P ≤ fuel) :
    (cycle_turn ix block fuel st = cycle_outcome.done
        { st.fn with blocks :=
            st.fn.blocks.set block { blk st.fn.blocks block with cycle_ident := 4294967295 } }
        st.count ∧ P = []) ∨
    (∃ st1 P1, cycle_turn ix block fuel st = cycle_outcome.more st1 ∧
      search_inv ix block S st1 P1 ∧ search_measure st1 P1 < search_measure st P ∧
      (counts_nonneg S st.fn → st.count ≤ st1.count ∧ counts_nonneg S st1.fn)) := by
  cases harc : st.arc with
  | nil =>
    cases P with
    | nil => exact Or.inl ⟨(cycle_turn_done ix block fuel S st hI harc).1, rfl⟩
    | cons a P =>
      obtain ⟨st1, h1, h2, h3, h4, h5, h6⟩ := cycle_turn_pop ix block fuel S st a P hI harc
      exact Or.inr ⟨st1, P, h1, h2, h3, fun hq =>
        ⟨by rw [h4], counts_nonneg_congr S st.fn st1.fn (fun x => by rw [h5]) h6 hq⟩⟩
  | cons a rest =>
    by_cases hskip : (arc st.fn.arcs a).cycle = true ∨
        (blk st.fn.blocks (arc st.fn.arcs a).dst).cycle_ident ≠ ix ∨
        (blk st.fn.blocks (arc st.fn.arcs a).dst).cycle_arc ≠ none
    · obtain ⟨st1, h1, h2, h3, h4, h5⟩ := cycle_turn_skip ix block fuel S st P a rest hI harc hskip
      exact Or.inr ⟨st1, P, h1, h2, h3, fun hq => ⟨by rw [h4], by rw [h5]; exact hq⟩⟩
    · by_cases hdst : (arc st.fn.arcs a).dst = block
      · have hPl : P.length ≤ fuel := by
          have := path_measure_pos st.fn st.fn.arcs.length st.fn.blocks.length P
          unfold search_measure at hfuel
          omega
        obtain ⟨st1, P1, cc, h1, h2, h3, h4, h5, h6, h7, h8, h9⟩ :=
          cycle_turn_close ix block fuel S st P a rest hI harc hskip hdst hPl
        refine Or.inr ⟨st1, P1, h1, h2, h3, fun hq => ?_⟩
        obtain ⟨pre, hpre⟩ := hI.hrem
        have hmem : a ∈ (blk st.fn.blocks st.head).succ := by rw [hpre, harc]; simp
        have ha0 : 0 ≤ (arc st.fn.arcs a).cs_count := hq _ hI.hhead a hmem
        have hP0 : ∀ x ∈ P, 0 ≤ (arc st.fn.arcs x).cs_count := fun x hx => by
          obtain ⟨_, q2, q3⟩ := on_path_mem st.fn S block P st.head hI.hpath x hx
          exact hq _ q2 x q3
        have hcc : 0 ≤ cc := by
          rcases h8 with e | ⟨x, hx, e⟩
          · rw [e]; exact ha0
          · rw [e]; exact hP0 x hx
        refine ⟨by rw [h4]; omega, ?_⟩
        intro j hj x hm
        rw [h5] at hm
        rw [h9 x]
        split
        · rename_i hc
          rcases hc with e | e
          · rw [e]; omega
          · have := h7 x e; omega
        · exact hq j hj x hm
      · obtain ⟨st1, h1, h2, h3, h4, h5, h6⟩ :=
          cycle_turn_push ix block fuel S st P a rest hI harc hskip hdst
        exact Or.inr ⟨st1, a :: P, h1, h2, h3, fun hq =>
          ⟨by rw [h4], counts_nonneg_congr S st.fn st1.fn (fun x => by rw [h5]) h6 hq⟩⟩

theorem search_wf_done (ix : Nat) (S : Nat → Prop) (fn : function_info)
    (H : search_wf ix S fn) (d v : Nat) (hd : S d) :
    search_wf ix S
      { fn with blocks := fn.blocks.set d { blk fn.blocks d with cycle_ident := v } } := by
  refine search_wf_congr ix S fn _ H (by simp) rfl (fun a => ⟨rfl, rfl⟩) ?_ ?_
  · intro j
    simp only [blk_set]
    split
    · rename_i e; rw [e.1]
    · rfl
  · intro j _ hc
    simp only [blk_set] at hc
    split at hc
    · rename_i e; rw [← e.1]; exact Or.inr hd
    · exact Or.inl hc

theorem cycle_search_total (ix block : Nat) (S : Nat → Prop) :
    ∀ (fuel : Nat) (st : cycle_state) (P : List Nat), search_inv ix block S st P →
      search_measure st P < fuel →
      ∃ fn1 c1, cycle_search ix block fuel st = some (fn1, c1) ∧
        search_wf ix S fn1 ∧ (∀ j, S j → (blk fn1.blocks j).cycle_arc = none) ∧
        (counts_nonneg S st.fn → st.count ≤ c1 ∧ counts_nonneg S fn1 ∧
          ∀ st1 ∈ cycle_trace ix block fuel st, counts_nonneg S st1.fn) := by
  intro fuel
  induction fuel with
  | zero => intro st P _ h; omega
  | succ n ih =>
    intro st P hI hm
    rw [cycle_search_turn]
    rcases cycle_turn_spec ix block n S st P hI (by omega) with ⟨h1, h2⟩ | ⟨st1, P1, h1, h2, h3, h4⟩
    · rw [h1]
      subst h2
      refine ⟨_, _, rfl, search_wf_done ix S st.fn hI.wf block _ hI.hblock, ?_, fun hq => ?_⟩
      · intro j hj
        have := hI.hfree j hj (by simp)
        simp only [blk_set]
        split
        · exact hI.hnone
        · exact this
      · refine ⟨le_refl _, ?_, ?_⟩
        · refine counts_nonneg_congr S st.fn _ (fun x => rfl) ?_ hq
          intro j
          simp only [blk_set]
          split
          · rename_i e; rw [e.1]
          · rfl
        · intro st1 hst1
          rw [cycle_trace, h1] at hst1
          simp only [List.mem_singleton] at hst1
          rw [hst1]; exact hq
    · rw [h1]
      obtain ⟨fn1, c1, q1, q2, q3, q4⟩ := ih st1 P1 h2 (by omega)
      refine ⟨fn1, c1, q1, q2, q3, fun hq => ?_⟩
      obtain ⟨r1, r2⟩ := h4 hq
      obtain ⟨s1, s2, s3⟩ := q4 r2
      refine ⟨by omega, s2, ?_⟩
      intro st2 hst2
      rw [cycle_trace, h1] at hst2
      rcases List.mem_cons.mp hst2 with e | e
      · rw [e]; exact hq
      · exact s3 st2 e

theorem cycle_remove_lengths (cc : Int) :
    ∀ (fuel dst : Nat) (fn fn3 : function_info), cycle_remove cc fuel dst fn = some fn3 →
      fn3.blocks = fn.blocks ∧ fn3.arcs.length = fn.arcs.length := by
  intro fuel
  induction fuel with
  | zero => intro dst fn fn3 h; simp [cycle_remove] at h
  | succ n ih =>
    intro dst fn fn3 h
    rw [cycle_remove] at h
    cases hc : (blk fn.blocks dst).cycle_arc with
    | none =>
      rw [hc] at h
      simp only [Option.some.injEq] at h
      rw [← h]; exact ⟨rfl, rfl⟩
    | some a =>
      rw [hc] at h
      obtain ⟨h1, h2⟩ := ih _ _ _ h
      exact ⟨h1, by rw [h2]; simp⟩

theorem cycle_unwind_lengths (target : Nat) :
    ∀ (fuel head a : Nat) (fn fn4 : function_info) (h1 a1 : Nat),
      cycle_unwind target fuel head a fn = some (fn4, h1, a1) →
      fn4.arcs = fn.arcs ∧ fn4.blocks.length = fn.blocks.length := by
  intro fuel
  induction fuel with
  | zero => intro head a fn fn4 h1 a1 h; simp [cycle_unwind] at h
  | succ n ih =>
    intro head a fn fn4 h1 a1 h
    rw [cycle_unwind] at h
    by_cases hne : head ≠ target
    · rw [if_pos hne] at h
      cases hc : (blk fn.blocks head).cycle_arc with
      | none => rw [hc] at h; simp at h
      | some x =>
        rw [hc] at h
        obtain ⟨q1, q2⟩ := ih _ _ _ _ _ _ h
        exact ⟨q1, by rw [q2]; simp⟩
    · rw [if_neg hne] at h
      simp only [Option.some.injEq, Prod.mk.injEq] at h
      rw [← h.1]; exact ⟨rfl, rfl⟩

theorem cycle_turn_lengths (ix block fuel : Nat) (st : cycle_state) :
    (∀ st1, cycle_turn ix block fuel st = cycle_outcome.more st1 →
      st1.fn.arcs.length = st.fn.arcs.length ∧ st1.fn.blocks.length = st.fn.blocks.length) ∧
    (∀ fn1 c, cycle_turn ix block fuel st = cycle_outcome.done fn1 c →
      fn1.arcs.length = st.fn.arcs.length ∧ fn1.blocks.length = st.fn.blocks.length) := by
  unfold cycle_turn
  cases harc : st.arc with
  | nil =>
    simp only
    cases hc : (blk st.fn.blocks st.head).cycle_arc with
    | none =>
      simp only
      refine ⟨fun st1 h => by simp at h, fun fn1 c h => ?_⟩
      simp only [cycle_outcome.done.injEq] at h
      rw [← h.1]; simp
    | some a =>
      simp only
      refine ⟨fun st1 h => ?_, fun fn1 c h => by simp at h⟩
      simp only [cycle_outcome.more.injEq] at h
      rw [← h]; simp
  | cons a rest =>
    simp only
    by_cases hskip : (arc st.fn.arcs a).cycle = true ∨
        (blk st.fn.blocks (arc st.fn.arcs a).dst).cycle_ident ≠ ix ∨
        (blk st.fn.blocks (arc st.fn.arcs a).dst).cycle_arc ≠ none
    · rw [if_pos hskip]
      refine ⟨fun st1 h => ?_, fun fn1 c h => by simp at h⟩
      simp only [cycle_outcome.more.injEq] at h
      rw [← h]; exact ⟨rfl, rfl⟩
    · rw [if_neg hskip]
      by_cases hd : (arc st.fn.arcs a).dst = block
      · rw [if_pos hd]
        cases h3 : cycle_minimum st.fn (fuel + 1) st.head ((arc st.fn.arcs a).cs_count, a) with
        | none => exact ⟨fun st1 h => by simp at h, fun fn1 c h => by simp at h⟩
        | some r =>
          obtain ⟨cc, ca⟩ := r
          simp only
          split
          · exact ⟨fun st1 h => by simp at h, fun fn1 c h => by simp at h⟩
          · rename_i fn3 h4
            obtain ⟨r1, r2⟩ := cycle_remove_lengths _ _ _ _ _ h4
            split
            · exact ⟨fun st1 h => by simp at h, fun fn1 c h => by simp at h⟩
            · rename_i fn4 hd2 a1 h5
              obtain ⟨u1, u2⟩ := cycle_unwind_lengths _ _ _ _ _ _ _ _ h5
              refine ⟨fun st1 h => ?_, fun fn1 c h => by simp at h⟩
              simp only [cycle_outcome.more.injEq] at h
              rw [← h]
              simp only
              rw [u1, u2, r1, r2]
              simp
      · rw [if_neg hd]
        refine ⟨fun st1 h => ?_, fun fn1 c h => by simp at h⟩
        simp only [cycle_outcome.more.injEq] at h
        rw [← h]; simp

theorem cycle_search_lengths (ix block : Nat) :
    ∀ (fuel : Nat) (st : cycle_state) (fn1 : function_info) (c1 : Int),
      cycle_search ix block fuel st = some (fn1, c1) →
      fn1.arcs.length = st.fn.arcs.length ∧ fn1.blocks.length = st.fn.blocks.length := by
  intro fuel
  induction fuel with
  | zero => intro st fn1 c1 h; simp [cycle_search] at h
  | succ n ih =>
    intro st fn1 c1 h
    rw [cycle_search_turn] at h
    obtain ⟨t1, t2⟩ := cycle_turn_lengths ix block n st
    cases ht : cycle_turn ix block n st with
    | crash => rw [ht] at h; simp at h
    | more st1 =>
      rw [ht] at h
      obtain ⟨q1, q2⟩ := ih st1 fn1 c1 h
      obtain ⟨r1, r2⟩ := t1 st1 ht
      exact ⟨by rw [q1, r1], by rw [q2, r2]⟩
    | done fn2 c2 =>
      rw [ht] at h
      simp only [Option.some.injEq, Prod.mk.injEq] at h
      rw [← h.1]
      exact t2 fn2 c2 ht

theorem search_start_eq (fuel s l ix : Nat) (p : pair_state) (h : (p.line s l).blocks ≠ []) :
    accumulate_line fuel s l ix p =
      match find_line_cycles fuel ix (p.line s l).blocks.reverse (search_start s l ix p) with
      | none => none
      | some (p3, count) =>
        some (count_line s l (p3.upd_line s l (fun L => { L with count := count }))) := by
  unfold accumulate_line search_start
  exact if_pos h

theorem find_line_cycles_total (ix : Nat) (C : List (Nat × Nat)) :
    ∀ (rest : List (Nat × Nat)), (∀ x ∈ rest, x ∈ C) → ∀ (p : pair_state), line_wf ix C p →
      ∀ (count : Int) (fuel : Nat),
      (∀ fb ∈ rest, ((p.fn fb.1).arcs.length + 2) ^ ((p.fn fb.1).blocks.length + 1) ≤ fuel) →
      ∃ p1 c1, find_line_cycles fuel ix rest (p, count) = some (p1, c1) ∧ p1.srcs = p.srcs ∧
        ((∀ f, counts_nonneg (fun j => (f, j) ∈ C) (p.fn f)) → count ≤ c1 ∧
          ∀ x ∈ line_trace fuel ix rest (p, count), counts_nonneg (fun j => (x.1, j) ∈ C) x.2.fn) := by
  intro rest
  induction rest with
  | nil =>
    intro _ p _ count fuel _
    exact ⟨p, count, rfl, rfl, fun _ => ⟨le_refl _, fun x hx => by simp [line_trace] at hx⟩⟩
  | cons x rest ih =>
    intro hsub p hp count fuel hfuel
    obtain ⟨f, b⟩ := x
    have hmem : (f, b) ∈ C := hsub _ (List.mem_cons_self _ _)
    have hwf := hp.hfn f
    have hsl : (blk (p.fn f).blocks b).succ.length ≤ (p.fn f).arcs.length :=
      nodup_length_le _ _ (hwf.hnd b hmem) (fun x hx => (hwf.harc b hmem x hx).1)
    have hI : search_inv ix b (fun j => (f, j) ∈ C)
        { fn := p.fn f, count := count, head := b, arc := (blk (p.fn f).blocks b).succ } [] :=
      ⟨hwf, hmem, hmem, hp.hnone f b hmem, rfl, List.nodup_nil,
        fun j hj _ => hp.hnone f j hj, ⟨[], rfl⟩⟩
    have hm : search_measure
        { fn := p.fn f, count := count, head := b, arc := (blk (p.fn f).blocks b).succ } [] < fuel := by
      have hb := hfuel (f, b) (List.mem_cons_self _ _)
      simp only at hb
      unfold search_measure
      simp only [List.length_nil, Nat.sub_zero, path_measure, Nat.add_zero]
      rw [pow_succ] at hb
      have hw := weight_pos (p.fn f).arcs.length (p.fn f).blocks.length
      nlinarith
    obtain ⟨fn1, c1, q1, q2, q3, q4⟩ := cycle_search_total ix b (fun j => (f, j) ∈ C) fuel _ [] hI hm
    obtain ⟨l1, l2⟩ := cycle_search_lengths ix b fuel _ fn1 c1 q1
    simp only at l1 l2
    have hfn1 : ∀ g, (p.set_fn f fn1).fn g = if f = g ∧ f < p.fns.length then fn1 else p.fn g :=
      fun g => fn_set_fn p f g fn1
    have hp1 : line_wf ix C (p.set_fn f fn1) := by
      constructor
      · intro g
        rw [hfn1]; split
        · rename_i e; rw [← e.1]; exact q2
        · exact hp.hfn g
      · intro g j hj
        rw [hfn1]; split
        · rename_i e; exact q3 j (by rw [e.1]; exact hj)
        · exact hp.hnone g j hj
    have hlen : ∀ g, ((p.set_fn f fn1).fn g).arcs.length = (p.fn g).arcs.length ∧
        ((p.set_fn f fn1).fn g).blocks.length = (p.fn g).blocks.length := by
      intro g
      rw [hfn1]; split
      · rename_i e; rw [← e.1]; exact ⟨l1, l2⟩
      · exact ⟨rfl, rfl⟩
    obtain ⟨p2, c2, r1, r2, r3⟩ := ih (fun y hy => hsub y (List.mem_cons_of_mem _ hy))
      (p.set_fn f fn1) hp1 c1 fuel (fun fb hfb => by
        rw [(hlen fb.1).1, (hlen fb.1).2]
        exact hfuel fb (List.mem_cons_of_mem _ hfb))
    refine ⟨p2, c2, ?_, r2, fun hq => ?_⟩
    · simp only [find_line_cycles]
      rw [q1]
      exact r1
    · obtain ⟨s1, s2, s3⟩ := q4 (hq f)
      simp only at s1
      have hq1 : ∀ g, counts_nonneg (fun j => (g, j) ∈ C) ((p.set_fn f fn1).fn g) := by
        intro g
        rw [hfn1]; split
        · rename_i e; rw [← e.1]; exact s2
        · exact hq g
      obtain ⟨t1, t2⟩ := r3 hq1
      refine ⟨by omega, ?_⟩
      intro x hx
      simp only [line_trace] at hx
      rw [q1] at hx
      simp only at hx
      rcases List.mem_append.mp hx with e | e
      · obtain ⟨st, hst, rfl⟩ := List.mem_map.mp e
        exact s3 st hst
      · exact t2 x e

theorem sum_line_entries_cs (ix : Nat) :
    ∀ (rest : List (Nat × Nat)) (p : pair_state) (count : Int) (c : coverage_info) (f : Nat),
      ((sum_line_entries ix rest (p, count, c)).1.fn f).arcs.length = (p.fn f).arcs.length ∧
      ∀ a,
        ((arc ((sum_line_entries ix rest (p, count, c)).1.fn f).arcs a).cs_count =
            (arc (p.fn f).arcs a).cs_count ∨
         (arc ((sum_line_entries ix rest (p, count, c)).1.fn f).arcs a).cs_count =
            (arc (p.fn f).arcs a).count) ∧
        ∀ b, (f, b) ∈ rest → f < p.fns.length → a ∈ (blk (p.fn f).blocks b).succ →
          a < (p.fn f).arcs.length →
          (arc ((sum_line_entries ix rest (p, count, c)).1.fn f).arcs a).cs_count =
            (arc (p.fn f).arcs a).count := by
  intro rest
  induction rest with
  | nil =>
    intro p count c f
    refine ⟨rfl, fun a => ⟨Or.inl rfl, fun b hb => by simp at hb⟩⟩
  | cons x rest ih =>
    intro p count c f
    obtain ⟨f0, b0⟩ := x
    obtain ⟨fn1, hfn1⟩ : ∃ x : function_info, x =
        { p.fn f0 with arcs := init_cs_count (p.fn f0).arcs (blk (p.fn f0).blocks b0).succ } := ⟨_, rfl⟩
    have hstep : sum_line_entries ix ((f0, b0) :: rest) (p, count, c) =
        sum_line_entries ix rest (p.set_fn f0 fn1,
          (sum_entry_arcs ix (p.fn f0) (blk (p.fn f0).blocks b0).pred (count, c)).1,
          (sum_entry_arcs ix (p.fn f0) (blk (p.fn f0).blocks b0).pred (count, c)).2) := by
      rw [hfn1]; rfl
    rw [hstep]
    obtain ⟨i1, i2⟩ := ih (p.set_fn f0 fn1)
      (sum_entry_arcs ix (p.fn f0) (blk (p.fn f0).blocks b0).pred (count, c)).1
      (sum_entry_arcs ix (p.fn f0) (blk (p.fn f0).blocks b0).pred (count, c)).2 f
    have hlen0 : (p.set_fn f0 fn1).fns.length = p.fns.length := by simp [pair_state.set_fn]
    have hA : ∀ a, arc fn1.arcs a = { arc (p.fn f0).arcs a with cs_count :=
        if a ∈ (blk (p.fn f0).blocks b0).succ ∧ a < (p.fn f0).arcs.length
        then (arc (p.fn f0).arcs a).count else (arc (p.fn f0).arcs a).cs_count } := by
      intro a; rw [hfn1]; exact (init_cs_count_arc _ _ a).1
    have hL : fn1.arcs.length = (p.fn f0).arcs.length := by
      rw [hfn1]; exact (init_cs_count_arc _ _ 0).2
    have hB : fn1.blocks = (p.fn f0).blocks := by rw [hfn1]
    by_cases e : f0 = f ∧ f0 < p.fns.length
    · have hf : (p.set_fn f0 fn1).fn f = fn1 := by rw [fn_set_fn, if_pos e]
      obtain ⟨e1, e2⟩ := e
      subst e1
      rw [hf] at i1 i2
      refine ⟨by rw [i1, hL], fun a => ?_⟩
      obtain ⟨j1, j2⟩ := i2 a
      have hcnt : (arc fn1.arcs a).count = (arc (p.fn f0).arcs a).count := by rw [hA]
      have hcs : (arc fn1.arcs a).cs_count = (arc (p.fn f0).arcs a).cs_count ∨
          (arc fn1.arcs a).cs_count = (arc (p.fn f0).arcs a).count := by
        rw [hA]; simp only
        split
        · exact Or.inr rfl
        · exact Or.inl rfl
      refine ⟨?_, ?_⟩
      · rcases j1 with h | h
        · rw [h]; exact hcs
        · rw [h, hcnt]; exact Or.inr rfl
      · intro b hb hfl hm hal
        rcases List.mem_cons.mp hb with h | h
        · have hb0 : b = b0 := by
            simp only [Prod.mk.injEq] at h; exact h.2
          subst hb0
          have hcs1 : (arc fn1.arcs a).cs_count = (arc (p.fn f0).arcs a).count := by
            rw [hA]; simp only
            rw [if_pos ⟨hm, hal⟩]
          rcases j1 with h2 | h2
          · rw [h2, hcs1]
          · rw [h2, hcnt]
        · rw [j2 b h (by rw [hlen0]; exact hfl) (by rw [hB]; exact hm) (by rw [hL]; exact hal), hcnt]
    · have hf : (p.set_fn f0 fn1).fn f = p.fn f := by rw [fn_set_fn, if_neg e]
      rw [hf] at i1 i2
      refine ⟨i1, fun a => ⟨(i2 a).1, ?_⟩⟩
      intro b hb hfl hm hal
      rcases List.mem_cons.mp hb with h | h
      · exfalso
        simp only [Prod.mk.injEq] at h
        exact e ⟨h.1.symm, h.1 ▸ hfl⟩
      · exact (i2 a).2 b h (by rw [hlen0]; exact hfl) hm hal

theorem le_sum_of_mem (l : List Nat) (x : Nat) (h : x ∈ l) : x ≤ l.sum := by
  induction l with
  | nil => simp at h
  | cons y rest ih =>
    rw [List.sum_cons]
    rcases List.mem_cons.mp h with e | e
    · omega
    · have := ih e; omega

theorem line_wf_marked (ix : Nat) (p q : pair_state) (C0 : List (Nat × Nat))
    (hC : ∀ fb ∈ C0, fb.1 < p.fns.length ∧ fb.2 < (p.fn fb.1).blocks.length)
    (hoff : ∀ f, f < p.fns.length → ∀ j, j < (p.fn f).blocks.length → (f, j) ∉ C0 →
      (blk (p.fn f).blocks j).cycle_ident ≠ ix)
    (hwf : ∀ fb ∈ C0, (blk (p.fn fb.1).blocks fb.2).cycle_arc = none ∧
      (blk (p.fn fb.1).blocks fb.2).succ.Nodup ∧
      (∀ a ∈ (blk (p.fn fb.1).blocks fb.2).succ, a < (p.fn fb.1).arcs.length ∧
        (arc (p.fn fb.1).arcs a).src = fb.2 ∧
        (arc (p.fn fb.1).arcs a).dst < (p.fn fb.1).blocks.length) ∧
      (∀ a ∈ (blk (p.fn fb.1).blocks fb.2).pred,
        (arc (p.fn fb.1).arcs a).src < (p.fn fb.1).blocks.length))
    (hq : ∀ f, (q.fn f).blocks.length = (p.fn f).blocks.length ∧
      (q.fn f).arcs.length = (p.fn f).arcs.length ∧
      (∀ a, (arc (q.fn f).arcs a).src = (arc (p.fn f).arcs a).src ∧
        (arc (q.fn f).arcs a).dst = (arc (p.fn f).arcs a).dst) ∧
      ∀ j, (blk (q.fn f).blocks j).succ = (blk (p.fn f).blocks j).succ ∧
        (blk (q.fn f).blocks j).cycle_arc = (blk (p.fn f).blocks j).cycle_arc ∧
        ((blk (q.fn f).blocks j).cycle_ident = ix →
          (blk (p.fn f).blocks j).cycle_ident = ix ∨ (f, j) ∈ C0)) :
    line_wf ix C0.reverse q := by
  constructor
  · intro f
    have hbase : search_wf ix (fun j => (f, j) ∈ C0.reverse) (p.fn f) := by
      constructor
      · intro j hj hi
        rw [List.mem_reverse]
        by_contra hc
        by_cases hf : f < p.fns.length
        · exact hoff f hf j hj hc hi
        · rw [fn_out_of_range p f hf] at hj
          exact Nat.not_lt_zero _ hj
      · intro j hj
        exact (hC _ (List.mem_reverse.1 hj)).2
      · intro j hj
        exact (hwf _ (List.mem_reverse.1 hj)).2.1
      · intro j hj a ha
        exact (hwf _ (List.mem_reverse.1 hj)).2.2.1 a ha
    obtain ⟨q1, q2, q3, q4⟩ := hq f
    refine search_wf_congr ix _ (p.fn f) (q.fn f) hbase q1 q2 q3 (fun j => (q4 j).1) ?_
    intro j _ hi
    rcases (q4 j).2.2 hi with h | h
    · exact Or.inl h
    · exact Or.inr (List.mem_reverse.2 h)
  · intro f j hj
    rw [((hq f).2.2.2 j).2.1]
    exact (hwf _ (List.mem_reverse.1 hj)).1

/-- C31: for a line of an allocated line array with a block chain that is not
empty, in a state as `add_line_counts` and the earlier turns of the loop leave
it (only the blocks of the chain may carry the identity of the line, no block
of the chain holds a path arc, every exit chain of a block of the chain holds
each arc once, with the block as source), whatever the arcs and the counts
are, the body of the loop of `accumulate_line_counts` returns with every fuel
from `search_bound` on: the search for the cycles ends.  When no arc that
leaves a block of the line has a negative count, the count of the line is at
least the entry-sum, and in every state that the search passes through no
working count `cs_count` of such an arc is negative. -/
theorem accumulate_line_search (s l ix : Nat) (p : pair_state) (ls : List line_info)
    (hs : s < p.srcs.length) (hls : (p.source s).lines = some ls) (hl : l < ls.length)
    (hne : (p.line s l).blocks ≠ [])
    (hC : ∀ fb ∈ (p.line s l).blocks, fb.1 < p.fns.length ∧ fb.2 < (p.fn fb.1).blocks.length)
    (hoff : ∀ f, f < p.fns.length → ∀ j, j < (p.fn f).blocks.length →
      (f, j) ∉ (p.line s l).blocks → (blk (p.fn f).blocks j).cycle_ident ≠ ix)
    (hwf : ∀ fb ∈ (p.line s l).blocks, (blk (p.fn fb.1).blocks fb.2).cycle_arc = none ∧
      (blk (p.fn fb.1).blocks fb.2).succ.Nodup ∧
      (∀ a ∈ (blk (p.fn fb.1).blocks fb.2).succ, a < (p.fn fb.1).arcs.length ∧
        (arc (p.fn fb.1).arcs a).src = fb.2 ∧
        (arc (p.fn fb.1).arcs a).dst < (p.fn fb.1).blocks.length) ∧
      (∀ a ∈ (blk (p.fn fb.1).blocks fb.2).pred,
        (arc (p.fn fb.1).arcs a).src < (p.fn fb.1).blocks.length))
    (fuel : Nat) (hfuel : search_bound p (p.line s l).blocks ≤ fuel) :
    ∃ p1, accumulate_line fuel s l ix p = some p1 ∧
      ((∀ fb ∈ (p.line s l).blocks, ∀ a ∈ (blk (p.fn fb.1).blocks fb.2).succ,
          0 ≤ (arc (p.fn fb.1).arcs a).count) →
        line_entry_sum p (p.line s l).blocks ≤ (p1.line s l).count ∧
        ∀ x ∈ line_trace fuel ix (p.line s l).blocks.reverse (search_start s l ix p),
          ∀ b, (x.1, b) ∈ (p.line s l).blocks → ∀ a ∈ (blk x.2.fn.blocks b).succ,
            0 ≤ (arc x.2.fn.arcs a).cs_count) := by
  have hunf := search_start_eq fuel s l ix p hne
  obtain ⟨C0, hC0⟩ : ∃ c, c = (p.line s l).blocks := ⟨_, rfl⟩
  rw [← hC0] at hne hC hoff hwf hfuel hunf ⊢
  obtain ⟨m1, m2, m3⟩ := mark_line_blocks_spec ix C0 p
  obtain ⟨pm, hpm⟩ : ∃ x, x = mark_line_blocks ix C0 p := ⟨_, rfl⟩
  rw [← hpm] at m1 m2 m3
  have hsm : s < pm.srcs.length := by rw [m1]; exact hs
  have hlsm : (pm.source s).lines = some ls := by
    unfold pair_state.source; rw [m1]; exact hls
  obtain ⟨_, u2, u3, u4⟩ := line_upd_line pm s l (fun L => { L with blocks := C0.reverse }) ls hsm hlsm hl
  obtain ⟨P1, hP1⟩ : ∃ x, x = pm.upd_line s l (fun L => { L with blocks := C0.reverse }) := ⟨_, rfl⟩
  rw [← hP1] at u2 u3 u4
  have hP1fn : ∀ f, P1.fn f = pm.fn f := by
    intro f; rw [hP1]; exact upd_line_fn _ _ _ _ _
  obtain ⟨e1, e2, e3, e4⟩ := sum_line_entries_spec ix C0.reverse P1 0 (P1.source s).coverage
  have e5 := sum_line_entries_cs ix C0.reverse P1 0 (P1.source s).coverage
  obtain ⟨E, hE⟩ : ∃ x, x = sum_line_entries ix C0.reverse (P1, 0, (P1.source s).coverage) := ⟨_, rfl⟩
  rw [← hE] at e1 e2 e3 e4 e5
  obtain ⟨V, hV⟩ : ∃ x : source_info, x = { E.1.source s with coverage := E.2.2 } := ⟨_, rfl⟩
  obtain ⟨P2, hP2⟩ : ∃ x, x = E.1.set_source s V := ⟨_, rfl⟩
  have hstart : search_start s l ix p = (P2, E.2.1) := by
    subst hP2 hV hE hP1 hpm hC0
    rfl
  rw [hstart] at hunf ⊢
  have hP2fn : ∀ f, P2.fn f = E.1.fn f := by intro f; rw [hP2]; rfl
  have hfnq : ∀ f, (P2.fn f).blocks = (pm.fn f).blocks ∧
      (P2.fn f).arcs.length = (p.fn f).arcs.length ∧
      ∀ a, (arc (P2.fn f).arcs a).src = (arc (p.fn f).arcs a).src ∧
        (arc (P2.fn f).arcs a).dst = (arc (p.fn f).arcs a).dst := by
    intro f
    obtain ⟨b1, b2⟩ := e3 f
    rw [hP2fn, b1, hP1fn, (e5 f).1, hP1fn, (m3 f).1]
    refine ⟨rfl, rfl, fun a => ?_⟩
    obtain ⟨a1, a2, _⟩ := b2 a
    rw [a1, a2, hP1fn, (m3 f).1]
    exact ⟨rfl, rfl⟩
  have hlw : line_wf ix C0.reverse P2 := by
    refine line_wf_marked ix p P2 C0 hC hoff hwf (fun f => ?_)
    obtain ⟨b1, b2, b3⟩ := hfnq f
    obtain ⟨_, c2, c3⟩ := m3 f
    refine ⟨by rw [b1, c2], b2, b3, fun j => ?_⟩
    rw [b1, c3 j]
    refine ⟨rfl, rfl, ?_⟩
    dsimp only
    split
    · rename_i e; exact fun _ => Or.inr e.1
    · exact fun h => Or.inl h
  have hsum : E.2.1 = line_entry_sum p C0 := by
    rw [e4, Int.zero_add]
    refine line_entry_sum_marked ix p P1 C0 hC hoff (fun fb hfb => (hwf fb hfb).2.2.2) (fun f => ?_)
    rw [hP1fn]
    obtain ⟨c1, _, c3⟩ := m3 f
    rw [c1]
    refine ⟨fun a => ⟨rfl, rfl⟩, fun j => ?_⟩
    rw [c3 j]
    exact ⟨rfl, rfl⟩
  obtain ⟨p3, c3, f1, f2, f3⟩ := find_line_cycles_total ix C0.reverse C0.reverse (fun x h => h)
    P2 hlw E.2.1 fuel (fun fb hfb => by
      obtain ⟨b1, b2, _⟩ := hfnq fb.1
      rw [b2, b1, (m3 fb.1).2.1]
      refine Nat.le_trans ?_ hfuel
      unfold search_bound
      exact le_sum_of_mem _ _ (List.mem_map_of_mem _ (List.mem_reverse.1 hfb)))
  rw [hunf, f1]
  have hsE : s < E.1.srcs.length := by rw [e1, u2]; exact hsm
  have hsrc3 : p3.source s = V := by
    unfold pair_state.source
    rw [f2, hP2]
    exact source_set_source E.1 s V hsE
  have hlines : (p3.source s).lines = some (ls.set l ((fun L : line_info => { L with blocks := C0.reverse }) (pm.line s l))) := by
    rw [hsrc3, hV]
    dsimp only
    have : E.1.source s = P1.source s := by unfold pair_state.source; rw [e1]
    rw [this, u4]
  obtain ⟨q1, _, _, _⟩ := line_upd_line p3 s l (fun L => { L with count := c3 }) _
    (by rw [f2, hP2]; simp only [pair_state.set_source, List.length_set]; exact hsE)
    hlines (by simp only [List.length_set]; exact hl)
  refine ⟨_, rfl, fun hnn => ?_⟩
  have hq2 : ∀ f, counts_nonneg (fun j => (f, j) ∈ C0.reverse) (P2.fn f) := by
    intro f j hj a ha
    have hj0 : (f, j) ∈ C0 := List.mem_reverse.1 hj
    obtain ⟨b1, _, _⟩ := hfnq f
    rw [b1, ((m3 f).2.2 j)] at ha
    simp only at ha
    have hfl := (hC _ hj0).1
    have hal := ((hwf _ hj0).2.2.1 a ha).1
    simp only at hfl hal
    have hcs := ((e5 f).2 a).2 j hj (by rw [u3, m2]; exact hfl)
      (by rw [hP1fn, ((m3 f).2.2 j)]; exact ha) (by rw [hP1fn, (m3 f).1]; exact hal)
    rw [hP2fn, hcs, hP1fn, (m3 f).1]
    exact hnn _ hj0 a ha
  obtain ⟨g1, g2⟩ := f3 hq2
  refine ⟨?_, ?_⟩
  · rw [count_line_line, q1]
    simp only
    rw [← hsum]; exact g1
  · intro x hx b hb a ha
    exact g2 x hx b (List.mem_reverse.2 hb) a ha

/-- Witness of C31: line 10 of `loop_state 3 7`, whose only block has an arc
to itself. -/
theorem accumulate_line_search_witness :
    search_bound (loop_state 3 7) ((loop_state 3 7).line 0 10).blocks = 625 ∧
    ∃ p1, accumulate_line 625 0 10 0 (loop_state 3 7) = some p1 ∧
      line_entry_sum (loop_state 3 7) ((loop_state 3 7).line 0 10).blocks ≤ (p1.line 0 10).count ∧
      ∀ x ∈ line_trace 625 0 ((loop_state 3 7).line 0 10).blocks.reverse
          (search_start 0 10 0 (loop_state 3 7)),
        ∀ b, (x.1, b) ∈ ((loop_state 3 7).line 0 10).blocks → ∀ a ∈ (blk x.2.fn.blocks b).succ,
          0 ≤ (arc x.2.fn.arcs a).cs_count := by
  refine ⟨by decide, ?_⟩
  obtain ⟨p1, h1, h2⟩ := accumulate_line_search 0 10 0 (loop_state 3 7)
    (List.replicate 10 line_info.zero ++ [{ count := 10, blocks := [(0, 1)], «exists» := true }])
    (by decide) (by decide) (by decide) (by decide) (by decide) (by decide) (by decide)
    625 (by decide)
  exact ⟨p1, h1, h2 (by decide)⟩

/-! ### The solved graph: every count valid -/

theorem inv_count_all_valid (as : List arc_info) (L : List Nat)
    (h : ∀ x ∈ L, (arc as x).count_valid = true) : inv_count as L = 0 := by
  unfold inv_count
  rw [List.countP_eq_zero]
  intro x hx
  simp [h x hx]

theorem inv_count_single (as : List arc_info) (L : List Nat) (a : Nat) (hc : L.count a = 1)
    (hv : (arc as a).count_valid = false)
    (hoth : ∀ x ∈ L, x ≠ a → (arc as x).count_valid = true) : inv_count as L = 1 := by
  unfold inv_count
  rw [← hc, List.count, List.countP_congr]
  intro x hx
  by_cases e : x = a
  · subst e; simp [hv]
  · simp [hoth x hx e, e]

theorem upper_lower_ends (fn : function_info) (rank : Nat → Nat) (a : Nat) :
    (upper fn rank a = (arc fn.arcs a).src ∧ lower fn rank a = (arc fn.arcs a).dst ∧
      rank (arc fn.arcs a).dst < rank (arc fn.arcs a).src) ∨
    (upper fn rank a = (arc fn.arcs a).dst ∧ lower fn rank a = (arc fn.arcs a).src ∧
      rank (arc fn.arcs a).src ≤ rank (arc fn.arcs a).dst) := by
  unfold upper lower
  by_cases h : rank (arc fn.arcs a).dst < rank (arc fn.arcs a).src
  · left; rw [if_pos h, if_pos h]; exact ⟨rfl, rfl, h⟩
  · right; rw [if_neg h, if_neg h]; exact ⟨rfl, rfl, by omega⟩

/-- In a state of the fixed-point loop with both work-lists empty, every arc
of a function whose arcs on the tree form a spanning tree has a valid count. -/
theorem final_arcs_valid (fn : function_info) (rank : Nat → Nat) (hl : arcs_linked fn)
    (ht : spanning_tree fn rank) (st : solve_state) (hg : graph_inv fn st)
    (hli : list_inv fn (fun _ => False) (fun _ => False) st)
    (hi : st.invalid_blocks = []) (hv : st.valid_blocks = []) :
    ∀ a, a < fn.arcs.length → (arc st.arcs a).count_valid = true := by
  by_contra hcon
  push_neg at hcon
  obtain ⟨a0, ha0, hv0⟩ := hcon
  have hv0' : (arc st.arcs a0).count_valid = false := by
    cases h : (arc st.arcs a0).count_valid with
    | true => exact absurd h hv0
    | false => rfl
  -- an arc without valid count whose upper end has the largest rank
  have hne : ((Finset.range fn.arcs.length).filter
      (fun a => (arc st.arcs a).count_valid = false)).Nonempty :=
    ⟨a0, by rw [Finset.mem_filter, Finset.mem_range]; exact ⟨ha0, hv0'⟩⟩
  obtain ⟨a, ham, hmax⟩ := Finset.exists_max_image _ (fun a => rank (upper fn rank a)) hne
  rw [Finset.mem_filter, Finset.mem_range] at ham
  obtain ⟨ha, hva⟩ := ham
  have hmax2 : ∀ e, e < fn.arcs.length → (arc st.arcs e).count_valid = false →
      rank (upper fn rank e) ≤ rank (upper fn rank a) := fun e he hve =>
    hmax e (by rw [Finset.mem_filter, Finset.mem_range]; exact ⟨he, hve⟩)
  obtain ⟨t1, t2, t3⟩ := ht
  have hta := (hg.off a ha hva).1
  obtain ⟨u1, u2, u3⟩ := t1 a ha hta
  -- every other arc at the upper end of `a` is valid
  have hother : ∀ e, e < fn.arcs.length → e ≠ a →
      ((arc fn.arcs e).src = upper fn rank a ∨ (arc fn.arcs e).dst = upper fn rank a) →
      (arc st.arcs e).count_valid = true := by
    intro e he hea hinc
    cases hve : (arc st.arcs e).count_valid with
    | true => rfl
    | false =>
      exfalso
      have hte := (hg.off e he hve).1
      obtain ⟨w1, _, _⟩ := t1 e he hte
      have hle := hmax2 e he hve
      rcases upper_lower_ends fn rank e with ⟨q1, q2, q3⟩ | ⟨q1, q2, q3⟩
      · rcases hinc with h | h
        · exact hea (t2 e he a ha hte hta (by rw [q1, h]))
        · rw [q1, ← h] at hle; omega
      · rcases hinc with h | h
        · rw [q1, ← h] at hle; omega
        · exact hea (t2 e he a ha hte hta (by rw [q1, h]))
  have hU : upper fn rank a < fn.num_blocks := by omega
  rcases upper_lower_ends fn rank a with ⟨q1, q2, q3⟩ | ⟨q1, q2, q3⟩
  · -- `a` leaves its upper end
    have hs1 : inv_count st.arcs (blk fn.blocks (upper fn rank a)).succ = 1 := by
      apply inv_count_single _ _ a _ hva
      · intro x hx hxa
        obtain ⟨hx1, hx2⟩ := hl.2.1 _ hU x hx
        exact hother x hx1 hxa (Or.inl hx2)
      · rw [linked_count_succ fn hl a ha, if_pos q1]
    have hp0 : inv_count st.arcs (blk fn.blocks (upper fn rank a)).pred = 0 := by
      apply inv_count_all_valid
      intro x hx
      obtain ⟨hx1, hx2⟩ := hl.2.2 _ hU x hx
      refine hother x hx1 ?_ (Or.inr hx2)
      intro e
      rw [e, q1] at hx2
      exact u1 (by rw [hx2])
    have hns : (blk st.blocks (upper fn rank a)).num_succ = 1 := by
      rcases hg.nsucc (upper fn rank a) with h | ⟨_, _, h⟩
      · rw [h, hs1]; rfl
      · omega
    have hnp : (blk st.blocks (upper fn rank a)).num_pred = 0 := by
      rcases hg.npred (upper fn rank a) with h | ⟨_, _, h⟩
      · rw [h, hp0]; rfl
      · omega
    cases hcv : (blk st.blocks (upper fn rank a)).count_valid with
    | false =>
      rcases hli.inv_p _ hU hcv hnp with h | h
      · rw [hi] at h; simp at h
      · exact h
    | true =>
      rcases hli.val_s _ hU hcv hns with h | h
      · rw [hv] at h; simp at h
      · exact h
  · -- `a` enters its upper end
    have hp1 : inv_count st.arcs (blk fn.blocks (upper fn rank a)).pred = 1 := by
      apply inv_count_single _ _ a _ hva
      · intro x hx hxa
        obtain ⟨hx1, hx2⟩ := hl.2.2 _ hU x hx
        exact hother x hx1 hxa (Or.inr hx2)
      · rw [linked_count_pred fn hl a ha, if_pos q1]
    have hs0 : inv_count st.arcs (blk fn.blocks (upper fn rank a)).succ = 0 := by
      apply inv_count_all_valid
      intro x hx
      obtain ⟨hx1, hx2⟩ := hl.2.1 _ hU x hx
      refine hother x hx1 ?_ (Or.inl hx2)
      intro e
      rw [e, q1] at hx2
      exact u1 (by rw [hx2])
    have hnp : (blk st.blocks (upper fn rank a)).num_pred = 1 := by
      rcases hg.npred (upper fn rank a) with h | ⟨_, _, h⟩
      · rw [h, hp1]; rfl
      · omega
    have hns : (blk st.blocks (upper fn rank a)).num_succ = 0 := by
      rcases hg.nsucc (upper fn rank a) with h | ⟨_, _, h⟩
      · rw [h, hs0]; rfl
      · omega
    cases hcv : (blk st.blocks (upper fn rank a)).count_valid with
    | false =>
      rcases hli.inv_s _ hU hcv hns with h | h
      · rw [hi] at h; simp at h
      · exact h
    | true =>
      rcases hli.val_p _ hU hcv hnp with h | h
      · rw [hv] at h; simp at h
      · exact h

/-- In a state of the fixed-point loop with both work-lists empty and every
arc valid, every block of a function with two blocks or more has a valid
count. -/
theorem final_blocks_valid (fn : function_info) (hl : arcs_linked fn) (hn : 2 ≤ fn.num_blocks)
    (st : solve_state) (hg : graph_inv fn st)
    (hli : list_inv fn (fun _ => False) (fun _ => False) st)
    (hi : st.invalid_blocks = [])
    (ha : ∀ a, a < fn.arcs.length → (arc st.arcs a).count_valid = true) :
    ∀ j, j < fn.num_blocks → (blk st.blocks j).count_valid = true := by
  intro j hj
  cases hcv : (blk st.blocks j).count_valid with
  | true => rfl
  | false =>
    exfalso
    have hs0 : inv_count st.arcs (blk fn.blocks j).succ = 0 :=
      inv_count_all_valid _ _ (fun x hx => ha x (hl.2.1 j hj x hx).1)
    have hp0 : inv_count st.arcs (blk fn.blocks j).pred = 0 :=
      inv_count_all_valid _ _ (fun x hx => ha x (hl.2.2 j hj x hx).1)
    rcases hg.nsucc j with h | ⟨_, _, h⟩
    · rcases hli.inv_s j hj hcv (by rw [h, hs0]; rfl) with q | q
      · rw [hi] at q; simp at q
      · exact q
    · rcases hg.npred j with h2 | ⟨_, _, h2⟩
      · rcases hli.inv_p j hj hcv (by rw [h2, hp0]; rfl) with q | q
        · rw [hi] at q; simp at q
        · exact q
      · omega

/-- C2: for every function of an accepted pair with two blocks or more whose
arcs on the tree, together with a virtual edge between the exit and the
entry, form a spanning tree of its blocks (`rank` orders the blocks by their
distance from the two ends of that edge), `solve_flow_graph` returns with
enough fuel and ends with `count_valid` set on every block and on every arc,
so that the warning `graph is unsolvable` is not raised. -/
theorem solve_flow_graph_solved (rfuel : Nat) (gcno : List Char) (note : Option note_file)
    (data : Option data_file) (p p1 : pair_state)
    (h : read_graph_file rfuel gcno note pair_state.empty = result.ok p)
    (h1 : read_count_file data p = result.ok p1) (f fuel : Nat)
    (hfuel : (p1.fn f).arcs.length * (p1.fn f).arcs.length + 2 * (p1.fn f).arcs.length +
      3 * (p1.fn f).num_blocks < fuel)
    (hn : 2 ≤ (p1.fn f).num_blocks) (rank : Nat → Nat) (ht : spanning_tree (p1.fn f) rank) :
    ∃ fn1, solve_flow_graph fuel (p1.fn f) = some fn1 ∧
      (∀ j, j < (p1.fn f).num_blocks → (blk fn1.blocks j).count_valid = true) ∧
      (∀ a, a < (p1.fn f).arcs.length → (arc fn1.arcs a).count_valid = true) ∧
      graph_is_unsolvable fn1 = false := by
  have hr := read_files_ready rfuel gcno note data p p1 h h1 f
  obtain ⟨st0, iv1, st1, _, _, _, _, r5, r6, r7, r8, r9, _⟩ := solve_run (p1.fn f) hr fuel hfuel
  have ha := final_arcs_valid (p1.fn f) rank hr.1 ht st1 r8 r9 r5 r6
  have hb := final_blocks_valid (p1.fn f) hr.1 hn st1 r8 r9 r5 ha
  refine ⟨_, r7, hb, ha, ?_⟩
  unfold graph_is_unsolvable
  simp only
  rw [List.any_eq_false]
  intro B hB
  obtain ⟨j, hj, rfl⟩ := List.getElem_of_mem hB
  have := hb j (by unfold function_info.num_blocks; rw [← r8.blen]; exact hj)
  unfold blk at this
  rw [List.getD_eq_getElem _ _ hj] at this
  simp [this]

/-- Witness of C2: the function of `skew_note`, whose arcs on the tree 1->3
and 2->3 join the blocks 1 and 2 to the exit. -/
theorem solve_flow_graph_solved_witness :
    ∃ fn1, solve_flow_graph 37 ((skew_counted 5 6).fn 0) = some fn1 ∧
      (∀ j, j < ((skew_counted 5 6).fn 0).num_blocks → (blk fn1.blocks j).count_valid = true) ∧
      (∀ a, a < ((skew_counted 5 6).fn 0).arcs.length → (arc fn1.arcs a).count_valid = true) ∧
      graph_is_unsolvable fn1 = false :=
  solve_flow_graph_solved 8 (skew_pair 5 6).gcno (skew_pair 5 6).note (skew_pair 5 6).data
    skew_graph (skew_counted 5 6) (by decide) (by decide) 0 37 (by decide) (by decide)
    (fun j => if j = 0 then 0 else if j = 3 then 1 else 2) (by decide)

/-! ### The flow equations of the solved graph -/

theorem tree_arc_ends (fn : function_info) (rank : Nat → Nat) (ht : tree_arcs_up fn rank) (a : Nat)
    (ha : a < fn.arcs.length) (hon : (arc fn.arcs a).on_tree = true) :
    ((upper fn rank a = (arc fn.arcs a).src ∧ lower fn rank a = (arc fn.arcs a).dst) ∨
     (upper fn rank a = (arc fn.arcs a).dst ∧ lower fn rank a = (arc fn.arcs a).src)) ∧
    (arc fn.arcs a).src ≠ (arc fn.arcs a).dst ∧ 0 < upper fn rank a ∧
    upper fn rank a + 1 < fn.num_blocks := by
  obtain ⟨h1, h2, h3⟩ := ht a ha hon
  refine ⟨?_, fun h => h1 (by rw [h]), h2, h3⟩
  rcases upper_lower_ends fn rank a with ⟨p, q, _⟩ | ⟨p, q, _⟩
  · exact Or.inl ⟨p, q⟩
  · exact Or.inr ⟨p, q⟩

theorem pending_succ_ne_zero (fn : function_info) (st : solve_state) (hg : graph_inv fn st)
    (j x : Nat) (hx : x ∈ (blk fn.blocks j).succ) (hv : (arc st.arcs x).count_valid = false) :
    (blk st.blocks j).num_succ ≠ 0 := by
  intro h0
  rcases hg.nsucc j with h | ⟨h, _, _⟩
  · rw [h0] at h
    have := inv_count_zero st.arcs _ (by exact_mod_cast h.symm) x hx
    rw [hv] at this; exact absurd this (by decide)
  · rw [h0] at h; exact saturated_ne_zero h.symm

theorem pending_pred_ne_zero (fn : function_info) (st : solve_state) (hg : graph_inv fn st)
    (j x : Nat) (hx : x ∈ (blk fn.blocks j).pred) (hv : (arc st.arcs x).count_valid = false) :
    (blk st.blocks j).num_pred ≠ 0 := by
  intro h0
  rcases hg.npred j with h | ⟨h, _, _⟩
  · rw [h0] at h
    have := inv_count_zero st.arcs _ (by exact_mod_cast h.symm) x hx
    rw [hv] at this; exact absurd this (by decide)
  · rw [h0] at h; exact saturated_ne_zero h.symm

theorem pending_succ_ne_one (fn : function_info) (st : solve_state) (hg : graph_inv fn st)
    (j x y : Nat) (hx : x ∈ (blk fn.blocks j).succ) (hy : y ∈ (blk fn.blocks j).succ) (hne : x ≠ y)
    (hvx : (arc st.arcs x).count_valid = false) (hvy : (arc st.arcs y).count_valid = false) :
    (blk st.blocks j).num_succ ≠ 1 := by
  intro h1
  rcases hg.nsucc j with h | ⟨h, _, _⟩
  · rw [h1] at h
    have h2 := inv_count_two st.arcs _ x y hx hy hne hvx hvy
    have h3 : inv_count st.arcs (blk fn.blocks j).succ = 1 := by exact_mod_cast h.symm
    omega
  · rw [h1] at h; exact saturated_ne_one h.symm

theorem pending_pred_ne_one (fn : function_info) (st : solve_state) (hg : graph_inv fn st)
    (j x y : Nat) (hx : x ∈ (blk fn.blocks j).pred) (hy : y ∈ (blk fn.blocks j).pred) (hne : x ≠ y)
    (hvx : (arc st.arcs x).count_valid = false) (hvy : (arc st.arcs y).count_valid = false) :
    (blk st.blocks j).num_pred ≠ 1 := by
  intro h1
  rcases hg.npred j with h | ⟨h, _, _⟩
  · rw [h1] at h
    have h2 := inv_count_two st.arcs _ x y hx hy hne hvx hvy
    have h3 : inv_count st.arcs (blk fn.blocks j).pred = 1 := by exact_mod_cast h.symm
    omega
  · rw [h1] at h; exact saturated_ne_one h.symm

/-- Marking a block keeps what the spanning tree adds to the state. -/
theorem tree_inv_mark (fn : function_info) (hl : arcs_linked fn) (rank : Nat → Nat)
    (ht : spanning_tree fn rank) (st st1 : solve_state) (b : Nat) (total : Int)
    (hg : graph_inv fn st) (hv : (blk st.blocks b).count_valid = false)
    (hm : marked b total st st1) (hi : tree_inv fn rank st)
    (s3 : (blk st.blocks (fn.num_blocks - 1)).num_succ = saturated)
    (s4 : (blk st.blocks 0).num_pred = saturated) : tree_inv fn rank st1 := by
  have hq := marked_blk b total st st1 hm
  constructor
  · intro a ha hon hu
    rw [hm.harcs]
    apply hi.down a ha hon
    by_cases e : upper fn rank a = b
    · rw [e]; exact hv
    · rw [hm.hother _ e] at hu; exact hu
  · intro a ha e he hona hone hue hav
    rw [hm.harcs] at hav ⊢
    exact hi.below a ha e he hona hone hue hav
  · intro a ha hon hu
    rw [hm.harcs]
    by_cases e : upper fn rank a = b
    · have hainv := hi.down a ha hon (by rw [e]; exact hv)
      obtain ⟨hends, hsd, _, _⟩ := tree_arc_ends fn rank ht.1 a ha hon
      rw [e] at hends ⊢
      split
      · rename_i hsrc
        have hmem : a ∈ (blk fn.blocks b).succ := (linked_mem_succ fn hl a ha b).2 hsrc.symm
        have hns := pending_succ_ne_zero fn st hg b a hmem hainv
        rcases hm.htotal with ⟨h1, _⟩ | ⟨_, h1, h2⟩
        · exact absurd h1 hns
        · rw [(hq b).2.2.2, hm.hcount.1]
          exact ⟨h1, by rw [h2, hg.preds b]⟩
      · rename_i hsrc
        have hdst : b = (arc fn.arcs a).dst := by
          rcases hends with ⟨p, _⟩ | ⟨p, _⟩
          · exact absurd p.symm hsrc
          · exact p
        have hmem : a ∈ (blk fn.blocks b).pred := (linked_mem_pred fn hl a ha b).2 hdst
        have hnp := pending_pred_ne_zero fn st hg b a hmem hainv
        rcases hm.htotal with ⟨h1, h2⟩ | ⟨_, h1, _⟩
        · rw [(hq b).2.2.1, hm.hcount.1]
          exact ⟨h1, by rw [h2, sum_counts_perm _ _ _ (hg.succs b)]⟩
        · exact absurd h1 hnp
    · rw [hm.hother _ e] at hu ⊢
      exact hi.side a ha hon hu
  · intro a ha hon hu hav
    rw [hm.harcs] at hav ⊢
    by_cases e : upper fn rank a = b
    · have hainv := hi.down a ha hon (by rw [e]; exact hv)
      rw [hainv] at hav; exact absurd hav (by decide)
    · rw [hm.hother _ e] at hu ⊢
      exact hi.both a ha hon hu hav
  · intro h0
    by_cases e : 0 = b
    · rw [(hq 0).2.2.1]
      rcases hm.htotal with ⟨h1, _⟩ | ⟨_, h1, _⟩
      · rw [e]; exact h1
      · rw [← e, s4] at h1; exact absurd h1 saturated_ne_zero
    · rw [hm.hother _ e] at h0 ⊢; exact hi.root0 h0
  · intro h0
    by_cases e : fn.num_blocks - 1 = b
    · rw [(hq _).2.2.2]
      rcases hm.htotal with ⟨h1, _⟩ | ⟨_, h1, _⟩
      · rw [← e, s3] at h1; exact absurd h1 saturated_ne_zero
      · rw [e]; exact h1
    · rw [hm.hother _ e] at h0 ⊢; exact hi.rootn h0

/-- A change of chain flags and work-lists keeps what the spanning tree adds
to the state. -/
theorem tree_inv_flags (fn : function_info) (rank : Nat → Nat) (st st1 : solve_state)
    (hsc : same_counts st st1) (hi : tree_inv fn rank st) : tree_inv fn rank st1 := by
  obtain ⟨c1, _, c3⟩ := hsc
  constructor
  · intro a ha hon hu
    rw [c1]; rw [(c3 _).2.2.2.2.2] at hu
    exact hi.down a ha hon hu
  · intro a ha e he hona hone hue hav
    rw [c1] at hav ⊢
    exact hi.below a ha e he hona hone hue hav
  · intro a ha hon hu
    rw [(c3 _).2.2.2.2.2] at hu
    rw [c1, (c3 _).2.2.1, (c3 _).2.2.2.1, (c3 _).2.2.2.2.1]
    exact hi.side a ha hon hu
  · intro a ha hon hu hav
    rw [(c3 _).2.2.2.2.2] at hu
    rw [c1] at hav ⊢
    rw [(c3 _).2.2.2.2.1]
    exact hi.both a ha hon hu hav
  · intro h0
    rw [(c3 _).2.2.2.2.2] at h0
    rw [(c3 _).2.2.1]; exact hi.root0 h0
  · intro h0
    rw [(c3 _).2.2.2.2.2] at h0
    rw [(c3 _).2.2.2.1]; exact hi.rootn h0

/-- Deducing the last pending exit of a valid block keeps what the spanning
tree adds to the state: the arc is the one that joins the block to its
parent. -/
theorem tree_inv_deduce_exit (fn : function_info) (hl : arcs_linked fn) (rank : Nat → Nat)
    (ht : spanning_tree fn rank)
    (hexit : (blk fn.blocks (fn.num_blocks - 1)).succ = [])
    (st st1 : solve_state) (v o ia : Nat) (total : Int)
    (hg : graph_inv fn st) (hv : v < fn.num_blocks) (hcv : (blk st.blocks v).count_valid = true)
    (hia : ia < fn.arcs.length) (hiv : (arc st.arcs ia).count_valid = false)
    (h1 : (blk st.blocks v).num_succ = 1) (hmem : ia ∈ (blk st.blocks v).succ)
    (htot : total = (blk st.blocks v).count - sum_counts st.arcs (blk st.blocks v).succ)
    (hd : deduced v o ia true total st st1) (hi : tree_inv fn rank st) :
    tree_inv fn rank st1 := by
  have hia2 : ia < st.arcs.length := by rw [hg.alen]; exact hia
  have harc := deduced_arc v o ia true total st st1 hd hia2
  have hon := (hg.off ia hia hiv).1
  have hoff := (hg.off ia hia hiv).2
  have hmf : ia ∈ (blk fn.blocks v).succ := (hg.succs v).mem_iff.1 hmem
  have hsrc : v = (arc fn.arcs ia).src := (linked_mem_succ fn hl ia hia v).1 hmf
  obtain ⟨hends, hsd, _, _⟩ := tree_arc_ends fn rank ht.1 ia hia hon
  have hsum : ∀ L, sum_counts st1.arcs L = sum_counts st.arcs L + (L.count ia : Nat) * total := by
    intro L
    rw [hd.harcs, sum_counts_set _ _ _ hia2]
    simp [hoff]
  have hval : ∀ a, a ≠ ia → arc st1.arcs a = arc st.arcs a := fun a e => by rw [harc a, if_neg e]
  have hK : upper fn rank ia = v := by
    rcases hends with ⟨p, _⟩ | ⟨p, q⟩
    · rw [p]; exact hsrc.symm
    · exfalso
      have hlow : lower fn rank ia = v := by rw [q]; exact hsrc.symm
      by_cases e0 : v = 0
      · have := hi.root0 (by rw [← e0]; exact hcv)
        rw [← e0, h1] at this; exact absurd this (by decide)
      · by_cases en : v + 1 = fn.num_blocks
        · have : v = fn.num_blocks - 1 := by omega
          rw [this, hexit] at hmf; simp at hmf
        · obtain ⟨e, he, hone, hue⟩ := ht.2.2 v hv (by omega) (by omega)
          have heinv := hi.below ia hia e he hon hone (by rw [hue, hlow]) hiv
          have hne : e ≠ ia := by
            intro h
            rw [h, p] at hue
            exact hsd (by rw [← hsrc, hue])
          have hs := hi.side e he hone (by rw [hue]; exact hcv)
          rw [hue] at hs
          split at hs
          · rename_i hes
            have hme : e ∈ (blk fn.blocks v).succ := (linked_mem_succ fn hl e he v).2 hes.symm
            exact pending_succ_ne_one fn st hg v e ia hme hmf hne heinv hiv h1
          · rw [h1] at hs; exact absurd hs.1 (by decide)
  have hlow : lower fn rank ia = (arc fn.arcs ia).dst := by
    rcases hends with ⟨_, q⟩ | ⟨p, _⟩
    · exact q
    · exfalso; rw [hK] at p; exact hsd (by rw [← hsrc, p])
  have hnotpred : ia ∉ (blk fn.blocks v).pred := by
    intro h
    have := (linked_mem_pred fn hl ia hia v).1 h
    exact hsd (by rw [← hsrc, ← this])
  have hcount1 : (blk fn.blocks v).succ.count ia = 1 := by
    rw [linked_count_succ fn hl ia hia v, if_pos hsrc]
  have hsv := hi.side ia hia hon (by rw [hK]; exact hcv)
  rw [hK, if_pos hsrc.symm] at hsv
  constructor
  · intro a ha hona hu
    rw [(hd.hsame _).2.2.2] at hu
    by_cases e : a = ia
    · rw [e, hK, hcv] at hu; exact absurd hu (by decide)
    · rw [hval a e]; exact hi.down a ha hona hu
  · intro a ha e he hona hone hue hav
    by_cases ea : a = ia
    · rw [ea, harc ia, if_pos rfl] at hav; simp at hav
    · rw [hval a ea] at hav
      have hebefore := hi.below a ha e he hona hone hue hav
      by_cases ee : e = ia
      · exfalso
        rw [ee, hK] at hue
        obtain ⟨hendsa, _, _, _⟩ := tree_arc_ends fn rank ht.1 a ha hona
        rcases hendsa with ⟨_, q⟩ | ⟨_, q⟩
        · have hma : a ∈ (blk fn.blocks v).pred :=
            (linked_mem_pred fn hl a ha v).2 (by rw [hue, q])
          exact pending_pred_ne_zero fn st hg v a hma hav hsv.1
        · have hma : a ∈ (blk fn.blocks v).succ :=
            (linked_mem_succ fn hl a ha v).2 (by rw [hue, q])
          exact pending_succ_ne_one fn st hg v a ia hma hmf ea hav hiv h1
      · rw [hval e ee]; exact hebefore
  · intro a ha hona hu
    rw [(hd.hsame _).2.2.2] at hu
    have hs := hi.side a ha hona hu
    rw [(hd.hsame _).2.2.1]
    split
    · rename_i hsa
      rw [if_pos hsa] at hs
      have hnot : ia ∉ (blk fn.blocks (upper fn rank a)).pred := fun h =>
        pending_pred_ne_zero fn st hg _ ia h hiv hs.1
      refine ⟨?_, ?_⟩
      · rw [hd.hnp, if_neg ?_]
        · exact hs.1
        · intro h
          apply hnot
          exact (linked_mem_pred fn hl ia hia _).2 (by rw [h, (hg.frame ia).2.1])
      · rw [hsum, List.count_eq_zero_of_not_mem hnot]
        simp only [Nat.cast_zero, zero_mul, add_zero]
        exact hs.2
    · rename_i hsa
      rw [if_neg hsa] at hs
      have hnot : ia ∉ (blk fn.blocks (upper fn rank a)).succ := fun h =>
        pending_succ_ne_zero fn st hg _ ia h hiv hs.1
      refine ⟨?_, ?_⟩
      · rw [hd.hns, if_neg ?_]
        · exact hs.1
        · intro h
          apply hnot
          exact (linked_mem_succ fn hl ia hia _).2 (by rw [h, (hg.frame ia).1])
      · rw [hsum, List.count_eq_zero_of_not_mem hnot]
        simp only [Nat.cast_zero, zero_mul, add_zero]
        exact hs.2
  · intro a ha hona hu hav
    rw [(hd.hsame _).2.2.2] at hu
    rw [(hd.hsame _).2.2.1]
    by_cases e : a = ia
    · rw [e, hK]
      refine ⟨?_, ?_⟩
      · rw [hsum, List.count_eq_zero_of_not_mem hnotpred]
        simp only [Nat.cast_zero, zero_mul, add_zero]
        exact hsv.2
      · rw [hsum, hcount1, htot, sum_counts_perm _ _ _ (hg.succs v)]
        push_cast
        ring
    · rw [hval a e] at hav
      have hb := hi.both a ha hona hu hav
      have hne_v : upper fn rank a ≠ v := fun h =>
        e (ht.2.1 a ha ia hia hona hon (by rw [h, hK]))
      have hnp : ia ∉ (blk fn.blocks (upper fn rank a)).pred := by
        intro h
        have hd2 := (linked_mem_pred fn hl ia hia _).1 h
        have := hi.below ia hia a ha hon hona (by rw [hlow]; exact hd2) hiv
        rw [this] at hav; exact absurd hav (by decide)
      have hns : ia ∉ (blk fn.blocks (upper fn rank a)).succ := by
        intro h
        have := (linked_mem_succ fn hl ia hia _).1 h
        exact hne_v (by rw [this, ← hsrc])
      refine ⟨?_, ?_⟩
      · rw [hsum, List.count_eq_zero_of_not_mem hnp]
        simp only [Nat.cast_zero, zero_mul, add_zero]
        exact hb.1
      · rw [hsum, List.count_eq_zero_of_not_mem hns]
        simp only [Nat.cast_zero, zero_mul, add_zero]
        exact hb.2
  · intro h0
    rw [(hd.hsame _).2.2.2] at h0
    have h00 := hi.root0 h0
    rw [hd.hns, if_neg ?_]
    · exact h00
    · intro h
      have hm0 : ia ∈ (blk fn.blocks 0).succ :=
        (linked_mem_succ fn hl ia hia _).2 (by rw [h, (hg.frame ia).1])
      exact pending_succ_ne_zero fn st hg 0 ia hm0 hiv h00
  · intro h0
    rw [(hd.hsame _).2.2.2] at h0
    have h00 := hi.rootn h0
    rw [hd.hnp, if_neg ?_]
    · exact h00
    · intro h
      have hm0 : ia ∈ (blk fn.blocks (fn.num_blocks - 1)).pred :=
        (linked_mem_pred fn hl ia hia _).2 (by rw [h, (hg.frame ia).2.1])
      exact pending_pred_ne_zero fn st hg _ ia hm0 hiv h00

/-- Deducing the last pending entry of a valid block keeps what the spanning
tree adds to the state. -/
theorem tree_inv_deduce_entry (fn : function_info) (hl : arcs_linked fn) (rank : Nat → Nat)
    (ht : spanning_tree fn rank)
    (hentry : (blk fn.blocks 0).pred = [])
    (st st1 : solve_state) (v o ia : Nat) (total : Int)
    (hg : graph_inv fn st) (hv : v < fn.num_blocks) (hcv : (blk st.blocks v).count_valid = true)
    (hia : ia < fn.arcs.length) (hiv : (arc st.arcs ia).count_valid = false)
    (h1 : (blk st.blocks v).num_pred = 1) (hmem : ia ∈ (blk st.blocks v).pred)
    (htot : total = (blk st.blocks v).count - sum_counts st.arcs (blk st.blocks v).pred)
    (hd : deduced v o ia false total st st1) (hi : tree_inv fn rank st) :
    tree_inv fn rank st1 := by
  have hia2 : ia < st.arcs.length := by rw [hg.alen]; exact hia
  have harc := deduced_arc v o ia false total st st1 hd hia2
  have hon := (hg.off ia hia hiv).1
  have hoff := (hg.off ia hia hiv).2
  have hmf : ia ∈ (blk fn.blocks v).pred := by rw [← hg.preds v]; exact hmem
  have hdst : v = (arc fn.arcs ia).dst := (linked_mem_pred fn hl ia hia v).1 hmf
  obtain ⟨hends, hsd, _, _⟩ := tree_arc_ends fn rank ht.1 ia hia hon
  have hsrcne : (arc fn.arcs ia).src ≠ v := fun h => hsd (by rw [h, ← hdst])
  have hsum : ∀ L, sum_counts st1.arcs L = sum_counts st.arcs L + (L.count ia : Nat) * total := by
    intro L
    rw [hd.harcs, sum_counts_set _ _ _ hia2]
    simp [hoff]
  have hval : ∀ a, a ≠ ia → arc st1.arcs a = arc st.arcs a := fun a e => by rw [harc a, if_neg e]
  have hK : upper fn rank ia = v := by
    rcases hends with ⟨p, q⟩ | ⟨p, _⟩
    · exfalso
      have hlow : lower fn rank ia = v := by rw [q]; exact hdst.symm
      by_cases e0 : v = 0
      · rw [e0, hentry] at hmf; simp at hmf
      · by_cases en : v + 1 = fn.num_blocks
        · have hvn : v = fn.num_blocks - 1 := by omega
          have := hi.rootn (by rw [← hvn]; exact hcv)
          rw [← hvn, h1] at this; exact absurd this (by decide)
        · obtain ⟨e, he, hone, hue⟩ := ht.2.2 v hv (by omega) (by omega)
          have heinv := hi.below ia hia e he hon hone (by rw [hue, hlow]) hiv
          have hne : e ≠ ia := by
            intro h
            rw [h, p] at hue
            exact hsrcne hue
          have hs := hi.side e he hone (by rw [hue]; exact hcv)
          obtain ⟨hendse, _, _, _⟩ := tree_arc_ends fn rank ht.1 e he hone
          rw [hue] at hs hendse
          split at hs
          · rw [h1] at hs; exact absurd hs.1 (by decide)
          · rename_i hes
            have hde : v = (arc fn.arcs e).dst := by
              rcases hendse with ⟨p2, _⟩ | ⟨p2, _⟩
              · exact absurd p2.symm hes
              · exact p2
            have hme : e ∈ (blk fn.blocks v).pred := (linked_mem_pred fn hl e he v).2 hde
            exact pending_pred_ne_one fn st hg v e ia hme hmf hne heinv hiv h1
    · rw [p]; exact hdst.symm
  have hlow : lower fn rank ia = (arc fn.arcs ia).src := by
    rcases hends with ⟨p, _⟩ | ⟨_, q⟩
    · exfalso; rw [hK] at p; exact hsrcne p.symm
    · exact q
  have hnotsucc : ia ∉ (blk fn.blocks v).succ := by
    intro h
    have := (linked_mem_succ fn hl ia hia v).1 h
    exact hsrcne this.symm
  have hcount1 : (blk fn.blocks v).pred.count ia = 1 := by
    rw [linked_count_pred fn hl ia hia v, if_pos hdst]
  have hsv := hi.side ia hia hon (by rw [hK]; exact hcv)
  rw [hK, if_neg hsrcne] at hsv
  constructor
  · intro a ha hona hu
    rw [(hd.hsame _).2.2.2] at hu
    by_cases e : a = ia
    · rw [e, hK, hcv] at hu; exact absurd hu (by decide)
    · rw [hval a e]; exact hi.down a ha hona hu
  · intro a ha e he hona hone hue hav
    by_cases ea : a = ia
    · rw [ea, harc ia, if_pos rfl] at hav; simp at hav
    · rw [hval a ea] at hav
      have hebefore := hi.below a ha e he hona hone hue hav
      by_cases ee : e = ia
      · exfalso
        rw [ee, hK] at hue
        obtain ⟨hendsa, _, _, _⟩ := tree_arc_ends fn rank ht.1 a ha hona
        rcases hendsa with ⟨_, q⟩ | ⟨_, q⟩
        · have hma : a ∈ (blk fn.blocks v).pred :=
            (linked_mem_pred fn hl a ha v).2 (by rw [hue, q])
          exact pending_pred_ne_one fn st hg v a ia hma hmf ea hav hiv h1
        · have hma : a ∈ (blk fn.blocks v).succ :=
            (linked_mem_succ fn hl a ha v).2 (by rw [hue, q])
          exact pending_succ_ne_zero fn st hg v a hma hav hsv.1
      · rw [hval e ee]; exact hebefore
  · intro a ha hona hu
    rw [(hd.hsame _).2.2.2] at hu
    have hs := hi.side a ha hona hu
    rw [(hd.hsame _).2.2.1]
    split
    · rename_i hsa
      rw [if_pos hsa] at hs
      have hnot : ia ∉ (blk fn.blocks (upper fn rank a)).pred := fun h =>
        pending_pred_ne_zero fn st hg _ ia h hiv hs.1
      refine ⟨?_, ?_⟩
      · rw [hd.hnp, if_neg ?_]
        · exact hs.1
        · intro h
          apply hnot
          exact (linked_mem_pred fn hl ia hia _).2 (by rw [h, (hg.frame ia).2.1])
      · rw [hsum, List.count_eq_zero_of_not_mem hnot]
        simp only [Nat.cast_zero, zero_mul, add_zero]
        exact hs.2
    · rename_i hsa
      rw [if_neg hsa] at hs
      have hnot : ia ∉ (blk fn.blocks (upper fn rank a)).succ := fun h =>
        pending_succ_ne_zero fn st hg _ ia h hiv hs.1
      refine ⟨?_, ?_⟩
      · rw [hd.hns, if_neg ?_]
        · exact hs.1
        · intro h
          apply hnot
          exact (linked_mem_succ fn hl ia hia _).2 (by rw [h, (hg.frame ia).1])
      · rw [hsum, List.count_eq_zero_of_not_mem hnot]
        simp only [Nat.cast_zero, zero_mul, add_zero]
        exact hs.2
  · intro a ha hona hu hav
    rw [(hd.hsame _).2.2.2] at hu
    rw [(hd.hsame _).2.2.1]
    by_cases e : a = ia
    · rw [e, hK]
      refine ⟨?_, ?_⟩
      · rw [hsum, hcount1, htot, hg.preds v]
        push_cast
        ring
      · rw [hsum, List.count_eq_zero_of_not_mem hnotsucc]
        simp only [Nat.cast_zero, zero_mul, add_zero]
        exact hsv.2
    · rw [hval a e] at hav
      have hb := hi.both a ha hona hu hav
      have hne_v : upper fn rank a ≠ v := fun h =>
        e (ht.2.1 a ha ia hia hona hon (by rw [h, hK]))
      have hns : ia ∉ (blk fn.blocks (upper fn rank a)).succ := by
        intro h
        have hd2 := (linked_mem_succ fn hl ia hia _).1 h
        have := hi.below ia hia a ha hon hona (by rw [hlow]; exact hd2) hiv
        rw [this] at hav; exact absurd hav (by decide)
      have hnp : ia ∉ (blk fn.blocks (upper fn rank a)).pred := by
        intro h
        have := (linked_mem_pred fn hl ia hia _).1 h
        exact hne_v (by rw [this, ← hdst])
      refine ⟨?_, ?_⟩
      · rw [hsum, List.count_eq_zero_of_not_mem hnp]
        simp only [Nat.cast_zero, zero_mul, add_zero]
        exact hb.1
      · rw [hsum, List.count_eq_zero_of_not_mem hns]
        simp only [Nat.cast_zero, zero_mul, add_zero]
        exact hb.2
  · intro h0
    rw [(hd.hsame _).2.2.2] at h0
    have h00 := hi.root0 h0
    rw [hd.hns, if_neg ?_]
    · exact h00
    · intro h
      have hm0 : ia ∈ (blk fn.blocks 0).succ :=
        (linked_mem_succ fn hl ia hia _).2 (by rw [h, (hg.frame ia).1])
      exact pending_succ_ne_zero fn st hg 0 ia hm0 hiv h00
  · intro h0
    rw [(hd.hsame _).2.2.2] at h0
    have h00 := hi.rootn h0
    rw [hd.hnp, if_neg ?_]
    · exact h00
    · intro h
      have hm0 : ia ∈ (blk fn.blocks (fn.num_blocks - 1)).pred :=
        (linked_mem_pred fn hl ia hia _).2 (by rw [h, (hg.frame ia).2.1])
      exact pending_pred_ne_zero fn st hg _ ia hm0 hiv h00

/-- Every atomic step of the fixed-point loop keeps what the spanning tree
adds to the state, and the saturated counters of the exit and the entry. -/
theorem tree_inv_step (fn : function_info) (hl : arcs_linked fn) (rank : Nat → Nat)
    (ht : spanning_tree fn rank)
    (hexit : (blk fn.blocks (fn.num_blocks - 1)).succ = []) (hentry : (blk fn.blocks 0).pred = [])
    (st st1 : solve_state)
    (hi : tree_inv fn rank st ∧ (blk st.blocks (fn.num_blocks - 1)).num_succ = saturated ∧
      (blk st.blocks 0).num_pred = saturated)
    (h : solve_step fn st st1) :
    tree_inv fn rank st1 ∧ (blk st1.blocks (fn.num_blocks - 1)).num_succ = saturated ∧
      (blk st1.blocks 0).num_pred = saturated := by
  obtain ⟨hi, s3, s4⟩ := hi
  cases h with
  | mark b total hg hb hv hm =>
    have hq := marked_blk b total st st1 hm
    exact ⟨tree_inv_mark fn hl rank ht st st1 b total hg hv hm hi s3 s4,
      by rw [(hq _).2.2.1]; exact s3, by rw [(hq _).2.2.2]; exact s4⟩
  | flags hg hsc =>
    exact ⟨tree_inv_flags fn rank st st1 hsc hi, by rw [(hsc.2.2 _).2.2.1]; exact s3,
      by rw [(hsc.2.2 _).2.2.2.1]; exact s4⟩
  | deduce v o ia ex total hg hv hcv hia hiv hside hd =>
    have hsrc : (arc st.arcs ia).src = (arc fn.arcs ia).src := (hg.frame ia).1
    have hdst : (arc st.arcs ia).dst = (arc fn.arcs ia).dst := (hg.frame ia).2.1
    have hlast : fn.num_blocks - 1 ≠ (arc fn.arcs ia).src := by
      intro hc2
      have := (linked_mem_succ fn hl ia hia _).2 hc2
      rw [hexit] at this; simp at this
    have hfirst : 0 ≠ (arc fn.arcs ia).dst := by
      intro hc2
      have := (linked_mem_pred fn hl ia hia _).2 hc2
      rw [hentry] at this; simp at this
    refine ⟨?_, by rw [hd.hns, hsrc, if_neg hlast]; exact s3,
      by rw [hd.hnp, hdst, if_neg hfirst]; exact s4⟩
    cases ex with
    | true =>
      rw [if_pos rfl] at hside
      exact tree_inv_deduce_exit fn hl rank ht hexit st st1 v o ia total hg hv hcv hia hiv
        hside.1 hside.2.1 hside.2.2 hd hi
    | false =>
      rw [if_neg Bool.false_ne_true] at hside
      exact tree_inv_deduce_entry fn hl rank ht hentry st st1 v o ia total hg hv hcv hia hiv
        hside.1 hside.2.1 hside.2.2 hd hi

theorem tree_inv_steps (fn : function_info) (hl : arcs_linked fn) (rank : Nat → Nat)
    (ht : spanning_tree fn rank)
    (hexit : (blk fn.blocks (fn.num_blocks - 1)).succ = []) (hentry : (blk fn.blocks 0).pred = [])
    (st st1 : solve_state)
    (hi : tree_inv fn rank st ∧ (blk st.blocks (fn.num_blocks - 1)).num_succ = saturated ∧
      (blk st.blocks 0).num_pred = saturated)
    (h : Relation.ReflTransGen (solve_step fn) st st1) :
    tree_inv fn rank st1 ∧ (blk st1.blocks (fn.num_blocks - 1)).num_succ = saturated ∧
      (blk st1.blocks 0).num_pred = saturated := by
  induction h with
  | refl => exact hi
  | tail _ hstep ih => exact tree_inv_step fn hl rank ht hexit hentry _ _ ih hstep

/-- The state in which the fixed-point loop starts has what the spanning tree
adds: no block is valid and no arc on the tree is. -/
theorem tree_inv_start (fn : function_info) (hr : fn_ready fn) (rank : Nat → Nat) (fuel : Nat)
    (hfuel : fn.arcs.length * fn.arcs.length < fuel) (st0 : solve_state)
    (hs : solve_start fuel fn = some st0) : tree_inv fn rank st0 := by
  obtain ⟨v1, v2, _, _⟩ := solve_start_valid fn hr fuel hfuel st0 hs
  have hb : ∀ j, (blk st0.blocks j).count_valid = true → False := by
    intro j h; rw [v2 j] at h; exact absurd h (by decide)
  constructor
  · intro a ha hon _
    rw [v1 a ha, hon]; rfl
  · intro a _ e he _ hone _ _
    rw [v1 e he, hone]; rfl
  · intro a _ _ hu
    exact absurd hu (fun h => hb _ h)
  · intro a _ _ hu _
    exact absurd hu (fun h => hb _ h)
  · intro h0
    exact absurd h0 (fun h => hb _ h)
  · intro h0
    exact absurd h0 (fun h => hb _ h)

/-- C1: for every function of an accepted pair with two blocks or more, no
entry arc of the first block, no exit arc of the last, and arcs on the tree
that form, with a virtual edge between the exit and the entry, a spanning
tree of the blocks, `solve_flow_graph` returns with enough fuel, and in its
result the counts of the entry arcs of every inner block sum to the count of
the block, which is the sum of the counts of its exit arcs (all arcs of the
chains, fake ones included). -/
theorem solve_flow_graph_conserves (rfuel : Nat) (gcno : List Char) (note : Option note_file)
    (data : Option data_file) (p p1 : pair_state)
    (h : read_graph_file rfuel gcno note pair_state.empty = result.ok p)
    (h1 : read_count_file data p = result.ok p1) (f fuel : Nat)
    (hfuel : (p1.fn f).arcs.length * (p1.fn f).arcs.length + 2 * (p1.fn f).arcs.length +
      3 * (p1.fn f).num_blocks < fuel)
    (hn : 2 ≤ (p1.fn f).num_blocks)
    (hentry : (blk (p1.fn f).blocks 0).pred = [])
    (hexit : (blk (p1.fn f).blocks ((p1.fn f).num_blocks - 1)).succ = [])
    (rank : Nat → Nat) (ht : spanning_tree (p1.fn f) rank) :
    ∃ fn1, solve_flow_graph fuel (p1.fn f) = some fn1 ∧
      ∀ j, 0 < j → j + 1 < (p1.fn f).num_blocks →
        sum_counts fn1.arcs (blk fn1.blocks j).pred = (blk fn1.blocks j).count ∧
        (blk fn1.blocks j).count = sum_counts fn1.arcs (blk fn1.blocks j).succ := by
  have hr := read_files_ready rfuel gcno note data p p1 h h1 f
  obtain ⟨st0, iv1, st1, r1, _, _, _, r5, r6, r7, r8, r9, r10, _, _⟩ :=
    solve_run (p1.fn f) hr fuel hfuel
  obtain ⟨_, _, v3, v4⟩ := solve_start_valid (p1.fn f) hr fuel (by omega) st0 r1
  have hi0 := tree_inv_start (p1.fn f) hr rank fuel (by omega) st0 r1
  obtain ⟨hi1, _, _⟩ := tree_inv_steps (p1.fn f) hr.1 rank ht hexit hentry st0 st1
    ⟨hi0, v3 hn hexit, v4 hn hentry⟩ r10
  have ha := final_arcs_valid (p1.fn f) rank hr.1 ht st1 r8 r9 r5 r6
  have hb := final_blocks_valid (p1.fn f) hr.1 hn st1 r8 r9 r5 ha
  refine ⟨_, r7, ?_⟩
  intro j hj0 hjn
  obtain ⟨a, hal, hon, hu⟩ := ht.2.2 j (by omega) hj0 hjn
  have hboth := hi1.both a hal hon (by rw [hu]; exact hb j (by omega)) (ha a hal)
  rw [hu] at hboth
  show sum_counts st1.arcs (blk st1.blocks j).pred = (blk st1.blocks j).count ∧
    (blk st1.blocks j).count = sum_counts st1.arcs (blk st1.blocks j).succ
  rw [r8.preds j, sum_counts_perm _ _ _ (r8.succs j)]
  exact ⟨hboth.1, hboth.2.symm⟩

/-- Witness of C1: the function of `skew_note` with the measured counts 5
and 6. -/
theorem solve_flow_graph_conserves_witness :
    ∃ fn1, solve_flow_graph 37 ((skew_counted 5 6).fn 0) = some fn1 ∧
      ∀ j, 0 < j → j + 1 < ((skew_counted 5 6).fn 0).num_blocks →
        sum_counts fn1.arcs (blk fn1.blocks j).pred = (blk fn1.blocks j).count ∧
        (blk fn1.blocks j).count = sum_counts fn1.arcs (blk fn1.blocks j).succ :=
  solve_flow_graph_conserves 8 (skew_pair 5 6).gcno (skew_pair 5 6).note (skew_pair 5 6).data
    skew_graph (skew_counted 5 6) (by decide) (by decide) 0 37 (by decide) (by decide)
    (by decide) (by decide)
    (fun j => if j = 0 then 0 else if j = 3 then 1 else 2) (by decide)

end Lcov
